import Mathlib

/-! # julmalloc: a shallow embedding of the heap engine

The allocator keeps a circular doubly linked list of segment heads and tails
inside one contiguous arena obtained from the program break.  This file embeds
`utils.c`, `storage.c`, `linked_list_mgmt.c`, `strats.c`, `memory_mgmt.c` and
`methods.c` as executable Lean functions over a byte-addressed memory, and
proves properties of them.

Conventions of the embedding.
* Addresses and `size_t` values are natural numbers; `size_t` arithmetic is
  reduced modulo `2^64`, casts to `int` are reduced to the signed 32-bit range.
* Memory is a total map from byte addresses to bytes.  Pointer-sized and
  `size_t`-sized fields are stored as eight little-endian bytes.
* `nullptr` is the address `0`.
* A call either returns (`Except.ok`) a value together with the new state or
  stops the process (`Except.error`) through a failed `ASSERT`, `abort()`,
  `exit(EXIT_FAILURE)`; loops are run with an explicit iteration budget.
-/

set_option maxRecDepth 100000
set_option linter.all false

namespace Julmalloc

/-! ## Constants and machine arithmetic -/

/-- `ALIGNMENT`, that is `_Alignof(max_align_t)` on the 64-bit target. -/
def ALIGNMENT : Nat := 16

/-- `PAGE_SIZE` of `defines.h`. -/
def PAGE_SIZE : Nat := 4096

/-- Number of values of a `size_t`. -/
def W64 : Nat := 18446744073709551616

/-- Conversion of a mathematical integer to `size_t`. -/
def toSize (z : Int) : Nat := (z % 18446744073709551616).toNat

/-- Conversion of a mathematical integer to `int` (two's complement, 32 bit). -/
def toInt32 (z : Int) : Int := (z + 2147483648) % 4294967296 - 2147483648

/-- Sizes of the three on-heap records.  The declarations live in `types.h`,
which is not part of the sources, so the sizes are parameters. -/
structure Sizes where
  /-- value of `sizeof(seg_list_head_s)` -/
  LS : Nat
  /-- value of `sizeof(seg_head_s)` -/
  HS : Nat
  /-- value of `sizeof(seg_tail_s)` -/
  TS : Nat

/-- The sizes are multiples of `ALIGNMENT` (checked by `alignment.c`) and large
enough to hold the fields of the records. -/
def Sizes.ok (c : Sizes) : Prop :=
  c.LS % 16 = 0 ∧ c.HS % 16 = 0 ∧ c.TS % 16 = 0 ∧ 16 ≤ c.LS ∧ 24 ≤ c.HS ∧ 24 ≤ c.TS ∧
  c.LS < 1024 ∧ c.HS < 1024 ∧ c.TS < 1024

instance (c : Sizes) : Decidable c.ok := by unfold Sizes.ok; infer_instance

/-- The sizes quoted for the 64-bit target. -/
def sizes64 : Sizes := { LS := 32, HS := 48, TS := 48 }

/-! ## utils.c -/

/-- `round_up` of `utils.c` on `size_t`. -/
def round_up (num_to_round multiple : Nat) : Nat :=
  if multiple = 0 then num_to_round
  else
    let remainder := num_to_round % multiple
    if remainder = 0 then num_to_round
    else (num_to_round + multiple - remainder) % 18446744073709551616

/-- `round_down` of `utils.c` on `size_t`. -/
def round_down (num_to_round multiple : Nat) : Nat :=
  if multiple = 0 then num_to_round
  else
    let remainder := num_to_round % multiple
    if remainder = 0 then num_to_round
    else num_to_round - remainder

/-! ## Outcomes -/

/-- Ways in which a call stops the process instead of returning. -/
inductive Stop where
  /-- a failed `ASSERT`, which calls `a_abort` -/
  | assertion
  /-- a direct call of `abort()` -/
  | abort
  /-- a call of `exit(EXIT_FAILURE)` -/
  | exit
  /-- `pthread_mutex_lock` on the mutex the caller already holds -/
  | deadlock
  /-- the iteration budget of a loop of the embedding ran out -/
  | fuel
  deriving DecidableEq, Repr

/-- `ASSERT(expr)` with assertions enabled (`NDEBUG` is not defined). -/
def ASSERT (p : Prop) [Decidable p] : Except Stop Unit :=
  if p then .ok () else .error Stop.assertion

/-! ## Byte memory (storage.c and field access) -/

/-- Byte-addressed memory. -/
abbrev Mem := Nat → Nat

/-- `read_byte` of `storage.c` (the null check is done by the callers here). -/
def read_byte (m : Mem) (addr : Nat) : Nat := m addr % 256

/-- The store `*addr = v` of one byte. -/
def store_byte (m : Mem) (addr v : Nat) : Mem :=
  fun x => if x = addr then v % 256 else m x

/-- `set_byte` of `storage.c`: a null address ends the process with `abort()`. -/
def set_byte (m : Mem) (addr v : Nat) : Except Stop Mem :=
  if addr = 0 then .error Stop.abort else .ok (store_byte m addr v)

/-- Read an eight-byte little-endian field. -/
def rd64 (m : Mem) (a : Nat) : Nat :=
  m a % 256 + 256 * (m (a + 1) % 256 + 256 * (m (a + 2) % 256 + 256 * (m (a + 3) % 256 +
  256 * (m (a + 4) % 256 + 256 * (m (a + 5) % 256 + 256 * (m (a + 6) % 256 +
  256 * (m (a + 7) % 256)))))))

/-- Write an eight-byte little-endian field. -/
def wr64 (m : Mem) (a v : Nat) : Mem :=
  fun x =>
    if a ≤ x ∧ x < a + 8 then (v / 256 ^ (x - a)) % 256 else m x

/-- `set_mem_zero` of `storage.c`: the loop `for (i = 0; i < size; i++)` over the
calls `set_byte(addr + i, 0)`; the pointer `addr + i` has 64 bits. -/
def set_mem_zero (m : Mem) (addr : Nat) : Nat → Except Stop Mem
  | 0 => .ok m
  | n + 1 => do
    let m1 ← set_mem_zero m addr n
    set_byte m1 ((addr + n) % 18446744073709551616) 0

/-- `copy_byte` of `storage.c`; `none` is the `ERROR` return.  Behind the test for
null addresses neither `read_byte` nor `set_byte` can abort, so the byte is read
and stored directly. -/
def copy_byte (m : Mem) (addr_old addr_new : Nat) : Option Mem :=
  if addr_old = 0 ∨ addr_new = 0 then none
  else if addr_old = addr_new then some m
  else some (store_byte m addr_new (read_byte m addr_old))

/-- The copy loop of `copy_mem`, bytes `0 .. n-1` in increasing order; the pointers
`old_addr + i` and `new_addr + i` have 64 bits, and the loop ends with `ERROR` at
the first byte `copy_byte` refuses. -/
def copy_loop (m : Mem) (old_addr new_addr : Nat) : Nat → Option Mem
  | 0 => some m
  | n + 1 =>
    match copy_loop m old_addr new_addr n with
    | none => none
    | some m1 =>
      copy_byte m1 ((old_addr + n) % 18446744073709551616)
        ((new_addr + n) % 18446744073709551616)

/-- `copy_mem` of `storage.c`; `none` is the `ERROR` return. -/
def copy_mem (m : Mem) (old_addr new_addr size : Nat) : Option Mem :=
  if old_addr = 0 ∨ new_addr = 0 then none
  else if (old_addr + size) % 18446744073709551616 > new_addr ∧ new_addr > old_addr then none
  else copy_loop m old_addr new_addr size


/-- The memory after the bytes `[addr, addr + n)` were set to zero: what
`set_mem_zero` leaves when no pointer is null or wraps. -/
def zeroed (m : Mem) (addr : Nat) : Nat → Mem
  | 0 => m
  | n + 1 => store_byte (zeroed m addr n) (addr + n) 0

/-- The memory after the bytes `[old_addr, old_addr + n)` were copied to `new_addr`
in increasing order: what the loop of `copy_mem` leaves when no pointer is null or
wraps. -/
def copied (m : Mem) (old_addr new_addr : Nat) : Nat → Mem
  | 0 => m
  | n + 1 =>
    let m1 := copied m old_addr new_addr n
    if old_addr + n = new_addr + n then m1
    else store_byte m1 (new_addr + n) (read_byte m1 (old_addr + n))

/-! ## Process state -/

/-- `sched_strat_e`: the value selecting `g_alloc_function`. -/
inductive Strat where
  | BEST_FIT
  | FIRST_FIT
  | NEXT_FIT
  | WORST_FIT
  deriving DecidableEq, Repr

/-- The process-wide state the allocator works on. -/
structure Heap where
  /-- the bytes of the address space -/
  mem : Mem
  /-- global `start` of `memory_mgmt.c` (`0` while the list does not exist) -/
  start : Nat
  /-- global `last_addr` of `strats.c`, the next-fit cursor -/
  last_addr : Nat
  /-- global `g_alloc_function` of `memory_mgmt.c` -/
  g_alloc_function : Strat
  /-- the program break -/
  brk : Nat
  /-- the highest program break the operating system grants -/
  brk_max : Nat
  /-- global `storage_lock` of `methods.c`: `true` while the mutex is held -/
  storage_lock : Bool

/-- Modelled from the spec: the program-break primitive `sbrk` of the C library
(section 6: moves the break by a signed delta and returns the previous break, or
a sentinel on failure).  It fails when the new break would leave `[0, brk_max]`;
`none` is the `(void *)-1` return. -/
def sbrk (s : Heap) (incr : Int) : Option (Nat × Heap) :=
  if 0 ≤ (s.brk : Int) + incr ∧ (s.brk : Int) + incr ≤ s.brk_max then
    some (s.brk, { s with brk := ((s.brk : Int) + incr).toNat })
  else none

/-- The idiom `if (sbrk(incr) == (void *)-1) { ...; abort() or exit() }`: a failed
`sbrk` stops the process with `stop`. -/
def sbrk_or (stop : Stop) (s : Heap) (incr : Int) : Except Stop (Nat × Heap) :=
  match sbrk s incr with
  | none => .error stop
  | some r => .ok r

/-- Modelled from the spec: the program-break primitive `brk` of the C library,
setting the break to an absolute address; `none` is the failure return. -/
def brk (s : Heap) (addr : Nat) : Option Heap :=
  if addr ≤ s.brk_max then some { s with brk := addr } else none

/-! ### Field access

Modelled from the spec: `types.h` is absent; section 3 lists the fields of the
three records.  Each field is eight bytes wide, in the listed order. -/

/-- Field `list->first_seg`. -/
def first_seg (m : Mem) (list : Nat) : Nat := rd64 m list
/-- Field `list->end_addr`. -/
def end_addr (m : Mem) (list : Nat) : Nat := rd64 m (list + 8)
/-- Field `head->prev_seg_tail`. -/
def prev_seg_tail (m : Mem) (head : Nat) : Nat := rd64 m head
/-- Field `head->next_seg_tail`. -/
def next_seg_tail (m : Mem) (head : Nat) : Nat := rd64 m (head + 8)
/-- Field `head->seg_size`. -/
def seg_size (m : Mem) (head : Nat) : Nat := rd64 m (head + 16)
/-- Field `tail->prev_seg_head`. -/
def prev_seg_head (m : Mem) (tail : Nat) : Nat := rd64 m tail
/-- Field `tail->next_seg_head`. -/
def next_seg_head (m : Mem) (tail : Nat) : Nat := rd64 m (tail + 8)
/-- Field `tail->free_following`. -/
def free_following (m : Mem) (tail : Nat) : Nat := rd64 m (tail + 16)

/-- Assignment `list->first_seg = v`. -/
def set_first_seg (m : Mem) (list v : Nat) : Mem := wr64 m list v
/-- Assignment `list->end_addr = v`. -/
def set_end_addr (m : Mem) (list v : Nat) : Mem := wr64 m (list + 8) v
/-- Assignment `head->prev_seg_tail = v`. -/
def set_prev_seg_tail (m : Mem) (head v : Nat) : Mem := wr64 m head v
/-- Assignment `head->next_seg_tail = v`. -/
def set_next_seg_tail (m : Mem) (head v : Nat) : Mem := wr64 m (head + 8) v
/-- Assignment `head->seg_size = v`. -/
def set_seg_size (m : Mem) (head v : Nat) : Mem := wr64 m (head + 16) v
/-- Assignment `tail->prev_seg_head = v`. -/
def set_prev_seg_head (m : Mem) (tail v : Nat) : Mem := wr64 m tail v
/-- Assignment `tail->next_seg_head = v`. -/
def set_next_seg_head (m : Mem) (tail v : Nat) : Mem := wr64 m (tail + 8) v
/-- Assignment `tail->free_following = v`. -/
def set_free_following (m : Mem) (tail v : Nat) : Mem := wr64 m (tail + 16) v

/-! ## linked_list_mgmt.c -/

/-- `init_first`. -/
def init_first (m : Mem) (list : Nat) : Mem := set_first_seg m list 0

/-- `init_tail`, with its assertion. -/
def init_tail (c : Sizes) (m : Mem) (list : Nat) : Except Stop Mem := do
  let m1 := set_end_addr m list (list + c.LS)
  ASSERT ((end_addr m1 list : Int) - list = c.LS)
  pure m1

/-- `create_list`: the returned address is `0` when `sbrk` failed. -/
def create_list (c : Sizes) (s : Heap) : Except Stop (Nat × Heap) :=
  match sbrk s (c.LS + ALIGNMENT : Nat) with
  | none => pure (0, s)
  | some (addr, s1) => do
    let list := round_up addr ALIGNMENT
    let m1 := init_first s1.mem list
    let m2 ← init_tail c m1 list
    pure (list, { s1 with mem := m2 })

/-- `find_last_tail`. -/
def find_last_tail (c : Sizes) (m : Mem) (list : Nat) : Except Stop Nat :=
  if list = 0 then pure 0
  else if first_seg m list = 0 then pure 0
  else do
    let temp := prev_seg_tail m (first_seg m list)
    ASSERT (temp + c.TS ≤ end_addr m list)
    ASSERT (temp + c.TS + free_following m temp = end_addr m list)
    pure temp

/-- `get_following_gap_size`. -/
def get_following_gap_size (c : Sizes) (m : Mem) (addr : Nat) : Nat :=
  let header := addr - c.HS
  free_following m (next_seg_tail m header)

/-- `get_segment_size`. -/
def get_segment_size (c : Sizes) (m : Mem) (addr : Nat) : Nat :=
  let header := addr - c.HS
  seg_size m header

/-- `get_prev_reference`. -/
def get_prev_reference (c : Sizes) (m : Mem) (list addr : Nat) : Except Stop Nat := do
  ASSERT (addr < end_addr m list)
  ASSERT (addr ≥ list + c.LS)
  if first_seg m list = 0 then
    ASSERT (list < addr)
    pure list
  else if first_seg m list > addr then
    ASSERT (list < addr)
    pure list
  else
    pure (prev_seg_head m (addr - c.TS))

/-- `reset_list`: the returned value is `0` for `SUCCESS`, `-1` for `ERROR`. -/
def reset_list (c : Sizes) (s : Heap) (list : Nat) : Except Stop (Int × Heap) := do
  let m1 := init_first s.mem list
  let m2 ← init_tail c m1 list
  let s1 := { s with mem := m2 }
  match brk s1 (list + c.LS) with
  | none => pure (-1, s1)
  | some s2 => pure (0, s2)


/-! ## strats.c -/

/-- The value `sizeof(seg_head_s) + effective_size + sizeof(seg_tail_s)` computed
by every policy, as a `size_t`. -/
def total_size (c : Sizes) (size : Nat) : Nat :=
  (c.HS + round_up size ALIGNMENT + c.TS) % 18446744073709551616

/-- The `do ... while` loop of `best_fit`; the state of the loop is `iterator`,
`best_gap_addr` and `best_gap_size`. -/
def best_fit_loop (m : Mem) (c : Sizes) (total : Nat) :
    Nat → Nat → Nat → Nat → Except Stop Nat
  | 0, _, _, _ => .error Stop.fuel
  | fuel + 1, iterator, best_gap_addr, best_gap_size =>
    let upd : Bool := free_following m iterator ≥ total ∧
      (best_gap_addr = 0 ∨ free_following m iterator < best_gap_size)
    let best_gap_size1 := if upd then free_following m iterator else best_gap_size
    let best_gap_addr1 := if upd then iterator + c.TS else best_gap_addr
    let iterator1 := next_seg_tail m (next_seg_head m iterator)
    if prev_seg_tail m (prev_seg_head m iterator1) < iterator1 then
      best_fit_loop m c total fuel iterator1 best_gap_addr1 best_gap_size1
    else .ok best_gap_addr1

/-- `best_fit`. -/
def best_fit (c : Sizes) (fuel : Nat) (m : Mem) (list size : Nat) : Except Stop Nat :=
  let total := total_size c size
  if end_addr m list = 0 then .ok 0
  else if first_seg m list = 0 then
    let free_size := toInt32 ((end_addr m list : Int) - (list + c.LS : Nat))
    if free_size ≥ toInt32 total then .ok (list + c.LS) else .ok 0
  else
    let startgapsize := toInt32 ((first_seg m list : Int) - (list + c.LS : Nat))
    let fits : Bool := startgapsize ≥ toInt32 total
    let best_gap_size := if fits then toSize startgapsize else 0
    let best_gap_addr := if fits then list + c.LS else 0
    best_fit_loop m c total fuel (next_seg_tail m (first_seg m list)) best_gap_addr best_gap_size

/-- The `do ... while` loop of `worst_fit`; the state of the loop is `temp`,
`largest_gap_addr` and `largest_gap_size`. -/
def worst_fit_loop (m : Mem) (c : Sizes) (total : Nat) :
    Nat → Nat → Nat → Nat → Except Stop Nat
  | 0, _, _, _ => .error Stop.fuel
  | fuel + 1, temp, largest_gap_addr, largest_gap_size =>
    let upd : Bool := free_following m temp ≥ total ∧
      (largest_gap_addr = 0 ∨ free_following m temp > largest_gap_size)
    let largest_gap_size1 := if upd then free_following m temp else largest_gap_size
    let largest_gap_addr1 := if upd then temp + c.TS else largest_gap_addr
    let temp1 := next_seg_tail m (next_seg_head m temp)
    if prev_seg_tail m (prev_seg_head m temp1) < temp1 then
      worst_fit_loop m c total fuel temp1 largest_gap_addr1 largest_gap_size1
    else .ok largest_gap_addr1

/-- `worst_fit`. -/
def worst_fit (c : Sizes) (fuel : Nat) (m : Mem) (list size : Nat) : Except Stop Nat :=
  let total := total_size c size
  if end_addr m list = 0 then .ok 0
  else if first_seg m list = 0 then
    let free_size := toInt32 ((end_addr m list : Int) - (list + c.LS : Nat))
    if free_size ≥ toInt32 total then .ok (list + c.LS) else .ok 0
  else
    let startgapsize := toInt32 ((first_seg m list : Int) - (list + c.LS : Nat))
    let fits : Bool := startgapsize ≥ toInt32 total
    let largest_gap_size := if fits then toSize startgapsize else 0
    let largest_gap_addr := if fits then list + c.LS else 0
    worst_fit_loop m c total fuel (next_seg_tail m (first_seg m list)) largest_gap_addr
      largest_gap_size

/-- The `do ... while` loop shared in shape by `first_fit` and the first scan of
`next_fit`: `some a` is an early `return a`, `none` means the loop was left. -/
def scan_loop (m : Mem) (c : Sizes) (total : Nat) : Nat → Nat → Except Stop (Option Nat)
  | 0, _ => .error Stop.fuel
  | fuel + 1, temp =>
    if free_following m temp ≥ total then .ok (some (temp + c.TS))
    else
      let temp1 := next_seg_tail m (next_seg_head m temp)
      if prev_seg_tail m (prev_seg_head m temp1) < temp1 then scan_loop m c total fuel temp1
      else .ok none

/-- `first_fit`. -/
def first_fit (c : Sizes) (fuel : Nat) (m : Mem) (list size : Nat) : Except Stop Nat :=
  let total := total_size c size
  if end_addr m list = 0 then .ok 0
  else if first_seg m list = 0 then
    let free_size := toInt32 ((end_addr m list : Int) - (list + c.LS : Nat))
    if free_size ≥ toInt32 total then .ok (list + c.LS) else .ok 0
  else
    let startgapsize := toInt32 ((first_seg m list : Int) - (list + c.LS : Nat))
    if startgapsize ≥ toInt32 total then .ok (list + c.LS)
    else do
      match ← scan_loop m c total fuel (next_seg_tail m (first_seg m list)) with
      | some a => pure a
      | none => pure 0

/-- The second loop of `next_fit`, `while (iter < last_addr)`. -/
def next_fit_wrap (m : Mem) (c : Sizes) (total last : Nat) : Nat → Nat → Except Stop Nat
  | 0, _ => .error Stop.fuel
  | fuel + 1, iter =>
    if iter < last then
      if free_following m iter ≥ total then .ok (iter + c.TS)
      else next_fit_wrap m c total last fuel (next_seg_tail m (next_seg_head m iter))
    else .ok 0

/-- `next_fit`; `last` is the value of the global `last_addr`. -/
def next_fit (c : Sizes) (fuel : Nat) (m : Mem) (last list size : Nat) : Except Stop Nat :=
  let total := total_size c size
  if end_addr m list = 0 then .ok 0
  else if last = 0 then first_fit c fuel m list size
  else do
    ASSERT (last < end_addr m list)
    match ← scan_loop m c total fuel last with
    | some a => pure a
    | none =>
      let header_offset := toInt32 ((first_seg m list : Int) - (list + c.LS : Nat))
      if header_offset ≥ toInt32 total then pure (list + c.LS)
      else next_fit_wrap m c total last fuel (next_seg_tail m (first_seg m list))

/-- `set_last_addr`. -/
def set_last_addr (s : Heap) (addr : Nat) : Heap := { s with last_addr := addr }

/-- `get_last_addr`. -/
def get_last_addr (s : Heap) : Nat := s.last_addr


/-! ## memory_mgmt.c -/

/-- The branch of `add_entry` for a gap before the first segment
(`previous == start`). -/
def add_entry_front (c : Sizes) (s : Heap) (addr size : Nat) (effective_size : Nat)
    (new_size : Int) : Except Stop (Nat × Heap) := do
  let start := s.start
  let m := s.mem
  let temp := prev_seg_tail m (first_seg m start)
  let offset := toInt32 ((addr : Int) - (start + c.LS : Nat))
  ASSERT (offset ≥ 0)
  let start_gap := toInt32 ((first_seg m start : Int) - (start + c.LS : Nat))
  ASSERT (start_gap - offset ≥ new_size)
  let new_seg := addr
  let m := set_prev_seg_tail m new_seg temp
  let m := set_next_seg_tail m new_seg (new_seg + c.HS + effective_size)
  let m := set_seg_size m new_seg size
  let m := set_prev_seg_head m (next_seg_tail m new_seg) new_seg
  let m := set_next_seg_head m (next_seg_tail m new_seg) (next_seg_head m temp)
  let m := set_free_following m (next_seg_tail m new_seg) (toSize (start_gap - (offset + new_size)))
  let m := set_next_seg_head m (prev_seg_tail m new_seg) new_seg
  let m := set_prev_seg_tail m (next_seg_head m (next_seg_tail m new_seg))
    (next_seg_tail m new_seg)
  ASSERT ((new_seg : Int) - start = toInt32 (toSize (c.LS + offset)))
  ASSERT (offset + new_size + toInt32 (free_following m (next_seg_tail m new_seg)) = start_gap)
  ASSERT ((new_seg : Int) + new_size + free_following m (next_seg_tail m new_seg)
    ≤ end_addr m start)
  let m := set_first_seg m start new_seg
  pure (new_seg, { s with mem := m })

/-- The branch of `add_entry` for a gap behind an existing segment. -/
def add_entry_after (c : Sizes) (s : Heap) (addr size : Nat) (effective_size : Nat)
    (new_size : Int) (previous : Nat) : Except Stop (Nat × Heap) := do
  let start := s.start
  let m := s.mem
  let temp := next_seg_tail m previous
  ASSERT (temp + c.TS ≤ addr)
  let old_free_size := free_following m temp
  let offset := toInt32 ((addr : Int) - (temp + c.TS : Nat))
  ASSERT (offset ≥ 0)
  ASSERT (toInt32 old_free_size - offset ≥ new_size)
  let new_seg := addr
  let m := set_prev_seg_tail m new_seg temp
  let m := set_free_following m (prev_seg_tail m new_seg) (toSize offset)
  ASSERT (new_seg = prev_seg_tail m new_seg + c.TS +
    free_following m (prev_seg_tail m new_seg))
  let m := set_next_seg_tail m new_seg (new_seg + c.HS + effective_size)
  let m := set_seg_size m new_seg size
  let m := set_prev_seg_head m (next_seg_tail m new_seg) new_seg
  let m := set_next_seg_head m (next_seg_tail m new_seg) (next_seg_head m temp)
  let m := set_free_following m (next_seg_tail m new_seg)
    (toSize ((old_free_size : Int) - (offset + new_size)))
  let m := set_next_seg_head m (prev_seg_tail m new_seg) new_seg
  ASSERT (toSize ((free_following m (prev_seg_tail m new_seg) : Int) + new_size +
    free_following m (next_seg_tail m new_seg)) = old_free_size)
  let m := set_prev_seg_tail m (next_seg_head m (next_seg_tail m new_seg))
    (next_seg_tail m new_seg)
  ASSERT ((new_seg : Int) + new_size + free_following m (next_seg_tail m new_seg)
    ≤ end_addr m start)
  pure (new_seg, { s with mem := m })

/-- The branch of `add_entry` for a list without segments; the returned
address is `0` when the arena is too small. -/
def add_entry_empty (c : Sizes) (s : Heap) (addr size : Nat) (effective_size : Nat)
    (new_size : Int) : Except Stop (Nat × Heap) := do
  let start := s.start
  let m := s.mem
  let free_size := toInt32 ((end_addr m start : Int) - (start + c.LS : Nat))
  let offset := toInt32 ((addr : Int) - (start + c.LS : Nat))
  ASSERT (offset ≥ 0)
  if free_size - offset ≥ new_size then
    let new_seg := addr
    let m := set_next_seg_tail m new_seg (new_seg + c.HS + effective_size)
    let m := set_seg_size m new_seg size
    let m := set_prev_seg_head m (next_seg_tail m new_seg) new_seg
    let m := set_prev_seg_tail m new_seg (next_seg_tail m new_seg)
    let m := set_next_seg_head m (next_seg_tail m new_seg) new_seg
    let m := set_free_following m (next_seg_tail m new_seg)
      (toSize (free_size - (new_size + offset)))
    let m := set_first_seg m start new_seg
    ASSERT (new_seg = toSize ((start + c.LS : Nat) + offset))
    ASSERT ((next_seg_tail m new_seg : Int) - new_seg = toInt32 (c.HS + effective_size : Nat))
    ASSERT ((new_seg : Int) + new_size + free_following m (next_seg_tail m new_seg)
      = end_addr m start)
    ASSERT (next_seg_tail m new_seg + c.TS + free_following m (next_seg_tail m new_seg)
      = end_addr m start)
    pure (new_seg, { s with mem := m })
  else
    pure (0, s)

/-- `add_entry`: the returned address is `0` for `nullptr`. -/
def add_entry (c : Sizes) (s : Heap) (addr size : Nat) : Except Stop (Nat × Heap) :=
  if s.start = 0 ∨ end_addr s.mem s.start = 0 then pure (0, s)
  else do
    let effective_size := round_up size ALIGNMENT
    let new_size := toInt32 ((effective_size + c.HS + c.TS) % 18446744073709551616 : Nat)
    ASSERT ((addr : Int) ≤ (end_addr s.mem s.start : Int) - new_size)
    ASSERT (addr ≥ s.start + c.LS)
    let (new_seg, s1) ←
      if first_seg s.mem s.start ≠ 0 then do
        let previous ← get_prev_reference c s.mem s.start addr
        if previous = s.start then add_entry_front c s addr size effective_size new_size
        else add_entry_after c s addr size effective_size new_size previous
      else add_entry_empty c s addr size effective_size new_size
    if new_seg ≠ 0 then
      let s2 := set_last_addr s1 (next_seg_tail s1.mem new_seg)
      pure (new_seg + c.HS, s2)
    else pure (0, s1)

/-- The tail-shrink step of `remove_segment`, entered when `pred` is the last
tail: lowers the break by whole pages.  `(double)x / PAGE_SIZE` and `floor` are
exact on the values met here, so they are integer division. -/
def remove_shrink (c : Sizes) (s : Heap) (pred : Nat) : Except Stop Heap :=
  if toInt32 (free_following s.mem pred) - toInt32 (PAGE_SIZE : Nat) > 0 then do
    let old_free := free_following s.mem pred
    let to_shrink := toInt32 ((free_following s.mem pred / PAGE_SIZE : Nat)) * (PAGE_SIZE : Nat)
    ASSERT (to_shrink > 0)
    ASSERT (toSize to_shrink ≤ free_following s.mem pred)
    let (_, s1) ← sbrk_or Stop.abort s (-to_shrink)
    let m := s1.mem
    let m := set_free_following m pred (toSize ((free_following m pred : Int) - to_shrink))
    let m := set_end_addr m s.start (toSize ((end_addr m s.start : Int) - to_shrink))
    ASSERT (free_following m pred = toSize ((old_free : Int) - to_shrink))
    ASSERT (pred + c.TS + free_following m pred = end_addr m s.start)
    pure { s1 with mem := m }
  else pure s

/-- The branch of `remove_segment` for a segment that is not the first. -/
def remove_inner (c : Sizes) (s : Heap) (old : Nat) : Except Stop Heap := do
  let m := s.mem
  let pred := prev_seg_tail m old
  let s := if next_seg_tail m old = get_last_addr s then set_last_addr s pred else s
  let m := set_free_following m pred
    ((free_following m pred + (c.HS + round_up (seg_size m old) ALIGNMENT + c.TS +
      free_following m (next_seg_tail m old))) % 18446744073709551616)
  let m := set_next_seg_head m pred (next_seg_head m (next_seg_tail m old))
  let m := set_prev_seg_tail m (next_seg_head m pred) pred
  ASSERT (pred + c.TS + free_following m pred ≤ end_addr m s.start)
  ASSERT (pred + c.TS + free_following m pred ≤ end_addr m s.start ∨
    pred + c.TS + free_following m pred = next_seg_head m pred)
  let s := { s with mem := m }
  if pred = prev_seg_tail m (first_seg m s.start) then remove_shrink c s pred
  else pure s

/-- The branch of `remove_segment` for the only segment of the list. -/
def remove_only (c : Sizes) (s : Heap) (old : Nat) : Except Stop Heap := do
  let m := s.mem
  let s := if next_seg_tail m old = get_last_addr s then set_last_addr s 0 else s
  let m := set_next_seg_head m (next_seg_tail m old) old
  ASSERT (next_seg_head m (next_seg_tail m old) ≠ 0)
  let m := set_first_seg m s.start 0
  let (r, s1) ← reset_list c { s with mem := m } s.start
  if r ≠ 0 then .error Stop.abort else pure s1

/-- The branch of `remove_segment` for the first of several segments. -/
def remove_first (c : Sizes) (s : Heap) (old : Nat) : Except Stop Heap := do
  let m := s.mem
  let seg_sz := seg_size m old
  let trailing_free := free_following m (next_seg_tail m old)
  let offset := toSize ((old : Int) - (s.start + c.LS : Nat))
  let last_tail ← find_last_tail c m s.start
  let s := if next_seg_tail m old = get_last_addr s then set_last_addr s last_tail else s
  let m := set_next_seg_head m last_tail (next_seg_head m (next_seg_tail m old))
  let m := set_prev_seg_tail m (next_seg_head m last_tail) last_tail
  let m := set_first_seg m s.start (next_seg_head m last_tail)
  ASSERT ((first_seg m s.start : Int) - (s.start + c.LS : Nat) =
    toInt32 ((offset + c.HS + round_up seg_sz ALIGNMENT + c.TS + trailing_free)
      % 18446744073709551616 : Nat))
  pure { s with mem := m }

/-- `remove_segment`. -/
def remove_segment (c : Sizes) (s : Heap) (addr : Nat) : Except Stop Heap := do
  ASSERT (addr ≥ s.start + c.LS)
  ASSERT (addr < end_addr s.mem s.start)
  let old := addr - c.HS
  ASSERT (old < end_addr s.mem s.start)
  ASSERT (old ≥ s.start + c.LS)
  if first_seg s.mem s.start ≠ old then remove_inner c s old
  else if prev_seg_tail s.mem old = next_seg_tail s.mem old then remove_only c s old
  else remove_first c s old

/-- `shrink_segment`: the returned value is `0` for `SUCCESS`, `-1` for `ERROR`. -/
def shrink_segment (c : Sizes) (s : Heap) (addr size : Nat) : Except Stop (Int × Heap) :=
  let header := addr - c.HS
  let m := s.mem
  if size > seg_size m header then pure (-1, s)
  else do
    let old_addr := next_seg_tail m header
    let next := next_seg_head m (next_seg_tail m header)
    let free_size := free_following m (next_seg_tail m header)
    let effective_size := round_up (seg_size m header - size) ALIGNMENT
    let shifted := header + c.HS + effective_size
    let m := set_prev_seg_head m shifted header
    let m := set_next_seg_head m shifted next
    let m := set_free_following m shifted
      (toSize ((free_size : Int) + ((old_addr : Int) - (shifted : Int))))
    let m := set_next_seg_tail m header shifted
    let m := set_seg_size m header (seg_size m header - size)
    let m := set_prev_seg_tail m next shifted
    ASSERT (header + c.HS + round_up (seg_size m header) ALIGNMENT = next_seg_tail m header)
    ASSERT (next_seg_tail m header + c.TS + free_following m (next_seg_tail m header) =
      old_addr + c.TS + free_size)
    ASSERT (free_following m (next_seg_tail m header) =
      toSize ((free_size : Int) + ((old_addr : Int) - (shifted : Int))))
    let s1 := { s with mem := m }
    let s2 := if old_addr = get_last_addr s1 then set_last_addr s1 (next_seg_tail m header)
      else s1
    pure (0, s2)

/-- `expand_segment`: the returned value is `0` for `SUCCESS`, `-1` for `ERROR`. -/
def expand_segment (c : Sizes) (s : Heap) (addr size : Nat) : Except Stop (Int × Heap) :=
  let header := addr - c.HS
  let m := s.mem
  let free_size := free_following m (next_seg_tail m header)
  let effective_size := round_up ((seg_size m header + size) % 18446744073709551616) ALIGNMENT
  if effective_size > (round_up free_size ALIGNMENT + round_up (seg_size m header) ALIGNMENT)
      % 18446744073709551616 then pure (-1, s)
  else do
    let old_addr := next_seg_tail m header
    let next := next_seg_head m (next_seg_tail m header)
    let shifted := header + c.HS + effective_size
    let m := set_prev_seg_head m shifted header
    let m := set_next_seg_head m shifted next
    let m := set_free_following m shifted
      (toSize ((free_size : Int) - ((shifted : Int) - (old_addr : Int))))
    let m := set_next_seg_tail m header shifted
    let m := set_seg_size m header ((seg_size m header + size) % 18446744073709551616)
    let m := set_prev_seg_tail m next shifted
    ASSERT (header + c.HS + round_up (seg_size m header) ALIGNMENT = next_seg_tail m header)
    ASSERT (next_seg_tail m header + c.TS + free_following m (next_seg_tail m header) =
      old_addr + c.TS + free_size)
    ASSERT (free_following m (next_seg_tail m header) =
      toSize ((free_size : Int) - ((shifted : Int) - (old_addr : Int))))
    let s1 := { s with mem := m }
    let s2 := if old_addr = get_last_addr s1 then set_last_addr s1 (next_seg_tail m header)
      else s1
    pure (0, s2)

/-- The number of pages `(size_t)ceil((double)to_expand / PAGE_SIZE)`; the
division of an `int` by a power of two is exact in `double`. -/
def num_pages (to_expand : Int) : Nat := toSize (-((-to_expand) / (PAGE_SIZE : Nat)))

/-- `expand_list`: the returned address is `0` for `nullptr`. -/
def expand_list (c : Sizes) (s : Heap) (size : Nat) : Except Stop (Nat × Heap) :=
  if s.start = 0 then pure (0, s)
  else do
    let m := s.mem
    let effective_size := round_up size ALIGNMENT
    ASSERT (effective_size % ALIGNMENT = 0)
    let totalsize := toInt32 ((effective_size + c.HS + c.TS) % 18446744073709551616 : Nat)
    if first_seg m s.start = 0 then
      let to_expand := toInt32 (totalsize - ((end_addr m s.start : Int) - (s.start + c.LS : Nat)))
      ASSERT (to_expand > 0)
      ASSERT ((end_addr m s.start : Int) - (s.start + c.LS : Nat) < totalsize)
      let n := num_pages to_expand
      let (_, s1) ← sbrk_or Stop.exit s ((n * PAGE_SIZE % 18446744073709551616 : Nat))
      let m := set_end_addr s1.mem s.start (end_addr s1.mem s.start + n * PAGE_SIZE)
      pure (s.start + c.LS, { s1 with mem := m })
    else
      let last_tail ← find_last_tail c m s.start
      ASSERT (last_tail ≠ 0)
      let trailing_free := free_following m last_tail
      ASSERT (toInt32 trailing_free < totalsize)
      let to_expand := toInt32 (totalsize - toInt32 trailing_free)
      ASSERT (to_expand + toInt32 (free_following m last_tail) = totalsize)
      let n := num_pages to_expand
      let (_, s1) ← sbrk_or Stop.exit s ((n * PAGE_SIZE % 18446744073709551616 : Nat))
      let m := set_end_addr s1.mem s.start (end_addr s1.mem s.start + n * PAGE_SIZE)
      let m := set_free_following m last_tail
        ((free_following m last_tail + n * PAGE_SIZE) % 18446744073709551616)
      ASSERT (last_tail + c.TS + free_following m last_tail = end_addr m s.start)
      pure (last_tail + c.TS, { s1 with mem := m })

/-- The call through the function pointer `g_alloc_function`. -/
def g_alloc (c : Sizes) (fuel : Nat) (s : Heap) (size : Nat) : Except Stop Nat :=
  match s.g_alloc_function with
  | Strat.BEST_FIT => best_fit c fuel s.mem s.start size
  | Strat.FIRST_FIT => first_fit c fuel s.mem s.start size
  | Strat.NEXT_FIT => next_fit c fuel s.mem s.last_addr s.start size
  | Strat.WORST_FIT => worst_fit c fuel s.mem s.start size

/-- `find_free_seg`: the returned address is `0` for `nullptr`. -/
def find_free_seg (c : Sizes) (fuel : Nat) (s : Heap) (size : Nat) : Except Stop (Nat × Heap) :=
  if s.start = 0 then do
    let (list, s1) ← create_list c s
    let s2 := { s1 with start := list }
    if list = 0 then pure (0, s2) else expand_list c s2 size
  else do
    let new_addr ← g_alloc c fuel s size
    if new_addr = 0 then expand_list c s size else pure (new_addr, s)

/-- `set_alloc_function`. -/
def set_alloc_function (s : Heap) (strat : Strat) : Heap := { s with g_alloc_function := strat }

/-- `clear_alloc_storage`. -/
def clear_alloc_storage (c : Sizes) (s : Heap) : Except Stop Heap := do
  let s1 := set_last_addr s 0
  let (r, s2) ← reset_list c s1 s1.start
  if r ≠ 0 then .error Stop.abort else pure s2

/-! ## methods.c -/

/-- `pthread_mutex_lock(&storage_lock)`; the mutex is not recursive. -/
def pthread_mutex_lock (s : Heap) : Except Stop Heap :=
  if s.storage_lock then .error Stop.deadlock else pure { s with storage_lock := true }

/-- `pthread_mutex_unlock(&storage_lock)`. -/
def pthread_mutex_unlock (s : Heap) : Heap := { s with storage_lock := false }

/-- `malloc`: the returned address is `0` for `nullptr`. -/
def malloc (c : Sizes) (fuel : Nat) (s : Heap) (size : Nat) : Except Stop (Nat × Heap) :=
  if size = 0 then pure (0, s)
  else do
    let s ← pthread_mutex_lock s
    let (new_a, s) ← find_free_seg c fuel s size
    if new_a = 0 then pure (0, pthread_mutex_unlock s)
    else do
      let (user_a, s) ← add_entry c s new_a size
      if user_a = 0 then pure (0, pthread_mutex_unlock s)
      else pure (user_a, pthread_mutex_unlock s)

/-- `free`. -/
def free (c : Sizes) (s : Heap) (ptr : Nat) : Except Stop Heap :=
  if ptr = 0 then pure s
  else do
    let s ← pthread_mutex_lock s
    let s ← remove_segment c s ptr
    pure (pthread_mutex_unlock s)

/-- `calloc`: the returned address is `0` for `nullptr`. -/
def calloc (c : Sizes) (fuel : Nat) (s : Heap) (n_memb size : Nat) : Except Stop (Nat × Heap) :=
  if n_memb = 0 ∨ size = 0 then pure (0, s)
  else do
    let (new_a, s) ← malloc c fuel s (n_memb * size % 18446744073709551616)
    if new_a = 0 then pure (0, s)
    else do
      let m ← set_mem_zero s.mem new_a (n_memb * size % 18446744073709551616)
      pure (new_a, { s with mem := m })

/-- `realloc`: the returned address is `0` for `nullptr`. -/
def realloc (c : Sizes) (fuel : Nat) (s : Heap) (ptr size : Nat) : Except Stop (Nat × Heap) :=
  if size = 0 then pure (0, s)
  else if ptr = 0 then malloc c fuel s size
  else do
    let s ← pthread_mutex_lock s
    let old_size := get_segment_size c s.mem ptr
    if old_size = 0 then pure (0, pthread_mutex_unlock s)
    else if old_size = size then pure (ptr, pthread_mutex_unlock s)
    else if size < old_size then do
      let (r, s) ← shrink_segment c s ptr (old_size - size)
      if r ≠ 0 then pure (0, pthread_mutex_unlock s) else pure (ptr, pthread_mutex_unlock s)
    else if (round_up old_size ALIGNMENT + round_up (get_following_gap_size c s.mem ptr) ALIGNMENT)
        % 18446744073709551616 ≥ round_up size ALIGNMENT then do
      let (r, s) ← expand_segment c s ptr (size - old_size)
      if r ≠ 0 then pure (0, pthread_mutex_unlock s) else pure (ptr, pthread_mutex_unlock s)
    else do
      let s := pthread_mutex_unlock s
      let (new_a, s) ← malloc c fuel s size
      if new_a = 0 then pure (0, s)
      else
        match copy_mem s.mem ptr new_a old_size with
        | none => pure (0, s)
        | some m => do
          let s ← free c { s with mem := m } ptr
          pure (new_a, s)

/-! ## A fresh process -/

/-- State of a process before the first call: no list, no cursor, the default
policy `first_fit`, the mutex free. -/
def fresh (m : Mem) (brk0 brk_max : Nat) : Heap :=
  { mem := m, start := 0, last_addr := 0, g_alloc_function := Strat.FIRST_FIT,
    brk := brk0, brk_max := brk_max, storage_lock := false }

/-! ## The directory as a list of blocks

The specification side: the blocks of the arena in ascending address order, and
what it means for the bytes of the arena to hold them. -/

/-- One allocated block: the address of its head, the requested size stored in
the head, and the count of free bytes behind its tail. -/
structure Blk where
  /-- address of the head record -/
  h : Nat
  /-- the `seg_size` the user asked for -/
  sz : Nat
  /-- the `free_following` of the tail -/
  ff : Nat
  deriving DecidableEq, Repr

/-- Address of the tail record of a block. -/
def Blk.tl (c : Sizes) (b : Blk) : Nat := b.h + c.HS + round_up b.sz ALIGNMENT

/-- First address behind the gap that follows a block. -/
def Blk.nx (c : Sizes) (b : Blk) : Nat := b.tl c + c.TS + b.ff

/-- The address handed to the user. -/
def Blk.user (c : Sizes) (b : Blk) : Nat := b.h + c.HS

/-- Footprint `sizeof(head) + roundup(s, A) + sizeof(tail)` of a request. -/
def footprint (c : Sizes) (size : Nat) : Nat := c.HS + round_up size ALIGNMENT + c.TS

/-- The six fields of the head and tail of `b` hold the block, with `pt` the tail
before it and `nh` the head after it. -/
def BlkAt (c : Sizes) (m : Mem) (b : Blk) (pt nh : Nat) : Prop :=
  prev_seg_tail m b.h = pt ∧ next_seg_tail m b.h = b.tl c ∧ seg_size m b.h = b.sz ∧
  prev_seg_head m (b.tl c) = b.h ∧ next_seg_head m (b.tl c) = nh ∧
  free_following m (b.tl c) = b.ff

/-- Head address of the first block of a list, or `d` for the empty list. -/
def hdOr (l : List Blk) (d : Nat) : Nat :=
  match l with
  | [] => d
  | b :: _ => b.h

/-- Tail address of the last block of a list, or `d` for the empty list. -/
def tlOr (c : Sizes) (l : List Blk) (d : Nat) : Nat :=
  match l with
  | [] => d
  | b :: r => tlOr c r (b.tl c)

/-- The records of the blocks of a list are linked in order; `pt` is the tail
before the first block, `nh` the head after the last one. -/
def Seg (c : Sizes) (m : Mem) : Nat → List Blk → Nat → Prop
  | _, [], _ => True
  | pt, b :: r, nh => BlkAt c m b pt (hdOr r nh) ∧ Seg c m (b.tl c) r nh

/-- The blocks of a list, each with its trailing gap, tile `[lo, hi)`. -/
def Tiles (c : Sizes) : Nat → List Blk → Nat → Prop
  | lo, [], hi => lo = hi
  | lo, b :: r, hi => b.h = lo ∧ Tiles c (b.nx c) r hi

/-- The records of the blocks of a list form the circular list: the head of the
first block points back to the tail of the last one, and that tail points to
the first head. -/
def Cyc (c : Sizes) (m : Mem) (bs : List Blk) : Prop :=
  Seg c m (tlOr c bs 0) bs (hdOr bs 0)

/-- Two blocks, each taken with its trailing gap, do not overlap. -/
def Disj (c : Sizes) (a b : Blk) : Prop := a.nx c ≤ b.h ∨ b.nx c ≤ a.h

/-- Address `a` lies in the head or tail record of a block of the list. -/
def InRec (c : Sizes) (bs : List Blk) (a : Nat) : Prop :=
  ∃ b ∈ bs, (b.h ≤ a ∧ a < b.h + c.HS) ∨ (b.tl c ≤ a ∧ a < b.tl c + c.TS)

/-- Side conditions on one block: aligned head, aligned gap, a positive size
whose round-up does not wrap. -/
def BOK (b : Blk) : Prop :=
  b.h % 16 = 0 ∧ b.ff % 16 = 0 ∧ 0 < b.sz ∧ b.sz < 2147483648

/-- The state holds an initialised directory whose blocks are `bs`. -/
def Inv (c : Sizes) (s : Heap) (bs : List Blk) : Prop :=
  c.ok ∧ s.start ≠ 0 ∧ s.start % 16 = 0 ∧
  s.start + c.LS ≤ end_addr s.mem s.start ∧
  (end_addr s.mem s.start - (s.start + c.LS)) % 4096 = 0 ∧
  end_addr s.mem s.start ≤ s.brk ∧ s.brk ≤ end_addr s.mem s.start + 16 ∧
  s.brk ≤ s.brk_max ∧ s.brk_max < s.start + 2147483648 ∧
  s.brk_max < 18446744073709551616 ∧
  (∀ b ∈ bs, BOK b) ∧
  first_seg s.mem s.start = hdOr bs 0 ∧
  Cyc c s.mem bs ∧
  (∃ lo, s.start + c.LS ≤ lo ∧ Tiles c lo bs (end_addr s.mem s.start)) ∧
  (s.last_addr = 0 ∨ ∃ b ∈ bs, s.last_addr = b.tl c)

/-- The state between two public calls: either no directory exists yet, or the
directory holds `bs`; an empty directory has an empty arena and no cursor. -/
def Pub (c : Sizes) (s : Heap) (bs : List Blk) : Prop :=
  s.storage_lock = false ∧
  ((s.start = 0 ∧ bs = [] ∧ s.last_addr = 0 ∧ c.ok ∧ 0 < s.brk ∧ s.brk ≤ s.brk_max ∧
      s.brk_max < s.brk + 2147483648 ∧ s.brk_max < 18446744073709551616) ∨
    (Inv c s bs ∧ (bs = [] → end_addr s.mem s.start = s.start + c.LS ∧ s.last_addr = 0)))

/-- Memory `M` arises from `m` by assigning the eight-byte fields listed in `ws`
(address, value) and by nothing else. -/
def Upd (m M : Mem) (ws : List (Nat × Nat)) : Prop :=
  (∀ w ∈ ws, rd64 M w.1 = w.2) ∧ (∀ a, (∀ w ∈ ws, a < w.1 ∨ w.1 + 8 ≤ a) → M a = m a)

/-- Two states agree on everything but the memory and the cursor. -/
def SameEnv (s s' : Heap) : Prop :=
  s'.start = s.start ∧ s'.g_alloc_function = s.g_alloc_function ∧ s'.brk = s.brk ∧
  s'.brk_max = s.brk_max ∧ s'.storage_lock = s.storage_lock

/-- The bound `2^31` of the positive `int` range. -/
def I31 : Nat := 2147483648

/-- States reachable from a fresh process by the four public operations, the
policy selector and the directory reset `clear_alloc_storage`, together with
the list of live user addresses.  Every call on the way returned; `free` and
`realloc` were given live addresses; the reset was called on a directory that
exists; every request had a footprint below `2^31`; the operating system caps
the break less than `2^31` above its initial value. -/
inductive Reach (c : Sizes) : Heap → List Nat → Prop
  | init (m : Mem) (brk0 brk_max : Nat) (h0 : 0 < brk0) (h1 : brk0 ≤ brk_max)
      (h2 : brk_max < brk0 + I31) (h3 : brk_max < W64) :
      Reach c (fresh m brk0 brk_max) []
  | step_select (s : Heap) (L : List Nat) (strat : Strat) :
      Reach c s L → Reach c (set_alloc_function s strat) L
  | step_malloc (s s1 : Heap) (L : List Nat) (fuel size u : Nat) :
      Reach c s L → footprint c size < I31 → size < I31 →
      malloc c fuel s size = .ok (u, s1) →
      Reach c s1 (if u = 0 then L else u :: L)
  | step_calloc (s s1 : Heap) (L : List Nat) (fuel n_memb size u : Nat) :
      Reach c s L →
      footprint c (n_memb * size % W64) < I31 → n_memb * size % W64 < I31 →
      calloc c fuel s n_memb size = .ok (u, s1) →
      Reach c s1 (if u = 0 then L else u :: L)
  | step_free (s s1 : Heap) (L : List Nat) (p : Nat) :
      Reach c s L → p ∈ L → free c s p = .ok s1 → Reach c s1 (L.erase p)
  | step_realloc (s s1 : Heap) (L : List Nat) (fuel p size u : Nat) :
      Reach c s L → p ∈ L → 0 < size → footprint c size < I31 → size < I31 →
      realloc c fuel s p size = .ok (u, s1) →
      Reach c s1 (if u = 0 then L else u :: L.erase p)
  | step_clear (s s1 : Heap) (L : List Nat) :
      Reach c s L → s.start ≠ 0 → clear_alloc_storage c s = .ok s1 → Reach c s1 []

/-! ## Further notions of the specification side -/

/-- The number of bytes by which `remove_segment` lowers the break when the gap behind
the last tail holds `ff` bytes: nothing up to one page, else the whole pages of `ff`. -/
def cutBy (ff : Nat) : Nat := if ff ≤ 4096 then 0 else ff / 4096 * 4096

/-- The gap behind a block: its first byte and its size. -/
def Blk.gap (c : Sizes) (b : Blk) : Nat × Nat := (b.tl c + c.TS, b.ff)

/-- The gaps of a directory in enumeration order, each with its first byte and its
size: the initial gap between the header and the first block (the whole arena when
there is no block), then the gap behind each block in ascending address order. -/
def gapsOf (c : Sizes) (base e : Nat) (bs : List Blk) : List (Nat × Nat) :=
  (base + c.LS, hdOr bs e - (base + c.LS)) :: bs.map (Blk.gap c)

/-- First byte of the first gap of at least `total` bytes, `0` when there is none. -/
def firstOf (total : Nat) (gs : List (Nat × Nat)) : Nat :=
  match gs.find? (fun g => decide (total ≤ g.2)) with
  | some g => g.1
  | none => 0

/-- One step of the search for a smallest sufficient gap. -/
def bestStep (total : Nat) (acc g : Nat × Nat) : Nat × Nat :=
  if total ≤ g.2 ∧ (acc.1 = 0 ∨ g.2 < acc.2) then g else acc

/-- One step of the search for a largest sufficient gap. -/
def worstStep (total : Nat) (acc g : Nat × Nat) : Nat × Nat :=
  if total ≤ g.2 ∧ (acc.1 = 0 ∨ g.2 > acc.2) then g else acc

/-- What a policy loop reads while it walks from the tail of `b` over the blocks `r`
that follow it: the gap sizes, the tail of the next block, and the loop condition,
which holds between consecutive blocks and fails behind the last one. -/
def Chain (c : Sizes) (m : Mem) : Blk → List Blk → Prop
  | b, [] => free_following m (b.tl c) = b.ff ∧
      ¬ (prev_seg_tail m (prev_seg_head m (next_seg_tail m (next_seg_head m (b.tl c)))) <
        next_seg_tail m (next_seg_head m (b.tl c)))
  | b, n :: r => free_following m (b.tl c) = b.ff ∧
      next_seg_tail m (next_seg_head m (b.tl c)) = n.tl c ∧
      prev_seg_tail m (prev_seg_head m (n.tl c)) < n.tl c ∧ Chain c m n r

/-- How `malloc` places the new block `nw` for a request of `size` bytes into the
directory `bs`, giving `bs1`: as the only block; in front of the first block; at the start
of the gap behind a block `p` that is large enough; or behind the last block `p` after
growing the arena by whole pages. -/
def Placed (c : Sizes) (base : Nat) (bs bs1 : List Blk) (nw : Blk) (size : Nat) : Prop :=
  (bs = [] ∧ bs1 = [nw] ∧ nw.h = base + c.LS) ∨
  (bs ≠ [] ∧ bs1 = nw :: bs ∧ nw.h = base + c.LS) ∨
  (∃ A p B, bs = A ++ p :: B ∧ bs1 = A ++ Blk.mk p.h p.sz 0 :: nw :: B ∧
    nw.h = p.tl c + c.TS ∧ nw.ff + footprint c size = p.ff) ∨
  (∃ A p, bs = A ++ [p] ∧ bs1 = A ++ [Blk.mk p.h p.sz 0, nw] ∧
    nw.h = p.tl c + c.TS ∧ p.ff < footprint c size ∧
    nw.ff + footprint c size = p.ff + (footprint c size - p.ff + 4095) / 4096 * 4096)

/-- The payload bytes of every block of `bs` are the same in `m` and `M`. -/
def PayFrame (c : Sizes) (bs : List Blk) (m M : Mem) : Prop :=
  ∀ b ∈ bs, ∀ a, b.user c ≤ a → a < b.tl c → M a = m a

/-- How `free` removes the block `x` from the directory `bs` with cursor `cur`, giving
`bs1` and `cur1`: the only block (directory reset); the first of several blocks; a block
between two others, whose footprint and gap are added to the gap of the block `p` in
front of it; or the last block, where in addition whole pages are cut from the gap of `p`. -/
def Removed (c : Sizes) (bs bs1 : List Blk) (x : Blk) (cur cur1 : Nat) : Prop :=
  (bs = [x] ∧ bs1 = [] ∧ cur1 = 0) ∨
  (∃ R l, bs = x :: (R ++ [l]) ∧ bs1 = R ++ [l] ∧
    cur1 = if x.tl c = cur then l.tl c else cur) ∨
  (∃ A p n B, bs = A ++ p :: x :: n :: B ∧
    bs1 = A ++ Blk.mk p.h p.sz (p.ff + (footprint c x.sz + x.ff)) :: n :: B ∧
    cur1 = if x.tl c = cur then p.tl c else cur) ∨
  (∃ A p, bs = A ++ [p, x] ∧
    bs1 = A ++ [Blk.mk p.h p.sz (p.ff + (footprint c x.sz + x.ff) -
      cutBy (p.ff + (footprint c x.sz + x.ff)))] ∧
    cur1 = if x.tl c = cur then p.tl c else cur)

/-- The heads met on a walk of `k` steps from the head `h` along
`next_seg_tail` and `next_seg_head`. -/
def walk (m : Mem) : Nat → Nat → List Nat
  | 0, _ => []
  | k + 1, h => h :: walk m k (next_seg_head m (next_seg_tail m h))

/-- The gaps of the directory at `base` with `k` blocks, read from the memory in
the order in which the policies enumerate them: the gap between the header and
the first block (up to `end` when there is no block), then the gap behind the
tail of each block in ascending address order; each with its first byte and its
size. -/
def gapList (c : Sizes) (m : Mem) (base k : Nat) : List (Nat × Nat) :=
  (base + c.LS,
    (if first_seg m base = 0 then end_addr m base else first_seg m base) - (base + c.LS)) ::
  (walk m k (first_seg m base)).map
    (fun h => (next_seg_tail m h + c.TS, free_following m (next_seg_tail m h)))

/-- The user addresses of blocks of the sizes `zs` packed without gaps, the first
at `u`: each next address is the one before it plus the rounded size, the tail
and the next head. -/
def packed (c : Sizes) : Nat → List Nat → List Nat
  | _, [] => []
  | u, z :: zs => u :: packed c (u + round_up z ALIGNMENT + c.TS + c.HS) zs

/-- A sequence of calls `malloc(z)` for the sizes `zs` in turn, with no other
call in between: the returned addresses and the last state. -/
def mallocs (c : Sizes) (fuel : Nat) : Heap → List Nat → Except Stop (List Nat × Heap)
  | s, [] => .ok ([], s)
  | s, z :: zs =>
    match malloc c fuel s z with
    | .error e => .error e
    | .ok (u, s1) =>
      match mallocs c fuel s1 zs with
      | .error e => .error e
      | .ok (us, s2) => .ok (u :: us, s2)

/-- The bytes from the head at `h` to the end of the gap behind its tail: the
footprint of the block and its `free_following`. -/
def span (c : Sizes) (m : Mem) (h : Nat) : Nat :=
  c.HS + round_up (seg_size m h) ALIGNMENT + c.TS + free_following m (next_seg_tail m h)

/-- The first address behind the gap that follows the block with head `h`. -/
def gapEnd (c : Sizes) (m : Mem) (h : Nat) : Nat :=
  next_seg_tail m h + c.TS + free_following m (next_seg_tail m h)

/-- The trailing free space `F` that `expand_list` starts from: the gap behind the
last tail, `first.prev_tail`, or the whole arena when there is no block. -/
def trailing (c : Sizes) (m : Mem) (base : Nat) : Nat :=
  if first_seg m base = 0 then end_addr m base - (base + c.LS)
  else free_following m (prev_seg_tail m (first_seg m base))

/-- The first byte of the trailing gap: one past the last tail, or one past the
list header when there is no block. -/
def trailingStart (c : Sizes) (m : Mem) (base : Nat) : Nat :=
  if first_seg m base = 0 then base + c.LS
  else prev_seg_tail m (first_seg m base) + c.TS

/-- The growth `G = 4096 * ceil((T - F) / 4096)` for a footprint `T` and a
trailing free space `F`. -/
def growBy (T F : Nat) : Nat := (T - F + 4095) / 4096 * 4096

/-- The tail `P` in front of the block with user address `u`: `old->prev_seg_tail`
for `old = u - sizeof(head)`. -/
def predTail (c : Sizes) (m : Mem) (u : Nat) : Nat := prev_seg_tail m (u - c.HS)

/-- The value `F'` of `P.free_following` after the block with user address `u` was
folded into the gap of `P`: the old value plus the footprint of the block plus the
`free_following` of its tail. -/
def mergedFree (c : Sizes) (m : Mem) (u : Nat) : Nat :=
  free_following m (predTail c m u) +
    (c.HS + round_up (seg_size m (u - c.HS)) ALIGNMENT + c.TS) +
    free_following m (next_seg_tail m (u - c.HS))

/-- The head that follows the block with user address `u` in the circular chain. -/
def succHead (c : Sizes) (m : Mem) (u : Nat) : Nat :=
  next_seg_head m (next_seg_tail m (u - c.HS))

/-! ## Concrete runs

States of a process with the sizes of the 64-bit target whose break starts at
`1000`, used to instantiate the theorems. -/

/-- State of a returned call, or the state before it when the call stopped. -/
def after (s : Heap) (r : Except Stop (Nat × Heap)) : Heap :=
  match r with
  | .ok (_, s1) => s1
  | .error _ => s

/-- Address returned by a call, `0` when the call stopped. -/
def ret (r : Except Stop (Nat × Heap)) : Nat :=
  match r with
  | .ok (u, _) => u
  | .error _ => 0

/-- State after a returned sequence of calls. -/
def afterAll (s : Heap) (r : Except Stop (List Nat × Heap)) : Heap :=
  match r with
  | .ok (_, s1) => s1
  | .error _ => s

/-- Addresses returned by a sequence of calls, none when it stopped. -/
def rets (r : Except Stop (List Nat × Heap)) : List Nat :=
  match r with
  | .ok (us, _) => us
  | .error _ => []

/-- State after a returned `free`. -/
def afterFree (s : Heap) (r : Except Stop Heap) : Heap :=
  match r with
  | .ok s1 => s1
  | .error _ => s

/-- The fresh process: all bytes zero, the break at `1000`, at most `1000000`. -/
def heap0 : Heap := fresh (fun _ => 0) 1000 1000000

/-- The state after `malloc(1)` on the fresh process. -/
def heap1 : Heap := after heap0 (malloc sizes64 10 heap0 1)

/-- The state after a second `malloc(1)`. -/
def heap2 : Heap := after heap1 (malloc sizes64 10 heap1 1)

/-- The state after `malloc(32)` on the fresh process. -/
def heapA : Heap := after heap0 (malloc sizes64 10 heap0 32)

/-- The largest value of `size_t`. -/
def SIZE_MAX : Nat := 18446744073709551615

/-- The state after `malloc(SIZE_MAX)` on the state after `malloc(1)`. -/
def heapMax : Heap := after heap1 (malloc sizes64 10 heap1 SIZE_MAX)

/-- The state after `malloc(32)`, `malloc(16)`, `malloc(16)` on the fresh
process, which return `1088`, `1216` and `1328`. -/
def heapB : Heap :=
  after (after heapA (malloc sizes64 10 heapA 16))
    (malloc sizes64 10 (after heapA (malloc sizes64 10 heapA 16)) 16)

/-- The state after `realloc(1088, 16)` on `heapB`, which shrinks the first
block in place and leaves `16` free bytes behind it. -/
def heapC : Heap := after heapB (realloc sizes64 10 heapB 1088 16)

/-- The state after `free(1216)` on `heapC`. -/
def heapD : Heap := afterFree heapC (free sizes64 heapC 1216)

/-- The state after three calls `malloc(1)`, which return `1088`, `1200` and
`1312`, and `free(1200)`. -/
def heapE : Heap :=
  afterFree (after heap2 (malloc sizes64 10 heap2 1))
    (free sizes64 (after heap2 (malloc sizes64 10 heap2 1)) 1200)

/-- The state after `malloc(4000)` on the fresh process: the block fills one page. -/
def heapF : Heap := after heap0 (malloc sizes64 10 heap0 4000)

/-- The state after `malloc(s)` and `free` of the block it returned. -/
def roundTrip (s : Heap) (size : Nat) : Heap :=
  afterFree (after s (malloc sizes64 10 s size))
    (free sizes64 (after s (malloc sizes64 10 s size)) (ret (malloc sizes64 10 s size)))

/-- The state after `free(1088)` on the state with the blocks `1088` and `1200`:
the only live block is `1200`. -/
def heapG : Heap := afterFree heap2 (free sizes64 heap2 1088)

/-- The state after `free(1200)` on `heapG`: no block is live. -/
def heapH : Heap := afterFree heapG (free sizes64 heapG 1200)

/-- The state after `malloc(1)` on a fresh process whose break may rise up to
`2^40`. -/
def heapW : Heap :=
  after (fresh (fun _ => 0) 1000 1099511627776)
    (malloc sizes64 10 (fresh (fun _ => 0) 1000 1099511627776) 1)

/-- The state after `malloc(1)` and `malloc(5000)` on the fresh process, which
return `1088` and `1200`; the arena holds two pages. -/
def heapJ : Heap := after heap1 (malloc sizes64 10 heap1 5000)

/-- The state after `malloc(4000)` and `malloc(1)` on the fresh process, which
return `1088` and `5184`; the first block fills the first page. -/
def heapF1 : Heap := after heapF (malloc sizes64 10 heapF 1)

/-- The fresh process whose break starts at `1000` and may rise up to `2^40`. -/
def heapV : Heap := fresh (fun _ => 0) 1000 1099511627776

/-- The state after `malloc(2^31 - 200)` on `heapV`: the call grew the arena by
`2^31` bytes and returned null, so the directory has no block and an arena of
`2^31` bytes. -/
def heapR : Heap := after heapV (malloc sizes64 10 heapV 2147483448)

/-- The state after `malloc(1)` and `malloc(2^30)` on `heapV`, which return `1088`
and `1200`. -/
def heapN0 : Heap := after heapW (malloc sizes64 10 heapW 1073741824)

/-- The state after `malloc(1)`, `malloc(2^30)` and `malloc(2^30)` on `heapV`,
which return `1088`, `1200` and `1073743120`; the arena holds `2^31 + 4096`
bytes. -/
def heapN : Heap := after heapN0 (malloc sizes64 10 heapN0 1073741824)

/-- The state after `free(1088)` on `heapN`: the blocks `1200` and `1073743120`,
both of size `2^30`, behind an initial gap of `112` bytes. -/
def heapN1 : Heap := afterFree heapN (free sizes64 heapN 1088)

/-- The state after `free(1200)` on `heapN`: the blocks `1088` and `1073743120`
with `2^30 + 96` free bytes between them. -/
def heapN2 : Heap := afterFree heapN (free sizes64 heapN 1200)

/-- The state after `malloc(2^30)` on `heapV`, which returns `1088`. -/
def heapQ0 : Heap := after heapV (malloc sizes64 10 heapV 1073741824)

/-- The state after a second `malloc(2^30)`, which returns `1073743008`. -/
def heapQ1 : Heap := after heapQ0 (malloc sizes64 10 heapQ0 1073741824)

/-- The state after `malloc(1)` on `heapQ1`, which returns `2147484928`. -/
def heapQ2 : Heap := after heapQ1 (malloc sizes64 10 heapQ1 1)

/-- The state after `free(1088)` on `heapQ2`: the blocks `1073743008` and
`2147484928` behind an initial gap of `2^30 + 96` bytes. -/
def heapQ : Heap := afterFree heapQ2 (free sizes64 heapQ2 1088)

/-- The state of the test `alloc_in_the_middle_between_2_segments` before its call of
`add_entry`: after `malloc(1)`, `malloc(2)`, `malloc(1)`, which return `1088`, `1200`
and `1312`, and `free(1200)`. -/
def heapT : Heap :=
  afterFree (after (after heap1 (malloc sizes64 10 heap1 2))
      (malloc sizes64 10 (after heap1 (malloc sizes64 10 heap1 2)) 1))
    (free sizes64 (after (after heap1 (malloc sizes64 10 heap1 2))
      (malloc sizes64 10 (after heap1 (malloc sizes64 10 heap1 2)) 1)) 1200)

/-- The block at the user address `y` is the same in `s1` as in `s`: the recorded
size is the same and so is each of the payload bytes it counts. -/
def Untouched (c : Sizes) (s s1 : Heap) (y : Nat) : Prop :=
  get_segment_size c s1.mem y = get_segment_size c s.mem y ∧
  ∀ i, i < get_segment_size c s.mem y → read_byte s1.mem (y + i) = read_byte s.mem (y + i)

/-- The size of the initial gap: the whole arena behind the header when there is no
block, else the space between the header and the first block. -/
def initGap (c : Sizes) (m : Mem) (base : Nat) : Nat :=
  (if first_seg m base = 0 then end_addr m base else first_seg m base) - (base + c.LS)

/-- The state inside `malloc(1)` on the empty directory `heapH`, between
`expand_list` and `add_entry`: no block, an arena of one page. -/
def heapX : Heap := after heapH (expand_list sizes64 heapH 1)

/-- The address `a` lies in no record of the directory: it is not below the end of
the list header, and it lies neither in the head nor in the tail record of a block
with a user address in `Q`. -/
def OffRecords (c : Sizes) (s : Heap) (Q : List Nat) (a : Nat) : Prop :=
  s.start + c.LS ≤ a ∧
  ∀ q ∈ Q, ¬ (q - c.HS ≤ a ∧ a < q) ∧
    ¬ (next_seg_tail s.mem (q - c.HS) ≤ a ∧ a < next_seg_tail s.mem (q - c.HS) + c.TS)

/-- The state after `malloc(1)` at a moment when another thread holds the mutex. -/
def heapL : Heap := { heap1 with storage_lock := true }

/-! ## Runs that keep the state in which the process stops

A second embedding of `free` and of the functions it calls.  It differs from the
first one in one respect only: a stop carries the state of the process at that
moment, so that one can say what had been written before an `ASSERT` failed. -/

/-- `ASSERT(expr)` reached in the state `st`: when the assertion fails the process
stops in that state. -/
def ASSERT_at (st : Heap) (p : Prop) [Decidable p] : Except (Stop × Heap) Unit :=
  if p then .ok () else .error (Stop.assertion, st)

/-- The outcome of a run without the state at the stop. -/
def forget {α : Type} (r : Except (Stop × Heap) α) : Except Stop α :=
  match r with
  | .ok a => .ok a
  | .error (e, _) => .error e

/-- The idiom `if (sbrk(incr) == (void *)-1) { ...; abort() or exit() }`, keeping the
state at the stop. -/
def sbrk_at (stop : Stop) (s : Heap) (incr : Int) : Except (Stop × Heap) (Nat × Heap) :=
  match sbrk s incr with
  | none => .error (stop, s)
  | some r => .ok r

/-- `pthread_mutex_lock(&storage_lock)`, keeping the state at the stop. -/
def pthread_mutex_lock_at (s : Heap) : Except (Stop × Heap) Heap :=
  if s.storage_lock then .error (Stop.deadlock, s) else pure { s with storage_lock := true }

/-- `init_tail`, keeping the state at the stop. -/
def init_tail_at (c : Sizes) (s : Heap) (list : Nat) : Except (Stop × Heap) Heap := do
  let s1 := { s with mem := set_end_addr s.mem list (list + c.LS) }
  ASSERT_at s1 ((end_addr s1.mem list : Int) - list = c.LS)
  pure s1

/-- `reset_list`, keeping the state at the stop. -/
def reset_list_at (c : Sizes) (s : Heap) (list : Nat) : Except (Stop × Heap) (Int × Heap) := do
  let s0 := { s with mem := init_first s.mem list }
  let s1 ← init_tail_at c s0 list
  match brk s1 (list + c.LS) with
  | none => pure (-1, s1)
  | some s2 => pure (0, s2)

/-- `find_last_tail`, keeping the state at the stop. -/
def find_last_tail_at (c : Sizes) (s : Heap) (list : Nat) : Except (Stop × Heap) Nat :=
  if list = 0 then pure 0
  else if first_seg s.mem list = 0 then pure 0
  else do
    let temp := prev_seg_tail s.mem (first_seg s.mem list)
    ASSERT_at s (temp + c.TS ≤ end_addr s.mem list)
    ASSERT_at s (temp + c.TS + free_following s.mem temp = end_addr s.mem list)
    pure temp

/-- The tail-shrink step of `remove_segment`, keeping the state at the stop. -/
def remove_shrink_at (c : Sizes) (s : Heap) (pred : Nat) : Except (Stop × Heap) Heap :=
  if toInt32 (free_following s.mem pred) - toInt32 (PAGE_SIZE : Nat) > 0 then do
    let old_free := free_following s.mem pred
    let to_shrink := toInt32 ((free_following s.mem pred / PAGE_SIZE : Nat)) * (PAGE_SIZE : Nat)
    ASSERT_at s (to_shrink > 0)
    ASSERT_at s (toSize to_shrink ≤ free_following s.mem pred)
    let (_, s1) ← sbrk_at Stop.abort s (-to_shrink)
    let s2 := { s1 with mem := (set_free_following s1.mem pred
      (toSize ((free_following s1.mem pred : Int) - to_shrink))) }
    let s3 := { s2 with mem := (set_end_addr s2.mem s.start
      (toSize ((end_addr s2.mem s.start : Int) - to_shrink))) }
    ASSERT_at s3 (free_following s3.mem pred = toSize ((old_free : Int) - to_shrink))
    ASSERT_at s3 (pred + c.TS + free_following s3.mem pred = end_addr s3.mem s.start)
    pure s3
  else pure s

/-- The branch of `remove_segment` for a segment that is not the first, keeping the
state at the stop. -/
def remove_inner_at (c : Sizes) (s : Heap) (old : Nat) : Except (Stop × Heap) Heap := do
  let m := s.mem
  let pred := prev_seg_tail m old
  let s := if next_seg_tail m old = get_last_addr s then set_last_addr s pred else s
  let m := set_free_following m pred
    ((free_following m pred + (c.HS + round_up (seg_size m old) ALIGNMENT + c.TS +
      free_following m (next_seg_tail m old))) % 18446744073709551616)
  let m := set_next_seg_head m pred (next_seg_head m (next_seg_tail m old))
  let m := set_prev_seg_tail m (next_seg_head m pred) pred
  ASSERT_at { s with mem := m } (pred + c.TS + free_following m pred ≤ end_addr m s.start)
  ASSERT_at { s with mem := m } (pred + c.TS + free_following m pred ≤ end_addr m s.start ∨
    pred + c.TS + free_following m pred = next_seg_head m pred)
  let s := { s with mem := m }
  if pred = prev_seg_tail m (first_seg m s.start) then remove_shrink_at c s pred
  else pure s

/-- The branch of `remove_segment` for the only segment of the list, keeping the
state at the stop. -/
def remove_only_at (c : Sizes) (s : Heap) (old : Nat) : Except (Stop × Heap) Heap := do
  let m := s.mem
  let s := if next_seg_tail m old = get_last_addr s then set_last_addr s 0 else s
  let m := set_next_seg_head m (next_seg_tail m old) old
  ASSERT_at { s with mem := m } (next_seg_head m (next_seg_tail m old) ≠ 0)
  let m := set_first_seg m s.start 0
  let (r, s1) ← reset_list_at c { s with mem := m } s.start
  if r ≠ 0 then .error (Stop.abort, s1) else pure s1

/-- The branch of `remove_segment` for the first of several segments, keeping the
state at the stop. -/
def remove_first_at (c : Sizes) (s : Heap) (old : Nat) : Except (Stop × Heap) Heap := do
  let m := s.mem
  let seg_sz := seg_size m old
  let trailing_free := free_following m (next_seg_tail m old)
  let offset := toSize ((old : Int) - (s.start + c.LS : Nat))
  let last_tail ← find_last_tail_at c s s.start
  let s := if next_seg_tail m old = get_last_addr s then set_last_addr s last_tail else s
  let m := set_next_seg_head m last_tail (next_seg_head m (next_seg_tail m old))
  let m := set_prev_seg_tail m (next_seg_head m last_tail) last_tail
  let m := set_first_seg m s.start (next_seg_head m last_tail)
  ASSERT_at { s with mem := m } ((first_seg m s.start : Int) - (s.start + c.LS : Nat) =
    toInt32 ((offset + c.HS + round_up seg_sz ALIGNMENT + c.TS + trailing_free)
      % 18446744073709551616 : Nat))
  pure { s with mem := m }

/-- `remove_segment`, keeping the state at the stop. -/
def remove_segment_at (c : Sizes) (s : Heap) (addr : Nat) : Except (Stop × Heap) Heap := do
  ASSERT_at s (addr ≥ s.start + c.LS)
  ASSERT_at s (addr < end_addr s.mem s.start)
  let old := addr - c.HS
  ASSERT_at s (old < end_addr s.mem s.start)
  ASSERT_at s (old ≥ s.start + c.LS)
  if first_seg s.mem s.start ≠ old then remove_inner_at c s old
  else if prev_seg_tail s.mem old = next_seg_tail s.mem old then remove_only_at c s old
  else remove_first_at c s old

/-- `free`, keeping the state at the stop. -/
def free_at (c : Sizes) (s : Heap) (ptr : Nat) : Except (Stop × Heap) Heap :=
  if ptr = 0 then pure s
  else do
    let s ← pthread_mutex_lock_at s
    let s ← remove_segment_at c s ptr
    pure (pthread_mutex_unlock s)

/-! ## Public operations with their events

A third reading of `methods.c` and of the two exposed functions of
`memory_mgmt.c`: each operation with the list of what it does to the shared state,
in program order.  The directory code it calls is that of the first embedding. -/

/-- One step of a public operation on the shared state. -/
inductive Ev where
  /-- `pthread_mutex_lock` returned: the caller holds the mutex from here on -/
  | lock
  /-- `pthread_mutex_unlock`: the caller has released the mutex -/
  | unlock
  /-- a call into the directory code of `memory_mgmt.c` and `linked_list_mgmt.c`,
  which reads and writes the header, the head and tail records, the cursor and the
  break -/
  | dir
  /-- an assignment to the policy selector `g_alloc_function` -/
  | policy
  /-- the bytes `[addr, addr + size)` are written by `set_mem_zero` or `copy_mem` -/
  | bytes (addr size : Nat)
  deriving DecidableEq

/-- Whether the caller holds the mutex after the events `l`, when `own` tells whether
it held the mutex before them. -/
def ownAfter (own : Bool) : List Ev → Bool
  | [] => own
  | Ev.lock :: l => ownAfter true l
  | Ev.unlock :: l => ownAfter false l
  | _ :: l => ownAfter own l

/-- Every call into the directory code and every assignment to the policy selector
among the events `l` happens while the caller holds the mutex; `own` tells whether
the caller holds the mutex before `l`. -/
def guarded (own : Bool) : List Ev → Bool
  | [] => true
  | Ev.lock :: l => guarded true l
  | Ev.unlock :: l => guarded false l
  | Ev.dir :: l => own && guarded own l
  | Ev.policy :: l => own && guarded own l
  | Ev.bytes _ _ :: l => guarded own l

/-- A run with its events: the events in program order, and the value returned or
the stop. -/
def Tr (α : Type) : Type := List Ev × Except Stop α

/-- A run that returns at once. -/
def Tr.pure {α : Type} (a : α) : Tr α := ([], .ok a)

/-- One run after the other; a stop ends the events. -/
def Tr.bind {α β : Type} (x : Tr α) (f : α → Tr β) : Tr β :=
  match x with
  | (l, .ok a) => (l ++ (f a).1, (f a).2)
  | (l, .error e) => (l, .error e)

instance : Monad Tr where
  pure := Tr.pure
  bind := Tr.bind

/-- `pthread_mutex_lock(&storage_lock)` with its event. -/
def lock_ev (s : Heap) : Tr Heap :=
  match pthread_mutex_lock s with
  | .ok s1 => ([Ev.lock], .ok s1)
  | .error e => ([], .error e)

/-- `pthread_mutex_unlock(&storage_lock)` with its event. -/
def unlock_ev (s : Heap) : Tr Heap := ([Ev.unlock], .ok (pthread_mutex_unlock s))

/-- A call into the directory code, with its event. -/
def dir_ev {α : Type} (r : Except Stop α) : Tr α := ([Ev.dir], r)

/-- A run of `set_mem_zero` or of `copy_mem` on `[addr, addr + size)`, with its
event. -/
def bytes_ev {α : Type} (addr size : Nat) (r : Except Stop α) : Tr α :=
  ([Ev.bytes addr size], r)

/-- `malloc` with its events. -/
def malloc_ev (c : Sizes) (fuel : Nat) (s : Heap) (size : Nat) : Tr (Nat × Heap) :=
  if size = 0 then pure (0, s)
  else do
    let s ← lock_ev s
    let (new_a, s) ← dir_ev (find_free_seg c fuel s size)
    if new_a = 0 then do
      let s ← unlock_ev s
      pure (0, s)
    else do
      let (user_a, s) ← dir_ev (add_entry c s new_a size)
      if user_a = 0 then do
        let s ← unlock_ev s
        pure (0, s)
      else do
        let s ← unlock_ev s
        pure (user_a, s)

/-- `free` with its events. -/
def free_ev (c : Sizes) (s : Heap) (ptr : Nat) : Tr Heap :=
  if ptr = 0 then pure s
  else do
    let s ← lock_ev s
    let s ← dir_ev (remove_segment c s ptr)
    unlock_ev s

/-- `calloc` with its events. -/
def calloc_ev (c : Sizes) (fuel : Nat) (s : Heap) (n_memb size : Nat) : Tr (Nat × Heap) :=
  if n_memb = 0 ∨ size = 0 then pure (0, s)
  else do
    let (new_a, s) ← malloc_ev c fuel s (n_memb * size % 18446744073709551616)
    if new_a = 0 then pure (0, s)
    else do
      let m ← bytes_ev new_a (n_memb * size % 18446744073709551616)
        (set_mem_zero s.mem new_a (n_memb * size % 18446744073709551616))
      pure (new_a, { s with mem := m })

/-- `realloc` with its events. -/
def realloc_ev (c : Sizes) (fuel : Nat) (s : Heap) (ptr size : Nat) : Tr (Nat × Heap) :=
  if size = 0 then pure (0, s)
  else if ptr = 0 then malloc_ev c fuel s size
  else do
    let s ← lock_ev s
    let old_size ← dir_ev (pure (get_segment_size c s.mem ptr))
    if old_size = 0 then do
      let s ← unlock_ev s
      pure (0, s)
    else if old_size = size then do
      let s ← unlock_ev s
      pure (ptr, s)
    else if size < old_size then do
      let (r, s) ← dir_ev (shrink_segment c s ptr (old_size - size))
      let s ← unlock_ev s
      if r ≠ 0 then pure (0, s) else pure (ptr, s)
    else do
      let gap ← dir_ev (pure (get_following_gap_size c s.mem ptr))
      if (round_up old_size ALIGNMENT + round_up gap ALIGNMENT)
          % 18446744073709551616 ≥ round_up size ALIGNMENT then do
        let (r, s) ← dir_ev (expand_segment c s ptr (size - old_size))
        let s ← unlock_ev s
        if r ≠ 0 then pure (0, s) else pure (ptr, s)
      else do
        let s ← unlock_ev s
        let (new_a, s) ← malloc_ev c fuel s size
        if new_a = 0 then pure (0, s)
        else do
          let r ← bytes_ev new_a old_size (pure (copy_mem s.mem ptr new_a old_size))
          match r with
          | none => pure (0, s)
          | some m => do
            let s ← free_ev c { s with mem := m } ptr
            pure (new_a, s)

/-- `set_alloc_function` with its event: the assignment to `g_alloc_function`. -/
def set_alloc_function_ev (s : Heap) (strat : Strat) : Tr Heap :=
  ([Ev.policy], .ok (set_alloc_function s strat))

/-- `clear_alloc_storage` with its events: `set_last_addr` and `reset_list` are calls
into the directory code. -/
def clear_alloc_storage_ev (c : Sizes) (s : Heap) : Tr Heap := do
  let s1 ← dir_ev (pure (set_last_addr s 0))
  let (r, s2) ← dir_ev (reset_list c s1 s1.start)
  if r ≠ 0 then (([], .error Stop.abort) : Tr Heap) else pure s2

/-! ## The mutex across a call -/

/-- Every state that the run `x` returns, read off the returned value by `st`, has
the mutex flag `b`. -/
def Keeps {α : Type} (st : α → Heap) (x : Except Stop α) (b : Bool) : Prop :=
  ∀ a, x = .ok a → (st a).storage_lock = b

/-! ## Machine arithmetic -/

theorem toInt32_small (z : Int) (h1 : -2147483648 ≤ z) (h2 : z < 2147483648) :
    toInt32 z = z := by
  unfold toInt32; omega

theorem toSize_small (z : Int) (h1 : 0 ≤ z) (h2 : z < 18446744073709551616) :
    toSize z = z.toNat := by
  unfold toSize; omega

theorem toSize_nat (n : Nat) (h2 : n < 18446744073709551616) : toSize (n : Int) = n := by
  unfold toSize; omega

theorem round_up_16 (n : Nat) (h : n + 16 ≤ 18446744073709551616) :
    round_up n ALIGNMENT % 16 = 0 ∧ n ≤ round_up n ALIGNMENT ∧
      round_up n ALIGNMENT < n + 16 := by
  unfold round_up ALIGNMENT
  simp only [show (16:Nat) ≠ 0 by decide, if_false]
  split <;> omega

theorem round_up_16_of_dvd (n : Nat) (h : n % 16 = 0) : round_up n ALIGNMENT = n := by
  unfold round_up ALIGNMENT
  simp [h]

theorem round_up_16_mono (a b : Nat) (h : a ≤ b) (hb : b + 16 ≤ 18446744073709551616) :
    round_up a ALIGNMENT ≤ round_up b ALIGNMENT := by
  have ha := round_up_16 a (by omega)
  have hb' := round_up_16 b hb
  omega

theorem ASSERT_ok (p : Prop) [Decidable p] (h : p) : ASSERT p = .ok () := by
  unfold ASSERT; rw [if_pos h]

theorem ASSERT_fail (p : Prop) [Decidable p] (h : ¬ p) : ASSERT p = .error Stop.assertion := by
  unfold ASSERT; rw [if_neg h]

theorem ok_bind {ε α β : Type} (a : α) (f : α → Except ε β) :
    (Except.ok a >>= f) = f a := rfl

theorem pure_eq_ok {ε α : Type} (a : α) : (pure a : Except ε α) = Except.ok a := rfl

theorem ASSERT_true : ASSERT True = .ok () := rfl

theorem ASSERT_bind {β : Type} (p : Prop) [Decidable p] (f : Unit → Except Stop β) (h : p) :
    (ASSERT p >>= f) = f () := by
  unfold ASSERT; rw [if_pos h]; rfl

theorem ASSERT_bind_true {β : Type} (f : Unit → Except Stop β) :
    (ASSERT True >>= f) = f () := rfl

theorem toSize_add_sub (f a b : Nat) (h : b ≤ a) (hlt : f + (a - b) < 18446744073709551616) :
    toSize ((f : Int) + ((a : Int) - (b : Int))) = f + (a - b) := by
  unfold toSize; omega

theorem toSize_sub_sub (f a b : Nat) (h : b ≤ a) (h2 : a - b ≤ f)
    (hlt : f < 18446744073709551616) :
    toSize ((f : Int) - ((a : Int) - (b : Int))) = f - (a - b) := by
  unfold toSize; omega

theorem toInt32_nat (n : Nat) (h : n < 2147483648) : toInt32 (n : Int) = n := by
  unfold toInt32; omega

theorem toInt32_sub (a b : Nat) (h : b ≤ a) (h2 : a - b < 2147483648) :
    toInt32 ((a : Int) - (b : Int)) = ((a - b : Nat) : Int) := by
  unfold toInt32; omega

theorem toSize_add (a b : Nat) (h : a + b < 18446744073709551616) :
    toSize ((a : Int) + (b : Int)) = a + b := by
  unfold toSize; omega

theorem toSize_sub_add (a b c : Nat) (h : b + c ≤ a) (h2 : a < 18446744073709551616) :
    toSize ((a : Int) - ((b : Int) + (c : Int))) = a - (b + c) := by
  unfold toSize; omega

theorem toSize_add_add (a b c : Nat) (h : a + b + c < 18446744073709551616) :
    toSize ((a : Int) + (b : Int) + (c : Int)) = a + b + c := by
  unfold toSize; omega

theorem toInt32_zero : toInt32 0 = 0 := by decide

theorem toInt32_PAGE_SIZE : toInt32 ((PAGE_SIZE : Nat) : Int) = 4096 := by decide

theorem to_shrink_eq (n : Nat) (h : n < 2147483648) :
    toInt32 ((n / PAGE_SIZE : Nat) : Int) * ((PAGE_SIZE : Nat) : Int) =
      ((n / 4096 * 4096 : Nat) : Int) := by
  unfold PAGE_SIZE
  rw [toInt32_nat _ (by omega)]
  exact (Nat.cast_mul (n / 4096) 4096).symm

theorem toSize_zero : toSize 0 = 0 := by decide

theorem toSize_sub (a b : Nat) (h : b ≤ a) (h2 : a < 18446744073709551616) :
    toSize ((a : Int) - (b : Int)) = a - b := by
  unfold toSize; omega

theorem sbrk_or_add (stop : Stop) (s : Heap) (k : Nat) (h : s.brk + k ≤ s.brk_max) :
    sbrk_or stop s ((k : Nat) : Int) = .ok (s.brk, { s with brk := s.brk + k }) := by
  unfold sbrk_or sbrk
  rw [if_pos (by omega)]
  simp only
  congr 3

theorem sbrk_or_neg (stop : Stop) (s : Heap) (k : Nat) (h : k ≤ s.brk)
    (h2 : s.brk ≤ s.brk_max) :
    sbrk_or stop s (-((k : Nat) : Int)) = .ok (s.brk, { s with brk := s.brk - k }) := by
  unfold sbrk_or sbrk
  rw [if_pos (by omega)]
  simp only
  congr 3
  omega

theorem sbrk_or_add_bind {β : Type} (stop : Stop) (s : Heap) (k : Nat)
    (f : Nat × Heap → Except Stop β) (h : s.brk + k ≤ s.brk_max) :
    (sbrk_or stop s ((k : Nat) : Int) >>= f) = f (s.brk, { s with brk := s.brk + k }) := by
  rw [sbrk_or_add stop s k h]; rfl

theorem sbrk_or_neg_bind {β : Type} (stop : Stop) (s : Heap) (k : Nat)
    (f : Nat × Heap → Except Stop β) (h : k ≤ s.brk) (h2 : s.brk ≤ s.brk_max) :
    (sbrk_or stop s (-((k : Nat) : Int)) >>= f) = f (s.brk, { s with brk := s.brk - k }) := by
  rw [sbrk_or_neg stop s k h h2]; rfl

/-! ## Reading and writing fields -/

theorem wr64_out (m : Mem) (a v x : Nat) (h : x < a ∨ a + 8 ≤ x) : wr64 m a v x = m x := by
  unfold wr64
  rw [if_neg]; omega

theorem rd64_congr (m m' : Mem) (a : Nat) (h : ∀ x, a ≤ x → x < a + 8 → m' x = m x) :
    rd64 m' a = rd64 m a := by
  unfold rd64
  rw [h a (by omega) (by omega), h (a+1) (by omega) (by omega), h (a+2) (by omega) (by omega),
    h (a+3) (by omega) (by omega), h (a+4) (by omega) (by omega), h (a+5) (by omega) (by omega),
    h (a+6) (by omega) (by omega), h (a+7) (by omega) (by omega)]

theorem rd64_wr64_ne (m : Mem) (a b v : Nat) (h : b + 8 ≤ a ∨ a + 8 ≤ b) :
    rd64 (wr64 m a v) b = rd64 m b := by
  apply rd64_congr
  intro x h1 h2
  apply wr64_out; omega

theorem rd64_wr64_eq (m : Mem) (a v : Nat) (hv : v < 18446744073709551616) :
    rd64 (wr64 m a v) a = v := by
  unfold rd64 wr64
  simp only [show ∀ k, a + k - a = k by intro k; omega]
  simp only [show a ≤ a ∧ a < a + 8 by omega, show a ≤ a + 1 ∧ a + 1 < a + 8 by omega,
    show a ≤ a + 2 ∧ a + 2 < a + 8 by omega, show a ≤ a + 3 ∧ a + 3 < a + 8 by omega,
    show a ≤ a + 4 ∧ a + 4 < a + 8 by omega, show a ≤ a + 5 ∧ a + 5 < a + 8 by omega,
    show a ≤ a + 6 ∧ a + 6 < a + 8 by omega, show a ≤ a + 7 ∧ a + 7 < a + 8 by omega,
    and_self, if_true, Nat.sub_self]
  norm_num
  omega

theorem rd64_lt (m : Mem) (a : Nat) : rd64 m a < 18446744073709551616 := by
  unfold rd64; omega

theorem store_byte_out (m : Mem) (a v x : Nat) (h : x ≠ a) : store_byte m a v x = m x := by
  unfold store_byte; rw [if_neg h]

theorem set_byte_ok (m : Mem) (a v : Nat) (h : a ≠ 0) :
    set_byte m a v = .ok (store_byte m a v) := by
  unfold set_byte; rw [if_neg h]

theorem zeroed_out (m : Mem) (addr n x : Nat) (h : x < addr ∨ addr + n ≤ x) :
    zeroed m addr n x = m x := by
  induction n with
  | zero => rfl
  | succ k ih =>
    unfold zeroed
    rw [store_byte_out _ _ _ _ (by omega), ih (by omega)]

theorem zeroed_in (m : Mem) (addr n x : Nat) (h1 : addr ≤ x) (h2 : x < addr + n) :
    zeroed m addr n x = 0 := by
  induction n with
  | zero => omega
  | succ k ih =>
    unfold zeroed
    by_cases hx : x = addr + k
    · subst hx; simp [store_byte]
    · rw [store_byte_out _ _ _ _ hx]; exact ih (by omega)

/-- `set_mem_zero` on a range that starts above the null address and does not pass
the end of the address space returns, with the bytes of the range set to zero. -/
theorem set_mem_zero_ok (m : Mem) (addr n : Nat) (h0 : 0 < addr)
    (h : addr + n ≤ 18446744073709551616) :
    set_mem_zero m addr n = .ok (zeroed m addr n) := by
  induction n with
  | zero => rfl
  | succ k ih =>
    have e : (addr + k) % 18446744073709551616 = addr + k := Nat.mod_eq_of_lt (by omega)
    show (set_mem_zero m addr k >>= fun m1 =>
      set_byte m1 ((addr + k) % 18446744073709551616) 0) = _
    rw [ih (by omega), e]
    show set_byte (zeroed m addr k) (addr + k) 0 = _
    rw [set_byte_ok _ _ _ (by omega)]
    rfl

/-- `set_mem_zero` on a range that passes the end of the address space reaches the
null address and ends the process with `abort()`. -/
theorem set_mem_zero_wrap (m : Mem) (addr n : Nat) (h0 : 0 < addr)
    (ha : addr < 18446744073709551616) (h : 18446744073709551616 < addr + n) :
    set_mem_zero m addr n = .error Stop.abort := by
  induction n with
  | zero => omega
  | succ k ih =>
    show (set_mem_zero m addr k >>= fun m1 =>
      set_byte m1 ((addr + k) % 18446744073709551616) 0) = _
    by_cases hk : 18446744073709551616 < addr + k
    · rw [ih hk]; rfl
    · have e : addr + k = 18446744073709551616 := by omega
      rw [set_mem_zero_ok m addr k h0 (by omega), e]
      rfl

theorem copied_out (m : Mem) (o n k x : Nat) (h : x < n ∨ n + k ≤ x) :
    copied m o n k x = m x := by
  induction k with
  | zero => rfl
  | succ j ih =>
    unfold copied
    simp only
    split
    · exact ih (by omega)
    · rw [store_byte_out _ _ _ _ (by omega)]; exact ih (by omega)

/-- Copying to a range that does not overlap the source copies the bytes. -/
theorem copied_in (m : Mem) (o n k : Nat) (hd : o + k ≤ n ∨ n + k ≤ o) (i : Nat)
    (hi : i < k) : copied m o n k (n + i) = m (o + i) % 256 := by
  induction k with
  | zero => omega
  | succ j ih =>
    unfold copied
    simp only
    have hne : ¬ (o + j = n + j) := by omega
    rw [if_neg hne]
    by_cases hij : i = j
    · subst hij
      simp only [store_byte, if_true, read_byte]
      rw [copied_out _ _ _ _ _ (by omega)]
      omega
    · rw [store_byte_out _ _ _ _ (by omega)]
      exact ih (by omega) (by omega)

/-- The loop of `copy_mem` between two ranges that start above the null address and
do not pass the end of the address space copies every byte. -/
theorem copy_loop_ok (m : Mem) (o n k : Nat) (ho : 0 < o) (hn : 0 < n)
    (h1 : o + k ≤ 18446744073709551616) (h2 : n + k ≤ 18446744073709551616) :
    copy_loop m o n k = some (copied m o n k) := by
  induction k with
  | zero => rfl
  | succ j ih =>
    have e1 : (o + j) % 18446744073709551616 = o + j := Nat.mod_eq_of_lt (by omega)
    have e2 : (n + j) % 18446744073709551616 = n + j := Nat.mod_eq_of_lt (by omega)
    unfold copy_loop
    rw [ih (by omega) (by omega), e1, e2]
    show copy_byte (copied m o n j) (o + j) (n + j) =
      some (if o + j = n + j then copied m o n j
        else store_byte (copied m o n j) (n + j) (read_byte (copied m o n j) (o + j)))
    unfold copy_byte
    rw [if_neg (by omega)]
    by_cases hs : o + j = n + j
    · rw [if_pos hs, if_pos hs]
    · rw [if_neg hs, if_neg hs]

/-- What `copy_loop` returns differs from the memory it started with only at the
bytes it stored, those of the target range. -/
theorem copy_loop_out (m m1 : Mem) (o n k : Nat) (h : copy_loop m o n k = some m1) (x : Nat)
    (hx : ∀ i, i < k → x ≠ (n + i) % 18446744073709551616) : m1 x = m x := by
  induction k generalizing m1 with
  | zero =>
    have e : some m = some m1 := h
    injection e with e
    rw [← e]
  | succ j ih =>
    unfold copy_loop at h
    split at h
    · exact absurd h (by simp)
    · rename_i m0 h0
      have g := ih m0 h0 (fun i hi => hx i (by omega))
      unfold copy_byte at h
      split at h
      · exact absurd h (by simp)
      · split at h
        · injection h with h; rw [← h]; exact g
        · injection h with h
          rw [← h, store_byte_out _ _ _ _ (hx j (by omega))]
          exact g

/-- `copy_mem` between two ranges, the target not inside the source, that start
above the null address and do not pass the end of the address space. -/
theorem copy_mem_ok (m : Mem) (o n k : Nat) (ho : 0 < o) (hn : 0 < n)
    (h1 : o + k ≤ 18446744073709551616) (h2 : n + k ≤ 18446744073709551616)
    (hd : ¬ (o + k > n ∧ n > o)) :
    copy_mem m o n k = some (copied m o n k) := by
  unfold copy_mem
  rw [if_neg (by omega)]
  by_cases hk : o + k = 18446744073709551616
  · rw [hk, Nat.mod_self, if_neg (by omega)]
    exact copy_loop_ok m o n k ho hn h1 h2
  · rw [Nat.mod_eq_of_lt (by omega), if_neg hd]
    exact copy_loop_ok m o n k ho hn h1 h2

/-! ## Lists of blocks -/

theorem Blk.tl_ge (c : Sizes) (b : Blk) : b.h + c.HS ≤ b.tl c := by
  unfold Blk.tl; omega

theorem Blk.nx_ge (c : Sizes) (b : Blk) : b.tl c + c.TS ≤ b.nx c := by
  unfold Blk.nx; omega

theorem Tiles_nil (c : Sizes) (lo hi : Nat) : Tiles c lo [] hi ↔ lo = hi := Iff.rfl

theorem Tiles_cons (c : Sizes) (b : Blk) (r : List Blk) (lo hi : Nat) :
    Tiles c lo (b :: r) hi ↔ b.h = lo ∧ Tiles c (b.nx c) r hi := Iff.rfl

theorem Seg_nil (c : Sizes) (m : Mem) (pt nh : Nat) : Seg c m pt [] nh ↔ True := Iff.rfl

theorem Seg_cons (c : Sizes) (m : Mem) (b : Blk) (r : List Blk) (pt nh : Nat) :
    Seg c m pt (b :: r) nh ↔ BlkAt c m b pt (hdOr r nh) ∧ Seg c m (b.tl c) r nh := Iff.rfl

theorem tlOr_nil (c : Sizes) (d : Nat) : tlOr c [] d = d := rfl

theorem tlOr_cons (c : Sizes) (b : Blk) (r : List Blk) (d : Nat) :
    tlOr c (b :: r) d = tlOr c r (b.tl c) := rfl

theorem hdOr_nil (d : Nat) : hdOr [] d = d := rfl

theorem hdOr_cons (b : Blk) (r : List Blk) (d : Nat) : hdOr (b :: r) d = b.h := rfl

theorem hdOr_append (l1 l2 : List Blk) (d : Nat) : hdOr (l1 ++ l2) d = hdOr l1 (hdOr l2 d) := by
  cases l1 <;> rfl

theorem tlOr_append (c : Sizes) (l1 l2 : List Blk) (d : Nat) :
    tlOr c (l1 ++ l2) d = tlOr c l2 (tlOr c l1 d) := by
  induction l1 generalizing d with
  | nil => rfl
  | cons b r ih => simp only [List.cons_append, tlOr_cons]; exact ih _

theorem Tiles_append (c : Sizes) (l1 l2 : List Blk) (lo hi : Nat) :
    Tiles c lo (l1 ++ l2) hi ↔ ∃ mid, Tiles c lo l1 mid ∧ Tiles c mid l2 hi := by
  induction l1 generalizing lo with
  | nil => simp [Tiles_nil]
  | cons b r ih =>
    simp only [List.cons_append, Tiles_cons, ih]
    constructor
    · rintro ⟨h, mid, h1, h2⟩; exact ⟨mid, ⟨h, h1⟩, h2⟩
    · rintro ⟨mid, ⟨h, h1⟩, h2⟩; exact ⟨h, mid, h1, h2⟩

theorem Tiles_le (c : Sizes) (l : List Blk) (lo hi : Nat) (h : Tiles c lo l hi) : lo ≤ hi := by
  induction l generalizing lo with
  | nil => simp [Tiles] at h; omega
  | cons b r ih =>
    obtain ⟨h1, h2⟩ := h
    have := ih _ h2
    have := Blk.tl_ge c b
    have := Blk.nx_ge c b
    omega

theorem Tiles_mem (c : Sizes) (l : List Blk) (lo hi : Nat) (h : Tiles c lo l hi) (b : Blk)
    (hb : b ∈ l) : lo ≤ b.h ∧ b.nx c ≤ hi := by
  induction l generalizing lo with
  | nil => cases hb
  | cons a r ih =>
    obtain ⟨h1, h2⟩ := h
    have h3 := Tiles_le c r _ _ h2
    have := Blk.tl_ge c a
    have := Blk.nx_ge c a
    rcases List.mem_cons.mp hb with rfl | hb
    · omega
    · have := ih _ h2 hb
      omega

theorem Tiles_unique (c : Sizes) (l : List Blk) (lo hi hi' : Nat) (h : Tiles c lo l hi)
    (h' : Tiles c lo l hi') : hi = hi' := by
  induction l generalizing lo with
  | nil => simp [Tiles] at h h'; omega
  | cons a r ih => exact ih _ h.2 h'.2

theorem Tiles_hdOr (c : Sizes) (l : List Blk) (lo hi : Nat) (h : Tiles c lo l hi) :
    hdOr l hi = lo := by
  cases l with
  | nil => simp [Tiles] at h; simp [hdOr, h]
  | cons a r => exact h.1

theorem Seg_append (c : Sizes) (m : Mem) (l1 l2 : List Blk) (pt nh : Nat) :
    Seg c m pt (l1 ++ l2) nh ↔ Seg c m pt l1 (hdOr l2 nh) ∧ Seg c m (tlOr c l1 pt) l2 nh := by
  induction l1 generalizing pt with
  | nil => simp [Seg_nil, tlOr_nil]
  | cons b r ih =>
    simp only [List.cons_append, Seg_cons, tlOr_cons, ih, hdOr_append, and_assoc]

theorem BlkAt_frame (c : Sizes) (hc : c.ok) (m m' : Mem) (b : Blk) (pt nh : Nat)
    (h : BlkAt c m b pt nh) (hm : ∀ x, b.h ≤ x → x < b.tl c + c.TS → m' x = m x) :
    BlkAt c m' b pt nh := by
  have h1 := Blk.tl_ge c b
  obtain ⟨_, _, _, _, _, _, _, _, _⟩ := hc
  unfold BlkAt prev_seg_tail next_seg_tail seg_size prev_seg_head next_seg_head
    free_following at *
  rw [rd64_congr m m' b.h, rd64_congr m m' (b.h + 8), rd64_congr m m' (b.h + 16),
    rd64_congr m m' (b.tl c), rd64_congr m m' (b.tl c + 8), rd64_congr m m' (b.tl c + 16)]
  · exact h
  all_goals intro x hx1 hx2; apply hm <;> omega

theorem Seg_frame (c : Sizes) (hc : c.ok) (m m' : Mem) (l : List Blk) (pt nh lo hi : Nat)
    (h : Seg c m pt l nh) (ht : Tiles c lo l hi) (hm : ∀ x, lo ≤ x → x < hi → m' x = m x) :
    Seg c m' pt l nh := by
  induction l generalizing pt lo with
  | nil => trivial
  | cons b r ih =>
    obtain ⟨hb, hr⟩ := h
    obtain ⟨ht1, ht2⟩ := ht
    have hle := Tiles_le c r _ _ ht2
    have h1 := Blk.tl_ge c b
    have h2 := Blk.nx_ge c b
    refine ⟨BlkAt_frame c hc m m' b _ _ hb ?_, ih _ _ hr ht2 ?_⟩
    · intro x hx1 hx2; apply hm <;> omega
    · intro x hx1 hx2; apply hm <;> omega

theorem Cyc_rotate (c : Sizes) (m : Mem) (l1 l2 : List Blk) :
    Cyc c m (l1 ++ l2) ↔ Cyc c m (l2 ++ l1) := by
  unfold Cyc
  cases l1 with
  | nil => simp
  | cons a r1 =>
    cases l2 with
    | nil => simp
    | cons b r2 =>
      rw [Seg_append, Seg_append]
      simp only [tlOr_append, hdOr_append, hdOr_cons, tlOr_cons]
      constructor <;> (rintro ⟨h1, h2⟩; exact ⟨h2, h1⟩)

theorem Disj_symm (c : Sizes) (a b : Blk) (h : Disj c a b) : Disj c b a := by
  unfold Disj at *; omega

theorem Tiles_pairwise (c : Sizes) (l : List Blk) (lo hi : Nat) (h : Tiles c lo l hi) :
    l.Pairwise (fun a b => a.nx c ≤ b.h) := by
  induction l generalizing lo with
  | nil => exact List.Pairwise.nil
  | cons a r ih =>
    obtain ⟨h1, h2⟩ := h
    refine List.Pairwise.cons ?_ (ih _ h2)
    intro b hb
    exact (Tiles_mem c r _ _ h2 b hb).1

theorem Tiles_disj (c : Sizes) (l : List Blk) (lo hi : Nat) (h : Tiles c lo l hi) :
    l.Pairwise (Disj c) :=
  (Tiles_pairwise c l lo hi h).imp (fun h => Or.inl h)

theorem Disj_perm (c : Sizes) (l l' : List Blk) (hp : l.Perm l') (h : l.Pairwise (Disj c)) :
    l'.Pairwise (Disj c) :=
  (hp.pairwise_iff (fun {a b} h => Disj_symm c a b h)).mp h

theorem Seg_frame_disj (c : Sizes) (hc : c.ok) (m m' : Mem) (l : List Blk) (pt nh : Nat)
    (h : Seg c m pt l nh) (hm : ∀ b ∈ l, ∀ x, b.h ≤ x → x < b.tl c + c.TS → m' x = m x) :
    Seg c m' pt l nh := by
  induction l generalizing pt with
  | nil => trivial
  | cons b r ih =>
    obtain ⟨hb, hr⟩ := h
    refine ⟨BlkAt_frame c hc m m' b _ _ hb (hm b (List.mem_cons_self _ _)), ih _ hr ?_⟩
    intro b' hb'; exact hm b' (List.mem_cons_of_mem _ hb')

theorem Upd_nil (m : Mem) : Upd m m [] := ⟨by simp, fun _ _ => rfl⟩

theorem Upd_wr (m M : Mem) (ws : List (Nat × Nat)) (a v : Nat) (h : Upd m M ws)
    (hd : ∀ w ∈ ws, a + 8 ≤ w.1 ∨ w.1 + 8 ≤ a) (hv : v < 18446744073709551616) :
    Upd m (wr64 M a v) ((a, v) :: ws) := by
  constructor
  · intro w hw
    rcases List.mem_cons.mp hw with rfl | hw
    · exact rd64_wr64_eq _ _ _ hv
    · rw [rd64_wr64_ne _ _ _ _ (by have := hd w hw; omega)]
      exact h.1 w hw
  · intro x hx
    rw [wr64_out _ _ _ _ (by have := hx (a, v) (List.mem_cons_self _ _); simpa using this)]
    exact h.2 x (fun w hw => hx w (List.mem_cons_of_mem _ hw))

/-- A field of the old memory that no assignment touches reads the same. -/
theorem Upd_rd (m M : Mem) (ws : List (Nat × Nat)) (h : Upd m M ws) (b : Nat)
    (hd : ∀ w ∈ ws, b + 8 ≤ w.1 ∨ w.1 + 8 ≤ b) : rd64 M b = rd64 m b := by
  apply rd64_congr
  intro x h1 h2
  apply h.2
  intro w hw
  have := hd w hw
  omega

/-! ## Running the in-place resize on known field values -/

set_option maxHeartbeats 1000000 in
theorem shrink_run (c : Sizes) (s : Heap) (h t nxt sz ff d : Nat)
    (f2 : rd64 s.mem (h + 8) = t) (f3 : rd64 s.mem (h + 16) = sz)
    (f5 : rd64 s.mem (t + 8) = nxt) (f6 : rd64 s.mem (t + 16) = ff)
    (hHS : 24 ≤ c.HS) (hTS : 24 ≤ c.TS)
    (ht : t = h + c.HS + round_up sz ALIGNMENT) (hd : d ≤ sz)
    (hr : round_up (sz - d) ALIGNMENT ≤ round_up sz ALIGNMENT)
    (hb : t + c.TS + ff < 18446744073709551616)
    (hsz : sz < 2147483648)
    (hn : nxt = h ∨ nxt + 8 ≤ h ∨ t + c.TS ≤ nxt) :
    ∃ M, shrink_segment c s (h + c.HS) d = .ok (0, { s with
        mem := M,
        last_addr := if t = s.last_addr then h + c.HS + (round_up (sz - d) ALIGNMENT)
          else s.last_addr }) ∧
      Upd s.mem M [(nxt, h + c.HS + round_up (sz - d) ALIGNMENT), (h + 16, sz - d),
        (h + 8, h + c.HS + round_up (sz - d) ALIGNMENT),
        (h + c.HS + round_up (sz - d) ALIGNMENT + 16,
          ff + (t - (h + c.HS + round_up (sz - d) ALIGNMENT))),
        (h + c.HS + round_up (sz - d) ALIGNMENT + 8, nxt),
        (h + c.HS + round_up (sz - d) ALIGNMENT, h)] := by
  have hnl : nxt < 18446744073709551616 := by rw [← f5]; exact rd64_lt _ _
  subst ht
  unfold shrink_segment
  simp only [Nat.add_sub_cancel, seg_size, next_seg_tail, next_seg_head,
      free_following, f2, f3, f5, f6]
  rw [if_neg (by omega)]
  by_cases hla : h + c.HS + round_up sz ALIGNMENT = s.last_addr <;>
  rcases hn with hn | hn | hn
  all_goals
    simp (disch := omega) only [set_prev_seg_head, hla, if_true, if_false, pure_eq_ok,
      set_next_seg_head, set_free_following,
      set_next_seg_tail, set_seg_size, set_prev_seg_tail, rd64_wr64_eq, rd64_wr64_ne,
      toSize_add_sub, seg_size, next_seg_tail, next_seg_head, free_following, f2, f3, f5, f6,
      ASSERT_ok, ASSERT_true, ok_bind, get_last_addr, set_last_addr]
    refine ⟨_, rfl, ?_⟩
    repeat (first | exact Upd_nil _ | apply Upd_wr)
    all_goals try simp only [List.mem_cons, List.mem_singleton, forall_eq_or_imp, forall_eq,
      List.not_mem_nil, false_implies, implies_true, and_true]
    all_goals omega

set_option maxHeartbeats 1000000 in
theorem expand_run (c : Sizes) (s : Heap) (h t nxt sz ff d : Nat)
    (f2 : rd64 s.mem (h + 8) = t) (f3 : rd64 s.mem (h + 16) = sz)
    (f5 : rd64 s.mem (t + 8) = nxt) (f6 : rd64 s.mem (t + 16) = ff)
    (hHS : 24 ≤ c.HS) (hTS : 24 ≤ c.TS)
    (ht : t = h + c.HS + round_up sz ALIGNMENT)
    (hr : round_up sz ALIGNMENT ≤ round_up (sz + d) ALIGNMENT)
    (hfit : round_up (sz + d) ALIGNMENT ≤ round_up ff ALIGNMENT + round_up sz ALIGNMENT)
    (hff : round_up ff ALIGNMENT = ff)
    (hb : t + c.TS + ff < 18446744073709551616)
    (hsz : sz + d < 2147483648)
    (hn : nxt = h ∨ nxt + 8 ≤ h ∨ t + c.TS + ff ≤ nxt) :
    ∃ M, expand_segment c s (h + c.HS) d = .ok (0, { s with
        mem := M,
        last_addr := if t = s.last_addr then h + c.HS + (round_up (sz + d) ALIGNMENT)
          else s.last_addr }) ∧
      Upd s.mem M [(nxt, h + c.HS + round_up (sz + d) ALIGNMENT), (h + 16, sz + d),
        (h + 8, h + c.HS + round_up (sz + d) ALIGNMENT),
        (h + c.HS + round_up (sz + d) ALIGNMENT + 16,
          ff - (h + c.HS + round_up (sz + d) ALIGNMENT - t)),
        (h + c.HS + round_up (sz + d) ALIGNMENT + 8, nxt),
        (h + c.HS + round_up (sz + d) ALIGNMENT, h)] := by
  have hnl : nxt < 18446744073709551616 := by rw [← f5]; exact rd64_lt _ _
  subst ht
  unfold expand_segment
  simp (disch := omega) only [Nat.add_sub_cancel, seg_size, next_seg_tail, next_seg_head,
      free_following, f2, f3, f5, f6, Nat.mod_eq_of_lt, hff]
  rw [if_neg (by omega)]
  by_cases hla : h + c.HS + round_up sz ALIGNMENT = s.last_addr <;>
  rcases hn with hn | hn | hn
  all_goals
    simp (disch := omega) only [set_prev_seg_head, hla, if_true, if_false, pure_eq_ok,
      set_next_seg_head, set_free_following, Nat.mod_eq_of_lt,
      set_next_seg_tail, set_seg_size, set_prev_seg_tail, rd64_wr64_eq, rd64_wr64_ne,
      toSize_sub_sub, seg_size, next_seg_tail, next_seg_head, free_following, f2, f3, f5, f6,
      ASSERT_ok, ASSERT_true, ok_bind, get_last_addr, set_last_addr]
    refine ⟨_, rfl, ?_⟩
    repeat (first | exact Upd_nil _ | apply Upd_wr)
    all_goals try simp only [List.mem_cons, List.mem_singleton, forall_eq_or_imp, forall_eq,
      List.not_mem_nil, false_implies, implies_true, and_true]
    all_goals omega

/-! ## Running `add_entry` on known field values -/

set_option maxHeartbeats 1000000 in
theorem add_entry_empty_run (c : Sizes) (s : Heap) (addr size e : Nat)
    (hLS : 16 ≤ c.LS) (hHS : 24 ≤ c.HS) (hTS : 24 ≤ c.TS)
    (fe : rd64 s.mem (s.start + 8) = e)
    (h1 : s.start + c.LS ≤ addr) (h2 : addr + (round_up size ALIGNMENT + c.HS + c.TS) ≤ e)
    (h3 : e - s.start < 2147483648) (h4 : e < 18446744073709551616)
    (h5 : size < 2147483648) :
    ∃ M, add_entry_empty c s addr size (round_up size ALIGNMENT)
        ((round_up size ALIGNMENT + c.HS + c.TS : Nat) : Int) = .ok (addr, { s with mem := M }) ∧
      Upd s.mem M [(s.start, addr),
        (addr + c.HS + round_up size ALIGNMENT + 16,
          e - addr - (round_up size ALIGNMENT + c.HS + c.TS)),
        (addr + c.HS + round_up size ALIGNMENT + 8, addr),
        (addr, addr + c.HS + round_up size ALIGNMENT),
        (addr + c.HS + round_up size ALIGNMENT, addr),
        (addr + 16, size), (addr + 8, addr + c.HS + round_up size ALIGNMENT)] := by
  unfold add_entry_empty
  simp (disch := omega) only [end_addr, fe, toInt32_sub, toInt32_nat, ASSERT_ok, ok_bind,
    toSize_add, toSize_sub_add, ASSERT_true, pure_eq_ok,
    set_prev_seg_head, set_next_seg_head, set_free_following, set_first_seg,
    set_next_seg_tail, set_seg_size, set_prev_seg_tail, rd64_wr64_eq, rd64_wr64_ne,
    seg_size, next_seg_tail, next_seg_head, free_following, prev_seg_tail, prev_seg_head]
  rw [if_pos (by omega)]
  rw [show e - (s.start + c.LS) -
      (round_up size ALIGNMENT + c.HS + c.TS + (addr - (s.start + c.LS))) =
      e - addr - (round_up size ALIGNMENT + c.HS + c.TS) by omega]
  refine ⟨_, rfl, ?_⟩
  repeat (first | exact Upd_nil _ | apply Upd_wr)
  all_goals try simp only [List.mem_cons, List.mem_singleton, forall_eq_or_imp, forall_eq,
    List.not_mem_nil, false_implies, implies_true, and_true]
  all_goals omega

set_option maxHeartbeats 1000000 in
theorem add_entry_front_run (c : Sizes) (s : Heap) (addr size e f temp : Nat)
    (hLS : 16 ≤ c.LS) (hHS : 24 ≤ c.HS) (hTS : 24 ≤ c.TS)
    (fe : rd64 s.mem (s.start + 8) = e) (ff1 : rd64 s.mem s.start = f)
    (ft : rd64 s.mem f = temp) (fn : rd64 s.mem (temp + 8) = f)
    (h1 : s.start + c.LS ≤ addr) (h2 : addr + (round_up size ALIGNMENT + c.HS + c.TS) ≤ f)
    (h6 : f + c.HS ≤ temp) (h7 : temp + c.TS ≤ e)
    (h3 : e - s.start < 2147483648) (h4 : e < 18446744073709551616)
    (h5 : size < 2147483648) :
    ∃ M, add_entry_front c s addr size (round_up size ALIGNMENT)
        ((round_up size ALIGNMENT + c.HS + c.TS : Nat) : Int) = .ok (addr, { s with mem := M }) ∧
      Upd s.mem M [(s.start, addr), (f, addr + c.HS + round_up size ALIGNMENT),
        (temp + 8, addr),
        (addr + c.HS + round_up size ALIGNMENT + 16,
          f - addr - (round_up size ALIGNMENT + c.HS + c.TS)),
        (addr + c.HS + round_up size ALIGNMENT + 8, f),
        (addr + c.HS + round_up size ALIGNMENT, addr),
        (addr + 16, size), (addr + 8, addr + c.HS + round_up size ALIGNMENT),
        (addr, temp)] := by
  unfold add_entry_front
  simp (disch := omega) only [end_addr, first_seg, fe, ff1, ft, fn, toInt32_sub, toInt32_nat,
    ASSERT_ok, ok_bind,
    toSize_add, toSize_sub_add, ASSERT_true, pure_eq_ok,
    set_prev_seg_head, set_next_seg_head, set_free_following, set_first_seg,
    set_next_seg_tail, set_seg_size, set_prev_seg_tail, rd64_wr64_eq, rd64_wr64_ne,
    seg_size, next_seg_tail, next_seg_head, free_following, prev_seg_tail, prev_seg_head]
  rw [show f - (s.start + c.LS) -
      (addr - (s.start + c.LS) + (round_up size ALIGNMENT + c.HS + c.TS)) =
      f - addr - (round_up size ALIGNMENT + c.HS + c.TS) by omega]
  refine ⟨_, rfl, ?_⟩
  repeat (first | exact Upd_nil _ | apply Upd_wr)
  all_goals try simp only [List.mem_cons, List.mem_singleton, forall_eq_or_imp, forall_eq,
    List.not_mem_nil, false_implies, implies_true, and_true]
  all_goals omega

set_option maxHeartbeats 1000000 in
theorem add_entry_after_run (c : Sizes) (s : Heap) (size e previous temp fo nxt : Nat)
    (hLS : 16 ≤ c.LS) (hHS : 24 ≤ c.HS) (hTS : 24 ≤ c.TS)
    (fe : rd64 s.mem (s.start + 8) = e)
    (ft : rd64 s.mem (previous + 8) = temp) (ffo : rd64 s.mem (temp + 16) = fo)
    (fn : rd64 s.mem (temp + 8) = nxt)
    (h1 : s.start + c.LS ≤ temp) (h2 : round_up size ALIGNMENT + c.HS + c.TS ≤ fo)
    (h7 : temp + c.TS + fo ≤ e)
    (h3 : e - s.start < 2147483648) (h4 : e < 18446744073709551616)
    (h5 : size < 2147483648)
    (hn : nxt + 24 ≤ temp ∨ temp + c.TS + fo ≤ nxt) (hn2 : s.start + c.LS ≤ nxt) :
    ∃ M, add_entry_after c s (temp + c.TS) size (round_up size ALIGNMENT)
        ((round_up size ALIGNMENT + c.HS + c.TS : Nat) : Int) previous =
          .ok (temp + c.TS, { s with mem := M }) ∧
      Upd s.mem M [(nxt, temp + c.TS + c.HS + round_up size ALIGNMENT),
        (temp + 8, temp + c.TS),
        (temp + c.TS + c.HS + round_up size ALIGNMENT + 16,
          fo - (round_up size ALIGNMENT + c.HS + c.TS)),
        (temp + c.TS + c.HS + round_up size ALIGNMENT + 8, nxt),
        (temp + c.TS + c.HS + round_up size ALIGNMENT, temp + c.TS),
        (temp + c.TS + 16, size),
        (temp + c.TS + 8, temp + c.TS + c.HS + round_up size ALIGNMENT),
        (temp + 16, 0), (temp + c.TS, temp)] := by
  have hnl : nxt < 18446744073709551616 := by rw [← fn]; exact rd64_lt _ _
  unfold add_entry_after
  rcases hn with hn | hn
  all_goals
    simp (disch := omega) only [end_addr, first_seg, fe, ft, fn, ffo, toInt32_sub, toInt32_nat,
      ASSERT_ok, ok_bind, Int.sub_self, toSize_nat, Nat.cast_zero, Nat.add_zero, Int.zero_add,
      toInt32_zero, toSize_zero, toSize_sub, Int.sub_zero, Nat.zero_add, ge_iff_le, le_refl,
      toSize_add, toSize_sub_add, toSize_add_add, ASSERT_true, pure_eq_ok,
      set_prev_seg_head, set_next_seg_head, set_free_following, set_first_seg,
      set_next_seg_tail, set_seg_size, set_prev_seg_tail, rd64_wr64_eq, rd64_wr64_ne,
      seg_size, next_seg_tail, next_seg_head, free_following, prev_seg_tail, prev_seg_head]
    refine ⟨_, rfl, ?_⟩
    repeat (first | exact Upd_nil _ | apply Upd_wr)
    all_goals try simp only [List.mem_cons, List.mem_singleton, forall_eq_or_imp, forall_eq,
      List.not_mem_nil, false_implies, implies_true, and_true]
    all_goals omega

/-! ## Running `remove_segment` on known field values -/

set_option maxHeartbeats 1000000 in
theorem remove_inner_run_last (c : Sizes) (s : Heap) (old pred t sz ffx ffp e f : Nat)
    (hLS : 16 ≤ c.LS) (hHS : 24 ≤ c.HS) (hTS : 24 ≤ c.TS)
    (fe : rd64 s.mem (s.start + 8) = e) (ff1 : rd64 s.mem s.start = f)
    (g1 : rd64 s.mem old = pred) (g2 : rd64 s.mem (old + 8) = t)
    (g3 : rd64 s.mem (old + 16) = sz) (g5 : rd64 s.mem (t + 8) = f)
    (g6 : rd64 s.mem (t + 16) = ffx) (k6 : rd64 s.mem (pred + 16) = ffp)
    (h3 : s.start + c.LS ≤ f) (h1 : f + 24 ≤ pred) (h2 : pred + 24 ≤ old) (h6 : old + 24 ≤ t)
    (h4 : pred + c.TS + (ffp + (c.HS + round_up sz ALIGNMENT + c.TS + ffx)) ≤ e)
    (h5 : e < 18446744073709551616) :
    ∃ M, remove_inner c s old = remove_shrink c { s with
            mem := M, last_addr := if t = s.last_addr then pred else s.last_addr } pred ∧
      Upd s.mem M [(f, pred), (pred + 8, f),
        (pred + 16, ffp + (c.HS + round_up sz ALIGNMENT + c.TS + ffx))] := by
  unfold remove_inner
  simp only [next_seg_tail, prev_seg_tail, g1, g2, get_last_addr, set_last_addr]
  by_cases hla : t = s.last_addr
  all_goals
    first | rw [if_pos hla] | rw [if_neg hla]
    simp (disch := omega) only [end_addr, first_seg, fe, ff1, g1, g2, g3, g5, g6, k6,
      set_prev_seg_head, set_next_seg_head, set_free_following, set_first_seg,
      set_next_seg_tail, set_seg_size, set_prev_seg_tail, rd64_wr64_eq, rd64_wr64_ne,
      seg_size, next_seg_tail, next_seg_head, free_following, prev_seg_tail, prev_seg_head,
      Nat.mod_eq_of_lt, ASSERT_bind, if_true]
    first | rw [if_pos hla] | rw [if_neg hla]
    refine ⟨_, rfl, ?_⟩
    repeat (first | exact Upd_nil _ | apply Upd_wr)
    all_goals try simp only [List.mem_cons, List.mem_singleton, forall_eq_or_imp, forall_eq,
      List.not_mem_nil, false_implies, implies_true, and_true]
    all_goals omega

set_option maxHeartbeats 1000000 in
theorem remove_inner_run_mid (c : Sizes) (s : Heap) (old pred t sz ffx nxt ffp e f lt : Nat)
    (hLS : 16 ≤ c.LS) (hHS : 24 ≤ c.HS) (hTS : 24 ≤ c.TS)
    (fe : rd64 s.mem (s.start + 8) = e) (ff1 : rd64 s.mem s.start = f)
    (g1 : rd64 s.mem old = pred) (g2 : rd64 s.mem (old + 8) = t)
    (g3 : rd64 s.mem (old + 16) = sz) (g5 : rd64 s.mem (t + 8) = nxt)
    (g6 : rd64 s.mem (t + 16) = ffx) (k6 : rd64 s.mem (pred + 16) = ffp)
    (k1 : rd64 s.mem f = lt) (hlt : lt ≠ pred)
    (h3 : s.start + c.LS ≤ f) (h1 : f + 24 ≤ pred) (h2 : pred + 24 ≤ old) (h6 : old + 24 ≤ t)
    (h7 : t + 24 ≤ nxt)
    (h4 : pred + c.TS + (ffp + (c.HS + round_up sz ALIGNMENT + c.TS + ffx)) ≤ e)
    (h5 : e < 18446744073709551616) :
    ∃ M, remove_inner c s old = .ok { s with
            mem := M, last_addr := if t = s.last_addr then pred else s.last_addr } ∧
      Upd s.mem M [(nxt, pred), (pred + 8, nxt),
        (pred + 16, ffp + (c.HS + round_up sz ALIGNMENT + c.TS + ffx))] := by
  have hnl : nxt < 18446744073709551616 := by rw [← g5]; exact rd64_lt _ _
  have hne : (pred = lt) = False := eq_false (fun h => hlt h.symm)
  unfold remove_inner
  simp only [next_seg_tail, prev_seg_tail, g1, g2, get_last_addr, set_last_addr]
  by_cases hla : t = s.last_addr
  all_goals
    first | rw [if_pos hla] | rw [if_neg hla]
    simp (disch := omega) only [end_addr, first_seg, fe, ff1, g1, g2, g3, g5, g6, k6, k1,
      set_prev_seg_head, set_next_seg_head, set_free_following, set_first_seg,
      set_next_seg_tail, set_seg_size, set_prev_seg_tail, rd64_wr64_eq, rd64_wr64_ne,
      seg_size, next_seg_tail, next_seg_head, free_following, prev_seg_tail, prev_seg_head,
      Nat.mod_eq_of_lt, ASSERT_bind, hne, if_false, pure_eq_ok]
    first | rw [if_pos hla] | rw [if_neg hla]
    refine ⟨_, rfl, ?_⟩
    repeat (first | exact Upd_nil _ | apply Upd_wr)
    all_goals try simp only [List.mem_cons, List.mem_singleton, forall_eq_or_imp, forall_eq,
      List.not_mem_nil, false_implies, implies_true, and_true]
    all_goals omega

theorem remove_shrink_run_keep (c : Sizes) (s : Heap) (pred ff : Nat)
    (k6 : rd64 s.mem (pred + 16) = ff) (h : ff ≤ 4096) :
    remove_shrink c s pred = .ok s := by
  unfold remove_shrink
  simp only [free_following, k6]
  rw [toInt32_nat _ (by omega), toInt32_PAGE_SIZE, if_neg (by omega)]
  rfl

set_option maxHeartbeats 1000000 in
theorem remove_shrink_run_cut (c : Sizes) (s : Heap) (pred ff e : Nat)
    (hLS : 16 ≤ c.LS) (hTS : 24 ≤ c.TS)
    (fe : rd64 s.mem (s.start + 8) = e)
    (k6 : rd64 s.mem (pred + 16) = ff) (h : 4096 < ff) (h2 : ff < 2147483648)
    (h3 : pred + c.TS + ff = e) (h4 : e ≤ s.brk) (h5 : s.brk ≤ s.brk_max)
    (h6 : s.start + c.LS ≤ pred) (h7 : e < 18446744073709551616) :
    ∃ M, remove_shrink c s pred = .ok { s with
        mem := M, brk := s.brk - ff / 4096 * 4096 } ∧
      Upd s.mem M [(s.start + 8, e - ff / 4096 * 4096), (pred + 16, ff - ff / 4096 * 4096)] := by
  have hk : ff / 4096 * 4096 ≤ ff := Nat.div_mul_le_self ff 4096
  have hk0 : 0 < ff / 4096 * 4096 := by omega
  unfold remove_shrink
  simp only [free_following, k6]
  rw [toInt32_nat _ (by omega), toInt32_PAGE_SIZE, if_pos (by omega), to_shrink_eq _ h2]
  simp (disch := omega) only [sbrk_or_neg_bind, end_addr, fe, k6, toSize_nat, toSize_sub,
      set_prev_seg_head, set_next_seg_head, set_free_following, set_first_seg, set_end_addr,
      set_next_seg_tail, set_seg_size, set_prev_seg_tail, rd64_wr64_eq, rd64_wr64_ne,
      seg_size, next_seg_tail, next_seg_head, free_following, prev_seg_tail, prev_seg_head,
      Nat.mod_eq_of_lt, ASSERT_bind, ASSERT_bind_true, pure_eq_ok, Nat.cast_pos, gt_iff_lt]
  refine ⟨_, rfl, ?_⟩
  repeat (first | exact Upd_nil _ | apply Upd_wr)
  all_goals try simp only [List.mem_cons, List.mem_singleton, forall_eq_or_imp, forall_eq,
    List.not_mem_nil, false_implies, implies_true, and_true]
  all_goals omega

theorem bind_of_ok {α β : Type} (x : Except Stop α) (a : α) (f : α → Except Stop β)
    (h : x = .ok a) : (x >>= f) = f a := by
  rw [h]; rfl

theorem find_last_tail_run (c : Sizes) (m : Mem) (l old lt ffl e : Nat)
    (hl : l ≠ 0) (ho : old ≠ 0)
    (fe : rd64 m (l + 8) = e) (ff1 : rd64 m l = old)
    (g1 : rd64 m old = lt) (k6 : rd64 m (lt + 16) = ffl)
    (h4 : lt + c.TS + ffl = e) :
    find_last_tail c m l = .ok lt := by
  unfold find_last_tail
  have hs0 : (l = 0) = False := eq_false hl
  have ho0 : (old = 0) = False := eq_false ho
  simp (disch := omega) only [end_addr, first_seg, prev_seg_tail, free_following, fe, ff1, g1, k6,
    hs0, ho0, if_false, ASSERT_bind, pure_eq_ok]

set_option maxHeartbeats 1000000 in
theorem remove_first_run (c : Sizes) (s : Heap) (old t sz ffx nxt lt ffl e : Nat)
    (hLS : 16 ≤ c.LS) (hHS : 24 ≤ c.HS) (hTS : 24 ≤ c.TS)
    (fe : rd64 s.mem (s.start + 8) = e) (ff1 : rd64 s.mem s.start = old)
    (g1 : rd64 s.mem old = lt) (g2 : rd64 s.mem (old + 8) = t)
    (g3 : rd64 s.mem (old + 16) = sz) (g5 : rd64 s.mem (t + 8) = nxt)
    (g6 : rd64 s.mem (t + 16) = ffx) (k6 : rd64 s.mem (lt + 16) = ffl)
    (h0 : s.start ≠ 0)
    (h3 : s.start + c.LS ≤ old) (ht : t = old + c.HS + round_up sz ALIGNMENT)
    (hn : nxt = t + c.TS + ffx) (h1 : nxt + 24 ≤ lt) (h4 : lt + c.TS + ffl = e)
    (h5 : e < 18446744073709551616) (h6 : e - s.start < 2147483648) :
    ∃ M, remove_first c s old = .ok { s with
            mem := M, last_addr := if t = s.last_addr then lt else s.last_addr } ∧
      Upd s.mem M [(s.start, nxt), (nxt, lt), (lt + 8, nxt)] := by
  have hf := find_last_tail_run c s.mem s.start old lt ffl e h0 (by omega) fe ff1 g1 k6 h4
  unfold remove_first
  rw [bind_of_ok (find_last_tail c s.mem s.start) lt _ hf]
  simp only [next_seg_tail, g2, get_last_addr, set_last_addr]
  by_cases hla : t = s.last_addr
  all_goals
    first | rw [if_pos hla, if_pos hla] | rw [if_neg hla, if_neg hla]
    simp (disch := omega) only [end_addr, first_seg, fe, ff1, g1, g2, g3, g5, g6, k6,
      toSize_sub, toInt32_nat,
      set_prev_seg_head, set_next_seg_head, set_free_following, set_first_seg,
      set_next_seg_tail, set_seg_size, set_prev_seg_tail, rd64_wr64_eq, rd64_wr64_ne,
      seg_size, next_seg_tail, next_seg_head, free_following, prev_seg_tail, prev_seg_head,
      Nat.mod_eq_of_lt, ASSERT_bind, ASSERT_bind_true, pure_eq_ok]
    refine ⟨_, rfl, ?_⟩
    repeat (first | exact Upd_nil _ | apply Upd_wr)
    all_goals try simp only [List.mem_cons, List.mem_singleton, forall_eq_or_imp, forall_eq,
      List.not_mem_nil, false_implies, implies_true, and_true]
    all_goals omega

theorem brk_ok (s : Heap) (a : Nat) (h : a ≤ s.brk_max) :
    brk s a = some { s with brk := a } := by
  unfold brk; rw [if_pos h]

theorem sbrk_ok (s : Heap) (k : Nat) (h : s.brk + k ≤ s.brk_max) :
    sbrk s ((k : Nat) : Int) = some (s.brk, { s with brk := s.brk + k }) := by
  unfold sbrk
  rw [if_pos (by omega)]
  congr 3

theorem sbrk_fail (s : Heap) (k : Nat) (h : ¬ s.brk + k ≤ s.brk_max) :
    sbrk s ((k : Nat) : Int) = none := by
  unfold sbrk
  rw [if_neg (by omega)]

theorem sbrk_or_fail_bind {β : Type} (stop : Stop) (s : Heap) (k : Nat)
    (f : Nat × Heap → Except Stop β) (h : ¬ s.brk + k ≤ s.brk_max) :
    (sbrk_or stop s ((k : Nat) : Int) >>= f) = .error stop := by
  unfold sbrk_or; rw [sbrk_fail s k h]; rfl

theorem num_pages_eq (k : Nat) (hk : k < 18446744073709551616) : num_pages ((k : Nat) : Int) = (k + 4095) / 4096 := by
  unfold num_pages PAGE_SIZE toSize
  have h1 : -(-((k : Nat) : Int) / ((4096 : Nat) : Int)) = (((k + 4095) / 4096 : Nat) : Int) := by
    omega
  rw [h1]
  have h2 : (k + 4095) / 4096 < 18446744073709551616 := by omega
  omega

theorem remove_only_run (c : Sizes) (s : Heap) (old t : Nat)
    (hLS : 16 ≤ c.LS)
    (g2 : rd64 s.mem (old + 8) = t) (h0 : old ≠ 0) (ho : old < 18446744073709551616)
    (h1 : s.start + c.LS ≤ old) (h2 : old + 24 ≤ t)
    (h3 : s.start + c.LS ≤ s.brk_max) (h4 : s.brk_max < 18446744073709551616) :
    ∃ M, remove_only c s old = .ok { s with
            mem := M, last_addr := if t = s.last_addr then 0 else s.last_addr,
            brk := s.start + c.LS } ∧
      rd64 M s.start = 0 ∧ rd64 M (s.start + 8) = s.start + c.LS ∧
      ∀ a, (a < t + 8 ∨ t + 16 ≤ a) → (a < s.start ∨ s.start + 16 ≤ a) → M a = s.mem a := by
  unfold remove_only reset_list init_tail init_first
  simp only [next_seg_tail, g2, get_last_addr, set_last_addr]
  by_cases hla : t = s.last_addr
  all_goals
    first | rw [if_pos hla, if_pos hla] | rw [if_neg hla, if_neg hla]
    simp (disch := omega) only [end_addr, first_seg, set_end_addr,
      set_next_seg_head, set_first_seg, rd64_wr64_eq, rd64_wr64_ne,
      next_seg_tail, next_seg_head, ne_eq, h0, not_false_eq_true, brk, h3, if_true, g2,
      Nat.mod_eq_of_lt, ASSERT_bind, ASSERT_bind_true, pure_eq_ok]
    simp only [ok_bind, not_true_eq_false, if_false]
    refine ⟨_, rfl, ?_, ?_, ?_⟩
    · rw [rd64_wr64_ne _ _ _ _ (by omega), rd64_wr64_eq _ _ _ (by omega)]
    · rw [rd64_wr64_eq _ _ _ (by omega)]
    · intro a ha hb
      rw [wr64_out _ _ _ _ (by omega), wr64_out _ _ _ _ (by omega), wr64_out _ _ _ _ (by omega),
        wr64_out _ _ _ _ (by omega)]

/-! ## Running `expand_list`, `create_list` and `add_entry` on known field values -/

theorem expand_list_run_empty (c : Sizes) (s : Heap) (size : Nat)
    (hc : c.ok) (h0 : s.start ≠ 0)
    (fe : rd64 s.mem (s.start + 8) = s.start + c.LS) (ff1 : rd64 s.mem s.start = 0)
    (h1 : footprint c size < 2147483648) (hsz : size < 2147483648)
    (h2 : s.start + c.LS ≤ s.brk) (h2b : s.brk_max < 18446744073709551616) :
    (¬ s.brk + (footprint c size + 4095) / 4096 * 4096 ≤ s.brk_max →
      expand_list c s size = .error Stop.exit) ∧
    (s.brk + (footprint c size + 4095) / 4096 * 4096 ≤ s.brk_max →
      ∃ M, expand_list c s size = .ok (s.start + c.LS, { s with
        mem := M, brk := s.brk + (footprint c size + 4095) / 4096 * 4096 }) ∧
      Upd s.mem M [(s.start + 8, s.start + c.LS + (footprint c size + 4095) / 4096 * 4096)]) := by
  obtain ⟨c1, c2, c3, c4, c5, c6, c7, c8, c9⟩ := hc
  unfold footprint at h1 ⊢
  have hr : round_up size ALIGNMENT % ALIGNMENT = 0 := (round_up_16 size (by omega)).1
  have hfp : round_up size ALIGNMENT + c.HS + c.TS = c.HS + round_up size ALIGNMENT + c.TS := by
    omega
  have hs0 : (s.start = 0) = False := eq_false h0
  unfold expand_list
  constructor
  all_goals
    intro h3
    simp (disch := omega) only [hs0, if_false, first_seg, end_addr, fe, ff1, if_true, hr, hfp,
      ASSERT_bind, ASSERT_bind_true, Nat.mod_eq_of_lt, toInt32_nat, sub_self, sub_zero,
      Nat.cast_pos, gt_iff_lt, num_pages_eq, PAGE_SIZE, sbrk_or_add_bind, sbrk_or_fail_bind,
      set_end_addr, pure_eq_ok]
  refine ⟨_, rfl, ?_⟩
  repeat (first | exact Upd_nil _ | apply Upd_wr)
  all_goals try simp only [List.mem_cons, List.mem_singleton, forall_eq_or_imp, forall_eq,
    List.not_mem_nil, false_implies, implies_true, and_true]
  all_goals omega

theorem expand_list_run_last (c : Sizes) (s : Heap) (size old lt ffl e : Nat)
    (hc : c.ok) (h0 : s.start ≠ 0) (ho : old ≠ 0)
    (fe : rd64 s.mem (s.start + 8) = e) (ff1 : rd64 s.mem s.start = old)
    (g1 : rd64 s.mem old = lt) (k6 : rd64 s.mem (lt + 16) = ffl)
    (h4 : lt + c.TS + ffl = e) (h5 : s.start + c.LS ≤ lt)
    (h1 : footprint c size < 2147483648) (hsz : size < 2147483648)
    (h6 : ffl < footprint c size)
    (h2 : e ≤ s.brk) (h2b : s.brk_max < 18446744073709551616) :
    (¬ s.brk + (footprint c size - ffl + 4095) / 4096 * 4096 ≤ s.brk_max →
      expand_list c s size = .error Stop.exit) ∧
    (s.brk + (footprint c size - ffl + 4095) / 4096 * 4096 ≤ s.brk_max →
      ∃ M, expand_list c s size = .ok (lt + c.TS, { s with
        mem := M, brk := s.brk + (footprint c size - ffl + 4095) / 4096 * 4096 }) ∧
      Upd s.mem M [(lt + 16, ffl + (footprint c size - ffl + 4095) / 4096 * 4096),
        (s.start + 8, e + (footprint c size - ffl + 4095) / 4096 * 4096)]) := by
  have hf := find_last_tail_run c s.mem s.start old lt ffl e h0 ho fe ff1 g1 k6 h4
  obtain ⟨c1, c2, c3, c4, c5, c6, c7, c8, c9⟩ := hc
  unfold footprint at h1 h6 ⊢
  have hr : round_up size ALIGNMENT % ALIGNMENT = 0 := (round_up_16 size (by omega)).1
  have hfp : round_up size ALIGNMENT + c.HS + c.TS = c.HS + round_up size ALIGNMENT + c.TS := by
    omega
  have hs0 : (s.start = 0) = False := eq_false h0
  have ho0 : (old = 0) = False := eq_false ho
  have hl0 : lt ≠ 0 := by omega
  unfold expand_list
  rw [if_neg h0]
  simp only [first_seg, ff1, ho0, if_false]
  rw [bind_of_ok (find_last_tail c s.mem s.start) lt _ hf]
  constructor
  all_goals
    intro h3
    simp (disch := omega) only [end_addr, fe, k6, hr, hfp, free_following, ne_eq, hl0,
      not_false_eq_true, toInt32_sub,
      ASSERT_bind, ASSERT_bind_true, Nat.mod_eq_of_lt, toInt32_nat, sub_self, sub_zero,
      Nat.cast_pos, gt_iff_lt, num_pages_eq, PAGE_SIZE, sbrk_or_add_bind, sbrk_or_fail_bind,
      set_end_addr, set_free_following, rd64_wr64_eq, rd64_wr64_ne, pure_eq_ok]
  refine ⟨_, rfl, ?_⟩
  repeat (first | exact Upd_nil _ | apply Upd_wr)
  all_goals try simp only [List.mem_cons, List.mem_singleton, forall_eq_or_imp, forall_eq,
    List.not_mem_nil, false_implies, implies_true, and_true]
  all_goals omega

theorem create_list_run (c : Sizes) (s : Heap) (hc : c.ok)
    (h1 : 0 < s.brk) (h2 : s.brk_max < 18446744073709551616) :
    (¬ s.brk + (c.LS + 16) ≤ s.brk_max → create_list c s = .ok (0, s)) ∧
    (s.brk + (c.LS + 16) ≤ s.brk_max →
      ∃ M, create_list c s = .ok (round_up s.brk ALIGNMENT, { s with
        mem := M, brk := s.brk + (c.LS + 16) }) ∧
      Upd s.mem M [(round_up s.brk ALIGNMENT + 8, round_up s.brk ALIGNMENT + c.LS),
        (round_up s.brk ALIGNMENT, 0)]) := by
  obtain ⟨c1, c2, c3, c4, c5, c6, c7, c8, c9⟩ := hc
  unfold create_list
  have ha : c.LS + ALIGNMENT = c.LS + 16 := rfl
  rw [ha]
  constructor
  · intro h3
    rw [sbrk_fail s _ h3]
    rfl
  · intro h3
    have hr := round_up_16 s.brk (by omega)
    rw [sbrk_ok s _ h3]
    simp (disch := omega) only [init_tail, init_first, set_first_seg, set_end_addr, end_addr,
      rd64_wr64_eq, Nat.cast_add, add_sub_cancel_left, ASSERT_bind_true, pure_eq_ok]
    simp only [ok_bind]
    refine ⟨_, rfl, ?_⟩
    repeat (first | exact Upd_nil _ | apply Upd_wr)
    all_goals try simp only [List.mem_cons, List.mem_singleton, forall_eq_or_imp, forall_eq,
      List.not_mem_nil, false_implies, implies_true, and_true]
    all_goals omega

theorem get_prev_reference_run_front (c : Sizes) (m : Mem) (l addr e f : Nat)
    (fe : rd64 m (l + 8) = e) (ff1 : rd64 m l = f) (hf : f ≠ 0)
    (h1 : l + c.LS ≤ addr) (h2 : addr < e) (h3 : addr < f) (hLS : 16 ≤ c.LS) :
    get_prev_reference c m l addr = .ok l := by
  unfold get_prev_reference
  have hf0 : (f = 0) = False := eq_false hf
  simp (disch := omega) only [end_addr, first_seg, fe, ff1, hf0, if_false, gt_iff_lt, h3, if_true,
    ASSERT_bind, ge_iff_le, pure_eq_ok]

theorem get_prev_reference_run_after (c : Sizes) (m : Mem) (l e f t h : Nat)
    (fe : rd64 m (l + 8) = e) (ff1 : rd64 m l = f) (hf : f ≠ 0)
    (g4 : rd64 m t = h)
    (h1 : l + c.LS ≤ t + c.TS) (h2 : t + c.TS < e) (h3 : f ≤ t + c.TS) :
    get_prev_reference c m l (t + c.TS) = .ok h := by
  unfold get_prev_reference
  have hf0 : (f = 0) = False := eq_false hf
  have h3n : (t + c.TS < f) = False := eq_false (by omega)
  simp (disch := omega) only [end_addr, first_seg, fe, ff1, hf0, if_false, gt_iff_lt, h3n,
    ASSERT_bind, ge_iff_le, pure_eq_ok, prev_seg_head, Nat.add_sub_cancel, g4]

/-! ## Running `add_entry` -/

theorem add_entry_run_empty (c : Sizes) (s : Heap) (addr size e : Nat)
    (hLS : 16 ≤ c.LS) (hHS : 24 ≤ c.HS) (hTS : 24 ≤ c.TS)
    (fe : rd64 s.mem (s.start + 8) = e) (ff1 : rd64 s.mem s.start = 0)
    (h1 : s.start + c.LS ≤ addr) (h2 : addr + (round_up size ALIGNMENT + c.HS + c.TS) ≤ e)
    (h3 : e - s.start < 2147483648) (h4 : e < 18446744073709551616)
    (h5 : size < 2147483648) (h0 : s.start ≠ 0) :
    ∃ M, add_entry c s addr size = .ok (addr + c.HS, { s with
        mem := M, last_addr := addr + c.HS + round_up size ALIGNMENT }) ∧
      Upd s.mem M [(s.start, addr),
        (addr + c.HS + round_up size ALIGNMENT + 16,
          e - addr - (round_up size ALIGNMENT + c.HS + c.TS)),
        (addr + c.HS + round_up size ALIGNMENT + 8, addr),
        (addr, addr + c.HS + round_up size ALIGNMENT),
        (addr + c.HS + round_up size ALIGNMENT, addr),
        (addr + 16, size), (addr + 8, addr + c.HS + round_up size ALIGNMENT)] := by
  obtain ⟨M, hrun, hupd⟩ := add_entry_empty_run c s addr size e hLS hHS hTS fe h1 h2 h3 h4 h5
  refine ⟨M, ?_, hupd⟩
  have hn : rd64 M (addr + 8) = addr + c.HS + round_up size ALIGNMENT :=
    hupd.1 (addr + 8, _) (by simp)
  have hs0 : (s.start = 0) = False := eq_false h0
  have he0 : (e = 0) = False := eq_false (by omega)
  have ha0 : (addr = 0) = False := eq_false (by omega)
  unfold add_entry
  simp (disch := omega) only [end_addr, first_seg, fe, ff1, hs0, he0, or_self, if_false,
    toInt32_nat, Nat.mod_eq_of_lt, ne_eq, not_true_eq_false, ASSERT_bind, ge_iff_le, hrun]
  simp only [ok_bind, ne_eq, ha0, not_false_eq_true, if_true, set_last_addr, next_seg_tail, hn,
    pure_eq_ok]

theorem add_entry_run_front (c : Sizes) (s : Heap) (addr size e f temp : Nat)
    (hLS : 16 ≤ c.LS) (hHS : 24 ≤ c.HS) (hTS : 24 ≤ c.TS)
    (fe : rd64 s.mem (s.start + 8) = e) (ff1 : rd64 s.mem s.start = f)
    (ft : rd64 s.mem f = temp) (fn : rd64 s.mem (temp + 8) = f)
    (h1 : s.start + c.LS ≤ addr) (h2 : addr + (round_up size ALIGNMENT + c.HS + c.TS) ≤ f)
    (h6 : f + c.HS ≤ temp) (h7 : temp + c.TS ≤ e)
    (h3 : e - s.start < 2147483648) (h4 : e < 18446744073709551616)
    (h5 : size < 2147483648) (h0 : s.start ≠ 0) :
    ∃ M, add_entry c s addr size = .ok (addr + c.HS, { s with
        mem := M, last_addr := addr + c.HS + round_up size ALIGNMENT }) ∧
      Upd s.mem M [(s.start, addr), (f, addr + c.HS + round_up size ALIGNMENT),
        (temp + 8, addr),
        (addr + c.HS + round_up size ALIGNMENT + 16,
          f - addr - (round_up size ALIGNMENT + c.HS + c.TS)),
        (addr + c.HS + round_up size ALIGNMENT + 8, f),
        (addr + c.HS + round_up size ALIGNMENT, addr),
        (addr + 16, size), (addr + 8, addr + c.HS + round_up size ALIGNMENT),
        (addr, temp)] := by
  obtain ⟨M, hrun, hupd⟩ := add_entry_front_run c s addr size e f temp hLS hHS hTS fe ff1 ft fn
    h1 h2 h6 h7 h3 h4 h5
  refine ⟨M, ?_, hupd⟩
  have hn : rd64 M (addr + 8) = addr + c.HS + round_up size ALIGNMENT :=
    hupd.1 (addr + 8, _) (by simp)
  have hp := get_prev_reference_run_front c s.mem s.start addr e f fe ff1 (by omega) h1
    (by omega) (by omega) hLS
  have hs0 : (s.start = 0) = False := eq_false h0
  have he0 : (e = 0) = False := eq_false (by omega)
  have hf0 : (f = 0) = False := eq_false (by omega)
  have ha0 : (addr = 0) = False := eq_false (by omega)
  unfold add_entry
  simp (disch := omega) only [end_addr, first_seg, fe, ff1, hs0, he0, hf0, or_self, if_false,
    toInt32_nat, Nat.mod_eq_of_lt, ne_eq, not_false_eq_true, if_true, ASSERT_bind, ge_iff_le, hp]
  simp only [ok_bind, if_true, hrun]
  simp only [ok_bind, ne_eq, ha0, not_false_eq_true, if_true, set_last_addr, next_seg_tail, hn,
    pure_eq_ok]

theorem add_entry_run_after (c : Sizes) (s : Heap) (size e f previous temp fo nxt : Nat)
    (hLS : 16 ≤ c.LS) (hHS : 24 ≤ c.HS) (hTS : 24 ≤ c.TS)
    (fe : rd64 s.mem (s.start + 8) = e) (ff1 : rd64 s.mem s.start = f)
    (ft : rd64 s.mem (previous + 8) = temp) (ffo : rd64 s.mem (temp + 16) = fo)
    (fn : rd64 s.mem (temp + 8) = nxt) (g4 : rd64 s.mem temp = previous)
    (hf : s.start + c.LS ≤ f) (hf2 : f ≤ previous) (hp : previous + 24 ≤ temp)
    (h1 : s.start + c.LS ≤ temp) (h2 : round_up size ALIGNMENT + c.HS + c.TS ≤ fo)
    (h7 : temp + c.TS + fo ≤ e)
    (h3 : e - s.start < 2147483648) (h4 : e < 18446744073709551616)
    (h5 : size < 2147483648) (h0 : s.start ≠ 0)
    (hn : nxt + 24 ≤ temp ∨ temp + c.TS + fo ≤ nxt) (hn2 : s.start + c.LS ≤ nxt) :
    ∃ M, add_entry c s (temp + c.TS) size = .ok (temp + c.TS + c.HS, { s with
        mem := M, last_addr := temp + c.TS + c.HS + round_up size ALIGNMENT }) ∧
      Upd s.mem M [(nxt, temp + c.TS + c.HS + round_up size ALIGNMENT),
        (temp + 8, temp + c.TS),
        (temp + c.TS + c.HS + round_up size ALIGNMENT + 16,
          fo - (round_up size ALIGNMENT + c.HS + c.TS)),
        (temp + c.TS + c.HS + round_up size ALIGNMENT + 8, nxt),
        (temp + c.TS + c.HS + round_up size ALIGNMENT, temp + c.TS),
        (temp + c.TS + 16, size),
        (temp + c.TS + 8, temp + c.TS + c.HS + round_up size ALIGNMENT),
        (temp + 16, 0), (temp + c.TS, temp)] := by
  obtain ⟨M, hrun, hupd⟩ := add_entry_after_run c s size e previous temp fo nxt hLS hHS hTS fe
    ft ffo fn h1 h2 h7 h3 h4 h5 hn hn2
  refine ⟨M, ?_, hupd⟩
  have hn : rd64 M (temp + c.TS + 8) = temp + c.TS + c.HS + round_up size ALIGNMENT :=
    hupd.1 (temp + c.TS + 8, _) (by simp)
  have hp := get_prev_reference_run_after c s.mem s.start e f temp previous fe ff1 (by omega) g4
    (by omega) (by omega) (by omega)
  have hs0 : (s.start = 0) = False := eq_false h0
  have he0 : (e = 0) = False := eq_false (by omega)
  have hf0 : (f = 0) = False := eq_false (by omega)
  have ha0 : (temp + c.TS = 0) = False := eq_false (by omega)
  have hps : (previous = s.start) = False := eq_false (by omega)
  unfold add_entry
  simp (disch := omega) only [end_addr, first_seg, fe, ff1, hs0, he0, hf0, or_self, if_false,
    toInt32_nat, Nat.mod_eq_of_lt, ne_eq, not_false_eq_true, if_true, ASSERT_bind, ge_iff_le, hp]
  simp only [ok_bind, hps, if_false, hrun]
  simp only [ok_bind, ne_eq, ha0, not_false_eq_true, if_true, set_last_addr, next_seg_tail, hn,
    pure_eq_ok]

/-! ## The dispatch of `remove_segment` -/

theorem remove_segment_inner (c : Sizes) (s : Heap) (old e f : Nat)
    (fe : rd64 s.mem (s.start + 8) = e) (ff1 : rd64 s.mem s.start = f)
    (h1 : s.start + c.LS ≤ old) (h2 : old + c.HS < e) (h3 : f ≠ old) :
    remove_segment c s (old + c.HS) = remove_inner c s old := by
  unfold remove_segment
  have h3n : (f = old) = False := eq_false h3
  simp (disch := omega) only [end_addr, first_seg, fe, ff1, ASSERT_bind, ge_iff_le,
    Nat.add_sub_cancel, ne_eq, h3n, not_false_eq_true, if_true]

theorem remove_segment_only (c : Sizes) (s : Heap) (old e t : Nat)
    (fe : rd64 s.mem (s.start + 8) = e) (ff1 : rd64 s.mem s.start = old)
    (g1 : rd64 s.mem old = t) (g2 : rd64 s.mem (old + 8) = t)
    (h1 : s.start + c.LS ≤ old) (h2 : old + c.HS < e) :
    remove_segment c s (old + c.HS) = remove_only c s old := by
  unfold remove_segment
  simp (disch := omega) only [end_addr, first_seg, fe, ff1, ASSERT_bind, ge_iff_le,
    Nat.add_sub_cancel, ne_eq, not_true_eq_false, if_false, prev_seg_tail, next_seg_tail, g1, g2,
    if_true]

theorem remove_segment_first (c : Sizes) (s : Heap) (old e lt t : Nat)
    (fe : rd64 s.mem (s.start + 8) = e) (ff1 : rd64 s.mem s.start = old)
    (g1 : rd64 s.mem old = lt) (g2 : rd64 s.mem (old + 8) = t)
    (h1 : s.start + c.LS ≤ old) (h2 : old + c.HS < e) (h3 : lt ≠ t) :
    remove_segment c s (old + c.HS) = remove_first c s old := by
  unfold remove_segment
  have h3n : (lt = t) = False := eq_false h3
  simp (disch := omega) only [end_addr, first_seg, fe, ff1, ASSERT_bind, ge_iff_le,
    Nat.add_sub_cancel, ne_eq, not_true_eq_false, if_false, prev_seg_tail, next_seg_tail, g1, g2,
    h3n]

/-! ## The circular list under field updates -/

/-- Build `BlkAt` from the six field reads. -/
theorem BlkAt_mk (c : Sizes) (m : Mem) (b : Blk) (pt nh : Nat)
    (r1 : rd64 m b.h = pt) (r2 : rd64 m (b.h + 8) = b.tl c) (r3 : rd64 m (b.h + 16) = b.sz)
    (r4 : rd64 m (b.tl c) = b.h) (r5 : rd64 m (b.tl c + 8) = nh)
    (r6 : rd64 m (b.tl c + 16) = b.ff) : BlkAt c m b pt nh :=
  ⟨r1, r2, r3, r4, r5, r6⟩

theorem Cyc_frame (c : Sizes) (hc : c.ok) (m M : Mem) (bs : List Blk) (h : Cyc c m bs)
    (hm : ∀ b ∈ bs, ∀ x, b.h ≤ x → x < b.tl c + c.TS → M x = m x) : Cyc c M bs :=
  Seg_frame_disj c hc m M bs _ _ h hm

/-- Moving the tail of the block `x` (in-place shrink or expand). -/
theorem move_tail_cyc (c : Sizes) (hc : c.ok) (m M : Mem) (x : Blk) (R : List Blk)
    (nsz ff' : Nat) (hcyc : Cyc c m (x :: R)) (hdisj : (x :: R).Pairwise (Disj c))
    (hnx : x.h + c.HS + round_up nsz ALIGNMENT + c.TS + ff' = x.nx c)
    (r1 : rd64 M (hdOr R x.h) = x.h + c.HS + round_up nsz ALIGNMENT)
    (r2 : rd64 M (x.h + 8) = x.h + c.HS + round_up nsz ALIGNMENT)
    (r3 : rd64 M (x.h + 16) = nsz)
    (r4 : rd64 M (x.h + c.HS + round_up nsz ALIGNMENT) = x.h)
    (r5 : rd64 M (x.h + c.HS + round_up nsz ALIGNMENT + 8) = hdOr R x.h)
    (r6 : rd64 M (x.h + c.HS + round_up nsz ALIGNMENT + 16) = ff')
    (hfr : ∀ a, ¬(x.h + 8 ≤ a ∧ a < x.nx c) → ¬(hdOr R x.h ≤ a ∧ a < hdOr R x.h + 8) →
      M a = m a) :
    Cyc c M (Blk.mk x.h nsz ff' :: R) := by
  have hc' := hc
  obtain ⟨hc1, hc2, hc3, hc4, hc5, hc6, hc7, hc8, hc9⟩ := hc
  cases R with
  | nil =>
    simp only [hdOr_nil] at r1 r5 hfr
    unfold Cyc
    simp only [Seg_cons, Seg_nil, hdOr_cons, hdOr_nil, tlOr_cons, tlOr_nil, and_true]
    exact BlkAt_mk c M _ _ _ r1 r2 r3 r4 r5 r6
  | cons n R' =>
    simp only [hdOr_cons] at r1 r5 hfr
    unfold Cyc at hcyc ⊢
    simp only [Seg_cons, hdOr_cons, tlOr_cons] at hcyc ⊢
    obtain ⟨hbx, hbn, hseg⟩ := hcyc
    have hdxn : Disj c x n := (List.pairwise_cons.mp hdisj).1 n (List.mem_cons_self _ _)
    have hdR : ∀ b ∈ R', Disj c x b ∧ Disj c n b := by
      intro b hb
      refine ⟨(List.pairwise_cons.mp hdisj).1 b (List.mem_cons_of_mem _ hb), ?_⟩
      exact (List.pairwise_cons.mp (List.pairwise_cons.mp hdisj).2).1 b hb
    have hr3 := Blk.tl_ge c n
    have hr4 := Blk.nx_ge c n
    have hr5 := Blk.tl_ge c x
    have hr6 := Blk.nx_ge c x
    unfold Disj at hdxn
    refine ⟨?_, ?_, ?_⟩
    · refine BlkAt_mk c M _ _ _ ?_ r2 r3 r4 r5 r6
      obtain ⟨f1, -⟩ := hbx
      unfold prev_seg_tail at f1
      rw [← f1]
      apply rd64_congr
      intro a ha1 ha2
      dsimp only at ha1 ha2
      apply hfr <;> omega
    · unfold BlkAt prev_seg_tail next_seg_tail seg_size prev_seg_head next_seg_head
        free_following at hbn
      obtain ⟨g1, g2, g3, g4, g5, g6⟩ := hbn
      refine BlkAt_mk c M _ _ _ r1 ?_ ?_ ?_ ?_ ?_
      · rw [← g2]; apply rd64_congr; intro a ha1 ha2; apply hfr <;> omega
      · rw [← g3]; apply rd64_congr; intro a ha1 ha2; apply hfr <;> omega
      · rw [← g4]; apply rd64_congr; intro a ha1 ha2; apply hfr <;> omega
      · rw [← g5]; apply rd64_congr; intro a ha1 ha2; apply hfr <;> omega
      · rw [← g6]; apply rd64_congr; intro a ha1 ha2; apply hfr <;> omega
    · apply Seg_frame_disj c hc' _ _ _ _ _ hseg
      intro b hb a ha1 ha2
      obtain ⟨hd1, hd2⟩ := hdR b hb
      have := Blk.nx_ge c b
      unfold Disj at hd1 hd2
      apply hfr <;> omega

/-- Changing the `free_following` of the block `x`. -/
theorem set_ff_cyc (c : Sizes) (hc : c.ok) (m M : Mem) (x : Blk) (R : List Blk)
    (ff' : Nat) (hcyc : Cyc c m (x :: R))
    (r6 : rd64 M (x.tl c + 16) = ff')
    (hfr : ∀ b ∈ x :: R, ∀ a, b.h ≤ a → a < b.tl c + c.TS →
      ¬(x.tl c + 16 ≤ a ∧ a < x.tl c + 24) → M a = m a)
    (hdisj : (x :: R).Pairwise (Disj c)) :
    Cyc c M (Blk.mk x.h x.sz ff' :: R) := by
  have hc' := hc
  obtain ⟨hc1, hc2, hc3, hc4, hc5, hc6, hc7, hc8, hc9⟩ := hc
  have htl : Blk.tl c (Blk.mk x.h x.sz ff') = Blk.tl c x := rfl
  unfold Cyc at hcyc ⊢
  simp only [Seg_cons, hdOr_cons, tlOr_cons, htl] at hcyc ⊢
  obtain ⟨hbx, hseg⟩ := hcyc
  have hr5 := Blk.tl_ge c x
  have hx := hfr x (List.mem_cons_self _ _)
  constructor
  · unfold BlkAt prev_seg_tail next_seg_tail seg_size prev_seg_head next_seg_head
      free_following at hbx
    obtain ⟨g1, g2, g3, g4, g5, g6⟩ := hbx
    unfold BlkAt prev_seg_tail next_seg_tail seg_size prev_seg_head next_seg_head
      free_following
    simp only [htl]
    refine ⟨?_, ?_, ?_, ?_, ?_, r6⟩
    · rw [← g1]; apply rd64_congr; intro a ha1 ha2; apply hx <;> omega
    · rw [← g2]; apply rd64_congr; intro a ha1 ha2; apply hx <;> omega
    · rw [← g3]; apply rd64_congr; intro a ha1 ha2; apply hx <;> omega
    · rw [← g4]; apply rd64_congr; intro a ha1 ha2; apply hx <;> omega
    · rw [← g5]; apply rd64_congr; intro a ha1 ha2; apply hx <;> omega
  · apply Seg_frame_disj c hc' _ _ _ _ _ hseg
    intro b hb a ha1 ha2
    have hd1 : Disj c x b := (List.pairwise_cons.mp hdisj).1 b hb
    have := Blk.nx_ge c b
    have := Blk.nx_ge c x
    unfold Disj at hd1
    apply hfr b (List.mem_cons_of_mem _ hb) a ha1 ha2
    omega

/-- Linking the new block `nw` behind the block `p`. -/
theorem insert_cyc (c : Sizes) (hc : c.ok) (m M : Mem) (p nw : Blk) (R : List Blk)
    (f' : Nat) (hcyc : Cyc c m (p :: R)) (hdisj : (p :: R).Pairwise (Disj c))
    (r1 : rd64 M nw.h = p.tl c) (r2 : rd64 M (nw.h + 8) = nw.tl c)
    (r3 : rd64 M (nw.h + 16) = nw.sz) (r4 : rd64 M (nw.tl c) = nw.h)
    (r5 : rd64 M (nw.tl c + 8) = hdOr R p.h) (r6 : rd64 M (nw.tl c + 16) = nw.ff)
    (r7 : rd64 M (p.tl c + 8) = nw.h) (r8 : rd64 M (hdOr R p.h) = nw.tl c)
    (r9 : rd64 M (p.tl c + 16) = f')
    (hfr : ∀ b ∈ p :: R, ∀ a, b.h ≤ a → a < b.tl c + c.TS →
      ¬(p.tl c + 8 ≤ a ∧ a < p.tl c + 24) → ¬(hdOr R p.h ≤ a ∧ a < hdOr R p.h + 8) →
      M a = m a) :
    Cyc c M (Blk.mk p.h p.sz f' :: nw :: R) := by
  have hc' := hc
  obtain ⟨hc1, hc2, hc3, hc4, hc5, hc6, hc7, hc8, hc9⟩ := hc
  have htl : Blk.tl c (Blk.mk p.h p.sz f') = Blk.tl c p := rfl
  have hr5 := Blk.tl_ge c p
  have hp := hfr p (List.mem_cons_self _ _)
  cases R with
  | nil =>
    simp only [hdOr_nil] at r5 r8 hp
    unfold Cyc at hcyc ⊢
    simp only [Seg_cons, Seg_nil, hdOr_cons, hdOr_nil, tlOr_cons, tlOr_nil, and_true, htl]
      at hcyc ⊢
    unfold BlkAt prev_seg_tail next_seg_tail seg_size prev_seg_head next_seg_head
      free_following at hcyc
    obtain ⟨g1, g2, g3, g4, g5, g6⟩ := hcyc
    refine ⟨?_, BlkAt_mk c M _ _ _ r1 r2 r3 r4 r5 r6⟩
    unfold BlkAt prev_seg_tail next_seg_tail seg_size prev_seg_head next_seg_head
      free_following
    simp only [htl]
    refine ⟨r8, ?_, ?_, ?_, r7, r9⟩
    · rw [← g2]; apply rd64_congr; intro a ha1 ha2; apply hp <;> omega
    · rw [← g3]; apply rd64_congr; intro a ha1 ha2; apply hp <;> omega
    · rw [← g4]; apply rd64_congr; intro a ha1 ha2; apply hp <;> omega
  | cons n R' =>
    simp only [hdOr_cons] at r5 r8 hp hfr
    unfold Cyc at hcyc ⊢
    simp only [Seg_cons, hdOr_cons, tlOr_cons, htl] at hcyc ⊢
    obtain ⟨hbp, hbn, hseg⟩ := hcyc
    have hdpn : Disj c p n := (List.pairwise_cons.mp hdisj).1 n (List.mem_cons_self _ _)
    have hdR : ∀ b ∈ R', Disj c p b ∧ Disj c n b := by
      intro b hb
      refine ⟨(List.pairwise_cons.mp hdisj).1 b (List.mem_cons_of_mem _ hb), ?_⟩
      exact (List.pairwise_cons.mp (List.pairwise_cons.mp hdisj).2).1 b hb
    have hn := hfr n (List.mem_cons_of_mem _ (List.mem_cons_self _ _))
    have hr3 := Blk.tl_ge c n
    have hr4 := Blk.nx_ge c n
    have hr6 := Blk.nx_ge c p
    unfold Disj at hdpn
    unfold BlkAt prev_seg_tail next_seg_tail seg_size prev_seg_head next_seg_head
      free_following at hbp hbn
    obtain ⟨g1, g2, g3, g4, g5, g6⟩ := hbp
    obtain ⟨k1, k2, k3, k4, k5, k6⟩ := hbn
    refine ⟨?_, BlkAt_mk c M _ _ _ r1 r2 r3 r4 r5 r6, ?_, ?_⟩
    · unfold BlkAt prev_seg_tail next_seg_tail seg_size prev_seg_head next_seg_head
        free_following
      simp only [htl]
      refine ⟨?_, ?_, ?_, ?_, r7, r9⟩
      · rw [← g1]; apply rd64_congr; intro a ha1 ha2; apply hp <;> omega
      · rw [← g2]; apply rd64_congr; intro a ha1 ha2; apply hp <;> omega
      · rw [← g3]; apply rd64_congr; intro a ha1 ha2; apply hp <;> omega
      · rw [← g4]; apply rd64_congr; intro a ha1 ha2; apply hp <;> omega
    · refine BlkAt_mk c M _ _ _ r8 ?_ ?_ ?_ ?_ ?_
      · rw [← k2]; apply rd64_congr; intro a ha1 ha2; apply hn <;> omega
      · rw [← k3]; apply rd64_congr; intro a ha1 ha2; apply hn <;> omega
      · rw [← k4]; apply rd64_congr; intro a ha1 ha2; apply hn <;> omega
      · rw [← k5]; apply rd64_congr; intro a ha1 ha2; apply hn <;> omega
      · rw [← k6]; apply rd64_congr; intro a ha1 ha2; apply hn <;> omega
    · apply Seg_frame_disj c hc' _ _ _ _ _ hseg
      intro b hb a ha1 ha2
      obtain ⟨hd1, hd2⟩ := hdR b hb
      have := Blk.nx_ge c b
      unfold Disj at hd1 hd2
      apply hfr b (List.mem_cons_of_mem _ (List.mem_cons_of_mem _ hb)) a ha1 ha2 <;> omega

/-- Unlinking the block `x` that follows the block `p`. -/
theorem remove_cyc (c : Sizes) (hc : c.ok) (m M : Mem) (p x : Blk) (R : List Blk)
    (f' : Nat) (hcyc : Cyc c m (p :: x :: R)) (hdisj : (p :: x :: R).Pairwise (Disj c))
    (r1 : rd64 M (p.tl c + 8) = hdOr R p.h) (r2 : rd64 M (hdOr R p.h) = p.tl c)
    (r3 : rd64 M (p.tl c + 16) = f')
    (hfr : ∀ b ∈ p :: R, ∀ a, b.h ≤ a → a < b.tl c + c.TS →
      ¬(p.tl c + 8 ≤ a ∧ a < p.tl c + 24) → ¬(hdOr R p.h ≤ a ∧ a < hdOr R p.h + 8) →
      M a = m a) :
    Cyc c M (Blk.mk p.h p.sz f' :: R) := by
  have hc' := hc
  obtain ⟨hc1, hc2, hc3, hc4, hc5, hc6, hc7, hc8, hc9⟩ := hc
  have htl : Blk.tl c (Blk.mk p.h p.sz f') = Blk.tl c p := rfl
  have hr5 := Blk.tl_ge c p
  have hp := hfr p (List.mem_cons_self _ _)
  cases R with
  | nil =>
    simp only [hdOr_nil] at r1 r2 hp
    unfold Cyc at hcyc ⊢
    simp only [Seg_cons, Seg_nil, hdOr_cons, hdOr_nil, tlOr_cons, tlOr_nil, and_true, htl]
      at hcyc ⊢
    obtain ⟨hbp, -⟩ := hcyc
    unfold BlkAt prev_seg_tail next_seg_tail seg_size prev_seg_head next_seg_head
      free_following at hbp
    obtain ⟨g1, g2, g3, g4, g5, g6⟩ := hbp
    unfold BlkAt prev_seg_tail next_seg_tail seg_size prev_seg_head next_seg_head
      free_following
    simp only [htl]
    refine ⟨r2, ?_, ?_, ?_, r1, r3⟩
    · rw [← g2]; apply rd64_congr; intro a ha1 ha2; apply hp <;> omega
    · rw [← g3]; apply rd64_congr; intro a ha1 ha2; apply hp <;> omega
    · rw [← g4]; apply rd64_congr; intro a ha1 ha2; apply hp <;> omega
  | cons n R' =>
    simp only [hdOr_cons] at r1 r2 hp hfr
    unfold Cyc at hcyc ⊢
    simp only [Seg_cons, hdOr_cons, tlOr_cons, htl] at hcyc ⊢
    obtain ⟨hbp, -, hbn, hseg⟩ := hcyc
    have hdisj' := (List.pairwise_cons.mp hdisj)
    have hdpn : Disj c p n :=
      hdisj'.1 n (List.mem_cons_of_mem _ (List.mem_cons_self _ _))
    have hdR : ∀ b ∈ R', Disj c p b ∧ Disj c n b := by
      intro b hb
      refine ⟨hdisj'.1 b (List.mem_cons_of_mem _ (List.mem_cons_of_mem _ hb)), ?_⟩
      exact (List.pairwise_cons.mp (List.pairwise_cons.mp hdisj'.2).2).1 b hb
    have hn := hfr n (List.mem_cons_of_mem _ (List.mem_cons_self _ _))
    have hr3 := Blk.tl_ge c n
    have hr4 := Blk.nx_ge c n
    have hr6 := Blk.nx_ge c p
    unfold Disj at hdpn
    unfold BlkAt prev_seg_tail next_seg_tail seg_size prev_seg_head next_seg_head
      free_following at hbp hbn
    obtain ⟨g1, g2, g3, g4, g5, g6⟩ := hbp
    obtain ⟨k1, k2, k3, k4, k5, k6⟩ := hbn
    refine ⟨?_, ?_, ?_⟩
    · unfold BlkAt prev_seg_tail next_seg_tail seg_size prev_seg_head next_seg_head
        free_following
      simp only [htl]
      refine ⟨?_, ?_, ?_, ?_, r1, r3⟩
      · rw [← g1]; apply rd64_congr; intro a ha1 ha2; apply hp <;> omega
      · rw [← g2]; apply rd64_congr; intro a ha1 ha2; apply hp <;> omega
      · rw [← g3]; apply rd64_congr; intro a ha1 ha2; apply hp <;> omega
      · rw [← g4]; apply rd64_congr; intro a ha1 ha2; apply hp <;> omega
    · refine BlkAt_mk c M _ _ _ r2 ?_ ?_ ?_ ?_ ?_
      · rw [← k2]; apply rd64_congr; intro a ha1 ha2; apply hn <;> omega
      · rw [← k3]; apply rd64_congr; intro a ha1 ha2; apply hn <;> omega
      · rw [← k4]; apply rd64_congr; intro a ha1 ha2; apply hn <;> omega
      · rw [← k5]; apply rd64_congr; intro a ha1 ha2; apply hn <;> omega
      · rw [← k6]; apply rd64_congr; intro a ha1 ha2; apply hn <;> omega
    · apply Seg_frame_disj c hc' _ _ _ _ _ hseg
      intro b hb a ha1 ha2
      obtain ⟨hd1, hd2⟩ := hdR b hb
      have := Blk.nx_ge c b
      unfold Disj at hd1 hd2
      apply hfr b (List.mem_cons_of_mem _ (List.mem_cons_of_mem _ hb)) a ha1 ha2 <;> omega

/-! ## The invariant under the engine operations -/

theorem hdOr_cases (R : List Blk) (d : Nat) :
    (R = [] ∧ hdOr R d = d) ∨ ∃ n ∈ R, hdOr R d = n.h := by
  cases R with
  | nil => exact Or.inl ⟨rfl, rfl⟩
  | cons n r => exact Or.inr ⟨n, List.mem_cons_self _ _, rfl⟩

theorem tlOr_cases (c : Sizes) (R : List Blk) (d : Nat) :
    (R = [] ∧ tlOr c R d = d) ∨ ∃ n ∈ R, tlOr c R d = n.tl c := by
  induction R generalizing d with
  | nil => exact Or.inl ⟨rfl, rfl⟩
  | cons n r ih =>
    right
    rw [tlOr_cons]
    rcases ih (n.tl c) with ⟨h1, h2⟩ | ⟨x, hx, h2⟩
    · exact ⟨n, List.mem_cons_self _ _, h2⟩
    · exact ⟨x, List.mem_cons_of_mem _ hx, h2⟩

theorem BOK_ru (b : Blk) (hb : BOK b) :
    round_up b.sz ALIGNMENT % 16 = 0 ∧ b.sz ≤ round_up b.sz ALIGNMENT ∧
      round_up b.sz ALIGNMENT < b.sz + 16 := by
  obtain ⟨h1, h2, h3, h4⟩ := hb
  exact round_up_16 b.sz (by omega)

/-- What the invariant says about the list rotated so that `p` comes first. -/
theorem Inv_split (c : Sizes) (s : Heap) (A B : List Blk) (p : Blk)
    (hinv : Inv c s (A ++ p :: B)) :
    Cyc c s.mem (p :: (B ++ A)) ∧ (p :: (B ++ A)).Pairwise (Disj c) ∧
    (∀ b ∈ p :: (B ++ A), s.start + c.LS ≤ b.h ∧ b.nx c ≤ end_addr s.mem s.start ∧ BOK b) := by
  obtain ⟨hc, hs0, hs16, hle, hpg, hbrk1, hbrk2, hbrk3, hmax, hmax64, hbok, hfirst, hcyc,
    ⟨lo, hlo, htiles⟩, hcur⟩ := hinv
  have hperm : (A ++ p :: B).Perm (p :: (B ++ A)) := by
    have := @List.perm_append_comm _ A (p :: B)
    simpa using this
  refine ⟨?_, ?_, ?_⟩
  · have := (Cyc_rotate c s.mem A (p :: B)).mp hcyc
    simpa using this
  · exact Disj_perm c _ _ hperm (Tiles_disj c _ _ _ htiles)
  · intro b hb
    have hb' : b ∈ A ++ p :: B := hperm.symm.subset hb
    have := Tiles_mem c _ _ _ htiles b hb'
    exact ⟨by omega, this.2, hbok b hb'⟩

theorem hdOr_ne (l : List Blk) (h : l ≠ []) (d d' : Nat) : hdOr l d = hdOr l d' := by
  cases l with
  | nil => exact absurd rfl h
  | cons a r => rfl

/-- The payload of a block avoids the head, the tail and the gap of every block. -/
theorem pay_disj (c : Sizes) (l : List Blk) (hd : l.Pairwise (Disj c)) (b n : Blk)
    (hb : b ∈ l) (hn : n ∈ l) (a : Nat) (ha1 : b.user c ≤ a) (ha2 : a < b.tl c) :
    (a < n.h ∨ n.h + c.HS ≤ a) ∧ (a < n.tl c ∨ n.nx c ≤ a) := by
  have h1 := Blk.tl_ge c b
  have h2 := Blk.nx_ge c b
  have h3 := Blk.tl_ge c n
  have h4 := Blk.nx_ge c n
  unfold Blk.user at ha1
  by_cases hbn : b = n
  · subst hbn; omega
  · have := hd.forall (fun {x y} h => Disj_symm c x y h) hb hn hbn
    unfold Disj at this
    omega

set_option maxHeartbeats 1000000 in
/-- Placing a new block at the start of the gap behind the block `p`. -/
theorem add_after_inv (c : Sizes) (s : Heap) (A B : List Blk) (p : Blk) (size : Nat)
    (hinv : Inv c s (A ++ p :: B)) (hfit : footprint c size ≤ p.ff)
    (hsz : 0 < size) (hsz2 : size < 2147483648) :
    ∃ M, add_entry c s (p.tl c + c.TS) size = .ok (p.tl c + c.TS + c.HS, { s with
        mem := M, last_addr := p.tl c + c.TS + c.HS + round_up size ALIGNMENT }) ∧
      Inv c { s with mem := M, last_addr := p.tl c + c.TS + c.HS + round_up size ALIGNMENT }
        (A ++ Blk.mk p.h p.sz 0 :: Blk.mk (p.tl c + c.TS) size (p.ff - footprint c size) :: B) ∧
      (∀ b ∈ A ++ p :: B, ∀ a, b.user c ≤ a → a < b.tl c → M a = s.mem a) := by
  obtain ⟨hcyc, hdisj, hall⟩ := Inv_split c s A B p hinv
  obtain ⟨hc, hs0, hs16, hle, hpg, hbrk1, hbrk2, hbrk3, hmax, hmax64, hbok, hfirst, hcyc0,
    ⟨lo, hlo, htiles⟩, hcur⟩ := hinv
  generalize he : end_addr s.mem s.start = e at *
  unfold end_addr at he
  have hc' := hc
  obtain ⟨c1, c2, c3, c4, c5, c6, c7, c8, c9⟩ := hc
  have hcyc' := hcyc
  unfold Cyc at hcyc'
  simp only [Seg_cons, hdOr_cons, tlOr_cons] at hcyc'
  obtain ⟨hbp, hseg⟩ := hcyc'
  unfold BlkAt prev_seg_tail next_seg_tail seg_size prev_seg_head next_seg_head
    free_following at hbp
  obtain ⟨g1, g2, g3, g4, g5, g6⟩ := hbp
  obtain ⟨hp1, hp2, hp3⟩ := hall p (List.mem_cons_self _ _)
  have hru := BOK_ru p hp3
  have hrs := round_up_16 size (by omega)
  obtain ⟨hb1, hb2, hb3, hb4⟩ := hp3
  have htl := Blk.tl_ge c p
  have htl2 : p.tl c = p.h + c.HS + round_up p.sz ALIGNMENT := rfl
  unfold Blk.nx at hp2
  unfold footprint at hfit
  have hlo2 := (Tiles_mem c _ _ _ htiles p (by simp)).1
  have hf0 : hdOr (A ++ p :: B) 0 = lo := by
    rw [hdOr_ne _ (by simp) 0 e]
    exact Tiles_hdOr c _ _ _ htiles
  rw [hf0] at hfirst
  unfold first_seg at hfirst
  have hnx : (hdOr (B ++ A) p.h + 24 ≤ p.tl c ∨ p.tl c + c.TS + p.ff ≤ hdOr (B ++ A) p.h) ∧
      s.start + c.LS ≤ hdOr (B ++ A) p.h := by
    rcases hdOr_cases (B ++ A) p.h with ⟨h1, h2⟩ | ⟨n, hn, h2⟩
    · rw [h2]; omega
    · rw [h2]
      have hd := (List.pairwise_cons.mp hdisj).1 n hn
      obtain ⟨hn1, hn2, hn3⟩ := hall n (List.mem_cons_of_mem _ hn)
      have := Blk.tl_ge c n
      have := Blk.nx_ge c n
      unfold Disj Blk.nx at hd
      omega
  obtain ⟨M, hrun, hupd⟩ := add_entry_run_after c s size e lo p.h (p.tl c)
    p.ff (hdOr (B ++ A) p.h) c4 c5 c6 he hfirst g2 g6 g5 g4 hlo hlo2 (by omega) (by omega)
    (by omega) hp2 (by omega) (by omega) hsz2 hs0 hnx.1 hnx.2
  refine ⟨M, hrun, ?_, ?_⟩
  · have hw := hupd.1
    simp only [List.forall_mem_cons, List.not_mem_nil, false_implies, implies_true, and_true]
      at hw
    obtain ⟨w1, w2, w3, w4, w5, w6, w7, w8, w9⟩ := hw
    have hE : rd64 M (s.start + 8) = e := by
      rw [← he]
      apply Upd_rd _ _ _ hupd
      simp only [List.forall_mem_cons, List.not_mem_nil, false_implies, implies_true, and_true]
      clear * - hnx hp1 htl c4 c5 c6
      omega
    have hF : rd64 M s.start = lo := by
      rw [← hfirst]
      apply Upd_rd _ _ _ hupd
      simp only [List.forall_mem_cons, List.not_mem_nil, false_implies, implies_true, and_true]
      clear * - hnx hp1 htl c4 c5 c6
      omega
    unfold Inv end_addr first_seg
    dsimp only
    simp only [hE, hF]
    refine ⟨hc', hs0, hs16, hle, hpg, hbrk1, hbrk2, hbrk3, hmax, hmax64, ?_, ?_, ?_,
      ⟨lo, hlo, ?_⟩, ?_⟩
    · intro b hb
      simp only [List.mem_append, List.mem_cons] at hb
      rcases hb with h | rfl | rfl | h
      · exact hbok b (by simp [h])
      · exact ⟨hb1, rfl, hb3, hb4⟩
      · refine ⟨?_, ?_, hsz, hsz2⟩
        · show (p.tl c + c.TS) % 16 = 0
          clear * - htl2 hb1 c2 c3 hru
          omega
        · show (p.ff - footprint c size) % 16 = 0
          unfold footprint
          clear * - hb2 c2 c3 hrs hfit
          omega
      · exact hbok b (by simp [h])
    · simp only [hdOr_append, hdOr_cons] at hf0 ⊢
      exact hf0.symm
    · apply (Cyc_rotate c M A _).mpr
      simp only [List.cons_append]
      refine insert_cyc c hc' s.mem M p (Blk.mk (p.tl c + c.TS) size (p.ff - footprint c size))
        (B ++ A) 0 hcyc hdisj w9 w7 w6 w5 w4 ?_ w2 w1 w8 ?_
      · rw [show Blk.tl c (Blk.mk (p.tl c + c.TS) size (p.ff - footprint c size)) =
          p.tl c + c.TS + c.HS + round_up size ALIGNMENT from rfl, w3]
        show _ = p.ff - footprint c size
        unfold footprint
        clear * - hfit
        omega
      · intro b hb a ha1 ha2 hn1 hn2
        apply hupd.2
        simp only [List.forall_mem_cons, List.not_mem_nil, false_implies, implies_true, and_true]
        rcases List.mem_cons.mp hb with rfl | hb
        · clear * - ha1 ha2 hn1 hn2 c5 c6 htl
          omega
        · have hd := (List.pairwise_cons.mp hdisj).1 b hb
          have hx := Blk.nx_ge c b
          unfold Disj Blk.nx at hd
          clear * - ha1 ha2 hn1 hn2 c5 c6 htl hd hx hfit
          omega
    · rw [Tiles_append] at htiles ⊢
      obtain ⟨mid, ht1, ht2⟩ := htiles
      refine ⟨mid, ht1, ?_⟩
      simp only [Tiles_cons] at ht2 ⊢
      obtain ⟨ht3, ht4⟩ := ht2
      refine ⟨ht3, rfl, ?_⟩
      have hx : Blk.nx c (Blk.mk (p.tl c + c.TS) size (p.ff - footprint c size)) = p.nx c := by
        unfold Blk.nx Blk.tl footprint
        dsimp only
        clear * - hfit
        omega
      rw [hx]; exact ht4
    · right
      exact ⟨Blk.mk (p.tl c + c.TS) size (p.ff - footprint c size), by simp, rfl⟩
  · intro b hb a ha1 ha2
    have hb' : b ∈ p :: (B ++ A) := by
      simp only [List.mem_append, List.mem_cons] at hb ⊢
      rcases hb with h | h | h
      · exact Or.inr (Or.inr h)
      · exact Or.inl h
      · exact Or.inr (Or.inl h)
    have hpd := pay_disj c _ hdisj b p hb' (List.mem_cons_self _ _) a ha1 ha2
    have hnd : a < hdOr (B ++ A) p.h ∨ hdOr (B ++ A) p.h + c.HS ≤ a := by
      rcases hdOr_cases (B ++ A) p.h with ⟨h1, h2⟩ | ⟨n, hn, h2⟩
      · rw [h2]; exact hpd.1
      · rw [h2]; exact (pay_disj c _ hdisj b n hb' (List.mem_cons_of_mem _ hn) a ha1 ha2).1
    apply hupd.2
    simp only [List.forall_mem_cons, List.not_mem_nil, false_implies, implies_true, and_true]
    unfold Blk.nx at hpd
    clear * - hpd hnd c5 c6 hfit
    omega

/-- In a circular list the head behind the block `l` points back to the tail of `l`. -/
theorem Cyc_next_prev (c : Sizes) (m : Mem) (l : Blk) (A : List Blk) (h : Cyc c m (l :: A)) :
    rd64 m (hdOr A l.h) = l.tl c := by
  unfold Cyc at h
  cases A with
  | nil =>
    simp only [Seg_cons, Seg_nil, hdOr_nil, tlOr_cons, tlOr_nil, and_true] at h
    exact h.1
  | cons a r =>
    simp only [Seg_cons, hdOr_cons, tlOr_cons] at h
    exact h.2.1.1

set_option maxHeartbeats 1000000 in
/-- Placing a new block at the start of the arena, in front of the first block. -/
theorem add_front_inv (c : Sizes) (s : Heap) (A : List Blk) (l : Blk) (size : Nat)
    (hinv : Inv c s (A ++ [l]))
    (hfit : s.start + c.LS + footprint c size ≤ hdOr (A ++ [l]) 0)
    (hsz : 0 < size) (hsz2 : size < 2147483648) :
    ∃ M, add_entry c s (s.start + c.LS) size = .ok (s.start + c.LS + c.HS, { s with
        mem := M, last_addr := s.start + c.LS + c.HS + round_up size ALIGNMENT }) ∧
      Inv c { s with mem := M, last_addr := s.start + c.LS + c.HS + round_up size ALIGNMENT }
        (Blk.mk (s.start + c.LS) size
          (hdOr (A ++ [l]) 0 - (s.start + c.LS) - footprint c size) :: (A ++ [l])) ∧
      (∀ b ∈ A ++ [l], ∀ a, b.user c ≤ a → a < b.tl c → M a = s.mem a) := by
  obtain ⟨hcyc, hdisj, hall⟩ := Inv_split c s A [] l hinv
  simp only [List.nil_append] at hcyc hdisj hall
  obtain ⟨hc, hs0, hs16, hle, hpg, hbrk1, hbrk2, hbrk3, hmax, hmax64, hbok, hfirst, hcyc0,
    ⟨lo, hlo, htiles⟩, hcur⟩ := hinv
  generalize he : end_addr s.mem s.start = e at *
  unfold end_addr at he
  have hc' := hc
  obtain ⟨c1, c2, c3, c4, c5, c6, c7, c8, c9⟩ := hc
  have hnp := Cyc_next_prev c s.mem l A hcyc
  have hcyc' := hcyc
  unfold Cyc at hcyc'
  simp only [Seg_cons, hdOr_cons, tlOr_cons] at hcyc'
  obtain ⟨hbp, hseg⟩ := hcyc'
  unfold BlkAt prev_seg_tail next_seg_tail seg_size prev_seg_head next_seg_head
    free_following at hbp
  obtain ⟨g1, g2, g3, g4, g5, g6⟩ := hbp
  obtain ⟨hp1, hp2, hp3⟩ := hall l (List.mem_cons_self _ _)
  have hrs := round_up_16 size (by omega)
  have htl := Blk.tl_ge c l
  have hnxg := Blk.nx_ge c l
  have hf0 : hdOr (A ++ [l]) 0 = lo := by
    rw [hdOr_ne _ (by simp) 0 e]
    exact Tiles_hdOr c _ _ _ htiles
  have hf1 : hdOr A l.h = lo := by
    rw [← hf0, hdOr_append]; rfl
  rw [hf0] at hfirst hfit ⊢
  rw [hf1] at hnp g5
  unfold first_seg at hfirst
  unfold footprint at hfit
  have hlo2 := (Tiles_mem c _ _ _ htiles l (by simp)).1
  obtain ⟨M, hrun, hupd⟩ := add_entry_run_front c s (s.start + c.LS) size e lo (l.tl c)
    c4 c5 c6 he hfirst hnp g5 (le_refl _) (by omega) (by omega) (by omega) (by omega) (by omega)
    hsz2 hs0
  refine ⟨M, hrun, ?_, ?_⟩
  · have hw := hupd.1
    simp only [List.forall_mem_cons, List.not_mem_nil, false_implies, implies_true, and_true]
      at hw
    obtain ⟨w1, w2, w3, w4, w5, w6, w7, w8, w9⟩ := hw
    have hE : rd64 M (s.start + 8) = e := by
      rw [← he]
      apply Upd_rd _ _ _ hupd
      simp only [List.forall_mem_cons, List.not_mem_nil, false_implies, implies_true, and_true]
      clear * - hlo hlo2 htl c4 c5 c6
      omega
    have hG : rd64 M (l.tl c + 16) = l.ff := by
      rw [← g6]
      apply Upd_rd _ _ _ hupd
      simp only [List.forall_mem_cons, List.not_mem_nil, false_implies, implies_true, and_true]
      clear * - hlo hlo2 htl c4 c5 c6 hfit
      omega
    unfold Inv end_addr first_seg
    dsimp only
    simp only [hE, w1]
    refine ⟨hc', hs0, hs16, hle, hpg, hbrk1, hbrk2, hbrk3, hmax, hmax64, ?_, rfl, ?_,
      ⟨s.start + c.LS, le_refl _, ?_⟩, ?_⟩
    · intro b hb
      rcases List.mem_cons.mp hb with rfl | h
      · refine ⟨?_, ?_, hsz, hsz2⟩
        · show (s.start + c.LS) % 16 = 0
          clear * - hs16 c1
          omega
        · show (lo - (s.start + c.LS) - footprint c size) % 16 = 0
          have hlo16 : lo % 16 = 0 := by
            rw [← hf0]
            rcases hdOr_cases (A ++ [l]) 0 with ⟨h1, h2⟩ | ⟨n, hn, h2⟩
            · simp at h1
            · rw [h2]; exact (hbok n hn).1
          unfold footprint
          clear * - hlo16 hs16 c1 c2 c3 hrs hfit
          omega
      · exact hbok b h
    · rw [← List.cons_append]
      apply (Cyc_rotate c M [l] _).mp
      show Cyc c M (Blk.mk l.h l.sz l.ff :: _ :: A)
      refine insert_cyc c hc' s.mem M l
        (Blk.mk (s.start + c.LS) size (lo - (s.start + c.LS) - footprint c size))
        A l.ff hcyc hdisj w9 w8 w7 w6 ?_ ?_ w3 ?_ hG ?_
      · rw [hf1]; exact w5
      · rw [show Blk.tl c (Blk.mk (s.start + c.LS) size
          (lo - (s.start + c.LS) - footprint c size)) =
          s.start + c.LS + c.HS + round_up size ALIGNMENT from rfl, w4]
        show _ = lo - (s.start + c.LS) - footprint c size
        unfold footprint
        clear * - hfit
        omega
      · rw [hf1]; exact w2
      · rw [hf1]
        intro b hb a ha1 ha2 hn1 hn2
        apply hupd.2
        simp only [List.forall_mem_cons, List.not_mem_nil, false_implies, implies_true, and_true]
        have hbl := (hall b hb).1
        have hbl2 := (Tiles_mem c _ _ _ htiles b (by
          simp only [List.mem_append, List.mem_cons, List.mem_singleton, List.not_mem_nil,
            or_false] at hb ⊢
          exact hb.symm)).1
        clear * - ha1 ha2 hn1 hn2 c4 c5 c6 hbl hbl2 hfit
        omega
    · rw [Tiles_cons]
      refine ⟨rfl, ?_⟩
      have hx : Blk.nx c (Blk.mk (s.start + c.LS) size
          (lo - (s.start + c.LS) - footprint c size)) = lo := by
        unfold Blk.nx Blk.tl footprint
        dsimp only
        clear * - hfit
        omega
      rw [hx]; exact htiles
    · right
      exact ⟨_, List.mem_cons_self _ _, rfl⟩
  · intro b hb a ha1 ha2
    have hb' : b ∈ l :: A := by
      simp only [List.mem_append, List.mem_cons, List.mem_singleton, List.not_mem_nil,
        or_false] at hb ⊢
      exact hb.symm
    have hpd := pay_disj c _ hdisj b l hb' (List.mem_cons_self _ _) a ha1 ha2
    have hnd : a < lo ∨ lo + c.HS ≤ a := by
      rw [← hf1]
      rcases hdOr_cases A l.h with ⟨h1, h2⟩ | ⟨n, hn, h2⟩
      · rw [h2]; exact hpd.1
      · rw [h2]; exact (pay_disj c _ hdisj b n hb' (List.mem_cons_of_mem _ hn) a ha1 ha2).1
    have hbl2 := (Tiles_mem c _ _ _ htiles b hb).1
    apply hupd.2
    simp only [List.forall_mem_cons, List.not_mem_nil, false_implies, implies_true, and_true]
    unfold Blk.nx at hpd
    unfold Blk.user at ha1
    clear * - hpd hnd c4 c5 c6 hfit hbl2 ha1
    omega

theorem Upd_split (m M : Mem) (ws : List (Nat × Nat)) (h : Upd m M ws) :
    (∀ w ∈ ws, rd64 M w.1 = w.2) ∧ (∀ a, (∀ w ∈ ws, a < w.1 ∨ w.1 + 8 ≤ a) → M a = m a) := h

set_option maxHeartbeats 1000000 in
/-- Placing the first block of an empty directory at the start of the arena. -/
theorem add_empty_inv (c : Sizes) (s : Heap) (size : Nat)
    (hinv : Inv c s [])
    (hfit : s.start + c.LS + footprint c size ≤ end_addr s.mem s.start)
    (hsz : 0 < size) (hsz2 : size < 2147483648) :
    ∃ M, add_entry c s (s.start + c.LS) size = .ok (s.start + c.LS + c.HS, { s with
        mem := M, last_addr := s.start + c.LS + c.HS + round_up size ALIGNMENT }) ∧
      Inv c { s with mem := M, last_addr := s.start + c.LS + c.HS + round_up size ALIGNMENT }
        [Blk.mk (s.start + c.LS) size
          (end_addr s.mem s.start - (s.start + c.LS) - footprint c size)] := by
  obtain ⟨hc, hs0, hs16, hle, hpg, hbrk1, hbrk2, hbrk3, hmax, hmax64, hbok, hfirst, hcyc0,
    ⟨lo, hlo, htiles⟩, hcur⟩ := hinv
  generalize he : end_addr s.mem s.start = e at *
  unfold end_addr at he
  have hc' := hc
  obtain ⟨c1, c2, c3, c4, c5, c6, c7, c8, c9⟩ := hc
  have hrs := round_up_16 size (by omega)
  unfold first_seg at hfirst
  rw [hdOr_nil] at hfirst
  unfold footprint at hfit
  obtain ⟨M, hrun, hupd⟩ := add_entry_run_empty c s (s.start + c.LS) size e
    c4 c5 c6 he hfirst (le_refl _) (by omega) (by omega) (by omega) hsz2 hs0
  refine ⟨M, hrun, ?_⟩
  have hw := hupd.1
  simp only [List.forall_mem_cons, List.not_mem_nil, false_implies, implies_true, and_true]
    at hw
  obtain ⟨w1, w2, w3, w4, w5, w6, w7⟩ := hw
  have hE : rd64 M (s.start + 8) = e := by
    rw [← he]
    apply Upd_rd _ _ _ hupd
    simp only [List.forall_mem_cons, List.not_mem_nil, false_implies, implies_true, and_true]
    clear * - c4 c5 c6
    omega
  unfold Inv end_addr first_seg
  dsimp only
  simp only [hE, w1]
  refine ⟨hc', hs0, hs16, hle, hpg, hbrk1, hbrk2, hbrk3, hmax, hmax64, ?_, rfl, ?_,
    ⟨s.start + c.LS, le_refl _, ?_⟩, ?_⟩
  · intro b hb
    rw [List.mem_singleton] at hb
    subst hb
    refine ⟨?_, ?_, hsz, hsz2⟩
    · show (s.start + c.LS) % 16 = 0
      clear * - hs16 c1
      omega
    · show (e - (s.start + c.LS) - footprint c size) % 16 = 0
      unfold footprint
      clear * - hpg hs16 c1 c2 c3 hrs hfit
      omega
  · unfold Cyc
    simp only [Seg_cons, Seg_nil, hdOr_cons, hdOr_nil, tlOr_cons, tlOr_nil, and_true]
    refine BlkAt_mk c M _ _ _ w4 w7 w6 w5 w3 ?_
    rw [show Blk.tl c (Blk.mk (s.start + c.LS) size (e - (s.start + c.LS) - footprint c size)) =
      s.start + c.LS + c.HS + round_up size ALIGNMENT from rfl, w2]
    show _ = e - (s.start + c.LS) - footprint c size
    unfold footprint
    clear * - hfit
    omega
  · rw [Tiles_cons, Tiles_nil]
    refine ⟨rfl, ?_⟩
    unfold Blk.nx Blk.tl footprint
    dsimp only
    clear * - hfit
    omega
  · right
    exact ⟨_, List.mem_cons_self _ _, rfl⟩

/-- Number of bytes by which `expand_list` raises the break when `need` bytes are missing. -/
theorem pages_ge (need : Nat) : need ≤ (need + 4095) / 4096 * 4096 ∧
    (need + 4095) / 4096 * 4096 % 4096 = 0 ∧ (need + 4095) / 4096 * 4096 < need + 4096 := by
  omega

set_option maxHeartbeats 1000000 in
/-- Growing an empty arena. -/
theorem expand_empty_inv (c : Sizes) (s : Heap) (size : Nat)
    (hinv : Inv c s []) (hE0 : end_addr s.mem s.start = s.start + c.LS)
    (hfp : footprint c size < 2147483648) (hsz2 : size < 2147483648) :
    (¬ s.brk + (footprint c size + 4095) / 4096 * 4096 ≤ s.brk_max →
      expand_list c s size = .error Stop.exit) ∧
    (s.brk + (footprint c size + 4095) / 4096 * 4096 ≤ s.brk_max →
      ∃ M, expand_list c s size = .ok (s.start + c.LS, { s with
        mem := M, brk := s.brk + (footprint c size + 4095) / 4096 * 4096 }) ∧
      Inv c { s with mem := M, brk := s.brk + (footprint c size + 4095) / 4096 * 4096 } [] ∧
      end_addr M s.start = s.start + c.LS + (footprint c size + 4095) / 4096 * 4096 ∧
      ∀ a, (a < s.start + 8 ∨ s.start + 16 ≤ a) → M a = s.mem a) := by
  obtain ⟨hc, hs0, hs16, hle, hpg, hbrk1, hbrk2, hbrk3, hmax, hmax64, hbok, hfirst, hcyc0,
    ⟨lo, hlo, htiles⟩, hcur⟩ := hinv
  rw [hE0] at hle hpg hbrk1 hbrk2 htiles
  unfold end_addr at hE0
  unfold first_seg at hfirst
  rw [hdOr_nil] at hfirst
  obtain ⟨hr1, hr2⟩ := expand_list_run_empty c s size hc hs0 hE0 hfirst hfp hsz2 hbrk1 hmax64
  refine ⟨hr1, ?_⟩
  intro hfit
  obtain ⟨M, hrun, hupd⟩ := hr2 hfit
  have hpgs := pages_ge (footprint c size)
  generalize (footprint c size + 4095) / 4096 * 4096 = G at *
  have hw := hupd.1
  simp only [List.forall_mem_cons, List.not_mem_nil, false_implies, implies_true, and_true]
    at hw
  have hF : rd64 M s.start = 0 := by
    rw [← hfirst]
    apply Upd_rd _ _ _ hupd
    simp only [List.forall_mem_cons, List.not_mem_nil, false_implies, implies_true, and_true]
    omega
  refine ⟨M, hrun, ?_, hw, ?_⟩
  · unfold Inv end_addr first_seg
    dsimp only
    simp only [hw, hF]
    refine ⟨hc, hs0, hs16, by omega, by omega, by omega, by omega, hfit, hmax, hmax64, ?_, rfl,
      trivial, ⟨s.start + c.LS + G, by omega, rfl⟩, ?_⟩
    · intro b hb; cases hb
    · rcases hcur with h | ⟨b, hb, _⟩
      · exact Or.inl h
      · cases hb
  · intro a ha
    apply hupd.2
    simp only [List.forall_mem_cons, List.not_mem_nil, false_implies, implies_true, and_true]
    exact ha

theorem Tiles_last (c : Sizes) (A : List Blk) (l : Blk) (lo hi : Nat)
    (h : Tiles c lo (A ++ [l]) hi) : l.nx c = hi ∧ Tiles c lo A l.h := by
  rw [Tiles_append] at h
  obtain ⟨mid, h1, h2⟩ := h
  rw [Tiles_cons, Tiles_nil] at h2
  rw [h2.1]
  exact ⟨h2.2, h1⟩

theorem Tiles_snoc (c : Sizes) (A : List Blk) (l : Blk) (lo hi : Nat)
    (h1 : Tiles c lo A l.h) (h2 : l.nx c = hi) : Tiles c lo (A ++ [l]) hi := by
  rw [Tiles_append]
  exact ⟨l.h, h1, by rw [Tiles_cons, Tiles_nil]; exact ⟨rfl, h2⟩⟩

set_option maxHeartbeats 1000000 in
/-- Growing the gap behind the last block. -/
theorem expand_last_inv (c : Sizes) (s : Heap) (A : List Blk) (l : Blk) (size : Nat)
    (hinv : Inv c s (A ++ [l])) (hlt : l.ff < footprint c size)
    (hfp : footprint c size < 2147483648) (hsz2 : size < 2147483648) :
    (¬ s.brk + (footprint c size - l.ff + 4095) / 4096 * 4096 ≤ s.brk_max →
      expand_list c s size = .error Stop.exit) ∧
    (s.brk + (footprint c size - l.ff + 4095) / 4096 * 4096 ≤ s.brk_max →
      ∃ M, expand_list c s size = .ok (l.tl c + c.TS, { s with
        mem := M, brk := s.brk + (footprint c size - l.ff + 4095) / 4096 * 4096 }) ∧
      Inv c { s with mem := M, brk := s.brk + (footprint c size - l.ff + 4095) / 4096 * 4096 }
        (A ++ [Blk.mk l.h l.sz (l.ff + (footprint c size - l.ff + 4095) / 4096 * 4096)]) ∧
      ∀ a, (a < s.start + 8 ∨ s.start + 16 ≤ a) → (a < l.tl c + 16 ∨ l.tl c + 24 ≤ a) →
        M a = s.mem a) := by
  obtain ⟨hcyc, hdisj, hall⟩ := Inv_split c s A [] l hinv
  simp only [List.nil_append] at hcyc hdisj hall
  obtain ⟨hc, hs0, hs16, hle, hpg, hbrk1, hbrk2, hbrk3, hmax, hmax64, hbok, hfirst, hcyc0,
    ⟨lo, hlo, htiles⟩, hcur⟩ := hinv
  generalize he : end_addr s.mem s.start = e at *
  unfold end_addr at he
  have hc' := hc
  obtain ⟨c1, c2, c3, c4, c5, c6, c7, c8, c9⟩ := hc
  have hnp := Cyc_next_prev c s.mem l A hcyc
  have hcyc' := hcyc
  unfold Cyc at hcyc'
  simp only [Seg_cons, hdOr_cons, tlOr_cons] at hcyc'
  obtain ⟨hbp, hseg⟩ := hcyc'
  unfold BlkAt prev_seg_tail next_seg_tail seg_size prev_seg_head next_seg_head
    free_following at hbp
  obtain ⟨g1, g2, g3, g4, g5, g6⟩ := hbp
  obtain ⟨hp1, hp2, hp3⟩ := hall l (List.mem_cons_self _ _)
  have htl := Blk.tl_ge c l
  have hf0 : hdOr (A ++ [l]) 0 = lo := by
    rw [hdOr_ne _ (by simp) 0 e]
    exact Tiles_hdOr c _ _ _ htiles
  have hf1 : hdOr A l.h = lo := by
    rw [← hf0, hdOr_append]; rfl
  rw [hf0] at hfirst
  rw [hf1] at hnp
  unfold first_seg at hfirst
  obtain ⟨hlast, htA⟩ := Tiles_last c A l lo e htiles
  have hlast' := hlast
  unfold Blk.nx at hlast'
  obtain ⟨hr1, hr2⟩ := expand_list_run_last c s size lo (l.tl c) l.ff e hc' hs0 (by omega)
    he hfirst hnp g6 hlast' (by omega) hfp hsz2 hlt hbrk1 hmax64
  refine ⟨hr1, ?_⟩
  intro hfit
  obtain ⟨M, hrun, hupd⟩ := hr2 hfit
  have hpgs := pages_ge (footprint c size - l.ff)
  generalize (footprint c size - l.ff + 4095) / 4096 * 4096 = G at *
  have hw := hupd.1
  simp only [List.forall_mem_cons, List.not_mem_nil, false_implies, implies_true, and_true]
    at hw
  obtain ⟨w1, w2⟩ := hw
  have hfr : ∀ a, (a < s.start + 8 ∨ s.start + 16 ≤ a) → (a < l.tl c + 16 ∨ l.tl c + 24 ≤ a) →
      M a = s.mem a := by
    intro a ha1 ha2
    apply hupd.2
    simp only [List.forall_mem_cons, List.not_mem_nil, false_implies, implies_true, and_true]
    exact ⟨ha2, ha1⟩
  have hF : rd64 M s.start = lo := by
    rw [← hfirst]
    apply rd64_congr
    intro x hx1 hx2
    apply hfr <;> omega
  refine ⟨M, hrun, ?_, hfr⟩
  unfold Inv end_addr first_seg
  dsimp only
  simp only [w2, hF]
  refine ⟨hc', hs0, hs16, by omega, by omega, by omega, by omega, hfit, hmax, hmax64, ?_, ?_, ?_,
    ⟨lo, hlo, ?_⟩, ?_⟩
  · intro b hb
    simp only [List.mem_append, List.mem_singleton] at hb
    rcases hb with h | rfl
    · exact hbok b (by simp [h])
    · obtain ⟨hb1, hb2, hb3, hb4⟩ := hp3
      refine ⟨hb1, ?_, hb3, hb4⟩
      show (l.ff + G) % 16 = 0
      omega
  · simp only [hdOr_append, hdOr_cons, hdOr_nil] at hf0 ⊢
    exact hf0.symm
  · apply (Cyc_rotate c M A _).mpr
    refine set_ff_cyc c hc' s.mem M l A (l.ff + G) hcyc w1 ?_ hdisj
    intro b hb a ha1 ha2 hn
    have hbl := (hall b hb).1
    apply hfr <;> omega
  · refine Tiles_snoc c A (Blk.mk l.h l.sz (l.ff + G)) lo (e + G) htA ?_
    show l.tl c + c.TS + (l.ff + G) = e + G
    omega
  · rcases hcur with h | ⟨b, hb, h⟩
    · exact Or.inl h
    · right
      simp only [List.mem_append, List.mem_singleton] at hb
      rcases hb with hb | hb
      · exact ⟨b, by simp [hb], h⟩
      · rw [hb] at h
        exact ⟨Blk.mk l.h l.sz (l.ff + G), by simp, h⟩

/-! ### Removing blocks -/

set_option maxHeartbeats 1000000 in
/-- Removing the only block resets the directory. -/
theorem remove_only_inv (c : Sizes) (s : Heap) (x : Blk) (hinv : Inv c s [x]) :
    ∃ M, remove_segment c s (x.user c) = .ok { s with
        mem := M, last_addr := 0, brk := s.start + c.LS } ∧
      Inv c { s with mem := M, last_addr := 0, brk := s.start + c.LS } [] ∧
      end_addr M s.start = s.start + c.LS := by
  obtain ⟨hc, hs0, hs16, hle, hpg, hbrk1, hbrk2, hbrk3, hmax, hmax64, hbok, hfirst, hcyc,
    ⟨lo, hlo, htiles⟩, hcur⟩ := hinv
  generalize he : end_addr s.mem s.start = e at *
  unfold end_addr at he
  have hc' := hc
  obtain ⟨c1, c2, c3, c4, c5, c6, c7, c8, c9⟩ := hc
  unfold Cyc at hcyc
  simp only [Seg_cons, Seg_nil, hdOr_cons, hdOr_nil, tlOr_cons, tlOr_nil, and_true] at hcyc
  unfold BlkAt prev_seg_tail next_seg_tail seg_size prev_seg_head next_seg_head
    free_following at hcyc
  obtain ⟨g1, g2, g3, g4, g5, g6⟩ := hcyc
  rw [Tiles_cons, Tiles_nil] at htiles
  obtain ⟨ht1, ht2⟩ := htiles
  have htl := Blk.tl_ge c x
  have hnx := Blk.nx_ge c x
  rw [hdOr_cons] at hfirst
  unfold first_seg at hfirst
  have hdisp := remove_segment_only c s x.h e (x.tl c) he hfirst g1 g2 (by omega) (by omega)
  obtain ⟨M, hrun, hr1, hr2, hfr⟩ := remove_only_run c s x.h (x.tl c) c4 g2 (by omega)
    (by omega) (by omega) (by omega) (by omega) hmax64
  have hla : (if x.tl c = s.last_addr then 0 else s.last_addr) = 0 := by
    rcases hcur with h | ⟨b, hb, h⟩
    · rw [h]; split <;> rfl
    · rw [List.mem_singleton] at hb
      rw [h, hb, if_pos rfl]
  rw [hla] at hrun
  refine ⟨M, ?_, ?_, hr2⟩
  · show remove_segment c s (x.h + c.HS) = _
    rw [hdisp, hrun]
  · unfold Inv end_addr first_seg
    dsimp only
    rw [hr1, hr2]
    refine ⟨hc', hs0, hs16, le_refl _, by simp, le_refl _, by omega, by omega, hmax, hmax64,
      ?_, rfl, trivial, ⟨s.start + c.LS, le_refl _, rfl⟩, Or.inl rfl⟩
    intro b hb; cases hb

set_option maxHeartbeats 1000000 in
/-- Removing the first of several blocks. -/
theorem remove_first_inv (c : Sizes) (s : Heap) (x l : Blk) (R : List Blk)
    (hinv : Inv c s (x :: (R ++ [l]))) :
    ∃ M, remove_segment c s (x.user c) = .ok { s with
        mem := M, last_addr := if x.tl c = s.last_addr then l.tl c else s.last_addr } ∧
      Inv c { s with
        mem := M, last_addr := if x.tl c = s.last_addr then l.tl c else s.last_addr }
        (R ++ [l]) ∧
      (∀ b ∈ x :: (R ++ [l]), ∀ a, b.user c ≤ a → a < b.tl c → M a = s.mem a) := by
  obtain ⟨hcyc, hdisj, hall⟩ := Inv_split c s (x :: R) [] l hinv
  simp only [List.nil_append] at hcyc hdisj hall
  obtain ⟨hc, hs0, hs16, hle, hpg, hbrk1, hbrk2, hbrk3, hmax, hmax64, hbok, hfirst, hcyc0,
    ⟨lo, hlo, htiles⟩, hcur⟩ := hinv
  generalize he : end_addr s.mem s.start = e at *
  unfold end_addr at he
  have hc' := hc
  obtain ⟨c1, c2, c3, c4, c5, c6, c7, c8, c9⟩ := hc
  have hcyc' := hcyc
  unfold Cyc at hcyc'
  simp only [Seg_cons, hdOr_cons, tlOr_cons] at hcyc'
  obtain ⟨hbl, hbx, hseg⟩ := hcyc'
  unfold BlkAt prev_seg_tail next_seg_tail seg_size prev_seg_head next_seg_head
    free_following at hbl hbx
  obtain ⟨k1, k2, k3, k4, k5, k6⟩ := hbl
  obtain ⟨g1, g2, g3, g4, g5, g6⟩ := hbx
  rw [Tiles_cons] at htiles
  obtain ⟨ht1, ht2⟩ := htiles
  obtain ⟨hlast, htA⟩ := Tiles_last c R l _ e ht2
  have hnxt : hdOr R l.h = x.nx c := by
    have := Tiles_hdOr c _ _ _ ht2
    rw [hdOr_append] at this
    exact this
  have hlh := (Tiles_mem c _ _ _ ht2 l (by simp)).1
  have htlx := Blk.tl_ge c x
  have htll := Blk.tl_ge c l
  have hnxx := Blk.nx_ge c x
  have hxn : x.nx c = x.tl c + c.TS + x.ff := rfl
  have hln : l.nx c = l.tl c + c.TS + l.ff := rfl
  have hxt : x.tl c = x.h + c.HS + round_up x.sz ALIGNMENT := rfl
  rw [hnxt] at g5
  rw [hdOr_cons] at hfirst
  unfold first_seg at hfirst
  have hdisp := remove_segment_first c s x.h e (l.tl c) (x.tl c) he hfirst g1 g2 (by omega)
    (by omega) (by omega)
  obtain ⟨M, hrun, hupd⟩ := remove_first_run c s x.h (x.tl c) x.sz x.ff (x.nx c) (l.tl c) l.ff e
    c4 c5 c6 he hfirst g1 g2 g3 g5 g6 k6 hs0 (by omega) hxt hxn (by omega) (by omega)
    (by omega) (by omega)
  have hw := hupd.1
  simp only [List.forall_mem_cons, List.not_mem_nil, false_implies, implies_true, and_true]
    at hw
  obtain ⟨w1, w2, w3⟩ := hw
  have hfr : ∀ a, (a < s.start ∨ s.start + 8 ≤ a) → (a < x.nx c ∨ x.nx c + 8 ≤ a) →
      (a < l.tl c + 8 ∨ l.tl c + 16 ≤ a) → M a = s.mem a := by
    intro a ha1 ha2 ha3
    apply hupd.2
    simp only [List.forall_mem_cons, List.not_mem_nil, false_implies, implies_true, and_true]
    exact ⟨ha1, ha2, ha3⟩
  refine ⟨M, ?_, ?_, ?_⟩
  · show remove_segment c s (x.h + c.HS) = _
    rw [hdisp, hrun]
  · have hE : rd64 M (s.start + 8) = e := by
      rw [← he]
      apply rd64_congr
      intro a ha1 ha2
      apply hfr <;> omega
    have hG : rd64 M (l.tl c + 16) = l.ff := by
      rw [← k6]
      apply rd64_congr
      intro a ha1 ha2
      apply hfr <;> omega
    unfold Inv end_addr first_seg
    dsimp only
    rw [hE, w1]
    refine ⟨hc', hs0, hs16, hle, hpg, hbrk1, hbrk2, hbrk3, hmax, hmax64, ?_, ?_, ?_,
      ⟨x.nx c, by omega, ht2⟩, ?_⟩
    · intro b hb
      exact hbok b (List.mem_cons_of_mem _ hb)
    · rw [← hnxt, hdOr_append]; rfl
    · apply (Cyc_rotate c M [l] _).mp
      show Cyc c M (Blk.mk l.h l.sz l.ff :: R)
      refine remove_cyc c hc' s.mem M l x R l.ff hcyc hdisj ?_ ?_ hG ?_
      · rw [hnxt]; exact w3
      · rw [hnxt]; exact w2
      · rw [hnxt]
        intro b hb a ha1 ha2 hn1 hn2
        have hbl : x.nx c ≤ b.h := by
          rcases List.mem_cons.mp hb with rfl | hb
          · exact hlh
          · exact (Tiles_mem c _ _ _ ht2 b (by simp [hb])).1
        apply hfr <;> omega
    · by_cases hla : x.tl c = s.last_addr
      · rw [if_pos hla]
        exact Or.inr ⟨l, by simp, rfl⟩
      · rw [if_neg hla]
        rcases hcur with h | ⟨b, hb, h⟩
        · exact Or.inl h
        · rcases List.mem_cons.mp hb with rfl | hb
          · exact absurd h.symm hla
          · exact Or.inr ⟨b, hb, h⟩
  · intro b hb a ha1 ha2
    have hb' : b ∈ l :: x :: R := by
      simp only [List.mem_append, List.mem_cons, List.mem_singleton, List.not_mem_nil,
        or_false] at hb ⊢
      rcases hb with h | h | h
      · exact Or.inr (Or.inl h)
      · exact Or.inr (Or.inr h)
      · exact Or.inl h
    have hpl := pay_disj c _ hdisj b l hb' (List.mem_cons_self _ _) a ha1 ha2
    have hnd : a < x.nx c ∨ x.nx c + c.HS ≤ a := by
      rw [← hnxt]
      rcases hdOr_cases R l.h with ⟨h1, h2⟩ | ⟨n, hn, h2⟩
      · rw [h2]; exact hpl.1
      · rw [h2]
        exact (pay_disj c _ hdisj b n hb'
          (List.mem_cons_of_mem _ (List.mem_cons_of_mem _ hn)) a ha1 ha2).1
    have hbl := (hall b hb').1
    unfold Blk.user at ha1
    apply hfr
    · clear * - hbl ha1 c4; omega
    · clear * - hnd c5; omega
    · clear * - hpl hln c6; omega

/-- The first head of a circular list points back to the last tail. -/
theorem Cyc_first_prev (c : Sizes) (m : Mem) (bs : List Blk) (h : Cyc c m bs) (hne : bs ≠ []) :
    rd64 m (hdOr bs 0) = tlOr c bs 0 := by
  unfold Cyc at h
  cases bs with
  | nil => exact absurd rfl hne
  | cons a r =>
    rw [Seg_cons] at h
    exact h.1.1

set_option maxHeartbeats 1000000 in
/-- Removing a block that has a predecessor and a successor. -/
theorem remove_mid_inv (c : Sizes) (s : Heap) (A B : List Blk) (p x n : Blk)
    (hinv : Inv c s (A ++ p :: x :: n :: B)) :
    ∃ M, remove_segment c s (x.user c) = .ok { s with
        mem := M, last_addr := if x.tl c = s.last_addr then p.tl c else s.last_addr } ∧
      Inv c { s with
        mem := M, last_addr := if x.tl c = s.last_addr then p.tl c else s.last_addr }
        (A ++ Blk.mk p.h p.sz (p.ff + (footprint c x.sz + x.ff)) :: n :: B) ∧
      (∀ b ∈ A ++ p :: x :: n :: B, ∀ a, b.user c ≤ a → a < b.tl c → M a = s.mem a) := by
  obtain ⟨hcyc, hdisj, hall⟩ := Inv_split c s A (x :: n :: B) p hinv
  simp only [List.cons_append] at hcyc hdisj hall
  have hinv0 := hinv
  obtain ⟨hc, hs0, -, hle, -, hbrk1, hbrk2, hbrk3, hmax, hmax64, hbok, hfirst, hcyc0,
    ⟨lo, hlo, htiles⟩, hcur⟩ := hinv
  generalize he : end_addr s.mem s.start = e at *
  have he0 := he
  unfold end_addr at he
  have hc' := hc
  obtain ⟨-, -, -, c4, c5, c6, -, -, -⟩ := hc
  have hcyc' := hcyc
  unfold Cyc at hcyc'
  simp only [Seg_cons, hdOr_cons, tlOr_cons] at hcyc'
  obtain ⟨hbp, hbx, hseg⟩ := hcyc'
  unfold BlkAt prev_seg_tail next_seg_tail seg_size prev_seg_head next_seg_head
    free_following at hbp hbx
  obtain ⟨k1, k2, k3, k4, k5, k6⟩ := hbp
  obtain ⟨g1, g2, g3, g4, g5, g6⟩ := hbx
  have hfp := Cyc_first_prev c s.mem _ hcyc0 (by simp)
  have hf0 : hdOr (A ++ p :: x :: n :: B) 0 = lo := by
    rw [hdOr_ne _ (by simp) 0 e]
    exact Tiles_hdOr c _ _ _ htiles
  rw [hf0] at hfirst hfp
  unfold first_seg at hfirst
  have hlop := (Tiles_mem c _ _ _ htiles p (by simp)).1
  have htiles0 := htiles
  rw [Tiles_append] at htiles
  obtain ⟨mid, htA, ht2⟩ := htiles
  simp only [Tiles_cons] at ht2
  obtain ⟨ht3, ht4, ht5, ht6⟩ := ht2
  have hne := Tiles_le c _ _ _ ht6
  have htlp := Blk.tl_ge c p
  have htlx := Blk.tl_ge c x
  have htln := Blk.tl_ge c n
  have hnxn := Blk.nx_ge c n
  have hxn : x.nx c = x.tl c + c.TS + x.ff := rfl
  have hpn : p.nx c = p.tl c + c.TS + p.ff := rfl
  have hxt : x.tl c = x.h + c.HS + round_up x.sz ALIGNMENT := rfl
  have hlt : tlOr c (A ++ p :: x :: n :: B) 0 ≠ p.tl c := by
    rw [tlOr_append]
    simp only [tlOr_cons]
    rcases tlOr_cases c B (n.tl c) with ⟨h1, h2⟩ | ⟨b, hb, h2⟩
    · rw [h2]; clear * - htlp hpn ht4 htlx hxn ht5 htln c5 c6; omega
    · rw [h2]
      have hb1 := (Tiles_mem c _ _ _ ht6 b hb).1
      have hb2 := Blk.tl_ge c b
      clear * - htlp hpn ht4 htlx hxn ht5 htln c5 c6 hnxn hb1 hb2; omega
  obtain ⟨a1, a2, a3, a4, a5, a6, a7, a8, a9⟩ : s.start + c.LS ≤ x.h ∧ x.h + c.HS < e ∧
      lo ≠ x.h ∧ lo + 24 ≤ p.tl c ∧ p.tl c + 24 ≤ x.h ∧ x.h + 24 ≤ x.tl c ∧ x.tl c + 24 ≤ n.h ∧
      p.tl c + c.TS + (p.ff + (c.HS + round_up x.sz ALIGNMENT + c.TS + x.ff)) ≤ e ∧
      e < 18446744073709551616 := by
    clear * - hlo hlop htlp hpn ht4 htlx hxn hxt ht5 htln hnxn hne c4 c5 c6 hbrk1 hbrk3 hmax64
    refine ⟨?_, ?_, ?_, ?_, ?_, ?_, ?_, ?_, ?_⟩ <;> omega
  have hdisp := remove_segment_inner c s x.h e lo he hfirst a1 a2 a3
  obtain ⟨M, hrun, hupd⟩ := remove_inner_run_mid c s x.h (p.tl c) (x.tl c) x.sz x.ff n.h p.ff e
    lo _ c4 c5 c6 he hfirst g1 g2 g3 g5 g6 k6 hfp hlt hlo a4 a5 a6 a7 a8 a9
  have hw := hupd.1
  simp only [List.forall_mem_cons, List.not_mem_nil, false_implies, implies_true, and_true]
    at hw
  obtain ⟨w1, w2, w3⟩ := hw
  have hfr : ∀ a, (a < n.h ∨ n.h + 8 ≤ a) → (a < p.tl c + 8 ∨ p.tl c + 24 ≤ a) →
      M a = s.mem a := by
    intro a ha1 ha2
    apply hupd.2
    simp only [List.forall_mem_cons, List.not_mem_nil, false_implies, implies_true, and_true]
    clear * - ha1 ha2
    refine ⟨ha1, ?_, ?_⟩ <;> omega
  refine ⟨M, ?_, ?_, ?_⟩
  · show remove_segment c s (x.h + c.HS) = _
    rw [hdisp, hrun]
  · have hE : rd64 M (s.start + 8) = e := by
      rw [← he]
      apply rd64_congr
      intro a ha1 ha2
      clear * - hfr ha1 ha2 a1 a5 a6 a7 c4 htlp hlo hlop
      apply hfr <;> omega
    have hF : rd64 M s.start = lo := by
      rw [← hfirst]
      apply rd64_congr
      intro a ha1 ha2
      clear * - hfr ha1 ha2 a1 a5 a6 a7 c4 htlp hlo hlop
      apply hfr <;> omega
    unfold Inv end_addr first_seg
    dsimp only
    rw [hE, hF]
    have hs16 := hinv0.2.2.1
    have hpg := hinv0.2.2.2.2.1
    rw [he0] at hpg
    refine ⟨hc', hs0, hs16, hle, hpg, hbrk1, hbrk2, hbrk3, hmax, hmax64, ?_, ?_, ?_,
      ⟨lo, hlo, ?_⟩, ?_⟩
    · intro b hb
      simp only [List.mem_append, List.mem_cons] at hb
      rcases hb with h | h | h | h
      · exact hbok b (by simp [h])
      · obtain ⟨hb1, hb2, hb3, hb4⟩ := hbok p (by simp)
        obtain ⟨hx1, hx2, hx3, hx4⟩ := hbok x (by simp)
        have hru := round_up_16 x.sz (by omega)
        rw [h]
        refine ⟨hb1, ?_, hb3, hb4⟩
        show (p.ff + (footprint c x.sz + x.ff)) % 16 = 0
        unfold footprint
        have c2 := hc'.2.1
        have c3 := hc'.2.2.1
        clear * - hb2 hx2 hru c2 c3
        omega
      · exact hbok b (by simp [h])
      · exact hbok b (by simp [h])
    · simp only [hdOr_append, hdOr_cons] at hf0 ⊢
      exact hf0.symm
    · apply (Cyc_rotate c M A _).mpr
      simp only [List.cons_append]
      refine remove_cyc c hc' s.mem M p x (n :: (B ++ A)) _ hcyc hdisj w2 w1 w3 ?_
      intro b hb a ha1 ha2 hn1 hn2
      rw [hdOr_cons] at hn2
      clear * - hfr hn1 hn2
      apply hfr <;> omega
    · rw [Tiles_append]
      refine ⟨mid, htA, ?_⟩
      simp only [Tiles_cons]
      refine ⟨ht3, ?_, ht6⟩
      show n.h = p.tl c + c.TS + (p.ff + (footprint c x.sz + x.ff))
      unfold footprint
      clear * - ht4 ht5 hxn hpn hxt
      omega
    · by_cases hla : x.tl c = s.last_addr
      · rw [if_pos hla]
        exact Or.inr ⟨Blk.mk p.h p.sz (p.ff + (footprint c x.sz + x.ff)), by simp, rfl⟩
      · rw [if_neg hla]
        rcases hcur with h | ⟨b, hb, h⟩
        · exact Or.inl h
        · right
          simp only [List.mem_append, List.mem_cons] at hb
          rcases hb with hb | hb | hb | hb | hb
          · exact ⟨b, by simp [hb], h⟩
          · rw [hb] at h
            exact ⟨Blk.mk p.h p.sz (p.ff + (footprint c x.sz + x.ff)), by simp, h⟩
          · rw [hb] at h
            exact absurd h.symm hla
          · exact ⟨b, by simp [hb], h⟩
          · exact ⟨b, by simp [hb], h⟩
  · intro b hb a ha1 ha2
    have hb' : b ∈ p :: x :: n :: (B ++ A) := by
      simp only [List.mem_append, List.mem_cons] at hb ⊢
      rcases hb with h | h | h | h | h
      · exact Or.inr (Or.inr (Or.inr (Or.inr h)))
      · exact Or.inl h
      · exact Or.inr (Or.inl h)
      · exact Or.inr (Or.inr (Or.inl h))
      · exact Or.inr (Or.inr (Or.inr (Or.inl h)))
    have hpp := pay_disj c _ hdisj b p hb' (List.mem_cons_self _ _) a ha1 ha2
    have hpn' := pay_disj c _ hdisj b n hb' (by simp) a ha1 ha2
    apply hfr
    · clear * - hpn' c5; omega
    · clear * - hpp hpn c6; omega

set_option maxHeartbeats 1000000 in
/-- Removing the last block when it has a predecessor: the unlinking step, before the
break is lowered. -/
theorem remove_last_inv (c : Sizes) (s : Heap) (A : List Blk) (p x : Blk)
    (hinv : Inv c s (A ++ [p, x])) :
    ∃ M, remove_segment c s (x.user c) = remove_shrink c { s with
        mem := M, last_addr := if x.tl c = s.last_addr then p.tl c else s.last_addr }
        (p.tl c) ∧
      Inv c { s with
        mem := M, last_addr := if x.tl c = s.last_addr then p.tl c else s.last_addr }
        (A ++ [Blk.mk p.h p.sz (p.ff + (footprint c x.sz + x.ff))]) ∧
      (∀ b ∈ A ++ [p, x], ∀ a, b.user c ≤ a → a < b.tl c → M a = s.mem a) := by
  obtain ⟨hcyc, hdisj, hall⟩ := Inv_split c s A [x] p hinv
  simp only [List.cons_append, List.nil_append] at hcyc hdisj hall
  have hinv0 := hinv
  obtain ⟨hc, hs0, -, hle, -, hbrk1, hbrk2, hbrk3, hmax, hmax64, hbok, hfirst, hcyc0,
    ⟨lo, hlo, htiles⟩, hcur⟩ := hinv
  generalize he : end_addr s.mem s.start = e at *
  have he0 := he
  unfold end_addr at he
  have hc' := hc
  obtain ⟨-, -, -, c4, c5, c6, -, -, -⟩ := hc
  have hcyc' := hcyc
  unfold Cyc at hcyc'
  simp only [Seg_cons, hdOr_cons, tlOr_cons] at hcyc'
  obtain ⟨hbp, hbx, hseg⟩ := hcyc'
  unfold BlkAt prev_seg_tail next_seg_tail seg_size prev_seg_head next_seg_head
    free_following at hbp hbx
  obtain ⟨k1, k2, k3, k4, k5, k6⟩ := hbp
  obtain ⟨g1, g2, g3, g4, g5, g6⟩ := hbx
  have hf0 : hdOr (A ++ [p, x]) 0 = lo := by
    rw [hdOr_ne _ (by simp) 0 e]
    exact Tiles_hdOr c _ _ _ htiles
  have hf1 : hdOr A p.h = lo := by
    rw [← hf0, hdOr_append]; rfl
  rw [hf0] at hfirst
  rw [hf1] at g5
  unfold first_seg at hfirst
  have hlop := (Tiles_mem c _ _ _ htiles p (by simp)).1
  rw [Tiles_append] at htiles
  obtain ⟨mid, htA, ht2⟩ := htiles
  simp only [Tiles_cons, Tiles_nil] at ht2
  obtain ⟨ht3, ht4, ht5⟩ := ht2
  have htlp := Blk.tl_ge c p
  have htlx := Blk.tl_ge c x
  have hxn : x.nx c = x.tl c + c.TS + x.ff := rfl
  have hpn : p.nx c = p.tl c + c.TS + p.ff := rfl
  have hxt : x.tl c = x.h + c.HS + round_up x.sz ALIGNMENT := rfl
  obtain ⟨a1, a2, a3, a4, a5, a6, a8, a9⟩ : s.start + c.LS ≤ x.h ∧ x.h + c.HS < e ∧
      lo ≠ x.h ∧ lo + 24 ≤ p.tl c ∧ p.tl c + 24 ≤ x.h ∧ x.h + 24 ≤ x.tl c ∧
      p.tl c + c.TS + (p.ff + (c.HS + round_up x.sz ALIGNMENT + c.TS + x.ff)) ≤ e ∧
      e < 18446744073709551616 := by
    clear * - hlo hlop htlp hpn ht4 htlx hxn hxt ht5 c4 c5 c6 hbrk1 hbrk3 hmax64
    refine ⟨?_, ?_, ?_, ?_, ?_, ?_, ?_, ?_⟩ <;> omega
  have hdisp := remove_segment_inner c s x.h e lo he hfirst a1 a2 a3
  obtain ⟨M, hrun, hupd⟩ := remove_inner_run_last c s x.h (p.tl c) (x.tl c) x.sz x.ff p.ff e
    lo c4 c5 c6 he hfirst g1 g2 g3 g5 g6 k6 hlo a4 a5 a6 a8 a9
  have hw := hupd.1
  simp only [List.forall_mem_cons, List.not_mem_nil, false_implies, implies_true, and_true]
    at hw
  obtain ⟨w1, w2, w3⟩ := hw
  have hfr : ∀ a, (a < lo ∨ lo + 8 ≤ a) → (a < p.tl c + 8 ∨ p.tl c + 24 ≤ a) →
      M a = s.mem a := by
    intro a ha1 ha2
    apply hupd.2
    simp only [List.forall_mem_cons, List.not_mem_nil, false_implies, implies_true, and_true]
    clear * - ha1 ha2
    refine ⟨ha1, ?_, ?_⟩ <;> omega
  refine ⟨M, ?_, ?_, ?_⟩
  · show remove_segment c s (x.h + c.HS) = _
    rw [hdisp, hrun]
  · have hE : rd64 M (s.start + 8) = e := by
      rw [← he]
      apply rd64_congr
      intro a ha1 ha2
      clear * - hfr ha1 ha2 a4 c4 hlo
      apply hfr <;> omega
    have hF : rd64 M s.start = lo := by
      rw [← hfirst]
      apply rd64_congr
      intro a ha1 ha2
      clear * - hfr ha1 ha2 a4 c4 hlo
      apply hfr <;> omega
    unfold Inv end_addr first_seg
    dsimp only
    rw [hE, hF]
    have hs16 := hinv0.2.2.1
    have hpg := hinv0.2.2.2.2.1
    rw [he0] at hpg
    refine ⟨hc', hs0, hs16, hle, hpg, hbrk1, hbrk2, hbrk3, hmax, hmax64, ?_, ?_, ?_,
      ⟨lo, hlo, ?_⟩, ?_⟩
    · intro b hb
      simp only [List.mem_append, List.mem_singleton] at hb
      rcases hb with h | h
      · exact hbok b (by simp [h])
      · obtain ⟨hb1, hb2, hb3, hb4⟩ := hbok p (by simp)
        obtain ⟨hx1, hx2, hx3, hx4⟩ := hbok x (by simp)
        have hru := round_up_16 x.sz (by omega)
        rw [h]
        refine ⟨hb1, ?_, hb3, hb4⟩
        show (p.ff + (footprint c x.sz + x.ff)) % 16 = 0
        unfold footprint
        have c2 := hc'.2.1
        have c3 := hc'.2.2.1
        clear * - hb2 hx2 hru c2 c3
        omega
    · simp only [hdOr_append, hdOr_cons, hdOr_nil] at hf0 ⊢
      exact hf0.symm
    · apply (Cyc_rotate c M A _).mpr
      simp only [List.cons_append, List.nil_append]
      refine remove_cyc c hc' s.mem M p x A _ hcyc hdisj ?_ ?_ w3 ?_
      · rw [hf1]; exact w2
      · rw [hf1]; exact w1
      · rw [hf1]
        intro b hb a ha1 ha2 hn1 hn2
        clear * - hfr hn1 hn2
        apply hfr <;> omega
    · refine Tiles_snoc c A (Blk.mk p.h p.sz (p.ff + (footprint c x.sz + x.ff))) lo e ?_ ?_
      · rw [← ht3] at htA; exact htA
      · show p.tl c + c.TS + (p.ff + (footprint c x.sz + x.ff)) = e
        unfold footprint
        clear * - ht4 ht5 hxn hpn hxt
        omega
    · by_cases hla : x.tl c = s.last_addr
      · rw [if_pos hla]
        exact Or.inr ⟨Blk.mk p.h p.sz (p.ff + (footprint c x.sz + x.ff)), by simp, rfl⟩
      · rw [if_neg hla]
        rcases hcur with h | ⟨b, hb, h⟩
        · exact Or.inl h
        · right
          simp only [List.mem_append, List.mem_cons, List.mem_singleton, List.not_mem_nil,
            or_false] at hb
          rcases hb with hb | hb | hb
          · exact ⟨b, by simp [hb], h⟩
          · rw [hb] at h
            exact ⟨Blk.mk p.h p.sz (p.ff + (footprint c x.sz + x.ff)), by simp, h⟩
          · rw [hb] at h
            exact absurd h.symm hla
  · intro b hb a ha1 ha2
    have hb' : b ∈ p :: x :: A := by
      simp only [List.mem_append, List.mem_cons, List.mem_singleton, List.not_mem_nil,
        or_false] at hb ⊢
      rcases hb with h | h | h
      · exact Or.inr (Or.inr h)
      · exact Or.inl h
      · exact Or.inr (Or.inl h)
    have hpp := pay_disj c _ hdisj b p hb' (List.mem_cons_self _ _) a ha1 ha2
    have hnd : a < lo ∨ lo + c.HS ≤ a := by
      rw [← hf1]
      rcases hdOr_cases A p.h with ⟨h1, h2⟩ | ⟨n, hn, h2⟩
      · rw [h2]; exact hpp.1
      · rw [h2]
        exact (pay_disj c _ hdisj b n hb'
          (List.mem_cons_of_mem _ (List.mem_cons_of_mem _ hn)) a ha1 ha2).1
    apply hfr
    · clear * - hnd c5; omega
    · clear * - hpp hpn c6; omega

set_option maxHeartbeats 1000000 in
/-- The tail-shrink step of `remove_segment` on the last block. -/
theorem remove_shrink_inv (c : Sizes) (s : Heap) (A : List Blk) (l : Blk)
    (hinv : Inv c s (A ++ [l])) :
    ∃ M, remove_shrink c s (l.tl c) = .ok { s with mem := M, brk := s.brk - cutBy l.ff } ∧
      Inv c { s with mem := M, brk := s.brk - cutBy l.ff }
        (A ++ [Blk.mk l.h l.sz (l.ff - cutBy l.ff)]) ∧
      (∀ a, (a < s.start + 8 ∨ s.start + 16 ≤ a) → (a < l.tl c + 16 ∨ l.tl c + 24 ≤ a) →
        M a = s.mem a) := by
  by_cases hff : l.ff ≤ 4096
  · have hk : cutBy l.ff = 0 := by unfold cutBy; rw [if_pos hff]
    rw [hk]
    obtain ⟨hcyc, -, -⟩ := Inv_split c s A [] l hinv
    unfold Cyc at hcyc
    simp only [List.nil_append, Seg_cons] at hcyc
    have k6 : rd64 s.mem (l.tl c + 16) = l.ff := hcyc.1.2.2.2.2.2
    exact ⟨s.mem, remove_shrink_run_keep c s (l.tl c) l.ff k6 hff, hinv, fun _ _ _ => rfl⟩
  · have hk : cutBy l.ff = l.ff / 4096 * 4096 := by unfold cutBy; rw [if_neg hff]
    rw [hk]
    obtain ⟨hcyc, hdisj, hall⟩ := Inv_split c s A [] l hinv
    simp only [List.nil_append] at hcyc hdisj hall
    have hinv0 := hinv
    obtain ⟨hc, hs0, hs16, hle, hpg, hbrk1, hbrk2, hbrk3, hmax, hmax64, hbok, hfirst, hcyc0,
      ⟨lo, hlo, htiles⟩, hcur⟩ := hinv
    generalize he : end_addr s.mem s.start = e at *
    unfold end_addr at he
    have hc' := hc
    obtain ⟨-, -, -, c4, c5, c6, -, -, -⟩ := hc
    have hcyc' := hcyc
    unfold Cyc at hcyc'
    simp only [Seg_cons, hdOr_cons, tlOr_cons] at hcyc'
    obtain ⟨hbp, hseg⟩ := hcyc'
    unfold BlkAt prev_seg_tail next_seg_tail seg_size prev_seg_head next_seg_head
      free_following at hbp
    obtain ⟨g1, g2, g3, g4, g5, g6⟩ := hbp
    obtain ⟨hp1, hp2, hp3⟩ := hall l (List.mem_cons_self _ _)
    have htl := Blk.tl_ge c l
    have hf0 : hdOr (A ++ [l]) 0 = lo := by
      rw [hdOr_ne _ (by simp) 0 e]
      exact Tiles_hdOr c _ _ _ htiles
    rw [hf0] at hfirst
    unfold first_seg at hfirst
    obtain ⟨hlast, htA⟩ := Tiles_last c A l lo e htiles
    have hlast' : l.tl c + c.TS + l.ff = e := hlast
    have hdiv : l.ff / 4096 * 4096 ≤ l.ff ∧ l.ff / 4096 * 4096 % 4096 = 0 ∧
        0 < l.ff / 4096 * 4096 := by
      clear * - hff; omega
    obtain ⟨a1, a2, a3⟩ : l.ff < 2147483648 ∧ s.start + c.LS ≤ l.tl c ∧
        e < 18446744073709551616 := by
      clear * - hlast' hbrk1 hbrk3 hmax hmax64 hp1 htl c5
      refine ⟨?_, ?_, ?_⟩ <;> omega
    obtain ⟨M, hrun, hupd⟩ := remove_shrink_run_cut c s (l.tl c) l.ff e c4 c6 he g6
      (Nat.lt_of_not_le hff) a1 hlast' hbrk1 hbrk3 a2 a3
    generalize l.ff / 4096 * 4096 = K at *
    have hw := hupd.1
    simp only [List.forall_mem_cons, List.not_mem_nil, false_implies, implies_true, and_true]
      at hw
    obtain ⟨w1, w2⟩ := hw
    have hfr : ∀ a, (a < s.start + 8 ∨ s.start + 16 ≤ a) →
        (a < l.tl c + 16 ∨ l.tl c + 24 ≤ a) → M a = s.mem a := by
      intro a ha1 ha2
      apply hupd.2
      simp only [List.forall_mem_cons, List.not_mem_nil, false_implies, implies_true, and_true]
      exact ⟨ha1, ha2⟩
    have hF : rd64 M s.start = lo := by
      rw [← hfirst]
      apply rd64_congr
      intro x hx1 hx2
      clear * - hfr hx1 hx2 a2 c4
      apply hfr <;> omega
    refine ⟨M, hrun, ?_, hfr⟩
    unfold Inv end_addr first_seg
    dsimp only
    rw [w1, hF]
    refine ⟨hc', hs0, hs16, ?_, ?_, ?_, ?_, ?_, hmax, hmax64, ?_, ?_, ?_, ⟨lo, hlo, ?_⟩, ?_⟩
    · clear * - hdiv hlast' a2 c6; omega
    · clear * - hdiv hlast' a2 c6 hpg; omega
    · clear * - hdiv hlast' hbrk1; omega
    · clear * - hdiv hlast' hbrk1 hbrk2; omega
    · clear * - hbrk3; omega
    · intro b hb
      simp only [List.mem_append, List.mem_singleton] at hb
      rcases hb with h | rfl
      · exact hbok b (by simp [h])
      · obtain ⟨hb1, hb2, hb3, hb4⟩ := hp3
        refine ⟨hb1, ?_, hb3, hb4⟩
        show (l.ff - K) % 16 = 0
        clear * - hdiv hb2
        omega
    · simp only [hdOr_append, hdOr_cons, hdOr_nil] at hf0 ⊢
      exact hf0.symm
    · apply (Cyc_rotate c M A _).mpr
      refine set_ff_cyc c hc' s.mem M l A (l.ff - K) hcyc w2 ?_ hdisj
      intro b hb a ha1 ha2 hn
      have hbl := (hall b hb).1
      clear * - hfr ha1 hn hbl c4
      apply hfr <;> omega
    · refine Tiles_snoc c A (Blk.mk l.h l.sz (l.ff - K)) lo (e - K) htA ?_
      show l.tl c + c.TS + (l.ff - K) = e - K
      clear * - hdiv hlast'
      omega
    · rcases hcur with h | ⟨b, hb, h⟩
      · exact Or.inl h
      · right
        simp only [List.mem_append, List.mem_singleton] at hb
        rcases hb with hb | hb
        · exact ⟨b, by simp [hb], h⟩
        · rw [hb] at h
          exact ⟨Blk.mk l.h l.sz (l.ff - K), by simp, h⟩

/-! ### Resizing in place -/

set_option maxHeartbeats 1000000 in
/-- Shrinking the block `x` in place to the size `nsz`. -/
theorem shrink_inv (c : Sizes) (s : Heap) (A B : List Blk) (x : Blk) (nsz : Nat)
    (hinv : Inv c s (A ++ x :: B)) (h0 : 0 < nsz) (h1 : nsz < x.sz) :
    ∃ M, shrink_segment c s (x.user c) (x.sz - nsz) = .ok (0, { s with
        mem := M, last_addr := if x.tl c = s.last_addr then x.h + c.HS + round_up nsz ALIGNMENT
          else s.last_addr }) ∧
      Inv c { s with
        mem := M, last_addr := if x.tl c = s.last_addr then x.h + c.HS + round_up nsz ALIGNMENT
          else s.last_addr }
        (A ++ Blk.mk x.h nsz (x.ff + (round_up x.sz ALIGNMENT - round_up nsz ALIGNMENT)) :: B) ∧
      (∀ b ∈ A ++ B, ∀ a, b.user c ≤ a → a < b.tl c → M a = s.mem a) ∧
      (∀ a, x.user c ≤ a → a < x.user c + round_up nsz ALIGNMENT → M a = s.mem a) := by
  obtain ⟨hcyc, hdisj, hall⟩ := Inv_split c s A B x hinv
  have hinv0 := hinv
  obtain ⟨hc, hs0, -, hle, -, hbrk1, hbrk2, hbrk3, hmax, hmax64, hbok, hfirst, hcyc0,
    ⟨lo, hlo, htiles⟩, hcur⟩ := hinv
  generalize he : end_addr s.mem s.start = e at *
  have he0 := he
  unfold end_addr at he
  have hc' := hc
  obtain ⟨-, -, -, c4, c5, c6, -, -, -⟩ := hc
  have hcyc' := hcyc
  unfold Cyc at hcyc'
  simp only [Seg_cons, hdOr_cons, tlOr_cons] at hcyc'
  obtain ⟨hbx, hseg⟩ := hcyc'
  unfold BlkAt prev_seg_tail next_seg_tail seg_size prev_seg_head next_seg_head
    free_following at hbx
  obtain ⟨g1, g2, g3, g4, g5, g6⟩ := hbx
  obtain ⟨hp1, hp2, hp3⟩ := hall x (List.mem_cons_self _ _)
  obtain ⟨hb1, hb2, hb3, hb4⟩ := hp3
  have hru := round_up_16 x.sz (by omega)
  have hrn := round_up_16 nsz (by omega)
  have hmono := round_up_16_mono nsz x.sz (by omega) (by omega)
  have hxt : x.tl c = x.h + c.HS + round_up x.sz ALIGNMENT := rfl
  have hxn : x.nx c = x.tl c + c.TS + x.ff := rfl
  have hf0 : hdOr (A ++ x :: B) 0 = lo := by
    rw [hdOr_ne _ (by simp) 0 e]
    exact Tiles_hdOr c _ _ _ htiles
  rw [hf0] at hfirst
  unfold first_seg at hfirst
  have hd' : x.sz - (x.sz - nsz) = nsz := by clear * - h1; omega
  have hnx : (hdOr (B ++ A) x.h = x.h ∨ hdOr (B ++ A) x.h + c.HS ≤ x.h ∨
      x.nx c ≤ hdOr (B ++ A) x.h) ∧ s.start + c.LS ≤ hdOr (B ++ A) x.h := by
    rcases hdOr_cases (B ++ A) x.h with ⟨h1, h2⟩ | ⟨n, hn, h2⟩
    · rw [h2]; exact ⟨Or.inl rfl, hp1⟩
    · rw [h2]
      have hd := (List.pairwise_cons.mp hdisj).1 n hn
      obtain ⟨hn1, hn2, hn3⟩ := hall n (List.mem_cons_of_mem _ hn)
      have h3 := Blk.tl_ge c n
      have h4 := Blk.nx_ge c n
      unfold Disj at hd
      clear * - hd hn1 h3 h4
      refine ⟨?_, hn1⟩
      omega
  obtain ⟨a1, a2, a3⟩ : x.tl c + c.TS + x.ff < 18446744073709551616 ∧
      (hdOr (B ++ A) x.h = x.h ∨ hdOr (B ++ A) x.h + 8 ≤ x.h ∨
        x.tl c + c.TS ≤ hdOr (B ++ A) x.h) ∧
      round_up (x.sz - (x.sz - nsz)) ALIGNMENT ≤ round_up x.sz ALIGNMENT := by
    rw [hd']
    clear * - hnx hxn hp2 hbrk1 hbrk3 hmax64 c5 hmono
    refine ⟨?_, ?_, ?_⟩ <;> omega
  obtain ⟨M, hrun, hupd⟩ := shrink_run c s x.h (x.tl c) (hdOr (B ++ A) x.h) x.sz x.ff
    (x.sz - nsz) g2 g3 g5 g6 c5 c6 hxt (Nat.sub_le _ _) a3 a1 hb4 a2
  rw [hd'] at hrun hupd
  have hw := hupd.1
  simp only [List.forall_mem_cons, List.not_mem_nil, false_implies, implies_true, and_true]
    at hw
  obtain ⟨w1, w2, w3, w4, w5, w6⟩ := hw
  have hfr : ∀ a, (a < x.h + 8 ∨ x.nx c ≤ a) →
      (a < hdOr (B ++ A) x.h ∨ hdOr (B ++ A) x.h + 8 ≤ a) → M a = s.mem a := by
    intro a ha1 ha2
    apply hupd.2
    simp only [List.forall_mem_cons, List.not_mem_nil, false_implies, implies_true, and_true]
    clear * - ha1 ha2 hxn hxt hmono c5 c6
    refine ⟨ha2, ?_, ?_, ?_, ?_, ?_⟩ <;> omega
  refine ⟨M, hrun, ?_, ?_, ?_⟩
  · have hE : rd64 M (s.start + 8) = e := by
      rw [← he]
      apply rd64_congr
      intro a ha1 ha2
      clear * - hfr ha1 ha2 hnx hp1 c4
      apply hfr <;> omega
    have hF : rd64 M s.start = lo := by
      rw [← hfirst]
      apply rd64_congr
      intro a ha1 ha2
      clear * - hfr ha1 ha2 hnx hp1 c4
      apply hfr <;> omega
    unfold Inv end_addr first_seg
    dsimp only
    rw [hE, hF]
    have hs16 := hinv0.2.2.1
    have hpg := hinv0.2.2.2.2.1
    rw [he0] at hpg
    refine ⟨hc', hs0, hs16, hle, hpg, hbrk1, hbrk2, hbrk3, hmax, hmax64, ?_, ?_, ?_,
      ⟨lo, hlo, ?_⟩, ?_⟩
    · intro b hb
      simp only [List.mem_append, List.mem_cons] at hb
      rcases hb with h | h | h
      · exact hbok b (by simp [h])
      · rw [h]
        refine ⟨hb1, ?_, h0, lt_trans h1 hb4⟩
        show (x.ff + (round_up x.sz ALIGNMENT - round_up nsz ALIGNMENT)) % 16 = 0
        clear * - hb2 hru hrn hmono
        omega
      · exact hbok b (by simp [h])
    · simp only [hdOr_append, hdOr_cons] at hf0 ⊢
      exact hf0.symm
    · apply (Cyc_rotate c M A _).mpr
      simp only [List.cons_append]
      refine move_tail_cyc c hc' s.mem M x (B ++ A) nsz _ hcyc hdisj ?_ w1 w3 w2 w6 w5 ?_ ?_
      · clear * - hxn hxt hmono
        omega
      · rw [w4]
        clear * - hxt hmono
        omega
      · intro a ha1 ha2
        clear * - hfr ha1 ha2
        apply hfr <;> omega
    · rw [Tiles_append] at htiles ⊢
      obtain ⟨mid, ht1, ht2⟩ := htiles
      refine ⟨mid, ht1, ?_⟩
      simp only [Tiles_cons] at ht2 ⊢
      refine ⟨ht2.1, ?_⟩
      have hx : Blk.nx c (Blk.mk x.h nsz
          (x.ff + (round_up x.sz ALIGNMENT - round_up nsz ALIGNMENT))) = x.nx c := by
        show x.h + c.HS + round_up nsz ALIGNMENT + c.TS +
          (x.ff + (round_up x.sz ALIGNMENT - round_up nsz ALIGNMENT)) = x.nx c
        clear * - hxn hxt hmono
        omega
      rw [hx]; exact ht2.2
    · by_cases hla : x.tl c = s.last_addr
      · rw [if_pos hla]
        exact Or.inr ⟨Blk.mk x.h nsz
          (x.ff + (round_up x.sz ALIGNMENT - round_up nsz ALIGNMENT)), by simp, rfl⟩
      · rw [if_neg hla]
        rcases hcur with h | ⟨b, hb, h⟩
        · exact Or.inl h
        · right
          simp only [List.mem_append, List.mem_cons] at hb
          rcases hb with hb | hb | hb
          · exact ⟨b, by simp [hb], h⟩
          · rw [hb] at h
            exact absurd h.symm hla
          · exact ⟨b, by simp [hb], h⟩
  · intro b hb a ha1 ha2
    have hb' : b ∈ B ++ A := by
      simp only [List.mem_append] at hb ⊢
      exact hb.symm
    have hd := (List.pairwise_cons.mp hdisj).1 b hb'
    have hnd : a < hdOr (B ++ A) x.h ∨ hdOr (B ++ A) x.h + c.HS ≤ a := by
      rcases hdOr_cases (B ++ A) x.h with ⟨h1, h2⟩ | ⟨n, hn, h2⟩
      · rw [h1] at hb'; cases hb'
      · rw [h2]
        exact (pay_disj c _ hdisj b n (List.mem_cons_of_mem _ hb')
          (List.mem_cons_of_mem _ hn) a ha1 ha2).1
    have h3 := Blk.nx_ge c b
    unfold Disj at hd
    unfold Blk.user at ha1
    apply hfr
    · clear * - hd ha1 ha2 h3; omega
    · clear * - hnd c5; omega
  · intro a ha1 ha2
    unfold Blk.user at ha1 ha2
    apply hupd.2
    simp only [List.forall_mem_cons, List.not_mem_nil, false_implies, implies_true, and_true]
    clear * - ha1 ha2 hnx hxn hxt hmono c5 c6
    refine ⟨?_, ?_, ?_, ?_, ?_, ?_⟩ <;> omega

set_option maxHeartbeats 1000000 in
/-- Growing the block `x` in place to the size `nsz`, into the gap behind it. -/
theorem expand_inv (c : Sizes) (s : Heap) (A B : List Blk) (x : Blk) (nsz : Nat)
    (hinv : Inv c s (A ++ x :: B)) (h1 : x.sz < nsz) (h2 : nsz < 2147483648)
    (hfit : round_up nsz ALIGNMENT ≤ round_up x.sz ALIGNMENT + x.ff) :
    ∃ M, expand_segment c s (x.user c) (nsz - x.sz) = .ok (0, { s with
        mem := M, last_addr := if x.tl c = s.last_addr then x.h + c.HS + round_up nsz ALIGNMENT
          else s.last_addr }) ∧
      Inv c { s with
        mem := M, last_addr := if x.tl c = s.last_addr then x.h + c.HS + round_up nsz ALIGNMENT
          else s.last_addr }
        (A ++ Blk.mk x.h nsz (x.ff - (round_up nsz ALIGNMENT - round_up x.sz ALIGNMENT)) :: B) ∧
      (∀ b ∈ A ++ B, ∀ a, b.user c ≤ a → a < b.tl c → M a = s.mem a) ∧
      (∀ a, x.user c ≤ a → a < x.tl c → M a = s.mem a) := by
  obtain ⟨hcyc, hdisj, hall⟩ := Inv_split c s A B x hinv
  have hinv0 := hinv
  obtain ⟨hc, hs0, -, hle, -, hbrk1, hbrk2, hbrk3, hmax, hmax64, hbok, hfirst, hcyc0,
    ⟨lo, hlo, htiles⟩, hcur⟩ := hinv
  generalize he : end_addr s.mem s.start = e at *
  have he0 := he
  unfold end_addr at he
  have hc' := hc
  obtain ⟨-, -, -, c4, c5, c6, -, -, -⟩ := hc
  have hcyc' := hcyc
  unfold Cyc at hcyc'
  simp only [Seg_cons, hdOr_cons, tlOr_cons] at hcyc'
  obtain ⟨hbx, hseg⟩ := hcyc'
  unfold BlkAt prev_seg_tail next_seg_tail seg_size prev_seg_head next_seg_head
    free_following at hbx
  obtain ⟨g1, g2, g3, g4, g5, g6⟩ := hbx
  obtain ⟨hp1, hp2, hp3⟩ := hall x (List.mem_cons_self _ _)
  obtain ⟨hb1, hb2, hb3, hb4⟩ := hp3
  have hru := round_up_16 x.sz (by omega)
  have hrn := round_up_16 nsz (by omega)
  have hmono := round_up_16_mono x.sz nsz (by omega) (by omega)
  have hffr : round_up x.ff ALIGNMENT = x.ff := round_up_16_of_dvd x.ff hb2
  have hxt : x.tl c = x.h + c.HS + round_up x.sz ALIGNMENT := rfl
  have hxn : x.nx c = x.tl c + c.TS + x.ff := rfl
  have hf0 : hdOr (A ++ x :: B) 0 = lo := by
    rw [hdOr_ne _ (by simp) 0 e]
    exact Tiles_hdOr c _ _ _ htiles
  rw [hf0] at hfirst
  unfold first_seg at hfirst
  have hd' : x.sz + (nsz - x.sz) = nsz := by clear * - h1; omega
  have hnx : (hdOr (B ++ A) x.h = x.h ∨ hdOr (B ++ A) x.h + c.HS ≤ x.h ∨
      x.nx c ≤ hdOr (B ++ A) x.h) ∧ s.start + c.LS ≤ hdOr (B ++ A) x.h := by
    rcases hdOr_cases (B ++ A) x.h with ⟨h1, h2⟩ | ⟨n, hn, h2⟩
    · rw [h2]; exact ⟨Or.inl rfl, hp1⟩
    · rw [h2]
      have hd := (List.pairwise_cons.mp hdisj).1 n hn
      obtain ⟨hn1, hn2, hn3⟩ := hall n (List.mem_cons_of_mem _ hn)
      have h3 := Blk.tl_ge c n
      have h4 := Blk.nx_ge c n
      unfold Disj at hd
      clear * - hd hn1 h3 h4
      refine ⟨?_, hn1⟩
      omega
  obtain ⟨a1, a2, a3, a4, a5⟩ : x.tl c + c.TS + x.ff < 18446744073709551616 ∧
      (hdOr (B ++ A) x.h = x.h ∨ hdOr (B ++ A) x.h + 8 ≤ x.h ∨
        x.tl c + c.TS + x.ff ≤ hdOr (B ++ A) x.h) ∧
      round_up x.sz ALIGNMENT ≤ round_up (x.sz + (nsz - x.sz)) ALIGNMENT ∧
      round_up (x.sz + (nsz - x.sz)) ALIGNMENT ≤
        round_up x.ff ALIGNMENT + round_up x.sz ALIGNMENT ∧
      x.sz + (nsz - x.sz) < 2147483648 := by
    rw [hd', hffr]
    clear * - hnx hxn hp2 hbrk1 hbrk3 hmax64 c5 hmono hfit h2
    refine ⟨?_, ?_, ?_, ?_, ?_⟩ <;> omega
  obtain ⟨M, hrun, hupd⟩ := expand_run c s x.h (x.tl c) (hdOr (B ++ A) x.h) x.sz x.ff
    (nsz - x.sz) g2 g3 g5 g6 c5 c6 hxt a3 a4 hffr a1 a5 a2
  rw [hd'] at hrun hupd
  have hw := hupd.1
  simp only [List.forall_mem_cons, List.not_mem_nil, false_implies, implies_true, and_true]
    at hw
  obtain ⟨w1, w2, w3, w4, w5, w6⟩ := hw
  have hfr : ∀ a, (a < x.h + 8 ∨ x.nx c ≤ a) →
      (a < hdOr (B ++ A) x.h ∨ hdOr (B ++ A) x.h + 8 ≤ a) → M a = s.mem a := by
    intro a ha1 ha2
    apply hupd.2
    simp only [List.forall_mem_cons, List.not_mem_nil, false_implies, implies_true, and_true]
    clear * - ha1 ha2 hxn hxt hmono c5 c6 hfit
    refine ⟨ha2, ?_, ?_, ?_, ?_, ?_⟩ <;> omega
  refine ⟨M, hrun, ?_, ?_, ?_⟩
  · have hE : rd64 M (s.start + 8) = e := by
      rw [← he]
      apply rd64_congr
      intro a ha1 ha2
      clear * - hfr ha1 ha2 hnx hp1 c4
      apply hfr <;> omega
    have hF : rd64 M s.start = lo := by
      rw [← hfirst]
      apply rd64_congr
      intro a ha1 ha2
      clear * - hfr ha1 ha2 hnx hp1 c4
      apply hfr <;> omega
    unfold Inv end_addr first_seg
    dsimp only
    rw [hE, hF]
    have hs16 := hinv0.2.2.1
    have hpg := hinv0.2.2.2.2.1
    rw [he0] at hpg
    refine ⟨hc', hs0, hs16, hle, hpg, hbrk1, hbrk2, hbrk3, hmax, hmax64, ?_, ?_, ?_,
      ⟨lo, hlo, ?_⟩, ?_⟩
    · intro b hb
      simp only [List.mem_append, List.mem_cons] at hb
      rcases hb with h | h | h
      · exact hbok b (by simp [h])
      · rw [h]
        refine ⟨hb1, ?_, lt_trans hb3 h1, h2⟩
        show (x.ff - (round_up nsz ALIGNMENT - round_up x.sz ALIGNMENT)) % 16 = 0
        clear * - hb2 hru hrn hmono hfit
        omega
      · exact hbok b (by simp [h])
    · simp only [hdOr_append, hdOr_cons] at hf0 ⊢
      exact hf0.symm
    · apply (Cyc_rotate c M A _).mpr
      simp only [List.cons_append]
      refine move_tail_cyc c hc' s.mem M x (B ++ A) nsz _ hcyc hdisj ?_ w1 w3 w2 w6 w5 ?_ ?_
      · clear * - hxn hxt hmono hfit
        omega
      · rw [w4]
        clear * - hxt hmono hfit
        omega
      · intro a ha1 ha2
        clear * - hfr ha1 ha2
        apply hfr <;> omega
    · rw [Tiles_append] at htiles ⊢
      obtain ⟨mid, ht1, ht2⟩ := htiles
      refine ⟨mid, ht1, ?_⟩
      simp only [Tiles_cons] at ht2 ⊢
      refine ⟨ht2.1, ?_⟩
      have hx : Blk.nx c (Blk.mk x.h nsz
          (x.ff - (round_up nsz ALIGNMENT - round_up x.sz ALIGNMENT))) = x.nx c := by
        show x.h + c.HS + round_up nsz ALIGNMENT + c.TS +
          (x.ff - (round_up nsz ALIGNMENT - round_up x.sz ALIGNMENT)) = x.nx c
        clear * - hxn hxt hmono hfit
        omega
      rw [hx]; exact ht2.2
    · by_cases hla : x.tl c = s.last_addr
      · rw [if_pos hla]
        exact Or.inr ⟨Blk.mk x.h nsz
          (x.ff - (round_up nsz ALIGNMENT - round_up x.sz ALIGNMENT)), by simp, rfl⟩
      · rw [if_neg hla]
        rcases hcur with h | ⟨b, hb, h⟩
        · exact Or.inl h
        · right
          simp only [List.mem_append, List.mem_cons] at hb
          rcases hb with hb | hb | hb
          · exact ⟨b, by simp [hb], h⟩
          · rw [hb] at h
            exact absurd h.symm hla
          · exact ⟨b, by simp [hb], h⟩
  · intro b hb a ha1 ha2
    have hb' : b ∈ B ++ A := by
      simp only [List.mem_append] at hb ⊢
      exact hb.symm
    have hd := (List.pairwise_cons.mp hdisj).1 b hb'
    have hnd : a < hdOr (B ++ A) x.h ∨ hdOr (B ++ A) x.h + c.HS ≤ a := by
      rcases hdOr_cases (B ++ A) x.h with ⟨h1, h2⟩ | ⟨n, hn, h2⟩
      · rw [h1] at hb'; cases hb'
      · rw [h2]
        exact (pay_disj c _ hdisj b n (List.mem_cons_of_mem _ hb')
          (List.mem_cons_of_mem _ hn) a ha1 ha2).1
    have h3 := Blk.nx_ge c b
    unfold Disj at hd
    unfold Blk.user at ha1
    apply hfr
    · clear * - hd ha1 ha2 h3; omega
    · clear * - hnd c5; omega
  · intro a ha1 ha2
    unfold Blk.user at ha1
    apply hupd.2
    simp only [List.forall_mem_cons, List.not_mem_nil, false_implies, implies_true, and_true]
    clear * - ha1 ha2 hnx hxn hxt hmono c5 c6
    refine ⟨?_, ?_, ?_, ?_, ?_, ?_⟩ <;> omega

/-! ## The placement policies -/

/-- The invariant provides what the policy loops read. -/
theorem Inv_chain (c : Sizes) (s : Heap) (r : List Blk) :
    ∀ (A : List Blk) (b : Blk), Inv c s (A ++ b :: r) → Chain c s.mem b r := by
  induction r with
  | nil =>
    intro A b hinv
    obtain ⟨hcyc, hdisj, hall⟩ := Inv_split c s A [] b hinv
    simp only [List.nil_append] at hcyc hdisj hall
    have hnp := Cyc_next_prev c s.mem b A hcyc
    obtain ⟨hc, hs0, -, hle, -, hbrk1, hbrk2, hbrk3, hmax, hmax64, hbok, hfirst, hcyc0,
      ⟨lo, hlo, htiles⟩, hcur⟩ := hinv
    unfold Cyc at hcyc
    cases A with
    | nil =>
      simp only [Seg_cons, Seg_nil, hdOr_nil, hdOr_cons, tlOr_cons, tlOr_nil, and_true]
        at hcyc
      obtain ⟨g1, g2, g3, g4, g5, g6⟩ := hcyc
      refine ⟨g6, ?_⟩
      rw [g5, g2, g4, g1]
      exact Nat.lt_irrefl _
    | cons a A' =>
      simp only [Seg_cons, hdOr_cons, tlOr_cons] at hcyc hnp
      obtain ⟨⟨g1, g2, g3, g4, g5, g6⟩, ⟨k1, k2, k3, k4, k5, k6⟩, -⟩ := hcyc
      refine ⟨g6, ?_⟩
      rw [g5, k2, k4, k1]
      have h1 := (Tiles_pairwise c _ _ _ htiles)
      simp only [List.cons_append, List.pairwise_cons] at h1
      have h2 := h1.1 b (by simp)
      have h3 := Blk.tl_ge c b
      have h4 := Blk.nx_ge c a
      have h5 := Blk.tl_ge c a
      have c6 := hc.2.2.2.2.2.1
      clear * - h2 h3 h4 h5 c6
      omega
  | cons n r ih =>
    intro A b hinv
    obtain ⟨hcyc, hdisj, hall⟩ := Inv_split c s A (n :: r) b hinv
    have hrec := ih (A ++ [b]) n (by simpa using hinv)
    obtain ⟨hc, hs0, -, hle, -, hbrk1, hbrk2, hbrk3, hmax, hmax64, hbok, hfirst, hcyc0,
      ⟨lo, hlo, htiles⟩, hcur⟩ := hinv
    unfold Cyc at hcyc
    simp only [List.cons_append, Seg_cons, hdOr_cons, tlOr_cons] at hcyc
    obtain ⟨⟨g1, g2, g3, g4, g5, g6⟩, ⟨k1, k2, k3, k4, k5, k6⟩, -⟩ := hcyc
    refine ⟨g6, ?_, ?_, hrec⟩
    · rw [g5, k2]
    · rw [k4, k1]
      rw [Tiles_append] at htiles
      obtain ⟨mid, -, ht⟩ := htiles
      simp only [Tiles_cons] at ht
      have h3 := Blk.tl_ge c n
      have h4 := Blk.nx_ge c b
      have h5 := ht.2.1
      have c6 := hc.2.2.2.2.2.1
      clear * - h3 h4 h5 c6
      omega

/-- The loop shared by `first_fit` and `next_fit` returns the first sufficient gap
behind the blocks it walks over. -/
theorem scan_loop_spec (c : Sizes) (m : Mem) (total : Nat) (r : List Blk) :
    ∀ (b : Blk) (fuel : Nat), Chain c m b r →
      scan_loop m c total fuel (b.tl c) =
          .ok (((b :: r).find? (fun g => decide (total ≤ g.ff))).map
            (fun g => g.tl c + c.TS)) ∨
        (scan_loop m c total fuel (b.tl c) = .error Stop.fuel ∧ fuel ≤ r.length) := by
  induction r with
  | nil =>
    intro b fuel hch
    obtain ⟨h1, h2⟩ := hch
    cases fuel with
    | zero => right; exact ⟨rfl, le_refl _⟩
    | succ f =>
      left
      unfold scan_loop
      rw [h1]
      by_cases hfit : total ≤ b.ff
      · rw [if_pos hfit, List.find?_cons_of_pos _ (by simpa using hfit)]; rfl
      · rw [if_neg hfit, List.find?_cons_of_neg _ (by simpa using hfit)]
        simp only [h2, if_false]
        rfl
  | cons n r ih =>
    intro b fuel hch
    obtain ⟨h1, h2, h3, h4⟩ := hch
    cases fuel with
    | zero => right; exact ⟨rfl, Nat.zero_le _⟩
    | succ f =>
      unfold scan_loop
      rw [h1]
      by_cases hfit : total ≤ b.ff
      · left
        rw [if_pos hfit, List.find?_cons_of_pos _ (by simpa using hfit)]; rfl
      · rw [if_neg hfit, List.find?_cons_of_neg _ (by simpa using hfit)]
        simp only [h2, h3, if_true]
        rcases ih n f h4 with h | ⟨h, hf⟩
        · exact Or.inl h
        · exact Or.inr ⟨h, Nat.succ_le_succ hf⟩

theorem best_fit_loop_succ (m : Mem) (c : Sizes) (total f it ba bs : Nat) :
    best_fit_loop m c total (f + 1) it ba bs =
      (if prev_seg_tail m (prev_seg_head m (next_seg_tail m (next_seg_head m it))) <
          next_seg_tail m (next_seg_head m it) then
        best_fit_loop m c total f (next_seg_tail m (next_seg_head m it))
          (bestStep total (ba, bs) (it + c.TS, free_following m it)).1
          (bestStep total (ba, bs) (it + c.TS, free_following m it)).2
      else .ok (bestStep total (ba, bs) (it + c.TS, free_following m it)).1) := by
  have h : best_fit_loop m c total (f + 1) it ba bs =
      (if prev_seg_tail m (prev_seg_head m (next_seg_tail m (next_seg_head m it))) <
          next_seg_tail m (next_seg_head m it) then
        best_fit_loop m c total f (next_seg_tail m (next_seg_head m it))
          (if (decide (free_following m it ≥ total ∧
            (ba = 0 ∨ free_following m it < bs))) = true then it + c.TS else ba)
          (if (decide (free_following m it ≥ total ∧
            (ba = 0 ∨ free_following m it < bs))) = true then free_following m it else bs)
      else .ok (if (decide (free_following m it ≥ total ∧
            (ba = 0 ∨ free_following m it < bs))) = true then it + c.TS else ba)) := rfl
  rw [h]
  unfold bestStep
  by_cases hu : total ≤ free_following m it ∧ (ba = 0 ∨ free_following m it < bs)
  · rw [if_pos hu]
    simp only [ge_iff_le, hu, and_self, decide_True, if_true]
  · rw [if_neg hu]
    simp only [ge_iff_le, hu, decide_False, if_false]
    rfl

theorem worst_fit_loop_succ (m : Mem) (c : Sizes) (total f it ba bs : Nat) :
    worst_fit_loop m c total (f + 1) it ba bs =
      (if prev_seg_tail m (prev_seg_head m (next_seg_tail m (next_seg_head m it))) <
          next_seg_tail m (next_seg_head m it) then
        worst_fit_loop m c total f (next_seg_tail m (next_seg_head m it))
          (worstStep total (ba, bs) (it + c.TS, free_following m it)).1
          (worstStep total (ba, bs) (it + c.TS, free_following m it)).2
      else .ok (worstStep total (ba, bs) (it + c.TS, free_following m it)).1) := by
  have h : worst_fit_loop m c total (f + 1) it ba bs =
      (if prev_seg_tail m (prev_seg_head m (next_seg_tail m (next_seg_head m it))) <
          next_seg_tail m (next_seg_head m it) then
        worst_fit_loop m c total f (next_seg_tail m (next_seg_head m it))
          (if (decide (free_following m it ≥ total ∧
            (ba = 0 ∨ free_following m it > bs))) = true then it + c.TS else ba)
          (if (decide (free_following m it ≥ total ∧
            (ba = 0 ∨ free_following m it > bs))) = true then free_following m it else bs)
      else .ok (if (decide (free_following m it ≥ total ∧
            (ba = 0 ∨ free_following m it > bs))) = true then it + c.TS else ba)) := rfl
  rw [h]
  unfold worstStep
  by_cases hu : total ≤ free_following m it ∧ (ba = 0 ∨ free_following m it > bs)
  · rw [if_pos hu]
    simp only [ge_iff_le, hu, and_self, decide_True, if_true]
  · rw [if_neg hu]
    simp only [ge_iff_le, hu, decide_False, if_false]
    rfl

/-- The loop of `best_fit` folds `bestStep` over the gaps behind the blocks it walks over. -/
theorem best_fit_loop_spec (c : Sizes) (m : Mem) (total : Nat) (r : List Blk) :
    ∀ (b : Blk) (fuel : Nat) (acc : Nat × Nat), Chain c m b r →
      best_fit_loop m c total fuel (b.tl c) acc.1 acc.2 =
          .ok ((b :: r).foldl (fun a g => bestStep total a (g.gap c)) acc).1 ∨
        (best_fit_loop m c total fuel (b.tl c) acc.1 acc.2 = .error Stop.fuel ∧
          fuel ≤ r.length) := by
  induction r with
  | nil =>
    intro b fuel acc hch
    obtain ⟨h1, h2⟩ := hch
    cases fuel with
    | zero => right; exact ⟨rfl, le_refl _⟩
    | succ f =>
      left
      rw [best_fit_loop_succ, if_neg h2, h1]
      rfl
  | cons n r ih =>
    intro b fuel acc hch
    obtain ⟨h1, h2, h3, h4⟩ := hch
    cases fuel with
    | zero => right; exact ⟨rfl, Nat.zero_le _⟩
    | succ f =>
      rw [best_fit_loop_succ, h2, if_pos h3, h1, List.foldl_cons]
      rcases ih n f (bestStep total acc (b.gap c)) h4 with h | ⟨h, hf⟩
      · exact Or.inl h
      · exact Or.inr ⟨h, Nat.succ_le_succ hf⟩

/-- The loop of `worst_fit` folds `worstStep` over the gaps behind the blocks it walks over. -/
theorem worst_fit_loop_spec (c : Sizes) (m : Mem) (total : Nat) (r : List Blk) :
    ∀ (b : Blk) (fuel : Nat) (acc : Nat × Nat), Chain c m b r →
      worst_fit_loop m c total fuel (b.tl c) acc.1 acc.2 =
          .ok ((b :: r).foldl (fun a g => worstStep total a (g.gap c)) acc).1 ∨
        (worst_fit_loop m c total fuel (b.tl c) acc.1 acc.2 = .error Stop.fuel ∧
          fuel ≤ r.length) := by
  induction r with
  | nil =>
    intro b fuel acc hch
    obtain ⟨h1, h2⟩ := hch
    cases fuel with
    | zero => right; exact ⟨rfl, le_refl _⟩
    | succ f =>
      left
      rw [worst_fit_loop_succ, if_neg h2, h1]
      rfl
  | cons n r ih =>
    intro b fuel acc hch
    obtain ⟨h1, h2, h3, h4⟩ := hch
    cases fuel with
    | zero => right; exact ⟨rfl, Nat.zero_le _⟩
    | succ f =>
      rw [worst_fit_loop_succ, h2, if_pos h3, h1, List.foldl_cons]
      rcases ih n f (worstStep total acc (b.gap c)) h4 with h | ⟨h, hf⟩
      · exact Or.inl h
      · exact Or.inr ⟨h, Nat.succ_le_succ hf⟩

/-- The second loop of `next_fit` returns the first sufficient gap behind the blocks
`A` in front of the cursor block `C`, and `0` when it reaches the cursor. -/
theorem next_fit_wrap_spec (c : Sizes) (m : Mem) (total : Nat) (C : Blk) (B : List Blk)
    (A : List Blk) :
    ∀ (it fuel : Nat), (A = [] → it = C.tl c) →
      (∀ a A', A = a :: A' → it = a.tl c ∧ Chain c m a (A' ++ C :: B)) →
      (∀ x ∈ A, x.tl c < C.tl c) →
      next_fit_wrap m c total (C.tl c) fuel it =
          .ok (firstOf total (A.map (Blk.gap c))) ∨
        (next_fit_wrap m c total (C.tl c) fuel it = .error Stop.fuel ∧ fuel ≤ A.length) := by
  induction A with
  | nil =>
    intro it fuel h1 h2 h3
    rw [h1 rfl]
    cases fuel with
    | zero => right; exact ⟨rfl, le_refl _⟩
    | succ f =>
      left
      unfold next_fit_wrap
      rw [if_neg (Nat.lt_irrefl _)]
      rfl
  | cons a A' ih =>
    intro it fuel h1 h2 h3
    obtain ⟨hit, hch⟩ := h2 a A' rfl
    rw [hit]
    cases fuel with
    | zero => right; exact ⟨rfl, Nat.zero_le _⟩
    | succ f =>
      unfold next_fit_wrap
      rw [if_pos (h3 a (List.mem_cons_self _ _))]
      have hff : free_following m (a.tl c) = a.ff := by
        cases A' <;> exact hch.1
      rw [hff]
      by_cases hfit : total ≤ a.ff
      · left
        rw [if_pos hfit]
        unfold firstOf
        rw [List.map_cons, List.find?_cons_of_pos _ (by simpa [Blk.gap] using hfit)]
        rfl
      · rw [if_neg hfit]
        have hfo : firstOf total ((a :: A').map (Blk.gap c)) =
            firstOf total (A'.map (Blk.gap c)) := by
          unfold firstOf
          rw [List.map_cons, List.find?_cons_of_neg _ (by simpa [Blk.gap] using hfit)]
        rw [hfo]
        have hnext : (A' = [] → next_seg_tail m (next_seg_head m (a.tl c)) = C.tl c) ∧
            (∀ a2 A2, A' = a2 :: A2 → next_seg_tail m (next_seg_head m (a.tl c)) = a2.tl c ∧
              Chain c m a2 (A2 ++ C :: B)) := by
          constructor
          · intro hA
            subst hA
            exact hch.2.1
          · intro a2 A2 hA
            subst hA
            exact ⟨hch.2.1, hch.2.2.2⟩
        rcases ih _ f hnext.1 hnext.2 (fun x hx => h3 x (List.mem_cons_of_mem _ hx)) with
          h | ⟨h, hf⟩
        · exact Or.inl h
        · exact Or.inr ⟨h, Nat.succ_le_succ hf⟩

theorem total_size_eq (c : Sizes) (size : Nat) (h : footprint c size < 2147483648) :
    total_size c size = footprint c size := by
  unfold total_size footprint at *
  exact Nat.mod_eq_of_lt (by omega)

/-- Basic bounds that the invariant gives for the policies. -/
theorem Inv_bounds (c : Sizes) (s : Heap) (bs : List Blk) (hinv : Inv c s bs) :
    s.start ≠ 0 ∧ s.start + c.LS ≤ hdOr bs (end_addr s.mem s.start) ∧
      hdOr bs (end_addr s.mem s.start) ≤ end_addr s.mem s.start ∧
      end_addr s.mem s.start - s.start < 2147483648 ∧
      end_addr s.mem s.start < 18446744073709551616 ∧ 16 ≤ c.LS := by
  obtain ⟨hc, hs0, -, hle, -, hbrk1, hbrk2, hbrk3, hmax, hmax64, hbok, hfirst, hcyc0,
    ⟨lo, hlo, htiles⟩, hcur⟩ := hinv
  have h1 := Tiles_hdOr c _ _ _ htiles
  have h2 := Tiles_le c _ _ _ htiles
  have c4 := hc.2.2.2.1
  rw [h1]
  refine ⟨hs0, hlo, h2, ?_, ?_, c4⟩ <;> omega

theorem first_fit_spec (c : Sizes) (s : Heap) (bs : List Blk) (size fuel : Nat)
    (hinv : Inv c s bs) (hfp : footprint c size < 2147483648) :
    first_fit c fuel s.mem s.start size =
        .ok (firstOf (footprint c size) (gapsOf c s.start (end_addr s.mem s.start) bs)) ∨
      (first_fit c fuel s.mem s.start size = .error Stop.fuel ∧ fuel ≤ bs.length) := by
  obtain ⟨b1, b2, b3, b4, b5, b6⟩ := Inv_bounds c s bs hinv
  have hfirst : first_seg s.mem s.start = hdOr bs 0 := hinv.2.2.2.2.2.2.2.2.2.2.2.1
  generalize he : end_addr s.mem s.start = e at *
  have he0 : (e = 0) = False := eq_false (by omega)
  unfold first_fit
  rw [total_size_eq c size hfp]
  simp only [he, he0, if_false, hfirst]
  cases bs with
  | nil =>
    left
    rw [hdOr_nil] at b2 b3 ⊢
    simp only [if_true]
    rw [toInt32_sub _ _ (by omega) (by omega), toInt32_nat _ hfp]
    unfold gapsOf firstOf
    simp only [List.map_nil, hdOr_nil]
    by_cases hfit : footprint c size ≤ e - (s.start + c.LS)
    · rw [if_pos (by omega), List.find?_cons_of_pos _ (by simpa using hfit)]
    · rw [if_neg (by omega), List.find?_cons_of_neg _ (by simpa using hfit)]
      rfl
  | cons b r =>
    have hch := Inv_chain c s r [] b hinv
    have hnt : next_seg_tail s.mem b.h = b.tl c := by
      have hcyc : Cyc c s.mem (b :: r) := hinv.2.2.2.2.2.2.2.2.2.2.2.2.1
      unfold Cyc at hcyc
      rw [Seg_cons] at hcyc
      exact hcyc.1.2.1
    rw [hdOr_cons] at b2 b3 ⊢
    have hb0 : (b.h = 0) = False := eq_false (by omega)
    simp only [hb0, if_false, hnt]
    rw [toInt32_sub _ _ (by omega) (by omega), toInt32_nat _ hfp]
    unfold gapsOf firstOf
    rw [hdOr_cons]
    by_cases hfit : footprint c size ≤ b.h - (s.start + c.LS)
    · left
      rw [if_pos (by omega), List.find?_cons_of_pos _ (by simpa using hfit)]
    · rw [if_neg (by omega), List.find?_cons_of_neg _ (by simpa using hfit), List.find?_map]
      rcases scan_loop_spec c s.mem (footprint c size) r b fuel hch with h | ⟨h, hf⟩
      · left
        rw [h]
        cases hfd : List.find? (fun g => decide (footprint c size ≤ g.ff)) (b :: r) with
        | none =>
          have : List.find? ((fun g => decide (footprint c size ≤ g.2)) ∘ Blk.gap c) (b :: r) =
              none := hfd
          rw [this]; rfl
        | some g =>
          have : List.find? ((fun g => decide (footprint c size ≤ g.2)) ∘ Blk.gap c) (b :: r) =
              some g := hfd
          rw [this]; rfl
      · right
        rw [h]
        exact ⟨rfl, Nat.le_succ_of_le hf⟩

theorem best_fit_spec (c : Sizes) (s : Heap) (bs : List Blk) (size fuel : Nat)
    (hinv : Inv c s bs) (hfp : footprint c size < 2147483648) :
    best_fit c fuel s.mem s.start size =
        .ok ((gapsOf c s.start (end_addr s.mem s.start) bs).foldl
          (bestStep (footprint c size)) (0, 0)).1 ∨
      (best_fit c fuel s.mem s.start size = .error Stop.fuel ∧ fuel ≤ bs.length) := by
  obtain ⟨b1, b2, b3, b4, b5, b6⟩ := Inv_bounds c s bs hinv
  have hfirst : first_seg s.mem s.start = hdOr bs 0 := hinv.2.2.2.2.2.2.2.2.2.2.2.1
  generalize he : end_addr s.mem s.start = e at *
  have he0 : (e = 0) = False := eq_false (by omega)
  unfold best_fit
  rw [total_size_eq c size hfp]
  simp only [he, he0, if_false, hfirst]
  cases bs with
  | nil =>
    left
    rw [hdOr_nil] at b2 b3 ⊢
    simp only [if_true]
    rw [toInt32_sub _ _ (by omega) (by omega), toInt32_nat _ hfp]
    unfold gapsOf bestStep
    simp only [List.map_nil, hdOr_nil, List.foldl_cons, List.foldl_nil, true_or, and_true]
    by_cases hfit : footprint c size ≤ e - (s.start + c.LS)
    · rw [if_pos (by omega), if_pos hfit]
    · rw [if_neg (by omega), if_neg hfit]
  | cons b r =>
    have hch := Inv_chain c s r [] b hinv
    have hnt : next_seg_tail s.mem b.h = b.tl c := by
      have hcyc : Cyc c s.mem (b :: r) := hinv.2.2.2.2.2.2.2.2.2.2.2.2.1
      unfold Cyc at hcyc
      rw [Seg_cons] at hcyc
      exact hcyc.1.2.1
    rw [hdOr_cons] at b2 b3 ⊢
    have hb0 : (b.h = 0) = False := eq_false (by omega)
    simp only [hb0, if_false, hnt]
    rw [toInt32_sub _ _ (by omega) (by omega), toInt32_nat _ hfp, toSize_nat _ (by omega)]
    unfold gapsOf
    rw [hdOr_cons, List.foldl_cons, List.foldl_map]
    have hacc : bestStep (footprint c size) (0, 0) (s.start + c.LS, b.h - (s.start + c.LS)) =
        (if (decide (((b.h - (s.start + c.LS) : Nat) : Int) ≥ ((footprint c size : Nat) : Int)))
            = true then s.start + c.LS else 0,
         if (decide (((b.h - (s.start + c.LS) : Nat) : Int) ≥ ((footprint c size : Nat) : Int)))
            = true then b.h - (s.start + c.LS) else 0) := by
      unfold bestStep
      by_cases hfit : footprint c size ≤ b.h - (s.start + c.LS)
      · have h2 : ((b.h - (s.start + c.LS) : Nat) : Int) ≥ ((footprint c size : Nat) : Int) := by
          omega
        simp only [hfit, h2, true_or, and_true, if_true, decide_True]
      · have h2 : ¬ ((b.h - (s.start + c.LS) : Nat) : Int) ≥ ((footprint c size : Nat) : Int) := by
          omega
        simp only [hfit, h2, false_and, if_false, decide_False]
        rfl
    have key := best_fit_loop_spec c s.mem (footprint c size) r b fuel
      (bestStep (footprint c size) (0, 0) (s.start + c.LS, b.h - (s.start + c.LS))) hch
    rw [hacc] at key ⊢
    rcases key with h | ⟨h, hf⟩
    · exact Or.inl h
    · exact Or.inr ⟨h, Nat.le_succ_of_le hf⟩

theorem worst_fit_spec (c : Sizes) (s : Heap) (bs : List Blk) (size fuel : Nat)
    (hinv : Inv c s bs) (hfp : footprint c size < 2147483648) :
    worst_fit c fuel s.mem s.start size =
        .ok ((gapsOf c s.start (end_addr s.mem s.start) bs).foldl
          (worstStep (footprint c size)) (0, 0)).1 ∨
      (worst_fit c fuel s.mem s.start size = .error Stop.fuel ∧ fuel ≤ bs.length) := by
  obtain ⟨b1, b2, b3, b4, b5, b6⟩ := Inv_bounds c s bs hinv
  have hfirst : first_seg s.mem s.start = hdOr bs 0 := hinv.2.2.2.2.2.2.2.2.2.2.2.1
  generalize he : end_addr s.mem s.start = e at *
  have he0 : (e = 0) = False := eq_false (by omega)
  unfold worst_fit
  rw [total_size_eq c size hfp]
  simp only [he, he0, if_false, hfirst]
  cases bs with
  | nil =>
    left
    rw [hdOr_nil] at b2 b3 ⊢
    simp only [if_true]
    rw [toInt32_sub _ _ (by omega) (by omega), toInt32_nat _ hfp]
    unfold gapsOf worstStep
    simp only [List.map_nil, hdOr_nil, List.foldl_cons, List.foldl_nil, true_or, and_true]
    by_cases hfit : footprint c size ≤ e - (s.start + c.LS)
    · rw [if_pos (by omega), if_pos hfit]
    · rw [if_neg (by omega), if_neg hfit]
  | cons b r =>
    have hch := Inv_chain c s r [] b hinv
    have hnt : next_seg_tail s.mem b.h = b.tl c := by
      have hcyc : Cyc c s.mem (b :: r) := hinv.2.2.2.2.2.2.2.2.2.2.2.2.1
      unfold Cyc at hcyc
      rw [Seg_cons] at hcyc
      exact hcyc.1.2.1
    rw [hdOr_cons] at b2 b3 ⊢
    have hb0 : (b.h = 0) = False := eq_false (by omega)
    simp only [hb0, if_false, hnt]
    rw [toInt32_sub _ _ (by omega) (by omega), toInt32_nat _ hfp, toSize_nat _ (by omega)]
    unfold gapsOf
    rw [hdOr_cons, List.foldl_cons, List.foldl_map]
    have hacc : worstStep (footprint c size) (0, 0) (s.start + c.LS, b.h - (s.start + c.LS)) =
        (if (decide (((b.h - (s.start + c.LS) : Nat) : Int) ≥ ((footprint c size : Nat) : Int)))
            = true then s.start + c.LS else 0,
         if (decide (((b.h - (s.start + c.LS) : Nat) : Int) ≥ ((footprint c size : Nat) : Int)))
            = true then b.h - (s.start + c.LS) else 0) := by
      unfold worstStep
      by_cases hfit : footprint c size ≤ b.h - (s.start + c.LS)
      · have h2 : ((b.h - (s.start + c.LS) : Nat) : Int) ≥ ((footprint c size : Nat) : Int) := by
          omega
        simp only [hfit, h2, true_or, and_true, if_true, decide_True]
      · have h2 : ¬ ((b.h - (s.start + c.LS) : Nat) : Int) ≥ ((footprint c size : Nat) : Int) := by
          omega
        simp only [hfit, h2, false_and, if_false, decide_False]
        rfl
    have key := worst_fit_loop_spec c s.mem (footprint c size) r b fuel
      (worstStep (footprint c size) (0, 0) (s.start + c.LS, b.h - (s.start + c.LS))) hch
    rw [hacc] at key ⊢
    rcases key with h | ⟨h, hf⟩
    · exact Or.inl h
    · exact Or.inr ⟨h, Nat.le_succ_of_le hf⟩

theorem next_fit_none (c : Sizes) (fuel : Nat) (m : Mem) (list size : Nat) :
    next_fit c fuel m 0 list size = first_fit c fuel m list size := by
  unfold next_fit first_fit
  by_cases h : end_addr m list = 0
  · simp only [h, if_true]
  · simp only [h, if_false, if_true]

theorem next_fit_spec (c : Sizes) (s : Heap) (A B : List Blk) (C : Blk) (size fuel : Nat)
    (hinv : Inv c s (A ++ C :: B)) (hcur : s.last_addr = C.tl c)
    (hfp : footprint c size < 2147483648) :
    next_fit c fuel s.mem s.last_addr s.start size =
        .ok (firstOf (footprint c size) ((C :: B).map (Blk.gap c) ++
          (s.start + c.LS, hdOr (A ++ C :: B) (end_addr s.mem s.start) - (s.start + c.LS)) ::
            A.map (Blk.gap c))) ∨
      (next_fit c fuel s.mem s.last_addr s.start size = .error Stop.fuel ∧
        fuel ≤ (A ++ C :: B).length) := by
  obtain ⟨b1, b2, b3, b4, b5, b6⟩ := Inv_bounds c s _ hinv
  have hfirst : first_seg s.mem s.start = hdOr (A ++ C :: B) 0 :=
    hinv.2.2.2.2.2.2.2.2.2.2.2.1
  have hch := Inv_chain c s B A C hinv
  obtain ⟨hcyc, hdisj, hall⟩ := Inv_split c s A B C hinv
  obtain ⟨hC1, hC2, hC3⟩ := hall C (List.mem_cons_self _ _)
  have htl := Blk.tl_ge c C
  have hnx := Blk.nx_ge c C
  have hc := hinv.1
  have c5 := hc.2.2.2.2.1
  have c6 := hc.2.2.2.2.2.1
  generalize he : end_addr s.mem s.start = e at *
  have he0 : (e = 0) = False := eq_false (by omega)
  have hl0 : (C.tl c = 0) = False := eq_false (by omega)
  unfold next_fit
  rw [total_size_eq c size hfp, hcur]
  simp (disch := omega) only [he, he0, hl0, if_false, ASSERT_bind]
  have hlo : hdOr (A ++ C :: B) 0 = hdOr (A ++ C :: B) e := hdOr_ne _ (by simp) 0 e
  rw [hfirst, hlo]
  rcases scan_loop_spec c s.mem (footprint c size) B C fuel hch with h | ⟨h, hf⟩
  · rw [h, ok_bind]
    unfold firstOf
    rw [List.find?_append, List.find?_map]
    cases hfd : List.find? (fun g => decide (footprint c size ≤ g.ff)) (C :: B) with
    | some g =>
      left
      have h2 : List.find? ((fun g => decide (footprint c size ≤ g.2)) ∘ Blk.gap c) (C :: B) =
          some g := hfd
      rw [h2]
      rfl
    | none =>
      have h2 : List.find? ((fun g => decide (footprint c size ≤ g.2)) ∘ Blk.gap c) (C :: B) =
          none := hfd
      rw [h2]
      simp only [Option.map_none', Option.none_or]
      rw [toInt32_sub _ _ (by omega) (by omega), toInt32_nat _ hfp]
      by_cases hfit : footprint c size ≤ hdOr (A ++ C :: B) e - (s.start + c.LS)
      · left
        rw [if_pos (by omega), List.find?_cons_of_pos _ (by simpa using hfit)]
        rfl
      · rw [if_neg (by omega), List.find?_cons_of_neg _ (by simpa using hfit)]
        have hinv' := hinv
        obtain ⟨-, -, -, -, -, -, -, -, -, -, -, -, hcyc0, ⟨lo, -, htiles⟩, -⟩ := hinv'
        rw [he] at htiles
        have hpw := Tiles_pairwise c _ _ _ htiles
        have hlt : ∀ x ∈ A, x.tl c < C.tl c := by
          intro x hx
          have h1 := (List.pairwise_append.mp hpw).2.2 x hx C (List.mem_cons_self _ _)
          have h2 := Blk.nx_ge c x
          clear * - h1 h2 htl c5 c6
          omega
        have hit : (A = [] → next_seg_tail s.mem (hdOr (A ++ C :: B) e) = C.tl c) ∧
            (∀ a A', A = a :: A' → next_seg_tail s.mem (hdOr (A ++ C :: B) e) = a.tl c ∧
              Chain c s.mem a (A' ++ C :: B)) := by
          constructor
          · intro hA
            subst hA
            have hcy : Cyc c s.mem (C :: B) := hcyc0
            unfold Cyc at hcy
            rw [Seg_cons] at hcy
            exact hcy.1.2.1
          · intro a A' hA
            subst hA
            have hcy : Cyc c s.mem (a :: (A' ++ C :: B)) := hcyc0
            unfold Cyc at hcy
            rw [Seg_cons] at hcy
            exact ⟨hcy.1.2.1, Inv_chain c s (A' ++ C :: B) [] a hinv⟩
        rcases next_fit_wrap_spec c s.mem (footprint c size) C B A _ fuel hit.1 hit.2 hlt with
          hw | ⟨hw, hwf⟩
        · left
          rw [hw]
          rfl
        · right
          rw [hw]
          refine ⟨rfl, ?_⟩
          simp only [List.length_append, List.length_cons]
          omega
  · right
    rw [h]
    refine ⟨rfl, ?_⟩
    simp only [List.length_append, List.length_cons]
    omega

/-! ### What the search functions compute -/

theorem firstOf_spec (total : Nat) (gs : List (Nat × Nat)) :
    ((∀ g ∈ gs, g.2 < total) ∧ firstOf total gs = 0) ∨
      ∃ pre g post, gs = pre ++ g :: post ∧ firstOf total gs = g.1 ∧ total ≤ g.2 ∧
        ∀ g' ∈ pre, g'.2 < total := by
  unfold firstOf
  cases h : List.find? (fun g => decide (total ≤ g.2)) gs with
  | none =>
    left
    rw [List.find?_eq_none] at h
    refine ⟨?_, rfl⟩
    intro g hg
    have := h g hg
    simpa using this
  | some g =>
    right
    rw [List.find?_eq_some] at h
    obtain ⟨h1, pre, post, h2, h3⟩ := h
    refine ⟨pre, g, post, h2, rfl, by simpa using h1, ?_⟩
    intro g' hg'
    have := h3 g' hg'
    simpa using this

/-- State of the search for a smallest sufficient gap after the gaps `P`. -/
theorem bestStep_inv (total : Nat) (L : List (Nat × Nat)) :
    ∀ (P : List (Nat × Nat)) (acc : Nat × Nat), (∀ g ∈ L, g.1 ≠ 0) →
      ((acc.1 = 0 ∧ ∀ g ∈ P, g.2 < total) ∨
        (acc.1 ≠ 0 ∧ ∃ pre post, P = pre ++ acc :: post ∧ total ≤ acc.2 ∧
          (∀ g' ∈ pre, total ≤ g'.2 → acc.2 < g'.2) ∧
          (∀ g' ∈ post, total ≤ g'.2 → acc.2 ≤ g'.2))) →
      (((L.foldl (bestStep total) acc).1 = 0 ∧ ∀ g ∈ P ++ L, g.2 < total) ∨
        ((L.foldl (bestStep total) acc).1 ≠ 0 ∧ ∃ pre post,
          P ++ L = pre ++ (L.foldl (bestStep total) acc) :: post ∧
          total ≤ (L.foldl (bestStep total) acc).2 ∧
          (∀ g' ∈ pre, total ≤ g'.2 → (L.foldl (bestStep total) acc).2 < g'.2) ∧
          (∀ g' ∈ post, total ≤ g'.2 → (L.foldl (bestStep total) acc).2 ≤ g'.2))) := by
  induction L with
  | nil =>
    intro P acc _ h
    simpa using h
  | cons g L ih =>
    intro P acc hnz h
    rw [List.foldl_cons]
    have hP : P ++ g :: L = (P ++ [g]) ++ L := by simp
    rw [hP]
    apply ih (P ++ [g]) _ (fun x hx => hnz x (List.mem_cons_of_mem _ hx))
    have hg0 := hnz g (List.mem_cons_self _ _)
    unfold bestStep
    rcases h with ⟨h1, h2⟩ | ⟨h1, pre, post, h2, h3, h4, h5⟩
    · by_cases hfit : total ≤ g.2
      · rw [if_pos ⟨hfit, Or.inl h1⟩]
        right
        refine ⟨hg0, P, [], rfl, hfit, ?_, ?_⟩
        · intro g' hg' hf
          have := h2 g' hg'
          omega
        · intro g' hg'; cases hg'
      · rw [if_neg (fun h => hfit h.1)]
        left
        refine ⟨h1, ?_⟩
        intro x hx
        rcases List.mem_append.mp hx with hx | hx
        · exact h2 x hx
        · rw [List.mem_singleton] at hx
          rw [hx]; omega
    · by_cases hfit : total ≤ g.2 ∧ g.2 < acc.2
      · rw [if_pos ⟨hfit.1, Or.inr hfit.2⟩]
        right
        refine ⟨hg0, P, [], rfl, hfit.1, ?_, ?_⟩
        · intro g' hg' hf
          rw [h2] at hg'
          rcases List.mem_append.mp hg' with hx | hx
          · have := h4 g' hx hf; omega
          · rcases List.mem_cons.mp hx with hx | hx
            · rw [hx]; exact hfit.2
            · have := h5 g' hx hf; omega
        · intro g' hg'; cases hg'
      · rw [if_neg (by
          intro h
          rcases h.2 with h6 | h6
          · exact h1 h6
          · exact hfit ⟨h.1, h6⟩)]
        right
        refine ⟨h1, pre, post ++ [g], by rw [h2]; simp, h3, h4, ?_⟩
        intro g' hg' hf
        rcases List.mem_append.mp hg' with hx | hx
        · exact h5 g' hx hf
        · rw [List.mem_singleton] at hx
          rw [hx] at hf ⊢
          by_contra hc
          exact hfit ⟨hf, by omega⟩

/-- State of the search for a largest sufficient gap after the gaps `P`. -/
theorem worstStep_inv (total : Nat) (L : List (Nat × Nat)) :
    ∀ (P : List (Nat × Nat)) (acc : Nat × Nat), (∀ g ∈ L, g.1 ≠ 0) →
      ((acc.1 = 0 ∧ ∀ g ∈ P, g.2 < total) ∨
        (acc.1 ≠ 0 ∧ ∃ pre post, P = pre ++ acc :: post ∧ total ≤ acc.2 ∧
          (∀ g' ∈ pre, total ≤ g'.2 → g'.2 < acc.2) ∧
          (∀ g' ∈ post, total ≤ g'.2 → g'.2 ≤ acc.2))) →
      (((L.foldl (worstStep total) acc).1 = 0 ∧ ∀ g ∈ P ++ L, g.2 < total) ∨
        ((L.foldl (worstStep total) acc).1 ≠ 0 ∧ ∃ pre post,
          P ++ L = pre ++ (L.foldl (worstStep total) acc) :: post ∧
          total ≤ (L.foldl (worstStep total) acc).2 ∧
          (∀ g' ∈ pre, total ≤ g'.2 → g'.2 < (L.foldl (worstStep total) acc).2) ∧
          (∀ g' ∈ post, total ≤ g'.2 → g'.2 ≤ (L.foldl (worstStep total) acc).2))) := by
  induction L with
  | nil =>
    intro P acc _ h
    simpa using h
  | cons g L ih =>
    intro P acc hnz h
    rw [List.foldl_cons]
    have hP : P ++ g :: L = (P ++ [g]) ++ L := by simp
    rw [hP]
    apply ih (P ++ [g]) _ (fun x hx => hnz x (List.mem_cons_of_mem _ hx))
    have hg0 := hnz g (List.mem_cons_self _ _)
    unfold worstStep
    rcases h with ⟨h1, h2⟩ | ⟨h1, pre, post, h2, h3, h4, h5⟩
    · by_cases hfit : total ≤ g.2
      · rw [if_pos ⟨hfit, Or.inl h1⟩]
        right
        refine ⟨hg0, P, [], rfl, hfit, ?_, ?_⟩
        · intro g' hg' hf
          have := h2 g' hg'
          omega
        · intro g' hg'; cases hg'
      · rw [if_neg (fun h => hfit h.1)]
        left
        refine ⟨h1, ?_⟩
        intro x hx
        rcases List.mem_append.mp hx with hx | hx
        · exact h2 x hx
        · rw [List.mem_singleton] at hx
          rw [hx]; omega
    · by_cases hfit : total ≤ g.2 ∧ g.2 > acc.2
      · rw [if_pos ⟨hfit.1, Or.inr hfit.2⟩]
        right
        refine ⟨hg0, P, [], rfl, hfit.1, ?_, ?_⟩
        · intro g' hg' hf
          rw [h2] at hg'
          rcases List.mem_append.mp hg' with hx | hx
          · have := h4 g' hx hf; omega
          · rcases List.mem_cons.mp hx with hx | hx
            · rw [hx]; exact hfit.2
            · have := h5 g' hx hf; omega
        · intro g' hg'; cases hg'
      · rw [if_neg (by
          intro h
          rcases h.2 with h6 | h6
          · exact h1 h6
          · exact hfit ⟨h.1, h6⟩)]
        right
        refine ⟨h1, pre, post ++ [g], by rw [h2]; simp, h3, h4, ?_⟩
        intro g' hg' hf
        rcases List.mem_append.mp hg' with hx | hx
        · exact h5 g' hx hf
        · rw [List.mem_singleton] at hx
          rw [hx] at hf ⊢
          by_contra hc
          exact hfit ⟨hf, by omega⟩


theorem bestOf_spec (total : Nat) (gs : List (Nat × Nat)) (hnz : ∀ g ∈ gs, g.1 ≠ 0) :
    (((gs.foldl (bestStep total) (0, 0)).1 = 0 ∧ ∀ g ∈ gs, g.2 < total) ∨
      ((gs.foldl (bestStep total) (0, 0)).1 ≠ 0 ∧ ∃ pre post,
        gs = pre ++ (gs.foldl (bestStep total) (0, 0)) :: post ∧
        total ≤ (gs.foldl (bestStep total) (0, 0)).2 ∧
        (∀ g' ∈ pre, total ≤ g'.2 → (gs.foldl (bestStep total) (0, 0)).2 < g'.2) ∧
        (∀ g' ∈ post, total ≤ g'.2 → (gs.foldl (bestStep total) (0, 0)).2 ≤ g'.2))) := by
  have h := bestStep_inv total gs [] (0, 0) hnz (Or.inl ⟨rfl, fun g hg => by cases hg⟩)
  simpa using h

theorem worstOf_spec (total : Nat) (gs : List (Nat × Nat)) (hnz : ∀ g ∈ gs, g.1 ≠ 0) :
    (((gs.foldl (worstStep total) (0, 0)).1 = 0 ∧ ∀ g ∈ gs, g.2 < total) ∨
      ((gs.foldl (worstStep total) (0, 0)).1 ≠ 0 ∧ ∃ pre post,
        gs = pre ++ (gs.foldl (worstStep total) (0, 0)) :: post ∧
        total ≤ (gs.foldl (worstStep total) (0, 0)).2 ∧
        (∀ g' ∈ pre, total ≤ g'.2 → g'.2 < (gs.foldl (worstStep total) (0, 0)).2) ∧
        (∀ g' ∈ post, total ≤ g'.2 → g'.2 ≤ (gs.foldl (worstStep total) (0, 0)).2))) := by
  have h := worstStep_inv total gs [] (0, 0) hnz (Or.inl ⟨rfl, fun g hg => by cases hg⟩)
  simpa using h

theorem gapsOf_nz (c : Sizes) (base e : Nat) (bs : List Blk) (hc : 16 ≤ c.LS) (ht : 24 ≤ c.TS) :
    ∀ g ∈ gapsOf c base e bs, g.1 ≠ 0 := by
  intro g hg
  unfold gapsOf at hg
  rcases List.mem_cons.mp hg with h | h
  · rw [h]; show base + c.LS ≠ 0; omega
  · obtain ⟨b, hb, h2⟩ := List.mem_map.mp h
    rw [← h2]; show b.tl c + c.TS ≠ 0; omega

theorem cand_cases (c : Sizes) (base e : Nat) (bs : List Blk) (total r : Nat)
    (h : ∃ g ∈ gapsOf c base e bs, g.1 = r ∧ total ≤ g.2) :
    (r = base + c.LS ∧ total ≤ hdOr bs e - (base + c.LS)) ∨
      ∃ A p B, bs = A ++ p :: B ∧ r = p.tl c + c.TS ∧ total ≤ p.ff := by
  obtain ⟨g, hg, h1, h2⟩ := h
  unfold gapsOf at hg
  rcases List.mem_cons.mp hg with h | h
  · left
    rw [h] at h1 h2
    exact ⟨h1.symm, h2⟩
  · right
    obtain ⟨b, hb, h3⟩ := List.mem_map.mp h
    obtain ⟨A, B, hAB⟩ := List.append_of_mem hb
    rw [← h3] at h1 h2
    exact ⟨A, b, B, hAB, h1.symm, h2⟩

theorem gaps_rot_mem (c : Sizes) (base e : Nat) (A B : List Blk) (C : Blk) (g : Nat × Nat) :
    g ∈ (C :: B).map (Blk.gap c) ++
        (base + c.LS, hdOr (A ++ C :: B) e - (base + c.LS)) :: A.map (Blk.gap c) ↔
      g ∈ gapsOf c base e (A ++ C :: B) := by
  unfold gapsOf
  simp only [List.mem_append, List.mem_cons, List.map_append, List.map_cons, List.mem_map]
  constructor
  · rintro ((h | h) | h | h)
    · exact Or.inr (Or.inr (Or.inl h))
    · exact Or.inr (Or.inr (Or.inr h))
    · exact Or.inl h
    · exact Or.inr (Or.inl h)
  · rintro (h | h | h | h)
    · exact Or.inr (Or.inl h)
    · exact Or.inr (Or.inr h)
    · exact Or.inl (Or.inl h)
    · exact Or.inl (Or.inr h)

/-- Every policy returns `0` exactly when no gap is large enough, and otherwise the
first byte of a gap that is large enough. -/
theorem g_alloc_cand (c : Sizes) (s : Heap) (bs : List Blk) (size fuel : Nat)
    (hinv : Inv c s bs) (hfp : footprint c size < 2147483648) :
    (∃ r, g_alloc c fuel s size = .ok r ∧
      ((r = 0 ∧ ∀ g ∈ gapsOf c s.start (end_addr s.mem s.start) bs, g.2 < footprint c size) ∨
        (r ≠ 0 ∧ ∃ g ∈ gapsOf c s.start (end_addr s.mem s.start) bs,
          g.1 = r ∧ footprint c size ≤ g.2))) ∨
      (g_alloc c fuel s size = .error Stop.fuel ∧ fuel ≤ bs.length) := by
  have hc := hinv.1
  have hnz := gapsOf_nz c s.start (end_addr s.mem s.start) bs hc.2.2.2.1 hc.2.2.2.2.2.1
  have hfirst : ∀ f, (first_fit c f s.mem s.start size =
        .ok (firstOf (footprint c size) (gapsOf c s.start (end_addr s.mem s.start) bs)) ∨
      (first_fit c f s.mem s.start size = .error Stop.fuel ∧ f ≤ bs.length)) →
      (∃ r, first_fit c f s.mem s.start size = .ok r ∧
      ((r = 0 ∧ ∀ g ∈ gapsOf c s.start (end_addr s.mem s.start) bs, g.2 < footprint c size) ∨
        (r ≠ 0 ∧ ∃ g ∈ gapsOf c s.start (end_addr s.mem s.start) bs,
          g.1 = r ∧ footprint c size ≤ g.2))) ∨
      (first_fit c f s.mem s.start size = .error Stop.fuel ∧ f ≤ bs.length) := by
    intro f h
    rcases h with h | h
    · left
      refine ⟨_, h, ?_⟩
      rcases firstOf_spec (footprint c size) (gapsOf c s.start (end_addr s.mem s.start) bs) with
        ⟨h1, h2⟩ | ⟨pre, g, post, h1, h2, h3, h4⟩
      · exact Or.inl ⟨h2, h1⟩
      · right
        have hg : g ∈ gapsOf c s.start (end_addr s.mem s.start) bs := by rw [h1]; simp
        rw [h2]
        exact ⟨hnz g hg, g, hg, rfl, h3⟩
    · exact Or.inr h
  unfold g_alloc
  cases hst : s.g_alloc_function with
  | BEST_FIT =>
    simp only
    rcases best_fit_spec c s bs size fuel hinv hfp with h | h
    · left
      refine ⟨_, h, ?_⟩
      have hb := bestOf_spec (footprint c size) _ hnz
      generalize List.foldl (bestStep (footprint c size)) (0, 0)
        (gapsOf c s.start (end_addr s.mem s.start) bs) = gb at hb ⊢
      rcases hb with ⟨h1, h2⟩ | ⟨h1, pre, post, h2, h3, -, -⟩
      · exact Or.inl ⟨h1, h2⟩
      · right
        refine ⟨h1, gb, ?_, rfl, h3⟩
        rw [h2]
        simp
    · exact Or.inr h
  | FIRST_FIT =>
    simp only
    exact hfirst fuel (first_fit_spec c s bs size fuel hinv hfp)
  | NEXT_FIT =>
    simp only
    have hcur := hinv.2.2.2.2.2.2.2.2.2.2.2.2.2.2
    rcases hcur with h0 | ⟨C, hC, h0⟩
    · rw [h0, next_fit_none]
      exact hfirst fuel (first_fit_spec c s bs size fuel hinv hfp)
    · obtain ⟨A, B, hAB⟩ := List.append_of_mem hC
      subst hAB
      rcases next_fit_spec c s A B C size fuel hinv h0 hfp with h | h
      · left
        refine ⟨_, h, ?_⟩
        have hmem := gaps_rot_mem c s.start (end_addr s.mem s.start) A B C
        rcases firstOf_spec (footprint c size) ((C :: B).map (Blk.gap c) ++
            (s.start + c.LS, hdOr (A ++ C :: B) (end_addr s.mem s.start) - (s.start + c.LS)) ::
              A.map (Blk.gap c)) with ⟨h1, h2⟩ | ⟨pre, g, post, h1, h2, h3, h4⟩
        · exact Or.inl ⟨h2, fun g hg => h1 g ((hmem g).mpr hg)⟩
        · right
          have hg : g ∈ gapsOf c s.start (end_addr s.mem s.start) (A ++ C :: B) := by
            apply (hmem g).mp
            rw [h1]; simp
          rw [h2]
          exact ⟨hnz g hg, g, hg, rfl, h3⟩
      · exact Or.inr h
  | WORST_FIT =>
    simp only
    rcases worst_fit_spec c s bs size fuel hinv hfp with h | h
    · left
      refine ⟨_, h, ?_⟩
      have hb := worstOf_spec (footprint c size) _ hnz
      generalize List.foldl (worstStep (footprint c size)) (0, 0)
        (gapsOf c s.start (end_addr s.mem s.start) bs) = gb at hb ⊢
      rcases hb with ⟨h1, h2⟩ | ⟨h1, pre, post, h2, h3, -, -⟩
      · exact Or.inl ⟨h1, h2⟩
      · right
        refine ⟨h1, gb, ?_, rfl, h3⟩
        rw [h2]
        simp
    · exact Or.inr h

/-! ## Allocation on an initialised directory -/

theorem snoc_cases (bs : List Blk) : bs = [] ∨ ∃ A l, bs = A ++ [l] := by
  rcases List.eq_nil_or_concat bs with h | ⟨A, l, h⟩
  · exact Or.inl h
  · exact Or.inr ⟨A, l, by rw [h, List.concat_eq_append]⟩

/-- Inserting at a gap that a policy returned. -/
theorem alloc_hit (c : Sizes) (s : Heap) (bs : List Blk) (size r : Nat)
    (hinv : Inv c s bs) (hsz : 0 < size) (hsz2 : size < 2147483648)
    (hcand : ∃ g ∈ gapsOf c s.start (end_addr s.mem s.start) bs,
      g.1 = r ∧ footprint c size ≤ g.2) :
    ∃ M nw bs1, add_entry c s r size = .ok (nw.user c, { s with
        mem := M, last_addr := nw.tl c }) ∧
      Inv c { s with mem := M, last_addr := nw.tl c } bs1 ∧ nw.sz = size ∧ nw.h = r ∧
      Placed c s.start bs bs1 nw size ∧ PayFrame c bs s.mem M := by
  have hb := Inv_bounds c s bs hinv
  rcases cand_cases c _ _ bs _ r hcand with ⟨h1, h2⟩ | ⟨A, p, B, h1, h2, h3⟩
  · rcases snoc_cases bs with hnil | ⟨A, l, hl⟩
    · subst hnil
      rw [hdOr_nil] at h2
      have hfp : 0 < footprint c size := by
        unfold footprint; have := hinv.1.2.2.2.2.1; omega
      obtain ⟨M, hrun, hinv'⟩ := add_empty_inv c s size hinv (by omega) hsz hsz2
      rw [h1]
      exact ⟨M, Blk.mk (s.start + c.LS) size
          (end_addr s.mem s.start - (s.start + c.LS) - footprint c size), _, hrun, hinv', rfl,
        rfl, Or.inl ⟨rfl, rfl, rfl⟩, fun b hb => by cases hb⟩
    · subst hl
      have hfp : 0 < footprint c size := by
        unfold footprint; have := hinv.1.2.2.2.2.1; omega
      have hlo : hdOr (A ++ [l]) (end_addr s.mem s.start) = hdOr (A ++ [l]) 0 :=
        hdOr_ne _ (by simp) _ _
      have hb2 := hb.2.1
      rw [hlo] at h2 hb2
      obtain ⟨M, hrun, hinv', hpay⟩ := add_front_inv c s A l size hinv (by omega) hsz hsz2
      rw [h1]
      exact ⟨M, Blk.mk (s.start + c.LS) size
          (hdOr (A ++ [l]) 0 - (s.start + c.LS) - footprint c size), _, hrun, hinv', rfl, rfl,
        Or.inr (Or.inl ⟨by simp, rfl, rfl⟩), hpay⟩
  · subst h1
    obtain ⟨M, hrun, hinv', hpay⟩ := add_after_inv c s A B p size hinv h3 hsz hsz2
    rw [h2]
    refine ⟨M, Blk.mk (p.tl c + c.TS) size (p.ff - footprint c size), _, hrun, hinv', rfl, rfl,
      Or.inr (Or.inr (Or.inl ⟨A, p, B, rfl, rfl, rfl, ?_⟩)), hpay⟩
    show p.ff - footprint c size + footprint c size = p.ff
    omega

set_option maxHeartbeats 1000000 in
/-- Growing the arena behind the last block and inserting there. -/
theorem alloc_grow (c : Sizes) (s : Heap) (A : List Blk) (l : Blk) (size : Nat)
    (hinv : Inv c s (A ++ [l])) (hlt : l.ff < footprint c size)
    (hfp : footprint c size < 2147483648) (hsz : 0 < size) (hsz2 : size < 2147483648) :
    (¬ s.brk + (footprint c size - l.ff + 4095) / 4096 * 4096 ≤ s.brk_max →
      expand_list c s size = .error Stop.exit) ∧
    (s.brk + (footprint c size - l.ff + 4095) / 4096 * 4096 ≤ s.brk_max →
      ∃ M1 M nw bs1, expand_list c s size = .ok (l.tl c + c.TS, { s with
          mem := M1, brk := s.brk + (footprint c size - l.ff + 4095) / 4096 * 4096 }) ∧
        add_entry c { s with
          mem := M1, brk := s.brk + (footprint c size - l.ff + 4095) / 4096 * 4096 }
          (l.tl c + c.TS) size = .ok (nw.user c, { s with
            mem := M, brk := s.brk + (footprint c size - l.ff + 4095) / 4096 * 4096,
            last_addr := nw.tl c }) ∧
        Inv c { s with
            mem := M, brk := s.brk + (footprint c size - l.ff + 4095) / 4096 * 4096,
            last_addr := nw.tl c } bs1 ∧
        nw.sz = size ∧ Placed c s.start (A ++ [l]) bs1 nw size ∧
        PayFrame c (A ++ [l]) s.mem M) := by
  obtain ⟨hr1, hr2⟩ := expand_last_inv c s A l size hinv hlt hfp hsz2
  refine ⟨hr1, ?_⟩
  intro hfit
  obtain ⟨M1, hrun1, hinv1, hfr1⟩ := hr2 hfit
  have hpg := pages_ge (footprint c size - l.ff)
  have hfit2 : footprint c size ≤
      (Blk.mk l.h l.sz (l.ff + (footprint c size - l.ff + 4095) / 4096 * 4096)).ff := by
    show footprint c size ≤ l.ff + (footprint c size - l.ff + 4095) / 4096 * 4096
    omega
  obtain ⟨M, hrun2, hinv2, hpay2⟩ := add_after_inv c _ A []
    (Blk.mk l.h l.sz (l.ff + (footprint c size - l.ff + 4095) / 4096 * 4096)) size hinv1 hfit2
    hsz hsz2
  refine ⟨M1, M, Blk.mk (l.tl c + c.TS) size
    (l.ff + (footprint c size - l.ff + 4095) / 4096 * 4096 - footprint c size), _, hrun1, hrun2,
    hinv2, rfl, ?_, ?_⟩
  · refine Or.inr (Or.inr (Or.inr ⟨A, l, rfl, rfl, rfl, hlt, ?_⟩))
    show l.ff + (footprint c size - l.ff + 4095) / 4096 * 4096 - footprint c size +
      footprint c size = l.ff + (footprint c size - l.ff + 4095) / 4096 * 4096
    omega
  · intro b hb a ha1 ha2
    obtain ⟨-, hdisj, hall⟩ := Inv_split c s A [] l hinv
    simp only [List.nil_append] at hdisj hall
    have hb' : b ∈ l :: A := by
      simp only [List.mem_append, List.mem_cons, List.mem_singleton, List.not_mem_nil,
        or_false] at hb ⊢
      exact hb.symm
    have hpl := pay_disj c _ hdisj b l hb' (List.mem_cons_self _ _) a ha1 ha2
    have hbl := (hall b hb').1
    have c4 := hinv.1.2.2.2.1
    have c6 := hinv.1.2.2.2.2.2.1
    have hnx : l.nx c = l.tl c + c.TS + l.ff := rfl
    have h1 : M1 a = s.mem a := by
      unfold Blk.user at ha1
      apply hfr1
      · clear * - hbl ha1 c4; omega
      · clear * - hpl hnx c6; omega
    rw [← h1]
    simp only [List.mem_append, List.mem_singleton] at hb
    rcases hb with hb | hb
    · exact hpay2 b (by simp [hb]) a ha1 ha2
    · rw [hb] at ha1 ha2
      exact hpay2 (Blk.mk l.h l.sz (l.ff + (footprint c size - l.ff + 4095) / 4096 * 4096))
        (by simp) a ha1 ha2

/-- Growing an empty arena and inserting the first block. -/
theorem alloc_empty (c : Sizes) (s : Heap) (size : Nat)
    (hinv : Inv c s []) (hE0 : end_addr s.mem s.start = s.start + c.LS)
    (hfp : footprint c size < 2147483648) (hsz : 0 < size) (hsz2 : size < 2147483648) :
    (¬ s.brk + (footprint c size + 4095) / 4096 * 4096 ≤ s.brk_max →
      expand_list c s size = .error Stop.exit) ∧
    (s.brk + (footprint c size + 4095) / 4096 * 4096 ≤ s.brk_max →
      ∃ M1 M nw, expand_list c s size = .ok (s.start + c.LS, { s with
          mem := M1, brk := s.brk + (footprint c size + 4095) / 4096 * 4096 }) ∧
        add_entry c { s with
          mem := M1, brk := s.brk + (footprint c size + 4095) / 4096 * 4096 }
          (s.start + c.LS) size = .ok (nw.user c, { s with
            mem := M, brk := s.brk + (footprint c size + 4095) / 4096 * 4096,
            last_addr := nw.tl c }) ∧
        Inv c { s with
            mem := M, brk := s.brk + (footprint c size + 4095) / 4096 * 4096,
            last_addr := nw.tl c } [nw] ∧
        nw.sz = size ∧ nw.h = s.start + c.LS ∧
        nw.ff + footprint c size = (footprint c size + 4095) / 4096 * 4096) := by
  obtain ⟨hr1, hr2⟩ := expand_empty_inv c s size hinv hE0 hfp hsz2
  refine ⟨hr1, ?_⟩
  intro hfit
  obtain ⟨M1, hrun1, hinv1, hE1, hfr1⟩ := hr2 hfit
  have hpg := pages_ge (footprint c size)
  obtain ⟨M, hrun2, hinv2⟩ := add_empty_inv c _ size hinv1 (by
    show s.start + c.LS + footprint c size ≤ end_addr M1 s.start
    rw [hE1]; omega) hsz hsz2
  refine ⟨M1, M, Blk.mk (s.start + c.LS) size
    (end_addr M1 s.start - (s.start + c.LS) - footprint c size), hrun1, hrun2, hinv2, rfl, rfl, ?_⟩
  show end_addr M1 s.start - (s.start + c.LS) - footprint c size + footprint c size = _
  rw [hE1]
  omega

/-! ## The public operations on a well-formed state -/

theorem malloc_eq (c : Sizes) (fuel : Nat) (s : Heap) (size : Nat)
    (hl : s.storage_lock = false) (hsz : size ≠ 0) :
    malloc c fuel s size =
      (find_free_seg c fuel { s with storage_lock := true } size >>= fun r =>
        if r.1 = 0 then pure (0, pthread_mutex_unlock r.2)
        else add_entry c r.2 r.1 size >>= fun q =>
          if q.1 = 0 then pure (0, pthread_mutex_unlock q.2)
          else pure (q.1, pthread_mutex_unlock q.2)) := by
  unfold malloc pthread_mutex_lock
  rw [if_neg hsz, hl]
  rfl

theorem find_free_seg_eq (c : Sizes) (fuel : Nat) (s : Heap) (size : Nat) (h0 : s.start ≠ 0) :
    find_free_seg c fuel s size =
      (g_alloc c fuel s size >>= fun r => if r = 0 then expand_list c s size else pure (r, s)) := by
  unfold find_free_seg
  rw [if_neg h0]

theorem Inv_lock (c : Sizes) (s : Heap) (bs : List Blk) (b : Bool) (h : Inv c s bs) :
    Inv c { s with storage_lock := b } bs := h

theorem g_alloc_lock (c : Sizes) (fuel : Nat) (s : Heap) (size : Nat) (b : Bool) :
    g_alloc c fuel { s with storage_lock := b } size = g_alloc c fuel s size := rfl

theorem malloc_of (c : Sizes) (fuel : Nat) (s s1 s2 : Heap) (size a u : Nat)
    (hl : s.storage_lock = false) (hsz : size ≠ 0)
    (hf : find_free_seg c fuel { s with storage_lock := true } size = .ok (a, s1))
    (ha : a ≠ 0) (hadd : add_entry c s1 a size = .ok (u, s2)) (hu : u ≠ 0) :
    malloc c fuel s size = .ok (u, pthread_mutex_unlock s2) := by
  rw [malloc_eq c fuel s size hl hsz, hf, ok_bind]
  simp only [ha, if_false, hadd, ok_bind, hu]
  rfl

theorem malloc_err (c : Sizes) (fuel : Nat) (s : Heap) (size : Nat) (e : Stop)
    (hl : s.storage_lock = false) (hsz : size ≠ 0)
    (hf : find_free_seg c fuel { s with storage_lock := true } size = .error e) :
    malloc c fuel s size = .error e := by
  rw [malloc_eq c fuel s size hl hsz, hf]
  rfl

theorem find_of_hit (c : Sizes) (fuel : Nat) (s : Heap) (size r : Nat) (h0 : s.start ≠ 0)
    (hg : g_alloc c fuel s size = .ok r) (hr : r ≠ 0) :
    find_free_seg c fuel s size = .ok (r, s) := by
  rw [find_free_seg_eq c fuel s size h0, hg, ok_bind, if_neg hr]
  rfl

theorem find_of_miss (c : Sizes) (fuel : Nat) (s : Heap) (size : Nat) (h0 : s.start ≠ 0)
    (hg : g_alloc c fuel s size = .ok 0) :
    find_free_seg c fuel s size = expand_list c s size := by
  rw [find_free_seg_eq c fuel s size h0, hg, ok_bind, if_pos rfl]

theorem find_of_err (c : Sizes) (fuel : Nat) (s : Heap) (size : Nat) (e : Stop)
    (h0 : s.start ≠ 0) (hg : g_alloc c fuel s size = .error e) :
    find_free_seg c fuel s size = .error e := by
  rw [find_free_seg_eq c fuel s size h0, hg]
  rfl

theorem Placed_mem (c : Sizes) (base : Nat) (bs bs1 : List Blk) (nw : Blk) (size : Nat)
    (h : Placed c base bs bs1 nw size) : nw ∈ bs1 := by
  rcases h with ⟨-, h, -⟩ | ⟨-, h, -⟩ | ⟨A, p, B, -, h, -, -⟩ | ⟨A, p, -, h, -, -, -⟩ <;>
    rw [h] <;> simp

theorem Inv_mem_lo (c : Sizes) (s : Heap) (bs : List Blk) (b : Blk) (hinv : Inv c s bs)
    (hb : b ∈ bs) : s.start + c.LS ≤ b.h ∧ b.nx c ≤ end_addr s.mem s.start ∧ BOK b := by
  obtain ⟨hc, hs0, -, hle, -, hbrk1, hbrk2, hbrk3, hmax, hmax64, hbok, hfirst, hcyc0,
    ⟨lo, hlo, htiles⟩, hcur⟩ := hinv
  have := Tiles_mem c _ _ _ htiles b hb
  exact ⟨by omega, this.2, hbok b hb⟩

set_option maxHeartbeats 1000000 in
/-- `malloc` on an initialised directory. -/
theorem malloc_inv_case (c : Sizes) (s : Heap) (bs : List Blk) (size fuel : Nat)
    (hl : s.storage_lock = false) (hinv : Inv c s bs)
    (hemp : bs = [] → end_addr s.mem s.start = s.start + c.LS)
    (hsz : 0 < size) (hfp : footprint c size < 2147483648) (hsz2 : size < 2147483648) :
    (malloc c fuel s size = .error Stop.fuel ∧ fuel ≤ bs.length) ∨
    (malloc c fuel s size = .error Stop.exit) ∨
    ∃ M brk1 nw bs1, malloc c fuel s size = .ok (nw.user c, { s with
          mem := M, brk := brk1, last_addr := nw.tl c, storage_lock := false }) ∧
      Inv c { s with mem := M, brk := brk1, last_addr := nw.tl c, storage_lock := false } bs1 ∧
      nw.sz = size ∧ Placed c s.start bs bs1 nw size ∧ PayFrame c bs s.mem M ∧
      (∀ r, g_alloc c fuel s size = .ok r → r ≠ 0 → nw.h = r) := by
  have hs0 : s.start ≠ 0 := hinv.2.1
  have hnz : size ≠ 0 := by omega
  have hc := hinv.1
  have hu : ∀ nw : Blk, s.start + c.LS ≤ nw.h → nw.user c ≠ 0 := by
    intro nw h
    have := hc.2.2.2.1
    unfold Blk.user
    omega
  rcases g_alloc_cand c s bs size fuel hinv hfp with ⟨r, hg, hr⟩ | ⟨herr, hf⟩
  · rcases hr with ⟨h0, hno⟩ | ⟨hne, hcand⟩
    · subst h0
      have hfind := find_of_miss c fuel { s with storage_lock := true } size hs0 hg
      rcases snoc_cases bs with hnil | ⟨A, l, hl'⟩
      · subst hnil
        obtain ⟨hr1, hr2⟩ := alloc_empty c { s with storage_lock := true } size hinv
          (hemp rfl) hfp hsz hsz2
        dsimp only at hr1 hr2
        by_cases hfit : s.brk + (footprint c size + 4095) / 4096 * 4096 ≤ s.brk_max
        · obtain ⟨M1, M, nw, h1, h2, h3, h4, h5, h6⟩ := hr2 hfit
          right; right
          rw [← hfind] at h1
          have hm := malloc_of c fuel s _ _ size _ _ hl hnz h1
            (by have := hc.2.2.2.1; omega) h2 (hu nw (by rw [h5]))
          refine ⟨M, _, nw, [nw], hm, h3, h4, Or.inl ⟨rfl, rfl, h5⟩, ?_, ?_⟩
          · intro b hb; cases hb
          intro r hr hr0
          rw [hg] at hr
          exact absurd (Except.ok.inj hr).symm hr0
        · right; left
          rw [← hfind] at hr1
          exact malloc_err c fuel s size _ hl hnz (hr1 hfit)
      · subst hl'
        have hlt : l.ff < footprint c size := by
          apply hno (l.tl c + c.TS, l.ff)
          unfold gapsOf
          simp [Blk.gap]
        obtain ⟨hr1, hr2⟩ := alloc_grow c { s with storage_lock := true } A l size hinv hlt
          hfp hsz hsz2
        dsimp only at hr1 hr2
        by_cases hfit : s.brk + (footprint c size - l.ff + 4095) / 4096 * 4096 ≤ s.brk_max
        · obtain ⟨M1, M, nw, bs1, h1, h2, h3, h4, h5, h6⟩ := hr2 hfit
          right; right
          rw [← hfind] at h1
          have hnh : s.start + c.LS ≤ nw.h :=
            (Inv_mem_lo c _ bs1 nw h3 (Placed_mem c _ _ _ _ _ h5)).1
          have hm := malloc_of c fuel s _ _ size _ _ hl hnz h1
            (by have := hc.2.2.2.2.2.1; omega) h2 (hu nw hnh)
          refine ⟨M, _, nw, bs1, hm, h3, h4, h5, h6, ?_⟩
          intro r hr hr0
          rw [hg] at hr
          exact absurd (Except.ok.inj hr).symm hr0
        · right; left
          rw [← hfind] at hr1
          exact malloc_err c fuel s size _ hl hnz (hr1 hfit)
    · have hfind := find_of_hit c fuel { s with storage_lock := true } size r hs0 hg hne
      obtain ⟨M, nw, bs1, h2, h3, h4, h5, h6, h7⟩ := alloc_hit c { s with storage_lock := true }
        bs size r hinv hsz hsz2 hcand
      right; right
      have hnh : s.start + c.LS ≤ nw.h :=
        (Inv_mem_lo c _ bs1 nw h3 (Placed_mem c _ _ _ _ _ h6)).1
      have hm := malloc_of c fuel s _ _ size _ _ hl hnz hfind hne h2 (hu nw hnh)
      refine ⟨M, s.brk, nw, bs1, hm, h3, h4, h6, h7, ?_⟩
      intro r' hr' hr0
      rw [g_alloc_lock] at hg
      rw [hg] at hr'
      rw [h5]
      exact Except.ok.inj hr'
  · left
    exact ⟨malloc_err c fuel s size _ hl hnz
      (find_of_err c fuel { s with storage_lock := true } size _ hs0 herr), hf⟩

theorem find_fresh_eq (c : Sizes) (fuel : Nat) (s : Heap) (size : Nat) (h0 : s.start = 0) :
    find_free_seg c fuel s size =
      (create_list c s >>= fun r =>
        if r.1 = 0 then pure (0, { r.2 with start := r.1 })
        else expand_list c { r.2 with start := r.1 } size) := by
  unfold find_free_seg
  rw [if_pos h0]

/-- The state right after `create_list` is an empty directory. -/
theorem create_inv (c : Sizes) (s : Heap) (M : Mem) (hc : c.ok)
    (h1 : 0 < s.brk) (h2 : s.brk + (c.LS + 16) ≤ s.brk_max)
    (h3 : s.brk_max < s.brk + 2147483648) (h4 : s.brk_max < 18446744073709551616)
    (hl : s.last_addr = 0)
    (hupd : Upd s.mem M [(round_up s.brk ALIGNMENT + 8, round_up s.brk ALIGNMENT + c.LS),
        (round_up s.brk ALIGNMENT, 0)]) :
    Inv c { s with mem := M, brk := s.brk + (c.LS + 16), start := round_up s.brk ALIGNMENT } [] ∧
      end_addr M (round_up s.brk ALIGNMENT) = round_up s.brk ALIGNMENT + c.LS := by
  have hr := round_up_16 s.brk (by omega)
  have hw := hupd.1
  simp only [List.forall_mem_cons, List.not_mem_nil, false_implies, implies_true, and_true]
    at hw
  obtain ⟨w1, w2⟩ := hw
  refine ⟨?_, w1⟩
  unfold Inv end_addr first_seg
  dsimp only
  rw [w1, w2]
  have hc' := hc
  obtain ⟨c1, c2, c3, c4, c5, c6, c7, c8, c9⟩ := hc
  refine ⟨hc', by omega, hr.1, le_refl _, by simp, by omega, by omega, h2, by omega, h4, ?_,
    rfl, trivial, ⟨_, le_refl _, rfl⟩, Or.inl hl⟩
  intro b hb; cases hb

set_option maxHeartbeats 1000000 in
/-- `malloc` before the directory exists. -/
theorem malloc_fresh_case (c : Sizes) (s : Heap) (size fuel : Nat)
    (hl : s.storage_lock = false) (h0 : s.start = 0) (hla : s.last_addr = 0) (hc : c.ok)
    (h1 : 0 < s.brk) (h3 : s.brk_max < s.brk + 2147483648)
    (h4 : s.brk_max < 18446744073709551616)
    (hsz : 0 < size) (hfp : footprint c size < 2147483648) (hsz2 : size < 2147483648) :
    (¬ s.brk + (c.LS + 16) ≤ s.brk_max → malloc c fuel s size = .ok (0, s)) ∧
    (s.brk + (c.LS + 16) ≤ s.brk_max →
      ¬ s.brk + (c.LS + 16) + (footprint c size + 4095) / 4096 * 4096 ≤ s.brk_max →
      malloc c fuel s size = .error Stop.exit) ∧
    (s.brk + (c.LS + 16) + (footprint c size + 4095) / 4096 * 4096 ≤ s.brk_max →
      ∃ M nw, malloc c fuel s size = .ok (nw.user c, { s with
          mem := M, start := round_up s.brk ALIGNMENT,
          brk := s.brk + (c.LS + 16) + (footprint c size + 4095) / 4096 * 4096,
          last_addr := nw.tl c, storage_lock := false }) ∧
        Inv c { s with
          mem := M, start := round_up s.brk ALIGNMENT,
          brk := s.brk + (c.LS + 16) + (footprint c size + 4095) / 4096 * 4096,
          last_addr := nw.tl c, storage_lock := false } [nw] ∧
        nw.sz = size ∧ nw.h = round_up s.brk ALIGNMENT + c.LS ∧
        nw.ff + footprint c size = (footprint c size + 4095) / 4096 * 4096) := by
  have hnz : size ≠ 0 := by omega
  obtain ⟨hcr1, hcr2⟩ := create_list_run c { s with storage_lock := true } hc h1 h4
  dsimp only at hcr1 hcr2
  have hfe := find_fresh_eq c fuel { s with storage_lock := true } size h0
  refine ⟨?_, ?_, ?_⟩
  · intro hno
    rw [malloc_eq c fuel s size hl hnz, hfe, hcr1 hno, ok_bind]
    simp only [if_true, ok_bind, pure_eq_ok]
    unfold pthread_mutex_unlock
    congr 2
    cases s
    simp only at hl h0 ⊢
    subst hl h0
    rfl
  · intro hok hno
    obtain ⟨M0, hrun0, hupd0⟩ := hcr2 hok
    obtain ⟨hinv0, hE0⟩ := create_inv c { s with storage_lock := true } M0 hc h1 hok h3 h4 hla
      hupd0
    obtain ⟨hr1, -⟩ := alloc_empty c _ size hinv0 hE0 hfp hsz hsz2
    have hr0 := round_up_16 s.brk (by omega)
    apply malloc_err c fuel s size _ hl hnz
    rw [hfe, hrun0, ok_bind]
    simp only
    rw [if_neg (by omega)]
    exact hr1 hno
  · intro hok2
    have hpg := pages_ge (footprint c size)
    have hok : s.brk + (c.LS + 16) ≤ s.brk_max := by omega
    obtain ⟨M0, hrun0, hupd0⟩ := hcr2 hok
    obtain ⟨hinv0, hE0⟩ := create_inv c { s with storage_lock := true } M0 hc h1 hok h3 h4 hla
      hupd0
    obtain ⟨-, hr2⟩ := alloc_empty c _ size hinv0 hE0 hfp hsz hsz2
    obtain ⟨M1, M, nw, e1, e2, e3, e4, e5, e6⟩ := hr2 hok2
    have hr0 := round_up_16 s.brk (by omega)
    have hff : find_free_seg c fuel { s with storage_lock := true } size =
        expand_list c { s with
          storage_lock := true, mem := M0, brk := s.brk + (c.LS + 16),
          start := round_up s.brk ALIGNMENT } size := by
      rw [hfe, hrun0, ok_bind]
      simp only
      rw [if_neg (by omega)]
    have hfind := hff.trans e1
    have c4 := hc.2.2.2.1
    have hm := malloc_of c fuel s _ _ size _ _ hl hnz hfind (by dsimp only; omega) e2
      (by unfold Blk.user; dsimp only at e5; omega)
    exact ⟨M, nw, hm, e3, e4, e5, e6⟩

theorem free_eq (c : Sizes) (s : Heap) (p : Nat) (hl : s.storage_lock = false) (hp : p ≠ 0) :
    free c s p = (remove_segment c { s with storage_lock := true } p >>= fun r =>
      pure (pthread_mutex_unlock r)) := by
  unfold free pthread_mutex_lock
  rw [if_neg hp, hl]
  rfl

theorem free_of (c : Sizes) (s s1 : Heap) (p : Nat) (hl : s.storage_lock = false) (hp : p ≠ 0)
    (h : remove_segment c { s with storage_lock := true } p = .ok s1) :
    free c s p = .ok (pthread_mutex_unlock s1) := by
  rw [free_eq c s p hl hp, h]
  rfl

/-- Position of a block in a list: alone, first, between two blocks, or last. -/
theorem pos_cases (bs : List Blk) (x : Blk) (hx : x ∈ bs) :
    bs = [x] ∨ (∃ R l, bs = x :: (R ++ [l])) ∨
      (∃ A p n B, bs = A ++ p :: x :: n :: B) ∨ (∃ A p, bs = A ++ [p, x]) := by
  obtain ⟨A, B, hAB⟩ := List.append_of_mem hx
  subst hAB
  rcases snoc_cases A with hA | ⟨A', p, hA⟩
  · subst hA
    rcases snoc_cases B with hB | ⟨R, l, hB⟩
    · subst hB; exact Or.inl rfl
    · subst hB; exact Or.inr (Or.inl ⟨R, l, rfl⟩)
  · subst hA
    cases B with
    | nil => exact Or.inr (Or.inr (Or.inr ⟨A', p, by simp⟩))
    | cons n B' => exact Or.inr (Or.inr (Or.inl ⟨A', p, n, B', by simp⟩))

theorem Inv_pay_disj (c : Sizes) (s : Heap) (bs : List Blk) (hinv : Inv c s bs) (b n : Blk)
    (hb : b ∈ bs) (hn : n ∈ bs) (a : Nat) (ha1 : b.user c ≤ a) (ha2 : a < b.tl c) :
    (a < n.h ∨ n.h + c.HS ≤ a) ∧ (a < n.tl c ∨ n.nx c ≤ a) ∧ s.start + c.LS + c.HS ≤ a := by
  obtain ⟨hc, hs0, -, hle, -, hbrk1, hbrk2, hbrk3, hmax, hmax64, hbok, hfirst, hcyc0,
    ⟨lo, hlo, htiles⟩, hcur⟩ := hinv
  have h1 := pay_disj c bs (Tiles_disj c _ _ _ htiles) b n hb hn a ha1 ha2
  have h2 := (Tiles_mem c _ _ _ htiles b hb).1
  unfold Blk.user at ha1
  exact ⟨h1.1, h1.2, by omega⟩

set_option maxHeartbeats 1000000 in
/-- `free` of a live block. -/
theorem free_inv_case (c : Sizes) (s : Heap) (bs : List Blk) (x : Blk)
    (hl : s.storage_lock = false) (hinv : Inv c s bs) (hx : x ∈ bs) :
    ∃ M brk1 cur1 bs1, free c s (x.user c) = .ok { s with
          mem := M, brk := brk1, last_addr := cur1, storage_lock := false } ∧
      Inv c { s with mem := M, brk := brk1, last_addr := cur1, storage_lock := false } bs1 ∧
      (bs1 = [] → end_addr M s.start = s.start + c.LS ∧ cur1 = 0) ∧
      Removed c bs bs1 x s.last_addr cur1 ∧ PayFrame c bs1 s.mem M := by
  have hp : x.user c ≠ 0 := by
    have := (Inv_mem_lo c s bs x hinv hx).1
    have := hinv.1.2.2.2.1
    unfold Blk.user; omega
  rcases pos_cases bs x hx with h | ⟨R, l, h⟩ | ⟨A, p, n, B, h⟩ | ⟨A, p, h⟩
  · subst h
    obtain ⟨M, hrun, hinv1, hE⟩ := remove_only_inv c { s with storage_lock := true } x hinv
    refine ⟨M, _, 0, [], free_of c s _ _ hl hp hrun, hinv1, fun _ => ⟨hE, rfl⟩,
      Or.inl ⟨rfl, rfl, rfl⟩, ?_⟩
    intro b hb; cases hb
  · subst h
    obtain ⟨M, hrun, hinv1, hpay⟩ := remove_first_inv c { s with storage_lock := true } x l R hinv
    refine ⟨M, s.brk, _, R ++ [l], free_of c s _ _ hl hp hrun, hinv1, ?_,
      Or.inr (Or.inl ⟨R, l, rfl, rfl, rfl⟩), ?_⟩
    · intro h; simp at h
    · intro b hb
      exact hpay b (List.mem_cons_of_mem _ hb)
  · subst h
    obtain ⟨M, hrun, hinv1, hpay⟩ := remove_mid_inv c { s with storage_lock := true } A B p x n
      hinv
    refine ⟨M, s.brk, _, _, free_of c s _ _ hl hp hrun, hinv1, ?_,
      Or.inr (Or.inr (Or.inl ⟨A, p, n, B, rfl, rfl, rfl⟩)), ?_⟩
    · intro h; simp at h
    · intro b hb a ha1 ha2
      simp only [List.mem_append, List.mem_cons] at hb
      rcases hb with hb | hb | hb | hb
      · exact hpay b (by simp [hb]) a ha1 ha2
      · rw [hb] at ha1 ha2
        exact hpay p (by simp) a ha1 ha2
      · exact hpay b (by simp [hb]) a ha1 ha2
      · exact hpay b (by simp [hb]) a ha1 ha2
  · subst h
    obtain ⟨M1, hrun1, hinv1, hpay1⟩ := remove_last_inv c { s with storage_lock := true } A p x
      hinv
    obtain ⟨M, hrun2, hinv2, hfr2⟩ := remove_shrink_inv c _ A _ hinv1
    have hrun := hrun1.trans hrun2
    refine ⟨M, _, _, _, free_of c s _ _ hl hp hrun, hinv2, ?_,
      Or.inr (Or.inr (Or.inr ⟨A, p, rfl, rfl, rfl⟩)), ?_⟩
    · intro h; simp at h
    · intro b hb a ha1 ha2
      have hb' : ∃ b0 ∈ A ++ [p, x], b0.h = b.h ∧ b0.sz = b.sz := by
        simp only [List.mem_append, List.mem_singleton] at hb
        rcases hb with hb | hb
        · exact ⟨b, by simp [hb], rfl, rfl⟩
        · rw [hb]
          exact ⟨p, by simp, rfl, rfl⟩
      obtain ⟨b0, hb0, h1, h2⟩ := hb'
      have ha1' : b0.user c ≤ a := by unfold Blk.user at ha1 ⊢; rw [h1]; exact ha1
      have ha2' : a < b0.tl c := by unfold Blk.tl at ha2 ⊢; rw [h1, h2]; exact ha2
      have hd := Inv_pay_disj c _ _ hinv b0 p hb0 (by simp) a ha1' ha2'
      have hnx := Blk.nx_ge c p
      have c4 := hinv.1.2.2.2.1
      have c5 := hinv.1.2.2.2.2.1
      have c6 := hinv.1.2.2.2.2.2.1
      have e1 : M a = M1 a := by
        apply hfr2
        · dsimp only; clear * - hd c4 c5; omega
        · show a < p.tl c + 16 ∨ p.tl c + 24 ≤ a
          clear * - hd hnx c6; omega
      rw [e1]
      exact hpay1 b0 hb0 a ha1' ha2'

/-! ## Writes into payloads -/

theorem BlkAt_rec_frame (c : Sizes) (m m' : Mem) (b : Blk) (pt nh : Nat)
    (h : BlkAt c m b pt nh)
    (hm1 : ∀ x, b.h ≤ x → x < b.h + 24 → m' x = m x)
    (hm2 : ∀ x, b.tl c ≤ x → x < b.tl c + 24 → m' x = m x) :
    BlkAt c m' b pt nh := by
  unfold BlkAt prev_seg_tail next_seg_tail seg_size prev_seg_head next_seg_head
    free_following at *
  rw [rd64_congr m m' b.h, rd64_congr m m' (b.h + 8), rd64_congr m m' (b.h + 16),
    rd64_congr m m' (b.tl c), rd64_congr m m' (b.tl c + 8), rd64_congr m m' (b.tl c + 16)]
  · exact h
  · intro x hx1 hx2; apply hm2 <;> omega
  · intro x hx1 hx2; apply hm2 <;> omega
  · intro x hx1 hx2; apply hm2 <;> omega
  · intro x hx1 hx2; apply hm1 <;> omega
  · intro x hx1 hx2; apply hm1 <;> omega
  · intro x hx1 hx2; apply hm1 <;> omega

theorem Seg_rec_frame (c : Sizes) (m m' : Mem) (l : List Blk) (pt nh : Nat)
    (h : Seg c m pt l nh)
    (hm : ∀ b ∈ l, (∀ x, b.h ≤ x → x < b.h + 24 → m' x = m x) ∧
      (∀ x, b.tl c ≤ x → x < b.tl c + 24 → m' x = m x)) :
    Seg c m' pt l nh := by
  induction l generalizing pt with
  | nil => trivial
  | cons b r ih =>
    obtain ⟨hb, hr⟩ := h
    have h1 := hm b (List.mem_cons_self _ _)
    exact ⟨BlkAt_rec_frame c m m' b _ _ hb h1.1 h1.2,
      ih _ hr (fun b' hb' => hm b' (List.mem_cons_of_mem _ hb'))⟩

/-- A memory that differs from the state only inside payloads holds the same directory. -/
theorem Inv_pay_write (c : Sizes) (s : Heap) (bs : List Blk) (M : Mem) (hinv : Inv c s bs)
    (hfr : ∀ a, (∀ b ∈ bs, a < b.user c ∨ b.tl c ≤ a) → M a = s.mem a) :
    Inv c { s with mem := M } bs := by
  have hinv0 := hinv
  obtain ⟨hc, hs0, hs16, hle, hpg, hbrk1, hbrk2, hbrk3, hmax, hmax64, hbok, hfirst, hcyc0,
    ⟨lo, hlo, htiles⟩, hcur⟩ := hinv
  have c4 := hc.2.2.2.1
  have c5 := hc.2.2.2.2.1
  have c6 := hc.2.2.2.2.2.1
  have hdisj := Tiles_disj c _ _ _ htiles
  have hhead : ∀ a, s.start ≤ a → a < s.start + 16 → M a = s.mem a := by
    intro a h1 h2
    apply hfr
    intro b hb
    have := (Tiles_mem c _ _ _ htiles b hb).1
    unfold Blk.user
    left; omega
  have hE : rd64 M (s.start + 8) = rd64 s.mem (s.start + 8) := by
    apply rd64_congr; intro a h1 h2; apply hhead <;> omega
  have hF : rd64 M s.start = rd64 s.mem s.start := by
    apply rd64_congr; intro a h1 h2; apply hhead <;> omega
  unfold Inv end_addr first_seg
  dsimp only
  rw [hE, hF]
  refine ⟨hc, hs0, hs16, hle, hpg, hbrk1, hbrk2, hbrk3, hmax, hmax64, hbok, hfirst, ?_,
    ⟨lo, hlo, htiles⟩, hcur⟩
  unfold Cyc at hcyc0 ⊢
  apply Seg_rec_frame c s.mem M bs _ _ hcyc0
  intro b hb
  have hrec : ∀ x, (b.h ≤ x ∧ x < b.h + 24) ∨ (b.tl c ≤ x ∧ x < b.tl c + 24) →
      M x = s.mem x := by
    intro x hx
    apply hfr
    intro n hn
    by_cases hbn : n = b
    · subst hbn
      unfold Blk.user
      clear * - hx c5
      omega
    · have hd := hdisj.forall (fun {x y} h => Disj_symm c x y h) hn hb hbn
      have h1 := Blk.tl_ge c b
      have h2 := Blk.nx_ge c b
      have h3 := Blk.tl_ge c n
      have h4 := Blk.nx_ge c n
      unfold Disj at hd
      unfold Blk.user
      clear * - hx hd h1 h2 h3 h4 c5 c6
      omega
  exact ⟨fun x h1 h2 => hrec x (Or.inl ⟨h1, h2⟩), fun x h1 h2 => hrec x (Or.inr ⟨h1, h2⟩)⟩

/-! ## The public operations between two calls -/

/-- `malloc` on a state between two public calls. -/
theorem malloc_pub (c : Sizes) (s s1 : Heap) (bs : List Blk) (size fuel u : Nat)
    (hpub : Pub c s bs) (hfp : footprint c size < 2147483648) (hsz2 : size < 2147483648)
    (hrun : malloc c fuel s size = .ok (u, s1)) :
    (u = 0 ∧ s1 = s) ∨
    (∃ nw bs1, u = nw.user c ∧ u ≠ 0 ∧ Pub c s1 bs1 ∧ nw.sz = size ∧ 0 < size ∧
      Placed c s1.start bs bs1 nw size ∧ PayFrame c bs s.mem s1.mem ∧
      s1.last_addr = nw.tl c ∧ s1.g_alloc_function = s.g_alloc_function ∧
      s1.brk_max = s.brk_max ∧
      (s.start ≠ 0 → s1.start = s.start ∧
        ∀ r, g_alloc c fuel s size = .ok r → r ≠ 0 → nw.h = r)) := by
  by_cases hsz : size = 0
  · left
    unfold malloc at hrun
    rw [if_pos hsz] at hrun
    have := Except.ok.inj hrun
    exact ⟨(Prod.mk.inj this).1.symm, (Prod.mk.inj this).2.symm⟩
  have hpos : 0 < size := Nat.pos_of_ne_zero hsz
  obtain ⟨hl, hcase⟩ := hpub
  rcases hcase with ⟨h0, hbs, hla, hc, hb1, hb2, hb3, hb4⟩ | ⟨hinv, hemp⟩
  · obtain ⟨f1, f2, f3⟩ := malloc_fresh_case c s size fuel hl h0 hla hc hb1 hb3 hb4 hpos hfp hsz2
    by_cases hcr : s.brk + (c.LS + 16) ≤ s.brk_max
    · by_cases hgr : s.brk + (c.LS + 16) + (footprint c size + 4095) / 4096 * 4096 ≤ s.brk_max
      · obtain ⟨M, nw, hm, hinv1, e4, e5, e6⟩ := f3 hgr
        rw [hm] at hrun
        have hinj := Prod.mk.inj (Except.ok.inj hrun)
        right
        have hu : nw.user c ≠ 0 := by
          unfold Blk.user; have := hc.2.2.2.1; omega
        refine ⟨nw, [nw], hinj.1.symm, by rw [← hinj.1]; exact hu, ?_, e4, hpos, ?_, ?_, ?_, ?_,
          ?_, ?_⟩
        · rw [← hinj.2]
          exact ⟨rfl, Or.inr ⟨hinv1, fun h => by simp at h⟩⟩
        · rw [← hinj.2, hbs]
          exact Or.inl ⟨rfl, rfl, e5⟩
        · rw [hbs]; intro b hb; cases hb
        · rw [← hinj.2]
        · rw [← hinj.2]
        · rw [← hinj.2]
        · intro h; exact absurd h0 h
      · rw [f2 hcr hgr] at hrun
        cases hrun
    · rw [f1 hcr] at hrun
      have hinj := Prod.mk.inj (Except.ok.inj hrun)
      exact Or.inl ⟨hinj.1.symm, hinj.2.symm⟩
  · rcases malloc_inv_case c s bs size fuel hl hinv (fun h => (hemp h).1) hpos hfp hsz2 with
      ⟨h, -⟩ | h | ⟨M, brk1, nw, bs1, hm, hinv1, e3, e4, e5, e6⟩
    · rw [h] at hrun; cases hrun
    · rw [h] at hrun; cases hrun
    · rw [hm] at hrun
      have hinj := Prod.mk.inj (Except.ok.inj hrun)
      right
      have hu : nw.user c ≠ 0 := by
        have h1 : s.start + c.LS ≤ nw.h :=
          (Inv_mem_lo c _ bs1 nw hinv1 (Placed_mem c _ _ _ _ _ e4)).1
        unfold Blk.user; have := hinv.1.2.2.2.1; omega
      refine ⟨nw, bs1, hinj.1.symm, by rw [← hinj.1]; exact hu, ?_, e3, hpos, ?_, ?_, ?_, ?_,
        ?_, ?_⟩
      · rw [← hinj.2]
        refine ⟨rfl, Or.inr ⟨hinv1, fun h => ?_⟩⟩
        have := Placed_mem c _ _ _ _ _ e4
        rw [h] at this; cases this
      · rw [← hinj.2]; exact e4
      · rw [← hinj.2]; exact e5
      · rw [← hinj.2]
      · rw [← hinj.2]
      · rw [← hinj.2]
      · intro _
        rw [← hinj.2]
        exact ⟨rfl, e6⟩

/-- `free` of a live block on a state between two public calls. -/
theorem free_pub (c : Sizes) (s : Heap) (bs : List Blk) (x : Blk)
    (hpub : Pub c s bs) (hx : x ∈ bs) :
    ∃ s1 bs1, free c s (x.user c) = .ok s1 ∧ Pub c s1 bs1 ∧
      Removed c bs bs1 x s.last_addr s1.last_addr ∧ PayFrame c bs1 s.mem s1.mem ∧
      s1.start = s.start ∧ s1.g_alloc_function = s.g_alloc_function ∧
      s1.brk_max = s.brk_max := by
  obtain ⟨hl, hcase⟩ := hpub
  rcases hcase with ⟨h0, hbs, -⟩ | ⟨hinv, hemp⟩
  · rw [hbs] at hx; cases hx
  · obtain ⟨M, brk1, cur1, bs1, hrun, hinv1, hemp1, hrem, hpay⟩ :=
      free_inv_case c s bs x hl hinv hx
    exact ⟨_, bs1, hrun, ⟨rfl, Or.inr ⟨hinv1, hemp1⟩⟩, hrem, hpay, rfl, rfl, rfl⟩

/-- The zero-fill of a payload returns: the payload lies above the null address and
below the end of the address space. -/
theorem zero_fill_ok (c : Sizes) (s : Heap) (bs : List Blk) (nw : Blk) (k : Nat)
    (hpub : Pub c s bs) (hnw : nw ∈ bs) (hk : k ≤ nw.sz) :
    set_mem_zero s.mem (nw.user c) k = .ok (zeroed s.mem (nw.user c) k) := by
  have hinv : Inv c s bs := by
    rcases hpub.2 with ⟨-, h, -⟩ | ⟨h, -⟩
    · rw [h] at hnw; cases hnw
    · exact h
  have g1 := Inv_mem_lo c s bs nw hinv hnw
  have g2 := Inv_bounds c s bs hinv
  have hru := BOK_ru nw g1.2.2
  have h2 : nw.nx c = nw.h + c.HS + round_up nw.sz ALIGNMENT + c.TS + nw.ff := rfl
  have h5 : nw.user c = nw.h + c.HS := rfl
  have c5 := hinv.1.2.2.2.2.1
  apply set_mem_zero_ok
  · clear * - g1 h5 c5; omega
  · clear * - g1 g2 hru h2 h5 hk; omega

/-- The zero-fill of `calloc` stays inside the payload of the new block. -/
theorem zero_pub (c : Sizes) (s : Heap) (bs : List Blk) (nw : Blk) (k : Nat)
    (hpub : Pub c s bs) (hnw : nw ∈ bs) (hk : k ≤ nw.sz) :
    Pub c { s with mem := zeroed s.mem (nw.user c) k } bs := by
  obtain ⟨hl, hcase⟩ := hpub
  rcases hcase with ⟨h0, hbs, -⟩ | ⟨hinv, hemp⟩
  · rw [hbs] at hnw; cases hnw
  · have hru := BOK_ru nw (Inv_mem_lo c s bs nw hinv hnw).2.2
    have hfr : ∀ a, (∀ b ∈ bs, a < b.user c ∨ b.tl c ≤ a) →
        zeroed s.mem (nw.user c) k a = s.mem a := by
      intro a ha
      apply zeroed_out
      have h1 := ha nw hnw
      have h2 : nw.tl c = nw.user c + round_up nw.sz ALIGNMENT := rfl
      omega
    have hinv1 := Inv_pay_write c s bs _ hinv hfr
    refine ⟨hl, Or.inr ⟨hinv1, fun h => ?_⟩⟩
    rw [h] at hnw; cases hnw

/-- The new block lies apart from every block that was there before. -/
theorem Placed_sep (c : Sizes) (s1 : Heap) (base : Nat) (bs bs1 : List Blk) (nw : Blk)
    (size : Nat) (hinv : Inv c s1 bs1) (hpl : Placed c base bs bs1 nw size) :
    ∀ b ∈ bs, b.tl c + c.TS ≤ nw.h ∨ nw.nx c ≤ b.h := by
  obtain ⟨hc, hs0, -, hle, -, hbrk1, hbrk2, hbrk3, hmax, hmax64, hbok, hfirst, hcyc0,
    ⟨lo, hlo, htiles⟩, hcur⟩ := hinv
  have hpw := Tiles_pairwise c _ _ _ htiles
  intro b hb
  have hnx := Blk.nx_ge c b
  rcases hpl with ⟨h1, -, -⟩ | ⟨-, h1, -⟩ | ⟨A, p, B, h1, h2, -, -⟩ | ⟨A, p, h1, h2, -, -, -⟩
  · rw [h1] at hb; cases hb
  · rw [h1] at hpw
    exact Or.inr ((List.pairwise_cons.mp hpw).1 b hb)
  · rw [h2] at hpw
    rw [h1] at hb
    obtain ⟨hA, hR, hAR⟩ := List.pairwise_append.mp hpw
    simp only [List.mem_append, List.mem_cons] at hb
    rcases hb with hb | hb | hb
    · left
      have := hAR b hb nw (by simp)
      omega
    · left
      have := (List.pairwise_cons.mp hR).1 nw (by simp)
      rw [hb]
      have h3 := Blk.nx_ge c (Blk.mk p.h p.sz 0)
      have h4 : Blk.tl c (Blk.mk p.h p.sz 0) = p.tl c := rfl
      omega
    · right
      exact (List.pairwise_cons.mp (List.pairwise_cons.mp hR).2).1 b hb
  · rw [h2] at hpw
    rw [h1] at hb
    obtain ⟨hA, hR, hAR⟩ := List.pairwise_append.mp hpw
    simp only [List.mem_append, List.mem_singleton] at hb
    rcases hb with hb | hb
    · left
      have := hAR b hb nw (by simp)
      omega
    · left
      have := (List.pairwise_cons.mp hR).1 nw (by simp)
      rw [hb]
      have h3 := Blk.nx_ge c (Blk.mk p.h p.sz 0)
      have h4 : Blk.tl c (Blk.mk p.h p.sz 0) = p.tl c := rfl
      omega

/-- `calloc` on a state between two public calls. -/
theorem calloc_pub (c : Sizes) (s s1 : Heap) (bs : List Blk) (n size fuel u : Nat)
    (hpub : Pub c s bs) (hfp : footprint c (n * size % 18446744073709551616) < 2147483648)
    (hsz2 : n * size % 18446744073709551616 < 2147483648)
    (hrun : calloc c fuel s n size = .ok (u, s1)) :
    (u = 0 ∧ s1 = s) ∨
    (∃ nw bs1 s0, u = nw.user c ∧ u ≠ 0 ∧ Pub c s1 bs1 ∧
      nw.sz = n * size % 18446744073709551616 ∧
      malloc c fuel s (n * size % 18446744073709551616) = .ok (u, s0) ∧ Pub c s0 bs1 ∧
      s1 = { s0 with mem := zeroed s0.mem u (n * size % 18446744073709551616) } ∧
      Placed c s1.start bs bs1 nw (n * size % 18446744073709551616) ∧
      PayFrame c bs s.mem s1.mem) := by
  unfold calloc at hrun
  by_cases h0 : n = 0 ∨ size = 0
  · rw [if_pos h0] at hrun
    have hinj := Prod.mk.inj (Except.ok.inj hrun)
    exact Or.inl ⟨hinj.1.symm, hinj.2.symm⟩
  · rw [if_neg h0] at hrun
    cases hm : malloc c fuel s (n * size % 18446744073709551616) with
    | error e => rw [hm] at hrun; cases hrun
    | ok r =>
      obtain ⟨u0, s0⟩ := r
      rw [hm, ok_bind] at hrun
      dsimp only at hrun
      rcases malloc_pub c s s0 bs _ fuel u0 hpub hfp hsz2 hm with ⟨e1, e2⟩ |
        ⟨nw, bs1, e1, e2, e3, e4, e5, e6, e7, e8, e9, e10, e11⟩
      · rw [if_pos e1] at hrun
        have hinj := Prod.mk.inj (Except.ok.inj hrun)
        left
        exact ⟨hinj.1.symm, by rw [← hinj.2, e2]⟩
      · rw [if_neg e2] at hrun
        have hnw := Placed_mem c _ _ _ _ _ e6
        have hok := zero_fill_ok c s0 bs1 nw (n * size % 18446744073709551616) e3 hnw
          (by rw [e4])
        rw [← e1] at hok
        rw [hok, ok_bind] at hrun
        obtain ⟨hu, hs⟩ := Prod.mk.inj (Except.ok.inj hrun)
        subst hu hs
        right
        have hz := zero_pub c s0 bs1 nw (n * size % 18446744073709551616) e3 hnw (by rw [e4])
        rw [← e1] at hz
        refine ⟨nw, bs1, s0, e1, e2, hz, e4, rfl, e3, rfl, e6, ?_⟩
        intro b hb a ha1 ha2
        show zeroed s0.mem u0 _ a = s.mem a
        have hinv0 : Inv c s0 bs1 := by
          rcases e3.2 with ⟨-, h, -⟩ | ⟨h, -⟩
          · rw [h] at hnw; cases hnw
          · exact h
        have hsep := Placed_sep c s0 _ bs bs1 nw _ hinv0 e6 b hb
        have hru := BOK_ru nw (Inv_mem_lo c s0 bs1 nw hinv0 hnw).2.2
        have h2 : nw.nx c = nw.h + c.HS + round_up nw.sz ALIGNMENT + c.TS + nw.ff := rfl
        rw [zeroed_out, e7 b hb a ha1 ha2]
        rw [e1]
        have h3 : nw.tl c = nw.h + c.HS + round_up nw.sz ALIGNMENT := rfl
        have h4 : b.tl c = b.h + c.HS + round_up b.sz ALIGNMENT := rfl
        have h5 : nw.user c = nw.h + c.HS := rfl
        have h6 : b.user c = b.h + c.HS := rfl
        rw [← e4]
        clear * - hsep hru h2 h3 h4 h5 h6 ha1 ha2
        omega

/-! ## `realloc` between two public calls -/

/-- The records of a block of the directory, read from the memory of the state. -/
theorem Inv_fields (c : Sizes) (s : Heap) (A B : List Blk) (x : Blk)
    (hinv : Inv c s (A ++ x :: B)) :
    seg_size s.mem x.h = x.sz ∧ next_seg_tail s.mem x.h = x.tl c ∧
    prev_seg_head s.mem (x.tl c) = x.h ∧ free_following s.mem (x.tl c) = x.ff ∧
    next_seg_head s.mem (x.tl c) = hdOr (B ++ A) x.h ∧
    prev_seg_tail s.mem (hdOr (B ++ A) x.h) = x.tl c := by
  obtain ⟨hcyc, -, -⟩ := Inv_split c s A B x hinv
  unfold Cyc at hcyc
  simp only [Seg_cons, hdOr_cons, tlOr_cons] at hcyc
  obtain ⟨⟨g1, g2, g3, g4, g5, g6⟩, hseg⟩ := hcyc
  refine ⟨g3, g2, g4, g6, g5, ?_⟩
  cases hR : B ++ A with
  | nil =>
    rw [hR] at g1
    exact g1
  | cons n r =>
    rw [hR] at hseg
    exact hseg.1.1

theorem unlock_lock (s : Heap) (hl : s.storage_lock = false) :
    pthread_mutex_unlock { s with storage_lock := true } = s := by
  cases s
  simp only at hl
  subst hl
  rfl

theorem user_sub (c : Sizes) (x : Blk) : x.user c - c.HS = x.h := by
  unfold Blk.user; omega

/-- A write inside the payload of one block keeps the state public. -/
theorem pay_pub (c : Sizes) (s : Heap) (bs : List Blk) (nw : Blk) (M : Mem)
    (hpub : Pub c s bs) (hnw : nw ∈ bs)
    (hM : ∀ a, a < nw.user c ∨ nw.tl c ≤ a → M a = s.mem a) :
    Pub c { s with mem := M } bs := by
  obtain ⟨hl, hcase⟩ := hpub
  rcases hcase with ⟨h0, hbs, -⟩ | ⟨hinv, hemp⟩
  · rw [hbs] at hnw; cases hnw
  · have hinv1 := Inv_pay_write c s bs _ hinv (fun a ha => hM a (ha nw hnw))
    refine ⟨hl, Or.inr ⟨hinv1, fun h => ?_⟩⟩
    rw [h] at hnw; cases hnw

/-- Every block that was there before a placement is still there, with the same
head and size. -/
theorem Placed_old (c : Sizes) (base : Nat) (bs bs1 : List Blk) (nw : Blk) (size : Nat)
    (hpl : Placed c base bs bs1 nw size) :
    ∀ b ∈ bs, ∃ b1 ∈ bs1, b1.h = b.h ∧ b1.sz = b.sz := by
  intro b hb
  rcases hpl with ⟨h1, -, -⟩ | ⟨-, h1, -⟩ | ⟨A, p, B, h1, h2, -, -⟩ | ⟨A, p, h1, h2, -, -, -⟩
  · rw [h1] at hb; cases hb
  · exact ⟨b, by rw [h1]; exact List.mem_cons_of_mem _ hb, rfl, rfl⟩
  · rw [h1] at hb
    simp only [List.mem_append, List.mem_cons] at hb
    rcases hb with hb | hb | hb
    · exact ⟨b, by rw [h2]; simp [hb], rfl, rfl⟩
    · exact ⟨Blk.mk p.h p.sz 0, by rw [h2]; simp, by rw [hb], by rw [hb]⟩
    · exact ⟨b, by rw [h2]; simp [hb], rfl, rfl⟩
  · rw [h1] at hb
    simp only [List.mem_append, List.mem_singleton] at hb
    rcases hb with hb | hb
    · exact ⟨b, by rw [h2]; simp [hb], rfl, rfl⟩
    · exact ⟨Blk.mk p.h p.sz 0, by rw [h2]; simp, by rw [hb], by rw [hb]⟩

/-- Every block but the removed one is still there after a removal, with the
same head and size. -/
theorem Removed_old (c : Sizes) (bs bs1 : List Blk) (x : Blk) (cur cur1 : Nat)
    (hrm : Removed c bs bs1 x cur cur1) :
    ∀ b ∈ bs, b.h ≠ x.h → ∃ b1 ∈ bs1, b1.h = b.h ∧ b1.sz = b.sz := by
  intro b hb hne
  rcases hrm with ⟨h1, -, -⟩ | ⟨R, l, h1, h2, -⟩ | ⟨A, p, n, B, h1, h2, -⟩ | ⟨A, p, h1, h2, -⟩
  · rw [h1] at hb
    simp only [List.mem_singleton] at hb
    rw [hb] at hne
    exact absurd rfl hne
  · rw [h1] at hb
    rcases List.mem_cons.mp hb with hb | hb
    · rw [hb] at hne; exact absurd rfl hne
    · exact ⟨b, by rw [h2]; exact hb, rfl, rfl⟩
  · rw [h1] at hb
    simp only [List.mem_append, List.mem_cons] at hb
    rcases hb with hb | hb | hb | hb | hb
    · exact ⟨b, by rw [h2]; simp [hb], rfl, rfl⟩
    · exact ⟨_, by rw [h2]; exact List.mem_append_right _ (List.mem_cons_self _ _),
        by rw [hb], by rw [hb]⟩
    · rw [hb] at hne; exact absurd rfl hne
    · exact ⟨b, by rw [h2]; simp [hb], rfl, rfl⟩
    · exact ⟨b, by rw [h2]; simp [hb], rfl, rfl⟩
  · rw [h1] at hb
    simp only [List.mem_append, List.mem_cons, List.mem_singleton, List.not_mem_nil,
      or_false] at hb
    rcases hb with hb | hb | hb
    · exact ⟨b, by rw [h2]; simp [hb], rfl, rfl⟩
    · exact ⟨_, by rw [h2]; exact List.mem_append_right _ (List.mem_cons_self _ _),
        by rw [hb], by rw [hb]⟩
    · rw [hb] at hne; exact absurd rfl hne

/-- The user addresses after a placement. -/
theorem Placed_perm (c : Sizes) (base : Nat) (bs bs1 : List Blk) (nw : Blk) (size : Nat)
    (hpl : Placed c base bs bs1 nw size) :
    (bs1.map (Blk.user c)).Perm (nw.user c :: bs.map (Blk.user c)) := by
  have hu : ∀ p : Blk, Blk.user c (Blk.mk p.h p.sz 0) = Blk.user c p := fun p => rfl
  rcases hpl with ⟨h1, h2, -⟩ | ⟨-, h1, -⟩ | ⟨A, p, B, h1, h2, -, -⟩ | ⟨A, p, h1, h2, -, -, -⟩
  · rw [h1, h2]; exact List.Perm.refl _
  · rw [h1]; exact List.Perm.refl _
  · rw [h1, h2]
    simp only [List.map_append, List.map_cons, hu]
    refine (List.perm_middle.trans ?_).trans (List.Perm.cons _ List.perm_middle.symm)
    refine (List.Perm.cons _ List.perm_middle).trans ?_
    exact (List.Perm.swap _ _ _).trans (List.Perm.refl _)
  · rw [h1, h2]
    simp only [List.map_append, List.map_cons, hu, List.map_nil]
    refine (List.perm_middle.trans ?_).trans (List.Perm.cons _ List.perm_middle.symm)
    refine (List.Perm.cons _ List.perm_middle).trans ?_
    exact (List.Perm.swap _ _ _).trans (List.Perm.refl _)

/-- The user addresses before a removal. -/
theorem Removed_perm (c : Sizes) (bs bs1 : List Blk) (x : Blk) (cur cur1 : Nat)
    (hrm : Removed c bs bs1 x cur cur1) :
    (bs.map (Blk.user c)).Perm (x.user c :: bs1.map (Blk.user c)) := by
  rcases hrm with ⟨h1, h2, -⟩ | ⟨R, l, h1, h2, -⟩ | ⟨A, p, n, B, h1, h2, -⟩ | ⟨A, p, h1, h2, -⟩
  · rw [h1, h2]; exact List.Perm.refl _
  · rw [h1, h2]; exact List.Perm.refl _
  · rw [h1, h2]
    simp only [List.map_append, List.map_cons]
    refine (List.perm_middle.trans ?_).trans (List.Perm.cons _ List.perm_middle.symm)
    refine (List.Perm.cons _ List.perm_middle).trans ?_
    exact (List.Perm.swap _ _ _).trans (List.Perm.refl _)
  · rw [h1, h2]
    simp only [List.map_append, List.map_cons, List.map_nil]
    refine (List.perm_middle.trans ?_).trans (List.Perm.cons _ List.perm_middle.symm)
    refine (List.Perm.cons _ List.perm_middle).trans ?_
    exact (List.Perm.swap _ _ _).trans (List.Perm.refl _)

/-- What a public state says about one of its blocks. -/
theorem Pub_blk (c : Sizes) (s : Heap) (bs : List Blk) (x : Blk) (hpub : Pub c s bs)
    (hx : x ∈ bs) :
    s.storage_lock = false ∧ Inv c s bs ∧ x.user c ≠ 0 ∧ 0 < x.sz ∧ x.sz < 2147483648 ∧
    x.ff % 16 = 0 ∧ get_segment_size c s.mem (x.user c) = x.sz ∧
    get_following_gap_size c s.mem (x.user c) = x.ff ∧ x.nx c < 18446744073709551616 ∧
    x.nx c < s.start + 2147483648 := by
  obtain ⟨hl, hcase⟩ := hpub
  rcases hcase with ⟨h0, hbs, -⟩ | ⟨hinv, hemp⟩
  · rw [hbs] at hx; cases hx
  · obtain ⟨A, B, hAB⟩ := List.append_of_mem hx
    have hinv0 := hinv
    rw [hAB] at hinv0
    obtain ⟨f1, f2, f3, f4, f5, f6⟩ := Inv_fields c s A B x hinv0
    obtain ⟨h1, h2, h3, h4, h5, h6⟩ := Inv_mem_lo c s bs x hinv hx
    obtain ⟨hc, hs0, -, hle, -, hbrk1, hbrk2, hbrk3, hmax, hmax64, -⟩ := id hinv
    obtain ⟨-, -, -, c4, c5, c6, -, -, -⟩ := hc
    have hu : x.user c = x.h + c.HS := rfl
    refine ⟨hl, hinv, ?_, h5, h6, h4, ?_, ?_, ?_, ?_⟩
    · clear * - c5 hu; omega
    · unfold get_segment_size
      simp only [user_sub]
      exact f1
    · unfold get_following_gap_size
      simp only [user_sub]
      rw [f2]; exact f4
    · clear * - h2 hbrk1 hbrk3 hmax64; omega
    · clear * - h2 hbrk1 hbrk3 hmax; omega

/-- Resizing a live block to its recorded size returns the block and changes nothing. -/
theorem realloc_same (c : Sizes) (s : Heap) (bs : List Blk) (x : Blk) (fuel : Nat)
    (hpub : Pub c s bs) (hx : x ∈ bs) :
    realloc c fuel s (x.user c) x.sz = .ok (x.user c, s) := by
  obtain ⟨hl, hinv, hu, hsz, -, -, hg, -⟩ := Pub_blk c s bs x hpub hx
  unfold realloc pthread_mutex_lock
  rw [if_neg (by omega), if_neg hu, hl]
  simp only [Bool.false_eq_true, if_false, pure_eq_ok, ok_bind, hg]
  rw [if_neg (by omega), if_pos trivial, unlock_lock s hl]

theorem unlock_upd (s : Heap) (M : Mem) (cur : Nat) (hl : s.storage_lock = false) :
    pthread_mutex_unlock { { s with storage_lock := true } with mem := M, last_addr := cur } =
      { s with mem := M, last_addr := cur } := by
  cases s
  simp only at hl
  subst hl
  rfl

/-- Resizing a live block to a smaller size shrinks it in place. -/
theorem realloc_shrink (c : Sizes) (s : Heap) (A B : List Blk) (x : Blk) (size fuel : Nat)
    (hpub : Pub c s (A ++ x :: B)) (h0 : 0 < size) (h1 : size < x.sz) :
    ∃ M, realloc c fuel s (x.user c) size = .ok (x.user c, { s with
        mem := M, last_addr := if x.tl c = s.last_addr then x.h + c.HS + round_up size ALIGNMENT
          else s.last_addr }) ∧
      Pub c { s with
        mem := M, last_addr := if x.tl c = s.last_addr then x.h + c.HS + round_up size ALIGNMENT
          else s.last_addr }
        (A ++ Blk.mk x.h size (x.ff + (round_up x.sz ALIGNMENT - round_up size ALIGNMENT)) :: B) ∧
      (∀ b ∈ A ++ B, ∀ a, b.user c ≤ a → a < b.tl c → M a = s.mem a) ∧
      (∀ a, x.user c ≤ a → a < x.user c + round_up size ALIGNMENT → M a = s.mem a) := by
  obtain ⟨hl, hinv, hu, hsz, -, -, hg, -⟩ := Pub_blk c s _ x hpub (by simp)
  obtain ⟨M, hrun, hinv1, hf1, hf2⟩ :=
    shrink_inv c { s with storage_lock := true } A B x size (Inv_lock c s _ true hinv) h0 h1
  refine ⟨M, ?_, ⟨hl, Or.inr ⟨hinv1, fun h => ?_⟩⟩, hf1, hf2⟩
  · unfold realloc pthread_mutex_lock
    rw [if_neg (by omega), if_neg hu, hl]
    simp only [Bool.false_eq_true, if_false, pure_eq_ok, ok_bind, hg]
    rw [if_neg (by omega), if_neg (by omega), if_pos h1, hrun, ok_bind]
    simp only [ne_eq, not_true_eq_false, if_false]
    rfl
  · simp at h

/-- Resizing a live block to a larger size that fits into the block and the gap
behind it grows it in place. -/
theorem realloc_expand (c : Sizes) (s : Heap) (A B : List Blk) (x : Blk) (size fuel : Nat)
    (hpub : Pub c s (A ++ x :: B)) (h1 : x.sz < size) (h2 : size < 2147483648)
    (hfit : round_up size ALIGNMENT ≤ round_up x.sz ALIGNMENT + x.ff) :
    ∃ M, realloc c fuel s (x.user c) size = .ok (x.user c, { s with
        mem := M, last_addr := if x.tl c = s.last_addr then x.h + c.HS + round_up size ALIGNMENT
          else s.last_addr }) ∧
      Pub c { s with
        mem := M, last_addr := if x.tl c = s.last_addr then x.h + c.HS + round_up size ALIGNMENT
          else s.last_addr }
        (A ++ Blk.mk x.h size (x.ff - (round_up size ALIGNMENT - round_up x.sz ALIGNMENT)) :: B) ∧
      (∀ b ∈ A ++ B, ∀ a, b.user c ≤ a → a < b.tl c → M a = s.mem a) ∧
      (∀ a, x.user c ≤ a → a < x.tl c → M a = s.mem a) := by
  obtain ⟨hl, hinv, hu, hsz, hsz31, hff, hg, hgap, hnx, -⟩ := Pub_blk c s _ x hpub (by simp)
  obtain ⟨M, hrun, hinv1, hf1, hf2⟩ :=
    expand_inv c { s with storage_lock := true } A B x size (Inv_lock c s _ true hinv) h1 h2 hfit
  have hrf := round_up_16_of_dvd x.ff hff
  have hxn : x.nx c = x.h + c.HS + round_up x.sz ALIGNMENT + c.TS + x.ff := rfl
  have hcond : (round_up x.sz ALIGNMENT + round_up x.ff ALIGNMENT) % 18446744073709551616 ≥
      round_up size ALIGNMENT := by
    rw [hrf, Nat.mod_eq_of_lt (by clear * - hxn hnx; omega)]
    exact hfit
  refine ⟨M, ?_, ⟨hl, Or.inr ⟨hinv1, fun h => ?_⟩⟩, hf1, hf2⟩
  · unfold realloc pthread_mutex_lock
    rw [if_neg (by omega), if_neg hu, hl]
    simp only [Bool.false_eq_true, if_false, pure_eq_ok, ok_bind, hg, hgap]
    rw [if_neg (by omega), if_neg (by omega), if_neg (by omega), if_pos hcond, hrun, ok_bind]
    simp only [ne_eq, not_true_eq_false, if_false]
    rfl
  · simp at h

theorem user_congr (c : Sizes) (a b : Blk) (h : a.h = b.h) : a.user c = b.user c := by
  unfold Blk.user; rw [h]

theorem tl_congr (c : Sizes) (a b : Blk) (h : a.h = b.h) (h2 : a.sz = b.sz) :
    a.tl c = b.tl c := by
  unfold Blk.tl; rw [h, h2]

/-- Resizing a live block to a size that does not fit in place allocates a new
block, copies the old payload and frees the old block. -/
theorem realloc_move (c : Sizes) (s s1 : Heap) (bs : List Blk) (x : Blk) (size fuel u : Nat)
    (hpub : Pub c s bs) (hx : x ∈ bs) (h1 : x.sz < size)
    (hfp : footprint c size < 2147483648) (h2 : size < 2147483648)
    (hnf : round_up x.sz ALIGNMENT + x.ff < round_up size ALIGNMENT)
    (hrun : realloc c fuel s (x.user c) size = .ok (u, s1)) :
    (u = 0 ∧ s1 = s) ∨
    (∃ nw bs0 s0 x0 bs1, malloc c fuel s size = .ok (u, s0) ∧ u = nw.user c ∧ u ≠ 0 ∧
      nw.sz = size ∧ Pub c s0 bs0 ∧ Placed c s0.start bs bs0 nw size ∧
      x0 ∈ bs0 ∧ x0.h = x.h ∧ x0.sz = x.sz ∧ nw.h ≠ x.h ∧
      Pub c s1 bs1 ∧ Removed c bs0 bs1 x0 s0.last_addr s1.last_addr ∧
      (∀ i, i < x.sz → read_byte s1.mem (u + i) = read_byte s.mem (x.user c + i)) ∧
      (∀ b ∈ bs, b.h ≠ x.h → ∀ a, b.user c ≤ a → a < b.tl c → s1.mem a = s.mem a) ∧
      s1.g_alloc_function = s.g_alloc_function ∧ s1.brk_max = s.brk_max) := by
  obtain ⟨hl, hinv, hu, hsz, hsz31, hff, hg, hgap, hnx, -⟩ := Pub_blk c s _ x hpub hx
  have hrf := round_up_16_of_dvd x.ff hff
  have hxn : x.nx c = x.h + c.HS + round_up x.sz ALIGNMENT + c.TS + x.ff := rfl
  have hcond : ¬ ((round_up x.sz ALIGNMENT + round_up x.ff ALIGNMENT) % 18446744073709551616 ≥
      round_up size ALIGNMENT) := by
    rw [hrf, Nat.mod_eq_of_lt (by clear * - hxn hnx; omega)]
    clear * - hnf; omega
  unfold realloc pthread_mutex_lock at hrun
  rw [if_neg (by omega), if_neg hu, hl] at hrun
  simp only [Bool.false_eq_true, if_false, pure_eq_ok, ok_bind, hg, hgap] at hrun
  rw [if_neg (by omega), if_neg (by omega), if_neg (by omega), if_neg hcond,
    unlock_lock s hl] at hrun
  cases hm : malloc c fuel s size with
  | error e => rw [hm] at hrun; cases hrun
  | ok r =>
    obtain ⟨u0, s0⟩ := r
    rw [hm, ok_bind] at hrun
    dsimp only at hrun
    rcases malloc_pub c s s0 bs _ fuel u0 hpub hfp h2 hm with ⟨e1, e2⟩ |
      ⟨nw, bs0, e1, e2, e3, e4, e5, e6, e7, e8, e9, e10, e11⟩
    · rw [if_pos e1] at hrun
      obtain ⟨hu1, hs1⟩ := Prod.mk.inj (Except.ok.inj hrun)
      left
      exact ⟨hu1.symm, by rw [← hs1, e2]⟩
    · right
      rw [if_neg e2] at hrun
      have hnw := Placed_mem c _ _ _ _ _ e6
      obtain ⟨hl0, hinv0, -, -, -, -, -, -, -, -⟩ := Pub_blk c s0 bs0 nw e3 hnw
      have hsep := Placed_sep c s0 _ bs bs0 nw _ hinv0 e6
      have hrn := BOK_ru nw (Inv_mem_lo c s0 bs0 nw hinv0 hnw).2.2
      have hrx := BOK_ru x (Inv_mem_lo c s bs x hinv hx).2.2
      have t1 : nw.tl c = nw.h + c.HS + round_up nw.sz ALIGNMENT := rfl
      have t2 : nw.nx c = nw.tl c + c.TS + nw.ff := rfl
      have t3 : nw.user c = nw.h + c.HS := rfl
      have t4 : x.tl c = x.h + c.HS + round_up x.sz ALIGNMENT := rfl
      have t5 : x.user c = x.h + c.HS := rfl
      have hsx := hsep x hx
      have hdj : x.user c + x.sz ≤ u0 ∨ u0 + x.sz ≤ x.user c := by
        clear * - hsx hrn hrx t1 t2 t3 t4 t5 e1 e4 h1; omega
      have hne : nw.h ≠ x.h := by
        clear * - hsx hrn hrx t1 t2 t3 t4 t5 e4 h1 hsz; omega
      have hcp : copy_mem s0.mem (x.user c) u0 x.sz =
          some (copied s0.mem (x.user c) u0 x.sz) := by
        have k1 := (Inv_mem_lo c s0 bs0 nw hinv0 hnw).2.1
        have k2 := (Inv_bounds c s0 bs0 hinv0).2.2.2.2.1
        have k3 := (Inv_mem_lo c s bs x hinv hx).2.1
        have k4 := (Inv_bounds c s bs hinv).2.2.2.2.1
        apply copy_mem_ok
        · clear * - hu e2; omega
        · clear * - hu e2; omega
        · clear * - k3 k4 hrx t4 t5; unfold Blk.nx at k3; omega
        · clear * - k1 k2 hrn t1 t2 t3 e1 e4 h1; omega
        · clear * - hdj; omega
      rw [hcp] at hrun
      dsimp only at hrun
      obtain ⟨x0, hx0, hx0h, hx0s⟩ := Placed_old c _ _ _ _ _ e6 x hx
      have hpub0 : Pub c { s0 with mem := copied s0.mem (x.user c) u0 x.sz } bs0 := by
        refine pay_pub c s0 bs0 nw _ e3 hnw (fun a ha => copied_out _ _ _ _ _ ?_)
        clear * - ha hrn t1 t3 e1 e4 h1; omega
      obtain ⟨s2, bs1, f1, f2, f3, f4, f5, f6, f7⟩ := free_pub c _ bs0 x0 hpub0 hx0
      rw [user_congr c x0 x hx0h] at f1
      rw [f1, ok_bind] at hrun
      obtain ⟨hu1, hs1⟩ := Prod.mk.inj (Except.ok.inj hrun)
      subst hu1 hs1
      refine ⟨nw, bs0, s0, x0, bs1, rfl, e1, e2, e4, e3, e6, hx0, hx0h, hx0s, hne, f2, f3,
        ?_, ?_, f6.trans e9, f7.trans e10⟩
      · intro i hi
        obtain ⟨n1, hn1, hn1h, hn1s⟩ := Removed_old c _ _ _ _ _ f3 nw hnw
          (by rw [hx0h]; exact hne)
        have g1 := f4 n1 hn1 (u0 + i)
          (by rw [user_congr c n1 nw hn1h]; clear * - e1; omega)
          (by rw [tl_congr c n1 nw hn1h hn1s]; clear * - hrn t1 t3 e1 e4 h1 hi; omega)
        have g2 := copied_in s0.mem (x.user c) u0 x.sz hdj i hi
        have g3 := e7 x hx (x.user c + i) (by omega) (by clear * - hrx t4 t5 hi; omega)
        unfold read_byte
        rw [g1]
        show copied s0.mem (x.user c) u0 x.sz (u0 + i) % 256 = _
        rw [g2, g3, Nat.mod_mod]
      · intro b hb hbne a ha1 ha2
        obtain ⟨b0, hb0, hb0h, hb0s⟩ := Placed_old c _ _ _ _ _ e6 b hb
        obtain ⟨b1, hb1, hb1h, hb1s⟩ := Removed_old c _ _ _ _ _ f3 b0 hb0
          (by rw [hx0h, hb0h]; exact hbne)
        have g1 := f4 b1 hb1 a
          (by rw [user_congr c b1 b (hb1h.trans hb0h)]; exact ha1)
          (by rw [tl_congr c b1 b (hb1h.trans hb0h) (hb1s.trans hb0s)]; exact ha2)
        have hsb := hsep b hb
        have t6 : b.tl c = b.h + c.HS + round_up b.sz ALIGNMENT := rfl
        have t7 : b.user c = b.h + c.HS := rfl
        have g2 : copied s0.mem (x.user c) u0 x.sz a = s0.mem a := by
          apply copied_out
          clear * - hsb t1 t2 t3 t6 t7 ha1 ha2 hrn e1 e4 h1; omega
        rw [g1]
        show copied s0.mem (x.user c) u0 x.sz a = _
        rw [g2, e7 b hb a ha1 ha2]

/-! ## Every reachable state is a public state -/

theorem map_user_upd (c : Sizes) (A B : List Blk) (x : Blk) (sz ff : Nat) :
    (A ++ Blk.mk x.h sz ff :: B).map (Blk.user c) = (A ++ x :: B).map (Blk.user c) := by
  simp only [List.map_append, List.map_cons]
  rfl

/-- The run of `clear_alloc_storage` on a state with a directory. -/
theorem clear_run (c : Sizes) (s : Heap) (h1 : s.start + c.LS ≤ s.brk_max)
    (h2 : s.start + c.LS < 18446744073709551616) :
    clear_alloc_storage c s = .ok { s with
      mem := wr64 (wr64 s.mem s.start 0) (s.start + 8) (s.start + c.LS),
      last_addr := 0, brk := s.start + c.LS } := by
  unfold clear_alloc_storage reset_list init_tail init_first set_last_addr brk
  simp (disch := omega) only [end_addr, set_end_addr, set_first_seg, rd64_wr64_eq]
  have e : ((s.start + c.LS : Nat) : Int) - (s.start : Int) = (c.LS : Int) := by omega
  simp only [e, ASSERT_bind_true, ASSERT_true, ok_bind, pure_eq_ok, h1, if_true, ASSERT,
    bind, Except.bind]
  rfl

/-- The state after `clear_alloc_storage` holds an empty directory. -/
theorem clear_pub (c : Sizes) (s s0 : Heap) (bs : List Blk) (hpub : Pub c s bs)
    (hs0 : s.start ≠ 0) (hrun : clear_alloc_storage c s = .ok s0) : Pub c s0 [] := by
  obtain ⟨hl, hcase⟩ := hpub
  rcases hcase with ⟨e0, -⟩ | ⟨hinv, -⟩
  · exact absurd e0 hs0
  obtain ⟨hc, -, h16, hle, -, hbrk1, hbrk2, hbrk3, hmax, hmax64, -⟩ := hinv
  have c4 := hc.2.2.2.1
  rw [clear_run c s (by omega) (by omega)] at hrun
  have := Except.ok.inj hrun
  subst this
  have r1 : rd64 (wr64 (wr64 s.mem s.start 0) (s.start + 8) (s.start + c.LS)) (s.start + 8) =
      s.start + c.LS := rd64_wr64_eq _ _ _ (by omega)
  have r2 : rd64 (wr64 (wr64 s.mem s.start 0) (s.start + 8) (s.start + c.LS)) s.start = 0 := by
    rw [rd64_wr64_ne _ _ _ _ (by omega), rd64_wr64_eq _ _ _ (by omega)]
  refine ⟨hl, Or.inr ⟨?_, fun _ => ⟨r1, rfl⟩⟩⟩
  unfold Inv end_addr first_seg
  dsimp only
  rw [r1, r2]
  refine ⟨hc, hs0, h16, le_refl _, by simp, le_refl _, by omega, by omega, hmax, hmax64, ?_,
    rfl, trivial, ⟨_, le_refl _, rfl⟩, Or.inl rfl⟩
  intro b hb
  cases hb

/-- A reachable state holds a directory whose blocks are the live addresses. -/
theorem reach_pub (c : Sizes) (hc : c.ok) (s : Heap) (L : List Nat) (h : Reach c s L) :
    ∃ bs, Pub c s bs ∧ L.Perm (bs.map (Blk.user c)) := by
  induction h with
  | init m brk0 brk_max h0 h1 h2 h3 =>
    exact ⟨[], ⟨rfl, Or.inl ⟨rfl, rfl, rfl, hc, h0, h1, h2, h3⟩⟩, List.Perm.refl _⟩
  | step_select s L strat _ ih =>
    obtain ⟨bs, hp, hL⟩ := ih
    exact ⟨bs, hp, hL⟩
  | step_malloc s s1 L fuel size u _ hfp hsz hrun ih =>
    obtain ⟨bs, hp, hL⟩ := ih
    have hfp1 : footprint c size < 2147483648 := by exact hfp
    rcases malloc_pub c s s1 bs size fuel u hp hfp1 hsz hrun with ⟨e1, e2⟩ |
      ⟨nw, bs1, e1, e2, e3, e4, e5, e6, -⟩
    · rw [if_pos e1, e2]
      exact ⟨bs, hp, hL⟩
    · rw [if_neg e2]
      refine ⟨bs1, e3, ?_⟩
      rw [e1]
      exact (List.Perm.cons _ hL).trans (Placed_perm c _ _ _ _ _ e6).symm
  | step_calloc s s1 L fuel n size u _ hfp hsz hrun ih =>
    obtain ⟨bs, hp, hL⟩ := ih
    have hfp1 : footprint c (n * size % 18446744073709551616) < 2147483648 := by
      exact hfp
    rcases calloc_pub c s s1 bs n size fuel u hp hfp1 hsz hrun with ⟨e1, e2⟩ |
      ⟨nw, bs1, s0, e1, e2, e3, e4, e5, e6, e7, e8, e9⟩
    · rw [if_pos e1, e2]
      exact ⟨bs, hp, hL⟩
    · rw [if_neg e2]
      refine ⟨bs1, e3, ?_⟩
      rw [e1]
      exact (List.Perm.cons _ hL).trans (Placed_perm c _ _ _ _ _ e8).symm
  | step_free s s1 L p _ hp hrun ih =>
    obtain ⟨bs, hpub, hL⟩ := ih
    obtain ⟨x, hx, hxu⟩ := List.mem_map.mp (hL.mem_iff.mp hp)
    obtain ⟨s2, bs1, f1, f2, f3, -⟩ := free_pub c s bs x hpub hx
    rw [hxu, hrun] at f1
    have hs := Except.ok.inj f1
    subst hs
    refine ⟨bs1, f2, ?_⟩
    have h1 := (hL.trans (Removed_perm c _ _ _ _ _ f3)).erase p
    rw [hxu, List.erase_cons_head] at h1
    exact h1
  | step_realloc s s1 L fuel p size u _ hp h0 hfp hsz hrun ih =>
    obtain ⟨bs, hpub, hL⟩ := ih
    have hfp1 : footprint c size < 2147483648 := by exact hfp
    obtain ⟨x, hx, hxu⟩ := List.mem_map.mp (hL.mem_iff.mp hp)
    obtain ⟨-, -, hu0, -⟩ := Pub_blk c s bs x hpub hx
    obtain ⟨A, B, hAB⟩ := List.append_of_mem hx
    subst hxu
    rcases Nat.lt_trichotomy size x.sz with hlt | heq | hgt
    · rw [hAB] at hpub
      obtain ⟨M, r1, r2, -⟩ := realloc_shrink c s A B x size fuel hpub h0 hlt
      rw [hrun] at r1
      obtain ⟨hu1, hs1⟩ := Prod.mk.inj (Except.ok.inj r1)
      subst hu1 hs1
      rw [if_neg hu0]
      refine ⟨_, r2, ?_⟩
      rw [map_user_upd, ← hAB]
      exact (List.perm_cons_erase hp).symm.trans hL
    · subst heq
      have r1 := realloc_same c s bs x fuel hpub hx
      rw [hrun] at r1
      obtain ⟨hu1, hs1⟩ := Prod.mk.inj (Except.ok.inj r1)
      subst hu1 hs1
      rw [if_neg hu0]
      exact ⟨bs, hpub, (List.perm_cons_erase hp).symm.trans hL⟩
    · by_cases hfit : round_up size ALIGNMENT ≤ round_up x.sz ALIGNMENT + x.ff
      · rw [hAB] at hpub
        obtain ⟨M, r1, r2, -⟩ := realloc_expand c s A B x size fuel hpub hgt hsz hfit
        rw [hrun] at r1
        obtain ⟨hu1, hs1⟩ := Prod.mk.inj (Except.ok.inj r1)
        subst hu1 hs1
        rw [if_neg hu0]
        refine ⟨_, r2, ?_⟩
        rw [map_user_upd, ← hAB]
        exact (List.perm_cons_erase hp).symm.trans hL
      · rcases realloc_move c s s1 bs x size fuel u hpub hx hgt hfp1 hsz (by omega) hrun with
          ⟨e1, e2⟩ | ⟨nw, bs0, s0, x0, bs1, e1, e2, e3, e4, e5, e6, e7, e8, e9, e10, e11, e12, -⟩
        · rw [if_pos e1, e2]
          exact ⟨bs, hpub, hL⟩
        · rw [if_neg e3]
          refine ⟨bs1, e11, ?_⟩
          have hne : u ≠ x.user c := by
            rw [e2]
            unfold Blk.user
            omega
          have h1 := (List.Perm.cons (nw.user c) hL).trans (Placed_perm c _ _ _ _ _ e6).symm
          have h2 := (h1.trans (Removed_perm c _ _ _ _ _ e12)).erase (x.user c)
          rw [user_congr c x0 x e8, List.erase_cons_head, ← e2,
            List.erase_cons_tail (by simpa using hne)] at h2
          exact h2
  | step_clear s s1 L _ h0 hrun ih =>
    obtain ⟨bs, hp, -⟩ := ih
    exact ⟨[], clear_pub c s s1 bs hp h0 hrun, List.Perm.refl _⟩

/-! ## Concrete runs -/

theorem reach_heap0 : Reach sizes64 heap0 [] :=
  Reach.init _ 1000 1000000 (by decide) (by decide) (by decide) (by decide)

theorem run_heap1 : malloc sizes64 10 heap0 1 = .ok (1088, heap1) := rfl

theorem reach_heap1 : Reach sizes64 heap1 [1088] :=
  Reach.step_malloc heap0 heap1 [] 10 1 1088 reach_heap0 (by decide) (by decide) run_heap1

theorem run_heap2 : malloc sizes64 10 heap1 1 = .ok (1200, heap2) := rfl

theorem reach_heap2 : Reach sizes64 heap2 [1200, 1088] :=
  Reach.step_malloc heap1 heap2 [1088] 10 1 1200 reach_heap1 (by decide) (by decide) run_heap2

theorem run_heapA : malloc sizes64 10 heap0 32 = .ok (1088, heapA) := rfl

theorem reach_heapA : Reach sizes64 heapA [1088] :=
  Reach.step_malloc heap0 heapA [] 10 32 1088 reach_heap0 (by decide) (by decide) run_heapA

/-! ## Claims on reachable states -/

theorem pw_cases (R : Blk → Blk → Prop) (l : List Blk) (hp : l.Pairwise R) (x y : Blk)
    (hx : x ∈ l) (hy : y ∈ l) : x = y ∨ R x y ∨ R y x := by
  induction l with
  | nil => cases hx
  | cons a r ih =>
    obtain ⟨h1, h2⟩ := List.pairwise_cons.mp hp
    rcases List.mem_cons.mp hx with hx | hx <;> rcases List.mem_cons.mp hy with hy | hy
    · exact Or.inl (hx.trans hy.symm)
    · exact Or.inr (Or.inl (hx ▸ h1 y hy))
    · exact Or.inr (Or.inr (hy ▸ h1 x hx))
    · exact ih h2 hx hy

/-- Two blocks of a directory are the same block or lie apart. -/
theorem Inv_apart (c : Sizes) (s : Heap) (bs : List Blk) (hinv : Inv c s bs) (x y : Blk)
    (hx : x ∈ bs) (hy : y ∈ bs) : x = y ∨ x.nx c ≤ y.h ∨ y.nx c ≤ x.h := by
  obtain ⟨-, -, -, -, -, -, -, -, -, -, -, -, -, ⟨lo, -, htiles⟩, -⟩ := hinv
  exact pw_cases _ bs (Tiles_pairwise c _ _ _ htiles) x y hx hy

/-- A live address of a reachable state is the user address of a block of its
directory. -/
theorem reach_blk (c : Sizes) (hc : c.ok) (s : Heap) (L : List Nat) (h : Reach c s L) :
    ∃ bs, Pub c s bs ∧ L.Perm (bs.map (Blk.user c)) ∧
      ∀ u ∈ L, ∃ x ∈ bs, x.user c = u := by
  obtain ⟨bs, hp, hL⟩ := reach_pub c hc s L h
  exact ⟨bs, hp, hL, fun u hu => List.mem_map.mp (hL.mem_iff.mp hu)⟩

/-- What the memory of a public state holds for a block of its directory. -/
theorem Pub_read (c : Sizes) (s : Heap) (bs : List Blk) (x : Blk) (hpub : Pub c s bs)
    (hx : x ∈ bs) :
    x.user c - c.HS = x.h ∧ seg_size s.mem x.h = x.sz ∧ next_seg_tail s.mem x.h = x.tl c ∧
    prev_seg_head s.mem (x.tl c) = x.h ∧ free_following s.mem (x.tl c) = x.ff ∧
    prev_seg_tail s.mem (next_seg_head s.mem (x.tl c)) = x.tl c ∧
    s.start + c.LS ≤ x.h ∧ x.nx c ≤ end_addr s.mem s.start ∧
    x.sz ≤ round_up x.sz ALIGNMENT := by
  obtain ⟨hl, hinv, -⟩ := Pub_blk c s bs x hpub hx
  obtain ⟨A, B, hAB⟩ := List.append_of_mem hx
  have hinv0 := hinv
  rw [hAB] at hinv0
  obtain ⟨f1, f2, f3, f4, f5, f6⟩ := Inv_fields c s A B x hinv0
  obtain ⟨h1, h2, h3⟩ := Inv_mem_lo c s bs x hinv hx
  exact ⟨user_sub c x, f1, f2, f3, f4, by rw [f5]; exact f6, h1, h2, (BOK_ru x h3).2.1⟩

/-- Claim C1: in every state reachable from a fresh process by the public calls
on live addresses, the live addresses are pairwise distinct, the range
`[head, tail + sizeof(tail))` of every live block lies inside
`[base + sizeof(header), end)` and holds the payload `[u, u + size)`, and the
ranges, hence the payloads, of two distinct live blocks are disjoint. -/
theorem C1_live_blocks_disjoint (c : Sizes) (hc : c.ok) (s : Heap) (L : List Nat)
    (h : Reach c s L) :
    L.Nodup ∧
    (∀ u ∈ L, s.start + c.LS ≤ u - c.HS ∧ u - c.HS + c.HS = u ∧
      u + get_segment_size c s.mem u ≤ next_seg_tail s.mem (u - c.HS) ∧
      next_seg_tail s.mem (u - c.HS) + c.TS ≤ end_addr s.mem s.start) ∧
    (∀ u ∈ L, ∀ v ∈ L, u ≠ v →
      (next_seg_tail s.mem (u - c.HS) + c.TS ≤ v - c.HS ∨
        next_seg_tail s.mem (v - c.HS) + c.TS ≤ u - c.HS) ∧
      (u + get_segment_size c s.mem u ≤ v ∨ v + get_segment_size c s.mem v ≤ u)) := by
  obtain ⟨bs, hp, hL, hget⟩ := reach_blk c hc s L h
  have hrange : ∀ x ∈ bs, s.start + c.LS ≤ x.user c - c.HS ∧ x.user c - c.HS + c.HS = x.user c ∧
      x.user c + get_segment_size c s.mem (x.user c) ≤ next_seg_tail s.mem (x.user c - c.HS) ∧
      next_seg_tail s.mem (x.user c - c.HS) + c.TS ≤ end_addr s.mem s.start := by
    intro x hx
    obtain ⟨r1, r2, r3, r4, r5, r6, r7, r8, r9⟩ := Pub_read c s bs x hp hx
    unfold get_segment_size
    simp only [r1, r2, r3]
    have t1 : x.tl c = x.h + c.HS + round_up x.sz ALIGNMENT := rfl
    have t2 : x.nx c = x.tl c + c.TS + x.ff := rfl
    have t3 : x.user c = x.h + c.HS := rfl
    clear * - r7 r8 r9 t1 t2 t3
    omega
  have hapart : ∀ x ∈ bs, ∀ y ∈ bs, x.user c ≠ y.user c →
      (next_seg_tail s.mem (x.user c - c.HS) + c.TS ≤ y.user c - c.HS ∨
        next_seg_tail s.mem (y.user c - c.HS) + c.TS ≤ x.user c - c.HS) ∧
      (x.user c + get_segment_size c s.mem (x.user c) ≤ y.user c ∨
        y.user c + get_segment_size c s.mem (y.user c) ≤ x.user c) := by
    intro x hx y hy hne
    obtain ⟨-, hinv, -⟩ := Pub_blk c s bs x hp hx
    obtain ⟨r1, r2, r3, r4, r5, r6, r7, r8, r9⟩ := Pub_read c s bs x hp hx
    obtain ⟨q1, q2, q3, q4, q5, q6, q7, q8, q9⟩ := Pub_read c s bs y hp hy
    unfold get_segment_size
    simp only [r1, r2, r3, q1, q2, q3]
    have t1 : x.tl c = x.h + c.HS + round_up x.sz ALIGNMENT := rfl
    have t2 : x.nx c = x.tl c + c.TS + x.ff := rfl
    have t3 : x.user c = x.h + c.HS := rfl
    have t4 : y.tl c = y.h + c.HS + round_up y.sz ALIGNMENT := rfl
    have t5 : y.nx c = y.tl c + c.TS + y.ff := rfl
    have t6 : y.user c = y.h + c.HS := rfl
    rcases Inv_apart c s bs hinv x y hx hy with e | e | e
    · exact absurd (by rw [e]) hne
    · clear * - e r9 q9 t1 t2 t3 t4 t5 t6; omega
    · clear * - e r9 q9 t1 t2 t3 t4 t5 t6; omega
  refine ⟨?_, ?_, ?_⟩
  · refine hL.nodup_iff.mpr ?_
    rcases hp.2 with ⟨-, hbs, -⟩ | ⟨hinv, -⟩
    · rw [hbs]; exact List.nodup_nil
    · obtain ⟨-, -, -, -, -, -, -, -, -, -, -, -, -, ⟨lo, -, htiles⟩, -⟩ := hinv
      refine List.Pairwise.map _ (fun a b hab => ?_) (Tiles_pairwise c _ _ _ htiles)
      have t1 : a.nx c = a.h + c.HS + round_up a.sz ALIGNMENT + c.TS + a.ff := rfl
      have t2 : a.user c = a.h + c.HS := rfl
      have t3 : b.user c = b.h + c.HS := rfl
      have c5 := hc.2.2.2.2.1
      clear * - hab t1 t2 t3 c5
      omega
  · intro u hu
    obtain ⟨x, hx, hxu⟩ := hget u hu
    rw [← hxu]
    exact hrange x hx
  · intro u hu v hv hne
    obtain ⟨x, hx, hxu⟩ := hget u hu
    obtain ⟨y, hy, hyu⟩ := hget v hv
    rw [← hxu, ← hyu]
    exact hapart x hx y hy (by rw [hxu, hyu]; exact hne)

/-- Claim C1 at the state after two calls `malloc(1)` on the fresh process. -/
theorem C1_live_blocks_disjoint_witness :
    sizes64.ok ∧ Reach sizes64 heap2 [1200, 1088] ∧
    ([1200, 1088] : List Nat).Nodup ∧
    (∀ u ∈ [1200, 1088], heap2.start + sizes64.LS ≤ u - sizes64.HS ∧
      u - sizes64.HS + sizes64.HS = u ∧
      u + get_segment_size sizes64 heap2.mem u ≤ next_seg_tail heap2.mem (u - sizes64.HS) ∧
      next_seg_tail heap2.mem (u - sizes64.HS) + sizes64.TS ≤
        end_addr heap2.mem heap2.start) ∧
    (∀ u ∈ [1200, 1088], ∀ v ∈ [1200, 1088], u ≠ v →
      (next_seg_tail heap2.mem (u - sizes64.HS) + sizes64.TS ≤ v - sizes64.HS ∨
        next_seg_tail heap2.mem (v - sizes64.HS) + sizes64.TS ≤ u - sizes64.HS) ∧
      (u + get_segment_size sizes64 heap2.mem u ≤ v ∨
        v + get_segment_size sizes64 heap2.mem v ≤ u)) :=
  ⟨by decide, reach_heap2,
    C1_live_blocks_disjoint sizes64 (by decide) heap2 [1200, 1088] reach_heap2⟩

/-- The live addresses of a reachable state are multiples of `ALIGNMENT`. -/
theorem live_aligned (c : Sizes) (hc : c.ok) (s : Heap) (L : List Nat) (h : Reach c s L) :
    ∀ u ∈ L, u % 16 = 0 := by
  obtain ⟨bs, hp, hL, hget⟩ := reach_blk c hc s L h
  intro u hu
  obtain ⟨x, hx, hxu⟩ := hget u hu
  obtain ⟨-, hinv, -⟩ := Pub_blk c s bs x hp hx
  obtain ⟨-, -, hb, -⟩ := Inv_mem_lo c s bs x hinv hx
  have c2 := hc.2.1
  have t : x.user c = x.h + c.HS := rfl
  omega

/-- Claim C3: invalid requests are no-ops.  `malloc(0)`, `calloc(n, s)` with
`n = 0` or `s = 0` and `realloc(p, 0)` return the null address and `free(nullptr)`
returns, each with the state, hence the directory, the cursor, the break and the
block `p` with its recorded size, exactly as before the call. -/
theorem C3_invalid_requests_noop (c : Sizes) (fuel : Nat) (s : Heap) :
    malloc c fuel s 0 = .ok (0, s) ∧
    (∀ n size, n = 0 ∨ size = 0 → calloc c fuel s n size = .ok (0, s)) ∧
    (∀ p, realloc c fuel s p 0 = .ok (0, s)) ∧
    free c s 0 = .ok s ∧
    (∀ p r, realloc c fuel s p 0 = .ok r →
      r.1 = 0 ∧ get_segment_size c r.2.mem p = get_segment_size c s.mem p ∧
      first_seg r.2.mem r.2.start = first_seg s.mem s.start ∧
      r.2.last_addr = s.last_addr ∧ r.2.brk = s.brk) := by
  have h3 : ∀ p, realloc c fuel s p 0 = .ok (0, s) := fun p => by
    unfold realloc
    rw [if_pos rfl]
    rfl
  refine ⟨?_, ?_, h3, ?_, ?_⟩
  · unfold malloc
    rw [if_pos rfl]
    rfl
  · intro n size h
    unfold calloc
    rw [if_pos h]
    rfl
  · unfold free
    rw [if_pos rfl]
    rfl
  · intro p r hr
    rw [h3 p] at hr
    have := Except.ok.inj hr
    subst this
    exact ⟨rfl, rfl, rfl, rfl, rfl⟩

/-- Claim C4: for every `s > 0` and every state, `realloc(nullptr, s)` returns the
address and leaves the state that `malloc(s)` gives on that state. -/
theorem C4_realloc_null_is_malloc (c : Sizes) (fuel : Nat) (s : Heap) (size : Nat)
    (h : 0 < size) : realloc c fuel s 0 size = malloc c fuel s size := by
  unfold realloc
  rw [if_neg (by omega), if_pos rfl]

/-- Claim C4 at the fresh process and the size `1`. -/
theorem C4_realloc_null_is_malloc_witness :
    0 < 1 ∧ realloc sizes64 10 heap0 0 1 = malloc sizes64 10 heap0 1 :=
  ⟨by decide, C4_realloc_null_is_malloc sizes64 10 heap0 1 (by decide)⟩

/-- Claim C5: for every live block `p` of a reachable state, `realloc(p, size_of(p))`
returns `p` and leaves the whole state, so the directory, the cursor, the break
and every payload byte, unchanged. -/
theorem C5_realloc_same_size (c : Sizes) (hc : c.ok) (s : Heap) (L : List Nat)
    (h : Reach c s L) (fuel p : Nat) (hp : p ∈ L) :
    realloc c fuel s p (get_segment_size c s.mem p) = .ok (p, s) := by
  obtain ⟨bs, hpub, hL, hget⟩ := reach_blk c hc s L h
  obtain ⟨x, hx, hxu⟩ := hget p hp
  obtain ⟨-, -, -, -, -, -, hg, -⟩ := Pub_blk c s bs x hpub hx
  rw [← hxu, hg]
  exact realloc_same c s bs x fuel hpub hx

/-- Claim C5 at the block `1088` of the state after `malloc(1)`. -/
theorem C5_realloc_same_size_witness :
    sizes64.ok ∧ Reach sizes64 heap1 [1088] ∧ 1088 ∈ [1088] ∧
    realloc sizes64 10 heap1 1088 (get_segment_size sizes64 heap1.mem 1088) =
      .ok (1088, heap1) :=
  ⟨by decide, reach_heap1, by decide,
    C5_realloc_same_size sizes64 (by decide) heap1 [1088] reach_heap1 10 1088 (by decide)⟩

/-! ## Claims on `realloc` and `calloc` -/

/-- A block of a list other than a given block of it lies in the rest of the list. -/
theorem mem_rest (A B : List Blk) (x y : Blk) (hy : y ∈ A ++ x :: B) (hne : y ≠ x) :
    y ∈ A ++ B := by
  simp only [List.mem_append, List.mem_cons] at hy ⊢
  rcases hy with h | h | h
  · exact Or.inl h
  · exact absurd h hne
  · exact Or.inr h

/-- Replacing one block of a public state: the other blocks read the same sizes
and gaps in both states. -/
theorem others_same (c : Sizes) (s s1 : Heap) (A B : List Blk) (x x1 : Blk)
    (hp : Pub c s (A ++ x :: B)) (hp1 : Pub c s1 (A ++ x1 :: B)) (y : Blk) (hy : y ∈ A ++ B) :
    get_segment_size c s1.mem (y.user c) = get_segment_size c s.mem (y.user c) ∧
    get_following_gap_size c s1.mem (y.user c) =
      get_following_gap_size c s.mem (y.user c) := by
  have m0 : y ∈ A ++ x :: B := by
    simp only [List.mem_append, List.mem_cons] at hy ⊢
    rcases hy with h | h
    · exact Or.inl h
    · exact Or.inr (Or.inr h)
  have m1 : y ∈ A ++ x1 :: B := by
    simp only [List.mem_append, List.mem_cons] at hy ⊢
    rcases hy with h | h
    · exact Or.inl h
    · exact Or.inr (Or.inr h)
  obtain ⟨-, -, -, -, -, -, a1, a2, -⟩ := Pub_blk c s _ y hp m0
  obtain ⟨-, -, -, -, -, -, b1, b2, -⟩ := Pub_blk c s1 _ y hp1 m1
  rw [a1, a2, b1, b2]
  exact ⟨rfl, rfl⟩

/-- Claim C6: for a live block `p` of recorded size `n` and `0 < s < n`,
`realloc(p, s)` returns `p`; afterwards the recorded size of `p` is `s`, its tail
sits at `head + sizeof(head) + roundup(s, A)`, its `free_following` has grown by
exactly `roundup(n, A) - roundup(s, A)`, the `prev_tail` of the next block is the
moved tail, and the size and `free_following` of every other live block are as
before. -/
theorem C6_realloc_shrink (c : Sizes) (hc : c.ok) (s : Heap) (L : List Nat)
    (h : Reach c s L) (fuel p size : Nat) (hp : p ∈ L) (h0 : 0 < size)
    (h1 : size < get_segment_size c s.mem p) :
    ∃ s1, realloc c fuel s p size = .ok (p, s1) ∧
      get_segment_size c s1.mem p = size ∧
      next_seg_tail s1.mem (p - c.HS) = p - c.HS + c.HS + round_up size ALIGNMENT ∧
      round_up size ALIGNMENT ≤ round_up (get_segment_size c s.mem p) ALIGNMENT ∧
      get_following_gap_size c s1.mem p = get_following_gap_size c s.mem p +
        (round_up (get_segment_size c s.mem p) ALIGNMENT - round_up size ALIGNMENT) ∧
      prev_seg_tail s1.mem (next_seg_head s1.mem (next_seg_tail s1.mem (p - c.HS))) =
        next_seg_tail s1.mem (p - c.HS) ∧
      (∀ q ∈ L, q ≠ p →
        get_segment_size c s1.mem q = get_segment_size c s.mem q ∧
        get_following_gap_size c s1.mem q = get_following_gap_size c s.mem q) := by
  obtain ⟨bs, hpub, hL, hget⟩ := reach_blk c hc s L h
  obtain ⟨x, hx, hxu⟩ := hget p hp
  obtain ⟨-, -, -, hsz, hsz31, -, hg, hgap, -⟩ := Pub_blk c s bs x hpub hx
  obtain ⟨A, B, hAB⟩ := List.append_of_mem hx
  subst hxu
  rw [hg] at h1 ⊢
  rw [hgap]
  rw [hAB] at hpub
  obtain ⟨M, hrun, hpub1, -, -⟩ := realloc_shrink c s A B x size fuel hpub h0 h1
  have hx1 : Blk.mk x.h size (x.ff + (round_up x.sz ALIGNMENT - round_up size ALIGNMENT)) ∈
      A ++ Blk.mk x.h size (x.ff + (round_up x.sz ALIGNMENT - round_up size ALIGNMENT)) :: B :=
    by simp
  obtain ⟨-, -, -, -, -, -, g1, g2, -⟩ := Pub_blk c _ _ _ hpub1 hx1
  obtain ⟨r1, r2, r3, r4, r5, r6, -⟩ := Pub_read c _ _ _ hpub1 hx1
  refine ⟨_, hrun, g1, ?_, round_up_16_mono _ _ (by omega) (by omega), g2, ?_, ?_⟩
  · rw [user_sub]
    exact r3
  · rw [user_sub]
    rw [show next_seg_tail M x.h = _ from r3]
    exact r6
  · intro q hq hne
    obtain ⟨y, hy, hyu⟩ := hget q hq
    subst hyu
    rw [hAB] at hy
    have hyx : y ≠ x := fun e => hne (by rw [e])
    exact others_same c s _ A B x _ hpub hpub1 y (mem_rest A B x y hy hyx)

/-- Claim C6 at the block `1088` of size `32` after `malloc(32)`, shrunk to `16`. -/
theorem C6_realloc_shrink_witness :
    sizes64.ok ∧ Reach sizes64 heapA [1088] ∧ 1088 ∈ [1088] ∧ 0 < 16 ∧
    16 < get_segment_size sizes64 heapA.mem 1088 ∧
    ∃ s1, realloc sizes64 10 heapA 1088 16 = .ok (1088, s1) ∧
      get_segment_size sizes64 s1.mem 1088 = 16 ∧
      get_following_gap_size sizes64 s1.mem 1088 =
        get_following_gap_size sizes64 heapA.mem 1088 +
          (round_up (get_segment_size sizes64 heapA.mem 1088) ALIGNMENT -
            round_up 16 ALIGNMENT) :=
  ⟨by decide, reach_heapA, by decide, by decide, by decide,
    match C6_realloc_shrink sizes64 (by decide) heapA [1088] reach_heapA 10 1088 16
      (by decide) (by decide) (by decide) with
    | ⟨s1, h1, h2, _, _, h5, _⟩ => ⟨s1, h1, h2, h5⟩⟩

/-- Claim C7, for sizes in the `int` range: for a live block `p` of recorded size
`n` with trailing gap `f` and `s > n` whose footprint is below `2^31`,
`realloc(p, s)` returns `p` exactly when
`roundup(n, A) + roundup(f, A) >= roundup(s, A)`; in that case it does return, the
recorded size becomes `s` and `free_following` decreases by exactly
`roundup(s, A) - roundup(n, A)`; and a block shrunk from `n` to `m` grows back in
place to every size up to `n`. -/
theorem C7_realloc_grow (c : Sizes) (hc : c.ok) (s : Heap) (L : List Nat)
    (h : Reach c s L) (fuel p size : Nat) (hp : p ∈ L)
    (h1 : get_segment_size c s.mem p < size) (h2 : size < I31)
    (hfp : footprint c size < I31) :
    (round_up size ALIGNMENT ≤ round_up (get_segment_size c s.mem p) ALIGNMENT +
        round_up (get_following_gap_size c s.mem p) ALIGNMENT →
      ∃ s1, realloc c fuel s p size = .ok (p, s1) ∧ get_segment_size c s1.mem p = size ∧
        round_up (get_segment_size c s.mem p) ALIGNMENT ≤ round_up size ALIGNMENT ∧
        get_following_gap_size c s1.mem p +
          (round_up size ALIGNMENT - round_up (get_segment_size c s.mem p) ALIGNMENT) =
            get_following_gap_size c s.mem p) ∧
    (∀ u s1, realloc c fuel s p size = .ok (u, s1) →
      (u = p ↔ round_up size ALIGNMENT ≤ round_up (get_segment_size c s.mem p) ALIGNMENT +
        round_up (get_following_gap_size c s.mem p) ALIGNMENT)) ∧
    (∀ m k s1, 0 < m → m < get_segment_size c s.mem p →
      realloc c fuel s p m = .ok (p, s1) → m < k → k ≤ get_segment_size c s.mem p →
      ∃ s2, realloc c fuel s1 p k = .ok (p, s2)) := by
  obtain ⟨bs, hpub, hL, hget⟩ := reach_blk c hc s L h
  obtain ⟨x, hx, hxu⟩ := hget p hp
  obtain ⟨-, -, hu0, hsz, hsz31, hff, hg, hgap, -⟩ := Pub_blk c s bs x hpub hx
  obtain ⟨A, B, hAB⟩ := List.append_of_mem hx
  subst hxu
  rw [hg] at h1 ⊢
  rw [hgap, round_up_16_of_dvd x.ff hff]
  have hmono : ∀ a b, a ≤ b → b < 2147483648 →
      round_up a ALIGNMENT ≤ round_up b ALIGNMENT :=
    fun a b hab hb => round_up_16_mono a b hab (by omega)
  have hpub0 := hpub
  rw [hAB] at hpub
  have hexp : round_up size ALIGNMENT ≤ round_up x.sz ALIGNMENT + x.ff →
      ∃ s1, realloc c fuel s (x.user c) size = .ok (x.user c, s1) ∧
        get_segment_size c s1.mem (x.user c) = size ∧
        round_up x.sz ALIGNMENT ≤ round_up size ALIGNMENT ∧
        get_following_gap_size c s1.mem (x.user c) +
          (round_up size ALIGNMENT - round_up x.sz ALIGNMENT) = x.ff := by
    intro hfit
    obtain ⟨M, hrun, hpub1, -, -⟩ := realloc_expand c s A B x size fuel hpub h1 h2 hfit
    have hx1 : Blk.mk x.h size (x.ff - (round_up size ALIGNMENT - round_up x.sz ALIGNMENT)) ∈
        A ++ Blk.mk x.h size (x.ff - (round_up size ALIGNMENT - round_up x.sz ALIGNMENT)) :: B :=
      by simp
    obtain ⟨-, -, -, -, -, -, g1, g2, -⟩ := Pub_blk c _ _ _ hpub1 hx1
    have hm := hmono x.sz size (by omega) h2
    refine ⟨_, hrun, g1, hm, ?_⟩
    rw [show get_following_gap_size c M (x.user c) = _ from g2]
    show x.ff - (round_up size ALIGNMENT - round_up x.sz ALIGNMENT) +
      (round_up size ALIGNMENT - round_up x.sz ALIGNMENT) = x.ff
    clear * - hfit hm
    omega
  refine ⟨hexp, ?_, ?_⟩
  · intro u s1 hrun
    constructor
    · intro hu
      by_contra hnf
      rcases realloc_move c s s1 bs x size fuel u hpub0 hx h1 hfp h2 (by omega) hrun with
        ⟨e1, -⟩ | ⟨nw, bs0, s0, x0, bs1, e1, e2, e3, e4, e5, e6, e7, e8, e9, e10, -⟩
      · exact hu0 (hu.symm.trans e1)
      · apply e10
        have t1 : nw.user c = nw.h + c.HS := rfl
        have t2 : x.user c = x.h + c.HS := rfl
        clear * - hu e2 t1 t2
        omega
    · intro hfit
      obtain ⟨s2, hrun2, -⟩ := hexp hfit
      rw [hrun] at hrun2
      exact (Prod.mk.inj (Except.ok.inj hrun2)).1
  · intro m k s1 hm0 hmn hrun hmk hkn
    obtain ⟨M, hrun1, hpub1, -, -⟩ := realloc_shrink c s A B x m fuel hpub hm0 hmn
    rw [hrun] at hrun1
    obtain ⟨-, hs1⟩ := Prod.mk.inj (Except.ok.inj hrun1)
    subst hs1
    have ha := hmono m x.sz (by omega) hsz31
    have hb := hmono k x.sz hkn hsz31
    obtain ⟨M2, hrun2, -⟩ := realloc_expand c _ A B
      (Blk.mk x.h m (x.ff + (round_up x.sz ALIGNMENT - round_up m ALIGNMENT))) k fuel hpub1
      hmk (by omega) (by
        show round_up k ALIGNMENT ≤ round_up m ALIGNMENT +
          (x.ff + (round_up x.sz ALIGNMENT - round_up m ALIGNMENT))
        clear * - ha hb
        omega)
    exact ⟨_, hrun2⟩

/-- Claim C7 at the block `1088` of size `1` after `malloc(1)`, grown to `17`. -/
theorem C7_realloc_grow_witness :
    sizes64.ok ∧ Reach sizes64 heap1 [1088] ∧ 1088 ∈ [1088] ∧
    get_segment_size sizes64 heap1.mem 1088 < 17 ∧ 17 < I31 ∧ footprint sizes64 17 < I31 ∧
    (∀ u s1, realloc sizes64 10 heap1 1088 17 = .ok (u, s1) →
      (u = 1088 ↔ round_up 17 ALIGNMENT ≤
        round_up (get_segment_size sizes64 heap1.mem 1088) ALIGNMENT +
          round_up (get_following_gap_size sizes64 heap1.mem 1088) ALIGNMENT)) :=
  ⟨by decide, reach_heap1, by decide, by decide, by decide, by decide,
    (C7_realloc_grow sizes64 (by decide) heap1 [1088] reach_heap1 10 1088 17
      (by decide) (by decide) (by decide) (by decide)).2.1⟩

/-- The claim C7 fails for `s = SIZE_MAX`, where `round_up` wraps to `0`: on the
block `1088` of size `1` with a gap of `3984` bytes, `realloc` returns the block
although `16 + 3984` is below the multiple of `16` above `s`, and the gap has
grown by `16` bytes. -/
theorem C7_counterexample :
    get_segment_size sizes64 heap1.mem 1088 = 1 ∧
    get_following_gap_size sizes64 heap1.mem 1088 = 3984 ∧
    ret (realloc sizes64 10 heap1 1088 SIZE_MAX) = 1088 ∧
    ¬ ((SIZE_MAX + 15) / 16 * 16 ≤ 16 + 3984) ∧
    get_segment_size sizes64 (after heap1 (realloc sizes64 10 heap1 1088 SIZE_MAX)).mem 1088 =
      SIZE_MAX ∧
    get_following_gap_size sizes64
      (after heap1 (realloc sizes64 10 heap1 1088 SIZE_MAX)).mem 1088 = 3984 + 16 := by
  decide

/-- The footprint of a block of a public state lies in the `int` range. -/
theorem Pub_fp (c : Sizes) (s : Heap) (bs : List Blk) (x : Blk) (hpub : Pub c s bs)
    (hx : x ∈ bs) : footprint c x.sz < 2147483648 := by
  obtain ⟨-, -, -, -, -, -, -, -, -, hnx⟩ := Pub_blk c s bs x hpub hx
  obtain ⟨-, -, -, -, -, -, hlo, -, -⟩ := Pub_read c s bs x hpub hx
  have t1 : x.nx c = x.h + c.HS + round_up x.sz ALIGNMENT + c.TS + x.ff := rfl
  have t2 : footprint c x.sz = c.HS + round_up x.sz ALIGNMENT + c.TS := rfl
  omega

/-- A returned `realloc` of a live block keeps the first bytes of the payload
and records the new size. -/
theorem realloc_bytes (c : Sizes) (s s1 : Heap) (bs : List Blk) (x : Blk)
    (size fuel u : Nat) (hpub : Pub c s bs) (hx : x ∈ bs) (h0 : 0 < size)
    (h2 : size < 2147483648) (hfp : footprint c size < 2147483648)
    (hrun : realloc c fuel s (x.user c) size = .ok (u, s1)) (hu : u ≠ 0) :
    (∀ i, i < min size x.sz → read_byte s1.mem (u + i) = read_byte s.mem (x.user c + i)) ∧
    get_segment_size c s1.mem u = size := by
  obtain ⟨-, -, hu0, hsz, hsz31, hff, hg, hgap, -⟩ := Pub_blk c s bs x hpub hx
  obtain ⟨A, B, hAB⟩ := List.append_of_mem hx
  have hpub0 := hpub
  rw [hAB] at hpub
  rcases Nat.lt_trichotomy size x.sz with hlt | heq | hgt
  · obtain ⟨M, r1, r2, -, r4⟩ := realloc_shrink c s A B x size fuel hpub h0 hlt
    rw [hrun] at r1
    obtain ⟨hu1, hs1⟩ := Prod.mk.inj (Except.ok.inj r1)
    subst hu1 hs1
    have hx1 : Blk.mk x.h size (x.ff + (round_up x.sz ALIGNMENT - round_up size ALIGNMENT)) ∈
        A ++ Blk.mk x.h size (x.ff + (round_up x.sz ALIGNMENT - round_up size ALIGNMENT)) :: B :=
      by simp
    obtain ⟨-, -, -, -, -, -, g1, -⟩ := Pub_blk c _ _ _ r2 hx1
    refine ⟨fun i hi => ?_, g1⟩
    have hru := round_up_16 size (by omega)
    have e : M (x.user c + i) = s.mem (x.user c + i) :=
      r4 _ (by omega) (by clear * - hi hru; omega)
    show M (x.user c + i) % 256 = s.mem (x.user c + i) % 256
    rw [e]
  · subst heq
    have r1 := realloc_same c s bs x fuel hpub0 hx
    rw [hrun] at r1
    obtain ⟨hu1, hs1⟩ := Prod.mk.inj (Except.ok.inj r1)
    subst hu1 hs1
    exact ⟨fun i hi => rfl, hg⟩
  · by_cases hfit : round_up size ALIGNMENT ≤ round_up x.sz ALIGNMENT + x.ff
    · obtain ⟨M, r1, r2, -, r4⟩ := realloc_expand c s A B x size fuel hpub hgt h2 hfit
      rw [hrun] at r1
      obtain ⟨hu1, hs1⟩ := Prod.mk.inj (Except.ok.inj r1)
      subst hu1 hs1
      have hx1 : Blk.mk x.h size (x.ff - (round_up size ALIGNMENT - round_up x.sz ALIGNMENT)) ∈
          A ++ Blk.mk x.h size (x.ff - (round_up size ALIGNMENT - round_up x.sz ALIGNMENT)) ::
            B := by simp
      obtain ⟨-, -, -, -, -, -, g1, -⟩ := Pub_blk c _ _ _ r2 hx1
      refine ⟨fun i hi => ?_, g1⟩
      have hru := round_up_16 x.sz (by omega)
      have t1 : x.tl c = x.user c + round_up x.sz ALIGNMENT := rfl
      have e : M (x.user c + i) = s.mem (x.user c + i) :=
        r4 _ (by omega) (by clear * - hi hru t1; omega)
      show M (x.user c + i) % 256 = s.mem (x.user c + i) % 256
      rw [e]
    · rcases realloc_move c s s1 bs x size fuel u hpub0 hx hgt hfp h2 (by omega) hrun with
        ⟨e1, -⟩ | ⟨nw, bs0, s0, x0, bs1, e1, e2, e3, e4, e5, e6, e7, e8, e9, e10, e11, e12,
          e13, -⟩
      · exact absurd e1 hu
      · obtain ⟨n1, hn1, hn1h, hn1s⟩ := Removed_old c _ _ _ _ _ e12 nw
          (Placed_mem c _ _ _ _ _ e6) (by rw [e8]; exact e10)
        obtain ⟨-, -, -, -, -, -, g1, -⟩ := Pub_blk c s1 bs1 n1 e11 hn1
        rw [user_congr c n1 nw hn1h, hn1s, e4, ← e2] at g1
        exact ⟨fun i hi => e13 i (by omega), g1⟩

/-- Claim C8, for sizes in the `int` range: for a live block `p` with recorded
size `n` and `s > 0` whose footprint is below `2^31`, if `realloc(p, s)` returns
a non-null `u` then the bytes `[0, min(s, n))` at `u` are those that were at
`p`, whether the resize was done in place or by allocate-copy-free; and after a
further `realloc(u, n)` that returns non-null the same bytes are at the address
it returns. -/
theorem C8_realloc_keeps_payload (c : Sizes) (hc : c.ok) (s : Heap) (L : List Nat)
    (h : Reach c s L) (fuel p size u : Nat) (s1 : Heap) (hp : p ∈ L) (h0 : 0 < size)
    (h2 : size < I31) (hfp : footprint c size < I31)
    (hrun : realloc c fuel s p size = .ok (u, s1)) (hu : u ≠ 0) :
    (∀ i, i < min size (get_segment_size c s.mem p) →
      read_byte s1.mem (u + i) = read_byte s.mem (p + i)) ∧
    (∀ fuel2 u2 s2, realloc c fuel2 s1 u (get_segment_size c s.mem p) = .ok (u2, s2) →
      u2 ≠ 0 → ∀ i, i < min size (get_segment_size c s.mem p) →
        read_byte s2.mem (u2 + i) = read_byte s.mem (p + i)) := by
  obtain ⟨bs, hpub, hL, hget⟩ := reach_blk c hc s L h
  obtain ⟨x, hx, hxu⟩ := hget p hp
  obtain ⟨-, -, hu0, hsz, hsz31, hff, hg, hgap, -⟩ := Pub_blk c s bs x hpub hx
  subst hxu
  rw [hg]
  obtain ⟨b1, b2⟩ := realloc_bytes c s s1 bs x size fuel u hpub hx h0 h2 hfp hrun hu
  refine ⟨b1, ?_⟩
  intro fuel2 u2 s2 hrun2 hu2 i hi
  have hr1 : Reach c s1 (if u = 0 then L else u :: L.erase (x.user c)) :=
    Reach.step_realloc s s1 L fuel (x.user c) size u h hp h0 hfp h2 hrun
  rw [if_neg hu] at hr1
  obtain ⟨bs1, hpub1, hL1, hget1⟩ := reach_blk c hc s1 _ hr1
  obtain ⟨y, hy, hyu⟩ := hget1 u (List.mem_cons_self _ _)
  obtain ⟨-, -, -, -, -, -, hg1, -⟩ := Pub_blk c s1 bs1 y hpub1 hy
  subst hyu
  have hys : y.sz = size := hg1.symm.trans b2
  obtain ⟨d1, -⟩ := realloc_bytes c s1 s2 bs1 y x.sz fuel2 u2 hpub1 hy hsz hsz31
    (Pub_fp c s bs x hpub hx) hrun2 hu2
  rw [d1 i (by rw [hys]; omega)]
  exact b1 i hi

/-- Claim C8 at the block `1088` of size `1` after `malloc(1)`, resized to `17`. -/
theorem C8_realloc_keeps_payload_witness :
    sizes64.ok ∧ Reach sizes64 heap1 [1088] ∧ 1088 ∈ [1088] ∧ 0 < 17 ∧ 17 < I31 ∧
    footprint sizes64 17 < I31 ∧
    realloc sizes64 10 heap1 1088 17 =
      .ok (1088, after heap1 (realloc sizes64 10 heap1 1088 17)) ∧ 1088 ≠ 0 ∧
    (∀ i, i < min 17 (get_segment_size sizes64 heap1.mem 1088) →
      read_byte (after heap1 (realloc sizes64 10 heap1 1088 17)).mem (1088 + i) =
        read_byte heap1.mem (1088 + i)) :=
  ⟨by decide, reach_heap1, by decide, by decide, by decide, by decide, rfl, by decide,
    (C8_realloc_keeps_payload sizes64 (by decide) heap1 [1088] reach_heap1 10 1088 17 1088
      (after heap1 (realloc sizes64 10 heap1 1088 17)) (by decide) (by decide) (by decide)
      (by decide) rfl (by decide)).1⟩

/-- The claim C8 fails for `s = SIZE_MAX`, where `round_up` wraps to `0`: on the
block `1088` of size `1`, `realloc` returns `1088` and the byte at `1088`, which
was `0`, is `16`, the low byte of the tail record now written there. -/
theorem C8_counterexample :
    get_segment_size sizes64 heap1.mem 1088 = 1 ∧
    ret (realloc sizes64 10 heap1 1088 SIZE_MAX) = 1088 ∧
    read_byte heap1.mem 1088 = 0 ∧
    read_byte (after heap1 (realloc sizes64 10 heap1 1088 SIZE_MAX)).mem 1088 = 16 := by
  decide

/-- Claim C9, for products in the `int` range: for `n > 0` and `s > 0` whose
product does not wrap and has a footprint below `2^31`, if `calloc(n, s)` returns
a non-null `u` then every byte of `[u, u + n*s)` is zero, the recorded size of
`u` is `n*s`, the zero-fill changes no byte outside that range, and no byte of
the range lies in the head or tail record of a live block. -/
theorem C9_calloc_zeroes_payload (c : Sizes) (hc : c.ok) (s : Heap) (L : List Nat)
    (h : Reach c s L) (fuel n size u : Nat) (s1 : Heap) (hn : 0 < n) (hs : 0 < size)
    (hw : n * size < W64) (h2 : n * size < I31) (hfp : footprint c (n * size) < I31)
    (hrun : calloc c fuel s n size = .ok (u, s1)) (hu : u ≠ 0) :
    (∀ a, u ≤ a → a < u + n * size → read_byte s1.mem a = 0) ∧
    get_segment_size c s1.mem u = n * size ∧
    (∃ s0, malloc c fuel s (n * size) = .ok (u, s0) ∧
      s1 = { s0 with mem := zeroed s0.mem u (n * size) } ∧
      ∀ a, a < u ∨ u + n * size ≤ a → s1.mem a = s0.mem a) ∧
    (∀ a, u ≤ a → a < u + n * size → ∀ q ∈ u :: L,
      ¬ (q - c.HS ≤ a ∧ a < q) ∧
      ¬ (next_seg_tail s1.mem (q - c.HS) ≤ a ∧ a < next_seg_tail s1.mem (q - c.HS) + c.TS)) := by
  have hmod : n * size % W64 = n * size := Nat.mod_eq_of_lt hw
  have hr1 : Reach c s1 (if u = 0 then L else u :: L) :=
    Reach.step_calloc s s1 L fuel n size u h (by rw [hmod]; exact hfp) (by rw [hmod]; exact h2)
      hrun
  rw [if_neg hu] at hr1
  obtain ⟨bs, hpub, hL, hget⟩ := reach_blk c hc s L h
  have hmod2 : n * size % 18446744073709551616 = n * size := hmod
  rcases calloc_pub c s s1 bs n size fuel u hpub (by rw [hmod2]; exact hfp)
    (by rw [hmod2]; exact h2) hrun with ⟨e1, -⟩ |
      ⟨nw, bs1, s0, e1, e2, e3, e4, e5, e6, e7, e8, e9⟩
  · exact absurd e1 hu
  rw [hmod2] at e4 e5 e7
  have hnw := Placed_mem c _ _ _ _ _ e8
  obtain ⟨-, hinv1, -, -, -, -, g1, -⟩ := Pub_blk c s1 bs1 nw e3 hnw
  have hru := BOK_ru nw (Inv_mem_lo c s1 bs1 nw hinv1 hnw).2.2
  have t1 : nw.tl c = nw.user c + round_up nw.sz ALIGNMENT := rfl
  refine ⟨?_, ?_, ⟨s0, e5, e7, ?_⟩, ?_⟩
  · intro a ha1 ha2
    rw [e7]
    show zeroed s0.mem u (n * size) a % 256 = 0
    rw [zeroed_in _ _ _ _ ha1 ha2]
  · rw [e1, g1, e4]
  · intro a ha
    rw [e7]
    exact zeroed_out _ _ _ _ ha
  · intro a ha1 ha2 q hq
    obtain ⟨bs2, hpub2, hL2, hget2⟩ := reach_blk c hc s1 _ hr1
    have hperm : (u :: L).Perm (bs1.map (Blk.user c)) := by
      rw [e1]
      exact (List.Perm.cons _ hL).trans (Placed_perm c _ _ _ _ _ e8).symm
    obtain ⟨y, hy, hyu⟩ := List.mem_map.mp (hperm.mem_iff.mp hq)
    obtain ⟨r1, r2, r3, -⟩ := Pub_read c s1 bs1 y e3 hy
    subst hyu
    rw [r1, r3]
    have hd := Inv_pay_disj c s1 bs1 hinv1 nw y hnw hy a (by rw [← e1]; exact ha1)
      (by rw [t1, ← e1]; clear * - ha2 hru e4; omega)
    have t2 : y.user c = y.h + c.HS := rfl
    have t3 : y.nx c = y.tl c + c.TS + y.ff := rfl
    clear * - hd t2 t3
    omega

/-- Claim C9 at `calloc(2, 8)` on the state after `malloc(1)`. -/
theorem C9_calloc_zeroes_payload_witness :
    sizes64.ok ∧ Reach sizes64 heap1 [1088] ∧ 0 < 2 ∧ 0 < 8 ∧ 2 * 8 < W64 ∧ 2 * 8 < I31 ∧
    footprint sizes64 (2 * 8) < I31 ∧
    calloc sizes64 10 heap1 2 8 = .ok (1200, after heap1 (calloc sizes64 10 heap1 2 8)) ∧
    1200 ≠ 0 ∧
    (∀ a, 1200 ≤ a → a < 1200 + 2 * 8 →
      read_byte (after heap1 (calloc sizes64 10 heap1 2 8)).mem a = 0) ∧
    get_segment_size sizes64 (after heap1 (calloc sizes64 10 heap1 2 8)).mem 1200 = 2 * 8 :=
  ⟨by decide, reach_heap1, by decide, by decide, by decide, by decide, by decide, rfl,
    by decide,
    (C9_calloc_zeroes_payload sizes64 (by decide) heap1 [1088] reach_heap1 10 2 8 1200
      (after heap1 (calloc sizes64 10 heap1 2 8)) (by decide) (by decide) (by decide)
      (by decide) (by decide) rfl (by decide)).1,
    (C9_calloc_zeroes_payload sizes64 (by decide) heap1 [1088] reach_heap1 10 2 8 1200
      (after heap1 (calloc sizes64 10 heap1 2 8)) (by decide) (by decide) (by decide)
      (by decide) (by decide) rfl (by decide)).2.1⟩

/-- A field inside a zero-filled range reads `0`. -/
theorem zero_rd (m : Mem) (a n t : Nat) (h1 : a ≤ t) (h2 : t + 8 ≤ a + n) :
    rd64 (zeroed m a n) t = 0 := by
  unfold rd64
  rw [zeroed_in m a n t (by omega) (by omega),
    zeroed_in m a n (t + 1) (by omega) (by omega),
    zeroed_in m a n (t + 2) (by omega) (by omega),
    zeroed_in m a n (t + 3) (by omega) (by omega),
    zeroed_in m a n (t + 4) (by omega) (by omega),
    zeroed_in m a n (t + 5) (by omega) (by omega),
    zeroed_in m a n (t + 6) (by omega) (by omega),
    zeroed_in m a n (t + 7) (by omega) (by omega)]

theorem after_ok (s : Heap) (u : Nat) (s1 : Heap) : after s (.ok (u, s1)) = s1 := rfl

theorem ret_ok (u : Nat) (s1 : Heap) : ret (.ok (u, s1)) = u := rfl

theorem run_heapMax :
    malloc sizes64 10 heap1 (SIZE_MAX * 1 % 18446744073709551616) = .ok (1200, heapMax) := rfl

/-- The run of `calloc(SIZE_MAX, 1)` on the state after `malloc(1)`: `malloc` returns
the block `1200`, and the zero-fill of `SIZE_MAX` bytes from `1200` on passes the end
of the address space, where `set_byte` meets the null address and aborts. -/
theorem run_calloc_max : calloc sizes64 10 heap1 SIZE_MAX 1 = .error Stop.abort := by
  unfold calloc
  rw [if_neg (by decide), run_heapMax, ok_bind]
  dsimp only
  rw [if_neg (by decide)]
  have e : SIZE_MAX * 1 % 18446744073709551616 = SIZE_MAX := by decide
  rw [e, set_mem_zero_wrap _ _ _ (by decide) (by decide) (by decide)]
  rfl

/-- The run of `malloc(2^31 + 4000)` on `heapN1`: the footprint `2^31 + 4096` is
negative as an `int`, so the initial gap of `112` bytes is taken to fit, and the
block is placed at `1040` over the live blocks. -/
theorem run_heapN1_big : malloc sizes64 10 heapN1 (1 * 2147487648 % 18446744073709551616) =
    .ok (1088, after heapN1 (malloc sizes64 10 heapN1 2147487648)) := rfl

/-- The run of `calloc(1, 2^31 + 4000)` on `heapN1`. -/
theorem run_calloc_big : calloc sizes64 10 heapN1 1 2147487648 =
    .ok (1088, { after heapN1 (malloc sizes64 10 heapN1 2147487648) with
      mem := zeroed (after heapN1 (malloc sizes64 10 heapN1 2147487648)).mem 1088
        2147487648 }) := by
  unfold calloc
  rw [if_neg (by decide), run_heapN1_big, ok_bind]
  dsimp only
  rw [if_neg (by decide)]
  have e : 1 * 2147487648 % 18446744073709551616 = 2147487648 := by decide
  rw [e, set_mem_zero_ok _ _ _ (by decide) (by decide)]
  rfl

/-- The claim C9 fails in an arena of more than `2^31` bytes for a product whose
footprint is not in the `int` range.  On `heapN1`, with the live blocks `1200` and
`1073743120` of size `2^30` behind an initial gap of `112` bytes and `end` at
`2^31 + 5136`, `calloc(1, 2^31 + 4000)` returns `1088`: the footprint
`2^31 + 4096` is negative as an `int`, so the initial gap is taken to fit.  The
zero-fill of `[1088, 1088 + 2^31 + 4000)` stays below `end` and runs over the head
record `[1152, 1200)` of the live block `1200`, whose recorded size goes from
`2^30` to `0`. -/
theorem C9_counterexample :
    0 < 1 ∧ 0 < 2147487648 ∧ 1 * 2147487648 < W64 ∧
    first_seg heapN1.mem heapN1.start = 1152 ∧
    end_addr heapN1.mem heapN1.start = 2147488784 ∧
    get_segment_size sizes64 heapN1.mem 1200 = 1073741824 ∧
    toInt32 ((footprint sizes64 2147487648 : Nat) : Int) = -2147479552 ∧
    calloc sizes64 10 heapN1 1 2147487648 =
      .ok (1088, { after heapN1 (malloc sizes64 10 heapN1 2147487648) with
        mem := zeroed (after heapN1 (malloc sizes64 10 heapN1 2147487648)).mem 1088
          2147487648 }) ∧
    1088 + 2147487648 ≤ end_addr heapN1.mem heapN1.start ∧
    1088 ≤ 1200 - sizes64.HS ∧ 1200 ≤ 1088 + 2147487648 ∧
    get_segment_size sizes64
      (zeroed (after heapN1 (malloc sizes64 10 heapN1 2147487648)).mem 1088 2147487648)
      1200 = 0 :=
  ⟨by decide, by decide, by decide, by decide, by decide, by decide, by decide,
    run_calloc_big, by decide, by decide, by decide,
    zero_rd _ _ _ _ (by decide) (by decide)⟩

/-! ## Claims on failure of the break and on the extent of the arena -/

/-- Claim C20, as the code has it: in every reachable state with a directory
`end - (base + sizeof(header))` is a multiple of the page size and `end` is not
below `base + sizeof(header)`; and after the single call `malloc(1)` on a fresh
process that returns a block, `end - (base + sizeof(header))` is exactly one
page. -/
theorem C20_arena_whole_pages (c : Sizes) (hc : c.ok) (s : Heap) (L : List Nat)
    (h : Reach c s L) :
    (s.start ≠ 0 → s.start + c.LS ≤ end_addr s.mem s.start ∧
      (end_addr s.mem s.start - (s.start + c.LS)) % 4096 = 0) ∧
    (s.start = 0 → ∀ fuel u s1, malloc c fuel s 1 = .ok (u, s1) → u ≠ 0 →
      end_addr s1.mem s1.start - (s1.start + c.LS) = 4096 ∧
      end_addr s1.mem s1.start - s1.start = 4096 + c.LS) := by
  obtain ⟨bs, hpub, hL⟩ := reach_pub c hc s L h
  obtain ⟨hl, hcase⟩ := hpub
  rcases hcase with ⟨e0, hbs, hla, -, hb1, hb2, hb3, hb4⟩ | ⟨hinv, hemp⟩
  · refine ⟨fun hne => absurd e0 hne, fun _ fuel u s1 hrun hu => ?_⟩
    have c8 := hc.2.2.2.2.2.2.2.1
    have c9 := hc.2.2.2.2.2.2.2.2
    have hr : round_up 1 ALIGNMENT = 16 := by decide
    have hfp : footprint c 1 = c.HS + 16 + c.TS := by unfold footprint; rw [hr]
    obtain ⟨f1, f2, f3⟩ := malloc_fresh_case c s 1 fuel hl e0 hla hc hb1 hb3 hb4 (by omega)
      (by omega) (by omega)
    by_cases hcr : s.brk + (c.LS + 16) ≤ s.brk_max
    · by_cases hgr : s.brk + (c.LS + 16) + (footprint c 1 + 4095) / 4096 * 4096 ≤ s.brk_max
      · obtain ⟨M, nw, g1, g2, g3, g4, g5⟩ := f3 hgr
        rw [g1] at hrun
        obtain ⟨-, hs1⟩ := Prod.mk.inj (Except.ok.inj hrun)
        subst hs1
        obtain ⟨-, -, -, -, -, -, -, -, -, -, -, -, -, ⟨lo, hlo, htiles⟩, -⟩ := g2
        obtain ⟨t1, t2⟩ := htiles
        have t3 : nw.nx c = nw.h + c.HS + round_up nw.sz ALIGNMENT + c.TS + nw.ff := rfl
        have t4 : nw.nx c = end_addr M (round_up s.brk ALIGNMENT) := t2
        rw [g3, hr] at t3
        show end_addr M (round_up s.brk ALIGNMENT) - (round_up s.brk ALIGNMENT + c.LS) = 4096 ∧
          end_addr M (round_up s.brk ALIGNMENT) - round_up s.brk ALIGNMENT = 4096 + c.LS
        clear * - t3 t4 g4 g5 hfp c8 c9
        omega
      · rw [f2 hcr hgr] at hrun; cases hrun
    · rw [f1 hcr] at hrun
      exact absurd (Prod.mk.inj (Except.ok.inj hrun)).1.symm hu
  · exact ⟨fun _ => ⟨hinv.2.2.2.1, hinv.2.2.2.2.1⟩, fun e => absurd e hinv.2.1⟩

/-- Claim C20 at the state after `malloc(1)` on the fresh process. -/
theorem C20_arena_whole_pages_witness :
    sizes64.ok ∧ Reach sizes64 heap1 [1088] ∧
    (heap1.start ≠ 0 → heap1.start + sizes64.LS ≤ end_addr heap1.mem heap1.start ∧
      (end_addr heap1.mem heap1.start - (heap1.start + sizes64.LS)) % 4096 = 0) :=
  ⟨by decide, reach_heap1,
    (C20_arena_whole_pages sizes64 (by decide) heap1 [1088] reach_heap1).1⟩

/-- The claim C20 fails after the single call `malloc(1)` on the fresh process:
`end - base` is `4128`, one page and the `32` bytes of the header, which is not
a multiple of the page size. -/
theorem C20_counterexample :
    malloc sizes64 10 heap0 1 = .ok (1088, heap1) ∧
    end_addr heap1.mem heap1.start - heap1.start = 4128 ∧
    (end_addr heap1.mem heap1.start - heap1.start) % 4096 ≠ 0 :=
  ⟨rfl, by decide, by decide⟩

/-! ## Claims on the links and on the tiling of the arena -/

/-- A walk along a linked run of blocks meets their heads in order and goes on
from the head behind the run. -/
theorem walk_seg (c : Sizes) (m : Mem) (bs : List Blk) :
    ∀ (pt nh k : Nat), Seg c m pt bs nh →
      walk m (bs.length + k) (hdOr bs nh) = bs.map Blk.h ++ walk m k nh := by
  induction bs with
  | nil =>
    intro pt nh k _
    simp [hdOr]
  | cons b r ih =>
    intro pt nh k hseg
    obtain ⟨⟨g1, g2, g3, g4, g5, g6⟩, hr⟩ := hseg
    have e : (b :: r).length + k = (r.length + k) + 1 := by simp; omega
    rw [e]
    show b.h :: walk m (r.length + k) (next_seg_head m (next_seg_tail m b.h)) = _
    rw [g2, g5, ih _ _ _ hr]
    rfl

/-- The walk from `first` over a public state meets the heads of its blocks. -/
theorem Pub_walk (c : Sizes) (s : Heap) (bs : List Blk) (hpub : Pub c s bs) (k : Nat) :
    walk s.mem (bs.length + k) (first_seg s.mem s.start) =
      bs.map Blk.h ++ walk s.mem k (first_seg s.mem s.start) := by
  rcases hpub.2 with ⟨-, hbs, -⟩ | ⟨hinv, -⟩
  · rw [hbs]; simp
  · obtain ⟨-, -, -, -, -, -, -, -, -, -, -, hfirst, hcyc, -, -⟩ := hinv
    have := walk_seg c s.mem bs _ _ k hcyc
    have e : hdOr bs (hdOr bs 0) = hdOr bs 0 := by cases bs <;> rfl
    rw [e, ← hfirst] at this
    exact this

/-- Claim C18: in every reachable state, for every live block the tail named by
its head points back to the head, the `prev_tail` of the head that follows the
tail is that tail, and the tail lies at `head + sizeof(head) + roundup(size, A)`;
the walk from `first` along `next_tail.next_head` meets the heads of all live
blocks, each once, in strictly increasing order, and its next step is `first`
again. -/
theorem C18_links_and_chain (c : Sizes) (hc : c.ok) (s : Heap) (L : List Nat)
    (h : Reach c s L) :
    (∀ u ∈ L,
      prev_seg_head s.mem (next_seg_tail s.mem (u - c.HS)) = u - c.HS ∧
      prev_seg_tail s.mem (next_seg_head s.mem (next_seg_tail s.mem (u - c.HS))) =
        next_seg_tail s.mem (u - c.HS) ∧
      next_seg_tail s.mem (u - c.HS) =
        u - c.HS + c.HS + round_up (seg_size s.mem (u - c.HS)) ALIGNMENT) ∧
    L.Perm ((walk s.mem L.length (first_seg s.mem s.start)).map (fun a => a + c.HS)) ∧
    (walk s.mem L.length (first_seg s.mem s.start)).Pairwise (fun a b => a < b) ∧
    walk s.mem (L.length + 1) (first_seg s.mem s.start) =
      walk s.mem L.length (first_seg s.mem s.start) ++ [first_seg s.mem s.start] := by
  obtain ⟨bs, hp, hL, hget⟩ := reach_blk c hc s L h
  have hlen : L.length = bs.length := by rw [hL.length_eq, List.length_map]
  have hw0 := Pub_walk c s bs hp 0
  have hw1 := Pub_walk c s bs hp 1
  rw [hlen]
  have e0 : walk s.mem (bs.length + 0) (first_seg s.mem s.start) = bs.map Blk.h := by
    rw [hw0]; simp [walk]
  rw [Nat.add_zero] at e0
  rw [hw1, e0]
  refine ⟨?_, ?_, ?_, rfl⟩
  · intro u hu
    obtain ⟨x, hx, hxu⟩ := hget u hu
    obtain ⟨r1, r2, r3, r4, r5, r6, -⟩ := Pub_read c s bs x hp hx
    rw [← hxu, r1, r3, r2]
    exact ⟨r4, r6, rfl⟩
  · rw [List.map_map]
    exact hL
  · rcases hp.2 with ⟨-, hbs, -⟩ | ⟨hinv, -⟩
    · rw [hbs]; exact List.Pairwise.nil
    · obtain ⟨-, -, -, -, -, -, -, -, -, -, -, -, -, ⟨lo, -, htiles⟩, -⟩ := hinv
      refine List.Pairwise.map _ (fun a b hab => ?_) (Tiles_pairwise c _ _ _ htiles)
      have t1 : a.nx c = a.h + c.HS + round_up a.sz ALIGNMENT + c.TS + a.ff := rfl
      have c5 := hc.2.2.2.2.1
      clear * - hab t1 c5
      omega

/-- Claim C18 at the state after two calls `malloc(1)` on the fresh process. -/
theorem C18_links_and_chain_witness :
    sizes64.ok ∧ Reach sizes64 heap2 [1200, 1088] ∧
    walk heap2.mem 3 (first_seg heap2.mem heap2.start) = [1040, 1152, 1040] ∧
    walk heap2.mem ([1200, 1088] : List Nat).length (first_seg heap2.mem heap2.start) =
      [1040, 1152] ∧
    (walk heap2.mem ([1200, 1088] : List Nat).length
      (first_seg heap2.mem heap2.start)).Pairwise (fun a b => a < b) :=
  ⟨by decide, reach_heap2, by decide, by decide,
    (C18_links_and_chain sizes64 (by decide) heap2 [1200, 1088] reach_heap2).2.2.1⟩

/-- Along a tiling the gap behind every block ends at the head of the next
block, behind the last block at the upper end, and the spans add up. -/
theorem tiles_spans (c : Sizes) (m : Mem) (bs : List Blk) :
    ∀ (lo hi : Nat), Tiles c lo bs hi →
      (∀ b ∈ bs, next_seg_tail m b.h = b.tl c ∧ free_following m (b.tl c) = b.ff ∧
        seg_size m b.h = b.sz) →
      (bs ≠ [] → (bs.map Blk.h).map (gapEnd c m) = (bs.map Blk.h).tail ++ [hi]) ∧
      lo + ((bs.map Blk.h).map (span c m)).sum = hi ∧
      (bs.map Blk.h).head?.getD hi = lo := by
  induction bs with
  | nil =>
    intro lo hi ht _
    exact ⟨fun h => absurd rfl h, by simpa [Tiles] using ht, by simpa [Tiles] using ht.symm⟩
  | cons b r ih =>
    intro lo hi ht hrd
    obtain ⟨t1, t2⟩ := ht
    obtain ⟨r1, r2, r3⟩ := hrd b (List.mem_cons_self _ _)
    obtain ⟨i1, i2, i3⟩ := ih _ _ t2 (fun x hx => hrd x (List.mem_cons_of_mem _ hx))
    have hg : gapEnd c m b.h = b.nx c := by
      unfold gapEnd
      rw [r1, r2]
      rfl
    have hs : span c m b.h + b.h = b.nx c := by
      unfold span
      rw [r1, r2, r3]
      show _ = b.h + c.HS + round_up b.sz ALIGNMENT + c.TS + b.ff
      omega
    refine ⟨fun _ => ?_, ?_, ?_⟩
    · cases r with
      | nil =>
        have : b.nx c = hi := t2
        simp [hg, this]
      | cons n r2 =>
        have i1' := i1 (by simp)
        have i3' : n.h = b.nx c := by simpa using i3
        simp only [List.map_cons, List.tail_cons] at i1' ⊢
        rw [hg, i1', i3']
        rfl
    · simp only [List.map_cons, List.sum_cons]
      clear * - hs i2 t1
      omega
    · simpa using t1

/-- Claim C19: in every reachable state, for every live block the address
`T + sizeof(tail) + T.free_following` behind its tail `T` is the head of the next
block in address order, and `end` for the last block; with a directory, `end` is
not below `base + sizeof(header)`, and the gap in front of the lowest block plus
the footprints and `free_following` of all blocks is
`end - (base + sizeof(header))`. -/
theorem C19_gaps_tile_arena (c : Sizes) (hc : c.ok) (s : Heap) (L : List Nat)
    (h : Reach c s L) :
    L.Perm ((walk s.mem L.length (first_seg s.mem s.start)).map (fun a => a + c.HS)) ∧
    (L ≠ [] → (walk s.mem L.length (first_seg s.mem s.start)).map (gapEnd c s.mem) =
      (walk s.mem L.length (first_seg s.mem s.start)).tail ++ [end_addr s.mem s.start]) ∧
    (s.start ≠ 0 → s.start + c.LS ≤ end_addr s.mem s.start ∧
      s.start + c.LS ≤ (walk s.mem L.length (first_seg s.mem s.start)).head?.getD
        (s.start + c.LS) ∧
      ((walk s.mem L.length (first_seg s.mem s.start)).head?.getD (s.start + c.LS) -
          (s.start + c.LS)) +
        ((walk s.mem L.length (first_seg s.mem s.start)).map (span c s.mem)).sum =
          end_addr s.mem s.start - (s.start + c.LS)) := by
  obtain ⟨bs, hp, hL, hget⟩ := reach_blk c hc s L h
  have hlen : L.length = bs.length := by rw [hL.length_eq, List.length_map]
  have hw0 := Pub_walk c s bs hp 0
  have e0 : walk s.mem bs.length (first_seg s.mem s.start) = bs.map Blk.h := by
    rw [Nat.add_zero] at hw0
    rw [hw0]; simp [walk]
  rw [hlen, e0]
  have hne : L ≠ [] → bs ≠ [] := by
    intro hL0 hb
    rw [hb] at hlen
    exact hL0 (List.length_eq_zero.mp hlen)
  have hrd : ∀ b ∈ bs, next_seg_tail s.mem b.h = b.tl c ∧
      free_following s.mem (b.tl c) = b.ff ∧ seg_size s.mem b.h = b.sz := by
    intro b hb
    obtain ⟨r1, r2, r3, r4, r5, -⟩ := Pub_read c s bs b hp hb
    exact ⟨r3, r5, r2⟩
  refine ⟨by rw [List.map_map]; exact hL, ?_, ?_⟩
  · intro hL0
    rcases hp.2 with ⟨-, hbs, -⟩ | ⟨hinv, -⟩
    · exact absurd hbs (hne hL0)
    · obtain ⟨-, -, -, -, -, -, -, -, -, -, -, -, -, ⟨lo, -, htiles⟩, -⟩ := hinv
      exact (tiles_spans c s.mem bs lo _ htiles hrd).1 (hne hL0)
  · intro hs0
    rcases hp.2 with ⟨e0, -⟩ | ⟨hinv, hemp⟩
    · exact absurd e0 hs0
    · obtain ⟨-, -, -, hle, -, -, -, -, -, -, -, -, -, ⟨lo, hlo, htiles⟩, -⟩ := hinv
      obtain ⟨-, t2, t3⟩ := tiles_spans c s.mem bs lo _ htiles hrd
      have hhd : (bs.map Blk.h).head?.getD (s.start + c.LS) = lo := by
        cases bs with
        | nil =>
          have := (hemp rfl).1
          simp at t3 ⊢
          omega
        | cons b r => simpa using t3
      rw [hhd]
      refine ⟨hle, hlo, ?_⟩
      clear * - t2 hlo
      omega

/-- Claim C19 at the state after two calls `malloc(1)` on the fresh process. -/
theorem C19_gaps_tile_arena_witness :
    sizes64.ok ∧ Reach sizes64 heap2 [1200, 1088] ∧
    (([1200, 1088] : List Nat) ≠ [] →
      (walk heap2.mem ([1200, 1088] : List Nat).length
        (first_seg heap2.mem heap2.start)).map (gapEnd sizes64 heap2.mem) =
      (walk heap2.mem ([1200, 1088] : List Nat).length
        (first_seg heap2.mem heap2.start)).tail ++ [end_addr heap2.mem heap2.start]) :=
  ⟨by decide, reach_heap2,
    (C19_gaps_tile_arena sizes64 (by decide) heap2 [1200, 1088] reach_heap2).2.1⟩

/-! ## Claims on the placement policies -/

/-- The gaps read from the memory of a state with a directory are the gaps of
its blocks. -/
theorem gapList_eq (c : Sizes) (s : Heap) (bs : List Blk) (hpub : Pub c s bs)
    (hs0 : s.start ≠ 0) :
    gapList c s.mem s.start bs.length = gapsOf c s.start (end_addr s.mem s.start) bs := by
  rcases hpub.2 with ⟨e0, -⟩ | ⟨hinv, hemp⟩
  · exact absurd e0 hs0
  have hw0 := Pub_walk c s bs hpub 0
  have e0 : walk s.mem bs.length (first_seg s.mem s.start) = bs.map Blk.h := by
    rw [Nat.add_zero] at hw0
    rw [hw0]; simp [walk]
  have hfirst := hinv.2.2.2.2.2.2.2.2.2.2.2.1
  have h1 : (if first_seg s.mem s.start = 0 then end_addr s.mem s.start
      else first_seg s.mem s.start) = hdOr bs (end_addr s.mem s.start) := by
    rw [hfirst]
    cases bs with
    | nil => exact if_pos rfl
    | cons b r =>
      have hb := (Inv_mem_lo c s _ b hinv (List.mem_cons_self _ _)).1
      have c4 := hinv.1.2.2.2.1
      have hne : hdOr (b :: r) 0 ≠ 0 := by
        show b.h ≠ 0
        omega
      rw [if_neg hne]
      rfl
  have h2 : (bs.map Blk.h).map
      (fun h => (next_seg_tail s.mem h + c.TS, free_following s.mem (next_seg_tail s.mem h))) =
      bs.map (Blk.gap c) := by
    rw [List.map_map]
    apply List.map_congr_left
    intro b hb
    obtain ⟨r1, r2, r3, r4, r5, -⟩ := Pub_read c s bs b hpub hb
    show (next_seg_tail s.mem b.h + c.TS, free_following s.mem (next_seg_tail s.mem b.h)) = _
    rw [r3, r5]
    rfl
  unfold gapList gapsOf
  rw [e0, h1, h2]

/-- A reachable state with a directory: its invariant and its gaps. -/
theorem reach_dir (c : Sizes) (hc : c.ok) (s : Heap) (L : List Nat) (h : Reach c s L)
    (hs0 : s.start ≠ 0) :
    ∃ bs, Pub c s bs ∧ Inv c s bs ∧ L.Perm (bs.map (Blk.user c)) ∧ L.length = bs.length ∧
      gapList c s.mem s.start L.length = gapsOf c s.start (end_addr s.mem s.start) bs := by
  obtain ⟨bs, hp, hL⟩ := reach_pub c hc s L h
  have hlen : L.length = bs.length := by rw [hL.length_eq, List.length_map]
  rcases hp.2 with ⟨e0, -⟩ | ⟨hinv, hemp⟩
  · exact absurd e0 hs0
  · exact ⟨bs, hp, hinv, hL, hlen, by rw [hlen]; exact gapList_eq c s bs hp hs0⟩

/-- Claim C13, for sizes in the `int` range: on the directory of a reachable
state, with enough iterations for its blocks and a size whose footprint is below
`2^31`, `best_fit` returns; it returns none exactly when no gap is as large as
the footprint, and otherwise the first byte of a gap that is as large as the
footprint, smaller than every candidate enumerated before it and not larger
than any candidate enumerated after it. -/
theorem C13_best_fit (c : Sizes) (hc : c.ok) (s : Heap) (L : List Nat) (h : Reach c s L)
    (hs0 : s.start ≠ 0) (fuel size : Nat) (hfuel : L.length < fuel)
    (hfp : footprint c size < I31) :
    ∃ r, best_fit c fuel s.mem s.start size = .ok r ∧
      ((r = 0 ∧ ∀ g ∈ gapList c s.mem s.start L.length, g.2 < footprint c size) ∨
        (r ≠ 0 ∧ ∃ pre g post, gapList c s.mem s.start L.length = pre ++ g :: post ∧
          g.1 = r ∧ footprint c size ≤ g.2 ∧
          (∀ g1 ∈ pre, footprint c size ≤ g1.2 → g.2 < g1.2) ∧
          (∀ g1 ∈ post, footprint c size ≤ g1.2 → g.2 ≤ g1.2))) := by
  obtain ⟨bs, hp, hinv, hL, hlen, hg⟩ := reach_dir c hc s L h hs0
  rw [hg]
  have hnz := gapsOf_nz c s.start (end_addr s.mem s.start) bs hc.2.2.2.1 hc.2.2.2.2.2.1
  rcases best_fit_spec c s bs size fuel hinv hfp with e | ⟨-, e⟩
  · refine ⟨_, e, ?_⟩
    rcases bestOf_spec (footprint c size) _ hnz with ⟨a1, a2⟩ | ⟨a1, pre, post, a2, a3, a4, a5⟩
    · exact Or.inl ⟨a1, a2⟩
    · exact Or.inr ⟨a1, pre, _, post, a2, rfl, a3, a4, a5⟩
  · omega

/-- Claim C13 at the state after two calls `malloc(1)` and the size `16`. -/
theorem C13_best_fit_witness :
    sizes64.ok ∧ Reach sizes64 heap2 [1200, 1088] ∧ heap2.start ≠ 0 ∧
    ([1200, 1088] : List Nat).length < 10 ∧ footprint sizes64 16 < I31 ∧
    ∃ r, best_fit sizes64 10 heap2.mem heap2.start 16 = .ok r ∧
      ((r = 0 ∧ ∀ g ∈ gapList sizes64 heap2.mem heap2.start ([1200, 1088] : List Nat).length,
          g.2 < footprint sizes64 16) ∨
        (r ≠ 0 ∧ ∃ pre g post,
          gapList sizes64 heap2.mem heap2.start ([1200, 1088] : List Nat).length =
            pre ++ g :: post ∧
          g.1 = r ∧ footprint sizes64 16 ≤ g.2 ∧
          (∀ g1 ∈ pre, footprint sizes64 16 ≤ g1.2 → g.2 < g1.2) ∧
          (∀ g1 ∈ post, footprint sizes64 16 ≤ g1.2 → g.2 ≤ g1.2))) :=
  ⟨by decide, reach_heap2, by decide, by decide, by decide,
    C13_best_fit sizes64 (by decide) heap2 [1200, 1088] reach_heap2 (by decide) 10 16
      (by decide) (by decide)⟩

/-- The claim C13 fails for a size whose footprint is `2^31`: on the state after
`malloc(1)`, whose gaps hold `0` and `3984` bytes, `best_fit` returns the first
byte `1040` of the gap of `0` bytes, where the head of the live block lies. -/
theorem C13_counterexample :
    gapList sizes64 heap1.mem heap1.start 1 = [(1040, 0), (1152, 3984)] ∧
    footprint sizes64 2147483551 = 2147483648 ∧
    best_fit sizes64 10 heap1.mem heap1.start 2147483551 = .ok 1040 :=
  ⟨by decide, by decide, rfl⟩

/-- Claim C15, for sizes in the `int` range: on the directory of a reachable
state, with enough iterations for its blocks and a size whose footprint is below
`2^31`, `worst_fit` returns; it returns none exactly when no gap is as large as
the footprint, and otherwise the first byte of a gap that is as large as the
footprint, larger than every candidate enumerated before it and not smaller
than any candidate enumerated after it. -/
theorem C15_worst_fit (c : Sizes) (hc : c.ok) (s : Heap) (L : List Nat) (h : Reach c s L)
    (hs0 : s.start ≠ 0) (fuel size : Nat) (hfuel : L.length < fuel)
    (hfp : footprint c size < I31) :
    ∃ r, worst_fit c fuel s.mem s.start size = .ok r ∧
      ((r = 0 ∧ ∀ g ∈ gapList c s.mem s.start L.length, g.2 < footprint c size) ∨
        (r ≠ 0 ∧ ∃ pre g post, gapList c s.mem s.start L.length = pre ++ g :: post ∧
          g.1 = r ∧ footprint c size ≤ g.2 ∧
          (∀ g1 ∈ pre, footprint c size ≤ g1.2 → g1.2 < g.2) ∧
          (∀ g1 ∈ post, footprint c size ≤ g1.2 → g1.2 ≤ g.2))) := by
  obtain ⟨bs, hp, hinv, hL, hlen, hg⟩ := reach_dir c hc s L h hs0
  rw [hg]
  have hnz := gapsOf_nz c s.start (end_addr s.mem s.start) bs hc.2.2.2.1 hc.2.2.2.2.2.1
  rcases worst_fit_spec c s bs size fuel hinv hfp with e | ⟨-, e⟩
  · refine ⟨_, e, ?_⟩
    rcases worstOf_spec (footprint c size) _ hnz with ⟨a1, a2⟩ |
      ⟨a1, pre, post, a2, a3, a4, a5⟩
    · exact Or.inl ⟨a1, a2⟩
    · exact Or.inr ⟨a1, pre, _, post, a2, rfl, a3, a4, a5⟩
  · omega

/-- Claim C15 at the state after two calls `malloc(1)` and the size `16`. -/
theorem C15_worst_fit_witness :
    sizes64.ok ∧ Reach sizes64 heap2 [1200, 1088] ∧ heap2.start ≠ 0 ∧
    ([1200, 1088] : List Nat).length < 10 ∧ footprint sizes64 16 < I31 ∧
    ∃ r, worst_fit sizes64 10 heap2.mem heap2.start 16 = .ok r ∧
      ((r = 0 ∧ ∀ g ∈ gapList sizes64 heap2.mem heap2.start ([1200, 1088] : List Nat).length,
          g.2 < footprint sizes64 16) ∨
        (r ≠ 0 ∧ ∃ pre g post,
          gapList sizes64 heap2.mem heap2.start ([1200, 1088] : List Nat).length =
            pre ++ g :: post ∧
          g.1 = r ∧ footprint sizes64 16 ≤ g.2 ∧
          (∀ g1 ∈ pre, footprint sizes64 16 ≤ g1.2 → g1.2 < g.2) ∧
          (∀ g1 ∈ post, footprint sizes64 16 ≤ g1.2 → g1.2 ≤ g.2))) :=
  ⟨by decide, reach_heap2, by decide, by decide, by decide,
    C15_worst_fit sizes64 (by decide) heap2 [1200, 1088] reach_heap2 (by decide) 10 16
      (by decide) (by decide)⟩

/-- The claim C15 fails for a size whose footprint is `2^31`: on the state after
`malloc(1)`, whose gaps hold `0` and `3984` bytes, `worst_fit` returns the first
byte `1040` of the gap of `0` bytes, where the head of the live block lies. -/
theorem C15_counterexample :
    gapList sizes64 heap1.mem heap1.start 1 = [(1040, 0), (1152, 3984)] ∧
    footprint sizes64 2147483551 = 2147483648 ∧
    worst_fit sizes64 10 heap1.mem heap1.start 2147483551 = .ok 1040 :=
  ⟨by decide, by decide, rfl⟩

/-- Claim C14, for sizes in the `int` range: on the directory of a reachable
state, with enough iterations for its blocks and a size whose footprint is below
`2^31`: with the cursor none `next_fit` is `first_fit`; with a cursor it returns,
the cursor is the tail in front of one of the gaps, and the result is none
exactly when no gap is as large as the footprint, and otherwise the first byte
of the first gap as large as the footprint in the order: the gap behind the
cursor, the gaps behind the later blocks, the gap behind the header, the gaps
behind the blocks in front of the cursor. -/
theorem C14_next_fit (c : Sizes) (hc : c.ok) (s : Heap) (L : List Nat) (h : Reach c s L)
    (hs0 : s.start ≠ 0) (fuel size : Nat) (hfuel : L.length < fuel)
    (hfp : footprint c size < I31) :
    (s.last_addr = 0 →
      next_fit c fuel s.mem s.last_addr s.start size = first_fit c fuel s.mem s.start size) ∧
    (s.last_addr ≠ 0 →
      ∃ g0 pre gC post r, gapList c s.mem s.start L.length = g0 :: (pre ++ gC :: post) ∧
        g0.1 = s.start + c.LS ∧ gC.1 = s.last_addr + c.TS ∧
        next_fit c fuel s.mem s.last_addr s.start size = .ok r ∧
        ((r = 0 ∧ ∀ g ∈ gapList c s.mem s.start L.length, g.2 < footprint c size) ∨
          (r ≠ 0 ∧ ∃ a g b, gC :: post ++ g0 :: pre = a ++ g :: b ∧ r = g.1 ∧
            footprint c size ≤ g.2 ∧ ∀ g1 ∈ a, g1.2 < footprint c size))) := by
  refine ⟨fun e => by rw [e]; exact next_fit_none c fuel s.mem s.start size, fun hcur0 => ?_⟩
  obtain ⟨bs, hp, hinv, hL, hlen, hg⟩ := reach_dir c hc s L h hs0
  rw [hg]
  have hnz := gapsOf_nz c s.start (end_addr s.mem s.start) bs hc.2.2.2.1 hc.2.2.2.2.2.1
  rcases hinv.2.2.2.2.2.2.2.2.2.2.2.2.2.2 with e | ⟨C, hC, hcur⟩
  · exact absurd e hcur0
  obtain ⟨A, B, hAB⟩ := List.append_of_mem hC
  subst hAB
  refine ⟨(s.start + c.LS, hdOr (A ++ C :: B) (end_addr s.mem s.start) - (s.start + c.LS)),
    A.map (Blk.gap c), C.gap c, B.map (Blk.gap c), ?_⟩
  have hgaps : gapsOf c s.start (end_addr s.mem s.start) (A ++ C :: B) =
      (s.start + c.LS, hdOr (A ++ C :: B) (end_addr s.mem s.start) - (s.start + c.LS)) ::
        (A.map (Blk.gap c) ++ C.gap c :: B.map (Blk.gap c)) := by
    unfold gapsOf
    rw [List.map_append, List.map_cons]
  have hrot : ∀ g, g ∈ (C :: B).map (Blk.gap c) ++
      (s.start + c.LS, hdOr (A ++ C :: B) (end_addr s.mem s.start) - (s.start + c.LS)) ::
        A.map (Blk.gap c) ↔ g ∈ gapsOf c s.start (end_addr s.mem s.start) (A ++ C :: B) :=
    fun g => gaps_rot_mem c s.start (end_addr s.mem s.start) A B C g
  rcases next_fit_spec c s A B C size fuel hinv hcur hfp with e | ⟨-, e⟩
  · refine ⟨_, hgaps, rfl, by rw [hcur]; rfl, e, ?_⟩
    rcases firstOf_spec (footprint c size) ((C :: B).map (Blk.gap c) ++
      (s.start + c.LS, hdOr (A ++ C :: B) (end_addr s.mem s.start) - (s.start + c.LS)) ::
        A.map (Blk.gap c)) with ⟨a1, a2⟩ | ⟨a, g, b, a1, a2, a3, a4⟩
    · exact Or.inl ⟨a2, fun g hg => a1 g ((hrot g).mpr hg)⟩
    · refine Or.inr ⟨?_, a, g, b, a1, a2, a3, a4⟩
      rw [a2]
      exact hnz g ((hrot g).mp (by rw [a1]; simp))
  · rw [← hlen] at e
    omega

/-- Claim C14 at the state after two calls `malloc(1)`, whose cursor is the tail
of the second block, and the size `16`. -/
theorem C14_next_fit_witness :
    sizes64.ok ∧ Reach sizes64 heap2 [1200, 1088] ∧ heap2.start ≠ 0 ∧
    ([1200, 1088] : List Nat).length < 10 ∧ footprint sizes64 16 < I31 ∧
    heap2.last_addr ≠ 0 ∧
    ∃ g0 pre gC post r,
      gapList sizes64 heap2.mem heap2.start ([1200, 1088] : List Nat).length =
        g0 :: (pre ++ gC :: post) ∧
      g0.1 = heap2.start + sizes64.LS ∧ gC.1 = heap2.last_addr + sizes64.TS ∧
      next_fit sizes64 10 heap2.mem heap2.last_addr heap2.start 16 = .ok r ∧
      ((r = 0 ∧ ∀ g ∈ gapList sizes64 heap2.mem heap2.start ([1200, 1088] : List Nat).length,
          g.2 < footprint sizes64 16) ∨
        (r ≠ 0 ∧ ∃ a g b, gC :: post ++ g0 :: pre = a ++ g :: b ∧ r = g.1 ∧
          footprint sizes64 16 ≤ g.2 ∧ ∀ g1 ∈ a, g1.2 < footprint sizes64 16)) :=
  ⟨by decide, reach_heap2, by decide, by decide, by decide, by decide,
    (C14_next_fit sizes64 (by decide) heap2 [1200, 1088] reach_heap2 (by decide) 10 16
      (by decide) (by decide)).2 (by decide)⟩

/-- The claim C14 fails for a size whose footprint is `2^31`: on the state after
`malloc(1)`, whose gaps hold `0` and `3984` bytes and whose cursor is the tail
`1104`, `next_fit` returns the first byte `1040` of the gap of `0` bytes. -/
theorem C14_counterexample :
    gapList sizes64 heap1.mem heap1.start 1 = [(1040, 0), (1152, 3984)] ∧
    footprint sizes64 2147483551 = 2147483648 ∧ heap1.last_addr = 1104 ∧
    next_fit sizes64 10 heap1.mem heap1.last_addr heap1.start 2147483551 = .ok 1040 :=
  ⟨by decide, by decide, by decide, rfl⟩

/-- Claim C16: for each of the four policies, on the directory of a reachable
state, with enough iterations for its blocks and a size whose footprint is below
`2^31`, the policy returns; the result is none exactly when no gap is as large
as the footprint, which does not depend on the policy; a result that is not
none is the first byte of a gap as large as the footprint, it is
`base + sizeof(header)` or `T + sizeof(tail)` for the tail `T` of a live block,
and the footprint placed there meets no live block. -/
theorem C16_policy_results (c : Sizes) (hc : c.ok) (s : Heap) (L : List Nat)
    (h : Reach c s L) (hs0 : s.start ≠ 0) (fuel size : Nat) (hfuel : L.length < fuel)
    (hfp : footprint c size < I31) (strat : Strat) :
    ∃ r, g_alloc c fuel (set_alloc_function s strat) size = .ok r ∧
      (r = 0 ↔ ∀ g ∈ gapList c s.mem s.start L.length, g.2 < footprint c size) ∧
      (r ≠ 0 →
        (∃ g ∈ gapList c s.mem s.start L.length, g.1 = r ∧ footprint c size ≤ g.2) ∧
        (r = s.start + c.LS ∨ ∃ u ∈ L, r = next_seg_tail s.mem (u - c.HS) + c.TS) ∧
        (∀ u ∈ L, r + footprint c size ≤ u - c.HS ∨
          next_seg_tail s.mem (u - c.HS) + c.TS ≤ r)) := by
  have h1 : Reach c (set_alloc_function s strat) L := Reach.step_select s L strat h
  obtain ⟨bs, hp, hinv, hL, hlen, hg⟩ := reach_dir c hc _ L h1 hs0
  have hg1 : gapList c s.mem s.start L.length = gapsOf c s.start (end_addr s.mem s.start) bs :=
    hg
  rw [hg1]
  have hfpos : 0 < footprint c size := by
    have c5 := hc.2.2.2.2.1
    unfold footprint
    omega
  rcases g_alloc_cand c _ bs size fuel hinv hfp with ⟨r, e, hr⟩ | ⟨-, e⟩
  · refine ⟨r, e, ?_, ?_⟩
    · constructor
      · intro hr0
        rcases hr with ⟨-, a⟩ | ⟨a, -⟩
        · exact a
        · exact absurd hr0 a
      · intro hall
        rcases hr with ⟨a, -⟩ | ⟨-, g, hg2, -, a⟩
        · exact a
        · have := hall g hg2
          exact absurd a (by omega)
    · intro hr0
      rcases hr with ⟨a, -⟩ | ⟨-, hcand⟩
      · exact absurd a hr0
      refine ⟨hcand, ?_⟩
      obtain ⟨-, -, -, -, -, -, -, -, -, -, -, -, -, ⟨lo, hlo, htiles⟩, -⟩ := id hinv
      have hpw := Tiles_pairwise c _ _ _ htiles
      have hget : ∀ u ∈ L, ∃ y ∈ bs, y.user c = u ∧ u - c.HS = y.h ∧
          next_seg_tail s.mem (u - c.HS) = y.tl c := by
        intro u hu
        obtain ⟨y, hy, hyu⟩ := List.mem_map.mp (hL.mem_iff.mp hu)
        obtain ⟨r1, r2, r3, -⟩ := Pub_read c _ bs y hp hy
        refine ⟨y, hy, hyu, by rw [← hyu]; exact r1, ?_⟩
        rw [← hyu, r1]
        exact r3
      rcases cand_cases c s.start (end_addr s.mem s.start) bs (footprint c size) r hcand with
        ⟨a1, a2⟩ | ⟨A, p, B, a1, a2, a3⟩
      · refine ⟨Or.inl a1, fun u hu => ?_⟩
        obtain ⟨y, hy, -, e1, e2⟩ := hget u hu
        rw [e1]
        left
        have hlo2 := (Tiles_mem c _ _ _ htiles y hy).1
        have hhd : hdOr bs (end_addr s.mem s.start) = lo := Tiles_hdOr c _ _ _ htiles
        rw [hhd] at a2
        clear * - a1 a2 hlo2 hfpos
        omega
      · subst a1
        have hp1 : p ∈ A ++ p :: B := by simp
        refine ⟨Or.inr ⟨p.user c, hL.mem_iff.mpr (List.mem_map.mpr ⟨p, hp1, rfl⟩), ?_⟩,
          fun u hu => ?_⟩
        · obtain ⟨r1, r2, r3, -⟩ := Pub_read c _ _ p hp hp1
          rw [r1, a2]
          exact congrArg (fun t => t + c.TS) r3.symm
        · obtain ⟨y, hy, -, e1, e2⟩ := hget u hu
          rw [e2, e1, a2]
          obtain ⟨hA, hR, hAR⟩ := List.pairwise_append.mp hpw
          have t1 : p.nx c = p.tl c + c.TS + p.ff := rfl
          have t2 := Blk.nx_ge c y
          have t3 := Blk.tl_ge c p
          simp only [List.mem_append, List.mem_cons] at hy
          rcases hy with hy | hy | hy
          · right
            have := hAR y hy p (by simp)
            clear * - this t2 t3
            omega
          · right
            rw [hy]
          · left
            have := (List.pairwise_cons.mp hR).1 y hy
            clear * - this t1 a3
            omega
  · rw [← hlen] at e
    omega

/-- Claim C16 at the state after two calls `malloc(1)`, the size `16` and the
policy `worst_fit`. -/
theorem C16_policy_results_witness :
    sizes64.ok ∧ Reach sizes64 heap2 [1200, 1088] ∧ heap2.start ≠ 0 ∧
    ([1200, 1088] : List Nat).length < 10 ∧ footprint sizes64 16 < I31 ∧
    ∃ r, g_alloc sizes64 10 (set_alloc_function heap2 Strat.WORST_FIT) 16 = .ok r ∧
      (r = 0 ↔ ∀ g ∈ gapList sizes64 heap2.mem heap2.start ([1200, 1088] : List Nat).length,
        g.2 < footprint sizes64 16) :=
  ⟨by decide, reach_heap2, by decide, by decide, by decide,
    match C16_policy_results sizes64 (by decide) heap2 [1200, 1088] reach_heap2 (by decide)
      10 16 (by decide) (by decide) Strat.WORST_FIT with
    | ⟨r, h1, h2, _⟩ => ⟨r, h1, h2⟩⟩

/-! ## Where `malloc` places a block -/

theorem firstOf_at (total : Nat) (pre : List (Nat × Nat)) (g : Nat × Nat)
    (post : List (Nat × Nat)) (hpre : ∀ g1 ∈ pre, g1.2 < total) (hg : total ≤ g.2) :
    firstOf total (pre ++ g :: post) = g.1 := by
  induction pre with
  | nil =>
    unfold firstOf
    simp [List.find?, hg]
  | cons a pre ih =>
    have ha := hpre a (List.mem_cons_self _ _)
    have := ih (fun g1 h1 => hpre g1 (List.mem_cons_of_mem _ h1))
    unfold firstOf at this ⊢
    simp only [List.cons_append, List.find?]
    rw [show decide (total ≤ a.2) = false from decide_eq_false (by omega)]
    exact this

theorem firstOf_none (total : Nat) (gs : List (Nat × Nat)) (h : ∀ g ∈ gs, g.2 < total) :
    firstOf total gs = 0 := by
  rcases firstOf_spec total gs with ⟨-, e⟩ | ⟨pre, g, post, e1, -, e3, -⟩
  · exact e
  · have := h g (by rw [e1]; simp)
    omega

/-- Under `first_fit`, a returned `malloc` on a directory places the block at
the first gap that is large enough, and behind the last gap when none is. -/
theorem malloc_first_fit_head (c : Sizes) (s s1 : Heap) (bs : List Blk) (size fuel u : Nat)
    (hpub : Pub c s bs) (hs0 : s.start ≠ 0) (hff : s.g_alloc_function = Strat.FIRST_FIT)
    (hfp : footprint c size < 2147483648) (hsz2 : size < 2147483648)
    (hrun : malloc c fuel s size = .ok (u, s1)) (hu : u ≠ 0) :
    ∃ nw bs1, u = nw.user c ∧ Pub c s1 bs1 ∧ nw.sz = size ∧
      Placed c s1.start bs bs1 nw size ∧ s1.start = s.start ∧
      (firstOf (footprint c size) (gapsOf c s.start (end_addr s.mem s.start) bs) ≠ 0 →
        nw.h = firstOf (footprint c size) (gapsOf c s.start (end_addr s.mem s.start) bs)) ∧
      (firstOf (footprint c size) (gapsOf c s.start (end_addr s.mem s.start) bs) = 0 →
        (bs = [] ∧ nw.h = s.start + c.LS) ∨ ∃ A p, bs = A ++ [p] ∧ nw.h = p.tl c + c.TS) := by
  rcases malloc_pub c s s1 bs size fuel u hpub hfp hsz2 hrun with ⟨e1, -⟩ |
    ⟨nw, bs1, e1, e2, e3, e4, e5, e6, e7, e8, e9, e10, e11⟩
  · exact absurd e1 hu
  obtain ⟨e12, e13⟩ := e11 hs0
  obtain ⟨hl, hcase⟩ := id hpub
  rcases hcase with ⟨e0, -⟩ | ⟨hinv, hemp⟩
  · exact absurd e0 hs0
  have hsz : size ≠ 0 := by omega
  have hg : g_alloc c fuel s size = first_fit c fuel s.mem s.start size := by
    unfold g_alloc
    rw [hff]
  refine ⟨nw, bs1, e1, e3, e4, e6, e12, ?_, ?_⟩
  · intro hne
    rcases first_fit_spec c s bs size fuel hinv hfp with e | ⟨e, -⟩
    · exact e13 _ (hg.trans e) hne
    · have := malloc_err c fuel s size _ hl hsz
        (find_of_err c fuel _ size _ hs0 ((g_alloc_lock c fuel s size true).trans (hg.trans e)))
      rw [this] at hrun
      cases hrun
  · intro h0
    have hall : ∀ g ∈ gapsOf c s.start (end_addr s.mem s.start) bs, g.2 < footprint c size := by
      rcases firstOf_spec (footprint c size) (gapsOf c s.start (end_addr s.mem s.start) bs) with
        ⟨a, -⟩ | ⟨pre, g, post, a1, a2, a3, a4⟩
      · exact a
      · have hnz := gapsOf_nz c s.start (end_addr s.mem s.start) bs hinv.1.2.2.2.1
          hinv.1.2.2.2.2.2.1 g (by rw [a1]; simp)
        rw [a2] at h0
        exact absurd h0 hnz
    have hfpos : 0 < footprint c size := by
      have c5 := hinv.1.2.2.2.2.1
      unfold footprint
      omega
    rw [e12] at e6
    rcases e6 with ⟨a1, a2, a3⟩ | ⟨a1, a2, a3⟩ | ⟨A, p, B, a1, a2, a3, a4⟩ | ⟨A, p, a1, a2, a3, -⟩
    · exact Or.inl ⟨a1, a3⟩
    · exfalso
      have hinv1 : Inv c s1 bs1 := by
        rcases e3.2 with ⟨-, hb, -⟩ | ⟨hi, -⟩
        · rw [hb] at a2; cases a2
        · exact hi
      obtain ⟨-, -, -, -, -, -, -, -, -, -, -, -, -, ⟨lo, hlo, htiles⟩, -⟩ := hinv1
      rw [a2] at htiles
      obtain ⟨t1, t2⟩ := htiles
      have t3 := Tiles_hdOr c _ _ _ t2
      have hi := hall (s.start + c.LS, hdOr bs (end_addr s.mem s.start) - (s.start + c.LS))
        (by unfold gapsOf; exact List.mem_cons_self _ _)
      have t4 : hdOr bs (end_addr s1.mem s1.start) = hdOr bs (end_addr s.mem s.start) :=
        hdOr_ne bs a1 _ _
      have t5 : nw.nx c = nw.h + c.HS + round_up nw.sz ALIGNMENT + c.TS + nw.ff := rfl
      have t6 : footprint c size = c.HS + round_up size ALIGNMENT + c.TS := rfl
      rw [t4] at t3
      rw [e4] at t5
      dsimp only at hi
      clear * - t3 hi t5 t6 a3
      omega
    · exfalso
      have := hall (p.gap c) (by
        unfold gapsOf
        rw [a1]
        exact List.mem_cons_of_mem _ (List.mem_map.mpr ⟨p, by simp, rfl⟩))
      have t : (p.gap c).2 = p.ff := rfl
      rw [t] at this
      clear * - this a4
      omega
    · exact Or.inr ⟨A, p, a1, a3⟩

/-- A gap that starts at the head of the first block is the gap behind the
header, and it is empty. -/
theorem front_first (c : Sizes) (hc : c.ok) (base e lo hi : Nat) (x : Blk) (R : List Blk)
    (ht : Tiles c lo (x :: R) hi)
    (hf : ∃ g ∈ gapsOf c base e (x :: R), g.1 = x.h) : x.h = base + c.LS := by
  obtain ⟨g, hg, hg1⟩ := hf
  unfold gapsOf at hg
  rcases List.mem_cons.mp hg with e1 | e1
  · rw [e1] at hg1
    exact hg1.symm
  · exfalso
    obtain ⟨y, hy, hyg⟩ := List.mem_map.mp e1
    have h1 := (Tiles_mem c _ _ _ ht y hy).1
    have h2 : x.h = lo := ht.1
    have h3 : g.1 = y.tl c + c.TS := by rw [← hyg]; rfl
    have h4 := Blk.tl_ge c y
    have c5 := hc.2.2.2.2.1
    omega

/-- A gap that starts at the head of a block with a block in front of it is the
gap of that block, and it is empty. -/
theorem front_zero (c : Sizes) (hc : c.ok) (base e lo hi : Nat) (A : List Blk) (p x : Blk)
    (R : List Blk) (hlo : base + c.LS ≤ lo) (ht : Tiles c lo (A ++ p :: x :: R) hi)
    (hf : ∃ g ∈ gapsOf c base e (A ++ p :: x :: R), g.1 = x.h) :
    p.ff = 0 ∧ x.h = p.tl c + c.TS ∧ base + c.LS < x.h ∧ (∀ y ∈ A, y.tl c + c.TS < x.h) ∧
      x.h = p.nx c ∧ hdOr R hi = x.nx c := by
  have hpw := Tiles_pairwise c _ _ _ ht
  obtain ⟨mid, t1, t2⟩ := (Tiles_append c A (p :: x :: R) lo hi).mp ht
  obtain ⟨t3, t4, t5⟩ := t2
  have hhd := Tiles_hdOr c _ _ _ t5
  have c5 := hc.2.2.2.2.1
  have c6 := hc.2.2.2.2.2.1
  have hple := Tiles_le c _ _ _ t1
  have n1 : p.nx c = p.tl c + c.TS + p.ff := rfl
  have n2 := Blk.tl_ge c p
  have hA : ∀ y ∈ A, y.tl c + c.TS < x.h := by
    intro y hy
    have := (List.pairwise_append.mp hpw).2.2 y hy p (by simp)
    have := Blk.nx_ge c y
    omega
  obtain ⟨g, hg, hg1⟩ := hf
  unfold gapsOf at hg
  have key : p.ff = 0 := by
    rcases List.mem_cons.mp hg with e1 | e1
    · rw [e1] at hg1
      dsimp only at hg1
      omega
    · obtain ⟨y, hy, hyg⟩ := List.mem_map.mp e1
      have h3 : g.1 = y.tl c + c.TS := by rw [← hyg]; rfl
      have h4 := Blk.tl_ge c y
      have n3 := Blk.nx_ge c x
      have n4 := Blk.tl_ge c x
      simp only [List.mem_append, List.mem_cons] at hy
      rcases hy with hy | hy | hy | hy
      · have := hA y hy
        omega
      · rw [hy] at h3
        omega
      · rw [hy] at h3
        omega
      · have := (Tiles_mem c _ _ _ t5 y hy).1
        omega
  exact ⟨key, by omega, by omega, hA, t4, hhd⟩

/-- Under `first_fit`, freeing a block in front of which no byte is free and
allocating a size with the same rounded size gives the address of the freed
block back when no gap in front of it is large enough. -/
theorem refill (c : Sizes) (s s1 s2 : Heap) (bs : List Blk) (x : Blk) (size fuel u : Nat)
    (hpub : Pub c s bs) (hx : x ∈ bs) (hff : s.g_alloc_function = Strat.FIRST_FIT)
    (hfree : free c s (x.user c) = .ok s1) (hsz : 0 < size) (hsz2 : size < 2147483648)
    (hru : round_up size ALIGNMENT = round_up x.sz ALIGNMENT)
    (hrun : malloc c fuel s1 size = .ok (u, s2)) (hu : u ≠ 0)
    (hlow : ∀ g ∈ gapsOf c s.start (end_addr s.mem s.start) bs,
      g.1 < x.h → g.2 < footprint c size)
    (hfront : ∃ g ∈ gapsOf c s.start (end_addr s.mem s.start) bs, g.1 = x.h) :
    u = x.user c := by
  obtain ⟨hl, hinv, -⟩ := Pub_blk c s bs x hpub hx
  have hc := hinv.1
  have hs0 := hinv.2.1
  have hfpx := Pub_fp c s bs x hpub hx
  have hfpe : footprint c size = footprint c x.sz := by unfold footprint; rw [hru]
  have hfpv : footprint c x.sz = c.HS + round_up x.sz ALIGNMENT + c.TS := rfl
  have c5 := hc.2.2.2.2.1
  obtain ⟨s3, bs1, f1, f2, f3, f4, f5, f6, f7⟩ := free_pub c s bs x hpub hx
  rw [hfree] at f1
  have hs3 := Except.ok.inj f1
  subst hs3
  obtain ⟨nw, bs2, e1, e2, e3, e4, e5, H1, H0⟩ := malloc_first_fit_head c s1 s2 bs1 size fuel u
    f2 (by rw [f5]; exact hs0) (f6.trans hff) (by rw [hfpe]; exact hfpx) hsz2 hrun hu
  rw [f5] at H1 H0
  suffices hh : nw.h = x.h by rw [e1]; exact user_congr c nw x hh
  obtain ⟨-, -, -, -, -, -, -, -, -, -, -, -, -, ⟨lo, hlo, htiles⟩, -⟩ := id hinv
  have hxn : x.nx c = x.h + c.HS + round_up x.sz ALIGNMENT + c.TS + x.ff := rfl
  have hemp1 : bs1 = [] → end_addr s1.mem s.start = s.start + c.LS := by
    intro hb
    rcases f2.2 with ⟨e0, -⟩ | ⟨-, he⟩
    · rw [f5] at e0; exact absurd e0 hs0
    · have := (he hb).1
      rw [f5] at this
      exact this
  generalize end_addr s1.mem s.start = e1v at H1 H0 hemp1
  generalize end_addr s.mem s.start = e at hlow hfront htiles
  rcases f3 with ⟨a1, a2, -⟩ | ⟨R, l, a1, a2, -⟩ | ⟨A, p, n, B, a1, a2, -⟩ | ⟨A, p, a1, a2, -⟩
  · subst a1 a2
    have hxh := front_first c hc s.start e lo e x [] htiles hfront
    have he := hemp1 rfl
    have hF : firstOf (footprint c size) (gapsOf c s.start e1v []) = 0 := by
      apply firstOf_none
      intro g hg
      unfold gapsOf at hg
      simp only [List.map_nil, List.mem_singleton] at hg
      rw [hg, he]
      show s.start + c.LS - (s.start + c.LS) < footprint c size
      omega
    rcases H0 hF with ⟨-, h⟩ | ⟨A, p, h, -⟩
    · exact h.trans hxh.symm
    · simp at h
  · subst a1 a2
    have hxh := front_first c hc s.start e lo e x _ htiles hfront
    obtain ⟨t1, t2⟩ := htiles
    have hhd : hdOr (R ++ [l]) e1v = x.nx c :=
      (hdOr_ne (R ++ [l]) (by simp) e1v e).trans (Tiles_hdOr c _ _ _ t2)
    have hF : firstOf (footprint c size) (gapsOf c s.start e1v (R ++ [l])) = s.start + c.LS := by
      unfold gapsOf
      rw [hhd]
      exact firstOf_at (footprint c size) [] (s.start + c.LS, x.nx c - (s.start + c.LS)) _
        (fun g hg => by cases hg) (by
          show footprint c size ≤ x.nx c - (s.start + c.LS)
          omega)
    rw [hF] at H1
    exact (H1 (by omega)).trans hxh.symm
  · subst a1 a2
    obtain ⟨z1, z2, z3, z4, z5, z6⟩ := front_zero c hc s.start e lo e A p x (n :: B) hlo htiles
      hfront
    have hpre : ∀ g1 ∈ (s.start + c.LS, hdOr (A ++ p :: x :: n :: B) e - (s.start + c.LS)) ::
        A.map (Blk.gap c), g1.2 < footprint c size := by
      intro g1 hg1
      apply hlow g1
      · unfold gapsOf
        rcases List.mem_cons.mp hg1 with h | h
        · rw [h]; exact List.mem_cons_self _ _
        · refine List.mem_cons_of_mem _ ?_
          rw [List.map_append]
          exact List.mem_append_left _ h
      · rcases List.mem_cons.mp hg1 with h | h
        · rw [h]; exact z3
        · obtain ⟨y, hy, hyg⟩ := List.mem_map.mp h
          rw [← hyg]
          exact z4 y hy
    have hG : gapsOf c s.start e1v
        (A ++ Blk.mk p.h p.sz (p.ff + (footprint c x.sz + x.ff)) :: n :: B) =
        ((s.start + c.LS, hdOr (A ++ p :: x :: n :: B) e - (s.start + c.LS)) ::
          A.map (Blk.gap c)) ++ (p.tl c + c.TS, p.ff + (footprint c x.sz + x.ff)) ::
            (n :: B).map (Blk.gap c) := by
      unfold gapsOf
      rw [List.map_append, List.map_cons, hdOr_append, hdOr_append]
      rfl
    rw [hG, firstOf_at _ _ _ _ hpre (by
      show footprint c size ≤ p.ff + (footprint c x.sz + x.ff)
      omega)] at H1
    exact (H1 (by show p.tl c + c.TS ≠ 0; omega)).trans z2.symm
  · subst a1 a2
    obtain ⟨z1, z2, z3, z4, z5, z6⟩ := front_zero c hc s.start e lo e A p x [] hlo htiles
      hfront
    have hpre : ∀ g1 ∈ (s.start + c.LS, hdOr (A ++ [p, x]) e - (s.start + c.LS)) ::
        A.map (Blk.gap c), g1.2 < footprint c size := by
      intro g1 hg1
      apply hlow g1
      · unfold gapsOf
        rcases List.mem_cons.mp hg1 with h | h
        · rw [h]; exact List.mem_cons_self _ _
        · refine List.mem_cons_of_mem _ ?_
          rw [List.map_append]
          exact List.mem_append_left _ h
      · rcases List.mem_cons.mp hg1 with h | h
        · rw [h]; exact z3
        · obtain ⟨y, hy, hyg⟩ := List.mem_map.mp h
          rw [← hyg]
          exact z4 y hy
    have hG : gapsOf c s.start e1v
        (A ++ [Blk.mk p.h p.sz (p.ff + (footprint c x.sz + x.ff) -
          cutBy (p.ff + (footprint c x.sz + x.ff)))]) =
        ((s.start + c.LS, hdOr (A ++ [p, x]) e - (s.start + c.LS)) ::
          A.map (Blk.gap c)) ++ (p.tl c + c.TS, p.ff + (footprint c x.sz + x.ff) -
          cutBy (p.ff + (footprint c x.sz + x.ff))) :: [] := by
      unfold gapsOf
      rw [List.map_append, List.map_cons, hdOr_append, hdOr_append]
      rfl
    by_cases hfit : footprint c size ≤ p.ff + (footprint c x.sz + x.ff) -
        cutBy (p.ff + (footprint c x.sz + x.ff))
    · rw [hG, firstOf_at _ _ _ _ hpre hfit] at H1
      exact (H1 (by show p.tl c + c.TS ≠ 0; omega)).trans z2.symm
    · have hF : firstOf (footprint c size) (gapsOf c s.start e1v
          (A ++ [Blk.mk p.h p.sz (p.ff + (footprint c x.sz + x.ff) -
            cutBy (p.ff + (footprint c x.sz + x.ff)))])) = 0 := by
        apply firstOf_none
        rw [hG]
        intro g hg
        rcases List.mem_append.mp hg with h | h
        · exact hpre g h
        · simp only [List.mem_singleton] at h
          rw [h]
          show _ - _ < _
          omega
      rcases H0 hF with ⟨h, -⟩ | ⟨A2, q, h, hq⟩
      · simp at h
      · have hq2 := (List.append_inj' h rfl).2
        simp only [List.cons.injEq, and_true] at hq2
        rw [hq, ← hq2]
        exact z2.symm

/-- Claim C12, as the code has it: on the directory of a reachable state, with
enough iterations for its blocks and a size whose footprint is below `2^31`,
`first_fit` returns; the result is none exactly when no gap is as large as the
footprint, and otherwise the first byte of the first gap, in the order gap
behind the header and then gaps behind the blocks in ascending address order,
that is as large as the footprint.  Consequently, under `first_fit`, freeing a
live block and then allocating a size with the same rounded size returns the
address of the freed block whenever no gap at a lower address is large enough
and no free byte lies directly in front of the freed block. -/
theorem C12_first_fit (c : Sizes) (hc : c.ok) (s : Heap) (L : List Nat) (h : Reach c s L)
    (hs0 : s.start ≠ 0) (fuel size : Nat) (hfuel : L.length < fuel)
    (hfp : footprint c size < I31) :
    (∃ r, first_fit c fuel s.mem s.start size = .ok r ∧
      ((r = 0 ∧ ∀ g ∈ gapList c s.mem s.start L.length, g.2 < footprint c size) ∨
        (r ≠ 0 ∧ ∃ pre g post, gapList c s.mem s.start L.length = pre ++ g :: post ∧
          r = g.1 ∧ footprint c size ≤ g.2 ∧ ∀ g1 ∈ pre, g1.2 < footprint c size))) ∧
    (s.g_alloc_function = Strat.FIRST_FIT → ∀ p ∈ L, ∀ s1 fuel2 u s2,
      free c s p = .ok s1 → 0 < size → size < I31 →
      round_up size ALIGNMENT = round_up (get_segment_size c s.mem p) ALIGNMENT →
      malloc c fuel2 s1 size = .ok (u, s2) → u ≠ 0 →
      (∀ g ∈ gapList c s.mem s.start L.length, g.1 < p - c.HS → g.2 < footprint c size) →
      (∃ g ∈ gapList c s.mem s.start L.length, g.1 = p - c.HS) → u = p) := by
  obtain ⟨bs, hp, hinv, hL, hlen, hg⟩ := reach_dir c hc s L h hs0
  rw [hg]
  have hnz := gapsOf_nz c s.start (end_addr s.mem s.start) bs hc.2.2.2.1 hc.2.2.2.2.2.1
  constructor
  · rcases first_fit_spec c s bs size fuel hinv hfp with e | ⟨-, e⟩
    · refine ⟨_, e, ?_⟩
      rcases firstOf_spec (footprint c size) (gapsOf c s.start (end_addr s.mem s.start) bs) with
        ⟨a1, a2⟩ | ⟨pre, g, post, a1, a2, a3, a4⟩
      · exact Or.inl ⟨a2, a1⟩
      · refine Or.inr ⟨?_, pre, g, post, a1, a2, a3, a4⟩
        rw [a2]
        exact hnz g (by rw [a1]; simp)
    · omega
  · intro hff p hpL s1 fuel2 u s2 hfree hsz hsz2 hru hrun hu hlow hfront
    obtain ⟨x, hx, hxu⟩ := List.mem_map.mp (hL.mem_iff.mp hpL)
    obtain ⟨-, -, -, -, -, -, hgs, -⟩ := Pub_blk c s bs x hp hx
    subst hxu
    rw [hgs] at hru
    rw [user_sub] at hlow hfront
    exact refill c s s1 s2 bs x size fuel2 u hp hx hff hfree hsz hsz2 hru hrun hu hlow hfront

theorem run_heapB1 : malloc sizes64 10 heapA 16 =
    .ok (1216, after heapA (malloc sizes64 10 heapA 16)) := rfl

theorem run_heapB : malloc sizes64 10 (after heapA (malloc sizes64 10 heapA 16)) 16 =
    .ok (1328, heapB) := rfl

theorem reach_heapB : Reach sizes64 heapB [1328, 1216, 1088] :=
  Reach.step_malloc _ heapB [1216, 1088] 10 16 1328
    (Reach.step_malloc heapA _ [1088] 10 16 1216 reach_heapA (by decide) (by decide)
      run_heapB1) (by decide) (by decide) run_heapB

theorem run_heapC : realloc sizes64 10 heapB 1088 16 = .ok (1088, heapC) := rfl

theorem reach_heapC : Reach sizes64 heapC [1088, 1328, 1216] :=
  Reach.step_realloc heapB heapC [1328, 1216, 1088] 10 1088 16 1088 reach_heapB (by decide)
    (by decide) (by decide) (by decide) run_heapC

theorem run_heapD : free sizes64 heapC 1216 = .ok heapD := rfl

/-- Claim C12 at the state `heapB`, freeing the block `1216` of size `16` and
allocating `16` bytes again. -/
theorem C12_first_fit_witness :
    sizes64.ok ∧ Reach sizes64 heapB [1328, 1216, 1088] ∧ heapB.start ≠ 0 ∧
    ([1328, 1216, 1088] : List Nat).length < 10 ∧ footprint sizes64 16 < I31 ∧
    heapB.g_alloc_function = Strat.FIRST_FIT ∧
    ret (malloc sizes64 10 (afterFree heapB (free sizes64 heapB 1216)) 16) = 1216 :=
  ⟨by decide, reach_heapB, by decide, by decide, by decide, by decide,
    (C12_first_fit sizes64 (by decide) heapB [1328, 1216, 1088] reach_heapB (by decide) 10 16
      (by decide) (by decide)).2 (by decide) 1216 (by decide)
      (afterFree heapB (free sizes64 heapB 1216)) 10
      (ret (malloc sizes64 10 (afterFree heapB (free sizes64 heapB 1216)) 16))
      (after heapB (malloc sizes64 10 (afterFree heapB (free sizes64 heapB 1216)) 16))
      rfl (by decide) (by decide) (by decide) rfl (by decide) (by decide) (by decide)⟩

/-- The claim C12 fails in three ways.  For a size whose footprint is `2^31`, on
the state after `malloc(1)` whose gaps hold `0` and `3984` bytes, `first_fit`
returns the first byte `1040` of the gap of `0` bytes.  In an arena of `2^31`
bytes, on the directory without blocks that `malloc(2^31 - 200)` leaves on a
process whose break may rise to `2^40`, the only gap holds `2^31` bytes and
`first_fit` returns none for the size `1`, whose footprint is `112`: the size of
the gap is negative as an `int`.  And on `heapC`, where
`16` free bytes lie in front of the block `1216` of size `16` and no gap in
front of it holds the `112` bytes of the footprint, `free(1216)` followed by
`malloc(16)` returns `1200`, the first byte behind the head placed at the start
of the merged gap, not `1216`. -/
theorem C12_counterexample :
    (gapList sizes64 heap1.mem heap1.start 1 = [(1040, 0), (1152, 3984)] ∧
      footprint sizes64 2147483551 = 2147483648 ∧
      first_fit sizes64 10 heap1.mem heap1.start 2147483551 = .ok 1040) ∧
    (malloc sizes64 10 heapV 2147483448 = .ok (0, heapR) ∧
      gapList sizes64 heapR.mem heapR.start 0 = [(1040, 2147483648)] ∧
      footprint sizes64 1 = 112 ∧
      first_fit sizes64 10 heapR.mem heapR.start 1 = .ok 0) ∧
    (Reach sizes64 heapC [1088, 1328, 1216] ∧
      heapC.g_alloc_function = Strat.FIRST_FIT ∧
      gapList sizes64 heapC.mem heapC.start 3 =
        [(1040, 0), (1152, 16), (1280, 0), (1392, 3744)] ∧
      get_segment_size sizes64 heapC.mem 1216 = 16 ∧ 1216 - sizes64.HS = 1168 ∧
      footprint sizes64 16 = 112 ∧
      free sizes64 heapC 1216 = .ok heapD ∧
      ret (malloc sizes64 10 heapD 16) = 1200) :=
  ⟨⟨by decide, by decide, rfl⟩, ⟨rfl, by decide, by decide, rfl⟩,
    ⟨reach_heapC, by decide, by decide, by decide, by decide, by decide, rfl, by decide⟩⟩

/-! ## Allocations in a row -/

/-- On a directory whose blocks lie back to back from `base + sizeof(header)` on,
a returned `malloc` puts the new block right behind the last one. -/
theorem packed_step (c : Sizes) (s s1 : Heap) (A : List Blk) (l : Blk) (size fuel u : Nat)
    (hpub : Pub c s (A ++ [l])) (hz : ∀ b ∈ A, b.ff = 0)
    (hhd : hdOr (A ++ [l]) 0 = s.start + c.LS)
    (hfp : footprint c size < 2147483648) (hsz2 : size < 2147483648)
    (hrun : malloc c fuel s size = .ok (u, s1)) (hu : u ≠ 0) :
    ∃ nw, u = nw.user c ∧ nw.sz = size ∧ nw.h = l.tl c + c.TS ∧ s1.start = s.start ∧
      Pub c s1 ((A ++ [Blk.mk l.h l.sz 0]) ++ [nw]) ∧
      (∀ b ∈ A ++ [Blk.mk l.h l.sz 0], b.ff = 0) ∧
      hdOr ((A ++ [Blk.mk l.h l.sz 0]) ++ [nw]) 0 = s1.start + c.LS := by
  obtain ⟨-, hinv, -⟩ := Pub_blk c s _ l hpub (by simp)
  have hs0 := hinv.2.1
  have c5 := hinv.1.2.2.2.2.1
  rcases malloc_pub c s s1 _ size fuel u hpub hfp hsz2 hrun with ⟨e1, -⟩ |
    ⟨nw, bs1, e1, e2, e3, e4, e5, e6, e7, e8, e9, e10, e11⟩
  · exact absurd e1 hu
  obtain ⟨e12, -⟩ := e11 hs0
  have hfpos : 0 < footprint c size := by unfold footprint; omega
  have hz1 : ∀ b ∈ A ++ [Blk.mk l.h l.sz 0], b.ff = 0 := by
    intro b hb
    rcases List.mem_append.mp hb with h | h
    · exact hz b h
    · simp only [List.mem_singleton] at h
      rw [h]
  have hhd1 : hdOr ((A ++ [Blk.mk l.h l.sz 0]) ++ [nw]) 0 = s1.start + c.LS := by
    rw [e12, ← hhd, hdOr_append, hdOr_append, hdOr_append]
    rfl
  have hfin : ∀ A2 p, A ++ [l] = A2 ++ [p] → bs1 = A2 ++ [Blk.mk p.h p.sz 0, nw] →
      nw.h = p.tl c + c.TS →
      ∃ nw, u = nw.user c ∧ nw.sz = size ∧ nw.h = l.tl c + c.TS ∧ s1.start = s.start ∧
        Pub c s1 ((A ++ [Blk.mk l.h l.sz 0]) ++ [nw]) ∧
        (∀ b ∈ A ++ [Blk.mk l.h l.sz 0], b.ff = 0) ∧
        hdOr ((A ++ [Blk.mk l.h l.sz 0]) ++ [nw]) 0 = s1.start + c.LS := by
    intro A2 p a1 a2 a3
    obtain ⟨q1, q2⟩ := List.append_inj' a1 rfl
    simp only [List.cons.injEq, and_true] at q2
    subst q1 q2
    refine ⟨nw, e1, e4, a3, e12, ?_, hz1, hhd1⟩
    rw [a2] at e3
    simpa using e3
  rcases e6 with ⟨a1, -, -⟩ | ⟨a1, a2, a3⟩ | ⟨A2, p, B, a1, a2, a3, a4⟩ | ⟨A2, p, a1, a2, a3, -⟩
  · simp at a1
  · exfalso
    have hinv1 : Inv c s1 bs1 := by
      rcases e3.2 with ⟨-, hb, -⟩ | ⟨hi, -⟩
      · rw [hb] at a2; cases a2
      · exact hi
    obtain ⟨-, -, -, -, -, -, -, -, -, -, -, -, -, ⟨lo, hlo, htiles⟩, -⟩ := hinv1
    rw [a2] at htiles
    obtain ⟨t1, t2⟩ := htiles
    have t3 := Tiles_hdOr c _ _ _ t2
    rw [hdOr_ne _ a1 _ 0, hhd, ← e12] at t3
    have t5 : nw.nx c = nw.h + c.HS + round_up nw.sz ALIGNMENT + c.TS + nw.ff := rfl
    clear * - t3 t5 a3 c5
    omega
  · cases B with
    | nil => exact hfin A2 p a1 a2 a3
    | cons n B2 =>
      exfalso
      have hp : p ∈ A := by
        have h1 : (A ++ [l]).dropLast = (A2 ++ p :: n :: B2).dropLast := by rw [a1]
        rw [List.dropLast_concat] at h1
        rw [h1, List.dropLast_append_of_ne_nil _ (by simp)]
        rw [List.dropLast_cons_of_ne_nil (by simp)]
        simp
      have := hz p hp
      clear * - this a4 hfpos
      omega
  · exact hfin A2 p a1 a2 a3

/-- Allocations in a row on a directory whose blocks lie back to back. -/
theorem packed_run (c : Sizes) (fuel : Nat) :
    ∀ (zs : List Nat) (s s1 : Heap) (A : List Blk) (l : Blk) (us : List Nat),
      Pub c s (A ++ [l]) → (∀ b ∈ A, b.ff = 0) → hdOr (A ++ [l]) 0 = s.start + c.LS →
      (∀ z ∈ zs, z < 2147483648 ∧ footprint c z < 2147483648) →
      mallocs c fuel s zs = .ok (us, s1) → (∀ u ∈ us, u ≠ 0) →
      us = packed c (l.user c + round_up l.sz ALIGNMENT + c.TS + c.HS) zs ∧
        s1.start = s.start := by
  intro zs
  induction zs with
  | nil =>
    intro s s1 A l us _ _ _ _ hrun _
    have := Except.ok.inj hrun
    exact ⟨(Prod.mk.inj this).1.symm, by rw [← (Prod.mk.inj this).2]⟩
  | cons z zs ih =>
    intro s s1 A l us hpub hz hhd hb hrun hnz
    unfold mallocs at hrun
    cases hm : malloc c fuel s z with
    | error e => rw [hm] at hrun; cases hrun
    | ok r =>
      obtain ⟨u, s2⟩ := r
      rw [hm] at hrun
      dsimp only at hrun
      cases hr : mallocs c fuel s2 zs with
      | error e => rw [hr] at hrun; cases hrun
      | ok r2 =>
        obtain ⟨us2, s3⟩ := r2
        rw [hr] at hrun
        dsimp only at hrun
        obtain ⟨q1, q2⟩ := Prod.mk.inj (Except.ok.inj hrun)
        subst q1 q2
        obtain ⟨hz1, hz2⟩ := hb z (List.mem_cons_self _ _)
        obtain ⟨nw, e1, e2, e3, e4, e5, e6, e7⟩ := packed_step c s s2 A l z fuel u hpub hz hhd
          hz2 hz1 hm (hnz u (List.mem_cons_self _ _))
        obtain ⟨i1, i2⟩ := ih s2 s3 _ nw us2 e5 e6 e7
          (fun z2 h2 => hb z2 (List.mem_cons_of_mem _ h2)) hr
          (fun u2 h2 => hnz u2 (List.mem_cons_of_mem _ h2))
        refine ⟨?_, i2.trans e4⟩
        have t1 : nw.user c = nw.h + c.HS := rfl
        have t2 : l.tl c = l.user c + round_up l.sz ALIGNMENT := rfl
        have hu2 : u = l.user c + round_up l.sz ALIGNMENT + c.TS + c.HS := by
          rw [e1, t1, e3, t2]
        rw [i1, e2, ← e1]
        show u :: _ = _ :: _
        rw [hu2]

/-- Allocations in a row on an empty directory, or before there is a directory. -/
theorem packed_from_empty (c : Sizes) (fuel : Nat) (zs : List Nat) (s s1 : Heap)
    (us : List Nat) (hpub : Pub c s [])
    (hb : ∀ z ∈ zs, z < 2147483648 ∧ footprint c z < 2147483648)
    (hrun : mallocs c fuel s zs = .ok (us, s1)) (hnz : ∀ u ∈ us, u ≠ 0) :
    us = packed c (s1.start + c.LS + c.HS) zs := by
  cases zs with
  | nil =>
    have := Except.ok.inj hrun
    exact (Prod.mk.inj this).1.symm
  | cons z zs =>
    unfold mallocs at hrun
    cases hm : malloc c fuel s z with
    | error e => rw [hm] at hrun; cases hrun
    | ok r =>
      obtain ⟨u, s2⟩ := r
      rw [hm] at hrun
      dsimp only at hrun
      cases hr : mallocs c fuel s2 zs with
      | error e => rw [hr] at hrun; cases hrun
      | ok r2 =>
        obtain ⟨us2, s3⟩ := r2
        rw [hr] at hrun
        dsimp only at hrun
        obtain ⟨q1, q2⟩ := Prod.mk.inj (Except.ok.inj hrun)
        subst q1 q2
        obtain ⟨hz1, hz2⟩ := hb z (List.mem_cons_self _ _)
        rcases malloc_pub c s s2 [] z fuel u hpub hz2 hz1 hm with ⟨e1, -⟩ |
          ⟨nw, bs1, e1, e2, e3, e4, e5, e6, -⟩
        · exact absurd e1 (hnz u (List.mem_cons_self _ _))
        rcases e6 with ⟨-, a2, a3⟩ | ⟨a1, -, -⟩ | ⟨A2, p, B, a1, -⟩ | ⟨A2, p, a1, -⟩
        · subst a2
          obtain ⟨i1, i2⟩ := packed_run c fuel zs s2 s3 [] nw us2 e3
            (fun b hb2 => by cases hb2) a3
            (fun z2 h2 => hb z2 (List.mem_cons_of_mem _ h2)) hr
            (fun u2 h2 => hnz u2 (List.mem_cons_of_mem _ h2))
          have t1 : nw.user c = nw.h + c.HS := rfl
          rw [i1, e4, i2, e1, t1, a3]
          rfl
        · exact absurd rfl a1
        · simp at a1
        · simp at a1

/-- Claim C11, for sizes in the `int` range: starting from an empty directory,
that of a reachable state without live blocks or the one `clear_alloc_storage`
leaves, for every sequence of sizes whose footprints are below `2^31` and under
every policy, if the calls `malloc` in a row return blocks then the first user
address is `base + sizeof(header) + sizeof(head)` and each next one is the one
before it plus `roundup(s_i, A) + sizeof(tail) + sizeof(head)`. -/
theorem C11_packed_allocations (c : Sizes) (hc : c.ok) (s : Heap)
    (hstart : Reach c s [] ∨
      ∃ s0 L, Reach c s0 L ∧ s0.start ≠ 0 ∧ clear_alloc_storage c s0 = .ok s)
    (strat : Strat) (fuel : Nat) (zs us : List Nat) (s1 : Heap)
    (hb : ∀ z ∈ zs, z < I31 ∧ footprint c z < I31)
    (hrun : mallocs c fuel (set_alloc_function s strat) zs = .ok (us, s1))
    (hnz : ∀ u ∈ us, u ≠ 0) :
    us = packed c (s1.start + c.LS + c.HS) zs := by
  have hpub : Pub c s [] := by
    rcases hstart with h | ⟨s0, L, h, h0, hcl⟩
    · obtain ⟨bs, hp, hL⟩ := reach_pub c hc s [] h
      have : bs = [] := by
        have := hL.length_eq
        simp only [List.length_nil, List.length_map] at this
        exact List.length_eq_zero.mp this.symm
      rw [this] at hp
      exact hp
    · obtain ⟨bs, hp, -⟩ := reach_pub c hc s0 L h
      exact clear_pub c s0 s bs hp h0 hcl
  exact packed_from_empty c fuel zs (set_alloc_function s strat) s1 us hpub hb hrun hnz

/-- Claim C11 at the fresh process, the policy `best_fit` and the sizes `1`, `32`
and `16`. -/
theorem C11_packed_allocations_witness :
    sizes64.ok ∧ Reach sizes64 heap0 [] ∧
    (∀ z ∈ [1, 32, 16], z < I31 ∧ footprint sizes64 z < I31) ∧
    rets (mallocs sizes64 10 (set_alloc_function heap0 Strat.BEST_FIT) [1, 32, 16]) =
      [1088, 1200, 1328] ∧
    rets (mallocs sizes64 10 (set_alloc_function heap0 Strat.BEST_FIT) [1, 32, 16]) =
      packed sizes64
        ((afterAll heap0 (mallocs sizes64 10 (set_alloc_function heap0 Strat.BEST_FIT)
          [1, 32, 16])).start + sizes64.LS + sizes64.HS) [1, 32, 16] :=
  ⟨by decide, reach_heap0, by decide, by decide,
    C11_packed_allocations sizes64 (by decide) heap0 (Or.inl reach_heap0) Strat.BEST_FIT 10
      [1, 32, 16]
      (rets (mallocs sizes64 10 (set_alloc_function heap0 Strat.BEST_FIT) [1, 32, 16]))
      (afterAll heap0 (mallocs sizes64 10 (set_alloc_function heap0 Strat.BEST_FIT)
        [1, 32, 16]))
      (by decide) rfl (by decide)⟩

/-- The claim C11 fails when the arena reaches `2^31` bytes: on the fresh process
whose break may rise to `2^40`, for the single size `2^31 - 200`, whose footprint
is `2^31 - 96`, `malloc` grows the arena by `2^31` bytes and then returns null
instead of `1088 = base + sizeof(header) + sizeof(head)`: `add_entry` takes the
size of the arena, `2^31`, as an `int`, where it is negative.  The directory is
left without a block and with an arena of `2^31` bytes. -/
theorem C11_counterexample :
    heapV.start = 0 ∧ heapV.brk = 1000 ∧ heapV.brk_max = 1099511627776 ∧
    footprint sizes64 2147483448 = 2147483552 ∧
    mallocs sizes64 10 heapV [2147483448] = .ok ([0], heapR) ∧
    packed sizes64 (heapR.start + sizes64.LS + sizes64.HS) [2147483448] = [1088] ∧
    first_seg heapR.mem heapR.start = 0 ∧
    end_addr heapR.mem heapR.start - (heapR.start + sizes64.LS) = 2147483648 ∧
    toInt32 ((2147483648 : Nat) : Int) = -2147483648 :=
  ⟨by decide, by decide, by decide, by decide, rfl, by decide, by decide, by decide,
    by decide⟩

/-! ## `malloc` followed by `free` -/

/-- The head that follows a block of a directory: the head right behind its gap,
or, behind the last block, whose gap ends at `end`, the first head. -/
theorem Inv_succ (c : Sizes) (s : Heap) (A B : List Blk) (x : Blk)
    (hinv : Inv c s (A ++ x :: B)) :
    (x.nx c = end_addr s.mem s.start ∧
      next_seg_head s.mem (x.tl c) = hdOr (A ++ x :: B) 0 ∧
      ∀ y ∈ A ++ x :: B, y.h ≤ x.h) ∨
    (∃ n ∈ A ++ x :: B, n.h = x.nx c ∧ next_seg_head s.mem (x.tl c) = x.nx c) := by
  obtain ⟨-, -, -, -, f5, -⟩ := Inv_fields c s A B x hinv
  obtain ⟨-, -, -, -, -, -, -, -, -, -, -, -, -, ⟨lo, hlo, htiles⟩, -⟩ := hinv
  have hpw := Tiles_pairwise c _ _ _ htiles
  obtain ⟨mid, t1, t2⟩ := (Tiles_append c A (x :: B) lo _).mp htiles
  obtain ⟨t3, t4⟩ := t2
  cases B with
  | nil =>
    left
    refine ⟨t4, ?_, ?_⟩
    · rw [f5]
      show hdOr A x.h = hdOr (A ++ [x]) 0
      exact (hdOr_append A [x] 0).symm
    · intro y hy
      rcases List.mem_append.mp hy with h | h
      · have := (List.pairwise_append.mp hpw).2.2 y h x (by simp)
        have := Blk.nx_ge c y
        have := Blk.tl_ge c y
        omega
      · simp only [List.mem_singleton] at h
        rw [h]
  | cons n B2 =>
    right
    refine ⟨n, by simp, t4.1, ?_⟩
    rw [f5]
    show n.h = _
    exact t4.1

/-- The first head of a directory is its lowest head. -/
theorem Inv_first (c : Sizes) (s : Heap) (bs : List Blk) (hinv : Inv c s bs) :
    first_seg s.mem s.start = hdOr bs 0 ∧ (∀ y ∈ bs, hdOr bs 0 ≤ y.h) ∧
      (bs ≠ [] → ∃ b ∈ bs, b.h = hdOr bs 0) := by
  obtain ⟨-, -, -, -, -, -, -, -, -, -, -, hfirst, -, ⟨lo, hlo, htiles⟩, -⟩ := hinv
  refine ⟨hfirst, ?_, ?_⟩
  · intro y hy
    have h1 := (Tiles_mem c _ _ _ htiles y hy).1
    have hne : bs ≠ [] := fun e => by rw [e] at hy; cases hy
    rw [hdOr_ne bs hne 0 (end_addr s.mem s.start), Tiles_hdOr c _ _ _ htiles]
    exact h1
  · intro hne
    cases bs with
    | nil => exact absurd rfl hne
    | cons b r => exact ⟨b, List.mem_cons_self _ _, rfl⟩

/-- Two public states on the same base whose directories have the same heads
with the same sizes hold the same records, up to the gap behind the last block,
which differs by whole pages. -/
theorem restore_core (c : Sizes) (s s2 : Heap) (bs bs2 : List Blk)
    (hp : Pub c s bs) (hp2 : Pub c s2 bs2) (hst : s2.start = s.start) (hs0 : s.start ≠ 0)
    (F : ∀ b ∈ bs, ∃ b2 ∈ bs2, b2.h = b.h ∧ b2.sz = b.sz)
    (G : ∀ b2 ∈ bs2, ∃ b ∈ bs, b.h = b2.h) :
    first_seg s2.mem s2.start = first_seg s.mem s.start ∧
    ∀ x ∈ bs,
      seg_size s2.mem x.h = seg_size s.mem x.h ∧
      next_seg_tail s2.mem x.h = next_seg_tail s.mem x.h ∧
      prev_seg_head s2.mem (x.tl c) = prev_seg_head s.mem (x.tl c) ∧
      next_seg_head s2.mem (x.tl c) = next_seg_head s.mem (x.tl c) ∧
      prev_seg_tail s2.mem (next_seg_head s.mem (x.tl c)) =
        prev_seg_tail s.mem (next_seg_head s.mem (x.tl c)) ∧
      (free_following s2.mem (x.tl c) = free_following s.mem (x.tl c) ∨
        (x.tl c + c.TS + free_following s.mem (x.tl c) = end_addr s.mem s.start ∧
          x.tl c + c.TS + free_following s2.mem (x.tl c) = end_addr s2.mem s2.start ∧
          free_following s2.mem (x.tl c) % 4096 = free_following s.mem (x.tl c) % 4096)) := by
  have hinv : Inv c s bs := by
    rcases hp.2 with ⟨e0, -⟩ | ⟨hi, -⟩
    · exact absurd e0 hs0
    · exact hi
  have hinv2 : Inv c s2 bs2 := by
    rcases hp2.2 with ⟨e0, -⟩ | ⟨hi, -⟩
    · rw [hst] at e0; exact absurd e0 hs0
    · exact hi
  obtain ⟨a1, a2, a3⟩ := Inv_first c s bs hinv
  obtain ⟨b1, b2, b3⟩ := Inv_first c s2 bs2 hinv2
  have c5 := hinv.1.2.2.2.2.1
  have hfirst : hdOr bs2 0 = hdOr bs 0 := by
    by_cases hne : bs = []
    · have hne2 : bs2 = [] := by
        apply List.eq_nil_iff_forall_not_mem.mpr
        intro y hy
        obtain ⟨b, hb, -⟩ := G y hy
        rw [hne] at hb
        cases hb
      rw [hne, hne2]
    · obtain ⟨b, hb, hbh⟩ := a3 hne
      obtain ⟨d2, hd2, hd2h, -⟩ := F b hb
      have hne2 : bs2 ≠ [] := fun e => by rw [e] at hd2; cases hd2
      obtain ⟨z2, hz2, hz2h⟩ := b3 hne2
      obtain ⟨z, hz, hzh⟩ := G z2 hz2
      have i1 := b2 d2 hd2
      have i2 := a2 z hz
      omega
  refine ⟨by rw [a1, b1, hfirst], ?_⟩
  intro x hx
  obtain ⟨x2, hx2, hxh, hxs⟩ := F x hx
  have htl : x2.tl c = x.tl c := tl_congr c x2 x hxh hxs
  obtain ⟨r1, r2, r3, r4, r5, r6, r7, r8, r9⟩ := Pub_read c s bs x hp hx
  obtain ⟨q1, q2, q3, q4, q5, q6, q7, q8, q9⟩ := Pub_read c s2 bs2 x2 hp2 hx2
  rw [hxh] at q2 q3 q4
  rw [htl] at q3 q4 q5 q6
  have n1 : x.nx c = x.tl c + c.TS + x.ff := rfl
  have n2 : x2.nx c = x2.tl c + c.TS + x2.ff := rfl
  have n3 := Blk.tl_ge c x
  have hmod := hinv.2.2.2.2.1
  have hmod2 := hinv2.2.2.2.2.1
  rw [hst] at hmod2
  obtain ⟨A, B, hAB⟩ := List.append_of_mem hx
  obtain ⟨A2, B2, hAB2⟩ := List.append_of_mem hx2
  have hi := hinv
  have hi2 := hinv2
  rw [hAB] at hi
  rw [hAB2] at hi2
  have key : next_seg_head s2.mem (x.tl c) = next_seg_head s.mem (x.tl c) ∧
      (x2.ff = x.ff ∨ (x.nx c = end_addr s.mem s.start ∧
        x2.nx c = end_addr s2.mem s2.start)) := by
    rcases Inv_succ c s A B x hi with ⟨u1, u2, u3⟩ | ⟨n, hn, u1, u2⟩ <;>
      rcases Inv_succ c s2 A2 B2 x2 hi2 with ⟨v1, v2, v3⟩ | ⟨z2, hz2, v1, v2⟩
    · rw [htl, ← hAB2] at v2
      rw [← hAB] at u2
      exact ⟨by rw [u2, v2, hfirst], Or.inr ⟨u1, v1⟩⟩
    · exfalso
      rw [← hAB2] at hz2
      rw [← hAB] at u3
      obtain ⟨z, hz, hzh⟩ := G z2 hz2
      have := u3 z hz
      clear * - this hzh v1 n2 htl hxh n3 c5
      omega
    · exfalso
      rw [← hAB] at hn
      rw [← hAB2] at v3
      obtain ⟨m2, hm2, hm2h, -⟩ := F n hn
      have := v3 m2 hm2
      clear * - this hm2h u1 n1 n3 hxh c5
      omega
    · rw [← hAB] at hn
      rw [← hAB2] at hz2
      obtain ⟨m2, hm2, hm2h, -⟩ := F n hn
      obtain ⟨z, hz, hzh⟩ := G z2 hz2
      have e1 : x2.nx c ≤ x.nx c := by
        rcases Inv_apart c s2 bs2 hinv2 x2 m2 hx2 hm2 with e | e | e
        · exfalso
          rw [e] at hxh
          clear * - hxh hm2h u1 n1 n3 c5
          omega
        · rw [hm2h, u1] at e
          exact e
        · exfalso
          have g1 := Blk.nx_ge c m2
          have g2 := Blk.tl_ge c m2
          clear * - e g1 g2 hm2h u1 n1 n3 hxh c5
          omega
      have e2 : x.nx c ≤ x2.nx c := by
        rcases Inv_apart c s bs hinv x z hx hz with e | e | e
        · exfalso
          rw [← e] at hzh
          clear * - hzh v1 n2 htl hxh n3 c5
          omega
        · rw [hzh, v1] at e
          exact e
        · exfalso
          have g1 := Blk.nx_ge c z
          have g2 := Blk.tl_ge c z
          clear * - e g1 g2 hzh v1 n2 htl hxh n3 c5
          omega
      have e3 : x2.nx c = x.nx c := le_antisymm e1 e2
      rw [htl, e3] at v2
      refine ⟨by rw [u2, v2], Or.inl ?_⟩
      clear * - e3 n1 n2 htl
      omega
  obtain ⟨k1, k2⟩ := key
  refine ⟨by rw [q2, r2, hxs], by rw [q3, r3], by rw [q4, r4], k1, ?_, ?_⟩
  · rw [r6, ← k1]
    exact q6
  · rw [q5, r5]
    rcases k2 with k | ⟨k3, k4⟩
    · exact Or.inl k
    · refine Or.inr ⟨by rw [← k3, n1], by rw [← k4, n2, htl], ?_⟩
      rw [hst] at k4
      clear * - k3 k4 n1 n2 htl hmod hmod2 r7 n3
      omega

/-- Claim C10, as the code has it: in a reachable state, for a size whose
footprint is below `2^31`, `malloc` returning a block followed at once by `free`
of that block leaves the base and `first` as they were and, for every live
block, the size, the position of the tail, the links of head and tail to their
neighbours and `free_following` as they were, except that behind the last
block, whose gap ends at `end`, `free_following` and `end` may differ from
before by whole pages.  The next-fit cursor is not part of what is restored. -/
theorem C10_malloc_free_restores (c : Sizes) (hc : c.ok) (s : Heap) (L : List Nat)
    (h : Reach c s L) (fuel size u : Nat) (s1 s2 : Heap) (h2 : size < I31)
    (hfp : footprint c size < I31) (hm : malloc c fuel s size = .ok (u, s1)) (hu : u ≠ 0)
    (hf : free c s1 u = .ok s2) :
    Reach c s2 ((u :: L).erase u) ∧
    (s.start = 0 → first_seg s2.mem s2.start = 0) ∧
    (s.start ≠ 0 → s2.start = s.start ∧
      first_seg s2.mem s2.start = first_seg s.mem s.start ∧
      ∀ q ∈ L,
        seg_size s2.mem (q - c.HS) = seg_size s.mem (q - c.HS) ∧
        next_seg_tail s2.mem (q - c.HS) = next_seg_tail s.mem (q - c.HS) ∧
        prev_seg_head s2.mem (next_seg_tail s.mem (q - c.HS)) =
          prev_seg_head s.mem (next_seg_tail s.mem (q - c.HS)) ∧
        next_seg_head s2.mem (next_seg_tail s.mem (q - c.HS)) =
          next_seg_head s.mem (next_seg_tail s.mem (q - c.HS)) ∧
        prev_seg_tail s2.mem (next_seg_head s.mem (next_seg_tail s.mem (q - c.HS))) =
          prev_seg_tail s.mem (next_seg_head s.mem (next_seg_tail s.mem (q - c.HS))) ∧
        (free_following s2.mem (next_seg_tail s.mem (q - c.HS)) =
            free_following s.mem (next_seg_tail s.mem (q - c.HS)) ∨
          (next_seg_tail s.mem (q - c.HS) + c.TS +
              free_following s.mem (next_seg_tail s.mem (q - c.HS)) =
                end_addr s.mem s.start ∧
            next_seg_tail s.mem (q - c.HS) + c.TS +
              free_following s2.mem (next_seg_tail s.mem (q - c.HS)) =
                end_addr s2.mem s2.start ∧
            free_following s2.mem (next_seg_tail s.mem (q - c.HS)) % 4096 =
              free_following s.mem (next_seg_tail s.mem (q - c.HS)) % 4096))) := by
  have hr1 : Reach c s1 (if u = 0 then L else u :: L) :=
    Reach.step_malloc s s1 L fuel size u h hfp h2 hm
  rw [if_neg hu] at hr1
  have hr2 : Reach c s2 ((u :: L).erase u) :=
    Reach.step_free s1 s2 (u :: L) u hr1 (List.mem_cons_self _ _) hf
  obtain ⟨bs, hp, hL, hget⟩ := reach_blk c hc s L h
  rcases malloc_pub c s s1 bs size fuel u hp hfp h2 hm with ⟨e1, -⟩ |
    ⟨nw, bs1, e1, e2, e3, e4, e5, e6, e7, e8, e9, e10, e11⟩
  · exact absurd e1 hu
  have hnw := Placed_mem c _ _ _ _ _ e6
  obtain ⟨s3, bs2, f1, f2, f3, f4, f5, f6, f7⟩ := free_pub c s1 bs1 nw e3 hnw
  rw [← e1, hf] at f1
  have hs3 := Except.ok.inj f1
  subst hs3
  obtain ⟨-, hinv1, -⟩ := Pub_blk c s1 bs1 nw e3 hnw
  have hperm : (bs2.map (Blk.user c)).Perm (bs.map (Blk.user c)) :=
    ((Removed_perm c _ _ _ _ _ f3).symm.trans (Placed_perm c _ _ _ _ _ e6)).cons_inv
  have hF : ∀ b ∈ bs, ∃ b2 ∈ bs2, b2.h = b.h ∧ b2.sz = b.sz := by
    intro b hb
    obtain ⟨b1, hb1, hb1h, hb1s⟩ := Placed_old c _ _ _ _ _ e6 b hb
    have hsep := Placed_sep c s1 _ bs bs1 nw _ hinv1 e6 b hb
    have hne : b1.h ≠ nw.h := by
      have g1 := Blk.tl_ge c b
      have g2 := Blk.nx_ge c nw
      have g3 := Blk.tl_ge c nw
      have c5 := hc.2.2.2.2.1
      clear * - hsep g1 g2 g3 hb1h c5
      omega
    obtain ⟨b2, hb2, hb2h, hb2s⟩ := Removed_old c _ _ _ _ _ f3 b1 hb1 hne
    exact ⟨b2, hb2, hb2h.trans hb1h, hb2s.trans hb1s⟩
  have hG : ∀ b2 ∈ bs2, ∃ b ∈ bs, b.h = b2.h := by
    intro b2 hb2
    obtain ⟨b, hb, hbu⟩ := List.mem_map.mp (hperm.mem_iff.mp (List.mem_map.mpr ⟨b2, hb2, rfl⟩))
    refine ⟨b, hb, ?_⟩
    have t1 : b.user c = b.h + c.HS := rfl
    have t2 : b2.user c = b2.h + c.HS := rfl
    omega
  refine ⟨hr2, ?_, ?_⟩
  · intro e0
    have hbs : bs = [] := by
      rcases hp.2 with ⟨-, hb, -⟩ | ⟨hi, -⟩
      · exact hb
      · exact absurd e0 hi.2.1
    have hbs2 : bs2 = [] := by
      apply List.eq_nil_iff_forall_not_mem.mpr
      intro y hy
      obtain ⟨b, hb, -⟩ := hG y hy
      rw [hbs] at hb
      cases hb
    rcases f2.2 with ⟨g0, -⟩ | ⟨hi, -⟩
    · exact absurd (f5.symm.trans g0) hinv1.2.1
    · rw [hi.2.2.2.2.2.2.2.2.2.2.2.1, hbs2]
      rfl
  · intro hs0
    obtain ⟨e12, -⟩ := e11 hs0
    have hst : s2.start = s.start := f5.trans e12
    obtain ⟨k1, k2⟩ := restore_core c s s2 bs bs2 hp f2 hst hs0 hF hG
    refine ⟨hst, k1, ?_⟩
    intro q hq
    obtain ⟨x, hx, hxu⟩ := hget q hq
    obtain ⟨r1, r2, r3, -⟩ := Pub_read c s bs x hp hx
    rw [← hxu, r1, r3]
    obtain ⟨m1, m2, m3⟩ := k2 x hx
    exact ⟨m1, m2.trans r3, m3⟩

/-- Claim C10 at the state after `malloc(1)`: `malloc(1)` returns `1200`, and
after `free(1200)` the records of the block `1088` are as before. -/
theorem C10_malloc_free_restores_witness :
    sizes64.ok ∧ Reach sizes64 heap1 [1088] ∧ 1 < I31 ∧ footprint sizes64 1 < I31 ∧
    malloc sizes64 10 heap1 1 = .ok (1200, heap2) ∧ 1200 ≠ 0 ∧
    free sizes64 heap2 1200 = .ok (roundTrip heap1 1) ∧
    (heap1.start ≠ 0 → (roundTrip heap1 1).start = heap1.start ∧
      first_seg (roundTrip heap1 1).mem (roundTrip heap1 1).start =
        first_seg heap1.mem heap1.start) :=
  ⟨by decide, reach_heap1, by decide, by decide, rfl, by decide, rfl,
    fun h0 =>
      match (C10_malloc_free_restores sizes64 (by decide) heap1 [1088] reach_heap1 10 1 1200
        heap2 (roundTrip heap1 1) (by decide) (by decide) rfl (by decide) rfl).2.2 h0 with
      | ⟨h1, h2, _⟩ => ⟨h1, h2⟩⟩

theorem reach_heapE : Reach sizes64 heapE [1312, 1088] :=
  Reach.step_free (after heap2 (malloc sizes64 10 heap2 1)) heapE [1312, 1200, 1088] 1200
    (Reach.step_malloc heap2 _ [1200, 1088] 10 1 1312 reach_heap2 (by decide) (by decide) rfl)
    (by decide) rfl

theorem reach_heapF : Reach sizes64 heapF [1088] :=
  Reach.step_malloc heap0 heapF [] 10 4000 1088 reach_heap0 (by decide) (by decide) rfl

/-- The claim C10 fails in three ways.  On `heapE`, with the blocks `1088` and
`1312` and the cursor at the tail `1328` of the second, `malloc(1)` returns
`1200` and after `free(1200)` the cursor is the tail `1104` of the first block.
On `heapF`, whose only block `1088` fills the page up to `end` with
`free_following = 0`, `malloc(1)` returns `5184` and after `free(5184)` the
`free_following` of the block `1088` is `4096`.  And for a footprint that is not
in the `int` range: on `heapN1`, with the live blocks `1200` and `1073743120`
behind an initial gap of `112` bytes in an arena of `2^31 + 4096` bytes,
`malloc(2^31 + 208)`, whose footprint `2^31 + 304` is negative as an `int`,
returns `1088`, with its tail record on the tail record `2^31 + 1296` of the last
block; `free(1088)` then takes the block for the only one and returns with the
directory reset: `first` is none and `end` is `base + sizeof(header)`. -/
theorem C10_counterexample :
    (Reach sizes64 heapE [1312, 1088] ∧
      heapE.last_addr = 1328 ∧ ret (malloc sizes64 10 heapE 1) = 1200 ∧
      (roundTrip heapE 1).last_addr = 1104) ∧
    (Reach sizes64 heapF [1088] ∧
      get_following_gap_size sizes64 heapF.mem 1088 = 0 ∧
      ret (malloc sizes64 10 heapF 1) = 5184 ∧
      get_following_gap_size sizes64 (roundTrip heapF 1).mem 1088 = 4096 ∧
      end_addr heapF.mem heapF.start = 5136 ∧
      end_addr (roundTrip heapF 1).mem (roundTrip heapF 1).start = 9232) ∧
    (footprint sizes64 2147483856 = 2147483952 ∧
      toInt32 ((2147483952 : Nat) : Int) = -2147483344 ∧
      first_seg heapN1.mem heapN1.start = 1152 ∧
      end_addr heapN1.mem heapN1.start = 2147488784 ∧
      prev_seg_tail heapN1.mem 1152 = 2147484944 ∧
      malloc sizes64 10 heapN1 2147483856 =
        .ok (1088, after heapN1 (malloc sizes64 10 heapN1 2147483856)) ∧
      next_seg_tail (after heapN1 (malloc sizes64 10 heapN1 2147483856)).mem
        (1088 - sizes64.HS) = 2147484944 ∧
      free sizes64 (after heapN1 (malloc sizes64 10 heapN1 2147483856)) 1088 =
        .ok (roundTrip heapN1 2147483856) ∧
      first_seg (roundTrip heapN1 2147483856).mem heapN1.start = 0 ∧
      end_addr (roundTrip heapN1 2147483856).mem heapN1.start = 1040) :=
  ⟨⟨reach_heapE, by decide, by decide, by decide⟩,
    ⟨reach_heapF, by decide, by decide, by decide, by decide, by decide⟩,
    ⟨by decide, by decide, by decide, by decide, by decide, rfl, by decide, rfl, by decide,
      by decide⟩⟩

/-! ## The addresses `malloc` returns, for every request size -/

theorem ASSERT_ok_of {β : Type} (p : Prop) [Decidable p] (f : Unit → Except Stop β) (r : β)
    (h : (ASSERT p >>= f) = .ok r) : p ∧ f () = .ok r := by
  by_cases hp : p
  · rw [ASSERT_bind p f hp] at h
    exact ⟨hp, h⟩
  · unfold ASSERT at h
    rw [if_neg hp] at h
    cases h

theorem bind_ok_of {α β : Type} (x : Except Stop α) (f : α → Except Stop β) (r : β)
    (h : (x >>= f) = .ok r) : ∃ a, x = .ok a ∧ f a = .ok r := by
  cases x with
  | error e => cases h
  | ok a => exact ⟨a, rfl, h⟩

/-- What a returned `calloc` has done: nothing for a zero argument or when `malloc`
returned null, else `malloc` and the zero-fill of the block. -/
theorem calloc_ok_of (c : Sizes) (fuel : Nat) (s s1 : Heap) (n size u : Nat)
    (h : calloc c fuel s n size = .ok (u, s1)) :
    (u = 0 ∧ (((n = 0 ∨ size = 0) ∧ s1 = s) ∨
      malloc c fuel s (n * size % 18446744073709551616) = .ok (0, s1))) ∨
    (u ≠ 0 ∧ ∃ s0 m, malloc c fuel s (n * size % 18446744073709551616) = .ok (u, s0) ∧
      set_mem_zero s0.mem u (n * size % 18446744073709551616) = .ok m ∧
      s1 = { s0 with mem := m }) := by
  unfold calloc at h
  split at h
  · rename_i h0
    obtain ⟨e1, e2⟩ := Prod.mk.inj (Except.ok.inj h)
    exact Or.inl ⟨e1.symm, Or.inl ⟨h0, e2.symm⟩⟩
  · obtain ⟨y, hy, h⟩ := bind_ok_of _ _ _ h
    obtain ⟨a, s0⟩ := y
    dsimp only at h
    by_cases ha : a = 0
    · rw [if_pos ha] at h
      obtain ⟨e1, e2⟩ := Prod.mk.inj (Except.ok.inj h)
      rw [ha, e2] at hy
      exact Or.inl ⟨e1.symm, Or.inr hy⟩
    · rw [if_neg ha] at h
      obtain ⟨m, hm, h⟩ := bind_ok_of _ _ _ h
      obtain ⟨e1, e2⟩ := Prod.mk.inj (Except.ok.inj h)
      subst e1
      exact Or.inr ⟨ha, s0, m, hy, hm, e2.symm⟩

theorem add_entry_front_ret (c : Sizes) (s s1 : Heap) (addr size eff : Nat) (ns : Int)
    (n : Nat) (h : add_entry_front c s addr size eff ns = .ok (n, s1)) : n = addr := by
  unfold add_entry_front at h
  obtain ⟨-, h⟩ := ASSERT_ok_of _ _ _ h
  obtain ⟨-, h⟩ := ASSERT_ok_of _ _ _ h
  obtain ⟨-, h⟩ := ASSERT_ok_of _ _ _ h
  obtain ⟨-, h⟩ := ASSERT_ok_of _ _ _ h
  obtain ⟨-, h⟩ := ASSERT_ok_of _ _ _ h
  exact (Prod.mk.inj (Except.ok.inj h)).1.symm

theorem add_entry_after_ret (c : Sizes) (s s1 : Heap) (addr size eff : Nat) (ns : Int)
    (prev n : Nat) (h : add_entry_after c s addr size eff ns prev = .ok (n, s1)) :
    n = addr := by
  unfold add_entry_after at h
  obtain ⟨-, h⟩ := ASSERT_ok_of _ _ _ h
  obtain ⟨-, h⟩ := ASSERT_ok_of _ _ _ h
  obtain ⟨-, h⟩ := ASSERT_ok_of _ _ _ h
  obtain ⟨-, h⟩ := ASSERT_ok_of _ _ _ h
  obtain ⟨-, h⟩ := ASSERT_ok_of _ _ _ h
  obtain ⟨-, h⟩ := ASSERT_ok_of _ _ _ h
  exact (Prod.mk.inj (Except.ok.inj h)).1.symm

theorem add_entry_empty_ret (c : Sizes) (s s1 : Heap) (addr size eff : Nat) (ns : Int)
    (n : Nat) (h : add_entry_empty c s addr size eff ns = .ok (n, s1)) :
    n = addr ∨ n = 0 := by
  unfold add_entry_empty at h
  obtain ⟨-, h⟩ := ASSERT_ok_of _ _ _ h
  split at h
  · obtain ⟨-, h⟩ := ASSERT_ok_of _ _ _ h
    obtain ⟨-, h⟩ := ASSERT_ok_of _ _ _ h
    obtain ⟨-, h⟩ := ASSERT_ok_of _ _ _ h
    obtain ⟨-, h⟩ := ASSERT_ok_of _ _ _ h
    exact Or.inl (Prod.mk.inj (Except.ok.inj h)).1.symm
  · exact Or.inr (Prod.mk.inj (Except.ok.inj h)).1.symm

theorem add_entry_jp (c : Sizes) (addr u : Nat) (s1 : Heap) (y : Nat × Heap)
    (hy : y.1 = addr ∨ y.1 = 0)
    (h : (match y with
      | (new_seg, s1) =>
        if new_seg ≠ 0 then
          let s2 := set_last_addr s1 (next_seg_tail s1.mem new_seg)
          (pure (new_seg + c.HS, s2) : Except Stop (Nat × Heap))
        else pure (0, s1)) = .ok (u, s1)) : u = 0 ∨ u = addr + c.HS := by
  obtain ⟨n, s2⟩ := y
  dsimp only at h hy
  split at h
  · have := (Prod.mk.inj (Except.ok.inj h)).1
    rcases hy with e | e
    · right; rw [← this, e]
    · rename_i hne
      exact absurd e hne
  · exact Or.inl (Prod.mk.inj (Except.ok.inj h)).1.symm

/-- The address `add_entry` returns is null or the first byte behind the head
placed at `addr`. -/
theorem add_entry_ret (c : Sizes) (s s1 : Heap) (addr size u : Nat)
    (h : add_entry c s addr size = .ok (u, s1)) : u = 0 ∨ u = addr + c.HS := by
  unfold add_entry at h
  split at h
  · exact Or.inl (Prod.mk.inj (Except.ok.inj h)).1.symm
  · obtain ⟨-, h⟩ := ASSERT_ok_of _ _ _ h
    obtain ⟨-, h⟩ := ASSERT_ok_of _ _ _ h
    dsimp only at h
    split at h
    · obtain ⟨prev, -, h⟩ := bind_ok_of _ _ _ h
      split at h
      · obtain ⟨y, hy, h⟩ := bind_ok_of _ _ _ h
        obtain ⟨n, s2⟩ := y
        exact add_entry_jp c addr u s1 (n, s2)
          (Or.inl (add_entry_front_ret c _ _ _ _ _ _ _ hy)) h
      · obtain ⟨y, hy, h⟩ := bind_ok_of _ _ _ h
        obtain ⟨n, s2⟩ := y
        exact add_entry_jp c addr u s1 (n, s2)
          (Or.inl (add_entry_after_ret c _ _ _ _ _ _ _ _ hy)) h
    · obtain ⟨y, hy, h⟩ := bind_ok_of _ _ _ h
      obtain ⟨n, s2⟩ := y
      exact add_entry_jp c addr u s1 (n, s2) (add_entry_empty_ret c _ _ _ _ _ _ _ hy) h

/-! ### The result of a placement policy, for every request size -/

theorem scan_shape (c : Sizes) (m : Mem) (total : Nat) (r : List Blk) (b : Blk) (fuel : Nat)
    (hch : Chain c m b r) (o : Option Nat)
    (h : scan_loop m c total fuel (b.tl c) = .ok o) :
    o = none ∨ ∃ g ∈ b :: r, o = some (g.tl c + c.TS) := by
  rcases scan_loop_spec c m total r b fuel hch with h1 | ⟨h1, -⟩
  · rw [h1] at h
    have h2 := Except.ok.inj h
    cases hfd : List.find? (fun g => decide (total ≤ g.ff)) (b :: r) with
    | none => rw [hfd] at h2; exact Or.inl h2.symm
    | some g =>
      rw [hfd] at h2
      exact Or.inr ⟨g, List.mem_of_find?_eq_some hfd, h2.symm⟩
  · rw [h1] at h; cases h

theorem fold_shape (c : Sizes) (f : Nat × Nat → Nat × Nat → Nat × Nat)
    (hf : ∀ a g, f a g = a ∨ f a g = g) (l : List Blk) :
    ∀ acc : Nat × Nat, (l.foldl (fun a g => f a (g.gap c)) acc).1 = acc.1 ∨
      ∃ g ∈ l, (l.foldl (fun a g => f a (g.gap c)) acc).1 = g.tl c + c.TS := by
  induction l with
  | nil => intro acc; exact Or.inl rfl
  | cons x l ih =>
    intro acc
    rw [List.foldl_cons]
    rcases ih (f acc (x.gap c)) with h | ⟨g, hg, h⟩
    · rcases hf acc (x.gap c) with e | e
      · left; rw [h, e]
      · right
        refine ⟨x, List.mem_cons_self _ _, ?_⟩
        rw [h, e]; rfl
    · exact Or.inr ⟨g, List.mem_cons_of_mem _ hg, h⟩

theorem bestStep_pick (total : Nat) (a g : Nat × Nat) :
    bestStep total a g = a ∨ bestStep total a g = g := by
  unfold bestStep; split
  · exact Or.inr rfl
  · exact Or.inl rfl

theorem worstStep_pick (total : Nat) (a g : Nat × Nat) :
    worstStep total a g = a ∨ worstStep total a g = g := by
  unfold worstStep; split
  · exact Or.inr rfl
  · exact Or.inl rfl

theorem firstOf_shape (c : Sizes) (total : Nat) (A : List Blk) :
    firstOf total (A.map (Blk.gap c)) = 0 ∨
      ∃ g ∈ A, firstOf total (A.map (Blk.gap c)) = g.tl c + c.TS := by
  unfold firstOf
  cases hfd : List.find? (fun g => decide (total ≤ g.2)) (A.map (Blk.gap c)) with
  | none => exact Or.inl rfl
  | some g =>
    right
    have hm := List.mem_of_find?_eq_some hfd
    obtain ⟨x, hx, hxg⟩ := List.mem_map.mp hm
    refine ⟨x, hx, ?_⟩
    rw [← hxg]; rfl

theorem Inv_first_tl (c : Sizes) (s : Heap) (b : Blk) (r : List Blk) (hinv : Inv c s (b :: r)) :
    next_seg_tail s.mem b.h = b.tl c := by
  have hcyc : Cyc c s.mem (b :: r) := hinv.2.2.2.2.2.2.2.2.2.2.2.2.1
  unfold Cyc at hcyc
  rw [Seg_cons] at hcyc
  exact hcyc.1.2.1

theorem first_fit_shape (c : Sizes) (s : Heap) (bs : List Blk) (size fuel r : Nat)
    (hinv : Inv c s bs) (h : first_fit c fuel s.mem s.start size = .ok r) :
    r = 0 ∨ r = s.start + c.LS ∨ ∃ b ∈ bs, r = b.tl c + c.TS := by
  have hfirst : first_seg s.mem s.start = hdOr bs 0 := hinv.2.2.2.2.2.2.2.2.2.2.2.1
  unfold first_fit at h
  dsimp only at h
  split at h
  · exact Or.inl (Except.ok.inj h).symm
  split at h
  · split at h
    · exact Or.inr (Or.inl (Except.ok.inj h).symm)
    · exact Or.inl (Except.ok.inj h).symm
  split at h
  · exact Or.inr (Or.inl (Except.ok.inj h).symm)
  · cases bs with
    | nil => rename_i h0 _; exact absurd hfirst h0
    | cons b r0 =>
      rw [hfirst, hdOr_cons, Inv_first_tl c s b r0 hinv] at h
      obtain ⟨o, ho, h⟩ := bind_ok_of _ _ _ h
      rcases scan_shape c s.mem _ r0 b fuel (Inv_chain c s r0 [] b hinv) o ho with e | ⟨g, hg, e⟩
      · subst e
        exact Or.inl (Except.ok.inj h).symm
      · subst e
        exact Or.inr (Or.inr ⟨g, hg, (Except.ok.inj h).symm⟩)

theorem best_loop_shape (c : Sizes) (s : Heap) (b : Blk) (r0 : List Blk)
    (total fuel ba bsz r : Nat) (hinv : Inv c s (b :: r0))
    (hba : ba = 0 ∨ ba = s.start + c.LS)
    (h : best_fit_loop s.mem c total fuel (b.tl c) ba bsz = .ok r) :
    r = 0 ∨ r = s.start + c.LS ∨ ∃ g ∈ b :: r0, r = g.tl c + c.TS := by
  rcases best_fit_loop_spec c s.mem total r0 b fuel (ba, bsz)
    (Inv_chain c s r0 [] b hinv) with h1 | ⟨h1, -⟩
  · have h1' : best_fit_loop s.mem c total fuel (b.tl c) ba bsz = _ := h1
    rw [h1'] at h
    have h2 := (Except.ok.inj h).symm
    rcases fold_shape c (bestStep total) (bestStep_pick _) (b :: r0) (ba, bsz)
      with e | ⟨g, hg, e⟩
    · rw [e] at h2
      rcases hba with k | k
      · exact Or.inl (h2.trans k)
      · exact Or.inr (Or.inl (h2.trans k))
    · exact Or.inr (Or.inr ⟨g, hg, h2.trans e⟩)
  · have h1' : best_fit_loop s.mem c total fuel (b.tl c) ba bsz = _ := h1
    rw [h1'] at h; cases h

theorem worst_loop_shape (c : Sizes) (s : Heap) (b : Blk) (r0 : List Blk)
    (total fuel ba bsz r : Nat) (hinv : Inv c s (b :: r0))
    (hba : ba = 0 ∨ ba = s.start + c.LS)
    (h : worst_fit_loop s.mem c total fuel (b.tl c) ba bsz = .ok r) :
    r = 0 ∨ r = s.start + c.LS ∨ ∃ g ∈ b :: r0, r = g.tl c + c.TS := by
  rcases worst_fit_loop_spec c s.mem total r0 b fuel (ba, bsz)
    (Inv_chain c s r0 [] b hinv) with h1 | ⟨h1, -⟩
  · have h1' : worst_fit_loop s.mem c total fuel (b.tl c) ba bsz = _ := h1
    rw [h1'] at h
    have h2 := (Except.ok.inj h).symm
    rcases fold_shape c (worstStep total) (worstStep_pick _) (b :: r0) (ba, bsz)
      with e | ⟨g, hg, e⟩
    · rw [e] at h2
      rcases hba with k | k
      · exact Or.inl (h2.trans k)
      · exact Or.inr (Or.inl (h2.trans k))
    · exact Or.inr (Or.inr ⟨g, hg, h2.trans e⟩)
  · have h1' : worst_fit_loop s.mem c total fuel (b.tl c) ba bsz = _ := h1
    rw [h1'] at h; cases h

theorem best_fit_shape (c : Sizes) (s : Heap) (bs : List Blk) (size fuel r : Nat)
    (hinv : Inv c s bs) (h : best_fit c fuel s.mem s.start size = .ok r) :
    r = 0 ∨ r = s.start + c.LS ∨ ∃ b ∈ bs, r = b.tl c + c.TS := by
  have hfirst : first_seg s.mem s.start = hdOr bs 0 := hinv.2.2.2.2.2.2.2.2.2.2.2.1
  unfold best_fit at h
  dsimp only at h
  split at h
  · exact Or.inl (Except.ok.inj h).symm
  split at h
  · split at h
    · exact Or.inr (Or.inl (Except.ok.inj h).symm)
    · exact Or.inl (Except.ok.inj h).symm
  · cases bs with
    | nil => rename_i h0; exact absurd hfirst h0
    | cons b r0 =>
      rw [hfirst, hdOr_cons, Inv_first_tl c s b r0 hinv] at h
      split at h
      · exact best_loop_shape c s b r0 _ fuel _ _ r hinv (Or.inr rfl) h
      · exact best_loop_shape c s b r0 _ fuel _ _ r hinv (Or.inl rfl) h

theorem worst_fit_shape (c : Sizes) (s : Heap) (bs : List Blk) (size fuel r : Nat)
    (hinv : Inv c s bs) (h : worst_fit c fuel s.mem s.start size = .ok r) :
    r = 0 ∨ r = s.start + c.LS ∨ ∃ b ∈ bs, r = b.tl c + c.TS := by
  have hfirst : first_seg s.mem s.start = hdOr bs 0 := hinv.2.2.2.2.2.2.2.2.2.2.2.1
  unfold worst_fit at h
  dsimp only at h
  split at h
  · exact Or.inl (Except.ok.inj h).symm
  split at h
  · split at h
    · exact Or.inr (Or.inl (Except.ok.inj h).symm)
    · exact Or.inl (Except.ok.inj h).symm
  · cases bs with
    | nil => rename_i h0; exact absurd hfirst h0
    | cons b r0 =>
      rw [hfirst, hdOr_cons, Inv_first_tl c s b r0 hinv] at h
      split at h
      · exact worst_loop_shape c s b r0 _ fuel _ _ r hinv (Or.inr rfl) h
      · exact worst_loop_shape c s b r0 _ fuel _ _ r hinv (Or.inl rfl) h

theorem next_fit_shape (c : Sizes) (s : Heap) (A B : List Blk) (C : Blk) (size fuel r : Nat)
    (hinv : Inv c s (A ++ C :: B)) (hcur : s.last_addr = C.tl c)
    (h : next_fit c fuel s.mem s.last_addr s.start size = .ok r) :
    r = 0 ∨ r = s.start + c.LS ∨ ∃ b ∈ A ++ C :: B, r = b.tl c + c.TS := by
  have hfirst : first_seg s.mem s.start = hdOr (A ++ C :: B) 0 :=
    hinv.2.2.2.2.2.2.2.2.2.2.2.1
  have hch := Inv_chain c s B A C hinv
  have hc := hinv.1
  have c5 := hc.2.2.2.2.1
  have c6 := hc.2.2.2.2.2.1
  have htl := Blk.tl_ge c C
  rw [hcur] at h
  unfold next_fit at h
  dsimp only at h
  split at h
  · exact Or.inl (Except.ok.inj h).symm
  split at h
  · rename_i h0
    exfalso
    clear * - h0 htl c5
    omega
  obtain ⟨-, h⟩ := ASSERT_ok_of _ _ _ h
  obtain ⟨o, ho, h⟩ := bind_ok_of _ _ _ h
  rcases scan_shape c s.mem _ B C fuel hch o ho with e | ⟨g, hg, e⟩
  · subst e
    dsimp only at h
    split at h
    · exact Or.inr (Or.inl (Except.ok.inj h).symm)
    · have hinv' := hinv
      obtain ⟨-, -, -, -, -, -, -, -, -, -, -, -, hcyc0, ⟨lo, -, htiles⟩, -⟩ := hinv'
      have hpw := Tiles_pairwise c _ _ _ htiles
      have hlt : ∀ x ∈ A, x.tl c < C.tl c := by
        intro x hx
        have h1 := (List.pairwise_append.mp hpw).2.2 x hx C (List.mem_cons_self _ _)
        have h2 := Blk.nx_ge c x
        clear * - h1 h2 htl c5 c6
        omega
      have hit : (A = [] → next_seg_tail s.mem (first_seg s.mem s.start) = C.tl c) ∧
          (∀ a A', A = a :: A' → next_seg_tail s.mem (first_seg s.mem s.start) = a.tl c ∧
            Chain c s.mem a (A' ++ C :: B)) := by
        rw [hfirst]
        constructor
        · intro hA
          subst hA
          exact Inv_first_tl c s C B hinv
        · intro a A' hA
          subst hA
          exact ⟨Inv_first_tl c s a (A' ++ C :: B) hinv, Inv_chain c s (A' ++ C :: B) [] a hinv⟩
      rcases next_fit_wrap_spec c s.mem (total_size c size) C B A _ fuel hit.1 hit.2 hlt with
        hw | ⟨hw, -⟩
      · rw [hw] at h
        have h2 := (Except.ok.inj h).symm
        rcases firstOf_shape c (total_size c size) A with e | ⟨g, hg, e⟩
        · exact Or.inl (h2.trans e)
        · exact Or.inr (Or.inr ⟨g, List.mem_append_left _ hg, h2.trans e⟩)
      · rw [hw] at h; cases h
  · subst e
    exact Or.inr (Or.inr ⟨g, List.mem_append_right _ hg, (Except.ok.inj h).symm⟩)

/-- On a well-formed directory every policy returns null, the first byte behind the
list header, or the first byte behind the tail of a block, whatever the size. -/
theorem g_alloc_shape (c : Sizes) (s : Heap) (bs : List Blk) (size fuel r : Nat)
    (hinv : Inv c s bs) (h : g_alloc c fuel s size = .ok r) :
    r = 0 ∨ r = s.start + c.LS ∨ ∃ b ∈ bs, r = b.tl c + c.TS := by
  unfold g_alloc at h
  cases hst : s.g_alloc_function with
  | BEST_FIT => rw [hst] at h; exact best_fit_shape c s bs size fuel r hinv h
  | FIRST_FIT => rw [hst] at h; exact first_fit_shape c s bs size fuel r hinv h
  | WORST_FIT => rw [hst] at h; exact worst_fit_shape c s bs size fuel r hinv h
  | NEXT_FIT =>
    rw [hst] at h
    dsimp only at h
    rcases hinv.2.2.2.2.2.2.2.2.2.2.2.2.2.2 with h0 | ⟨C, hC, h0⟩
    · rw [h0, next_fit_none] at h
      exact first_fit_shape c s bs size fuel r hinv h
    · obtain ⟨A, B, hAB⟩ := List.append_of_mem hC
      subst hAB
      exact next_fit_shape c s A B C size fuel r hinv h0 h

/-! ### The address `find_free_seg` returns -/

theorem round_up_mod (n : Nat) : round_up n ALIGNMENT % 16 = 0 := by
  unfold round_up ALIGNMENT
  simp only [show (16:Nat) ≠ 0 by decide, if_false]
  split <;> omega

theorem Blk.tl_mod (c : Sizes) (hc : c.ok) (b : Blk) (hb : BOK b) : (b.tl c + c.TS) % 16 = 0 := by
  have h1 := round_up_mod b.sz
  have h2 := hb.1
  have c2 := hc.2.1
  have c3 := hc.2.2.1
  unfold Blk.tl
  omega

theorem expand_list_shape (c : Sizes) (s s1 : Heap) (size a : Nat)
    (h : expand_list c s size = .ok (a, s1)) :
    a = 0 ∨ a = s.start + c.LS ∨
      (first_seg s.mem s.start ≠ 0 ∧
        a = prev_seg_tail s.mem (first_seg s.mem s.start) + c.TS) := by
  unfold expand_list at h
  by_cases hs0 : s.start = 0
  · rw [if_pos hs0] at h
    exact Or.inl (Prod.mk.inj (Except.ok.inj h)).1.symm
  rw [if_neg hs0] at h
  dsimp only at h
  obtain ⟨-, h⟩ := ASSERT_ok_of _ _ _ h
  by_cases hf0 : first_seg s.mem s.start = 0
  · rw [if_pos hf0] at h
    obtain ⟨-, h⟩ := ASSERT_ok_of _ _ _ h
    obtain ⟨-, h⟩ := ASSERT_ok_of _ _ _ h
    obtain ⟨y, -, h⟩ := bind_ok_of _ _ _ h
    exact Or.inr (Or.inl (Prod.mk.inj (Except.ok.inj h)).1.symm)
  · rw [if_neg hf0] at h
    obtain ⟨lt, hlt, h⟩ := bind_ok_of _ _ _ h
    have hl : lt = prev_seg_tail s.mem (first_seg s.mem s.start) := by
      unfold find_last_tail at hlt
      rw [if_neg hs0, if_neg hf0] at hlt
      obtain ⟨-, hlt⟩ := ASSERT_ok_of _ _ _ hlt
      obtain ⟨-, hlt⟩ := ASSERT_ok_of _ _ _ hlt
      exact (Except.ok.inj hlt).symm
    obtain ⟨-, h⟩ := ASSERT_ok_of _ _ _ h
    obtain ⟨-, h⟩ := ASSERT_ok_of _ _ _ h
    obtain ⟨-, h⟩ := ASSERT_ok_of _ _ _ h
    obtain ⟨y, -, h⟩ := bind_ok_of _ _ _ h
    obtain ⟨-, h⟩ := ASSERT_ok_of _ _ _ h
    right; right
    refine ⟨hf0, ?_⟩
    rw [← hl]
    exact (Prod.mk.inj (Except.ok.inj h)).1.symm

theorem create_list_shape (c : Sizes) (s s1 : Heap) (l : Nat)
    (h : create_list c s = .ok (l, s1)) :
    l = 0 ∨ (l % 16 = 0 ∧ first_seg s1.mem l = 0) := by
  unfold create_list at h
  split at h
  · exact Or.inl (Prod.mk.inj (Except.ok.inj h)).1.symm
  · rename_i addr s0 hsb
    dsimp only at h
    obtain ⟨m2, hm2, h⟩ := bind_ok_of _ _ _ h
    unfold init_tail at hm2
    dsimp only at hm2
    obtain ⟨-, hm2⟩ := ASSERT_ok_of _ _ _ hm2
    have e1 := (Prod.mk.inj (Except.ok.inj h)).1
    have e2 := (Prod.mk.inj (Except.ok.inj h)).2
    have e3 := Except.ok.inj hm2
    right
    rw [← e2, ← e1]
    refine ⟨round_up_mod addr, ?_⟩
    show first_seg m2 (round_up addr ALIGNMENT) = 0
    rw [← e3]
    unfold first_seg set_end_addr init_first set_first_seg
    rw [rd64_wr64_ne _ _ _ _ (Or.inl (le_refl _)), rd64_wr64_eq _ _ _ (by decide)]

/-- The address `find_free_seg` returns is a multiple of 16, for every size. -/
theorem find_free_seg_aligned (c : Sizes) (hc : c.ok) (s s1 : Heap) (bs : List Blk)
    (size fuel a : Nat) (hst : s.start = 0 ∨ Inv c s bs)
    (h : find_free_seg c fuel s size = .ok (a, s1)) : a % 16 = 0 := by
  have c1 := hc.1
  have c3 := hc.2.2.1
  by_cases h0 : s.start = 0
  · rw [find_fresh_eq c fuel s size h0] at h
    obtain ⟨y, hy, h⟩ := bind_ok_of _ _ _ h
    obtain ⟨l, s0⟩ := y
    dsimp only at h
    split at h
    · rw [← (Prod.mk.inj (Except.ok.inj h)).1]
    · rename_i hl0
      rcases create_list_shape c s s0 l hy with e | ⟨e1, e2⟩
      · exact absurd e hl0
      · rcases expand_list_shape c _ s1 size a h with k | k | ⟨k1, -⟩
        · rw [k]
        · rw [k]
          show (l + c.LS) % 16 = 0
          clear * - e1 c1
          omega
        · exact absurd e2 k1
  · have hinv : Inv c s bs := by
      rcases hst with e | e
      · exact absurd e h0
      · exact e
    have hs16 : s.start % 16 = 0 := hinv.2.2.1
    have hbok : ∀ b ∈ bs, BOK b := hinv.2.2.2.2.2.2.2.2.2.2.1
    have hfirst : first_seg s.mem s.start = hdOr bs 0 := hinv.2.2.2.2.2.2.2.2.2.2.2.1
    have hcyc : Cyc c s.mem bs := hinv.2.2.2.2.2.2.2.2.2.2.2.2.1
    rw [find_free_seg_eq c fuel s size h0] at h
    obtain ⟨r, hr, h⟩ := bind_ok_of _ _ _ h
    split at h
    · rcases expand_list_shape c s s1 size a h with k | k | ⟨k1, k2⟩
      · rw [k]
      · rw [k]
        clear * - hs16 c1
        omega
      · have hne : bs ≠ [] := by
          intro e
          rw [hfirst, e] at k1
          exact k1 rfl
        have h5 : prev_seg_tail s.mem (first_seg s.mem s.start) = tlOr c bs 0 := by
          rw [hfirst]
          exact Cyc_first_prev c s.mem bs hcyc hne
        rcases tlOr_cases c bs 0 with ⟨e, -⟩ | ⟨n, hn, e⟩
        · exact absurd e hne
        · rw [k2, h5, e]
          exact Blk.tl_mod c hc n (hbok n hn)
    · rw [← (Prod.mk.inj (Except.ok.inj h)).1]
      rcases g_alloc_shape c s bs size fuel r hinv hr with k | k | ⟨b, hb, k⟩
      · rw [k]
      · rw [k]
        clear * - hs16 c1
        omega
      · rw [k]
        exact Blk.tl_mod c hc b (hbok b hb)

/-- The address `malloc` returns between two public calls is a multiple of 16, for
every size. -/
theorem malloc_aligned (c : Sizes) (hc : c.ok) (s s1 : Heap) (bs : List Blk)
    (size fuel u : Nat) (hp : Pub c s bs)
    (h : malloc c fuel s size = .ok (u, s1)) : u % 16 = 0 := by
  have c2 := hc.2.1
  by_cases hsz : size = 0
  · unfold malloc at h
    rw [if_pos hsz] at h
    rw [← (Prod.mk.inj (Except.ok.inj h)).1]
  · rw [malloc_eq c fuel s size hp.1 hsz] at h
    obtain ⟨y, hy, h⟩ := bind_ok_of _ _ _ h
    obtain ⟨a, s0⟩ := y
    have ha : a % 16 = 0 := by
      refine find_free_seg_aligned c hc _ s0 bs size fuel a ?_ hy
      rcases hp.2 with k | k
      · exact Or.inl k.1
      · exact Or.inr (Inv_lock c s bs true k.1)
    dsimp only at h
    split at h
    · rw [← (Prod.mk.inj (Except.ok.inj h)).1]
    · obtain ⟨q, hq, h⟩ := bind_ok_of _ _ _ h
      obtain ⟨v, s2⟩ := q
      dsimp only at h
      split at h
      · rw [← (Prod.mk.inj (Except.ok.inj h)).1]
      · rw [← (Prod.mk.inj (Except.ok.inj h)).1]
        rcases add_entry_ret c s0 s2 a size v hq with k | k
        · rw [k]
        · rw [k]
          clear * - ha c2
          omega

theorem calloc_aligned (c : Sizes) (hc : c.ok) (s s1 : Heap) (bs : List Blk)
    (n size fuel u : Nat) (hp : Pub c s bs)
    (h : calloc c fuel s n size = .ok (u, s1)) : u % 16 = 0 := by
  unfold calloc at h
  split at h
  · rw [← (Prod.mk.inj (Except.ok.inj h)).1]
  · obtain ⟨y, hy, h⟩ := bind_ok_of _ _ _ h
    obtain ⟨a, s0⟩ := y
    have ha := malloc_aligned c hc s s0 bs _ fuel a hp hy
    dsimp only at h
    split at h
    · rw [← (Prod.mk.inj (Except.ok.inj h)).1]
    · obtain ⟨m, -, h⟩ := bind_ok_of _ _ _ h
      rw [← (Prod.mk.inj (Except.ok.inj h)).1]
      exact ha

theorem realloc_aligned (c : Sizes) (hc : c.ok) (s s1 : Heap) (bs : List Blk)
    (p size fuel u : Nat) (hp : Pub c s bs) (hp16 : p % 16 = 0)
    (h : realloc c fuel s p size = .ok (u, s1)) : u % 16 = 0 := by
  unfold realloc at h
  split at h
  · rw [← (Prod.mk.inj (Except.ok.inj h)).1]
  split at h
  · exact malloc_aligned c hc s s1 bs size fuel u hp h
  unfold pthread_mutex_lock at h
  rw [hp.1] at h
  simp only [Bool.false_eq_true, if_false, pure_eq_ok, ok_bind] at h
  rw [unlock_lock s hp.1] at h
  split at h
  · rw [← (Prod.mk.inj (Except.ok.inj h)).1]
  split at h
  · rw [← (Prod.mk.inj (Except.ok.inj h)).1]
    exact hp16
  split at h
  · obtain ⟨y, -, h⟩ := bind_ok_of _ _ _ h
    split at h
    · rw [← (Prod.mk.inj (Except.ok.inj h)).1]
    · rw [← (Prod.mk.inj (Except.ok.inj h)).1]
      exact hp16
  split at h
  · obtain ⟨y, -, h⟩ := bind_ok_of _ _ _ h
    split at h
    · rw [← (Prod.mk.inj (Except.ok.inj h)).1]
    · rw [← (Prod.mk.inj (Except.ok.inj h)).1]
      exact hp16
  · obtain ⟨y, hy, h⟩ := bind_ok_of _ _ _ h
    obtain ⟨a, s0⟩ := y
    have ha := malloc_aligned c hc s s0 bs size fuel a hp hy
    dsimp only at h
    split at h
    · rw [← (Prod.mk.inj (Except.ok.inj h)).1]
    · split at h
      · rw [← (Prod.mk.inj (Except.ok.inj h)).1]
      · obtain ⟨z, -, h⟩ := bind_ok_of _ _ _ h
        rw [← (Prod.mk.inj (Except.ok.inj h)).1]
        exact ha

/-- Claim C2: in every reachable state (reached by calls whose footprints were below
`2^31`), under every placement policy `strat`, every address returned by `malloc`,
by `calloc`, or by `realloc` on the null address or on a live address is a multiple
of `16` (and so is every non-null one), for every request size of the call itself,
bounded or not, given record sizes that are multiples of `16`. -/
theorem C2_addresses_aligned (c : Sizes) (hc : c.ok) (s : Heap) (L : List Nat)
    (h : Reach c s L) (strat : Strat) (fuel : Nat) :
    (∀ size u s1, malloc c fuel (set_alloc_function s strat) size = .ok (u, s1) →
      u % ALIGNMENT = 0) ∧
    (∀ n size u s1, calloc c fuel (set_alloc_function s strat) n size = .ok (u, s1) →
      u % ALIGNMENT = 0) ∧
    (∀ p size u s1, p = 0 ∨ p ∈ L →
      realloc c fuel (set_alloc_function s strat) p size = .ok (u, s1) →
      u % ALIGNMENT = 0) := by
  have hr := Reach.step_select s L strat h
  obtain ⟨bs, hp, -⟩ := reach_pub c hc _ L hr
  refine ⟨?_, ?_, ?_⟩
  · intro size u s1 hm
    exact malloc_aligned c hc _ s1 bs size fuel u hp hm
  · intro n size u s1 hm
    exact calloc_aligned c hc _ s1 bs n size fuel u hp hm
  · intro p size u s1 hpl hm
    refine realloc_aligned c hc _ s1 bs p size fuel u hp ?_ hm
    rcases hpl with e | e
    · rw [e]
    · exact live_aligned c hc s L h p e

/-- Claim C2 on the state after `malloc(1)` under best fit: `malloc(SIZE_MAX)`
returns `1200`, `calloc(2, 8)` returns `1200`, and `realloc(1088, SIZE_MAX)` returns
`1088`. -/
theorem C2_addresses_aligned_witness :
    sizes64.ok ∧ Reach sizes64 heap1 [1088] ∧
    (∃ s1, malloc sizes64 10 (set_alloc_function heap1 Strat.BEST_FIT) SIZE_MAX =
      .ok (1200, s1)) ∧
    (∃ s1, calloc sizes64 10 (set_alloc_function heap1 Strat.BEST_FIT) 2 8 =
      .ok (1200, s1)) ∧
    (∃ s1, realloc sizes64 10 (set_alloc_function heap1 Strat.BEST_FIT) 1088 SIZE_MAX =
      .ok (1088, s1)) ∧
    1200 % ALIGNMENT = 0 ∧ 1088 % ALIGNMENT = 0 :=
  ⟨by decide, reach_heap1, ⟨_, rfl⟩, ⟨_, rfl⟩, ⟨_, rfl⟩,
    (C2_addresses_aligned sizes64 (by decide) heap1 [1088] reach_heap1 Strat.BEST_FIT 10).1
      SIZE_MAX 1200 _ rfl,
    (C2_addresses_aligned sizes64 (by decide) heap1 [1088] reach_heap1 Strat.BEST_FIT
      10).2.2 1088 SIZE_MAX 1088 _ (Or.inr (by decide)) rfl⟩

/-! ## `malloc` on an empty directory, the directory reset -/

/-- The address `find_free_seg` returns on a directory: null, the first byte behind
the list header, or the first byte behind the tail of a block; for every size. -/
theorem find_free_seg_shape (c : Sizes) (s s1 : Heap) (bs : List Blk)
    (size fuel a : Nat) (hinv : Inv c s bs)
    (h : find_free_seg c fuel s size = .ok (a, s1)) :
    a = 0 ∨ a = s.start + c.LS ∨ ∃ b ∈ bs, a = b.tl c + c.TS := by
  have h0 : s.start ≠ 0 := hinv.2.1
  have hfirst : first_seg s.mem s.start = hdOr bs 0 := hinv.2.2.2.2.2.2.2.2.2.2.2.1
  have hcyc : Cyc c s.mem bs := hinv.2.2.2.2.2.2.2.2.2.2.2.2.1
  rw [find_free_seg_eq c fuel s size h0] at h
  obtain ⟨r, hr, h⟩ := bind_ok_of _ _ _ h
  split at h
  · rcases expand_list_shape c s s1 size a h with k | k | ⟨k1, k2⟩
    · exact Or.inl k
    · exact Or.inr (Or.inl k)
    · have hne : bs ≠ [] := by
        intro e
        rw [hfirst, e] at k1
        exact k1 rfl
      have h5 : prev_seg_tail s.mem (first_seg s.mem s.start) = tlOr c bs 0 := by
        rw [hfirst]
        exact Cyc_first_prev c s.mem bs hcyc hne
      rcases tlOr_cases c bs 0 with ⟨e, -⟩ | ⟨n, hn, e⟩
      · exact absurd e hne
      · exact Or.inr (Or.inr ⟨n, hn, by rw [k2, h5, e]⟩)
  · rw [← (Prod.mk.inj (Except.ok.inj h)).1]
    exact g_alloc_shape c s bs size fuel r hinv hr

/-- The address `malloc` returns on a directory, for every size. -/
theorem malloc_shape (c : Sizes) (s s1 : Heap) (bs : List Blk) (size fuel u : Nat)
    (hl : s.storage_lock = false) (hinv : Inv c s bs)
    (h : malloc c fuel s size = .ok (u, s1)) :
    u = 0 ∨ u = s.start + c.LS + c.HS ∨ ∃ b ∈ bs, u = b.tl c + c.TS + c.HS := by
  by_cases hsz : size = 0
  · unfold malloc at h
    rw [if_pos hsz] at h
    exact Or.inl (Prod.mk.inj (Except.ok.inj h)).1.symm
  · rw [malloc_eq c fuel s size hl hsz] at h
    obtain ⟨y, hy, h⟩ := bind_ok_of _ _ _ h
    obtain ⟨a, s0⟩ := y
    have ha := find_free_seg_shape c _ s0 bs size fuel a (Inv_lock c s bs true hinv) hy
    dsimp only at h ha
    by_cases ha0 : a = 0
    · rw [if_pos ha0] at h
      exact Or.inl (Prod.mk.inj (Except.ok.inj h)).1.symm
    · rw [if_neg ha0] at h
      obtain ⟨q, hq, h⟩ := bind_ok_of _ _ _ h
      obtain ⟨v, s2⟩ := q
      dsimp only at h
      split at h
      · exact Or.inl (Prod.mk.inj (Except.ok.inj h)).1.symm
      · rw [← (Prod.mk.inj (Except.ok.inj h)).1]
        rcases add_entry_ret c s0 s2 a size v hq with k | k
        · exact Or.inl k
        · rcases ha with e | e | ⟨b, hb, e⟩
          · exact absurd e ha0
          · exact Or.inr (Or.inl (by rw [k, e]))
          · exact Or.inr (Or.inr ⟨b, hb, by rw [k, e]⟩)

/-- With one iteration of fuel, `malloc` of a positive size in the `int` range on an
empty directory returns the first user address of the arena when the break can
rise by the pages needed, and ends the process otherwise. -/
theorem malloc_empty_total (c : Sizes) (s : Heap) (size fuel : Nat)
    (hl : s.storage_lock = false) (hinv : Inv c s [])
    (hE : end_addr s.mem s.start = s.start + c.LS)
    (hsz : 0 < size) (hfp : footprint c size < 2147483648) (hsz2 : size < 2147483648)
    (hfuel : 0 < fuel) :
    (¬ s.brk + (footprint c size + 4095) / 4096 * 4096 ≤ s.brk_max →
      malloc c fuel s size = .error Stop.exit) ∧
    (s.brk + (footprint c size + 4095) / 4096 * 4096 ≤ s.brk_max →
      ∃ s1, malloc c fuel s size = .ok (s.start + c.LS + c.HS, s1) ∧ Pub c s1
        [Blk.mk (s.start + c.LS) size ((footprint c size + 4095) / 4096 * 4096 -
          footprint c size)]) := by
  have hs0 : s.start ≠ 0 := hinv.2.1
  have hnz : size ≠ 0 := by omega
  have hc := hinv.1
  have c4 := hc.2.2.2.1
  have c5 := hc.2.2.2.2.1
  have hg : g_alloc c fuel { s with storage_lock := true } size = .ok 0 := by
    rcases g_alloc_cand c s [] size fuel hinv hfp with ⟨r, hg, hr⟩ | ⟨-, hf⟩
    · rcases hr with ⟨h0, -⟩ | ⟨-, g, hg1, -, hg3⟩
      · rw [h0] at hg; exact hg
      · exfalso
        unfold gapsOf at hg1
        simp only [List.map_nil, List.mem_singleton, hdOr_nil] at hg1
        rw [hg1, hE] at hg3
        have : footprint c size = c.HS + round_up size ALIGNMENT + c.TS := rfl
        simp only at hg3
        omega
    · simp only [List.length_nil] at hf
      omega
  have hfind := find_of_miss c fuel { s with storage_lock := true } size hs0 hg
  obtain ⟨hr1, hr2⟩ := alloc_empty c { s with storage_lock := true } size hinv hE hfp hsz hsz2
  dsimp only at hr1 hr2
  constructor
  · intro hno
    rw [← hfind] at hr1
    exact malloc_err c fuel s size _ hl hnz (hr1 hno)
  · intro hfit
    obtain ⟨M1, M, nw, h1, h2, h3, h4, h5, h6⟩ := hr2 hfit
    rw [← hfind] at h1
    have hu : nw.user c ≠ 0 := by
      show nw.h + c.HS ≠ 0
      omega
    have hm := malloc_of c fuel s _ _ size _ _ hl hnz h1 (by omega) h2 hu
    have hnw : nw = Blk.mk (s.start + c.LS) size
        ((footprint c size + 4095) / 4096 * 4096 - footprint c size) := by
      cases nw
      simp only at h4 h5 h6
      subst h4 h5
      congr
      omega
    have e : nw.user c = s.start + c.LS + c.HS := by
      show nw.h + c.HS = _
      rw [h5]
    rw [e] at hm
    refine ⟨_, hm, ?_⟩
    rw [← hnw]
    exact ⟨rfl, Or.inr ⟨h3, fun h => by simp at h⟩⟩

/-! ### `realloc` that moves the block, run forward -/

theorem realloc_move_eq (c : Sizes) (s : Heap) (bs : List Blk) (x : Blk) (size fuel : Nat)
    (hpub : Pub c s bs) (hx : x ∈ bs) (h1 : x.sz < size)
    (hnf : round_up x.sz ALIGNMENT + x.ff < round_up size ALIGNMENT) :
    realloc c fuel s (x.user c) size =
      (malloc c fuel s size >>= fun r =>
        if r.1 = 0 then pure (0, r.2)
        else
          match copy_mem r.2.mem (x.user c) r.1 x.sz with
          | none => pure (0, r.2)
          | some m => free c { r.2 with mem := m } (x.user c) >>= fun s2 => pure (r.1, s2)) := by
  obtain ⟨hl, hinv, hu, hsz, hsz31, hff, hg, hgap, hnx, -⟩ := Pub_blk c s _ x hpub hx
  have hrf := round_up_16_of_dvd x.ff hff
  have hxn : x.nx c = x.h + c.HS + round_up x.sz ALIGNMENT + c.TS + x.ff := rfl
  have hcond : ¬ ((round_up x.sz ALIGNMENT + round_up x.ff ALIGNMENT) % 18446744073709551616 ≥
      round_up size ALIGNMENT) := by
    rw [hrf, Nat.mod_eq_of_lt (by clear * - hxn hnx; omega)]
    clear * - hnf; omega
  unfold realloc pthread_mutex_lock
  rw [if_neg (by omega), if_neg hu, hl]
  simp only [Bool.false_eq_true, if_false, pure_eq_ok, ok_bind, hg, hgap]
  rw [if_neg (by omega), if_neg (by omega), if_neg (by omega), if_neg hcond,
    unlock_lock s hl]
  all_goals rfl

/-- The branch of `realloc` that moves the block stops as its `malloc` stops, and
returns when its `malloc` returns. -/
theorem realloc_move_run (c : Sizes) (s : Heap) (bs : List Blk) (x : Blk) (size fuel : Nat)
    (hpub : Pub c s bs) (hx : x ∈ bs) (h1 : x.sz < size)
    (hfp : footprint c size < 2147483648) (h2 : size < 2147483648)
    (hnf : round_up x.sz ALIGNMENT + x.ff < round_up size ALIGNMENT) :
    (∀ e, malloc c fuel s size = .error e → realloc c fuel s (x.user c) size = .error e) ∧
    (∀ u0 s0, malloc c fuel s size = .ok (u0, s0) →
      ∃ s1, realloc c fuel s (x.user c) size = .ok (u0, s1) ∧ s1.start = s.start) := by
  have hE := realloc_move_eq c s bs x size fuel hpub hx h1 hnf
  obtain ⟨hl, hinv, hu, hsz, hsz31, hff, hg, hgap, hnx, -⟩ := Pub_blk c s _ x hpub hx
  have hs0 : s.start ≠ 0 := hinv.2.1
  constructor
  · intro e hm
    rw [hE, hm]
    rfl
  · intro u0 s0 hm
    rw [hE, hm, ok_bind]
    dsimp only
    rcases malloc_pub c s s0 bs _ fuel u0 hpub hfp h2 hm with ⟨e1, e2⟩ |
      ⟨nw, bs0, e1, e2, e3, e4, e5, e6, e7, e8, e9, e10, e11⟩
    · rw [if_pos e1, e1]
      exact ⟨s0, rfl, by rw [e2]⟩
    · rw [if_neg e2]
      have hnw := Placed_mem c _ _ _ _ _ e6
      obtain ⟨hl0, hinv0, -, -, -, -, -, -, -, -⟩ := Pub_blk c s0 bs0 nw e3 hnw
      have hsep := Placed_sep c s0 _ bs bs0 nw _ hinv0 e6
      have hrn := BOK_ru nw (Inv_mem_lo c s0 bs0 nw hinv0 hnw).2.2
      have hrx := BOK_ru x (Inv_mem_lo c s bs x hinv hx).2.2
      have t1 : nw.tl c = nw.h + c.HS + round_up nw.sz ALIGNMENT := rfl
      have t2 : nw.nx c = nw.tl c + c.TS + nw.ff := rfl
      have t3 : nw.user c = nw.h + c.HS := rfl
      have t4 : x.tl c = x.h + c.HS + round_up x.sz ALIGNMENT := rfl
      have t5 : x.user c = x.h + c.HS := rfl
      have hsx := hsep x hx
      have hdj : x.user c + x.sz ≤ u0 ∨ u0 + x.sz ≤ x.user c := by
        clear * - hsx hrn hrx t1 t2 t3 t4 t5 e1 e4 h1; omega
      have hcp : copy_mem s0.mem (x.user c) u0 x.sz =
          some (copied s0.mem (x.user c) u0 x.sz) := by
        have k1 := (Inv_mem_lo c s0 bs0 nw hinv0 hnw).2.1
        have k2 := (Inv_bounds c s0 bs0 hinv0).2.2.2.2.1
        have k3 := (Inv_mem_lo c s bs x hinv hx).2.1
        have k4 := (Inv_bounds c s bs hinv).2.2.2.2.1
        apply copy_mem_ok
        · clear * - hu e2; omega
        · clear * - hu e2; omega
        · clear * - k3 k4 hrx t4 t5; unfold Blk.nx at k3; omega
        · clear * - k1 k2 hrn t1 t2 t3 e1 e4 h1; omega
        · clear * - hdj; omega
      rw [hcp]
      dsimp only
      obtain ⟨x0, hx0, hx0h, hx0s⟩ := Placed_old c _ _ _ _ _ e6 x hx
      have hpub0 : Pub c { s0 with mem := copied s0.mem (x.user c) u0 x.sz } bs0 := by
        refine pay_pub c s0 bs0 nw _ e3 hnw (fun a ha => copied_out _ _ _ _ _ ?_)
        clear * - ha hrn t1 t3 e1 e4 h1; omega
      obtain ⟨s2, bs1, f1, f2, f3, f4, f5, f6, f7⟩ := free_pub c _ bs0 x0 hpub0 hx0
      rw [user_congr c x0 x hx0h] at f1
      rw [f1, ok_bind]
      refine ⟨s2, rfl, ?_⟩
      rw [f5]
      exact (e11 hs0).1

/-! ### The allocation that created the directory -/

theorem Pub_fresh_nil (c : Sizes) (s : Heap) (bs : List Blk) (hp : Pub c s bs)
    (h0 : s.start = 0) : bs = [] := by
  rcases hp.2 with ⟨-, e, -⟩ | ⟨hinv, -⟩
  · exact e
  · exact absurd h0 hinv.2.1

theorem Placed_nil (c : Sizes) (base : Nat) (bs1 : List Blk) (nw : Blk) (size : Nat)
    (h : Placed c base [] bs1 nw size) : bs1 = [nw] ∧ nw.h = base + c.LS := by
  rcases h with ⟨-, e1, e2⟩ | ⟨e0, -⟩ | ⟨A, p, B, e0, -⟩ | ⟨A, p, e0, -⟩
  · exact ⟨e1, e2⟩
  · exact absurd rfl e0
  · simp at e0
  · simp at e0

/-- The first block that `malloc` places when no directory exists lies at the
start of the arena of the directory it creates. -/
theorem malloc_first_addr (c : Sizes) (s s1 : Heap) (bs : List Blk) (size fuel u : Nat)
    (hpub : Pub c s bs) (h0 : s.start = 0)
    (hfp : footprint c size < 2147483648) (hsz2 : size < 2147483648)
    (hrun : malloc c fuel s size = .ok (u, s1)) (h1 : s1.start ≠ 0) :
    u ≠ 0 ∧ u = s1.start + c.LS + c.HS := by
  have hbs := Pub_fresh_nil c s bs hpub h0
  subst hbs
  rcases malloc_pub c s s1 [] size fuel u hpub hfp hsz2 hrun with ⟨-, e2⟩ |
    ⟨nw, bs1, e1, e2, e3, e4, e5, e6, -⟩
  · rw [e2] at h1
    exact absurd h0 h1
  · obtain ⟨-, k⟩ := Placed_nil c _ _ _ _ e6
    refine ⟨e2, ?_⟩
    rw [e1]
    show nw.h + c.HS = _
    rw [k]

/-- Every reachable state with a directory descends from a call of `malloc`, made
on a reachable state without a directory, that created the directory at the
same base and returned the first user address of the arena. -/
theorem reach_first_alloc (c : Sizes) (hc : c.ok) (s : Heap) (L : List Nat)
    (h : Reach c s L) :
    s.start ≠ 0 → ∃ s0 L0 fuel size u0 sA, Reach c s0 L0 ∧ s0.start = 0 ∧
      malloc c fuel s0 size = .ok (u0, sA) ∧ u0 ≠ 0 ∧ sA.start = s.start ∧
      u0 = s.start + c.LS + c.HS := by
  induction h with
  | init m brk0 brk_max h0 h1 h2 h3 =>
    intro hne
    exact absurd rfl hne
  | step_select s L strat _ ih =>
    intro hne
    exact ih hne
  | step_malloc s s1 L fuel size u hr hfp hsz hrun ih =>
    intro hne
    obtain ⟨bs, hp, -⟩ := reach_pub c hc s L hr
    by_cases h0 : s.start = 0
    · obtain ⟨k1, k2⟩ := malloc_first_addr c s s1 bs size fuel u hp h0 hfp hsz hrun hne
      exact ⟨s, L, fuel, size, u, s1, hr, h0, hrun, k1, rfl, k2⟩
    · have hst : s1.start = s.start := by
        rcases malloc_pub c s s1 bs size fuel u hp hfp hsz hrun with ⟨-, e2⟩ |
          ⟨nw, bs1, e1, e2, e3, e4, e5, e6, e7, e8, e9, e10, e11⟩
        · rw [e2]
        · exact (e11 h0).1
      rw [hst]
      exact ih h0
  | step_calloc s s1 L fuel n size u hr hfp hsz hrun ih =>
    intro hne
    obtain ⟨bs, hp, -⟩ := reach_pub c hc s L hr
    rcases calloc_pub c s s1 bs n size fuel u hp hfp hsz hrun with ⟨-, e2⟩ |
      ⟨nw, bs1, s0, e1, e2, e3, e4, e5, e6, e7, -⟩
    · rw [e2] at hne ⊢
      exact ih hne
    · have hst : s1.start = s0.start := by rw [e7]
      by_cases h0 : s.start = 0
      · obtain ⟨k1, k2⟩ := malloc_first_addr c s s0 bs _ fuel u hp h0 hfp hsz e5
          (by rw [← hst]; exact hne)
        exact ⟨s, L, fuel, _, u, s0, hr, h0, e5, k1, hst.symm, by rw [hst]; exact k2⟩
      · have hst2 : s0.start = s.start := by
          rcases malloc_pub c s s0 bs _ fuel u hp hfp hsz e5 with ⟨-, e2⟩ |
            ⟨nw, bs1, e1, e2, e3, e4, e5, e6, e7, e8, e9, e10, e11⟩
          · rw [e2]
          · exact (e11 h0).1
        rw [hst, hst2]
        exact ih h0
  | step_free s s1 L p hr hp hrun ih =>
    intro hne
    obtain ⟨bs, hpub, hL⟩ := reach_pub c hc s L hr
    obtain ⟨x, hx, hxu⟩ := List.mem_map.mp (hL.mem_iff.mp hp)
    obtain ⟨s2, bs1, f1, f2, f3, f4, f5, -⟩ := free_pub c s bs x hpub hx
    rw [hxu, hrun] at f1
    have hs := Except.ok.inj f1
    subst hs
    rw [f5] at hne ⊢
    exact ih hne
  | step_realloc s s1 L fuel p size u hr hp h0 hfp hsz hrun ih =>
    intro hne
    obtain ⟨bs, hpub, hL⟩ := reach_pub c hc s L hr
    obtain ⟨x, hx, hxu⟩ := List.mem_map.mp (hL.mem_iff.mp hp)
    obtain ⟨-, hinv, hu0, -⟩ := Pub_blk c s bs x hpub hx
    have hs0 : s.start ≠ 0 := hinv.2.1
    obtain ⟨A, B, hAB⟩ := List.append_of_mem hx
    subst hxu
    have hst : s1.start = s.start := by
      rcases Nat.lt_trichotomy size x.sz with hlt | heq | hgt
      · rw [hAB] at hpub
        obtain ⟨M, r1, -⟩ := realloc_shrink c s A B x size fuel hpub h0 hlt
        rw [hrun] at r1
        rw [(Prod.mk.inj (Except.ok.inj r1)).2]
      · subst heq
        have r1 := realloc_same c s bs x fuel hpub hx
        rw [hrun] at r1
        rw [(Prod.mk.inj (Except.ok.inj r1)).2]
      · by_cases hfit : round_up size ALIGNMENT ≤ round_up x.sz ALIGNMENT + x.ff
        · rw [hAB] at hpub
          obtain ⟨M, r1, -⟩ := realloc_expand c s A B x size fuel hpub hgt hsz hfit
          rw [hrun] at r1
          rw [(Prod.mk.inj (Except.ok.inj r1)).2]
        · obtain ⟨k1, k2⟩ := realloc_move_run c s bs x size fuel hpub hx hgt hfp hsz
            (by omega)
          cases hm : malloc c fuel s size with
          | error e => rw [k1 e hm] at hrun; cases hrun
          | ok r =>
            obtain ⟨u0, s0⟩ := r
            obtain ⟨s2, k3, k4⟩ := k2 u0 s0 hm
            rw [hrun] at k3
            rw [(Prod.mk.inj (Except.ok.inj k3)).2]
            exact k4
    rw [hst]
    exact ih hs0
  | step_clear s s1 L hr h0 hrun ih =>
    intro hne
    obtain ⟨bs, hpub, -⟩ := reach_pub c hc s L hr
    rcases hpub.2 with ⟨e0, -⟩ | ⟨hinv, -⟩
    · exact absurd e0 h0
    obtain ⟨-, -, -, hle, -, hbrk1, -, hbrk3, -, hmax64, -⟩ := hinv
    rw [clear_run c s (by omega) (by omega)] at hrun
    have hs := Except.ok.inj hrun
    subst hs
    exact ih h0

/-! ### Claims on the reset of the directory -/

theorem free_only_brk (c : Sizes) (s s1 : Heap) (x : Blk) (hpub : Pub c s [x])
    (hrun : free c s (x.user c) = .ok s1) : s1.brk = s.start + c.LS := by
  obtain ⟨hl, hinv, hu, -⟩ := Pub_blk c s [x] x hpub (List.mem_singleton.mpr rfl)
  obtain ⟨M, hr, -⟩ := remove_only_inv c { s with storage_lock := true } x
    (Inv_lock c s _ true hinv)
  have hf := free_of c s _ _ hl hu hr
  rw [hrun] at hf
  rw [Except.ok.inj hf]
  rfl

/-- What the next `malloc` returns on a public state with an empty directory. -/
theorem malloc_on_empty (c : Sizes) (s : Heap) (hpub : Pub c s []) (h0 : s.start ≠ 0) :
    (∀ fuel size u s2, malloc c fuel s size = .ok (u, s2) → u ≠ 0 →
      u = s.start + c.LS + c.HS) ∧
    (∀ fuel size, 0 < fuel → 0 < size → size < I31 → footprint c size < I31 →
      s.brk + (footprint c size + 4095) / 4096 * 4096 ≤ s.brk_max →
      ∃ s2, malloc c fuel s size = .ok (s.start + c.LS + c.HS, s2)) := by
  obtain ⟨hl, hcase⟩ := hpub
  rcases hcase with ⟨e0, -⟩ | ⟨hinv, hemp⟩
  · exact absurd e0 h0
  constructor
  · intro fuel size u s2 hrun hu
    rcases malloc_shape c s s2 [] size fuel u hl hinv hrun with e | e | ⟨b, hb, -⟩
    · exact absurd e hu
    · exact e
    · cases hb
  · intro fuel size hf hsz h2 hfp hroom
    obtain ⟨s2, k1, -⟩ := (malloc_empty_total c s size fuel hl hinv (hemp rfl).1 hsz hfp h2
      hf).2 hroom
    exact ⟨s2, k1⟩

/-- Claim C21: on every reachable state with a directory `clear_alloc_storage`
returns; afterwards `first` is none, `end` and the break are
`base + sizeof(header)`, the cursor is none, and the base, the policy and the cap
of the break are as before.  Every later `malloc` that returns a block returns
`base + sizeof(header) + sizeof(head)`, for every size; it does return that
address for a positive size in the `int` range when the break can rise by the
pages of the footprint.  This is the address returned by the `malloc` that
created the directory. -/
theorem C21_clear_resets (c : Sizes) (hc : c.ok) (s : Heap) (L : List Nat)
    (h : Reach c s L) (h0 : s.start ≠ 0) :
    ∃ s1, clear_alloc_storage c s = .ok s1 ∧
      first_seg s1.mem s1.start = 0 ∧ end_addr s1.mem s1.start = s1.start + c.LS ∧
      s1.brk = s1.start + c.LS ∧ s1.last_addr = 0 ∧ s1.start = s.start ∧
      s1.g_alloc_function = s.g_alloc_function ∧ s1.brk_max = s.brk_max ∧
      (∀ fuel size u s2, malloc c fuel s1 size = .ok (u, s2) → u ≠ 0 →
        u = s.start + c.LS + c.HS) ∧
      (∀ fuel size, 0 < fuel → 0 < size → size < I31 → footprint c size < I31 →
        s1.brk + (footprint c size + 4095) / 4096 * 4096 ≤ s1.brk_max →
        ∃ s2, malloc c fuel s1 size = .ok (s.start + c.LS + c.HS, s2)) ∧
      (∃ s0 L0 fuel size sA, Reach c s0 L0 ∧ s0.start = 0 ∧
        malloc c fuel s0 size = .ok (s.start + c.LS + c.HS, sA) ∧ sA.start = s.start) := by
  obtain ⟨bs, hpub, -⟩ := reach_pub c hc s L h
  have hinv : Inv c s bs := by
    rcases hpub.2 with ⟨e0, -⟩ | ⟨hinv, -⟩
    · exact absurd e0 h0
    · exact hinv
  obtain ⟨-, -, -, hle, -, hbrk1, -, hbrk3, -, hmax64, -⟩ := id hinv
  have c4 := hc.2.2.2.1
  have hrun := clear_run c s (by omega) (by omega)
  have hp1 := clear_pub c s _ bs hpub h0 hrun
  obtain ⟨m1, m2⟩ := malloc_on_empty c _ hp1 h0
  have r1 : rd64 (wr64 (wr64 s.mem s.start 0) (s.start + 8) (s.start + c.LS)) (s.start + 8) =
      s.start + c.LS := rd64_wr64_eq _ _ _ (by omega)
  have r2 : rd64 (wr64 (wr64 s.mem s.start 0) (s.start + 8) (s.start + c.LS)) s.start = 0 := by
    rw [rd64_wr64_ne _ _ _ _ (by omega), rd64_wr64_eq _ _ _ (by omega)]
  obtain ⟨s0, L0, fuel, size, u0, sA, k1, k2, k3, k4, k5, k6⟩ := reach_first_alloc c hc s L h h0
  refine ⟨_, hrun, r2, r1, rfl, rfl, rfl, rfl, rfl, m1, m2, s0, L0, fuel, size, sA, k1, k2, ?_, k5⟩
  rw [← k6]
  exact k3

theorem run_clear1 : clear_alloc_storage sizes64 heap1 =
    .ok (afterFree heap1 (clear_alloc_storage sizes64 heap1)) := rfl

/-- Claim C21 on the state after `malloc(1)`, whose base is `1008`: after the reset
`malloc(1)` returns `1088` again. -/
theorem C21_clear_resets_witness :
    sizes64.ok ∧ Reach sizes64 heap1 [1088] ∧ heap1.start ≠ 0 ∧
    heap1.start + sizes64.LS + sizes64.HS = 1088 ∧
    ∃ s1, clear_alloc_storage sizes64 heap1 = .ok s1 ∧
      first_seg s1.mem s1.start = 0 ∧ s1.brk = s1.start + sizes64.LS ∧
      ∃ s2, malloc sizes64 10 s1 1 = .ok (heap1.start + sizes64.LS + sizes64.HS, s2) :=
  ⟨by decide, reach_heap1, by decide, by decide,
    match C21_clear_resets sizes64 (by decide) heap1 [1088] reach_heap1 (by decide) with
    | ⟨s1, h1, h2, _, h4, _, h6, _, h8, _, h10, _⟩ =>
      ⟨s1, h1, h2, h4, h10 10 1 (by decide) (by decide) (by decide) (by decide)
        (by rw [h4, h6, h8]; decide)⟩⟩

/-- Claim C25, as the code has it: `free` of the only live block returns and leaves
the directory empty: `first` is none, `end` and the break are
`base + sizeof(header)`, the cursor is none.  Every later `malloc` that returns a
block returns `base + sizeof(header) + sizeof(head)`, and it does return that
address for a positive size in the `int` range when the break can rise by the
pages of the footprint.  That is the address of the freed block exactly when the
freed block lay at the start of the arena. -/
theorem C25_free_only_block (c : Sizes) (hc : c.ok) (s : Heap) (u : Nat)
    (h : Reach c s [u]) :
    ∃ s1, free c s u = .ok s1 ∧ Reach c s1 [] ∧
      first_seg s1.mem s1.start = 0 ∧ end_addr s1.mem s1.start = s1.start + c.LS ∧
      s1.brk = s1.start + c.LS ∧ s1.last_addr = 0 ∧ s1.start = s.start ∧
      s1.brk_max = s.brk_max ∧
      (∀ fuel size u2 s2, malloc c fuel s1 size = .ok (u2, s2) → u2 ≠ 0 →
        u2 = s.start + c.LS + c.HS) ∧
      (∀ fuel size, 0 < fuel → 0 < size → size < I31 → footprint c size < I31 →
        s1.brk + (footprint c size + 4095) / 4096 * 4096 ≤ s1.brk_max →
        ∃ s2, malloc c fuel s1 size = .ok (s.start + c.LS + c.HS, s2)) ∧
      (u = s.start + c.LS + c.HS ↔ first_seg s.mem s.start = s.start + c.LS) := by
  obtain ⟨bs, hpub, hL⟩ := reach_pub c hc s [u] h
  have hlen := hL.length_eq
  simp only [List.length_singleton, List.length_map] at hlen
  obtain ⟨x, hbs⟩ := List.length_eq_one.mp hlen.symm
  subst hbs
  have hxu : x.user c = u := by
    have := hL.mem_iff.mp (List.mem_singleton.mpr rfl)
    simp only [List.map_cons, List.map_nil, List.mem_singleton] at this
    exact this.symm
  subst hxu
  obtain ⟨hl, hinv, hu, -⟩ := Pub_blk c s [x] x hpub (List.mem_singleton.mpr rfl)
  have h0 : s.start ≠ 0 := hinv.2.1
  obtain ⟨s1, bs1, f1, f2, f3, f4, f5, f6, f7⟩ := free_pub c s [x] x hpub
    (List.mem_singleton.mpr rfl)
  have hbs1 : bs1 = [] := by
    rcases f3 with ⟨-, e, -⟩ | ⟨R, l, e, -⟩ | ⟨A, p, n, B, e, -⟩ | ⟨A, p, e, -⟩
    · exact e
    · simp at e
    · have := congrArg List.length e
      simp at this
      omega
    · have := congrArg List.length e
      simp at this
  subst hbs1
  have hr1 : Reach c s1 ([x.user c].erase (x.user c)) :=
    Reach.step_free s s1 [x.user c] (x.user c) h (List.mem_singleton.mpr rfl) f1
  rw [List.erase_cons_head] at hr1
  have hbrk := free_only_brk c s s1 x hpub f1
  have h01 : s1.start ≠ 0 := by rw [f5]; exact h0
  obtain ⟨m1, m2⟩ := malloc_on_empty c s1 f2 h01
  rw [f5] at m1 m2
  have hinv1 : Inv c s1 [] := by
    rcases f2.2 with ⟨e0, -⟩ | ⟨hi, -⟩
    · exact absurd e0 h01
    · exact hi
  have hemp1 : end_addr s1.mem s1.start = s1.start + c.LS ∧ s1.last_addr = 0 := by
    rcases f2.2 with ⟨e0, -⟩ | ⟨-, he⟩
    · exact absurd e0 h01
    · exact he rfl
  have hfirst1 : first_seg s1.mem s1.start = 0 := hinv1.2.2.2.2.2.2.2.2.2.2.2.1
  have hfirst : first_seg s.mem s.start = x.h := hinv.2.2.2.2.2.2.2.2.2.2.2.1
  refine ⟨s1, f1, hr1, hfirst1, hemp1.1, by rw [hbrk, f5], hemp1.2, f5, f7, m1, m2, ?_⟩
  rw [hfirst]
  show x.h + c.HS = s.start + c.LS + c.HS ↔ _
  omega

theorem reach_heapG : Reach sizes64 heapG [1200] :=
  Reach.step_free heap2 heapG [1200, 1088] 1088 reach_heap2 (by decide) rfl

/-- Claim C25 on the state after `malloc(1)`, whose only block `1088` lies at the
start of the arena: after `free(1088)`, `malloc(1)` returns `1088` again. -/
theorem C25_free_only_block_witness :
    sizes64.ok ∧ Reach sizes64 heap1 [1088] ∧
    heap1.start + sizes64.LS + sizes64.HS = 1088 ∧
    ∃ s1, free sizes64 heap1 1088 = .ok s1 ∧ first_seg s1.mem s1.start = 0 ∧
      s1.brk = s1.start + sizes64.LS ∧
      ∃ s2, malloc sizes64 10 s1 1 = .ok (heap1.start + sizes64.LS + sizes64.HS, s2) :=
  ⟨by decide, reach_heap1, by decide,
    match C25_free_only_block sizes64 (by decide) heap1 1088 reach_heap1 with
    | ⟨s1, h1, _, h2, _, h4, _, h6, h8, _, h10, _⟩ =>
      ⟨s1, h1, h2, h4, h10 10 1 (by decide) (by decide) (by decide) (by decide)
        (by rw [h4, h6, h8]; decide)⟩⟩

/-- The claim C25 fails when the only live block does not lie at the start of the
arena: after `malloc(1)` twice and `free(1088)` the only live block is `1200`;
after `free(1200)` the next `malloc(1)` returns `1088`, not `1200`. -/
theorem C25_counterexample :
    Reach sizes64 heapG [1200] ∧ free sizes64 heapG 1200 = .ok heapH ∧
    first_seg heapH.mem heapH.start = 0 ∧ ret (malloc sizes64 10 heapH 1) = 1088 ∧
    1088 ≠ 1200 :=
  ⟨reach_heapG, rfl, by decide, by decide, by decide⟩

/-! ## No assertion fails on a reachable state -/

/-- With more fuel than blocks, `malloc` of a size in the `int` range on a public
state returns or ends the process with `exit` because the break cannot rise. -/
theorem malloc_total (c : Sizes) (s : Heap) (bs : List Blk) (size fuel : Nat)
    (hpub : Pub c s bs) (hsz2 : size < 2147483648) (hfp : footprint c size < 2147483648)
    (hfuel : bs.length < fuel) :
    (∃ r, malloc c fuel s size = .ok r) ∨ malloc c fuel s size = .error Stop.exit := by
  by_cases hsz : size = 0
  · left
    unfold malloc
    rw [if_pos hsz]
    exact ⟨_, rfl⟩
  have hpos : 0 < size := Nat.pos_of_ne_zero hsz
  obtain ⟨hl, hcase⟩ := hpub
  rcases hcase with ⟨h0, hbs, hla, hc, hb1, hb2, hb3, hb4⟩ | ⟨hinv, hemp⟩
  · obtain ⟨f1, f2, f3⟩ := malloc_fresh_case c s size fuel hl h0 hla hc hb1 hb3 hb4 hpos hfp hsz2
    by_cases hcr : s.brk + (c.LS + 16) ≤ s.brk_max
    · by_cases hgr : s.brk + (c.LS + 16) + (footprint c size + 4095) / 4096 * 4096 ≤ s.brk_max
      · obtain ⟨M, nw, hm, -⟩ := f3 hgr
        exact Or.inl ⟨_, hm⟩
      · exact Or.inr (f2 hcr hgr)
    · exact Or.inl ⟨_, f1 hcr⟩
  · rcases malloc_inv_case c s bs size fuel hl hinv (fun e => (hemp e).1) hpos hfp hsz2 with
      ⟨-, e1⟩ | e1 | ⟨M, brk1, nw, bs1, e1, -⟩
    · omega
    · exact Or.inr e1
    · exact Or.inl ⟨_, e1⟩

theorem calloc_total (c : Sizes) (s : Heap) (bs : List Blk) (n size fuel : Nat)
    (hpub : Pub c s bs) (hsz2 : n * size % 18446744073709551616 < 2147483648)
    (hfp : footprint c (n * size % 18446744073709551616) < 2147483648)
    (hfuel : bs.length < fuel) :
    (∃ r, calloc c fuel s n size = .ok r) ∨ calloc c fuel s n size = .error Stop.exit := by
  unfold calloc
  split
  · exact Or.inl ⟨_, rfl⟩
  · rcases malloc_total c s bs _ fuel hpub hsz2 hfp hfuel with ⟨r, hr⟩ | hr
    · left
      rw [hr, ok_bind]
      obtain ⟨a, s0⟩ := r
      dsimp only
      split
      · exact ⟨_, rfl⟩
      · rename_i ha
        rcases malloc_pub c s s0 bs _ fuel a hpub hfp hsz2 hr with ⟨e1, e2⟩ |
          ⟨nw, bs1, e1, e2, e3, e4, e5, e6, -⟩
        · exact absurd e1 ha
        · have hok := zero_fill_ok c s0 bs1 nw (n * size % 18446744073709551616) e3
            (Placed_mem c _ _ _ _ _ e6) (by rw [e4])
          rw [← e1] at hok
          rw [hok]
          exact ⟨_, rfl⟩
    · right
      rw [hr]
      rfl

theorem realloc_total (c : Sizes) (s : Heap) (bs : List Blk) (x : Blk) (size fuel : Nat)
    (hpub : Pub c s bs) (hx : x ∈ bs) (hsz2 : size < 2147483648)
    (hfp : footprint c size < 2147483648) (hfuel : bs.length < fuel) :
    (∃ r, realloc c fuel s (x.user c) size = .ok r) ∨
      realloc c fuel s (x.user c) size = .error Stop.exit := by
  by_cases h0 : size = 0
  · left
    unfold realloc
    rw [if_pos h0]
    exact ⟨_, rfl⟩
  have hpos : 0 < size := Nat.pos_of_ne_zero h0
  obtain ⟨A, B, hAB⟩ := List.append_of_mem hx
  rcases Nat.lt_trichotomy size x.sz with hlt | heq | hgt
  · rw [hAB] at hpub
    obtain ⟨M, r1, -⟩ := realloc_shrink c s A B x size fuel hpub hpos hlt
    exact Or.inl ⟨_, r1⟩
  · subst heq
    exact Or.inl ⟨_, realloc_same c s bs x fuel hpub hx⟩
  · by_cases hfit : round_up size ALIGNMENT ≤ round_up x.sz ALIGNMENT + x.ff
    · rw [hAB] at hpub
      obtain ⟨M, r1, -⟩ := realloc_expand c s A B x size fuel hpub hgt hsz2 hfit
      exact Or.inl ⟨_, r1⟩
    · obtain ⟨k1, k2⟩ := realloc_move_run c s bs x size fuel hpub hx hgt hfp hsz2 (by omega)
      rcases malloc_total c s bs size fuel hpub hsz2 hfp hfuel with ⟨r, hr⟩ | hr
      · obtain ⟨u0, s0⟩ := r
        obtain ⟨s1, k3, -⟩ := k2 u0 s0 hr
        exact Or.inl ⟨_, k3⟩
      · exact Or.inr (k1 _ hr)

/-- Claim C22: on every reachable state, under every policy and with more
iterations of fuel than live blocks, each public call with a size whose footprint
is in the `int` range (`free` and `realloc` on the null address or on a live
address) returns, or ends the process with `exit(EXIT_FAILURE)` because the break
could not be raised; `free` and the directory reset always return.  So no call
stops at a failed `ASSERT`, nor for lack of fuel, nor at the mutex. -/
theorem C22_no_assertion_fails (c : Sizes) (hc : c.ok) (s : Heap) (L : List Nat)
    (h : Reach c s L) (strat : Strat) (fuel : Nat) (hfuel : L.length < fuel) :
    (∀ size, size < I31 → footprint c size < I31 →
      (∃ r, malloc c fuel (set_alloc_function s strat) size = .ok r) ∨
        malloc c fuel (set_alloc_function s strat) size = .error Stop.exit) ∧
    (∀ n size, n * size % W64 < I31 → footprint c (n * size % W64) < I31 →
      (∃ r, calloc c fuel (set_alloc_function s strat) n size = .ok r) ∨
        calloc c fuel (set_alloc_function s strat) n size = .error Stop.exit) ∧
    (∀ p, p = 0 ∨ p ∈ L → ∃ s1, free c (set_alloc_function s strat) p = .ok s1) ∧
    (∀ p size, p = 0 ∨ p ∈ L → size < I31 → footprint c size < I31 →
      (∃ r, realloc c fuel (set_alloc_function s strat) p size = .ok r) ∨
        realloc c fuel (set_alloc_function s strat) p size = .error Stop.exit) ∧
    (s.start ≠ 0 → ∃ s1, clear_alloc_storage c (set_alloc_function s strat) = .ok s1) := by
  have hr := Reach.step_select s L strat h
  obtain ⟨bs, hp, hL⟩ := reach_pub c hc _ L hr
  have hlen : bs.length < fuel := by
    have := hL.length_eq
    rw [List.length_map] at this
    omega
  have hM : ∀ size, size < I31 → footprint c size < I31 →
      (∃ r, malloc c fuel (set_alloc_function s strat) size = .ok r) ∨
        malloc c fuel (set_alloc_function s strat) size = .error Stop.exit :=
    fun size h1 h2 => malloc_total c _ bs size fuel hp h1 h2 hlen
  have hC : ∀ n size, n * size % W64 < I31 → footprint c (n * size % W64) < I31 →
      (∃ r, calloc c fuel (set_alloc_function s strat) n size = .ok r) ∨
        calloc c fuel (set_alloc_function s strat) n size = .error Stop.exit :=
    fun n size h1 h2 => calloc_total c _ bs n size fuel hp h1 h2 hlen
  have hF : ∀ p, p = 0 ∨ p ∈ L → ∃ s1, free c (set_alloc_function s strat) p = .ok s1 := by
    intro p hpl
    rcases hpl with e | e
    · subst e
      exact ⟨_, rfl⟩
    · obtain ⟨x, hx, hxu⟩ := List.mem_map.mp (hL.mem_iff.mp e)
      obtain ⟨s1, bs1, f1, -⟩ := free_pub c _ bs x hp hx
      rw [hxu] at f1
      exact ⟨s1, f1⟩
  have hR : ∀ p size, p = 0 ∨ p ∈ L → size < I31 → footprint c size < I31 →
      (∃ r, realloc c fuel (set_alloc_function s strat) p size = .ok r) ∨
        realloc c fuel (set_alloc_function s strat) p size = .error Stop.exit := by
    intro p size hpl h1 h2
    rcases hpl with e | e
    · subst e
      by_cases h0 : size = 0
      · left
        unfold realloc
        rw [if_pos h0]
        exact ⟨_, rfl⟩
      · have : realloc c fuel (set_alloc_function s strat) 0 size =
            malloc c fuel (set_alloc_function s strat) size := by
          unfold realloc
          rw [if_neg h0, if_pos rfl]
        rw [this]
        exact hM size h1 h2
    · obtain ⟨x, hx, hxu⟩ := List.mem_map.mp (hL.mem_iff.mp e)
      rw [← hxu]
      exact realloc_total c _ bs x size fuel hp hx h1 h2 hlen
  refine ⟨hM, hC, hF, hR, ?_⟩
  intro h0
  rcases hp.2 with ⟨e0, -⟩ | ⟨hinv, -⟩
  · exact absurd e0 h0
  obtain ⟨-, -, -, hle, -, hbrk1, -, hbrk3, -, hmax64, -⟩ := hinv
  exact ⟨_, clear_run c _ (by omega) (by omega)⟩

/-- Claim C22 on the state with the blocks `1088` and `1200` under next fit, with
fuel `10`: `malloc(1)` returns or ends with `exit`, and `free(1200)` returns. -/
theorem C22_no_assertion_fails_witness :
    sizes64.ok ∧ Reach sizes64 heap2 [1200, 1088] ∧ [1200, 1088].length < 10 ∧
    1 < I31 ∧ footprint sizes64 1 < I31 ∧
    ((∃ r, malloc sizes64 10 (set_alloc_function heap2 Strat.NEXT_FIT) 1 = .ok r) ∨
      malloc sizes64 10 (set_alloc_function heap2 Strat.NEXT_FIT) 1 = .error Stop.exit) ∧
    ret (malloc sizes64 10 (set_alloc_function heap2 Strat.NEXT_FIT) 1) = 1312 ∧
    ∃ s1, free sizes64 (set_alloc_function heap2 Strat.NEXT_FIT) 1200 = .ok s1 :=
  ⟨by decide, reach_heap2, by decide, by decide, by decide,
    (C22_no_assertion_fails sizes64 (by decide) heap2 [1200, 1088] reach_heap2 Strat.NEXT_FIT 10
      (by decide)).1 1 (by decide) (by decide),
    by decide,
    (C22_no_assertion_fails sizes64 (by decide) heap2 [1200, 1088] reach_heap2 Strat.NEXT_FIT 10
      (by decide)).2.2.1 1200 (Or.inr (by decide))⟩

/-! ## Growth of the arena -/

/-- The arena of a directory with blocks ends where the gap of its last block ends. -/
theorem Inv_end (c : Sizes) (s : Heap) (A : List Blk) (l : Blk) (hinv : Inv c s (A ++ [l])) :
    end_addr s.mem s.start = l.nx c ∧
      prev_seg_tail s.mem (first_seg s.mem s.start) = l.tl c ∧
      first_seg s.mem s.start ≠ 0 ∧ free_following s.mem (l.tl c) = l.ff := by
  obtain ⟨f1, f2, f3, f4, f5, f6⟩ := Inv_fields c s A [] l hinv
  have hlo := (Inv_mem_lo c s _ l hinv (by simp)).1
  obtain ⟨hc, -, -, -, -, -, -, -, -, -, -, hfirst, hcyc, ⟨lo, hlo2, htiles⟩, -⟩ := hinv
  obtain ⟨hlast, -⟩ := Tiles_last c A l _ _ htiles
  have c4 := hc.2.2.2.1
  refine ⟨hlast.symm, ?_, ?_, f4⟩
  · rw [hfirst]
    have := Cyc_first_prev c s.mem (A ++ [l]) hcyc (by simp)
    rw [tlOr_append] at this
    exact this
  · rw [hfirst, hdOr_ne _ (by simp) 0 (end_addr s.mem s.start), Tiles_hdOr c _ _ _ htiles]
    omega

/-- Claim C23, for sizes in the `int` range: on a reachable state with a directory,
for a size whose footprint `T` is below `2^31` and exceeds the trailing free space
`F`, with `G = 4096 * ceil((T - F) / 4096)`: if the break can rise by `G`,
`expand_list` returns the first byte of the trailing gap, the break and `end` have
risen by exactly `G`, the `free_following` of the last tail, when there is a
block, has risen by `G`, no other byte of the memory and no other part of the state
has changed, and the trailing gap `F + G` is at least `T` and exceeds `T` by less
than a page; if the break cannot rise by `G`, the process ends with `exit`. -/
theorem C23_expand_list (c : Sizes) (hc : c.ok) (s : Heap) (L : List Nat)
    (h : Reach c s L) (h0 : s.start ≠ 0) (size : Nat) (h2 : size < I31)
    (hfp : footprint c size < I31)
    (hF : trailing c s.mem s.start < footprint c size) :
    (¬ s.brk + growBy (footprint c size) (trailing c s.mem s.start) ≤ s.brk_max →
      expand_list c s size = .error Stop.exit) ∧
    (s.brk + growBy (footprint c size) (trailing c s.mem s.start) ≤ s.brk_max →
      ∃ s1, expand_list c s size = .ok (trailingStart c s.mem s.start, s1) ∧
        s1.brk = s.brk + growBy (footprint c size) (trailing c s.mem s.start) ∧
        end_addr s1.mem s1.start =
          end_addr s.mem s.start + growBy (footprint c size) (trailing c s.mem s.start) ∧
        trailing c s1.mem s1.start =
          trailing c s.mem s.start + growBy (footprint c size) (trailing c s.mem s.start) ∧
        trailingStart c s1.mem s1.start = trailingStart c s.mem s.start ∧
        (∀ a, (a < s.start + 8 ∨ s.start + 16 ≤ a) →
          (first_seg s.mem s.start = 0 ∨
            a < prev_seg_tail s.mem (first_seg s.mem s.start) + 16 ∨
            prev_seg_tail s.mem (first_seg s.mem s.start) + 24 ≤ a) →
          s1.mem a = s.mem a) ∧
        s1.start = s.start ∧ s1.last_addr = s.last_addr ∧
        s1.g_alloc_function = s.g_alloc_function ∧ s1.brk_max = s.brk_max ∧
        s1.storage_lock = s.storage_lock ∧
        footprint c size ≤
          trailing c s.mem s.start + growBy (footprint c size) (trailing c s.mem s.start) ∧
        trailing c s.mem s.start + growBy (footprint c size) (trailing c s.mem s.start) <
          footprint c size + 4096) := by
  obtain ⟨bs, hpub, -⟩ := reach_pub c hc s L h
  obtain ⟨hl, hcase⟩ := hpub
  rcases hcase with ⟨e0, -⟩ | ⟨hinv, hemp⟩
  · exact absurd e0 h0
  have hpg : ∀ T F : Nat, F < T → T ≤ F + growBy T F ∧ F + growBy T F < T + 4096 := by
    intro T F hlt
    unfold growBy
    omega
  rcases snoc_cases bs with hnil | ⟨A, l, hAl⟩
  · subst hnil
    have hE := (hemp rfl).1
    have hfirst : first_seg s.mem s.start = 0 := hinv.2.2.2.2.2.2.2.2.2.2.2.1
    have hT : trailing c s.mem s.start = 0 := by
      unfold trailing
      rw [if_pos hfirst, hE, Nat.sub_self]
    have hS : trailingStart c s.mem s.start = s.start + c.LS := by
      unfold trailingStart
      rw [if_pos hfirst]
    have hG : growBy (footprint c size) 0 = (footprint c size + 4095) / 4096 * 4096 := by
      unfold growBy
      rw [Nat.sub_zero]
    rw [hT] at hF
    rw [hT, hS, hG]
    obtain ⟨hr1, hr2⟩ := expand_empty_inv c s size hinv hE hfp h2
    refine ⟨hr1, ?_⟩
    intro hroom
    obtain ⟨M, hrun, hinv1, hE1, hfr⟩ := hr2 hroom
    have hfirst1 : first_seg M s.start = 0 := hinv1.2.2.2.2.2.2.2.2.2.2.2.1
    have hp := hpg (footprint c size) 0 hF
    rw [hG] at hp
    refine ⟨_, hrun, rfl, ?_, ?_, ?_, ?_, rfl, rfl, rfl, rfl, rfl, ?_, ?_⟩
    · show end_addr M s.start = _
      rw [hE1, hE]
    · show trailing c M s.start = _
      unfold trailing
      rw [if_pos hfirst1, hE1]
      omega
    · show trailingStart c M s.start = _
      unfold trailingStart
      rw [if_pos hfirst1]
    · intro a ha _
      exact hfr a ha
    · omega
    · omega
  · subst hAl
    obtain ⟨e1, e2, e3, e4⟩ := Inv_end c s A l hinv
    have hT : trailing c s.mem s.start = l.ff := by
      unfold trailing
      rw [if_neg e3, e2, e4]
    have hS : trailingStart c s.mem s.start = l.tl c + c.TS := by
      unfold trailingStart
      rw [if_neg e3, e2]
    have hG : growBy (footprint c size) l.ff =
        (footprint c size - l.ff + 4095) / 4096 * 4096 := by
      unfold growBy
      rfl
    rw [hT] at hF
    rw [hT, hS]
    obtain ⟨hr1, hr2⟩ := expand_last_inv c s A l size hinv hF hfp h2
    rw [hG]
    refine ⟨hr1, ?_⟩
    intro hroom
    obtain ⟨M, hrun, hinv1, hfr⟩ := hr2 hroom
    obtain ⟨g1, g2, g3, g4⟩ := Inv_end c _ A _ hinv1
    have hp := hpg (footprint c size) l.ff hF
    rw [hG] at hp
    have t1 : l.nx c = l.tl c + c.TS + l.ff := rfl
    refine ⟨_, hrun, rfl, ?_, ?_, ?_, ?_, rfl, rfl, rfl, rfl, rfl, hp.1, hp.2⟩
    · show end_addr M s.start = _
      rw [e1, t1]
      exact g1.trans (Nat.add_assoc (l.tl c + c.TS) l.ff _).symm
    · show trailing c M s.start = _
      unfold trailing
      rw [if_neg g3, g2]
      exact g4
    · show trailingStart c M s.start = _
      unfold trailingStart
      rw [if_neg g3, g2]
      rfl
    · intro a ha1 ha2
      rw [e2] at ha2
      rcases ha2 with k | k
      · exact absurd k e3
      · exact hfr a ha1 k

/-- Claim C23 on the state after `malloc(1)` for the size `4000`: the footprint
`4096` exceeds the trailing gap of `3984` bytes, the arena grows by one page and
`expand_list` returns `1152`, one past the last tail. -/
theorem C23_expand_list_witness :
    sizes64.ok ∧ Reach sizes64 heap1 [1088] ∧ heap1.start ≠ 0 ∧ 4000 < I31 ∧
    footprint sizes64 4000 = 4096 ∧ trailing sizes64 heap1.mem heap1.start = 3984 ∧
    growBy (footprint sizes64 4000) (trailing sizes64 heap1.mem heap1.start) = 4096 ∧
    trailingStart sizes64 heap1.mem heap1.start = 1152 ∧
    ∃ s1, expand_list sizes64 heap1 4000 =
        .ok (trailingStart sizes64 heap1.mem heap1.start, s1) ∧
      s1.brk = heap1.brk +
        growBy (footprint sizes64 4000) (trailing sizes64 heap1.mem heap1.start) ∧
      trailing sizes64 s1.mem s1.start = trailing sizes64 heap1.mem heap1.start +
        growBy (footprint sizes64 4000) (trailing sizes64 heap1.mem heap1.start) :=
  ⟨by decide, reach_heap1, by decide, by decide, by decide, by decide, by decide, by decide,
    match (C23_expand_list sizes64 (by decide) heap1 [1088] reach_heap1 (by decide) 4000
      (by decide) (by decide) (by decide)).2 (by decide) with
    | ⟨s1, h1, h2, _, h4, _⟩ => ⟨s1, h1, h2, h4⟩⟩

/-- The claim C23 fails in two ways.  For a footprint that is not in the `int`
range: on the state after `malloc(1)` of a process whose break may rise to `2^40`,
for the size `2^32 + 1` no gap fits, the trailing gap holds `3984` bytes, the break
could rise by the growth wanted, and `expand_list` stops at an assertion.  When the
break cannot rise by the growth wanted: on the state after `malloc(1)` of a process
whose break may rise to `1000000`, for the size `2000000` no gap fits and
`expand_list` does not return, the process ends with `exit`. -/
theorem C23_counterexample :
    (footprint sizes64 4294967297 = 4294967408 ∧
      trailing sizes64 heapW.mem heapW.start = 3984 ∧
      g_alloc sizes64 10 heapW 4294967297 = .ok 0 ∧
      heapW.brk +
          growBy (footprint sizes64 4294967297) (trailing sizes64 heapW.mem heapW.start) ≤
        heapW.brk_max ∧
      expand_list sizes64 heapW 4294967297 = .error Stop.assertion) ∧
    (Reach sizes64 heap1 [1088] ∧ footprint sizes64 2000000 = 2000096 ∧
      trailing sizes64 heap1.mem heap1.start = 3984 ∧
      g_alloc sizes64 10 heap1 2000000 = .ok 0 ∧ heap1.brk_max = 1000000 ∧
      expand_list sizes64 heap1 2000000 = .error Stop.exit) :=
  ⟨⟨by decide, by decide, rfl, by decide, rfl⟩,
    ⟨reach_heap1, by decide, by decide, rfl, by decide, rfl⟩⟩

/-! ## Removal of a block -/

theorem Blk.h_lt_nx (c : Sizes) (hc : c.ok) (b : Blk) : b.h < b.nx c := by
  have h1 := Blk.tl_ge c b
  have h2 := Blk.nx_ge c b
  have c5 := hc.2.2.2.2.1
  omega

/-- Two blocks of a directory with the same head are the same block. -/
theorem head_inj (c : Sizes) (s : Heap) (bs : List Blk) (hinv : Inv c s bs) (a b : Blk)
    (ha : a ∈ bs) (hb : b ∈ bs) (h : a.h = b.h) : a = b := by
  have h1 := Blk.h_lt_nx c hinv.1 a
  have h2 := Blk.h_lt_nx c hinv.1 b
  rcases Inv_apart c s bs hinv a b ha hb with e | e | e
  · exact e
  · omega
  · omega

/-- A block that is not the first one has a block in front of it, whose tail its
head names. -/
theorem pred_pos (c : Sizes) (s : Heap) (bs : List Blk) (hinv : Inv c s bs) (x : Blk)
    (hx : x ∈ bs) (hnf : first_seg s.mem s.start ≠ x.h) :
    ∃ A p B, bs = A ++ p :: x :: B ∧ prev_seg_tail s.mem x.h = p.tl c := by
  have hfirst : first_seg s.mem s.start = hdOr bs 0 := hinv.2.2.2.2.2.2.2.2.2.2.2.1
  obtain ⟨A0, B, hAB⟩ := List.append_of_mem hx
  rcases snoc_cases A0 with hA | ⟨A, p, hA⟩
  · subst hA
    rw [hfirst, hAB] at hnf
    exact absurd rfl hnf
  · subst hA
    have hbs : bs = A ++ p :: x :: B := by rw [hAB]; simp
    refine ⟨A, p, B, hbs, ?_⟩
    rw [hbs] at hinv
    obtain ⟨-, -, -, -, -, f6⟩ := Inv_fields c s A (x :: B) p hinv
    exact f6

/-- The first block of a directory is the block whose head `first` names. -/
theorem first_pos (c : Sizes) (s : Heap) (bs : List Blk) (hinv : Inv c s bs) (x : Blk)
    (hx : x ∈ bs) (hf : first_seg s.mem s.start = x.h) : ∃ R, bs = x :: R := by
  have hfirst : first_seg s.mem s.start = hdOr bs 0 := hinv.2.2.2.2.2.2.2.2.2.2.2.1
  cases bs with
  | nil => cases hx
  | cons b R =>
    have e : b.h = x.h := by
      rw [hfirst] at hf
      exact hf
    have := head_inj c s _ hinv b x (List.mem_cons_self _ _) hx e
    subst this
    exact ⟨R, rfl⟩

/-- The run of `free` on the last of several blocks. -/
theorem free_last_run (c : Sizes) (s : Heap) (A : List Blk) (p x : Blk)
    (hpub : Pub c s (A ++ [p, x])) :
    ∃ s1, free c s (x.user c) = .ok s1 ∧
      Pub c s1 (A ++ [Blk.mk p.h p.sz (p.ff + (footprint c x.sz + x.ff) -
        cutBy (p.ff + (footprint c x.sz + x.ff)))]) ∧
      s1.brk = s.brk - cutBy (p.ff + (footprint c x.sz + x.ff)) ∧ s1.start = s.start := by
  obtain ⟨hl, hinv, hu, -⟩ := Pub_blk c s _ x hpub (by simp)
  obtain ⟨M1, hrun1, hinv1, -⟩ := remove_last_inv c { s with storage_lock := true } A p x
    (Inv_lock c s _ true hinv)
  obtain ⟨M, hrun2, hinv2, -⟩ := remove_shrink_inv c _ A _ hinv1
  have hrun := hrun1.trans hrun2
  refine ⟨_, free_of c s _ _ hl hu hrun, ⟨rfl, Or.inr ⟨hinv2, fun h => ?_⟩⟩, rfl, rfl⟩
  simp at h

/-- The run of `free` on a block between two others. -/
theorem free_mid_run (c : Sizes) (s : Heap) (A B : List Blk) (p x n : Blk)
    (hpub : Pub c s (A ++ p :: x :: n :: B)) :
    ∃ s1, free c s (x.user c) = .ok s1 ∧
      Pub c s1 (A ++ Blk.mk p.h p.sz (p.ff + (footprint c x.sz + x.ff)) :: n :: B) ∧
      s1.brk = s.brk ∧ s1.start = s.start := by
  obtain ⟨hl, hinv, hu, -⟩ := Pub_blk c s _ x hpub (by simp)
  obtain ⟨M, hrun, hinv1, -⟩ := remove_mid_inv c { s with storage_lock := true } A B p x n
    (Inv_lock c s _ true hinv)
  refine ⟨_, free_of c s _ _ hl hu hrun, ⟨rfl, Or.inr ⟨hinv1, fun h => ?_⟩⟩, rfl, rfl⟩
  simp at h

/-- The run of `free` on the first of several blocks. -/
theorem free_first_run (c : Sizes) (s : Heap) (x l : Blk) (R : List Blk)
    (hpub : Pub c s (x :: (R ++ [l]))) :
    ∃ s1, free c s (x.user c) = .ok s1 ∧ Pub c s1 (R ++ [l]) ∧
      s1.brk = s.brk ∧ s1.start = s.start := by
  obtain ⟨hl, hinv, hu, -⟩ := Pub_blk c s _ x hpub (by simp)
  obtain ⟨M, hrun, hinv1, -⟩ := remove_first_inv c { s with storage_lock := true } x l R
    (Inv_lock c s _ true hinv)
  refine ⟨_, free_of c s _ _ hl hu hrun, ⟨rfl, Or.inr ⟨hinv1, fun h => ?_⟩⟩, rfl, rfl⟩
  simp at h

/-- What the memory holds for a block `x` behind a block `p`. -/
theorem pair_read (c : Sizes) (s : Heap) (A B : List Blk) (p x : Blk)
    (hinv : Inv c s (A ++ p :: x :: B)) :
    predTail c s.mem (x.user c) = p.tl c ∧
    mergedFree c s.mem (x.user c) = p.ff + (footprint c x.sz + x.ff) ∧
    succHead c s.mem (x.user c) = hdOr B (hdOr A p.h) ∧
    x.h = p.nx c ∧ x.h + (footprint c x.sz + x.ff) = x.nx c ∧
    next_seg_tail s.mem (x.user c - c.HS) = x.tl c := by
  have hinv2 : Inv c s ((A ++ [p]) ++ x :: B) := by simpa using hinv
  obtain ⟨f1, f2, f3, f4, f5, f6⟩ := Inv_fields c s (A ++ [p]) B x hinv2
  obtain ⟨g1, g2, g3, g4, g5, g6⟩ := Inv_fields c s A (x :: B) p hinv
  obtain ⟨-, -, -, -, -, -, -, -, -, -, -, -, -, ⟨lo, -, htiles⟩, -⟩ := hinv
  obtain ⟨mid, -, t2⟩ := (Tiles_append c A (p :: x :: B) lo _).mp htiles
  simp only [Tiles_cons] at t2
  have hpt : predTail c s.mem (x.user c) = p.tl c := by
    unfold predTail
    rw [user_sub]
    exact g6
  refine ⟨hpt, ?_, ?_, t2.2.1, ?_, ?_⟩
  · unfold mergedFree
    rw [hpt, user_sub, f1, f2, f4, g4]
    unfold footprint
    omega
  · unfold succHead
    rw [user_sub, f2, f5]
    rw [hdOr_append, hdOr_append]
    rfl
  · unfold footprint Blk.nx Blk.tl
    omega
  · rw [user_sub]
    exact f2

/-- Claim C24, as the code has it: in a reachable state, whose arena is smaller
than `2^31` bytes, for a live block `u` that is not the first block and whose
successor in the chain is the first block, so that the tail `P` in front of it
becomes the last tail, `free(u)` returns; with `F'` the value of
`P.free_following` after the merge, which is below `2^31`: if `F' > 4096`, the break
and `end` are both lowered by `4096 * floor(F' / 4096)` and `P.free_following`
becomes `F'` minus that amount; if `F' <= 4096`, neither the break nor `end`
changes and `P.free_following` is `F'`. -/
theorem C24_free_lowers_break (c : Sizes) (hc : c.ok) (s : Heap) (L : List Nat)
    (h : Reach c s L) (u : Nat) (hu : u ∈ L)
    (hnf : first_seg s.mem s.start ≠ u - c.HS)
    (hlast : succHead c s.mem u = first_seg s.mem s.start) :
    ∃ s1, free c s u = .ok s1 ∧ mergedFree c s.mem u < I31 ∧
      (4096 < mergedFree c s.mem u →
        s1.brk + mergedFree c s.mem u / 4096 * 4096 = s.brk ∧
        end_addr s1.mem s1.start + mergedFree c s.mem u / 4096 * 4096 =
          end_addr s.mem s.start ∧
        free_following s1.mem (predTail c s.mem u) + mergedFree c s.mem u / 4096 * 4096 =
          mergedFree c s.mem u) ∧
      (mergedFree c s.mem u ≤ 4096 →
        s1.brk = s.brk ∧ end_addr s1.mem s1.start = end_addr s.mem s.start ∧
        free_following s1.mem (predTail c s.mem u) = mergedFree c s.mem u) := by
  obtain ⟨bs, hpub, hL, hget⟩ := reach_blk c hc s L h
  obtain ⟨x, hx, hxu⟩ := hget u hu
  subst hxu
  obtain ⟨hl, hinv, -⟩ := Pub_blk c s bs x hpub hx
  rw [user_sub] at hnf
  obtain ⟨A, p, B, hbs, -⟩ := pred_pos c s bs hinv x hx hnf
  subst hbs
  obtain ⟨r1, r2, r3, r4, r5, r6⟩ := pair_read c s A B p x hinv
  have hB : B = [] := by
    cases B with
    | nil => rfl
    | cons n B2 =>
      exfalso
      rw [r3, hdOr_cons] at hlast
      obtain ⟨k1, k2, -⟩ := Inv_first c s _ hinv
      have hp := k2 p (by simp)
      rw [← k1, ← hlast] at hp
      obtain ⟨-, -, -, -, -, -, -, -, -, -, -, -, -, ⟨lo, -, htiles⟩, -⟩ := hinv
      have hpw := Tiles_pairwise c _ _ _ htiles
      have h1 := (List.pairwise_cons.mp (List.pairwise_append.mp hpw).2.1).1 n (by simp)
      have h2 := Blk.h_lt_nx c hc p
      omega
  subst hB
  obtain ⟨s1, f1, f2, f3, f4⟩ := free_last_run c s A p x hpub
  refine ⟨s1, f1, ?_⟩
  have hinv1 : Inv c s1 (A ++ [Blk.mk p.h p.sz (p.ff + (footprint c x.sz + x.ff) -
      cutBy (p.ff + (footprint c x.sz + x.ff)))]) := by
    rcases f2.2 with ⟨e0, -⟩ | ⟨hi, -⟩
    · rw [f4] at e0
      exact absurd e0 hinv.2.1
    · exact hi
  obtain ⟨g1, -, -, g4⟩ := Inv_end c s1 A _ hinv1
  have hinv2 : Inv c s ((A ++ [p]) ++ [x]) := by simpa using hinv
  obtain ⟨e1, -, -, -⟩ := Inv_end c s _ x hinv2
  have hbrk1 : end_addr s.mem s.start ≤ s.brk := hinv.2.2.2.2.2.1
  have t1 : Blk.nx c (Blk.mk p.h p.sz (p.ff + (footprint c x.sz + x.ff) -
      cutBy (p.ff + (footprint c x.sz + x.ff)))) = p.tl c + c.TS +
        (p.ff + (footprint c x.sz + x.ff) - cutBy (p.ff + (footprint c x.sz + x.ff))) := rfl
  have t2 : p.nx c = p.tl c + c.TS + p.ff := rfl
  have t3 : Blk.tl c (Blk.mk p.h p.sz (p.ff + (footprint c x.sz + x.ff) -
      cutBy (p.ff + (footprint c x.sz + x.ff)))) = p.tl c := rfl
  rw [t1] at g1
  rw [t3] at g4
  dsimp only at g4
  rw [r1, r2]
  have hE : end_addr s.mem s.start = p.tl c + c.TS + (p.ff + (footprint c x.sz + x.ff)) := by
    clear * - e1 r4 r5 t2
    omega
  have hb31 := (Inv_bounds c s _ hinv).2.2.2.1
  have hlo31 := (Inv_mem_lo c s _ p hinv (by simp)).1
  have htl31 := Blk.tl_ge c p
  generalize p.ff + (footprint c x.sz + x.ff) = F at *
  generalize end_addr s.mem s.start = e at *
  generalize end_addr s1.mem s1.start = e1' at *
  generalize free_following s1.mem (p.tl c) = f at *
  refine ⟨?_, ?_, ?_⟩
  · unfold I31
    clear * - hb31 hlo31 htl31 hE
    omega
  · intro hF
    have hk : cutBy F = F / 4096 * 4096 := by
      unfold cutBy
      rw [if_neg (by omega)]
    rw [hk] at f3 g1 g4
    clear * - f3 g1 g4 hE hbrk1 hF
    omega
  · intro hF
    have hk : cutBy F = 0 := by
      unfold cutBy
      rw [if_pos hF]
    rw [hk] at f3 g1 g4
    clear * - f3 g1 g4 hE hbrk1 hF
    omega

theorem reach_heapJ : Reach sizes64 heapJ [1200, 1088] :=
  Reach.step_malloc heap1 heapJ [1088] 10 5000 1200 reach_heap1 (by decide) (by decide) rfl

theorem reach_heapF1 : Reach sizes64 heapF1 [5184, 1088] :=
  Reach.step_malloc heapF heapF1 [1088] 10 1 5184 reach_heapF (by decide) (by decide) rfl

/-- Claim C24 on the state with the blocks `1088` of size `1` and `1200` of size
`5000`: `free(1200)` merges `8080` bytes behind the tail of the first block and
lowers the break by one page. -/
theorem C24_free_lowers_break_witness :
    sizes64.ok ∧ Reach sizes64 heapJ [1200, 1088] ∧ 1200 ∈ [1200, 1088] ∧
    first_seg heapJ.mem heapJ.start ≠ 1200 - sizes64.HS ∧
    succHead sizes64 heapJ.mem 1200 = first_seg heapJ.mem heapJ.start ∧
    mergedFree sizes64 heapJ.mem 1200 = 8080 ∧
    ∃ s1, free sizes64 heapJ 1200 = .ok s1 ∧
      s1.brk + mergedFree sizes64 heapJ.mem 1200 / 4096 * 4096 = heapJ.brk ∧
      free_following s1.mem (predTail sizes64 heapJ.mem 1200) +
        mergedFree sizes64 heapJ.mem 1200 / 4096 * 4096 = mergedFree sizes64 heapJ.mem 1200 :=
  ⟨by decide, reach_heapJ, by decide, by decide, by decide, by decide,
    match C24_free_lowers_break sizes64 (by decide) heapJ [1200, 1088] reach_heapJ 1200
      (by decide) (by decide) (by decide) with
    | ⟨s1, h1, _, h2, _⟩ => ⟨s1, h1, (h2 (by decide)).1, (h2 (by decide)).2.2⟩⟩

/-- The claim C24 fails in two ways.  When `F'` is exactly one page: on the state
with the block `1088` of size `4000`, which fills the first page, and the block
`5184` of size `1`, `free(5184)` merges `4096` bytes behind the tail of the first
block, and neither the break nor `end` is lowered.  And when `F'` is not in the
`int` range: on `heapN2`, with the blocks `1088` and `1073743120` in an arena of
`2^31 + 4096` bytes, `free(1073743120)` merges `F' = 2^31 + 3984` bytes behind the
tail `1104` of the first block, a value that is negative as an `int`, and neither
the break nor `end` is lowered. -/
theorem C24_counterexample :
    (Reach sizes64 heapF1 [5184, 1088] ∧
      first_seg heapF1.mem heapF1.start ≠ 5184 - sizes64.HS ∧
      succHead sizes64 heapF1.mem 5184 = first_seg heapF1.mem heapF1.start ∧
      mergedFree sizes64 heapF1.mem 5184 = 4096 ∧
      free sizes64 heapF1 5184 = .ok (afterFree heapF1 (free sizes64 heapF1 5184)) ∧
      (afterFree heapF1 (free sizes64 heapF1 5184)).brk = heapF1.brk ∧
      end_addr (afterFree heapF1 (free sizes64 heapF1 5184)).mem heapF1.start =
        end_addr heapF1.mem heapF1.start ∧
      free_following (afterFree heapF1 (free sizes64 heapF1 5184)).mem
        (predTail sizes64 heapF1.mem 5184) = 4096) ∧
    (first_seg heapN2.mem heapN2.start ≠ 1073743120 - sizes64.HS ∧
      succHead sizes64 heapN2.mem 1073743120 = first_seg heapN2.mem heapN2.start ∧
      predTail sizes64 heapN2.mem 1073743120 = 1104 ∧
      mergedFree sizes64 heapN2.mem 1073743120 = 2147487632 ∧
      toInt32 ((2147487632 : Nat) : Int) = -2147479664 ∧
      free sizes64 heapN2 1073743120 =
        .ok (afterFree heapN2 (free sizes64 heapN2 1073743120)) ∧
      (afterFree heapN2 (free sizes64 heapN2 1073743120)).brk = heapN2.brk ∧
      end_addr (afterFree heapN2 (free sizes64 heapN2 1073743120)).mem heapN2.start =
        end_addr heapN2.mem heapN2.start ∧
      free_following (afterFree heapN2 (free sizes64 heapN2 1073743120)).mem 1104 =
        2147487632) :=
  ⟨⟨reach_heapF1, by decide, by decide, by decide, rfl, by decide, by decide, by decide⟩,
    ⟨by decide, by decide, by decide, by decide, by decide, rfl, by decide, by decide,
      by decide⟩⟩

/-! ## What a removal folds into the gap in front -/

theorem cutBy_le (F : Nat) : cutBy F ≤ F := by
  unfold cutBy
  split <;> omega

/-- What the memory holds for the first block `x` of several, `l` being the last. -/
theorem first_read (c : Sizes) (s : Heap) (x l : Blk) (R : List Blk)
    (hinv : Inv c s (x :: (R ++ [l]))) :
    predTail c s.mem (x.user c) = l.tl c ∧
    succHead c s.mem (x.user c) = hdOr R l.h ∧ hdOr R l.h = x.nx c ∧
    x.h + (c.HS + round_up (seg_size s.mem (x.user c - c.HS)) ALIGNMENT + c.TS) +
      free_following s.mem (next_seg_tail s.mem (x.user c - c.HS)) = x.nx c := by
  obtain ⟨f1, f2, f3, f4, f5, f6⟩ := Inv_fields c s [] (R ++ [l]) x hinv
  have hinv2 : Inv c s ((x :: R) ++ l :: []) := by simpa using hinv
  obtain ⟨g1, g2, g3, g4, g5, g6⟩ := Inv_fields c s (x :: R) [] l hinv2
  obtain ⟨-, -, -, -, -, -, -, -, -, -, -, -, -, ⟨lo, -, htiles⟩, -⟩ := hinv
  rw [Tiles_cons] at htiles
  have ht := Tiles_hdOr c _ _ _ htiles.2
  rw [hdOr_append] at ht
  have hN : hdOr R l.h = x.nx c := ht
  refine ⟨?_, ?_, hN, ?_⟩
  · unfold predTail
    rw [user_sub]
    exact g6
  · unfold succHead
    rw [user_sub, f2, f5, List.append_nil, hdOr_append]
    rfl
  · rw [user_sub, f1, f2, f4]
    unfold Blk.nx Blk.tl
    omega

/-- Claim C26: in a reachable state `free` of a live block `u` returns.  If the
block is not the first and `P` is the tail in front of it, then `P.free_following`
plus the amount by which the break was lowered is the old value plus the footprint
of the block plus the `free_following` of its tail, `P.next_head` is the head that
followed the block, and the `prev_tail` of that head is `P`.  If the block is the
first of several, `first` is the head that followed it, which lies the footprint
of the block plus the `free_following` of its tail above its head, the `next_head`
of the last tail is that head and the `prev_tail` of that head is the last tail,
the break is not moved, and no `free_following` of another block changes. -/
theorem C26_remove_folds (c : Sizes) (hc : c.ok) (s : Heap) (L : List Nat)
    (h : Reach c s L) (u : Nat) (hu : u ∈ L) :
    ∃ s1, free c s u = .ok s1 ∧
      (first_seg s.mem s.start ≠ u - c.HS →
        (∃ cut, s1.brk + cut = s.brk ∧
          free_following s1.mem (predTail c s.mem u) + cut = mergedFree c s.mem u) ∧
        next_seg_head s1.mem (predTail c s.mem u) = succHead c s.mem u ∧
        prev_seg_tail s1.mem (succHead c s.mem u) = predTail c s.mem u) ∧
      (first_seg s.mem s.start = u - c.HS →
        prev_seg_tail s.mem (u - c.HS) ≠ next_seg_tail s.mem (u - c.HS) →
        first_seg s1.mem s1.start = succHead c s.mem u ∧
        succHead c s.mem u =
          (u - c.HS) + (c.HS + round_up (seg_size s.mem (u - c.HS)) ALIGNMENT + c.TS) +
            free_following s.mem (next_seg_tail s.mem (u - c.HS)) ∧
        next_seg_head s1.mem (predTail c s.mem u) = succHead c s.mem u ∧
        prev_seg_tail s1.mem (succHead c s.mem u) = predTail c s.mem u ∧
        s1.brk = s.brk ∧
        ∀ q ∈ L, q ≠ u →
          free_following s1.mem (next_seg_tail s.mem (q - c.HS)) =
            free_following s.mem (next_seg_tail s.mem (q - c.HS))) := by
  obtain ⟨bs, hpub, hL, hget⟩ := reach_blk c hc s L h
  obtain ⟨x, hx, hxu⟩ := hget u hu
  subst hxu
  obtain ⟨hl, hinv, -⟩ := Pub_blk c s bs x hpub hx
  have hs0 : s.start ≠ 0 := hinv.2.1
  have hbrk1 : end_addr s.mem s.start ≤ s.brk := hinv.2.2.2.2.2.1
  rw [user_sub]
  by_cases hnf : first_seg s.mem s.start = x.h
  · -- the first block
    obtain ⟨R0, hbs⟩ := first_pos c s bs hinv x hx hnf
    subst hbs
    rcases snoc_cases R0 with hR | ⟨R, l, hR⟩
    · -- the only block
      subst hR
      obtain ⟨s1, bs1, f1, -⟩ := free_pub c s [x] x hpub hx
      refine ⟨s1, f1, fun hne => absurd hnf hne, fun _ hne => ?_⟩
      exfalso
      obtain ⟨-, f2, -, -, -, f6⟩ := Inv_fields c s [] [] x hinv
      apply hne
      rw [f2]
      exact f6
    · subst hR
      obtain ⟨s1, f1, f2, f3, f4⟩ := free_first_run c s x l R hpub
      refine ⟨s1, f1, fun hne => absurd hnf hne, fun _ _ => ?_⟩
      have hinv1 : Inv c s1 (R ++ [l]) := by
        rcases f2.2 with ⟨e0, -⟩ | ⟨hi, -⟩
        · rw [f4] at e0
          exact absurd e0 hs0
        · exact hi
      obtain ⟨r1, r2, r3, r4⟩ := first_read c s x l R hinv
      rw [user_sub] at r4
      obtain ⟨g1, g2, g3, g4, g5, g6⟩ := Inv_fields c s1 R [] l hinv1
      rw [List.nil_append] at g5 g6
      have hfirst1 : first_seg s1.mem s1.start = hdOr (R ++ [l]) 0 :=
        hinv1.2.2.2.2.2.2.2.2.2.2.2.1
      rw [r1, r2]
      refine ⟨?_, ?_, g5, g6, f3, ?_⟩
      · rw [hfirst1, hdOr_append]
        rfl
      · rw [r3, ← r4]
      · intro q hq hqu
        obtain ⟨y, hy, hyu⟩ := hget q hq
        subst hyu
        have hyx : y ≠ x := fun e => hqu (by rw [e])
        have hy1 : y ∈ R ++ [l] := by
          rcases List.mem_cons.mp hy with e | e
          · exact absurd e hyx
          · exact e
        obtain ⟨-, -, k3, -, k5, -⟩ := Pub_read c s _ y hpub hy
        obtain ⟨-, -, -, -, m5, -⟩ := Pub_read c s1 _ y f2 hy1
        rw [user_sub, k3, k5, m5]
  · -- a block behind another block
    obtain ⟨A, p, B, hbs, -⟩ := pred_pos c s bs hinv x hx hnf
    subst hbs
    obtain ⟨r1, r2, r3, r4, r5, r6⟩ := pair_read c s A B p x hinv
    rw [r1, r2, r3]
    cases B with
    | nil =>
      obtain ⟨s1, f1, f2, f3, f4⟩ := free_last_run c s A p x hpub
      refine ⟨s1, f1, fun _ => ?_, fun e => absurd e hnf⟩
      have hinv1 : Inv c s1 (A ++ [Blk.mk p.h p.sz (p.ff + (footprint c x.sz + x.ff) -
          cutBy (p.ff + (footprint c x.sz + x.ff)))]) := by
        rcases f2.2 with ⟨e0, -⟩ | ⟨hi, -⟩
        · rw [f4] at e0
          exact absurd e0 hs0
        · exact hi
      obtain ⟨g1, g2, g3, g4, g5, g6⟩ := Inv_fields c s1 A [] _ hinv1
      rw [List.nil_append] at g5 g6
      have hle := cutBy_le (p.ff + (footprint c x.sz + x.ff))
      have hinv2 : Inv c s ((A ++ [p]) ++ [x]) := by simpa using hinv
      obtain ⟨e1, -, -, -⟩ := Inv_end c s _ x hinv2
      have t2 : p.nx c = p.tl c + c.TS + p.ff := rfl
      refine ⟨⟨cutBy (p.ff + (footprint c x.sz + x.ff)), ?_, ?_⟩, g5, g6⟩
      · rw [f3]
        clear * - hle e1 r4 r5 t2 hbrk1
        omega
      · have g4' : free_following s1.mem (p.tl c) = p.ff + (footprint c x.sz + x.ff) -
            cutBy (p.ff + (footprint c x.sz + x.ff)) := g4
        rw [g4']
        clear * - hle
        omega
    | cons n B2 =>
      obtain ⟨s1, f1, f2, f3, f4⟩ := free_mid_run c s A B2 p x n hpub
      refine ⟨s1, f1, fun _ => ?_, fun e => absurd e hnf⟩
      have hinv1 : Inv c s1 (A ++ Blk.mk p.h p.sz (p.ff + (footprint c x.sz + x.ff)) ::
          n :: B2) := by
        rcases f2.2 with ⟨e0, -⟩ | ⟨hi, -⟩
        · rw [f4] at e0
          exact absurd e0 hs0
        · exact hi
      obtain ⟨g1, g2, g3, g4, g5, g6⟩ := Inv_fields c s1 A (n :: B2) _ hinv1
      refine ⟨⟨0, by rw [f3]; rfl, g4⟩, g5, g6⟩

/-- Claim C26 on the state with the blocks `1088` and `1200`, both of size `1`:
`free(1200)` folds `112 + 3872` bytes into the gap behind the tail `1104`, and
`free(1088)` makes the head `1152` the first head. -/
theorem C26_remove_folds_witness :
    sizes64.ok ∧ Reach sizes64 heap2 [1200, 1088] ∧
    first_seg heap2.mem heap2.start ≠ 1200 - sizes64.HS ∧
    predTail sizes64 heap2.mem 1200 = 1104 ∧ mergedFree sizes64 heap2.mem 1200 = 3984 ∧
    (∃ s1, free sizes64 heap2 1200 = .ok s1 ∧
      (∃ cut, s1.brk + cut = heap2.brk ∧
        free_following s1.mem (predTail sizes64 heap2.mem 1200) + cut =
          mergedFree sizes64 heap2.mem 1200) ∧
      next_seg_head s1.mem (predTail sizes64 heap2.mem 1200) =
        succHead sizes64 heap2.mem 1200) ∧
    first_seg heap2.mem heap2.start = 1088 - sizes64.HS ∧
    prev_seg_tail heap2.mem (1088 - sizes64.HS) ≠ next_seg_tail heap2.mem (1088 - sizes64.HS) ∧
    succHead sizes64 heap2.mem 1088 = 1152 ∧
    (∃ s1, free sizes64 heap2 1088 = .ok s1 ∧
      first_seg s1.mem s1.start = succHead sizes64 heap2.mem 1088 ∧ s1.brk = heap2.brk) :=
  ⟨by decide, reach_heap2, by decide, by decide, by decide,
    (match C26_remove_folds sizes64 (by decide) heap2 [1200, 1088] reach_heap2 1200
      (by decide) with
    | ⟨s1, h1, h2, _⟩ => ⟨s1, h1, (h2 (by decide)).1, (h2 (by decide)).2.1⟩),
    by decide, by decide, by decide,
    (match C26_remove_folds sizes64 (by decide) heap2 [1200, 1088] reach_heap2 1088
      (by decide) with
    | ⟨s1, h1, _, h3⟩ =>
      ⟨s1, h1, (h3 (by decide) (by decide)).1, (h3 (by decide) (by decide)).2.2.2.2.1⟩)⟩

/-- The claim C26 fails when the new initial gap reaches `2^31` bytes.  On `heapQ`,
left by `malloc(2^30)`, `malloc(2^30)`, `malloc(1)` and `free(1088)` on a process
whose break may rise to `2^40`, the blocks `1073743008` and `2147484928` lie behind
an initial gap of `2^30 + 96` bytes.  The block `1073743008` is the first of
several; its successor head `2147484880` lies `2^31 + 192` bytes behind the header.
`free(1073743008)` does not return with that head as `first`: the last `ASSERT` of
`remove_segment` compares the distance with its value as an `int`, which is
negative, and the process aborts. -/
theorem C26_counterexample :
    first_seg heapQ.mem heapQ.start = 1073743008 - sizes64.HS ∧
    prev_seg_tail heapQ.mem (1073743008 - sizes64.HS) ≠
      next_seg_tail heapQ.mem (1073743008 - sizes64.HS) ∧
    succHead sizes64 heapQ.mem 1073743008 = 2147484880 ∧
    2147484880 - (heapQ.start + sizes64.LS) = 2147483840 ∧
    toInt32 ((2147483840 : Nat) : Int) = -2147483456 ∧
    free sizes64 heapQ 1073743008 = .error Stop.assertion :=
  ⟨by decide, by decide, by decide, by decide, by decide, rfl⟩

/-! ## What `add_entry` records -/

theorem round_up_math (n : Nat) (h : n + 16 ≤ 18446744073709551616) :
    round_up n ALIGNMENT = (n + 15) / 16 * 16 := by
  unfold round_up ALIGNMENT
  simp only [show (16:Nat) ≠ 0 by decide, if_false]
  split <;> omega

/-- Every gap of a directory is shorter than `2^31` bytes. -/
theorem gap_small (c : Sizes) (s : Heap) (bs : List Blk) (hinv : Inv c s bs) :
    ∀ g ∈ gapsOf c s.start (end_addr s.mem s.start) bs, g.2 < 2147483648 := by
  obtain ⟨b1, b2, b3, b4, b5, b6⟩ := Inv_bounds c s bs hinv
  intro g hg
  unfold gapsOf at hg
  rcases List.mem_cons.mp hg with e | e
  · rw [e]
    show hdOr bs (end_addr s.mem s.start) - (s.start + c.LS) < _
    omega
  · obtain ⟨b, hb, e2⟩ := List.mem_map.mp e
    rw [← e2]
    show b.ff < _
    obtain ⟨k1, k2, -⟩ := Inv_mem_lo c s bs b hinv hb
    have t1 : b.nx c = b.tl c + c.TS + b.ff := rfl
    have t2 := Blk.tl_ge c b
    omega

theorem add_entry_jp2 (c : Sizes) (u : Nat) (s1 : Heap) (y : Nat × Heap)
    (h : (match y with
      | (new_seg, s1) =>
        if new_seg ≠ 0 then
          let s2 := set_last_addr s1 (next_seg_tail s1.mem new_seg)
          (pure (new_seg + c.HS, s2) : Except Stop (Nat × Heap))
        else pure (0, s1)) = .ok (u, s1)) :
    (u = 0 ∧ y.1 = 0) ∨
      (y.1 ≠ 0 ∧ u = y.1 + c.HS ∧ s1 = set_last_addr y.2 (next_seg_tail y.2.mem y.1)) := by
  obtain ⟨n, s2⟩ := y
  dsimp only at h ⊢
  by_cases hn : n = 0
  · rw [if_neg (by simpa using hn)] at h
    exact Or.inl ⟨(Prod.mk.inj (Except.ok.inj h)).1.symm, hn⟩
  · rw [if_pos hn] at h
    have := Prod.mk.inj (Except.ok.inj h)
    exact Or.inr ⟨hn, this.1.symm, this.2.symm⟩

/-- A non-null address returned by `add_entry` is the first byte behind the head at
`addr`, and the cursor is then the tail that the head at `addr` names. -/
theorem add_entry_last (c : Sizes) (s s1 : Heap) (addr size u : Nat)
    (h : add_entry c s addr size = .ok (u, s1)) (hu : u ≠ 0) :
    u = addr + c.HS ∧ s1.last_addr = next_seg_tail s1.mem addr := by
  have key : ∀ y : Nat × Heap, (y.1 = addr ∨ y.1 = 0) →
      (match y with
      | (new_seg, s1) =>
        if new_seg ≠ 0 then
          let s2 := set_last_addr s1 (next_seg_tail s1.mem new_seg)
          (pure (new_seg + c.HS, s2) : Except Stop (Nat × Heap))
        else pure (0, s1)) = .ok (u, s1) →
      u = addr + c.HS ∧ s1.last_addr = next_seg_tail s1.mem addr := by
    intro y hy hj
    rcases add_entry_jp2 c u s1 y hj with ⟨e, -⟩ | ⟨e1, e2, e3⟩
    · exact absurd e hu
    · rcases hy with k | k
      · rw [k] at e2 e3
        refine ⟨e2, ?_⟩
        rw [e3]
        rfl
      · exact absurd k e1
  unfold add_entry at h
  split at h
  · exact absurd (Prod.mk.inj (Except.ok.inj h)).1.symm hu
  · obtain ⟨-, h⟩ := ASSERT_ok_of _ _ _ h
    obtain ⟨-, h⟩ := ASSERT_ok_of _ _ _ h
    dsimp only at h
    split at h
    · obtain ⟨prev, -, h⟩ := bind_ok_of _ _ _ h
      split at h
      · obtain ⟨y, hy, h⟩ := bind_ok_of _ _ _ h
        obtain ⟨n, s2⟩ := y
        exact key (n, s2) (Or.inl (add_entry_front_ret c _ _ _ _ _ _ _ hy)) h
      · obtain ⟨y, hy, h⟩ := bind_ok_of _ _ _ h
        obtain ⟨n, s2⟩ := y
        exact key (n, s2) (Or.inl (add_entry_after_ret c _ _ _ _ _ _ _ _ hy)) h
    · obtain ⟨y, hy, h⟩ := bind_ok_of _ _ _ h
      obtain ⟨n, s2⟩ := y
      exact key (n, s2) (add_entry_empty_ret c _ _ _ _ _ _ _ hy) h

/-- Claim C27: whichever policy is selected, a non-null address returned by
`add_entry(addr, s)` is `addr + sizeof(head)` and the cursor is then the tail named
by the head at `addr`.  On a reachable state with a directory, for every gap of the
directory that holds the footprint `sizeof(head) + roundup(s, A) + sizeof(tail)`
of a positive size `s`, `add_entry` at the first byte `addr` of the gap returns
`addr + sizeof(head)`, the size recorded in the head and read back for the returned
address is `s`, and the tail and the cursor are
`addr + sizeof(head) + roundup(s, A)`.  The same holds for the block that a
returned `malloc` places. -/
theorem C27_insert_records (c : Sizes) (hc : c.ok) (s : Heap) (L : List Nat)
    (h : Reach c s L) (strat : Strat) :
    (∀ addr size u s1, add_entry c (set_alloc_function s strat) addr size = .ok (u, s1) →
      u ≠ 0 → u = addr + c.HS ∧ s1.last_addr = next_seg_tail s1.mem addr) ∧
    (s.start ≠ 0 → ∀ g ∈ gapList c s.mem s.start L.length, ∀ size, 0 < size →
      c.HS + (size + 15) / 16 * 16 + c.TS ≤ g.2 →
      ∃ s1, add_entry c (set_alloc_function s strat) g.1 size = .ok (g.1 + c.HS, s1) ∧
        seg_size s1.mem g.1 = size ∧ get_segment_size c s1.mem (g.1 + c.HS) = size ∧
        next_seg_tail s1.mem g.1 = g.1 + c.HS + (size + 15) / 16 * 16 ∧
        s1.last_addr = g.1 + c.HS + (size + 15) / 16 * 16 ∧
        s1.g_alloc_function = strat) ∧
    (∀ fuel size u s1, size < I31 → footprint c size < I31 →
      malloc c fuel (set_alloc_function s strat) size = .ok (u, s1) → u ≠ 0 →
      get_segment_size c s1.mem u = size ∧
      next_seg_tail s1.mem (u - c.HS) = u + round_up size ALIGNMENT ∧
      s1.last_addr = u + round_up size ALIGNMENT ∧ s1.g_alloc_function = strat) := by
  have hr := Reach.step_select s L strat h
  refine ⟨?_, ?_, ?_⟩
  · intro addr size u s1 hrun hu
    exact add_entry_last c _ s1 addr size u hrun hu
  · intro h0 g hg size hsz hfit
    obtain ⟨bs, hpub, hinv, hL, hlen, hgl⟩ := reach_dir c hc _ L hr h0
    have hg2 : g ∈ gapsOf c s.start (end_addr s.mem s.start) bs := by
      have : gapList c s.mem s.start L.length =
          gapsOf c s.start (end_addr s.mem s.start) bs := hgl
      rw [← this]
      exact hg
    have hsmall := gap_small c _ bs hinv g hg2
    have c5 := hc.2.2.2.2.1
    have hsz2 : size < 2147483648 := by omega
    have hru := round_up_math size (by omega)
    have hfp : footprint c size ≤ g.2 := by
      unfold footprint
      rw [hru]
      exact hfit
    obtain ⟨M, nw, bs1, hrun, hinv1, e3, e4, e5, -⟩ := alloc_hit c _ bs size g.1 hinv hsz hsz2
      ⟨g, hg2, rfl, hfp⟩
    have hnw := Placed_mem c _ _ _ _ _ e5
    obtain ⟨A, B, hAB⟩ := List.append_of_mem hnw
    rw [hAB] at hinv1
    obtain ⟨f1, f2, -⟩ := Inv_fields c _ A B nw hinv1
    dsimp only at f1 f2
    have t1 : nw.user c = nw.h + c.HS := rfl
    have t2 : nw.tl c = nw.h + c.HS + round_up nw.sz ALIGNMENT := rfl
    rw [t1, e4] at hrun
    rw [e4] at f1 f2 t2
    rw [e3] at f1 t2
    rw [hru] at t2
    refine ⟨_, hrun, f1, ?_, ?_, ?_, rfl⟩
    · show seg_size M (g.1 + c.HS - c.HS) = size
      rw [Nat.add_sub_cancel]
      exact f1
    · rw [f2]
      exact t2
    · show nw.tl c = _
      exact t2
  · intro fuel size u s1 h2 hfp hrun hu
    obtain ⟨bs, hpub, -⟩ := reach_pub c hc _ L hr
    rcases malloc_pub c _ s1 bs size fuel u hpub hfp h2 hrun with ⟨e1, -⟩ |
      ⟨nw, bs1, e1, e2, e3, e4, e5, e6, e7, e8, e9, -⟩
    · exact absurd e1 hu
    · have hnw := Placed_mem c _ _ _ _ _ e6
      obtain ⟨r1, r2, r3, -⟩ := Pub_read c s1 bs1 nw e3 hnw
      obtain ⟨-, -, -, -, -, -, k7, -⟩ := Pub_blk c s1 bs1 nw e3 hnw
      have t2 : nw.tl c = nw.user c + round_up nw.sz ALIGNMENT := rfl
      rw [e4] at t2 k7
      rw [e1]
      refine ⟨k7, ?_, ?_, e9⟩
      · rw [r1, r3]
        exact t2
      · rw [e8]
        exact t2

/-- Claim C27 on the state after `malloc(1)` under best fit, at the gap of `3984`
bytes that starts at `1152`, for the size `100`: `add_entry` returns `1200`,
records the size `100` and puts the tail and the cursor at `1312`. -/
theorem C27_insert_records_witness :
    sizes64.ok ∧ Reach sizes64 heap1 [1088] ∧ heap1.start ≠ 0 ∧
    (1152, 3984) ∈ gapList sizes64 heap1.mem heap1.start [1088].length ∧ 0 < 100 ∧
    sizes64.HS + (100 + 15) / 16 * 16 + sizes64.TS ≤ 3984 ∧
    ∃ s1, add_entry sizes64 (set_alloc_function heap1 Strat.BEST_FIT) 1152 100 =
        .ok (1200, s1) ∧
      seg_size s1.mem 1152 = 100 ∧ get_segment_size sizes64 s1.mem 1200 = 100 ∧
      next_seg_tail s1.mem 1152 = 1312 ∧ s1.last_addr = 1312 ∧
      s1.g_alloc_function = Strat.BEST_FIT :=
  ⟨by decide, reach_heap1, by decide, by decide, by decide, by decide,
    (C27_insert_records sizes64 (by decide) heap1 [1088] reach_heap1 Strat.BEST_FIT).2.1
      (by decide) (1152, 3984) (by decide) 100 (by decide) (by decide)⟩

/-! ## `add_entry` on a gap that is too small -/

theorem ASSERT_fail_bind {β : Type} (p : Prop) [Decidable p] (f : Unit → Except Stop β)
    (h : ¬ p) : (ASSERT p >>= f) = .error Stop.assertion := by
  rw [ASSERT_fail p h]
  rfl

theorem new_size_eq (c : Sizes) (size : Nat) (hfp : footprint c size < 2147483648) :
    toInt32 (((round_up size ALIGNMENT + c.HS + c.TS) % 18446744073709551616 : Nat) : Int) =
      ((footprint c size : Nat) : Int) := by
  have e : round_up size ALIGNMENT + c.HS + c.TS = footprint c size := by
    unfold footprint; omega
  rw [e, Nat.mod_eq_of_lt (by omega), toInt32_nat _ hfp]

/-- With less room than the footprint between `addr` and `end`, `add_entry` stops
at its first assertion. -/
theorem add_entry_end_abort (c : Sizes) (s : Heap) (bs : List Blk) (addr size : Nat)
    (hinv : Inv c s bs) (hfp : footprint c size < 2147483648)
    (hend : end_addr s.mem s.start < addr + footprint c size) :
    add_entry c s addr size = .error Stop.assertion := by
  obtain ⟨b1, b2, b3, b4, b5, b6⟩ := Inv_bounds c s bs hinv
  have hle : s.start + c.LS ≤ end_addr s.mem s.start := by omega
  unfold add_entry
  rw [if_neg (by omega)]
  dsimp only
  rw [new_size_eq c size hfp]
  exact ASSERT_fail_bind _ _ (by omega)

theorem error_bind {α β : Type} (e : Stop) (f : α → Except Stop β) :
    ((Except.error e : Except Stop α) >>= f) = .error e := rfl

/-- In the gap in front of the first block, with less room than the footprint
between `addr` and the first head, `add_entry` stops at an assertion. -/
theorem add_entry_front_abort (c : Sizes) (s : Heap) (bs : List Blk) (addr size : Nat)
    (hinv : Inv c s bs) (hfp : footprint c size < 2147483648)
    (h1 : s.start + c.LS ≤ addr) (h2 : addr < first_seg s.mem s.start)
    (h3 : first_seg s.mem s.start < addr + footprint c size)
    (h4 : addr + footprint c size ≤ end_addr s.mem s.start) :
    add_entry c s addr size = .error Stop.assertion := by
  obtain ⟨b1, b2, b3, b4, b5, b6⟩ := Inv_bounds c s bs hinv
  have hfirst : first_seg s.mem s.start = hdOr bs 0 := hinv.2.2.2.2.2.2.2.2.2.2.2.1
  have hf0 : first_seg s.mem s.start ≠ 0 := by omega
  have hfe : first_seg s.mem s.start ≤ end_addr s.mem s.start := by
    rw [hfirst]
    cases bs with
    | nil => rw [hfirst] at hf0; exact absurd rfl hf0
    | cons b r => exact b3
  have hgp := get_prev_reference_run_front c s.mem s.start addr (end_addr s.mem s.start)
    (first_seg s.mem s.start) rfl rfl hf0 h1 (by omega) h2 b6
  unfold add_entry
  rw [if_neg (by omega)]
  dsimp only
  rw [new_size_eq c size hfp, ASSERT_bind _ _ (by omega), ASSERT_bind _ _ (by omega),
    if_pos hf0, hgp, ok_bind, if_pos rfl]
  unfold add_entry_front
  dsimp only
  rw [toInt32_sub _ _ h1 (by omega), toInt32_sub _ _ (by omega) (by omega),
    ASSERT_bind _ _ (by omega), ASSERT_fail_bind _ _ (by omega)]
  rfl

/-- At the first byte behind the tail of a block whose gap is shorter than the
footprint, `add_entry` stops at an assertion. -/
theorem add_entry_after_abort (c : Sizes) (s : Heap) (bs : List Blk) (x : Blk) (size : Nat)
    (hinv : Inv c s bs) (hx : x ∈ bs) (hfp : footprint c size < 2147483648)
    (h3 : x.ff < footprint c size)
    (h4 : x.tl c + c.TS + footprint c size ≤ end_addr s.mem s.start) :
    add_entry c s (x.tl c + c.TS) size = .error Stop.assertion := by
  obtain ⟨b1, b2, b3, b4, b5, b6⟩ := Inv_bounds c s bs hinv
  obtain ⟨k1, k2, k3⟩ := Inv_mem_lo c s bs x hinv hx
  obtain ⟨A, B, hAB⟩ := List.append_of_mem hx
  have hinv0 := hinv
  rw [hAB] at hinv0
  obtain ⟨f1, f2, f3, f4, -⟩ := Inv_fields c s A B x hinv0
  obtain ⟨m1, m2, -⟩ := Inv_first c s bs hinv
  have hfx := m2 x hx
  rw [← m1] at hfx
  have hc := hinv.1
  have c5 := hc.2.2.2.2.1
  have c6 := hc.2.2.2.2.2.1
  have htl := Blk.tl_ge c x
  have hne : bs ≠ [] := fun e => by rw [e] at hx; cases hx
  have hlo : s.start + c.LS ≤ first_seg s.mem s.start := by
    rw [m1, hdOr_ne bs hne 0 (end_addr s.mem s.start)]
    exact b2
  have hf0 : first_seg s.mem s.start ≠ 0 := by omega
  have hgp := get_prev_reference_run_after c s.mem s.start (end_addr s.mem s.start)
    (first_seg s.mem s.start) (x.tl c) x.h rfl rfl hf0 f3
    (by omega) (by omega) (by omega)
  have hff : x.ff < 2147483648 := by omega
  unfold add_entry
  rw [if_neg (by omega)]
  dsimp only
  rw [new_size_eq c size hfp, ASSERT_bind _ _ (by omega), ASSERT_bind _ _ (by omega),
    if_pos hf0, hgp, ok_bind, if_neg (by omega)]
  unfold add_entry_after
  dsimp only
  rw [f2, f4, Int.sub_self, toInt32_zero, toInt32_nat _ hff, ASSERT_bind _ _ (le_refl _),
    ASSERT_bind _ _ (le_refl _), ASSERT_fail_bind _ _ (by omega)]
  rfl

theorem add_entry_empty_null (c : Sizes) (s s1 : Heap) (addr size eff : Nat) (ns : Int)
    (h : add_entry_empty c s addr size eff ns = .ok (0, s1)) :
    addr = 0 ∨ ¬ (toInt32 ((end_addr s.mem s.start : Int) - (s.start + c.LS : Nat)) -
      toInt32 ((addr : Int) - (s.start + c.LS : Nat)) ≥ ns) := by
  unfold add_entry_empty at h
  obtain ⟨-, h⟩ := ASSERT_ok_of _ _ _ h
  dsimp only at h
  by_cases hcond : toInt32 ((end_addr s.mem s.start : Int) - (s.start + c.LS : Nat)) -
      toInt32 ((addr : Int) - (s.start + c.LS : Nat)) ≥ ns
  · rw [if_pos hcond] at h
    obtain ⟨-, h⟩ := ASSERT_ok_of _ _ _ h
    obtain ⟨-, h⟩ := ASSERT_ok_of _ _ _ h
    obtain ⟨-, h⟩ := ASSERT_ok_of _ _ _ h
    obtain ⟨-, h⟩ := ASSERT_ok_of _ _ _ h
    exact Or.inl (Prod.mk.inj (Except.ok.inj h)).1
  · exact Or.inr hcond

theorem add_entry_jp_null (c : Sizes) (s1 : Heap) (y : Nat × Heap) (hc : 0 < c.HS)
    (h : (match y with
      | (new_seg, s1) =>
        if new_seg ≠ 0 then
          let s2 := set_last_addr s1 (next_seg_tail s1.mem new_seg)
          (pure (new_seg + c.HS, s2) : Except Stop (Nat × Heap))
        else pure (0, s1)) = .ok (0, s1)) : y.1 = 0 := by
  rcases add_entry_jp2 c 0 s1 y h with ⟨-, e⟩ | ⟨-, e, -⟩
  · exact e
  · omega

/-- On an initialised directory and for a footprint below `2^31`, `add_entry` does
not return null. -/
theorem add_entry_not_null (c : Sizes) (s s1 : Heap) (bs : List Blk) (addr size : Nat)
    (hinv : Inv c s bs) (hfp : footprint c size < 2147483648)
    (h : add_entry c s addr size = .ok (0, s1)) : False := by
  obtain ⟨b1, b2, b3, b4, b5, b6⟩ := Inv_bounds c s bs hinv
  have hle : s.start + c.LS ≤ end_addr s.mem s.start := by omega
  have hHS : 0 < c.HS := by have := hinv.1.2.2.2.2.1; omega
  unfold add_entry at h
  rw [if_neg (by omega)] at h
  dsimp only at h
  rw [new_size_eq c size hfp] at h
  obtain ⟨a1, h⟩ := ASSERT_ok_of _ _ _ h
  obtain ⟨a2, h⟩ := ASSERT_ok_of _ _ _ h
  split at h
  · obtain ⟨prev, -, h⟩ := bind_ok_of _ _ _ h
    split at h
    · obtain ⟨y, hy, h⟩ := bind_ok_of _ _ _ h
      have e := add_entry_jp_null c s1 y hHS h
      obtain ⟨n, s2⟩ := y
      have := add_entry_front_ret c _ _ _ _ _ _ _ hy
      dsimp only at e
      omega
    · obtain ⟨y, hy, h⟩ := bind_ok_of _ _ _ h
      have e := add_entry_jp_null c s1 y hHS h
      obtain ⟨n, s2⟩ := y
      have := add_entry_after_ret c _ _ _ _ _ _ _ _ hy
      dsimp only at e
      omega
  · obtain ⟨y, hy, h⟩ := bind_ok_of _ _ _ h
    have e := add_entry_jp_null c s1 y hHS h
    obtain ⟨n, s2⟩ := y
    dsimp only at e
    rw [e] at hy
    rcases add_entry_empty_null c _ _ _ _ _ _ hy with e2 | e2
    · omega
    · apply e2
      rw [toInt32_sub _ _ hle (by omega), toInt32_sub _ _ a2 (by omega)]
      omega

/-- Claim C28, as the code has it: on a reachable state with a directory and for a
size `s` below `2^31` whose footprint `sizeof(head) + roundup(s, A) + sizeof(tail)`
is below `2^31`, `add_entry(addr, s)` never returns null.  When the room from
`addr` is smaller than the footprint the call stops at a failed `ASSERT`: for every
`addr` with `addr + footprint` above `end`; for every `addr` in the gap in front of
the first block with the first head below `addr + footprint`; and at the first byte
behind the tail of every live block whose gap is smaller than the footprint. -/
theorem C28_insert_small_gap (c : Sizes) (hc : c.ok) (s : Heap) (L : List Nat)
    (h : Reach c s L) (h0 : s.start ≠ 0) (size : Nat) (hsz : size < I31)
    (hfp : footprint c size < I31) :
    (∀ addr s1, add_entry c s addr size ≠ .ok (0, s1)) ∧
    (∀ addr, end_addr s.mem s.start < addr + footprint c size →
      add_entry c s addr size = .error Stop.assertion) ∧
    (∀ addr, s.start + c.LS ≤ addr → addr < first_seg s.mem s.start →
      first_seg s.mem s.start < addr + footprint c size →
      add_entry c s addr size = .error Stop.assertion) ∧
    (∀ u ∈ L, free_following s.mem (next_seg_tail s.mem (u - c.HS)) < footprint c size →
      add_entry c s (next_seg_tail s.mem (u - c.HS) + c.TS) size =
        .error Stop.assertion) := by
  obtain ⟨bs, hpub, hinv, hL, hlen, hgl⟩ := reach_dir c hc s L h h0
  refine ⟨?_, ?_, ?_, ?_⟩
  · intro addr s1 hrun
    exact add_entry_not_null c s s1 bs addr size hinv hfp hrun
  · intro addr hend
    exact add_entry_end_abort c s bs addr size hinv hfp hend
  · intro addr h1 h2 h3
    by_cases hend : end_addr s.mem s.start < addr + footprint c size
    · exact add_entry_end_abort c s bs addr size hinv hfp hend
    · exact add_entry_front_abort c s bs addr size hinv hfp h1 h2 h3 (by omega)
  · intro u hu hsmall
    obtain ⟨x, hx, e⟩ := List.mem_map.mp ((hL.mem_iff).mp hu)
    obtain ⟨A, B, hAB⟩ := List.append_of_mem hx
    have hinv0 := hinv
    rw [hAB] at hinv0
    obtain ⟨f1, f2, f3, f4, -⟩ := Inv_fields c s A B x hinv0
    have e1 : u - c.HS = x.h := by
      rw [← e]
      show x.h + c.HS - c.HS = x.h
      omega
    rw [e1, f2] at hsmall ⊢
    rw [f4] at hsmall
    by_cases hend : end_addr s.mem s.start < x.tl c + c.TS + footprint c size
    · exact add_entry_end_abort c s bs _ size hinv hfp hend
    · exact add_entry_after_abort c s bs x size hinv hx hfp hsmall (by omega)

/-- Claim C28 on the state after two `malloc(1)` calls, for the size `5000`: no
call of `add_entry` returns null, and the calls at `1300` (beyond the room up to
`end`) and behind the tail of the block at `1200` stop at an assertion. -/
theorem C28_insert_small_gap_witness :
    sizes64.ok ∧ Reach sizes64 heap2 [1200, 1088] ∧ heap2.start ≠ 0 ∧ 5000 < I31 ∧
    footprint sizes64 5000 < I31 ∧
    (∀ addr s1, add_entry sizes64 heap2 addr 5000 ≠ .ok (0, s1)) ∧
    (∀ addr, end_addr heap2.mem heap2.start < addr + footprint sizes64 5000 →
      add_entry sizes64 heap2 addr 5000 = .error Stop.assertion) ∧
    (∀ addr, heap2.start + sizes64.LS ≤ addr → addr < first_seg heap2.mem heap2.start →
      first_seg heap2.mem heap2.start < addr + footprint sizes64 5000 →
      add_entry sizes64 heap2 addr 5000 = .error Stop.assertion) ∧
    (∀ u ∈ [1200, 1088],
      free_following heap2.mem (next_seg_tail heap2.mem (u - sizes64.HS)) <
        footprint sizes64 5000 →
      add_entry sizes64 heap2 (next_seg_tail heap2.mem (u - sizes64.HS) + sizes64.TS) 5000 =
        .error Stop.assertion) :=
  ⟨by decide, reach_heap2, by decide, by decide, by decide,
    C28_insert_small_gap sizes64 (by decide) heap2 [1200, 1088] reach_heap2 (by decide) 5000
      (by decide) (by decide)⟩

/-- The claim C28 fails on the state after `malloc(1)`: the gap behind the block
`1088` starts at `1152` and has `3984` bytes, the footprint of the size `4000` is
`4096`, and `add_entry(1152, 4000)` does not return null but stops at a failed
`ASSERT`.  In an arena of `2^31` bytes `add_entry` behaves differently: on the
directory without blocks that `malloc(2^31 - 200)` leaves on a process whose break
may rise to `2^40`, the size `2^31` of the only gap is negative as an `int`, and
`add_entry(1040, s)` returns null with the state as it was both for
`s = 2^31 - 200`, whose footprint `2^31 - 96` fits the gap, and for `s = 2^31`,
whose footprint `2^31 + 96` does not. -/
theorem C28_counterexample :
    (Reach sizes64 heap1 [1088] ∧
      gapList sizes64 heap1.mem heap1.start 1 = [(1040, 0), (1152, 3984)] ∧
      sizes64.HS + (4000 + 15) / 16 * 16 + sizes64.TS = 4096 ∧
      add_entry sizes64 heap1 1152 4000 = .error Stop.assertion) ∧
    (malloc sizes64 10 heapV 2147483448 = .ok (0, heapR) ∧
      gapList sizes64 heapR.mem heapR.start 0 = [(1040, 2147483648)] ∧
      toInt32 ((2147483648 : Nat) : Int) = -2147483648 ∧
      footprint sizes64 2147483448 = 2147483552 ∧
      add_entry sizes64 heapR 1040 2147483448 = .ok (0, heapR) ∧
      footprint sizes64 2147483648 = 2147483744 ∧
      add_entry sizes64 heapR 1040 2147483648 = .ok (0, heapR)) :=
  ⟨⟨reach_heap1, by decide, by decide, rfl⟩,
    ⟨rfl, by decide, by decide, by decide, rfl, by decide, rfl⟩⟩

/-! ## `get_prev_reference` -/

theorem get_prev_reference_run_empty (c : Sizes) (m : Mem) (l addr : Nat)
    (hf : first_seg m l = 0) (h1 : l + c.LS ≤ addr) (h2 : addr < end_addr m l)
    (hLS : 16 ≤ c.LS) : get_prev_reference c m l addr = .ok l := by
  unfold get_prev_reference
  rw [ASSERT_bind _ _ h2, ASSERT_bind _ _ h1, if_pos hf, ASSERT_bind _ _ (by omega)]
  rfl

theorem get_prev_reference_run_read (c : Sizes) (m : Mem) (l addr : Nat)
    (hf : first_seg m l ≠ 0) (h1 : l + c.LS ≤ addr) (h2 : addr < end_addr m l)
    (h3 : first_seg m l ≤ addr) :
    get_prev_reference c m l addr = .ok (prev_seg_head m (addr - c.TS)) := by
  unfold get_prev_reference
  rw [ASSERT_bind _ _ h2, ASSERT_bind _ _ h1, if_neg hf, if_neg (by omega)]
  rfl

/-- Claim C29, as the code has it: on a reachable state with a directory,
`get_prev_reference(addr)` returns the header address for every `addr` from
`base + sizeof(header)` up to `end` that lies in front of the first block or in an
arena without blocks, at every offset; it returns the head of a live block when
`addr` is the first byte behind the tail of that block; and for every other `addr`
from the first head on it returns the eight bytes read at `addr - sizeof(tail)` as
the field `prev_seg_head` of a tail. -/
theorem C29_prev_reference (c : Sizes) (hc : c.ok) (s : Heap) (L : List Nat)
    (h : Reach c s L) (h0 : s.start ≠ 0) :
    (∀ addr, s.start + c.LS ≤ addr → addr < end_addr s.mem s.start →
      (first_seg s.mem s.start = 0 ∨ addr < first_seg s.mem s.start) →
      get_prev_reference c s.mem s.start addr = .ok s.start) ∧
    (∀ u ∈ L, next_seg_tail s.mem (u - c.HS) + c.TS < end_addr s.mem s.start →
      get_prev_reference c s.mem s.start (next_seg_tail s.mem (u - c.HS) + c.TS) =
        .ok (u - c.HS)) ∧
    (∀ addr, s.start + c.LS ≤ addr → addr < end_addr s.mem s.start →
      first_seg s.mem s.start ≠ 0 → first_seg s.mem s.start ≤ addr →
      get_prev_reference c s.mem s.start addr = .ok (prev_seg_head s.mem (addr - c.TS))) := by
  obtain ⟨bs, hpub, hinv, hL, hlen, hgl⟩ := reach_dir c hc s L h h0
  obtain ⟨b1, b2, b3, b4, b5, b6⟩ := Inv_bounds c s bs hinv
  refine ⟨?_, ?_, ?_⟩
  · intro addr h1 h2 h3
    by_cases hf : first_seg s.mem s.start = 0
    · exact get_prev_reference_run_empty c s.mem s.start addr hf h1 h2 b6
    · rcases h3 with h3 | h3
      · exact absurd h3 hf
      · exact get_prev_reference_run_front c s.mem s.start addr (end_addr s.mem s.start)
          (first_seg s.mem s.start) rfl rfl hf h1 h2 h3 b6
  · intro u hu hend
    obtain ⟨x, hx, e⟩ := List.mem_map.mp ((hL.mem_iff).mp hu)
    obtain ⟨A, B, hAB⟩ := List.append_of_mem hx
    have hinv0 := hinv
    rw [hAB] at hinv0
    obtain ⟨f1, f2, f3, f4, -⟩ := Inv_fields c s A B x hinv0
    have e1 : u - c.HS = x.h := by
      rw [← e]
      show x.h + c.HS - c.HS = x.h
      omega
    rw [e1, f2] at hend ⊢
    obtain ⟨k1, k2, k3⟩ := Inv_mem_lo c s bs x hinv hx
    obtain ⟨m1, m2, -⟩ := Inv_first c s bs hinv
    have hfx := m2 x hx
    rw [← m1] at hfx
    have htl := Blk.tl_ge c x
    have hne : bs ≠ [] := fun e => by rw [e] at hx; cases hx
    have hlo : s.start + c.LS ≤ first_seg s.mem s.start := by
      rw [m1, hdOr_ne bs hne 0 (end_addr s.mem s.start)]
      exact b2
    have hf0 : first_seg s.mem s.start ≠ 0 := by omega
    exact get_prev_reference_run_after c s.mem s.start (end_addr s.mem s.start)
      (first_seg s.mem s.start) (x.tl c) x.h rfl rfl hf0 f3 (by omega) hend (by omega)
  · intro addr h1 h2 h3 h4
    exact get_prev_reference_run_read c s.mem s.start addr h3 h1 h2 h4

theorem reach_heapT : Reach sizes64 heapT [1312, 1088] :=
  Reach.step_free (after (after heap1 (malloc sizes64 10 heap1 2))
      (malloc sizes64 10 (after heap1 (malloc sizes64 10 heap1 2)) 1)) heapT
    [1312, 1200, 1088] 1200
    (Reach.step_malloc (after heap1 (malloc sizes64 10 heap1 2)) _ [1200, 1088] 10 1 1312
      (Reach.step_malloc heap1 _ [1088] 10 2 1200 reach_heap1 (by decide) (by decide) rfl)
      (by decide) (by decide) rfl)
    (by decide) rfl

/-- Claim C29 on the state after `malloc(1)`, `malloc(2)`, `malloc(1)` and
`free(1200)`: at the first byte `1152` behind the tail of the block `1088` the
result is its head `1040`, and at the first byte `1376` behind the tail of the
block `1312` it is the head `1264`. -/
theorem C29_prev_reference_witness :
    sizes64.ok ∧ Reach sizes64 heapT [1312, 1088] ∧ heapT.start ≠ 0 ∧
    next_seg_tail heapT.mem (1088 - sizes64.HS) + sizes64.TS = 1152 ∧
    next_seg_tail heapT.mem (1312 - sizes64.HS) + sizes64.TS = 1376 ∧
    get_prev_reference sizes64 heapT.mem heapT.start
      (next_seg_tail heapT.mem (1088 - sizes64.HS) + sizes64.TS) = .ok (1088 - sizes64.HS) ∧
    get_prev_reference sizes64 heapT.mem heapT.start
      (next_seg_tail heapT.mem (1312 - sizes64.HS) + sizes64.TS) = .ok (1312 - sizes64.HS) :=
  ⟨by decide, reach_heapT, by decide, by decide, by decide,
    (C29_prev_reference sizes64 (by decide) heapT [1312, 1088] reach_heapT (by decide)).2.1
      1088 (by decide) (by decide),
    (C29_prev_reference sizes64 (by decide) heapT [1312, 1088] reach_heapT (by decide)).2.1
      1312 (by decide) (by decide)⟩

/-- The claim C29 fails at a non-zero offset into a gap behind a block.  In the
state of the test `alloc_in_the_middle_between_2_segments`, after `malloc(1)`,
`malloc(2)`, `malloc(1)` returned `1088`, `1200`, `1312` and `free(1200)`, the gap
behind the block `1088` starts at `1152` and has `112` bytes, and the heads of the
live blocks are `1040` and `1264`.  For `addr = 1200 - sizeof(head) + 1 = 1153`,
inside that gap, `get_prev_reference` returns neither the head `1040` of the block
before `addr` nor the header `1008` but the eight bytes read at `1105`; for
`addr = 1200` it returns the tail address `1104`. -/
theorem C29_counterexample :
    Reach sizes64 heapT [1312, 1088] ∧
    gapList sizes64 heapT.mem heapT.start 2 = [(1040, 0), (1152, 112), (1376, 3760)] ∧
    heapT.start = 1008 ∧ end_addr heapT.mem heapT.start = 5136 ∧
    1200 - sizes64.HS + 1 = 1153 ∧
    get_prev_reference sizes64 heapT.mem heapT.start 1152 = .ok 1040 ∧
    get_prev_reference sizes64 heapT.mem heapT.start 1153 = .ok 17293822569102704644 ∧
    get_prev_reference sizes64 heapT.mem heapT.start 1200 = .ok 1104 :=
  ⟨reach_heapT, by decide, by decide, by decide, by decide, rfl, rfl, rfl⟩

/-! ## The frame of the public operations -/

theorem keep_refl (c : Sizes) (s : Heap) (y : Nat) : Untouched c s s y :=
  ⟨rfl, fun _ _ => rfl⟩

/-- A block that both directories hold with the same head and size, and whose
payload bytes are the same in both memories, is untouched. -/
theorem keep_of (c : Sizes) (s s1 : Heap) (bs bs1 : List Blk) (x b1 : Blk)
    (hpub : Pub c s bs) (hpub1 : Pub c s1 bs1) (hx : x ∈ bs) (hb1 : b1 ∈ bs1)
    (eh : b1.h = x.h) (es : b1.sz = x.sz)
    (hpay : ∀ a, x.user c ≤ a → a < x.tl c → s1.mem a = s.mem a) :
    Untouched c s s1 (x.user c) := by
  obtain ⟨-, -, -, hsz, hsz31, -, hg, -⟩ := Pub_blk c s bs x hpub hx
  obtain ⟨-, -, -, -, -, -, hg1, -⟩ := Pub_blk c s1 bs1 b1 hpub1 hb1
  rw [user_congr c b1 x eh, es] at hg1
  have hru := round_up_16 x.sz (by omega)
  have t1 : x.tl c = x.user c + round_up x.sz ALIGNMENT := rfl
  refine ⟨hg1.trans hg.symm, fun i hi => ?_⟩
  rw [hg] at hi
  show s1.mem (x.user c + i) % 256 = s.mem (x.user c + i) % 256
  rw [hpay _ (by omega) (by clear * - hi hru t1; omega)]

theorem malloc_keep (c : Sizes) (s s1 : Heap) (bs : List Blk) (size fuel u : Nat) (x : Blk)
    (hpub : Pub c s bs) (hfp : footprint c size < 2147483648) (hsz2 : size < 2147483648)
    (hrun : malloc c fuel s size = .ok (u, s1)) (hx : x ∈ bs) :
    Untouched c s s1 (x.user c) := by
  rcases malloc_pub c s s1 bs size fuel u hpub hfp hsz2 hrun with
    ⟨-, e⟩ | ⟨nw, bs1, -, -, hpub1, -, -, hpl, hpay, -⟩
  · rw [e]
    exact keep_refl c s _
  · obtain ⟨b1, hb1, eh, es⟩ := Placed_old c _ bs bs1 nw size hpl x hx
    exact keep_of c s s1 bs bs1 x b1 hpub hpub1 hx hb1 eh es (hpay x hx)

theorem calloc_keep (c : Sizes) (s s1 : Heap) (bs : List Blk) (n size fuel u : Nat) (x : Blk)
    (hpub : Pub c s bs) (hfp : footprint c (n * size % 18446744073709551616) < 2147483648)
    (hsz2 : n * size % 18446744073709551616 < 2147483648)
    (hrun : calloc c fuel s n size = .ok (u, s1)) (hx : x ∈ bs) :
    Untouched c s s1 (x.user c) := by
  rcases calloc_pub c s s1 bs n size fuel u hpub hfp hsz2 hrun with
    ⟨-, e⟩ | ⟨nw, bs1, s0, -, -, hpub1, -, -, -, -, hpl, hpay⟩
  · rw [e]
    exact keep_refl c s _
  · obtain ⟨b1, hb1, eh, es⟩ := Placed_old c _ bs bs1 nw _ hpl x hx
    exact keep_of c s s1 bs bs1 x b1 hpub hpub1 hx hb1 eh es (hpay x hx)

theorem free_keep (c : Sizes) (s s1 : Heap) (bs : List Blk) (xp x : Blk)
    (hpub : Pub c s bs) (hp : xp ∈ bs) (hrun : free c s (xp.user c) = .ok s1)
    (hx : x ∈ bs) (hne : x.h ≠ xp.h) : Untouched c s s1 (x.user c) := by
  obtain ⟨s2, bs1, hrun2, hpub1, hrem, hpay, -⟩ := free_pub c s bs xp hpub hp
  rw [hrun] at hrun2
  have e := Except.ok.inj hrun2
  subst e
  obtain ⟨b1, hb1, eh, es⟩ := Removed_old c bs bs1 xp _ _ hrem x hx hne
  refine keep_of c s s1 bs bs1 x b1 hpub hpub1 hx hb1 eh es ?_
  have hp1 := hpay b1 hb1
  rw [user_congr c b1 x eh, tl_congr c b1 x eh es] at hp1
  exact hp1

theorem realloc_keep (c : Sizes) (s s1 : Heap) (bs : List Blk) (xp x : Blk)
    (size fuel u : Nat) (hpub : Pub c s bs) (hp : xp ∈ bs)
    (h2 : size < 2147483648) (hfp : footprint c size < 2147483648)
    (hrun : realloc c fuel s (xp.user c) size = .ok (u, s1))
    (hx : x ∈ bs) (hne : x.h ≠ xp.h) : Untouched c s s1 (x.user c) := by
  by_cases h0 : size = 0
  · unfold realloc at hrun
    rw [if_pos h0] at hrun
    have e := (Prod.mk.inj (Except.ok.inj hrun)).2
    rw [← e]
    exact keep_refl c s _
  have hxne : x ≠ xp := fun e => hne (by rw [e])
  obtain ⟨-, -, hu0, hsz, hsz31, hff, hg, hgap, -⟩ := Pub_blk c s bs xp hpub hp
  obtain ⟨A, B, hAB⟩ := List.append_of_mem hp
  have hpub0 := hpub
  rw [hAB] at hpub
  have hxr : x ∈ A ++ B := mem_rest A B xp x (by rw [← hAB]; exact hx) hxne
  have hin : ∀ x1 : Blk, x ∈ A ++ x1 :: B := fun x1 => by
    simp only [List.mem_append, List.mem_cons] at hxr ⊢
    rcases hxr with h | h
    · exact Or.inl h
    · exact Or.inr (Or.inr h)
  rcases Nat.lt_trichotomy size xp.sz with hlt | heq | hgt
  · obtain ⟨M, r1, r2, r3, -⟩ := realloc_shrink c s A B xp size fuel hpub (by omega) hlt
    rw [hrun] at r1
    obtain ⟨hu1, hs1⟩ := Prod.mk.inj (Except.ok.inj r1)
    subst hu1 hs1
    exact keep_of c s _ bs _ x x hpub0 r2 hx (hin _) rfl rfl (r3 x hxr)
  · subst heq
    have r1 := realloc_same c s bs xp fuel hpub0 hp
    rw [hrun] at r1
    obtain ⟨hu1, hs1⟩ := Prod.mk.inj (Except.ok.inj r1)
    rw [hs1]
    exact keep_refl c s _
  · by_cases hfit : round_up size ALIGNMENT ≤ round_up xp.sz ALIGNMENT + xp.ff
    · obtain ⟨M, r1, r2, r3, -⟩ := realloc_expand c s A B xp size fuel hpub hgt h2 hfit
      rw [hrun] at r1
      obtain ⟨hu1, hs1⟩ := Prod.mk.inj (Except.ok.inj r1)
      subst hu1 hs1
      exact keep_of c s _ bs _ x x hpub0 r2 hx (hin _) rfl rfl (r3 x hxr)
    · rcases realloc_move c s s1 bs xp size fuel u hpub0 hp hgt hfp h2 (by omega) hrun with
        ⟨-, e1⟩ | ⟨nw, bs0, s0, x0, bs1, e1, e2, e3, e4, e5, e6, e7, e8, e9, e10, e11, e12,
          e13, e14, -⟩
      · rw [e1]
        exact keep_refl c s _
      · obtain ⟨b0, hb0, eh0, es0⟩ := Placed_old c _ bs bs0 nw size e6 x hx
        obtain ⟨b1, hb1, eh1, es1⟩ := Removed_old c bs0 bs1 x0 _ _ e12 b0 hb0
          (by rw [eh0, e8]; exact hne)
        exact keep_of c s s1 bs bs1 x b1 hpub0 e11 hx hb1 (eh1.trans eh0) (es1.trans es0)
          (e14 x hx hne)

/-- Claim C30, for sizes in the `int` range: on a reachable state and for every
live block `y`, a returned `malloc(s)` or `calloc(n, s)` whose size and footprint
are below `2^31`, a returned `free(p)` of another live block or of null, and a
returned `realloc(p, s)` of another live block or of null with size and footprint
below `2^31`, leave the recorded size of `y` and all its payload bytes as they
were; and a returned `realloc(y, s)` that resizes `y` in place, returning `y`,
leaves the first `min(old size, s)` payload bytes of `y` as they were. -/
theorem C30_frame (c : Sizes) (hc : c.ok) (s : Heap) (L : List Nat) (h : Reach c s L)
    (y : Nat) (hy : y ∈ L) :
    (∀ fuel size u s1, size < I31 → footprint c size < I31 →
      malloc c fuel s size = .ok (u, s1) → Untouched c s s1 y) ∧
    (∀ fuel n size u s1, n * size % W64 < I31 → footprint c (n * size % W64) < I31 →
      calloc c fuel s n size = .ok (u, s1) → Untouched c s s1 y) ∧
    (∀ p s1, p = 0 ∨ p ∈ L → p ≠ y → free c s p = .ok s1 → Untouched c s s1 y) ∧
    (∀ fuel p size u s1, p = 0 ∨ p ∈ L → p ≠ y → size < I31 → footprint c size < I31 →
      realloc c fuel s p size = .ok (u, s1) → Untouched c s s1 y) ∧
    (∀ fuel size s1, 0 < size → size < I31 → footprint c size < I31 →
      realloc c fuel s y size = .ok (y, s1) →
      ∀ i, i < min (get_segment_size c s.mem y) size →
        read_byte s1.mem (y + i) = read_byte s.mem (y + i)) := by
  obtain ⟨bs, hpub, hL, hget⟩ := reach_blk c hc s L h
  obtain ⟨x, hx, hxu⟩ := hget y hy
  subst hxu
  have hneq : ∀ xp : Blk, xp.user c ≠ x.user c → x.h ≠ xp.h := fun xp hne e =>
    hne (user_congr c xp x e.symm)
  refine ⟨?_, ?_, ?_, ?_, ?_⟩
  · intro fuel size u s1 h2 hfp hrun
    exact malloc_keep c s s1 bs size fuel u x hpub hfp h2 hrun hx
  · intro fuel n size u s1 h2 hfp hrun
    exact calloc_keep c s s1 bs n size fuel u x hpub hfp h2 hrun hx
  · intro p s1 hp hne hrun
    rcases hp with hp | hp
    · subst hp
      unfold free at hrun
      rw [if_pos rfl] at hrun
      have e := Except.ok.inj hrun
      rw [← e]
      exact keep_refl c s _
    · obtain ⟨xp, hxp, e⟩ := hget p hp
      subst e
      exact free_keep c s s1 bs xp x hpub hxp hrun hx (hneq xp hne)
  · intro fuel p size u s1 hp hne h2 hfp hrun
    rcases hp with hp | hp
    · subst hp
      by_cases h0 : size = 0
      · unfold realloc at hrun
        rw [if_pos h0] at hrun
        have e := (Prod.mk.inj (Except.ok.inj hrun)).2
        rw [← e]
        exact keep_refl c s _
      · unfold realloc at hrun
        rw [if_neg h0, if_pos rfl] at hrun
        exact malloc_keep c s s1 bs size fuel u x hpub hfp h2 hrun hx
    · obtain ⟨xp, hxp, e⟩ := hget p hp
      subst e
      exact realloc_keep c s s1 bs xp x size fuel u hpub hxp h2 hfp hrun hx (hneq xp hne)
  · intro fuel size s1 h0 h2 hfp hrun i hi
    obtain ⟨-, -, hu0, -, -, -, hg, -⟩ := Pub_blk c s bs x hpub hx
    rw [hg] at hi
    exact (realloc_bytes c s s1 bs x size fuel (x.user c) hpub hx h0 h2 hfp hrun hu0).1 i
      (by omega)

/-- Claim C30 on the state after two `malloc(1)` calls, for the live block `1088`:
it is untouched by `malloc(100)`, by `calloc(3, 7)`, by `free(1200)` and by
`realloc(1200, 100)`, and `realloc(1088, 10)` in place keeps its first byte. -/
theorem C30_frame_witness :
    sizes64.ok ∧ Reach sizes64 heap2 [1200, 1088] ∧ 1088 ∈ [1200, 1088] ∧
    Untouched sizes64 heap2 (after heap2 (malloc sizes64 10 heap2 100)) 1088 ∧
    Untouched sizes64 heap2 (after heap2 (calloc sizes64 10 heap2 3 7)) 1088 ∧
    Untouched sizes64 heap2 (afterFree heap2 (free sizes64 heap2 1200)) 1088 ∧
    Untouched sizes64 heap2 (after heap2 (realloc sizes64 10 heap2 1200 100)) 1088 ∧
    (∀ i, i < min (get_segment_size sizes64 heap2.mem 1088) 10 →
      read_byte (after heap2 (realloc sizes64 10 heap2 1088 10)).mem (1088 + i) =
        read_byte heap2.mem (1088 + i)) :=
  ⟨by decide, reach_heap2, by decide,
    (C30_frame sizes64 (by decide) heap2 [1200, 1088] reach_heap2 1088 (by decide)).1
      10 100 (ret (malloc sizes64 10 heap2 100)) _ (by decide) (by decide) rfl,
    (C30_frame sizes64 (by decide) heap2 [1200, 1088] reach_heap2 1088 (by decide)).2.1
      10 3 7 (ret (calloc sizes64 10 heap2 3 7)) _ (by decide) (by decide) rfl,
    (C30_frame sizes64 (by decide) heap2 [1200, 1088] reach_heap2 1088 (by decide)).2.2.1
      1200 _ (by decide) (by decide) rfl,
    (C30_frame sizes64 (by decide) heap2 [1200, 1088] reach_heap2 1088 (by decide)).2.2.2.1
      10 1200 100 (ret (realloc sizes64 10 heap2 1200 100)) _ (by decide) (by decide)
      (by decide) (by decide) rfl,
    (C30_frame sizes64 (by decide) heap2 [1200, 1088] reach_heap2 1088 (by decide)).2.2.2.2
      10 10 _ (by decide) (by decide) (by decide) rfl⟩

/-- The claim C30 fails for sizes that wrap.  In place: on the state after
`malloc(1)`, with the live block `1088` of size `1` whose first payload byte is
`0`, `realloc(1088, SIZE_MAX)` returns `1088`, because `round_up(SIZE_MAX, 16)`
wraps to `0`, and moves the tail record onto the payload: the first payload byte is
then `16`.  On another block: on `heapN1`, with the live blocks `1200` and
`1073743120` behind an initial gap of `112` bytes in an arena of `2^31 + 4096`
bytes, `calloc(1, 2^31 + 4000)`, whose footprint is negative as an `int`, returns
`1088` and zero-fills `[1088, 1088 + 2^31 + 4000)`, so that the recorded size of
the live block `1200` goes from `2^30` to `0`. -/
theorem C30_counterexample :
    (get_segment_size sizes64 heap1.mem 1088 = 1 ∧
      realloc sizes64 10 heap1 1088 SIZE_MAX =
        .ok (1088, after heap1 (realloc sizes64 10 heap1 1088 SIZE_MAX)) ∧
      read_byte heap1.mem 1088 = 0 ∧
      read_byte (after heap1 (realloc sizes64 10 heap1 1088 SIZE_MAX)).mem 1088 = 16) ∧
    (get_segment_size sizes64 heapN1.mem 1200 = 1073741824 ∧
      get_segment_size sizes64 heapN1.mem 1073743120 = 1073741824 ∧
      end_addr heapN1.mem heapN1.start = 2147488784 ∧
      calloc sizes64 10 heapN1 1 2147487648 =
        .ok (1088, { after heapN1 (malloc sizes64 10 heapN1 2147487648) with
          mem := zeroed (after heapN1 (malloc sizes64 10 heapN1 2147487648)).mem 1088
            2147487648 }) ∧
      get_segment_size sizes64
        (zeroed (after heapN1 (malloc sizes64 10 heapN1 2147487648)).mem 1088 2147487648)
        1200 = 0) :=
  ⟨⟨by decide, rfl, by decide, by decide⟩,
    ⟨by decide, by decide, by decide, run_calloc_big,
      zero_rd _ _ _ _ (by decide) (by decide)⟩⟩

/-! ## `round_up` -/

theorem round_up_pos_eq (n m : Nat) (hm : 0 < m) (h : n + m ≤ 18446744073709551615)
    (hr : n % m ≠ 0) : round_up n m = m * (n / m + 1) := by
  unfold round_up
  rw [if_neg (by omega)]
  dsimp only
  rw [if_neg hr]
  have hlt := Nat.mod_lt n hm
  have hd := Nat.div_add_mod n m
  rw [Nat.mod_eq_of_lt (by omega), Nat.mul_add, Nat.mul_one]
  omega

theorem round_up_dvd_eq (n m : Nat) (hr : n % m = 0) : round_up n m = n := by
  unfold round_up
  by_cases hm : m = 0
  · rw [if_pos hm]
  · rw [if_neg hm]
    dsimp only
    rw [if_pos hr]

/-- For `n` below `2^64 - 16`, `round_up(n, ALIGNMENT)` is the least multiple of
`ALIGNMENT` that is at least `n`. -/
theorem round_up_least (n : Nat) (h : n + 16 ≤ 18446744073709551615) :
    round_up n ALIGNMENT % ALIGNMENT = 0 ∧ n ≤ round_up n ALIGNMENT ∧
    round_up n ALIGNMENT < n + ALIGNMENT ∧
    (∀ k, k % ALIGNMENT = 0 → n ≤ k → round_up n ALIGNMENT ≤ k) := by
  have hr := round_up_16 n (by omega)
  refine ⟨hr.1, hr.2.1, hr.2.2, ?_⟩
  intro k hk hnk
  have hk2 : k % 16 = 0 := hk
  omega

/-- Claim C40: for `m > 0` and `n + m <= 2^64 - 1`, `round_up(n, m)` is a multiple
of `m`, lies in `[n, n + m)`, is below every multiple of `m` that is at least `n`,
and is left unchanged by a second `round_up`; and `round_up(n, 0) = n`. -/
theorem C40_round_up (n m : Nat) :
    (0 < m → n + m ≤ 18446744073709551615 →
      round_up n m % m = 0 ∧ n ≤ round_up n m ∧ round_up n m < n + m ∧
      (∀ k, k % m = 0 → n ≤ k → round_up n m ≤ k) ∧
      round_up (round_up n m) m = round_up n m) ∧
    round_up n 0 = n := by
  refine ⟨fun hm h => ?_, ?_⟩
  · by_cases hr : n % m = 0
    · rw [round_up_dvd_eq n m hr]
      exact ⟨hr, le_refl _, by omega, fun k _ hk => hk, round_up_dvd_eq n m hr⟩
    · have e := round_up_pos_eq n m hm h hr
      have hlt := Nat.mod_lt n hm
      have hd := Nat.div_add_mod n m
      have hmul : m * (n / m + 1) = m * (n / m) + m := by rw [Nat.mul_add, Nat.mul_one]
      have hmod : round_up n m % m = 0 := by
        rw [e]
        exact Nat.mul_mod_right m _
      refine ⟨hmod, by omega, by omega, ?_, round_up_dvd_eq _ m hmod⟩
      intro k hk hnk
      have hk2 : m * (k / m) = k := Nat.mul_div_cancel' (Nat.dvd_of_mod_eq_zero hk)
      have hlt2 : m * (n / m) < m * (k / m) := by omega
      have hq : n / m < k / m := Nat.lt_of_mul_lt_mul_left hlt2
      have hle : m * (n / m + 1) ≤ m * (k / m) := Nat.mul_le_mul_left m hq
      omega
  · unfold round_up
    rw [if_pos rfl]

/-- Claim C40 at `n = 37`, `m = 16`: the result is `48`. -/
theorem C40_round_up_witness :
    0 < 16 ∧ 37 + 16 ≤ 18446744073709551615 ∧ round_up 37 16 = 48 ∧
    round_up 37 16 % 16 = 0 ∧ 37 ≤ round_up 37 16 ∧ round_up 37 16 < 37 + 16 ∧
    (∀ k, k % 16 = 0 → 37 ≤ k → round_up 37 16 ≤ k) ∧
    round_up (round_up 37 16) 16 = round_up 37 16 :=
  ⟨by decide, by decide, by decide, (C40_round_up 37 16).1 (by decide) (by decide)⟩

/-! ## The cursor of next fit -/

/-- In a reachable state the cursor is null or the tail of a live block, and null
when no block is live. -/
theorem reach_cursor (c : Sizes) (hc : c.ok) (s : Heap) (L : List Nat) (h : Reach c s L) :
    (s.last_addr = 0 ∨ ∃ u ∈ L, s.last_addr = next_seg_tail s.mem (u - c.HS)) ∧
    (L = [] → s.last_addr = 0) := by
  obtain ⟨bs, hpub, hL⟩ := reach_pub c hc s L h
  rcases hpub.2 with ⟨-, e, e2, -⟩ | ⟨hinv, hemp⟩
  · exact ⟨Or.inl e2, fun _ => e2⟩
  · constructor
    · rcases hinv.2.2.2.2.2.2.2.2.2.2.2.2.2.2 with e | ⟨b, hb, e⟩
      · exact Or.inl e
      · right
        refine ⟨b.user c, hL.mem_iff.mpr (List.mem_map.mpr ⟨b, hb, rfl⟩), ?_⟩
        obtain ⟨r0, -, r2, -⟩ := Pub_read c s bs b hpub hb
        rw [r0, r2]
        exact e
    · intro hnil
      have hlen := hL.length_eq
      rw [hnil, List.length_map] at hlen
      have hbs : bs = [] := List.length_eq_zero.mp hlen.symm
      exact (hemp hbs).2

/-- Claim C31: in every state reachable through `malloc`, `calloc`, `free`,
`realloc`, the policy selector and `clear_alloc_storage`, with `L` the live user
addresses, the cursor is null or the tail of a live block, and it is null when no
block is live; the same holds after any policy is selected, and in the state after
a returned `realloc` that resized a live block in place. -/
theorem C31_cursor_live_tail (c : Sizes) (hc : c.ok) (s : Heap) (L : List Nat)
    (h : Reach c s L) :
    (s.last_addr = 0 ∨ ∃ u ∈ L, s.last_addr = next_seg_tail s.mem (u - c.HS)) ∧
    (L = [] → s.last_addr = 0) ∧
    (∀ strat, ((set_alloc_function s strat).last_addr = 0 ∨
        ∃ u ∈ L, (set_alloc_function s strat).last_addr =
          next_seg_tail (set_alloc_function s strat).mem (u - c.HS)) ∧
      (L = [] → (set_alloc_function s strat).last_addr = 0)) ∧
    (∀ fuel p size s1, p ∈ L → 0 < size → size < I31 → footprint c size < I31 →
      realloc c fuel s p size = .ok (p, s1) →
      (s1.last_addr = 0 ∨
        ∃ u ∈ p :: L.erase p, s1.last_addr = next_seg_tail s1.mem (u - c.HS))) := by
  obtain ⟨a1, a2⟩ := reach_cursor c hc s L h
  refine ⟨a1, a2, fun strat => reach_cursor c hc _ L (Reach.step_select s L strat h), ?_⟩
  intro fuel p size s1 hp h0 h2 hfp hrun
  obtain ⟨-, -, hu0, -⟩ : s.storage_lock = false ∧ True ∧ p ≠ 0 ∧ True := by
    obtain ⟨bs, hpub, hL, hget⟩ := reach_blk c hc s L h
    obtain ⟨x, hx, e⟩ := hget p hp
    obtain ⟨hl, -, hu, -⟩ := Pub_blk c s bs x hpub hx
    rw [e] at hu
    exact ⟨hl, trivial, hu, trivial⟩
  have hr := Reach.step_realloc s s1 L fuel p size p h hp h0 hfp h2 hrun
  rw [if_neg hu0] at hr
  exact (reach_cursor c hc s1 _ hr).1

/-- Claim C31 on the state after two `malloc(1)` calls: the cursor `1216` is the
tail of the live block `1200`, and it is the tail of the block `1200` after
`realloc(1200, 100)` has moved that tail. -/
theorem C31_cursor_live_tail_witness :
    sizes64.ok ∧ Reach sizes64 heap2 [1200, 1088] ∧ heap2.last_addr = 1216 ∧
    next_seg_tail heap2.mem (1200 - sizes64.HS) = 1216 ∧
    (heap2.last_addr = 0 ∨
      ∃ u ∈ [1200, 1088], heap2.last_addr = next_seg_tail heap2.mem (u - sizes64.HS)) ∧
    ((after heap2 (realloc sizes64 10 heap2 1200 100)).last_addr = 0 ∨
      ∃ u ∈ 1200 :: [1200, 1088].erase 1200,
        (after heap2 (realloc sizes64 10 heap2 1200 100)).last_addr =
          next_seg_tail (after heap2 (realloc sizes64 10 heap2 1200 100)).mem
            (u - sizes64.HS)) :=
  ⟨by decide, reach_heap2, by decide, by decide,
    (C31_cursor_live_tail sizes64 (by decide) heap2 [1200, 1088] reach_heap2).1,
    (C31_cursor_live_tail sizes64 (by decide) heap2 [1200, 1088] reach_heap2).2.2.2
      10 1200 100 _ (by decide) (by decide) (by decide) (by decide) rfl⟩

/-! ## The arena lies below the break -/

/-- Claim C36: in every reachable state with a directory, `end <= break` and the
break exceeds `end` by at most `ALIGNMENT` bytes; the header ends at or below `end`,
and the head, the payload and the tail of every live block lie between the header
and `end`, hence below the break.  When a returned `malloc` creates the directory,
the header is placed at the first multiple of `ALIGNMENT` at or above the break
before the call, and it ends at or below the new break. -/
theorem C36_break_covers (c : Sizes) (hc : c.ok) (s : Heap) (L : List Nat)
    (h : Reach c s L) :
    (s.start ≠ 0 →
      end_addr s.mem s.start ≤ s.brk ∧ s.brk ≤ end_addr s.mem s.start + ALIGNMENT ∧
      s.start + c.LS ≤ end_addr s.mem s.start ∧
      ∀ u ∈ L, s.start + c.LS + c.HS ≤ u ∧
        u + get_segment_size c s.mem u ≤ next_seg_tail s.mem (u - c.HS) ∧
        next_seg_tail s.mem (u - c.HS) + c.TS ≤ end_addr s.mem s.start) ∧
    (s.start = 0 → ∀ fuel size u s1, size < I31 → footprint c size < I31 →
      malloc c fuel s size = .ok (u, s1) → s1.start ≠ 0 →
      s1.start = round_up s.brk ALIGNMENT ∧ s.brk ≤ s1.start ∧
      s1.start % ALIGNMENT = 0 ∧ s1.start < s.brk + ALIGNMENT ∧
      (∀ k, k % ALIGNMENT = 0 → s.brk ≤ k → s1.start ≤ k) ∧
      s1.start + c.LS ≤ end_addr s1.mem s1.start ∧ end_addr s1.mem s1.start ≤ s1.brk) := by
  obtain ⟨bs, hpub, hL, hget⟩ := reach_blk c hc s L h
  constructor
  · intro h0
    rcases hpub.2 with ⟨e0, -⟩ | ⟨hinv, -⟩
    · exact absurd e0 h0
    obtain ⟨-, -, -, hle, -, hb1, hb2, -⟩ := id hinv
    refine ⟨hb1, hb2, hle, ?_⟩
    intro u hu
    obtain ⟨x, hx, e⟩ := hget u hu
    obtain ⟨r0, r1, r2, r3, r4, r5, r6, r7, r8⟩ := Pub_read c s bs x hpub hx
    obtain ⟨-, -, -, -, -, -, hg, -⟩ := Pub_blk c s bs x hpub hx
    subst e
    rw [r0, r2, hg]
    have t1 : x.user c = x.h + c.HS := rfl
    have t2 : x.tl c = x.h + c.HS + round_up x.sz ALIGNMENT := rfl
    have t3 : x.nx c = x.tl c + c.TS + x.ff := rfl
    refine ⟨by omega, by omega, by omega⟩
  · intro h0 fuel size u s1 h2 hfp hrun h1
    rcases hpub.2 with ⟨-, -, hla, -, k1, k2, k3, k4⟩ | ⟨hinv, -⟩
    · by_cases hsz : size = 0
      · unfold malloc at hrun
        rw [if_pos hsz] at hrun
        have e := (Prod.mk.inj (Except.ok.inj hrun)).2
        rw [← e] at h1
        exact absurd h0 h1
      · obtain ⟨m1, m2, m3⟩ := malloc_fresh_case c s size fuel hpub.1 h0 hla hc k1 k3 k4
          (by omega) hfp h2
        by_cases hroom1 : s.brk + (c.LS + 16) ≤ s.brk_max
        · by_cases hroom2 : s.brk + (c.LS + 16) + (footprint c size + 4095) / 4096 * 4096 ≤
              s.brk_max
          · obtain ⟨M, nw, e1, hinv1, -⟩ := m3 hroom2
            rw [hrun] at e1
            have e := (Prod.mk.inj (Except.ok.inj e1)).2
            obtain ⟨-, -, -, hle, -, hb1, -⟩ := id hinv1
            rw [← e] at hle hb1
            have e3 : s1.start = round_up s.brk ALIGNMENT := by rw [e]
            have hr := round_up_least s.brk (by omega)
            rw [e3]
            rw [e3] at hle hb1
            exact ⟨rfl, hr.2.1, hr.1, hr.2.2.1, hr.2.2.2, hle, hb1⟩
          · rw [m2 hroom1 hroom2] at hrun
            cases hrun
        · rw [m1 hroom1] at hrun
          have e := (Prod.mk.inj (Except.ok.inj hrun)).2
          rw [← e] at h1
          exact absurd h0 h1
    · exact absurd h0 hinv.2.1

/-- Claim C36 on the fresh process with the break at `1000` and on the state after
its first `malloc(1)`: the header is placed at `1008`, `end` is `5136` and the
break is `5144`. -/
theorem C36_break_covers_witness :
    sizes64.ok ∧ Reach sizes64 heap0 [] ∧ Reach sizes64 heap1 [1088] ∧
    heap0.brk = 1000 ∧ heap1.start = 1008 ∧ end_addr heap1.mem heap1.start = 5136 ∧
    heap1.brk = 5144 ∧
    (end_addr heap1.mem heap1.start ≤ heap1.brk ∧
      heap1.brk ≤ end_addr heap1.mem heap1.start + ALIGNMENT) ∧
    (heap1.start = round_up heap0.brk ALIGNMENT ∧ heap0.brk ≤ heap1.start) :=
  ⟨by decide, reach_heap0, reach_heap1, by decide, by decide, by decide, by decide,
    match (C36_break_covers sizes64 (by decide) heap1 [1088] reach_heap1).1 (by decide) with
    | ⟨h1, h2, _⟩ => ⟨h1, h2⟩,
    match (C36_break_covers sizes64 (by decide) heap0 [] reach_heap0).2 (by decide) 10 1 1088
      heap1 (by decide) (by decide) rfl (by decide) with
    | ⟨h1, h2, _⟩ => ⟨h1, h2⟩⟩

/-! ## The capacity of a new block -/

/-- The live addresses of a reachable state are distinct, the range of every live
block lies in the arena and holds its payload, and the ranges of two live blocks
are disjoint. -/
theorem reach_ranges (c : Sizes) (hc : c.ok) (s : Heap) (L : List Nat)
    (h : Reach c s L) :
    L.Nodup ∧
    (∀ u ∈ L, s.start + c.LS ≤ u - c.HS ∧ u - c.HS + c.HS = u ∧
      u + get_segment_size c s.mem u ≤ next_seg_tail s.mem (u - c.HS) ∧
      next_seg_tail s.mem (u - c.HS) + c.TS ≤ end_addr s.mem s.start) ∧
    (∀ u ∈ L, ∀ v ∈ L, u ≠ v →
      (next_seg_tail s.mem (u - c.HS) + c.TS ≤ v - c.HS ∨
        next_seg_tail s.mem (v - c.HS) + c.TS ≤ u - c.HS) ∧
      (u + get_segment_size c s.mem u ≤ v ∨ v + get_segment_size c s.mem v ≤ u)) := by
  obtain ⟨bs, hp, hL, hget⟩ := reach_blk c hc s L h
  have hrange : ∀ x ∈ bs, s.start + c.LS ≤ x.user c - c.HS ∧ x.user c - c.HS + c.HS = x.user c ∧
      x.user c + get_segment_size c s.mem (x.user c) ≤ next_seg_tail s.mem (x.user c - c.HS) ∧
      next_seg_tail s.mem (x.user c - c.HS) + c.TS ≤ end_addr s.mem s.start := by
    intro x hx
    obtain ⟨r1, r2, r3, r4, r5, r6, r7, r8, r9⟩ := Pub_read c s bs x hp hx
    unfold get_segment_size
    simp only [r1, r2, r3]
    have t1 : x.tl c = x.h + c.HS + round_up x.sz ALIGNMENT := rfl
    have t2 : x.nx c = x.tl c + c.TS + x.ff := rfl
    have t3 : x.user c = x.h + c.HS := rfl
    clear * - r7 r8 r9 t1 t2 t3
    omega
  have hapart : ∀ x ∈ bs, ∀ y ∈ bs, x.user c ≠ y.user c →
      (next_seg_tail s.mem (x.user c - c.HS) + c.TS ≤ y.user c - c.HS ∨
        next_seg_tail s.mem (y.user c - c.HS) + c.TS ≤ x.user c - c.HS) ∧
      (x.user c + get_segment_size c s.mem (x.user c) ≤ y.user c ∨
        y.user c + get_segment_size c s.mem (y.user c) ≤ x.user c) := by
    intro x hx y hy hne
    obtain ⟨-, hinv, -⟩ := Pub_blk c s bs x hp hx
    obtain ⟨r1, r2, r3, r4, r5, r6, r7, r8, r9⟩ := Pub_read c s bs x hp hx
    obtain ⟨q1, q2, q3, q4, q5, q6, q7, q8, q9⟩ := Pub_read c s bs y hp hy
    unfold get_segment_size
    simp only [r1, r2, r3, q1, q2, q3]
    have t1 : x.tl c = x.h + c.HS + round_up x.sz ALIGNMENT := rfl
    have t2 : x.nx c = x.tl c + c.TS + x.ff := rfl
    have t3 : x.user c = x.h + c.HS := rfl
    have t4 : y.tl c = y.h + c.HS + round_up y.sz ALIGNMENT := rfl
    have t5 : y.nx c = y.tl c + c.TS + y.ff := rfl
    have t6 : y.user c = y.h + c.HS := rfl
    rcases Inv_apart c s bs hinv x y hx hy with e | e | e
    · exact absurd (by rw [e]) hne
    · clear * - e r9 q9 t1 t2 t3 t4 t5 t6; omega
    · clear * - e r9 q9 t1 t2 t3 t4 t5 t6; omega
  refine ⟨?_, ?_, ?_⟩
  · refine hL.nodup_iff.mpr ?_
    rcases hp.2 with ⟨-, hbs, -⟩ | ⟨hinv, -⟩
    · rw [hbs]; exact List.nodup_nil
    · obtain ⟨-, -, -, -, -, -, -, -, -, -, -, -, -, ⟨lo, -, htiles⟩, -⟩ := hinv
      refine List.Pairwise.map _ (fun a b hab => ?_) (Tiles_pairwise c _ _ _ htiles)
      have t1 : a.nx c = a.h + c.HS + round_up a.sz ALIGNMENT + c.TS + a.ff := rfl
      have t2 : a.user c = a.h + c.HS := rfl
      have t3 : b.user c = b.h + c.HS := rfl
      have c5 := hc.2.2.2.2.1
      clear * - hab t1 t2 t3 c5
      omega
  · intro u hu
    obtain ⟨x, hx, hxu⟩ := hget u hu
    rw [← hxu]
    exact hrange x hx
  · intro u hu v hv hne
    obtain ⟨x, hx, hxu⟩ := hget u hu
    obtain ⟨y, hy, hyu⟩ := hget v hv
    rw [← hxu, ← hyu]
    exact hapart x hx y hy (by rw [hxu, hyu]; exact hne)

/-- A returned `malloc` with a footprint below `2^31` records the size and puts the
tail behind the rounded payload. -/
theorem malloc_records (c : Sizes) (s s1 : Heap) (bs : List Blk) (size fuel u : Nat)
    (hpub : Pub c s bs) (hfp : footprint c size < 2147483648) (hsz2 : size < 2147483648)
    (hrun : malloc c fuel s size = .ok (u, s1)) (hu : u ≠ 0) :
    get_segment_size c s1.mem u = size ∧
    next_seg_tail s1.mem (u - c.HS) = u + round_up size ALIGNMENT := by
  rcases malloc_pub c s s1 bs size fuel u hpub hfp hsz2 hrun with ⟨e1, -⟩ |
    ⟨nw, bs1, e1, e2, e3, e4, e5, e6, -⟩
  · exact absurd e1 hu
  · have hnw := Placed_mem c _ _ _ _ _ e6
    obtain ⟨r1, r2, r3, -⟩ := Pub_read c s1 bs1 nw e3 hnw
    obtain ⟨-, -, -, -, -, -, k7, -⟩ := Pub_blk c s1 bs1 nw e3 hnw
    have t2 : nw.tl c = nw.user c + round_up nw.sz ALIGNMENT := rfl
    rw [e4] at t2 k7
    rw [e1]
    refine ⟨k7, ?_⟩
    rw [r1, r3]
    exact t2

/-- Claim C32, for sizes in the `int` range: in a reachable state, if `malloc(s)`
with `s` and the footprint of `s` below `2^31` returns a non-null `u`, then
`roundup(s, A) >= s`, the recorded size is `s`, the tail of the block lies at
`u + roundup(s, A)`, at or above `u + s`, the tail record ends at or below `end`,
so `u + s <= end`, the header lies below the head of the block, and the range from
head to the end of the tail record of every other live block lies below the head
of the new block or at or above the end of its tail record. -/
theorem C32_payload_capacity (c : Sizes) (hc : c.ok) (s : Heap) (L : List Nat)
    (h : Reach c s L) (fuel size u : Nat) (s1 : Heap) (hsz : size < I31)
    (hfp : footprint c size < I31) (hrun : malloc c fuel s size = .ok (u, s1))
    (hu : u ≠ 0) :
    size ≤ round_up size ALIGNMENT ∧
    get_segment_size c s1.mem u = size ∧
    next_seg_tail s1.mem (u - c.HS) = u + round_up size ALIGNMENT ∧
    u + size ≤ next_seg_tail s1.mem (u - c.HS) ∧
    next_seg_tail s1.mem (u - c.HS) + c.TS ≤ end_addr s1.mem s1.start ∧
    u + size ≤ end_addr s1.mem s1.start ∧
    s1.start + c.LS + c.HS ≤ u ∧
    (∀ v ∈ L, v ≠ u ∧
      (next_seg_tail s1.mem (v - c.HS) + c.TS ≤ u - c.HS ∨
        next_seg_tail s1.mem (u - c.HS) + c.TS ≤ v - c.HS)) := by
  obtain ⟨bs, hpub, -⟩ := reach_pub c hc s L h
  obtain ⟨m1, m2⟩ := malloc_records c s s1 bs size fuel u hpub hfp hsz hrun hu
  have hr1 := Reach.step_malloc s s1 L fuel size u h hfp hsz hrun
  rw [if_neg hu] at hr1
  obtain ⟨n1, n2, n3⟩ := reach_ranges c hc s1 (u :: L) hr1
  obtain ⟨k1, k2, k3, k4⟩ := n2 u (List.mem_cons_self _ _)
  rw [m1] at k3
  have hru := round_up_16 size (by unfold I31 at hsz; omega)
  have c5 := hc.2.2.2.2.1
  refine ⟨hru.2.1, m1, m2, k3, k4, by omega, by omega, ?_⟩
  intro v hv
  have hne : v ≠ u := by
    intro e
    rw [e] at hv
    exact (List.nodup_cons.mp n1).1 hv
  exact ⟨hne, (n3 v (List.mem_cons_of_mem _ hv) u (List.mem_cons_self _ _) hne).1⟩

/-- Claim C32 on the state after `malloc(1)`, for the size `100`: the block
returned at `1200` has its tail at `1312`, at least `100` bytes above `1200`. -/
theorem C32_payload_capacity_witness :
    sizes64.ok ∧ Reach sizes64 heap1 [1088] ∧ 100 < I31 ∧ footprint sizes64 100 < I31 ∧
    malloc sizes64 10 heap1 100 = .ok (1200, after heap1 (malloc sizes64 10 heap1 100)) ∧
    1200 ≠ 0 ∧ 100 ≤ round_up 100 ALIGNMENT ∧
    get_segment_size sizes64 (after heap1 (malloc sizes64 10 heap1 100)).mem 1200 = 100 ∧
    next_seg_tail (after heap1 (malloc sizes64 10 heap1 100)).mem (1200 - sizes64.HS) =
      1200 + round_up 100 ALIGNMENT ∧
    1200 + 100 ≤ next_seg_tail (after heap1 (malloc sizes64 10 heap1 100)).mem
      (1200 - sizes64.HS) :=
  ⟨by decide, reach_heap1, by decide, by decide, rfl, by decide,
    match C32_payload_capacity sizes64 (by decide) heap1 [1088] reach_heap1 10 100 1200
      (after heap1 (malloc sizes64 10 heap1 100)) (by decide) (by decide) rfl (by decide) with
    | ⟨h1, h2, h3, h4, _⟩ => ⟨h1, h2, h3, h4⟩⟩

/-- The claim C32 fails for `s = 2^64 - 1`.  On the state after `malloc(1)`, whose
`end` is `5136`, `malloc(2^64 - 1)` returns `1200`: `roundup(2^64 - 1, 16)` wraps
to `0`, the footprint is taken to be `96` bytes, and the tail record of the block
lies at `1200`, the user address itself, so the block has no payload byte at all
and the requested bytes lie on its own tail record. -/
theorem C32_counterexample :
    Reach sizes64 heap1 [1088] ∧ end_addr heap1.mem heap1.start = 5136 ∧
    0 < SIZE_MAX ∧ SIZE_MAX < W64 ∧
    malloc sizes64 10 heap1 SIZE_MAX = .ok (1200, heapMax) ∧
    round_up SIZE_MAX ALIGNMENT = 0 ∧ ¬ SIZE_MAX ≤ round_up SIZE_MAX ALIGNMENT ∧
    next_seg_tail heapMax.mem (1200 - sizes64.HS) = 1200 ∧
    ¬ 1200 + SIZE_MAX ≤ next_seg_tail heapMax.mem (1200 - sizes64.HS) ∧
    get_segment_size sizes64 heapMax.mem 1200 = SIZE_MAX ∧
    end_addr heapMax.mem heapMax.start = 5136 ∧
    ¬ 1200 + SIZE_MAX ≤ end_addr heapMax.mem heapMax.start :=
  ⟨reach_heap1, by decide, by decide, by decide, rfl, by decide, by decide, by decide,
    by decide, by decide, by decide, by decide⟩

/-! ## The size recorded by `calloc` -/

/-- Claim C34, as the code has it: `calloc(n, s)` passes the product reduced modulo
`2^64` to `malloc`.  In a reachable state, for `n > 0` and `s > 0` whose reduced
product and its footprint are below `2^31`, if `calloc(n, s)` returns a non-null
`u` then the recorded size of `u` is `n*s mod 2^64` and that many bytes from `u` on
are zero; this is the mathematical product `n*s` when `n*s < 2^64`, and it is less
than `n*s` otherwise. -/
theorem C34_calloc_product (c : Sizes) (hc : c.ok) (s : Heap) (L : List Nat)
    (h : Reach c s L) (fuel n size u : Nat) (s1 : Heap) (hn : 0 < n) (hs : 0 < size)
    (h2 : n * size % W64 < I31) (hfp : footprint c (n * size % W64) < I31)
    (hrun : calloc c fuel s n size = .ok (u, s1)) (hu : u ≠ 0) :
    get_segment_size c s1.mem u = n * size % W64 ∧
    (∀ a, u ≤ a → a < u + n * size % W64 → read_byte s1.mem a = 0) ∧
    (n * size < W64 → get_segment_size c s1.mem u = n * size ∧
      ∀ a, u ≤ a → a < u + n * size → read_byte s1.mem a = 0) ∧
    (W64 ≤ n * size → get_segment_size c s1.mem u < n * size) := by
  obtain ⟨bs, hpub, -⟩ := reach_pub c hc s L h
  rcases calloc_pub c s s1 bs n size fuel u hpub hfp h2 hrun with ⟨e1, -⟩ |
      ⟨nw, bs1, s0, e1, e2, e3, e4, e5, e6, e7, e8, e9⟩
  · exact absurd e1 hu
  have hnw := Placed_mem c _ _ _ _ _ e8
  obtain ⟨-, -, -, -, -, -, g1, -⟩ := Pub_blk c s1 bs1 nw e3 hnw
  have hsize : get_segment_size c s1.mem u = n * size % W64 := by
    rw [e1, g1, e4]
    rfl
  have hzero : ∀ a, u ≤ a → a < u + n * size % W64 → read_byte s1.mem a = 0 := by
    intro a ha1 ha2
    rw [e7]
    show zeroed s0.mem u (n * size % 18446744073709551616) a % 256 = 0
    have ha3 : a < u + n * size % 18446744073709551616 := ha2
    rw [zeroed_in _ _ _ _ ha1 ha3]
  refine ⟨hsize, hzero, ?_, ?_⟩
  · intro hw
    have hmod : n * size % W64 = n * size := Nat.mod_eq_of_lt hw
    rw [hmod] at hsize hzero
    exact ⟨hsize, hzero⟩
  · intro hw
    rw [hsize]
    have := Nat.mod_lt (n * size) (show 0 < W64 by decide)
    omega

/-- Claim C34 on the state after `malloc(1)`: `calloc(2, 8)` returns `1200` with the
recorded size `16`, and `calloc(2^63 + 1, 2)`, whose product is `2^64 + 2`, returns
`1200` with the recorded size `2`. -/
theorem C34_calloc_product_witness :
    sizes64.ok ∧ Reach sizes64 heap1 [1088] ∧
    calloc sizes64 10 heap1 2 8 = .ok (1200, after heap1 (calloc sizes64 10 heap1 2 8)) ∧
    get_segment_size sizes64 (after heap1 (calloc sizes64 10 heap1 2 8)).mem 1200 = 2 * 8 ∧
    W64 ≤ 9223372036854775809 * 2 ∧
    calloc sizes64 10 heap1 9223372036854775809 2 =
      .ok (1200, after heap1 (calloc sizes64 10 heap1 9223372036854775809 2)) ∧
    get_segment_size sizes64
      (after heap1 (calloc sizes64 10 heap1 9223372036854775809 2)).mem 1200 <
        9223372036854775809 * 2 :=
  ⟨by decide, reach_heap1, rfl,
    ((C34_calloc_product sizes64 (by decide) heap1 [1088] reach_heap1 10 2 8 1200
      (after heap1 (calloc sizes64 10 heap1 2 8)) (by decide) (by decide) (by decide)
      (by decide) rfl (by decide)).2.2.1 (by decide)).1,
    by decide, rfl,
    (C34_calloc_product sizes64 (by decide) heap1 [1088] reach_heap1 10 9223372036854775809 2
      1200 (after heap1 (calloc sizes64 10 heap1 9223372036854775809 2)) (by decide)
      (by decide) (by decide) (by decide) rfl (by decide)).2.2.2 (by decide)⟩

/-- The claim C34 fails when the product wraps.  On the state after `malloc(1)`,
`calloc(2^63 + 1, 2)`, whose product is `2^64 + 2`, returns `1200`; the recorded
size of the block is `2`, the product reduced modulo `2^64`, and `16` bytes lie
between the user address and the tail record of the block. -/
theorem C34_counterexample :
    Reach sizes64 heap1 [1088] ∧
    0 < 9223372036854775809 ∧ 0 < 2 ∧ 9223372036854775809 < W64 ∧
    9223372036854775809 * 2 = 18446744073709551618 ∧
    calloc sizes64 10 heap1 9223372036854775809 2 =
      .ok (1200, after heap1 (calloc sizes64 10 heap1 9223372036854775809 2)) ∧
    get_segment_size sizes64
      (after heap1 (calloc sizes64 10 heap1 9223372036854775809 2)).mem 1200 = 2 ∧
    next_seg_tail (after heap1 (calloc sizes64 10 heap1 9223372036854775809 2)).mem
      (1200 - sizes64.HS) = 1216 :=
  ⟨reach_heap1, by decide, by decide, by decide, by decide, rfl, by decide, by decide⟩

/-! ## The initial gap as a candidate -/

theorem initGap_eq (c : Sizes) (s : Heap) (bs : List Blk) (hinv : Inv c s bs) :
    initGap c s.mem s.start = hdOr bs (end_addr s.mem s.start) - (s.start + c.LS) := by
  obtain ⟨b1, b2, b3, b4, b5, b6⟩ := Inv_bounds c s bs hinv
  obtain ⟨m1, -, -⟩ := Inv_first c s bs hinv
  unfold initGap
  rw [m1]
  cases bs with
  | nil => rfl
  | cons b r =>
    have : hdOr (b :: r) 0 = b.h := rfl
    rw [this]
    have h2 : hdOr (b :: r) (end_addr s.mem s.start) = b.h := rfl
    rw [h2] at b2 ⊢
    rw [if_neg (by omega)]

/-- On a directory without blocks whose arena is shorter than `2^31` bytes, with no
cursor, every policy returns `base + sizeof(header)` when the arena holds the
footprint and null otherwise. -/
theorem policy_empty (c : Sizes) (hc : c.ok) (s : Heap) (fuel size : Nat) (strat : Strat)
    (h0 : s.start ≠ 0) (hf : first_seg s.mem s.start = 0) (hcur : s.last_addr = 0)
    (hle : s.start + c.LS ≤ end_addr s.mem s.start)
    (hsmall : end_addr s.mem s.start - (s.start + c.LS) < 2147483648)
    (hfp : footprint c size < 2147483648) :
    g_alloc c fuel (set_alloc_function s strat) size =
      .ok (if footprint c size ≤ end_addr s.mem s.start - (s.start + c.LS)
        then s.start + c.LS else 0) := by
  have c4 := hc.2.2.2.1
  have he : ¬ end_addr s.mem s.start = 0 := by omega
  have ht := total_size_eq c size hfp
  have hcond : (toInt32 ((end_addr s.mem s.start : Int) - ((s.start + c.LS : Nat) : Int)) ≥
      toInt32 ((footprint c size : Nat) : Int)) ↔
      footprint c size ≤ end_addr s.mem s.start - (s.start + c.LS) := by
    rw [toInt32_sub _ _ hle hsmall, toInt32_nat _ hfp]
    omega
  have key : ∀ (a b : Nat), (if toInt32 ((end_addr s.mem s.start : Int) -
      ((s.start + c.LS : Nat) : Int)) ≥ toInt32 ((footprint c size : Nat) : Int)
      then (Except.ok a : Except Stop Nat) else .ok b) =
      .ok (if footprint c size ≤ end_addr s.mem s.start - (s.start + c.LS) then a else b) := by
    intro a b
    by_cases hh : footprint c size ≤ end_addr s.mem s.start - (s.start + c.LS)
    · rw [if_pos (hcond.mpr hh), if_pos hh]
    · rw [if_neg (fun x => hh (hcond.mp x)), if_neg hh]
  have hff : first_fit c fuel s.mem s.start size =
      .ok (if footprint c size ≤ end_addr s.mem s.start - (s.start + c.LS)
        then s.start + c.LS else 0) := by
    unfold first_fit
    dsimp only
    rw [if_neg he, if_pos hf, ht]
    exact key _ _
  cases strat with
  | BEST_FIT =>
    show best_fit c fuel s.mem s.start size = _
    unfold best_fit
    dsimp only
    rw [if_neg he, if_pos hf, ht]
    exact key _ _
  | FIRST_FIT => exact hff
  | NEXT_FIT =>
    show next_fit c fuel s.mem s.last_addr s.start size = _
    rw [hcur, next_fit_none]
    exact hff
  | WORST_FIT =>
    show worst_fit c fuel s.mem s.start size = _
    unfold worst_fit
    dsimp only
    rw [if_neg he, if_pos hf, ht]
    exact key _ _

/-- Claim C33, for sizes in the `int` range.  On the directory of a reachable state,
with enough iterations for its blocks, for a size whose footprint is below `2^31`
and under each of the four policies, the policy returns; when the initial gap is
smaller than the footprint the result is not `base + sizeof(header)`; when the
initial gap is as large as the footprint the result is not null, it is
`base + sizeof(header)` if no gap behind a live block is as large as the footprint,
and it is `base + sizeof(header)` under first fit.  On a directory without blocks
and without a cursor whose arena is shorter than `2^31` bytes, every policy returns
`base + sizeof(header)` if `end - (base + sizeof(header))` is as large as the
footprint, and null otherwise. -/
theorem C33_initial_gap (c : Sizes) (hc : c.ok) (s : Heap) (fuel size : Nat)
    (hfp : footprint c size < I31) (strat : Strat) :
    (∀ L, Reach c s L → s.start ≠ 0 → L.length < fuel →
      ∃ r, g_alloc c fuel (set_alloc_function s strat) size = .ok r ∧
        (initGap c s.mem s.start < footprint c size → r ≠ s.start + c.LS) ∧
        (footprint c size ≤ initGap c s.mem s.start → r ≠ 0) ∧
        (footprint c size ≤ initGap c s.mem s.start →
          (∀ u ∈ L, free_following s.mem (next_seg_tail s.mem (u - c.HS)) <
            footprint c size) → r = s.start + c.LS) ∧
        (footprint c size ≤ initGap c s.mem s.start → strat = Strat.FIRST_FIT →
          r = s.start + c.LS)) ∧
    (s.start ≠ 0 → first_seg s.mem s.start = 0 → s.last_addr = 0 →
      s.start + c.LS ≤ end_addr s.mem s.start →
      end_addr s.mem s.start - (s.start + c.LS) < I31 →
      g_alloc c fuel (set_alloc_function s strat) size =
        .ok (if footprint c size ≤ end_addr s.mem s.start - (s.start + c.LS)
          then s.start + c.LS else 0)) := by
  refine ⟨?_, fun h0 hf hcur hle hsmall =>
    policy_empty c hc s fuel size strat h0 hf hcur hle hsmall hfp⟩
  intro L h hs0 hfuel
  have h1 : Reach c (set_alloc_function s strat) L := Reach.step_select s L strat h
  obtain ⟨bs, hp, hinv, hL, hlen, hg⟩ := reach_dir c hc _ L h1 hs0
  have hG : initGap c s.mem s.start = hdOr bs (end_addr s.mem s.start) - (s.start + c.LS) :=
    initGap_eq c _ bs hinv
  have c4 := hc.2.2.2.1
  have hhead : (s.start + c.LS, hdOr bs (end_addr s.mem s.start) - (s.start + c.LS)) ∈
      gapsOf c s.start (end_addr s.mem s.start) bs := List.mem_cons_self _ _
  rcases g_alloc_cand c _ bs size fuel hinv hfp with ⟨r, e, hr⟩ | ⟨-, e⟩
  · have hr' : (r = 0 ∧ ∀ g ∈ gapsOf c s.start (end_addr s.mem s.start) bs,
          g.2 < footprint c size) ∨
        (r ≠ 0 ∧ ∃ g ∈ gapsOf c s.start (end_addr s.mem s.start) bs,
          g.1 = r ∧ footprint c size ≤ g.2) := hr
    refine ⟨r, e, ?_, ?_, ?_, ?_⟩
    · intro hsmall
      rcases hr' with ⟨a, -⟩ | ⟨-, hcand⟩
      · omega
      · rcases cand_cases c s.start (end_addr s.mem s.start) bs (footprint c size) r hcand with
          ⟨-, a2⟩ | ⟨A, p, B, a1, a2, -⟩
        · omega
        · have hp1 : p ∈ bs := by rw [a1]; simp
          obtain ⟨k1, -, -⟩ := Inv_mem_lo c _ bs p hinv hp1
          have k1' : s.start + c.LS ≤ p.h := k1
          have k2 := Blk.tl_ge c p
          have c5 := hc.2.2.2.2.1
          clear * - k1' k2 c5 a2
          omega
    · intro hbig
      rcases hr' with ⟨-, a⟩ | ⟨a, -⟩
      · have := a _ hhead
        have : hdOr bs (end_addr s.mem s.start) - (s.start + c.LS) < footprint c size := this
        omega
      · exact a
    · intro hbig hall
      rcases hr' with ⟨-, a⟩ | ⟨-, hcand⟩
      · have := a _ hhead
        have : hdOr bs (end_addr s.mem s.start) - (s.start + c.LS) < footprint c size := this
        omega
      · rcases cand_cases c s.start (end_addr s.mem s.start) bs (footprint c size) r hcand with
          ⟨a1, -⟩ | ⟨A, p, B, a1, a2, a3⟩
        · exact a1
        · have hp1 : p ∈ bs := by rw [a1]; simp
          have hu : p.user c ∈ L := hL.mem_iff.mpr (List.mem_map.mpr ⟨p, hp1, rfl⟩)
          have := hall _ hu
          obtain ⟨r0, -, r2, -, r4, -⟩ := Pub_read c _ bs p hp hp1
          have r2' : next_seg_tail s.mem p.h = p.tl c := r2
          have r4' : free_following s.mem (p.tl c) = p.ff := r4
          rw [r0, r2', r4'] at this
          omega
    · intro hbig hst
      subst hst
      have e2 : first_fit c fuel s.mem s.start size = .ok r := e
      rcases first_fit_spec c _ bs size fuel hinv hfp with e3 | ⟨e3, -⟩
      · have e3' : first_fit c fuel s.mem s.start size =
            .ok (firstOf (footprint c size)
              (gapsOf c s.start (end_addr s.mem s.start) bs)) := e3
        rw [e2] at e3'
        rw [Except.ok.inj e3']
        unfold firstOf gapsOf
        rw [List.find?_cons_of_pos]
        exact decide_eq_true (by omega)
      · have e3' : first_fit c fuel s.mem s.start size = .error Stop.fuel := e3
        rw [e2] at e3'
        cases e3'
  · rw [← hlen] at e
    omega

theorem reach_heapH : Reach sizes64 heapH [] :=
  Reach.step_free heapG heapH [1200] 1200 reach_heapG (by decide) rfl

/-- Claim C33 on the state with the only block `1200`, whose initial gap holds `112`
bytes, for the size `16` with the footprint `112`: first fit returns `1040`; and on
the empty arena of one page inside `malloc`, where every policy returns `1040` for
the size `100` and null for the size `5000`. -/
theorem C33_initial_gap_witness :
    sizes64.ok ∧ footprint sizes64 16 < I31 ∧ Reach sizes64 heapG [1200] ∧
    heapG.start ≠ 0 ∧ [1200].length < 10 ∧ initGap sizes64 heapG.mem heapG.start = 112 ∧
    footprint sizes64 16 = 112 ∧
    (∃ r, g_alloc sizes64 10 (set_alloc_function heapG Strat.FIRST_FIT) 16 = .ok r ∧
      r = heapG.start + sizes64.LS) ∧
    first_seg heapX.mem heapX.start = 0 ∧ end_addr heapX.mem heapX.start = 5136 ∧
    g_alloc sizes64 0 (set_alloc_function heapX Strat.WORST_FIT) 100 =
      .ok (if footprint sizes64 100 ≤ end_addr heapX.mem heapX.start -
        (heapX.start + sizes64.LS) then heapX.start + sizes64.LS else 0) ∧
    g_alloc sizes64 0 (set_alloc_function heapX Strat.NEXT_FIT) 5000 =
      .ok (if footprint sizes64 5000 ≤ end_addr heapX.mem heapX.start -
        (heapX.start + sizes64.LS) then heapX.start + sizes64.LS else 0) :=
  ⟨by decide, by decide, reach_heapG, by decide, by decide, by decide, by decide,
    match (C33_initial_gap sizes64 (by decide) heapG 10 16 (by decide) Strat.FIRST_FIT).1
      [1200] reach_heapG (by decide) (by decide) with
    | ⟨r, h1, _, _, _, h5⟩ => ⟨r, h1, h5 (by decide) rfl⟩,
    by decide, by decide,
    (C33_initial_gap sizes64 (by decide) heapX 0 100 (by decide) Strat.WORST_FIT).2
      (by decide) (by decide) (by decide) (by decide) (by decide),
    (C33_initial_gap sizes64 (by decide) heapX 0 5000 (by decide) Strat.NEXT_FIT).2
      (by decide) (by decide) (by decide) (by decide) (by decide)⟩

/-- The claim C33 fails for a size whose footprint is `2^31`.  On the directory
without blocks left by `free` of the last block, the arena behind the header holds
`0` bytes, and each of the four policies returns `base + sizeof(header) = 1040`.  On
the state after `malloc(1)` the initial gap holds `0` bytes and each of the four
policies returns `1040`, where the head of the live block lies. -/
theorem C33_counterexample :
    footprint sizes64 2147483551 = 2147483648 ∧
    (Reach sizes64 heapH [] ∧ first_seg heapH.mem heapH.start = 0 ∧
      end_addr heapH.mem heapH.start - (heapH.start + sizes64.LS) = 0 ∧
      g_alloc sizes64 10 (set_alloc_function heapH Strat.FIRST_FIT) 2147483551 = .ok 1040 ∧
      g_alloc sizes64 10 (set_alloc_function heapH Strat.BEST_FIT) 2147483551 = .ok 1040 ∧
      g_alloc sizes64 10 (set_alloc_function heapH Strat.WORST_FIT) 2147483551 = .ok 1040 ∧
      g_alloc sizes64 10 (set_alloc_function heapH Strat.NEXT_FIT) 2147483551 = .ok 1040) ∧
    (Reach sizes64 heap1 [1088] ∧ initGap sizes64 heap1.mem heap1.start = 0 ∧
      g_alloc sizes64 10 (set_alloc_function heap1 Strat.FIRST_FIT) 2147483551 = .ok 1040 ∧
      g_alloc sizes64 10 (set_alloc_function heap1 Strat.BEST_FIT) 2147483551 = .ok 1040 ∧
      g_alloc sizes64 10 (set_alloc_function heap1 Strat.WORST_FIT) 2147483551 = .ok 1040 ∧
      g_alloc sizes64 10 (set_alloc_function heap1 Strat.NEXT_FIT) 2147483551 = .ok 1040) :=
  ⟨by decide, ⟨reach_heapH, by decide, by decide, rfl, rfl, rfl, rfl⟩,
    ⟨reach_heap1, by decide, rfl, rfl, rfl, rfl⟩⟩

/-! ## The number of iterations of the policies -/

/-- With fewer iterations than blocks to walk over, the loop of `best_fit` runs out
of iterations. -/
theorem best_loop_short (c : Sizes) (m : Mem) (total : Nat) (r : List Blk) :
    ∀ (b : Blk) (fuel ba bsz : Nat), Chain c m b r → fuel ≤ r.length →
      best_fit_loop m c total fuel (b.tl c) ba bsz = .error Stop.fuel := by
  induction r with
  | nil =>
    intro b fuel ba bsz hch hf
    have : fuel = 0 := Nat.le_zero.mp hf
    subst this
    rfl
  | cons n r ih =>
    intro b fuel ba bsz hch hf
    obtain ⟨h1, h2, h3, h4⟩ := hch
    cases fuel with
    | zero => rfl
    | succ f =>
      rw [best_fit_loop_succ, h2, if_pos h3]
      exact ih n f _ _ h4 (Nat.le_of_succ_le_succ hf)

/-- With fewer iterations than blocks to walk over, the loop of `worst_fit` runs out
of iterations. -/
theorem worst_loop_short (c : Sizes) (m : Mem) (total : Nat) (r : List Blk) :
    ∀ (b : Blk) (fuel ba bsz : Nat), Chain c m b r → fuel ≤ r.length →
      worst_fit_loop m c total fuel (b.tl c) ba bsz = .error Stop.fuel := by
  induction r with
  | nil =>
    intro b fuel ba bsz hch hf
    have : fuel = 0 := Nat.le_zero.mp hf
    subst this
    rfl
  | cons n r ih =>
    intro b fuel ba bsz hch hf
    obtain ⟨h1, h2, h3, h4⟩ := hch
    cases fuel with
    | zero => rfl
    | succ f =>
      rw [worst_fit_loop_succ, h2, if_pos h3]
      exact ih n f _ _ h4 (Nat.le_of_succ_le_succ hf)

/-- With fewer iterations than blocks to walk over and no gap that fits, the loop of
`first_fit` runs out of iterations. -/
theorem scan_short (c : Sizes) (m : Mem) (total : Nat) (r : List Blk) :
    ∀ (b : Blk) (fuel : Nat), Chain c m b r → (∀ g ∈ b :: r, ¬ total ≤ g.ff) →
      fuel ≤ r.length → scan_loop m c total fuel (b.tl c) = .error Stop.fuel := by
  induction r with
  | nil =>
    intro b fuel hch hno hf
    have : fuel = 0 := Nat.le_zero.mp hf
    subst this
    rfl
  | cons n r ih =>
    intro b fuel hch hno hf
    obtain ⟨h1, h2, h3, h4⟩ := hch
    cases fuel with
    | zero => rfl
    | succ f =>
      unfold scan_loop
      rw [h1, if_neg (hno b (List.mem_cons_self _ _))]
      simp only [h2, h3, if_true]
      exact ih n f h4 (fun g hg => hno g (List.mem_cons_of_mem _ hg))
        (Nat.le_of_succ_le_succ hf)

theorem best_loop_ok (c : Sizes) (m : Mem) (total : Nat) (r : List Blk) (b : Blk)
    (fuel ba bsz : Nat) (hch : Chain c m b r) (hf : r.length < fuel) :
    ∃ x, best_fit_loop m c total fuel (b.tl c) ba bsz = .ok x := by
  rcases best_fit_loop_spec c m total r b fuel (ba, bsz) hch with h | ⟨-, h⟩
  · exact ⟨_, h⟩
  · omega

theorem worst_loop_ok (c : Sizes) (m : Mem) (total : Nat) (r : List Blk) (b : Blk)
    (fuel ba bsz : Nat) (hch : Chain c m b r) (hf : r.length < fuel) :
    ∃ x, worst_fit_loop m c total fuel (b.tl c) ba bsz = .ok x := by
  rcases worst_fit_loop_spec c m total r b fuel (ba, bsz) hch with h | ⟨-, h⟩
  · exact ⟨_, h⟩
  · omega

theorem scan_ok (c : Sizes) (m : Mem) (total : Nat) (r : List Blk) (b : Blk)
    (fuel : Nat) (hch : Chain c m b r) (hf : r.length < fuel) :
    scan_loop m c total fuel (b.tl c) =
      .ok (((b :: r).find? (fun g => decide (total ≤ g.ff))).map (fun g => g.tl c + c.TS)) := by
  rcases scan_loop_spec c m total r b fuel hch with h | ⟨-, h⟩
  · exact h
  · omega

/-- What the memory of a directory with a first block `b` holds for the policies. -/
theorem Inv_head (c : Sizes) (s : Heap) (b : Blk) (r : List Blk) (hinv : Inv c s (b :: r)) :
    end_addr s.mem s.start ≠ 0 ∧ first_seg s.mem s.start = b.h ∧ b.h ≠ 0 ∧
    next_seg_tail s.mem b.h = b.tl c ∧ Chain c s.mem b r := by
  obtain ⟨b1, b2, b3, b4, b5, b6⟩ := Inv_bounds c s _ hinv
  have hfirst : first_seg s.mem s.start = hdOr (b :: r) 0 := hinv.2.2.2.2.2.2.2.2.2.2.2.1
  have hch := Inv_chain c s r [] b hinv
  have hnt : next_seg_tail s.mem b.h = b.tl c := by
    have hcyc : Cyc c s.mem (b :: r) := hinv.2.2.2.2.2.2.2.2.2.2.2.2.1
    unfold Cyc at hcyc
    rw [Seg_cons] at hcyc
    exact hcyc.1.2.1
  have e1 : hdOr (b :: r) (end_addr s.mem s.start) = b.h := rfl
  have e2 : hdOr (b :: r) 0 = b.h := rfl
  rw [e1] at b2 b3
  rw [e2] at hfirst
  exact ⟨by omega, hfirst, by omega, hnt, hch⟩

/-- `best_fit` on a directory with blocks returns exactly when it is given as many
iterations as there are blocks. -/
theorem best_fit_fuel (c : Sizes) (s : Heap) (b : Blk) (r : List Blk) (size fuel : Nat)
    (hinv : Inv c s (b :: r)) :
    ((b :: r).length ≤ fuel → ∃ x, best_fit c fuel s.mem s.start size = .ok x) ∧
    (fuel < (b :: r).length → best_fit c fuel s.mem s.start size = .error Stop.fuel) := by
  obtain ⟨he, hf, hb0, hnt, hch⟩ := Inv_head c s b r hinv
  unfold best_fit
  dsimp only
  rw [if_neg he, hf, if_neg hb0, hnt]
  constructor
  · intro h
    exact best_loop_ok c s.mem _ r b fuel _ _ hch (by simpa using h)
  · intro h
    exact best_loop_short c s.mem _ r b fuel _ _ hch
      (by simp only [List.length_cons] at h; omega)

/-- `worst_fit` on a directory with blocks returns exactly when it is given as many
iterations as there are blocks. -/
theorem worst_fit_fuel (c : Sizes) (s : Heap) (b : Blk) (r : List Blk) (size fuel : Nat)
    (hinv : Inv c s (b :: r)) :
    ((b :: r).length ≤ fuel → ∃ x, worst_fit c fuel s.mem s.start size = .ok x) ∧
    (fuel < (b :: r).length → worst_fit c fuel s.mem s.start size = .error Stop.fuel) := by
  obtain ⟨he, hf, hb0, hnt, hch⟩ := Inv_head c s b r hinv
  unfold worst_fit
  dsimp only
  rw [if_neg he, hf, if_neg hb0, hnt]
  constructor
  · intro h
    exact worst_loop_ok c s.mem _ r b fuel _ _ hch (by simpa using h)
  · intro h
    exact worst_loop_short c s.mem _ r b fuel _ _ hch
      (by simp only [List.length_cons] at h; omega)

theorem first_fit_unfold (c : Sizes) (s : Heap) (b : Blk) (r : List Blk) (size fuel : Nat)
    (hinv : Inv c s (b :: r)) :
    first_fit c fuel s.mem s.start size =
      if toInt32 ((b.h : Int) - ((s.start + c.LS : Nat) : Int)) ≥
          toInt32 ((total_size c size : Nat) : Int) then .ok (s.start + c.LS)
      else (scan_loop s.mem c (total_size c size) fuel (b.tl c) >>= fun o =>
        match o with
        | some a => pure a
        | none => pure 0) := by
  obtain ⟨he, hf, hb0, hnt, hch⟩ := Inv_head c s b r hinv
  unfold first_fit
  dsimp only
  rw [if_neg he, hf, if_neg hb0, hnt]
  all_goals rfl

/-- `first_fit` on a directory with blocks returns when it is given as many
iterations as there are blocks, and it needs that many when it returns null. -/
theorem first_fit_fuel (c : Sizes) (s : Heap) (b : Blk) (r : List Blk) (size fuel : Nat)
    (hinv : Inv c s (b :: r)) :
    ((b :: r).length ≤ fuel → ∃ x, first_fit c fuel s.mem s.start size = .ok x) ∧
    (first_fit c (b :: r).length s.mem s.start size = .ok 0 → fuel < (b :: r).length →
      first_fit c fuel s.mem s.start size = .error Stop.fuel) := by
  obtain ⟨he, hf, hb0, hnt, hch⟩ := Inv_head c s b r hinv
  have hc := hinv.1
  have c4 := hc.2.2.2.1
  have c6 := hc.2.2.2.2.2.1
  have hs0 : s.start ≠ 0 := hinv.2.1
  constructor
  · intro h
    rw [first_fit_unfold c s b r size fuel hinv]
    split
    · exact ⟨_, rfl⟩
    · rw [scan_ok c s.mem _ r b fuel hch (by simpa using h)]
      cases List.find? (fun g => decide (total_size c size ≤ g.ff)) (b :: r) with
      | none => exact ⟨_, rfl⟩
      | some g => exact ⟨_, rfl⟩
  · intro h0 hlt
    rw [first_fit_unfold c s b r size _ hinv] at h0
    rw [first_fit_unfold c s b r size fuel hinv]
    by_cases hfit : toInt32 ((b.h : Int) - ((s.start + c.LS : Nat) : Int)) ≥
        toInt32 ((total_size c size : Nat) : Int)
    · rw [if_pos hfit] at h0
      have := Except.ok.inj h0
      omega
    · rw [if_neg hfit] at h0 ⊢
      rw [scan_ok c s.mem _ r b _ hch (by simp)] at h0
      cases hfd : List.find? (fun g => decide (total_size c size ≤ g.ff)) (b :: r) with
      | some g =>
        rw [hfd] at h0
        have h1 : g.tl c + c.TS = 0 := Except.ok.inj h0
        omega
      | none =>
        have hno : ∀ g ∈ b :: r, ¬ total_size c size ≤ g.ff := by
          intro g hg hle
          have := List.find?_eq_none.mp hfd g hg
          exact this (decide_eq_true hle)
        rw [scan_short c s.mem _ r b fuel hch hno
          (by simp only [List.length_cons] at hlt; omega)]
        rfl

/-- Where the second loop of `next_fit` starts, for the cursor block `C`. -/
theorem wrap_start (c : Sizes) (s : Heap) (A B : List Blk) (C : Blk)
    (hinv : Inv c s (A ++ C :: B)) :
    (A = [] → next_seg_tail s.mem (first_seg s.mem s.start) = C.tl c) ∧
    (∀ a A', A = a :: A' → next_seg_tail s.mem (first_seg s.mem s.start) = a.tl c ∧
      Chain c s.mem a (A' ++ C :: B)) ∧
    (∀ x ∈ A, x.tl c < C.tl c) := by
  have hc := hinv.1
  have c5 := hc.2.2.2.2.1
  have c6 := hc.2.2.2.2.2.1
  have htl := Blk.tl_ge c C
  refine ⟨?_, ?_, ?_⟩
  · intro hA
    subst hA
    exact (Inv_head c s C B hinv).2.2.2.1 ▸ (by rw [(Inv_head c s C B hinv).2.1])
  · intro a A' hA
    subst hA
    have hinv2 : Inv c s (a :: (A' ++ C :: B)) := hinv
    obtain ⟨-, hf, -, hnt, hch⟩ := Inv_head c s a (A' ++ C :: B) hinv2
    rw [hf]
    exact ⟨hnt, hch⟩
  · intro x hx
    obtain ⟨-, -, -, -, -, -, -, -, -, -, -, -, -, ⟨lo, -, htiles⟩, -⟩ := id hinv
    have hpw := Tiles_pairwise c _ _ _ htiles
    have h1 := (List.pairwise_append.mp hpw).2.2 x hx C (List.mem_cons_self _ _)
    have h2 := Blk.nx_ge c x
    clear * - h1 h2 htl c5 c6
    omega

theorem wrap_ok (c : Sizes) (s : Heap) (A B : List Blk) (C : Blk) (total fuel : Nat)
    (hinv : Inv c s (A ++ C :: B)) (hf : A.length < fuel) :
    ∃ x, next_fit_wrap s.mem c total (C.tl c) fuel
      (next_seg_tail s.mem (first_seg s.mem s.start)) = .ok x := by
  obtain ⟨w1, w2, w3⟩ := wrap_start c s A B C hinv
  rcases next_fit_wrap_spec c s.mem total C B A _ fuel w1 w2 w3 with h | ⟨-, h⟩
  · exact ⟨_, h⟩
  · omega

theorem next_fit_unfold (c : Sizes) (s : Heap) (A B : List Blk) (C : Blk) (size fuel : Nat)
    (hinv : Inv c s (A ++ C :: B)) :
    next_fit c fuel s.mem (C.tl c) s.start size =
      (scan_loop s.mem c (total_size c size) fuel (C.tl c) >>= fun o =>
        match o with
        | some a => pure a
        | none =>
          if toInt32 ((first_seg s.mem s.start : Int) - ((s.start + c.LS : Nat) : Int)) ≥
              toInt32 ((total_size c size : Nat) : Int) then pure (s.start + c.LS)
          else next_fit_wrap s.mem c (total_size c size) (C.tl c) fuel
            (next_seg_tail s.mem (first_seg s.mem s.start))) := by
  obtain ⟨b1, b2, b3, b4, b5, b6⟩ := Inv_bounds c s _ hinv
  obtain ⟨k1, k2, k3⟩ := Inv_mem_lo c s _ C hinv (by simp)
  have htl := Blk.tl_ge c C
  have hnx := Blk.nx_ge c C
  have hc := hinv.1
  have c5 := hc.2.2.2.2.1
  have c6 := hc.2.2.2.2.2.1
  unfold next_fit
  dsimp only
  rw [if_neg (by omega), if_neg (by omega), ASSERT_bind _ _ (by omega)]
  all_goals rfl

/-- `next_fit` with the cursor at the tail of the block `C` returns when it is given
as many iterations as there are blocks; its first loop returns within as many
iterations as there are blocks from `C` on, and its second loop within as many
tests of its condition as there are blocks in front of `C`, plus one. -/
theorem next_fit_fuel (c : Sizes) (s : Heap) (A B : List Blk) (C : Blk) (size fuel : Nat)
    (hinv : Inv c s (A ++ C :: B)) :
    ((A ++ C :: B).length ≤ fuel →
      ∃ x, next_fit c fuel s.mem (C.tl c) s.start size = .ok x) ∧
    (∃ o, scan_loop s.mem c (total_size c size) (B.length + 1) (C.tl c) = .ok o) ∧
    (∃ x, next_fit_wrap s.mem c (total_size c size) (C.tl c) (A.length + 1)
      (next_seg_tail s.mem (first_seg s.mem s.start)) = .ok x) := by
  have hch := Inv_chain c s B A C hinv
  refine ⟨?_, ⟨_, scan_ok c s.mem _ B C _ hch (Nat.lt_succ_self _)⟩,
    wrap_ok c s A B C _ _ hinv (Nat.lt_succ_self _)⟩
  intro h
  simp only [List.length_append, List.length_cons] at h
  rw [next_fit_unfold c s A B C size fuel hinv, scan_ok c s.mem _ B C fuel hch (by omega)]
  cases List.find? (fun g => decide (total_size c size ≤ g.ff)) (C :: B) with
  | some g => exact ⟨_, rfl⟩
  | none =>
    show ∃ x, (if toInt32 ((first_seg s.mem s.start : Int) - ((s.start + c.LS : Nat) : Int)) ≥
        toInt32 ((total_size c size : Nat) : Int) then (pure (s.start + c.LS) : Except Stop Nat)
      else next_fit_wrap s.mem c (total_size c size) (C.tl c) fuel
        (next_seg_tail s.mem (first_seg s.mem s.start))) = Except.ok x
    split
    · exact ⟨_, rfl⟩
    · exact wrap_ok c s A B C _ fuel hinv (by omega)

/-- On a directory without blocks the policies return without a loop iteration. -/
theorem policy_empty_ok (c : Sizes) (s : Heap) (size fuel : Nat) (hinv : Inv c s []) :
    (∃ x, first_fit c fuel s.mem s.start size = .ok x) ∧
    (∃ x, best_fit c fuel s.mem s.start size = .ok x) ∧
    (∃ x, worst_fit c fuel s.mem s.start size = .ok x) := by
  obtain ⟨b1, b2, b3, b4, b5, b6⟩ := Inv_bounds c s _ hinv
  have hf : first_seg s.mem s.start = 0 := hinv.2.2.2.2.2.2.2.2.2.2.2.1
  have he : ¬ end_addr s.mem s.start = 0 := by omega
  refine ⟨?_, ?_, ?_⟩
  · unfold first_fit
    dsimp only
    rw [if_neg he, if_pos hf]
    split <;> exact ⟨_, rfl⟩
  · unfold best_fit
    dsimp only
    rw [if_neg he, if_pos hf]
    split <;> exact ⟨_, rfl⟩
  · unfold worst_fit
    dsimp only
    rw [if_neg he, if_pos hf]
    split <;> exact ⟨_, rfl⟩

/-- Claim C35: on the directory of a reachable state with `n` live blocks, for every
size, each of the four policies returns when it is given `n` iterations for each of
its loops; `best_fit` and `worst_fit` run out of iterations when given fewer than
`n`, and so does `first_fit` when it returns null, that is without an early return;
and with a cursor, the first loop of `next_fit` returns within `k1` iterations and
its second loop within `k2` iterations and one more test of its condition, for some
`k1 + k2 = n`. -/
theorem C35_policies_terminate (c : Sizes) (hc : c.ok) (s : Heap) (L : List Nat)
    (h : Reach c s L) (hs0 : s.start ≠ 0) (size fuel : Nat) :
    (L.length ≤ fuel →
      (∃ r, first_fit c fuel s.mem s.start size = .ok r) ∧
      (∃ r, best_fit c fuel s.mem s.start size = .ok r) ∧
      (∃ r, worst_fit c fuel s.mem s.start size = .ok r) ∧
      (∃ r, next_fit c fuel s.mem s.last_addr s.start size = .ok r)) ∧
    (fuel < L.length →
      best_fit c fuel s.mem s.start size = .error Stop.fuel ∧
      worst_fit c fuel s.mem s.start size = .error Stop.fuel ∧
      (first_fit c L.length s.mem s.start size = .ok 0 →
        first_fit c fuel s.mem s.start size = .error Stop.fuel)) ∧
    (s.last_addr ≠ 0 → ∃ k1 k2, k1 + k2 = L.length ∧
      (∃ o, scan_loop s.mem c (total_size c size) k1 s.last_addr = .ok o) ∧
      (∃ r, next_fit_wrap s.mem c (total_size c size) s.last_addr (k2 + 1)
        (next_seg_tail s.mem (first_seg s.mem s.start)) = .ok r)) := by
  obtain ⟨bs, hp, hinv, hL, hlen, -⟩ := reach_dir c hc s L h hs0
  rw [hlen]
  have hcur : s.last_addr = 0 ∨ ∃ b ∈ bs, s.last_addr = b.tl c :=
    hinv.2.2.2.2.2.2.2.2.2.2.2.2.2.2
  cases bs with
  | nil =>
    obtain ⟨p1, p2, p3⟩ := policy_empty_ok c s size fuel hinv
    have hl0 : s.last_addr = 0 := by
      rcases hcur with e | ⟨b, hb, -⟩
      · exact e
      · cases hb
    refine ⟨fun _ => ⟨p1, p2, p3, ?_⟩, fun hlt => ?_, fun hne => absurd hl0 hne⟩
    · rw [hl0, next_fit_none]
      exact p1
    · simp only [List.length_nil] at hlt
      omega
  | cons b r =>
    obtain ⟨f1, f2⟩ := first_fit_fuel c s b r size fuel hinv
    obtain ⟨g1, g2⟩ := best_fit_fuel c s b r size fuel hinv
    obtain ⟨w1, w2⟩ := worst_fit_fuel c s b r size fuel hinv
    refine ⟨fun hle => ⟨f1 hle, g1 hle, w1 hle, ?_⟩, fun hlt => ⟨g2 hlt, w2 hlt, fun h0 =>
      f2 h0 hlt⟩, fun hne => ?_⟩
    · rcases hcur with e | ⟨C, hC, e⟩
      · rw [e, next_fit_none]
        exact f1 hle
      · obtain ⟨A, B, hAB⟩ := List.append_of_mem hC
        rw [e]
        have hinv2 := hinv
        rw [hAB] at hinv2 hle
        exact (next_fit_fuel c s A B C size fuel hinv2).1 hle
    · rcases hcur with e | ⟨C, hC, e⟩
      · exact absurd e hne
      · obtain ⟨A, B, hAB⟩ := List.append_of_mem hC
        rw [e]
        have hinv2 := hinv
        rw [hAB] at hinv2
        obtain ⟨-, n2, n3⟩ := next_fit_fuel c s A B C size fuel hinv2
        refine ⟨B.length + 1, A.length, ?_, n2, n3⟩
        rw [hAB]
        simp only [List.length_append, List.length_cons]
        omega

/-- Claim C35 on the state after two `malloc(1)` calls, for the size `16`: with two
iterations each policy returns, and with one iteration `best_fit` and `worst_fit`
run out of iterations. -/
theorem C35_policies_terminate_witness :
    sizes64.ok ∧ Reach sizes64 heap2 [1200, 1088] ∧ heap2.start ≠ 0 ∧
    [1200, 1088].length ≤ 2 ∧ 1 < [1200, 1088].length ∧
    ((∃ r, first_fit sizes64 2 heap2.mem heap2.start 16 = .ok r) ∧
      (∃ r, best_fit sizes64 2 heap2.mem heap2.start 16 = .ok r) ∧
      (∃ r, worst_fit sizes64 2 heap2.mem heap2.start 16 = .ok r) ∧
      (∃ r, next_fit sizes64 2 heap2.mem heap2.last_addr heap2.start 16 = .ok r)) ∧
    best_fit sizes64 1 heap2.mem heap2.start 16 = .error Stop.fuel ∧
    worst_fit sizes64 1 heap2.mem heap2.start 16 = .error Stop.fuel :=
  ⟨by decide, reach_heap2, by decide, by decide, by decide,
    (C35_policies_terminate sizes64 (by decide) heap2 [1200, 1088] reach_heap2 (by decide)
      16 2).1 (by decide),
    ((C35_policies_terminate sizes64 (by decide) heap2 [1200, 1088] reach_heap2 (by decide)
      16 1).2.1 (by decide)).1,
    ((C35_policies_terminate sizes64 (by decide) heap2 [1200, 1088] reach_heap2 (by decide)
      16 1).2.1 (by decide)).2.1⟩

/-! ## The mutex

Only `pthread_mutex_lock` stops with `Stop.deadlock`; the functions below the public
calls never do. -/

theorem ASSERT_dl {β : Type} (p : Prop) [Decidable p] (f : Unit → Except Stop β)
    (h : (ASSERT p >>= f) = .error Stop.deadlock) : p ∧ f () = .error Stop.deadlock := by
  by_cases hp : p
  · rw [ASSERT_bind p f hp] at h
    exact ⟨hp, h⟩
  · rw [ASSERT_fail_bind p f hp] at h
    cases h

theorem bind_dl {α β : Type} (x : Except Stop α) (f : α → Except Stop β)
    (hx : x ≠ .error Stop.deadlock) (h : (x >>= f) = .error Stop.deadlock) :
    ∃ a, x = .ok a ∧ f a = .error Stop.deadlock := by
  cases x with
  | error e =>
    have : e = Stop.deadlock := Except.error.inj h
    subst this
    exact absurd rfl hx
  | ok a => exact ⟨a, rfl, h⟩

theorem sbrk_or_dl (stop : Stop) (s : Heap) (incr : Int) (hs : stop ≠ Stop.deadlock) :
    sbrk_or stop s incr ≠ .error Stop.deadlock := by
  unfold sbrk_or
  intro h
  split at h
  · exact hs (Except.error.inj h)
  · cases h

theorem init_tail_dl (c : Sizes) (m : Mem) (list : Nat) :
    init_tail c m list ≠ .error Stop.deadlock := by
  intro h
  unfold init_tail at h
  obtain ⟨-, h⟩ := ASSERT_dl _ _ h
  cases h

theorem reset_list_dl (c : Sizes) (s : Heap) (list : Nat) :
    reset_list c s list ≠ .error Stop.deadlock := by
  intro h
  unfold reset_list at h
  obtain ⟨m, -, h⟩ := bind_dl _ _ (init_tail_dl c _ list) h
  dsimp only at h
  split at h <;> cases h

theorem create_list_dl (c : Sizes) (s : Heap) : create_list c s ≠ .error Stop.deadlock := by
  intro h
  unfold create_list at h
  split at h
  · cases h
  · obtain ⟨m, -, h⟩ := bind_dl _ _ (init_tail_dl c _ _) h
    cases h

theorem find_last_tail_dl (c : Sizes) (m : Mem) (list : Nat) :
    find_last_tail c m list ≠ .error Stop.deadlock := by
  intro h
  unfold find_last_tail at h
  split at h
  · cases h
  · split at h
    · cases h
    · obtain ⟨-, h⟩ := ASSERT_dl _ _ h
      obtain ⟨-, h⟩ := ASSERT_dl _ _ h
      cases h

theorem get_prev_reference_dl (c : Sizes) (m : Mem) (list addr : Nat) :
    get_prev_reference c m list addr ≠ .error Stop.deadlock := by
  intro h
  unfold get_prev_reference at h
  obtain ⟨-, h⟩ := ASSERT_dl _ _ h
  obtain ⟨-, h⟩ := ASSERT_dl _ _ h
  split at h
  · obtain ⟨-, h⟩ := ASSERT_dl _ _ h
    cases h
  · split at h
    · obtain ⟨-, h⟩ := ASSERT_dl _ _ h
      cases h
    · cases h

theorem scan_loop_dl (m : Mem) (c : Sizes) (total : Nat) :
    ∀ fuel t, scan_loop m c total fuel t ≠ .error Stop.deadlock := by
  intro fuel
  induction fuel with
  | zero => intro t h; cases h
  | succ f ih =>
    intro t h
    unfold scan_loop at h
    split at h
    · cases h
    · dsimp only at h
      split at h
      · exact ih _ h
      · cases h

theorem best_fit_loop_dl (m : Mem) (c : Sizes) (total : Nat) :
    ∀ fuel t a b, best_fit_loop m c total fuel t a b ≠ .error Stop.deadlock := by
  intro fuel
  induction fuel with
  | zero => intro t a b h; cases h
  | succ f ih =>
    intro t a b h
    rw [best_fit_loop_succ] at h
    split at h
    · exact ih _ _ _ h
    · cases h

theorem worst_fit_loop_dl (m : Mem) (c : Sizes) (total : Nat) :
    ∀ fuel t a b, worst_fit_loop m c total fuel t a b ≠ .error Stop.deadlock := by
  intro fuel
  induction fuel with
  | zero => intro t a b h; cases h
  | succ f ih =>
    intro t a b h
    rw [worst_fit_loop_succ] at h
    split at h
    · exact ih _ _ _ h
    · cases h

theorem next_fit_wrap_dl (m : Mem) (c : Sizes) (total last : Nat) :
    ∀ fuel t, next_fit_wrap m c total last fuel t ≠ .error Stop.deadlock := by
  intro fuel
  induction fuel with
  | zero => intro t h; cases h
  | succ f ih =>
    intro t h
    unfold next_fit_wrap at h
    split at h
    · split at h
      · cases h
      · exact ih _ h
    · cases h

theorem first_fit_dl (c : Sizes) (fuel : Nat) (m : Mem) (list size : Nat) :
    first_fit c fuel m list size ≠ .error Stop.deadlock := by
  intro h
  unfold first_fit at h
  dsimp only at h
  split at h
  · cases h
  · split at h
    · split at h <;> cases h
    · split at h
      · cases h
      · obtain ⟨o, -, h⟩ := bind_dl _ _ (scan_loop_dl m c _ fuel _) h
        cases o <;> cases h

theorem best_fit_dl (c : Sizes) (fuel : Nat) (m : Mem) (list size : Nat) :
    best_fit c fuel m list size ≠ .error Stop.deadlock := by
  intro h
  unfold best_fit at h
  dsimp only at h
  split at h
  · cases h
  · split at h
    · split at h <;> cases h
    · exact best_fit_loop_dl m c _ fuel _ _ _ h

theorem worst_fit_dl (c : Sizes) (fuel : Nat) (m : Mem) (list size : Nat) :
    worst_fit c fuel m list size ≠ .error Stop.deadlock := by
  intro h
  unfold worst_fit at h
  dsimp only at h
  split at h
  · cases h
  · split at h
    · split at h <;> cases h
    · exact worst_fit_loop_dl m c _ fuel _ _ _ h

theorem next_fit_dl (c : Sizes) (fuel : Nat) (m : Mem) (last list size : Nat) :
    next_fit c fuel m last list size ≠ .error Stop.deadlock := by
  intro h
  unfold next_fit at h
  dsimp only at h
  split at h
  · cases h
  · split at h
    · exact first_fit_dl c fuel m list size h
    · obtain ⟨-, h⟩ := ASSERT_dl _ _ h
      obtain ⟨o, -, h⟩ := bind_dl _ _ (scan_loop_dl m c _ fuel _) h
      cases o with
      | some a => cases h
      | none =>
        dsimp only at h
        split at h
        · cases h
        · exact next_fit_wrap_dl m c _ _ fuel _ h

theorem g_alloc_dl (c : Sizes) (fuel : Nat) (s : Heap) (size : Nat) :
    g_alloc c fuel s size ≠ .error Stop.deadlock := by
  unfold g_alloc
  cases s.g_alloc_function with
  | BEST_FIT => exact best_fit_dl c fuel _ _ _
  | FIRST_FIT => exact first_fit_dl c fuel _ _ _
  | NEXT_FIT => exact next_fit_dl c fuel _ _ _ _
  | WORST_FIT => exact worst_fit_dl c fuel _ _ _

theorem add_entry_front_dl (c : Sizes) (s : Heap) (addr size eff : Nat) (ns : Int) :
    add_entry_front c s addr size eff ns ≠ .error Stop.deadlock := by
  intro h
  unfold add_entry_front at h
  obtain ⟨-, h⟩ := ASSERT_dl _ _ h
  obtain ⟨-, h⟩ := ASSERT_dl _ _ h
  obtain ⟨-, h⟩ := ASSERT_dl _ _ h
  obtain ⟨-, h⟩ := ASSERT_dl _ _ h
  obtain ⟨-, h⟩ := ASSERT_dl _ _ h
  cases h

theorem add_entry_after_dl (c : Sizes) (s : Heap) (addr size eff : Nat) (ns : Int)
    (prev : Nat) : add_entry_after c s addr size eff ns prev ≠ .error Stop.deadlock := by
  intro h
  unfold add_entry_after at h
  obtain ⟨-, h⟩ := ASSERT_dl _ _ h
  obtain ⟨-, h⟩ := ASSERT_dl _ _ h
  obtain ⟨-, h⟩ := ASSERT_dl _ _ h
  obtain ⟨-, h⟩ := ASSERT_dl _ _ h
  obtain ⟨-, h⟩ := ASSERT_dl _ _ h
  obtain ⟨-, h⟩ := ASSERT_dl _ _ h
  cases h

theorem add_entry_empty_dl (c : Sizes) (s : Heap) (addr size eff : Nat) (ns : Int) :
    add_entry_empty c s addr size eff ns ≠ .error Stop.deadlock := by
  intro h
  unfold add_entry_empty at h
  obtain ⟨-, h⟩ := ASSERT_dl _ _ h
  split at h
  · obtain ⟨-, h⟩ := ASSERT_dl _ _ h
    obtain ⟨-, h⟩ := ASSERT_dl _ _ h
    obtain ⟨-, h⟩ := ASSERT_dl _ _ h
    obtain ⟨-, h⟩ := ASSERT_dl _ _ h
    cases h
  · cases h

theorem add_entry_jp_dl (c : Sizes) (y : Nat × Heap)
    (h : (match y with
      | (new_seg, s1) =>
        if new_seg ≠ 0 then
          let s2 := set_last_addr s1 (next_seg_tail s1.mem new_seg)
          (pure (new_seg + c.HS, s2) : Except Stop (Nat × Heap))
        else pure (0, s1)) = .error Stop.deadlock) : False := by
  obtain ⟨n, s2⟩ := y
  dsimp only at h
  split at h <;> cases h

theorem add_entry_dl (c : Sizes) (s : Heap) (addr size : Nat) :
    add_entry c s addr size ≠ .error Stop.deadlock := by
  intro h
  unfold add_entry at h
  split at h
  · cases h
  · obtain ⟨-, h⟩ := ASSERT_dl _ _ h
    obtain ⟨-, h⟩ := ASSERT_dl _ _ h
    dsimp only at h
    split at h
    · obtain ⟨prev, -, h⟩ := bind_dl _ _ (get_prev_reference_dl c _ _ _) h
      split at h
      · obtain ⟨y, -, h⟩ := bind_dl _ _ (add_entry_front_dl c _ _ _ _ _) h
        exact add_entry_jp_dl c y h
      · obtain ⟨y, -, h⟩ := bind_dl _ _ (add_entry_after_dl c _ _ _ _ _ _) h
        exact add_entry_jp_dl c y h
    · obtain ⟨y, -, h⟩ := bind_dl _ _ (add_entry_empty_dl c _ _ _ _ _) h
      exact add_entry_jp_dl c y h

theorem remove_shrink_dl (c : Sizes) (s : Heap) (pred : Nat) :
    remove_shrink c s pred ≠ .error Stop.deadlock := by
  intro h
  unfold remove_shrink at h
  split at h
  · obtain ⟨-, h⟩ := ASSERT_dl _ _ h
    obtain ⟨-, h⟩ := ASSERT_dl _ _ h
    obtain ⟨y, -, h⟩ := bind_dl _ _ (sbrk_or_dl _ _ _ (by decide)) h
    obtain ⟨n, s1⟩ := y
    dsimp only at h
    obtain ⟨-, h⟩ := ASSERT_dl _ _ h
    obtain ⟨-, h⟩ := ASSERT_dl _ _ h
    cases h
  · cases h

theorem ite_dl {α : Type} (p : Prop) [Decidable p] (a b : Except Stop α)
    (ha : a ≠ .error Stop.deadlock) (hb : b ≠ .error Stop.deadlock) :
    (if p then a else b) ≠ .error Stop.deadlock := by
  split
  · exact ha
  · exact hb

theorem pure_dl {α : Type} (a : α) : (pure a : Except Stop α) ≠ .error Stop.deadlock := by
  intro h
  cases h

theorem remove_inner_dl (c : Sizes) (s : Heap) (old : Nat) :
    remove_inner c s old ≠ .error Stop.deadlock := by
  intro h
  unfold remove_inner at h
  obtain ⟨-, h⟩ := ASSERT_dl _ _ h
  obtain ⟨-, h⟩ := ASSERT_dl _ _ h
  exact ite_dl _ _ _ (remove_shrink_dl c _ _) (pure_dl _) h

theorem remove_only_dl (c : Sizes) (s : Heap) (old : Nat) :
    remove_only c s old ≠ .error Stop.deadlock := by
  intro h
  unfold remove_only at h
  obtain ⟨-, h⟩ := ASSERT_dl _ _ h
  obtain ⟨y, -, h⟩ := bind_dl _ _ (reset_list_dl c _ _) h
  obtain ⟨n, s1⟩ := y
  dsimp only at h
  split at h <;> cases h

theorem remove_first_dl (c : Sizes) (s : Heap) (old : Nat) :
    remove_first c s old ≠ .error Stop.deadlock := by
  intro h
  unfold remove_first at h
  obtain ⟨t, -, h⟩ := bind_dl _ _ (find_last_tail_dl c _ _) h
  obtain ⟨-, h⟩ := ASSERT_dl _ _ h
  cases h

theorem remove_segment_dl (c : Sizes) (s : Heap) (addr : Nat) :
    remove_segment c s addr ≠ .error Stop.deadlock := by
  intro h
  unfold remove_segment at h
  obtain ⟨-, h⟩ := ASSERT_dl _ _ h
  obtain ⟨-, h⟩ := ASSERT_dl _ _ h
  obtain ⟨-, h⟩ := ASSERT_dl _ _ h
  obtain ⟨-, h⟩ := ASSERT_dl _ _ h
  split at h
  · exact remove_inner_dl c _ _ h
  · split at h
    · exact remove_only_dl c _ _ h
    · exact remove_first_dl c _ _ h

theorem shrink_segment_dl (c : Sizes) (s : Heap) (addr size : Nat) :
    shrink_segment c s addr size ≠ .error Stop.deadlock := by
  intro h
  unfold shrink_segment at h
  dsimp only at h
  split at h
  · cases h
  · obtain ⟨-, h⟩ := ASSERT_dl _ _ h
    obtain ⟨-, h⟩ := ASSERT_dl _ _ h
    obtain ⟨-, h⟩ := ASSERT_dl _ _ h
    cases h

theorem expand_segment_dl (c : Sizes) (s : Heap) (addr size : Nat) :
    expand_segment c s addr size ≠ .error Stop.deadlock := by
  intro h
  unfold expand_segment at h
  dsimp only at h
  split at h
  · cases h
  · obtain ⟨-, h⟩ := ASSERT_dl _ _ h
    obtain ⟨-, h⟩ := ASSERT_dl _ _ h
    obtain ⟨-, h⟩ := ASSERT_dl _ _ h
    cases h

theorem expand_list_dl (c : Sizes) (s : Heap) (size : Nat) :
    expand_list c s size ≠ .error Stop.deadlock := by
  intro h
  unfold expand_list at h
  split at h
  · cases h
  · obtain ⟨-, h⟩ := ASSERT_dl _ _ h
    dsimp only at h
    split at h
    · obtain ⟨-, h⟩ := ASSERT_dl _ _ h
      obtain ⟨-, h⟩ := ASSERT_dl _ _ h
      obtain ⟨y, -, h⟩ := bind_dl _ _ (sbrk_or_dl _ _ _ (by decide)) h
      obtain ⟨n, s1⟩ := y
      cases h
    · obtain ⟨t, -, h⟩ := bind_dl _ _ (find_last_tail_dl c _ _) h
      obtain ⟨-, h⟩ := ASSERT_dl _ _ h
      obtain ⟨-, h⟩ := ASSERT_dl _ _ h
      obtain ⟨-, h⟩ := ASSERT_dl _ _ h
      obtain ⟨y, -, h⟩ := bind_dl _ _ (sbrk_or_dl _ _ _ (by decide)) h
      obtain ⟨n, s1⟩ := y
      dsimp only at h
      obtain ⟨-, h⟩ := ASSERT_dl _ _ h
      cases h

theorem find_free_seg_dl (c : Sizes) (fuel : Nat) (s : Heap) (size : Nat) :
    find_free_seg c fuel s size ≠ .error Stop.deadlock := by
  intro h
  unfold find_free_seg at h
  split at h
  · obtain ⟨y, -, h⟩ := bind_dl _ _ (create_list_dl c _) h
    obtain ⟨n, s1⟩ := y
    dsimp only at h
    split at h
    · cases h
    · exact expand_list_dl c _ _ h
  · obtain ⟨a, -, h⟩ := bind_dl _ _ (g_alloc_dl c fuel _ _) h
    split at h
    · exact expand_list_dl c _ _ h
    · cases h

theorem lock_free (s : Heap) (hl : s.storage_lock = false) :
    pthread_mutex_lock s = .ok { s with storage_lock := true } := by
  unfold pthread_mutex_lock
  rw [hl]
  rfl

/-- `malloc` entered with the mutex free returns with the mutex free and does not
block. -/
theorem malloc_lock (c : Sizes) (fuel : Nat) (s : Heap) (size : Nat)
    (hl : s.storage_lock = false) :
    (∀ u s1, malloc c fuel s size = .ok (u, s1) → s1.storage_lock = false) ∧
    malloc c fuel s size ≠ .error Stop.deadlock := by
  by_cases hsz : size = 0
  · unfold malloc
    rw [if_pos hsz]
    constructor
    · intro u s1 h
      have e := (Prod.mk.inj (Except.ok.inj h)).2
      rw [← e]
      exact hl
    · exact pure_dl _
  · rw [malloc_eq c fuel s size hl hsz]
    constructor
    · intro u s1 h
      obtain ⟨r, -, h⟩ := bind_ok_of _ _ _ h
      split at h
      · have e := (Prod.mk.inj (Except.ok.inj h)).2
        rw [← e]
        rfl
      · obtain ⟨q, -, h⟩ := bind_ok_of _ _ _ h
        split at h
        · have e := (Prod.mk.inj (Except.ok.inj h)).2
          rw [← e]
          rfl
        · have e := (Prod.mk.inj (Except.ok.inj h)).2
          rw [← e]
          rfl
    · intro h
      obtain ⟨r, -, h⟩ := bind_dl _ _ (find_free_seg_dl c fuel _ _) h
      split at h
      · cases h
      · obtain ⟨q, -, h⟩ := bind_dl _ _ (add_entry_dl c _ _ _) h
        split at h <;> cases h

/-- `free` entered with the mutex free returns with the mutex free and does not
block. -/
theorem free_lock (c : Sizes) (s : Heap) (p : Nat) (hl : s.storage_lock = false) :
    (∀ s1, free c s p = .ok s1 → s1.storage_lock = false) ∧
    free c s p ≠ .error Stop.deadlock := by
  by_cases hp : p = 0
  · unfold free
    rw [if_pos hp]
    constructor
    · intro s1 h
      have e := Except.ok.inj h
      rw [← e]
      exact hl
    · exact pure_dl _
  · rw [free_eq c s p hl hp]
    constructor
    · intro s1 h
      obtain ⟨r, -, h⟩ := bind_ok_of _ _ _ h
      have e := Except.ok.inj h
      rw [← e]
      rfl
    · intro h
      obtain ⟨r, -, h⟩ := bind_dl _ _ (remove_segment_dl c _ _) h
      cases h

/-- `calloc` entered with the mutex free returns with the mutex free and does not
block. -/
theorem set_mem_zero_dl (m : Mem) (addr n : Nat) :
    set_mem_zero m addr n ≠ .error Stop.deadlock := by
  induction n with
  | zero => intro h; cases h
  | succ k ih =>
    intro h
    have h1 : (set_mem_zero m addr k >>= fun m1 =>
      set_byte m1 ((addr + k) % 18446744073709551616) 0) = .error Stop.deadlock := h
    obtain ⟨m1, -, h2⟩ := bind_dl _ _ ih h1
    unfold set_byte at h2
    split at h2 <;> cases h2

theorem calloc_lock (c : Sizes) (fuel : Nat) (s : Heap) (n size : Nat)
    (hl : s.storage_lock = false) :
    (∀ u s1, calloc c fuel s n size = .ok (u, s1) → s1.storage_lock = false) ∧
    calloc c fuel s n size ≠ .error Stop.deadlock := by
  obtain ⟨m1, m2⟩ := malloc_lock c fuel s (n * size % 18446744073709551616) hl
  unfold calloc
  by_cases h0 : n = 0 ∨ size = 0
  · rw [if_pos h0]
    constructor
    · intro u s1 h
      have e := (Prod.mk.inj (Except.ok.inj h)).2
      rw [← e]
      exact hl
    · exact pure_dl _
  · rw [if_neg h0]
    constructor
    · intro u s1 h
      obtain ⟨y, hy, h⟩ := bind_ok_of _ _ _ h
      obtain ⟨a, s0⟩ := y
      have hl0 := m1 a s0 hy
      dsimp only at h
      split at h
      · have e := (Prod.mk.inj (Except.ok.inj h)).2
        rw [← e]
        exact hl0
      · obtain ⟨m, -, h⟩ := bind_ok_of _ _ _ h
        have e := (Prod.mk.inj (Except.ok.inj h)).2
        rw [← e]
        exact hl0
    · intro h
      obtain ⟨y, hy, h⟩ := bind_dl _ _ m2 h
      obtain ⟨a, s0⟩ := y
      dsimp only at h
      split at h
      · cases h
      · obtain ⟨m, -, h⟩ := bind_dl _ _ (set_mem_zero_dl _ _ _) h
        cases h

theorem free_lock_mem (c : Sizes) (s : Heap) (m : Mem) (p : Nat)
    (hl : s.storage_lock = false) :
    (∀ s1, free c { s with mem := m } p = .ok s1 → s1.storage_lock = false) ∧
    free c { s with mem := m } p ≠ .error Stop.deadlock :=
  free_lock c { s with mem := m } p hl

theorem unlock_false (s : Heap) : (pthread_mutex_unlock s).storage_lock = false := rfl

/-- `realloc` entered with the mutex free returns with the mutex free and does not
block. -/
theorem realloc_lock (c : Sizes) (fuel : Nat) (s : Heap) (ptr size : Nat)
    (hl : s.storage_lock = false) :
    (∀ u s1, realloc c fuel s ptr size = .ok (u, s1) → s1.storage_lock = false) ∧
    realloc c fuel s ptr size ≠ .error Stop.deadlock := by
  unfold realloc
  by_cases h0 : size = 0
  · rw [if_pos h0]
    constructor
    · intro u s1 h
      have e := (Prod.mk.inj (Except.ok.inj h)).2
      rw [← e]
      exact hl
    · exact pure_dl _
  rw [if_neg h0]
  by_cases hp : ptr = 0
  · rw [if_pos hp]
    exact malloc_lock c fuel s size hl
  rw [if_neg hp, lock_free s hl, ok_bind]
  have hmove := malloc_lock c fuel (pthread_mutex_unlock { s with storage_lock := true }) size
    (unlock_false _)
  constructor
  · intro u s1 h
    dsimp only at h
    split at h
    · have e := (Prod.mk.inj (Except.ok.inj h)).2
      rw [← e]
      rfl
    · split at h
      · have e := (Prod.mk.inj (Except.ok.inj h)).2
        rw [← e]
        rfl
      · split at h
        · obtain ⟨y, -, h⟩ := bind_ok_of _ _ _ h
          obtain ⟨r, s2⟩ := y
          dsimp only at h
          split at h
          · have e := (Prod.mk.inj (Except.ok.inj h)).2
            rw [← e]
            rfl
          · have e := (Prod.mk.inj (Except.ok.inj h)).2
            rw [← e]
            rfl
        · split at h
          · obtain ⟨y, -, h⟩ := bind_ok_of _ _ _ h
            obtain ⟨r, s2⟩ := y
            dsimp only at h
            split at h
            · have e := (Prod.mk.inj (Except.ok.inj h)).2
              rw [← e]
              rfl
            · have e := (Prod.mk.inj (Except.ok.inj h)).2
              rw [← e]
              rfl
          · obtain ⟨y, hy, h⟩ := bind_ok_of _ _ _ h
            obtain ⟨a, s2⟩ := y
            have hl2 := hmove.1 a s2 hy
            dsimp only at h
            split at h
            · have e := (Prod.mk.inj (Except.ok.inj h)).2
              rw [← e]
              exact hl2
            · split at h
              · have e := (Prod.mk.inj (Except.ok.inj h)).2
                rw [← e]
                exact hl2
              · obtain ⟨s3, hs3, h⟩ := bind_ok_of _ _ _ h
                have e := (Prod.mk.inj (Except.ok.inj h)).2
                rw [← e]
                exact (free_lock_mem c s2 _ ptr hl2).1 s3 hs3
  · intro h
    dsimp only at h
    split at h
    · cases h
    · split at h
      · cases h
      · split at h
        · obtain ⟨y, -, h⟩ := bind_dl _ _ (shrink_segment_dl c _ _ _) h
          obtain ⟨r, s2⟩ := y
          dsimp only at h
          split at h <;> cases h
        · split at h
          · obtain ⟨y, -, h⟩ := bind_dl _ _ (expand_segment_dl c _ _ _) h
            obtain ⟨r, s2⟩ := y
            dsimp only at h
            split at h <;> cases h
          · obtain ⟨y, hy, h⟩ := bind_dl _ _ hmove.2 h
            obtain ⟨a, s2⟩ := y
            have hl2 := hmove.1 a s2 hy
            dsimp only at h
            split at h
            · cases h
            · split at h
              · cases h
              · obtain ⟨s3, hs3, h⟩ := bind_dl _ _ (free_lock_mem c s2 _ ptr hl2).2 h
                cases h

/-- Claim C37: in every state in which the mutex is free, for all arguments, each of
`malloc`, `free`, `calloc` and `realloc` that returns, returns with the mutex free,
whatever address it returns; and none of them stops at a `pthread_mutex_lock` on the
mutex that the caller holds. -/
theorem C37_lock_released (c : Sizes) (fuel : Nat) (s : Heap) (hl : s.storage_lock = false) :
    (∀ size, (∀ u s1, malloc c fuel s size = .ok (u, s1) → s1.storage_lock = false) ∧
      malloc c fuel s size ≠ .error Stop.deadlock) ∧
    (∀ p, (∀ s1, free c s p = .ok s1 → s1.storage_lock = false) ∧
      free c s p ≠ .error Stop.deadlock) ∧
    (∀ n size, (∀ u s1, calloc c fuel s n size = .ok (u, s1) → s1.storage_lock = false) ∧
      calloc c fuel s n size ≠ .error Stop.deadlock) ∧
    (∀ p size, (∀ u s1, realloc c fuel s p size = .ok (u, s1) → s1.storage_lock = false) ∧
      realloc c fuel s p size ≠ .error Stop.deadlock) :=
  ⟨fun size => malloc_lock c fuel s size hl, fun p => free_lock c s p hl,
    fun n size => calloc_lock c fuel s n size hl,
    fun p size => realloc_lock c fuel s p size hl⟩

/-- Claim C37 on the state after `malloc(1)`: `malloc(1)`, `realloc(1088, 17)` and
`realloc(1088, 0)`, which returns null, return with the mutex free, `free(1200)`
returns with the mutex free on the state after the `malloc`, and `realloc` with a
larger size, which releases the mutex for its nested `malloc` and `free`, does not
block. -/
theorem C37_lock_released_witness :
    heap1.storage_lock = false ∧ heap2.storage_lock = false ∧
    malloc sizes64 10 heap1 1 = .ok (1200, heap2) ∧
    free sizes64 heap2 1200 = .ok (roundTrip heap1 1) ∧
    (roundTrip heap1 1).storage_lock = false ∧
    realloc sizes64 10 heap1 1088 17 =
      .ok (1088, after heap1 (realloc sizes64 10 heap1 1088 17)) ∧
    (after heap1 (realloc sizes64 10 heap1 1088 17)).storage_lock = false ∧
    realloc sizes64 10 heap1 1088 0 = .ok (0, heap1) ∧
    realloc sizes64 10 heap2 1088 100 ≠ .error Stop.deadlock :=
  ⟨by decide,
    ((C37_lock_released sizes64 10 heap1 (by decide)).1 1).1 1200 heap2 rfl, rfl, rfl,
    ((C37_lock_released sizes64 10 heap2
      (((C37_lock_released sizes64 10 heap1 (by decide)).1 1).1 1200 heap2 rfl)).2.1 1200).1
      _ rfl,
    rfl,
    ((C37_lock_released sizes64 10 heap1 (by decide)).2.2.2 1088 17).1 1088 _ rfl,
    rfl,
    ((C37_lock_released sizes64 10 heap2 (by decide)).2.2.2 1088 100).2⟩

/-! ## The events of the public operations -/

theorem snd_bind {α β : Type} (x : Tr α) (f : α → Tr β) :
    (x >>= f).2 = x.2 >>= fun a => (f a).2 := by
  obtain ⟨l, r⟩ := x
  cases r <;> rfl

theorem snd_bind_of {α β : Type} (x : Tr α) (x1 : Except Stop α) (f : α → Tr β)
    (f1 : α → Except Stop β) (hx : x.2 = x1) (hf : ∀ a, (f a).2 = f1 a) :
    (x >>= f).2 = (x1 >>= f1) := by
  rw [snd_bind, hx]
  congr 1
  funext a
  exact hf a

theorem snd_ite_of {α : Type} (p : Prop) [Decidable p] (a b : Tr α) (a1 b1 : Except Stop α)
    (ha : a.2 = a1) (hb : b.2 = b1) : (if p then a else b).2 = if p then a1 else b1 := by
  split
  · exact ha
  · exact hb

theorem snd_lock (s : Heap) : (lock_ev s).2 = pthread_mutex_lock s := by
  unfold lock_ev
  cases pthread_mutex_lock s <;> rfl

theorem snd_dir {α : Type} (r : Except Stop α) : (dir_ev r).2 = r := rfl

theorem snd_bytes {α : Type} (a k : Nat) (r : Except Stop α) : (bytes_ev a k r).2 = r := rfl

/-- The run of `malloc` with its events is the run of `malloc`. -/
theorem malloc_ev_run (c : Sizes) (fuel : Nat) (s : Heap) (size : Nat) :
    (malloc_ev c fuel s size).2 = malloc c fuel s size := by
  unfold malloc_ev malloc
  refine snd_ite_of _ _ _ _ _ rfl (snd_bind_of _ _ _ _ (snd_lock s) ?_)
  intro s1
  refine snd_bind_of _ _ _ _ (snd_dir _) ?_
  rintro ⟨a, s2⟩
  refine snd_ite_of _ _ _ _ _ rfl (snd_bind_of _ _ _ _ (snd_dir _) ?_)
  rintro ⟨u, s3⟩
  exact snd_ite_of _ _ _ _ _ rfl rfl

/-- The run of `free` with its events is the run of `free`. -/
theorem free_ev_run (c : Sizes) (s : Heap) (ptr : Nat) :
    (free_ev c s ptr).2 = free c s ptr := by
  unfold free_ev free
  refine snd_ite_of _ _ _ _ _ rfl (snd_bind_of _ _ _ _ (snd_lock s) ?_)
  intro s1
  exact snd_bind_of _ _ _ _ (snd_dir _) (fun _ => rfl)

/-- The run of `calloc` with its events is the run of `calloc`. -/
theorem calloc_ev_run (c : Sizes) (fuel : Nat) (s : Heap) (n size : Nat) :
    (calloc_ev c fuel s n size).2 = calloc c fuel s n size := by
  unfold calloc_ev calloc
  refine snd_ite_of _ _ _ _ _ rfl (snd_bind_of _ _ _ _ (malloc_ev_run c fuel s _) ?_)
  rintro ⟨a, s1⟩
  exact snd_ite_of _ _ _ _ _ rfl (snd_bind_of _ _ _ _ (snd_bytes _ _ _) (fun _ => rfl))

theorem snd_dir_pure {α β : Type} (v : α) (f : α → Tr β) :
    (dir_ev (pure v) >>= f).2 = (f v).2 := rfl

theorem snd_bytes_pure {α β : Type} (a k : Nat) (v : α) (f : α → Tr β) :
    (bytes_ev a k (pure v) >>= f).2 = (f v).2 := rfl

theorem snd_unlock {β : Type} (s : Heap) (f : Heap → Tr β) :
    (unlock_ev s >>= f).2 = (f (pthread_mutex_unlock s)).2 := rfl

/-- The run of `realloc` with its events is the run of `realloc`. -/
theorem realloc_ev_run (c : Sizes) (fuel : Nat) (s : Heap) (ptr size : Nat) :
    (realloc_ev c fuel s ptr size).2 = realloc c fuel s ptr size := by
  unfold realloc_ev realloc
  refine snd_ite_of _ _ _ _ _ rfl (snd_ite_of _ _ _ _ _ (malloc_ev_run c fuel s size)
    (snd_bind_of _ _ _ _ (snd_lock s) ?_))
  intro s1
  refine (snd_dir_pure _ _).trans ?_
  refine snd_ite_of _ _ _ _ _ rfl (snd_ite_of _ _ _ _ _ rfl (snd_ite_of _ _ _ _ _ ?_ ?_))
  · refine snd_bind_of _ _ _ _ (snd_dir _) ?_
    rintro ⟨r, s2⟩
    refine (snd_unlock _ _).trans ?_
    exact snd_ite_of _ _ _ _ _ rfl rfl
  · refine (snd_dir_pure _ _).trans ?_
    refine snd_ite_of _ _ _ _ _ ?_ ?_
    · refine snd_bind_of _ _ _ _ (snd_dir _) ?_
      rintro ⟨r, s2⟩
      refine (snd_unlock _ _).trans ?_
      exact snd_ite_of _ _ _ _ _ rfl rfl
    · refine (snd_unlock _ _).trans ?_
      refine snd_bind_of _ _ _ _ (malloc_ev_run c fuel _ size) ?_
      rintro ⟨a, s2⟩
      refine snd_ite_of _ _ _ _ _ rfl ?_
      refine (snd_bytes_pure _ _ _ _).trans ?_
      show (match copy_mem s2.mem ptr a (get_segment_size c s1.mem ptr) with
        | none => _ | some m => _ : Tr (Nat × Heap)).2 = _
      cases copy_mem s2.mem ptr a (get_segment_size c s1.mem ptr) with
      | none => rfl
      | some m => exact snd_bind_of _ _ _ _ (free_ev_run c _ ptr) (fun _ => rfl)

/-- The run of `clear_alloc_storage` with its events is the run of
`clear_alloc_storage`. -/
theorem clear_ev_run (c : Sizes) (s : Heap) :
    (clear_alloc_storage_ev c s).2 = clear_alloc_storage c s := by
  unfold clear_alloc_storage_ev clear_alloc_storage
  refine (snd_dir_pure _ _).trans ?_
  refine snd_bind_of _ _ _ _ (snd_dir _) ?_
  rintro ⟨r, s2⟩
  exact snd_ite_of _ _ _ _ _ rfl rfl

theorem guarded_append (l1 l2 : List Ev) :
    ∀ own, guarded own (l1 ++ l2) = (guarded own l1 && guarded (ownAfter own l1) l2) := by
  induction l1 with
  | nil => intro own; rfl
  | cons e l ih =>
    intro own
    cases e with
    | lock => exact ih true
    | unlock => exact ih false
    | dir =>
      show (own && guarded own (l ++ l2)) = ((own && guarded own l) && _)
      rw [ih own, Bool.and_assoc]
      rfl
    | policy =>
      show (own && guarded own (l ++ l2)) = ((own && guarded own l) && _)
      rw [ih own, Bool.and_assoc]
      rfl
    | bytes a k => exact ih own

theorem guarded_bind {α β : Type} (own : Bool) (x : Tr α) (f : α → Tr β)
    (h1 : guarded own x.1 = true)
    (h2 : ∀ a, x.2 = .ok a → guarded (ownAfter own x.1) (f a).1 = true) :
    guarded own (x >>= f).1 = true := by
  obtain ⟨l, r⟩ := x
  cases r with
  | error e => exact h1
  | ok a =>
    show guarded own (l ++ (f a).1) = true
    rw [guarded_append, h1, h2 a rfl]
    rfl

theorem guarded_ite {α : Type} (own : Bool) (p : Prop) [Decidable p] (a b : Tr α)
    (ha : guarded own a.1 = true) (hb : guarded own b.1 = true) :
    guarded own (if p then a else b).1 = true := by
  split
  · exact ha
  · exact hb

theorem lock_guarded (own : Bool) (s : Heap) : guarded own (lock_ev s).1 = true := by
  unfold lock_ev
  cases pthread_mutex_lock s <;> rfl

theorem lock_own (own : Bool) (s s1 : Heap) (h : (lock_ev s).2 = .ok s1) :
    ownAfter own (lock_ev s).1 = true := by
  unfold lock_ev at h ⊢
  cases hl : pthread_mutex_lock s with
  | ok a => rfl
  | error e =>
    rw [hl] at h
    cases h

/-- The events of `malloc`: every call into the directory code is made while the
caller holds the mutex. -/
theorem malloc_guarded (c : Sizes) (fuel : Nat) (s : Heap) (size : Nat) (own : Bool) :
    guarded own (malloc_ev c fuel s size).1 = true := by
  unfold malloc_ev
  refine guarded_ite _ _ _ _ rfl (guarded_bind _ _ _ (lock_guarded own s) (fun s1 h1 => ?_))
  rw [lock_own own s s1 h1]
  refine guarded_bind _ _ _ rfl ?_
  rintro ⟨a, s2⟩ -
  refine guarded_ite _ _ _ _ rfl (guarded_bind _ _ _ rfl ?_)
  rintro ⟨u, s3⟩ -
  exact guarded_ite _ _ _ _ rfl rfl

/-- The events of `free`: the call into the directory code is made while the caller
holds the mutex. -/
theorem free_guarded (c : Sizes) (s : Heap) (ptr : Nat) (own : Bool) :
    guarded own (free_ev c s ptr).1 = true := by
  unfold free_ev
  refine guarded_ite _ _ _ _ rfl (guarded_bind _ _ _ (lock_guarded own s) (fun s1 h1 => ?_))
  rw [lock_own own s s1 h1]
  exact guarded_bind _ _ _ rfl (fun _ _ => rfl)

/-- The events of `calloc`: every call into the directory code is made while the
caller holds the mutex. -/
theorem calloc_guarded (c : Sizes) (fuel : Nat) (s : Heap) (n size : Nat) (own : Bool) :
    guarded own (calloc_ev c fuel s n size).1 = true := by
  unfold calloc_ev
  refine guarded_ite _ _ _ _ rfl (guarded_bind _ _ _ (malloc_guarded c fuel s _ own) ?_)
  rintro ⟨a, s1⟩ -
  exact guarded_ite _ _ _ _ rfl (guarded_bind _ _ _ rfl (fun _ _ => rfl))

/-- The events of `realloc`: every call into the directory code is made while the
caller holds the mutex. -/
theorem realloc_guarded (c : Sizes) (fuel : Nat) (s : Heap) (ptr size : Nat) (own : Bool) :
    guarded own (realloc_ev c fuel s ptr size).1 = true := by
  unfold realloc_ev
  refine guarded_ite _ _ _ _ rfl (guarded_ite _ _ _ _ (malloc_guarded c fuel s size own)
    (guarded_bind _ _ _ (lock_guarded own s) (fun s1 h1 => ?_)))
  rw [lock_own own s s1 h1]
  refine guarded_bind _ _ _ rfl ?_
  rintro old -
  refine guarded_ite _ _ _ _ rfl (guarded_ite _ _ _ _ rfl (guarded_ite _ _ _ _ ?_ ?_))
  · refine guarded_bind _ _ _ rfl ?_
    rintro ⟨r, s2⟩ -
    refine guarded_bind _ _ _ rfl ?_
    rintro s3 -
    exact guarded_ite _ _ _ _ rfl rfl
  · refine guarded_bind _ _ _ rfl ?_
    rintro gap -
    refine guarded_ite _ _ _ _ ?_ ?_
    · refine guarded_bind _ _ _ rfl ?_
      rintro ⟨r, s2⟩ -
      refine guarded_bind _ _ _ rfl ?_
      rintro s3 -
      exact guarded_ite _ _ _ _ rfl rfl
    · refine guarded_bind _ _ _ rfl ?_
      rintro s2 -
      refine guarded_bind _ _ _ (malloc_guarded c fuel _ size _) ?_
      rintro ⟨a, s3⟩ -
      refine guarded_ite _ _ _ _ rfl (guarded_bind _ _ _ rfl ?_)
      rintro r -
      cases r with
      | none => rfl
      | some m => exact guarded_bind _ _ _ (free_guarded c _ ptr _) (fun _ _ => rfl)

/-! ## The directory code leaves the mutex alone -/

theorem keeps_pure {α : Type} (st : α → Heap) (a : α) (b : Bool)
    (h : (st a).storage_lock = b) : Keeps st (pure a) b := by
  intro a1 h1
  have e : a = a1 := Except.ok.inj h1
  rw [← e]
  exact h

theorem keeps_assert {α : Type} (st : α → Heap) (p : Prop) [Decidable p]
    (k : Except Stop α) (b : Bool) (h : Keeps st k b) :
    Keeps st (ASSERT p >>= fun _ => k) b := by
  intro a h1
  exact h a (ASSERT_ok_of _ _ _ h1).2

theorem keeps_bind {α β : Type} (st : α → Heap) (x : Except Stop β)
    (f : β → Except Stop α) (b : Bool) (h : ∀ y, x = .ok y → Keeps st (f y) b) :
    Keeps st (x >>= f) b := by
  intro a h1
  obtain ⟨y, hy, h2⟩ := bind_ok_of _ _ _ h1
  exact h y hy a h2

theorem keeps_ite {α : Type} (st : α → Heap) (p : Prop) [Decidable p]
    (x y : Except Stop α) (b : Bool) (hx : Keeps st x b) (hy : Keeps st y b) :
    Keeps st (if p then x else y) b := by
  split
  · exact hx
  · exact hy

theorem sbrk_keeps (s s1 : Heap) (incr : Int) (a : Nat) (h : sbrk s incr = some (a, s1)) :
    s1.storage_lock = s.storage_lock := by
  unfold sbrk at h
  split at h
  · have e := (Prod.mk.inj (Option.some.inj h)).2
    rw [← e]
  · cases h

theorem sbrk_or_keeps (stop : Stop) (s : Heap) (incr : Int) :
    Keeps Prod.snd (sbrk_or stop s incr) s.storage_lock := by
  intro y h
  unfold sbrk_or at h
  cases hs : sbrk s incr with
  | none =>
    rw [hs] at h
    cases h
  | some r =>
    rw [hs] at h
    have e : r = y := Except.ok.inj h
    obtain ⟨a, s1⟩ := r
    rw [← e]
    exact sbrk_keeps s s1 incr a hs

theorem create_list_keeps (c : Sizes) (s : Heap) :
    Keeps Prod.snd (create_list c s) s.storage_lock := by
  unfold create_list
  cases hs : sbrk s (c.LS + ALIGNMENT : Nat) with
  | none => exact keeps_pure _ _ _ rfl
  | some r =>
    obtain ⟨a, s1⟩ := r
    exact keeps_bind _ _ _ _ (fun m _ => keeps_pure _ _ _ (sbrk_keeps s s1 _ a hs))

theorem expand_list_keeps (c : Sizes) (s : Heap) (size : Nat) :
    Keeps Prod.snd (expand_list c s size) s.storage_lock := by
  unfold expand_list
  refine keeps_ite _ _ _ _ _ (keeps_pure _ _ _ rfl) (keeps_assert _ _ _ _
    (keeps_ite _ _ _ _ _ ?_ ?_))
  · refine keeps_assert _ _ _ _ (keeps_assert _ _ _ _ (keeps_bind _ _ _ _ ?_))
    rintro ⟨a, s1⟩ h1
    exact keeps_pure _ _ _ (sbrk_or_keeps _ _ _ (a, s1) h1)
  · refine keeps_bind _ _ _ _ (fun lt _ => ?_)
    refine keeps_assert _ _ _ _ (keeps_assert _ _ _ _ (keeps_assert _ _ _ _
      (keeps_bind _ _ _ _ ?_)))
    rintro ⟨a, s1⟩ h1
    exact keeps_assert _ _ _ _ (keeps_pure _ _ _ (sbrk_or_keeps _ _ _ (a, s1) h1))

/-- `find_free_seg` returns with the mutex as it was. -/
theorem find_free_seg_keeps (c : Sizes) (fuel : Nat) (s : Heap) (size : Nat) :
    Keeps Prod.snd (find_free_seg c fuel s size) s.storage_lock := by
  unfold find_free_seg
  refine keeps_ite _ _ _ _ _ (keeps_bind _ _ _ _ ?_) (keeps_bind _ _ _ _ ?_)
  · rintro ⟨l, s1⟩ h1
    have e : s1.storage_lock = s.storage_lock := create_list_keeps c s (l, s1) h1
    refine keeps_ite _ _ _ _ _ (keeps_pure _ _ _ e) ?_
    have h2 := expand_list_keeps c { s1 with start := l } size
    intro y hy
    exact (h2 y hy).trans e
  · intro a _
    exact keeps_ite _ _ _ _ _ (expand_list_keeps c s size) (keeps_pure _ _ _ rfl)

theorem add_entry_front_keeps (c : Sizes) (s : Heap) (addr size eff : Nat) (ns : Int) :
    Keeps Prod.snd (add_entry_front c s addr size eff ns) s.storage_lock := by
  unfold add_entry_front
  exact keeps_assert _ _ _ _ (keeps_assert _ _ _ _ (keeps_assert _ _ _ _
    (keeps_assert _ _ _ _ (keeps_assert _ _ _ _ (keeps_pure _ _ _ rfl)))))

theorem add_entry_after_keeps (c : Sizes) (s : Heap) (addr size eff : Nat) (ns : Int)
    (prev : Nat) :
    Keeps Prod.snd (add_entry_after c s addr size eff ns prev) s.storage_lock := by
  unfold add_entry_after
  exact keeps_assert _ _ _ _ (keeps_assert _ _ _ _ (keeps_assert _ _ _ _
    (keeps_assert _ _ _ _ (keeps_assert _ _ _ _ (keeps_assert _ _ _ _
      (keeps_pure _ _ _ rfl))))))

theorem add_entry_empty_keeps (c : Sizes) (s : Heap) (addr size eff : Nat) (ns : Int) :
    Keeps Prod.snd (add_entry_empty c s addr size eff ns) s.storage_lock := by
  unfold add_entry_empty
  exact keeps_assert _ _ _ _ (keeps_ite _ _ _ _ _ (keeps_assert _ _ _ _
    (keeps_assert _ _ _ _ (keeps_assert _ _ _ _ (keeps_assert _ _ _ _
      (keeps_pure _ _ _ rfl))))) (keeps_pure _ _ _ rfl))

theorem add_entry_jp_keeps (c : Sizes) (y : Nat × Heap) (b : Bool)
    (hy : y.2.storage_lock = b) :
    Keeps Prod.snd (match y with
      | (new_seg, s1) =>
        if new_seg ≠ 0 then
          let s2 := set_last_addr s1 (next_seg_tail s1.mem new_seg)
          (pure (new_seg + c.HS, s2) : Except Stop (Nat × Heap))
        else pure (0, s1)) b := by
  obtain ⟨n, s2⟩ := y
  exact keeps_ite _ _ _ _ _ (keeps_pure _ _ _ hy) (keeps_pure _ _ _ hy)

/-- `add_entry` returns with the mutex as it was. -/
theorem add_entry_keeps (c : Sizes) (s : Heap) (addr size : Nat) :
    Keeps Prod.snd (add_entry c s addr size) s.storage_lock := by
  unfold add_entry
  refine keeps_ite _ _ _ _ _ (keeps_pure _ _ _ rfl) (keeps_assert _ _ _ _
    (keeps_assert _ _ _ _ (keeps_ite _ _ _ _ _ (keeps_bind _ _ _ _ (fun prev _ => ?_)) ?_)))
  · refine keeps_ite _ _ _ _ _ (keeps_bind _ _ _ _ (fun y hy => ?_))
      (keeps_bind _ _ _ _ (fun y hy => ?_))
    · exact add_entry_jp_keeps c y _ (add_entry_front_keeps c s _ _ _ _ y hy)
    · exact add_entry_jp_keeps c y _ (add_entry_after_keeps c s _ _ _ _ _ y hy)
  · refine keeps_bind _ _ _ _ (fun y hy => ?_)
    exact add_entry_jp_keeps c y _ (add_entry_empty_keeps c s _ _ _ _ y hy)

theorem with_mem_lock (s0 : Heap) (m : Mem) :
    ({ s0 with mem := m } : Heap).storage_lock = s0.storage_lock := rfl

theorem keeps_mem (s0 : Heap) (m : Mem) (b : Bool) (h : s0.storage_lock = b) :
    Keeps id (pure ({ s0 with mem := m } : Heap)) b :=
  keeps_pure _ _ _ h

theorem keeps_snd {α : Type} (a : α) (s0 : Heap) (b : Bool) (h : s0.storage_lock = b) :
    Keeps Prod.snd (pure (a, s0)) b :=
  keeps_pure _ _ _ h

theorem remove_shrink_keeps (c : Sizes) (s : Heap) (pred : Nat) (b : Bool)
    (hb : s.storage_lock = b) : Keeps id (remove_shrink c s pred) b := by
  unfold remove_shrink
  refine keeps_ite _ _ _ _ _ (keeps_assert _ _ _ _ (keeps_assert _ _ _ _
    (keeps_bind _ _ _ _ ?_))) (keeps_pure _ _ _ hb)
  rintro ⟨a, s1⟩ h1
  exact keeps_assert _ _ _ _ (keeps_assert _ _ _ _
    (keeps_pure _ _ _ ((sbrk_or_keeps _ _ _ (a, s1) h1).trans hb)))

theorem remove_shrink_keeps_mem (c : Sizes) (s0 : Heap) (m : Mem) (pred : Nat) (b : Bool)
    (h : s0.storage_lock = b) : Keeps id (remove_shrink c { s0 with mem := m } pred) b :=
  remove_shrink_keeps c _ _ _ h

theorem ite_lock (p : Prop) [Decidable p] (s : Heap) (a : Nat) :
    (if p then set_last_addr s a else s).storage_lock = s.storage_lock := by
  split <;> rfl

theorem remove_inner_keeps (c : Sizes) (s : Heap) (old : Nat) :
    Keeps id (remove_inner c s old) s.storage_lock := by
  unfold remove_inner
  exact keeps_assert _ _ _ _ (keeps_assert _ _ _ _ (keeps_ite _ _ _ _ _
    (remove_shrink_keeps_mem c _ _ _ _ (ite_lock _ s _))
    (keeps_mem _ _ _ (ite_lock _ s _))))

theorem reset_list_keeps (c : Sizes) (s : Heap) (list : Nat) (b : Bool)
    (hb : s.storage_lock = b) : Keeps Prod.snd (reset_list c s list) b := by
  unfold reset_list
  refine keeps_bind _ _ _ _ (fun m _ => ?_)
  show Keeps Prod.snd (match brk { s with mem := m } (list + c.LS) with
    | none => _ | some s2 => _) _
  cases h : brk { s with mem := m } (list + c.LS) with
  | none => exact keeps_pure _ _ _ hb
  | some s2 =>
    refine keeps_pure _ _ _ ?_
    unfold brk at h
    split at h
    · have e := Option.some.inj h
      rw [← e]
      exact hb
    · cases h

theorem reset_list_keeps_mem (c : Sizes) (s0 : Heap) (m : Mem) (list : Nat) (b : Bool)
    (h : s0.storage_lock = b) : Keeps Prod.snd (reset_list c { s0 with mem := m } list) b :=
  reset_list_keeps c _ _ _ h

theorem remove_only_keeps (c : Sizes) (s : Heap) (old : Nat) :
    Keeps id (remove_only c s old) s.storage_lock := by
  unfold remove_only
  refine keeps_assert _ _ _ _ (keeps_bind _ _ _ _ ?_)
  rintro ⟨r, s1⟩ h1
  have e : s1.storage_lock = s.storage_lock :=
    reset_list_keeps_mem c _ _ _ _ (ite_lock _ s _) (r, s1) h1
  refine keeps_ite _ _ _ _ _ ?_ (keeps_pure _ _ _ e)
  intro a h
  cases h

theorem remove_first_keeps (c : Sizes) (s : Heap) (old : Nat) :
    Keeps id (remove_first c s old) s.storage_lock := by
  unfold remove_first
  refine keeps_bind _ _ _ _ (fun lt _ => ?_)
  exact keeps_assert _ _ _ _ (keeps_mem _ _ _ (ite_lock _ s _))

/-- `remove_segment` returns with the mutex as it was. -/
theorem remove_segment_keeps (c : Sizes) (s : Heap) (addr : Nat) :
    Keeps id (remove_segment c s addr) s.storage_lock := by
  unfold remove_segment
  exact keeps_assert _ _ _ _ (keeps_assert _ _ _ _ (keeps_assert _ _ _ _
    (keeps_assert _ _ _ _ (keeps_ite _ _ _ _ _ (remove_inner_keeps c s _)
      (keeps_ite _ _ _ _ _ (remove_only_keeps c s _) (remove_first_keeps c s _))))))

/-- `shrink_segment` returns with the mutex as it was. -/
theorem shrink_segment_keeps (c : Sizes) (s : Heap) (addr size : Nat) :
    Keeps Prod.snd (shrink_segment c s addr size) s.storage_lock := by
  unfold shrink_segment
  exact keeps_ite _ _ _ _ _ (keeps_pure _ _ _ rfl) (keeps_assert _ _ _ _
    (keeps_assert _ _ _ _ (keeps_assert _ _ _ _
      (keeps_snd _ _ _ (ite_lock _ { s with mem := _ } _)))))

/-- `expand_segment` returns with the mutex as it was. -/
theorem expand_segment_keeps (c : Sizes) (s : Heap) (addr size : Nat) :
    Keeps Prod.snd (expand_segment c s addr size) s.storage_lock := by
  unfold expand_segment
  exact keeps_ite _ _ _ _ _ (keeps_pure _ _ _ rfl) (keeps_assert _ _ _ _
    (keeps_assert _ _ _ _ (keeps_assert _ _ _ _
      (keeps_snd _ _ _ (ite_lock _ { s with mem := _ } _)))))

/-! ## The writes made without the mutex -/

/-- A payload byte of a block of a public state lies in no record. -/
theorem pay_off (c : Sizes) (s0 : Heap) (bs0 : List Blk) (nw : Blk) (Q : List Nat)
    (hpub : Pub c s0 bs0) (hnw : nw ∈ bs0) (hQ : ∀ q ∈ Q, ∃ y ∈ bs0, y.user c = q)
    (a : Nat) (ha1 : nw.user c ≤ a) (ha2 : a < nw.tl c) : OffRecords c s0 Q a := by
  obtain ⟨-, hinv, -⟩ := Pub_blk c s0 bs0 nw hpub hnw
  constructor
  · have := (Inv_pay_disj c s0 bs0 hinv nw nw hnw hnw a ha1 ha2).2.2
    omega
  · intro q hq
    obtain ⟨y, hy, hyq⟩ := hQ q hq
    obtain ⟨r0, -, r2, -⟩ := Pub_read c s0 bs0 y hpub hy
    obtain ⟨d1, d2, -⟩ := Inv_pay_disj c s0 bs0 hinv nw y hnw hy a ha1 ha2
    rw [← hyq, r0, r2]
    have t1 : y.user c = y.h + c.HS := rfl
    have t2 : y.nx c = y.tl c + c.TS + y.ff := rfl
    clear * - d1 d2 t1 t2
    omega

/-- The zero-fill of a returned `calloc`, which runs after `malloc` has released the
mutex, changes payload bytes of the new block only. -/
theorem calloc_writes (c : Sizes) (hc : c.ok) (s : Heap) (L : List Nat) (h : Reach c s L)
    (fuel n size u : Nat) (s1 : Heap) (h2 : n * size % W64 < I31)
    (hfp : footprint c (n * size % W64) < I31)
    (hrun : calloc c fuel s n size = .ok (u, s1)) (hu : u ≠ 0) :
    ∃ s0, malloc c fuel s (n * size % W64) = .ok (u, s0) ∧
      s1 = { s0 with mem := zeroed s0.mem u (n * size % W64) } ∧
      ∀ a, s1.mem a ≠ s0.mem a →
        u ≤ a ∧ a < u + n * size % W64 ∧ OffRecords c s0 (u :: L) a := by
  obtain ⟨bs, hpub, hL, hget⟩ := reach_blk c hc s L h
  rcases calloc_pub c s s1 bs n size fuel u hpub hfp h2 hrun with ⟨e1, -⟩ |
      ⟨nw, bs1, s0, e1, e2, e3, e4, e5, e6, e7, e8, e9⟩
  · exact absurd e1 hu
  have hnw := Placed_mem c _ _ _ _ _ e8
  obtain ⟨-, hinv0, -⟩ := Pub_blk c s0 bs1 nw e6 hnw
  have hru := BOK_ru nw (Inv_mem_lo c s0 bs1 nw hinv0 hnw).2.2
  have t1 : nw.tl c = nw.user c + round_up nw.sz ALIGNMENT := rfl
  have hperm : (u :: L).Perm (bs1.map (Blk.user c)) := by
    rw [e1]
    exact (List.Perm.cons _ hL).trans (Placed_perm c _ _ _ _ _ e8).symm
  refine ⟨s0, e5, e7, ?_⟩
  intro a ha
  have hin : u ≤ a ∧ a < u + n * size % 18446744073709551616 := by
    by_contra hout
    apply ha
    rw [e7]
    exact zeroed_out _ _ _ _ (by omega)
  refine ⟨hin.1, hin.2, ?_⟩
  exact pay_off c s0 bs1 nw (u :: L) e6 hnw
    (fun q hq => List.mem_map.mp (hperm.mem_iff.mp hq)) a (by rw [← e1]; exact hin.1)
    (by rw [t1, ← e1]; have := hin.2; clear * - this hru e4; omega)

theorem copy_mem_out (m m1 : Mem) (o n k : Nat) (h : copy_mem m o n k = some m1)
    (hn : n + k ≤ 18446744073709551616) (x : Nat)
    (hx : x < n ∨ n + k ≤ x) : m1 x = m x := by
  unfold copy_mem at h
  split at h
  · cases h
  · split at h
    · cases h
    · refine copy_loop_out m m1 o n k h x ?_
      intro i hi
      rw [Nat.mod_eq_of_lt (by omega)]
      omega

/-- A returned `realloc` that moves the block: between the `malloc` and the `free`,
which hold the mutex, the copy changes payload bytes of the new block only. -/
theorem realloc_writes (c : Sizes) (hc : c.ok) (s : Heap) (L : List Nat) (h : Reach c s L)
    (fuel p size u : Nat) (s1 : Heap) (hp : p ∈ L) (h0 : 0 < size) (h2 : size < I31)
    (hfp : footprint c size < I31)
    (hrun : realloc c fuel s p size = .ok (u, s1)) (hu : u ≠ 0) (hne : u ≠ p) :
    ∃ s0 m, malloc c fuel s size = .ok (u, s0) ∧
      copy_mem s0.mem p u (get_segment_size c s.mem p) = some m ∧
      free c { s0 with mem := m } p = .ok s1 ∧
      ∀ a, m a ≠ s0.mem a → u ≤ a ∧ a < u + size ∧ OffRecords c s0 (u :: L) a := by
  obtain ⟨bs, hpub, hL, hget⟩ := reach_blk c hc s L h
  obtain ⟨x, hx, hxu⟩ := hget p hp
  subst hxu
  obtain ⟨-, -, hu0, hsz, hsz31, hff, hg, hgap, -⟩ := Pub_blk c s bs x hpub hx
  obtain ⟨A, B, hAB⟩ := List.append_of_mem hx
  have hpubAB := hpub
  rw [hAB] at hpubAB
  rcases Nat.lt_trichotomy size x.sz with hlt | heq | hgt
  · obtain ⟨M, r1, -⟩ := realloc_shrink c s A B x size fuel hpubAB h0 hlt
    rw [hrun] at r1
    exact absurd (Prod.mk.inj (Except.ok.inj r1)).1 hne
  · subst heq
    have r1 := realloc_same c s bs x fuel hpub hx
    rw [hrun] at r1
    exact absurd (Prod.mk.inj (Except.ok.inj r1)).1 hne
  · by_cases hfit : round_up size ALIGNMENT ≤ round_up x.sz ALIGNMENT + x.ff
    · obtain ⟨M, r1, -⟩ := realloc_expand c s A B x size fuel hpubAB hgt h2 hfit
      rw [hrun] at r1
      exact absurd (Prod.mk.inj (Except.ok.inj r1)).1 hne
    · rw [realloc_move_eq c s bs x size fuel hpub hx hgt (by omega)] at hrun
      obtain ⟨r, hr, hrun⟩ := bind_ok_of _ _ _ hrun
      obtain ⟨a0, s0⟩ := r
      dsimp only at hrun
      split at hrun
      · exact absurd (Prod.mk.inj (Except.ok.inj hrun)).1.symm hu
      · split at hrun
        · exact absurd (Prod.mk.inj (Except.ok.inj hrun)).1.symm hu
        · rename_i m hcm
          obtain ⟨s2, hs2, hrun⟩ := bind_ok_of _ _ _ hrun
          obtain ⟨eu, es⟩ := Prod.mk.inj (Except.ok.inj hrun)
          subst eu es
          rcases malloc_pub c s s0 bs size fuel a0 hpub hfp h2 hr with ⟨e1, -⟩ |
            ⟨nw, bs0, e1, e2, e3, e4, e5, e6, -⟩
          · exact absurd e1 hu
          have hnw := Placed_mem c _ _ _ _ _ e6
          obtain ⟨-, hinv0, -⟩ := Pub_blk c s0 bs0 nw e3 hnw
          have hru := BOK_ru nw (Inv_mem_lo c s0 bs0 nw hinv0 hnw).2.2
          have t1 : nw.tl c = nw.user c + round_up nw.sz ALIGNMENT := rfl
          have hperm : (a0 :: L).Perm (bs0.map (Blk.user c)) := by
            rw [e1]
            exact (List.Perm.cons _ hL).trans (Placed_perm c _ _ _ _ _ e6).symm
          rw [hg]
          refine ⟨s0, m, hr, hcm, hs2, ?_⟩
          intro a ha
          have k1 := (Inv_mem_lo c s0 bs0 nw hinv0 hnw).2.1
          have k2 := (Inv_bounds c s0 bs0 hinv0).2.2.2.2.1
          have t2 : nw.nx c = nw.tl c + c.TS + nw.ff := rfl
          have t3 : nw.user c = nw.h + c.HS := rfl
          have hn64 : a0 + x.sz ≤ 18446744073709551616 := by
            clear * - k1 k2 hru t1 t2 t3 e1 e4 hgt; omega
          have hin : a0 ≤ a ∧ a < a0 + x.sz := by
            by_contra hout
            exact ha (copy_mem_out _ _ _ _ _ hcm hn64 a (by omega))
          refine ⟨hin.1, by omega, ?_⟩
          exact pay_off c s0 bs0 nw (a0 :: L) e3 hnw
            (fun q hq => List.mem_map.mp (hperm.mem_iff.mp hq)) a (by rw [← e1]; exact hin.1)
            (by rw [t1, ← e1]; have := hin.2; clear * - this hru e4 hgt; omega)

/-- `clear_alloc_storage` never takes the mutex: it leaves the mutex as it is, and it
resets the cursor. -/
theorem clear_no_lock (c : Sizes) (s s1 : Heap) (h : clear_alloc_storage c s = .ok s1) :
    s1.storage_lock = s.storage_lock ∧ s1.last_addr = 0 := by
  unfold clear_alloc_storage at h
  obtain ⟨y, hy, h⟩ := bind_ok_of _ _ _ h
  obtain ⟨r, s2⟩ := y
  dsimp only at h
  split at h
  · cases h
  · have e := Except.ok.inj h
    subst e
    unfold reset_list at hy
    obtain ⟨m2, -, hy⟩ := bind_ok_of _ _ _ hy
    dsimp only at hy
    unfold brk at hy
    split at hy
    · have e := (Prod.mk.inj (Except.ok.inj hy)).2
      rw [← e]
      exact ⟨rfl, rfl⟩
    · rename_i s3 hs3
      have e := (Prod.mk.inj (Except.ok.inj hy)).2
      rw [← e]
      split at hs3
      · have e3 := Option.some.inj hs3
        rw [← e3]
        exact ⟨rfl, rfl⟩
      · cases hs3

theorem clear_dl (c : Sizes) (s : Heap) : clear_alloc_storage c s ≠ .error Stop.deadlock := by
  intro h
  unfold clear_alloc_storage at h
  obtain ⟨y, -, h⟩ := bind_dl _ _ (reset_list_dl c _ _) h
  obtain ⟨r, s2⟩ := y
  dsimp only at h
  split at h <;> cases h

theorem fst_bind_ok {α β : Type} (x : Tr α) (f : α → Tr β) (a : α) (h : x.2 = .ok a) :
    (x >>= f).1 = x.1 ++ (f a).1 := by
  obtain ⟨l, r⟩ := x
  cases r with
  | error e => cases h
  | ok a1 =>
    have e : a1 = a := Except.ok.inj h
    rw [← e]
    rfl

theorem fst_bytes_bind {α β : Type} (a k : Nat) (r : Except Stop α) (g : α → β) :
    (bytes_ev a k r >>= fun m => (pure (g m) : Tr β)).1 = [Ev.bytes a k] := by
  cases r <;> rfl

/-- The events of a `calloc` whose `malloc` returned a block: those of `malloc`, which
end with the release of the mutex, and then the zero-fill of the block. -/
theorem calloc_events (c : Sizes) (fuel : Nat) (s s0 : Heap) (n size u : Nat)
    (hn : ¬ (n = 0 ∨ size = 0)) (hu : u ≠ 0)
    (hm : malloc c fuel s (n * size % 18446744073709551616) = .ok (u, s0)) :
    (calloc_ev c fuel s n size).1 =
      (malloc_ev c fuel s (n * size % 18446744073709551616)).1 ++
        [Ev.bytes u (n * size % 18446744073709551616)] := by
  unfold calloc_ev
  rw [if_neg hn, fst_bind_ok _ _ (u, s0) ((malloc_ev_run c fuel s _).trans hm)]
  dsimp only
  rw [if_neg hu]
  exact congrArg _ (fst_bytes_bind _ _ _ _)

/-- The events of `clear_alloc_storage`: two calls into the directory code, no lock. -/
theorem clear_events (c : Sizes) (s : Heap) :
    (clear_alloc_storage_ev c s).1 = [Ev.dir, Ev.dir] := by
  unfold clear_alloc_storage_ev
  rw [fst_bind_ok _ _ (set_last_addr s 0) rfl]
  dsimp only
  generalize reset_list c (set_last_addr s 0) (set_last_addr s 0).start = R
  cases R with
  | error e => rfl
  | ok y =>
    obtain ⟨r, s2⟩ := y
    show [Ev.dir] ++ ([Ev.dir] ++ (if r ≠ 0 then _ else _ : Tr Heap).1) = _
    split <;> rfl

/-- Claim C38, as the code has it.  Each of `malloc`, `free`, `calloc` and `realloc`
is read a second time with its events (the run with events returns what the run
returns), and among the events of every run, from every state and for every
argument, each call into the directory code comes after the caller has taken the
mutex and before it has released it.  The directory code itself (`find_free_seg`,
`add_entry`, `remove_segment`, `shrink_segment`, `expand_segment`) returns with the
mutex as it was.  What `calloc` and `realloc` write after the mutex was released, the
zero-fill and the copy into the new block, changes, in a state reached from a fresh
process whose break may rise by less than `2^31` and for a request whose size and
footprint are below `2^31`, only payload bytes of the new block: no byte of the
header or of a head or tail record, and neither the cursor, the policy nor the
break.  The policy selector and `clear_alloc_storage` take no mutex: the one event
of the selector is its assignment, the events of `clear_alloc_storage` are its two
calls into the directory code, both leave the mutex as it is, and `clear_alloc_storage` does not wait for it. -/
theorem C38_mutations_locked (c : Sizes) (hc : c.ok) :
    ((∀ fuel s size, (malloc_ev c fuel s size).2 = malloc c fuel s size) ∧
      (∀ s p, (free_ev c s p).2 = free c s p) ∧
      (∀ fuel s n size, (calloc_ev c fuel s n size).2 = calloc c fuel s n size) ∧
      (∀ fuel s p size, (realloc_ev c fuel s p size).2 = realloc c fuel s p size) ∧
      (∀ s strat, (set_alloc_function_ev s strat).2 = .ok (set_alloc_function s strat)) ∧
      (∀ s, (clear_alloc_storage_ev c s).2 = clear_alloc_storage c s)) ∧
    ((∀ fuel s size, guarded false (malloc_ev c fuel s size).1 = true) ∧
      (∀ s p, guarded false (free_ev c s p).1 = true) ∧
      (∀ fuel s n size, guarded false (calloc_ev c fuel s n size).1 = true) ∧
      (∀ fuel s p size, guarded false (realloc_ev c fuel s p size).1 = true)) ∧
    ((∀ fuel s size a s1, find_free_seg c fuel s size = .ok (a, s1) →
        s1.storage_lock = s.storage_lock) ∧
      (∀ s addr size a s1, add_entry c s addr size = .ok (a, s1) →
        s1.storage_lock = s.storage_lock) ∧
      (∀ s addr s1, remove_segment c s addr = .ok s1 → s1.storage_lock = s.storage_lock) ∧
      (∀ s addr size r s1, shrink_segment c s addr size = .ok (r, s1) →
        s1.storage_lock = s.storage_lock) ∧
      (∀ s addr size r s1, expand_segment c s addr size = .ok (r, s1) →
        s1.storage_lock = s.storage_lock)) ∧
    (∀ s L fuel n size u s1, Reach c s L → n * size % W64 < I31 →
      footprint c (n * size % W64) < I31 → calloc c fuel s n size = .ok (u, s1) → u ≠ 0 →
      ∃ s0, malloc c fuel s (n * size % W64) = .ok (u, s0) ∧
        (calloc_ev c fuel s n size).1 =
          (malloc_ev c fuel s (n * size % W64)).1 ++ [Ev.bytes u (n * size % W64)] ∧
        s1 = { s0 with mem := zeroed s0.mem u (n * size % W64) } ∧
        ∀ a, s1.mem a ≠ s0.mem a →
          u ≤ a ∧ a < u + n * size % W64 ∧ OffRecords c s0 (u :: L) a) ∧
    (∀ s L fuel p size u s1, Reach c s L → p ∈ L → 0 < size → size < I31 →
      footprint c size < I31 → realloc c fuel s p size = .ok (u, s1) → u ≠ 0 → u ≠ p →
      ∃ s0 m, malloc c fuel s size = .ok (u, s0) ∧
        copy_mem s0.mem p u (get_segment_size c s.mem p) = some m ∧
        free c { s0 with mem := m } p = .ok s1 ∧
        ∀ a, m a ≠ s0.mem a → u ≤ a ∧ a < u + size ∧ OffRecords c s0 (u :: L) a) ∧
    (∀ s strat, (set_alloc_function_ev s strat).1 = [Ev.policy] ∧
      (set_alloc_function s strat).storage_lock = s.storage_lock ∧
      (set_alloc_function s strat).g_alloc_function = strat) ∧
    (∀ s, (clear_alloc_storage_ev c s).1 = [Ev.dir, Ev.dir] ∧
      clear_alloc_storage c s ≠ .error Stop.deadlock ∧
      ∀ s1, clear_alloc_storage c s = .ok s1 →
        s1.storage_lock = s.storage_lock ∧ s1.last_addr = 0) := by
  refine ⟨⟨fun fuel s size => malloc_ev_run c fuel s size, fun s p => free_ev_run c s p,
      fun fuel s n size => calloc_ev_run c fuel s n size,
      fun fuel s p size => realloc_ev_run c fuel s p size, fun s strat => rfl,
      fun s => clear_ev_run c s⟩,
    ⟨fun fuel s size => malloc_guarded c fuel s size false,
      fun s p => free_guarded c s p false,
      fun fuel s n size => calloc_guarded c fuel s n size false,
      fun fuel s p size => realloc_guarded c fuel s p size false⟩,
    ⟨fun fuel s size a s1 h => find_free_seg_keeps c fuel s size (a, s1) h,
      fun s addr size a s1 h => add_entry_keeps c s addr size (a, s1) h,
      fun s addr s1 h => remove_segment_keeps c s addr s1 h,
      fun s addr size r s1 h => shrink_segment_keeps c s addr size (r, s1) h,
      fun s addr size r s1 h => expand_segment_keeps c s addr size (r, s1) h⟩,
    ?_, fun s L fuel p size u s1 h hp h0 h2 hfp hrun hu hne =>
      realloc_writes c hc s L h fuel p size u s1 hp h0 h2 hfp hrun hu hne,
    fun s strat => ⟨rfl, rfl, rfl⟩,
    fun s => ⟨clear_events c s, clear_dl c s, fun s1 h => clear_no_lock c s s1 h⟩⟩
  · intro s L fuel n size u s1 h h2 hfp hrun hu
    obtain ⟨s0, e1, e2, e3⟩ := calloc_writes c hc s L h fuel n size u s1 h2 hfp hrun hu
    have hn : ¬ (n = 0 ∨ size = 0) := by
      intro h0
      unfold calloc at hrun
      rw [if_pos h0] at hrun
      exact hu (Prod.mk.inj (Except.ok.inj hrun)).1.symm
    exact ⟨s0, e1, calloc_events c fuel s s0 n size u hn hu e1, e2, e3⟩

/-- Claim C38 on the state after `malloc(1)`: the events of `malloc(1)`, of
`free(1088)` and of `realloc(1088, 7000)`, which moves the block, have every call
into the directory code between a lock and the next unlock; and `calloc(2, 8)`
returns `1200`, its zero-fill is the last event, after the unlock, and changes bytes
of `[1200, 1216)` only, none of them in a record. -/
theorem C38_mutations_locked_witness :
    sizes64.ok ∧
    (malloc_ev sizes64 10 heap1 1).1 = [Ev.lock, Ev.dir, Ev.dir, Ev.unlock] ∧
    guarded false (malloc_ev sizes64 10 heap1 1).1 = true ∧
    (free_ev sizes64 heap1 1088).1 = [Ev.lock, Ev.dir, Ev.unlock] ∧
    guarded false (free_ev sizes64 heap1 1088).1 = true ∧
    (realloc_ev sizes64 10 heap1 1088 7000).1 =
      [Ev.lock, Ev.dir, Ev.dir, Ev.unlock, Ev.lock, Ev.dir, Ev.dir, Ev.unlock,
        Ev.bytes 1200 1, Ev.lock, Ev.dir, Ev.unlock] ∧
    guarded false (realloc_ev sizes64 10 heap1 1088 7000).1 = true ∧
    Reach sizes64 heap1 [1088] ∧
    calloc sizes64 10 heap1 2 8 = .ok (1200, after heap1 (calloc sizes64 10 heap1 2 8)) ∧
    (malloc_ev sizes64 10 heap1 (2 * 8 % W64)).1 = [Ev.lock, Ev.dir, Ev.dir, Ev.unlock] ∧
    (∃ s0, malloc sizes64 10 heap1 (2 * 8 % W64) = .ok (1200, s0) ∧
      (calloc_ev sizes64 10 heap1 2 8).1 =
        (malloc_ev sizes64 10 heap1 (2 * 8 % W64)).1 ++ [Ev.bytes 1200 (2 * 8 % W64)] ∧
      after heap1 (calloc sizes64 10 heap1 2 8) =
        { s0 with mem := zeroed s0.mem 1200 (2 * 8 % W64) } ∧
      ∀ a, (after heap1 (calloc sizes64 10 heap1 2 8)).mem a ≠ s0.mem a →
        1200 ≤ a ∧ a < 1200 + 2 * 8 % W64 ∧ OffRecords sizes64 s0 (1200 :: [1088]) a) :=
  ⟨by decide, by decide,
    (C38_mutations_locked sizes64 (by decide)).2.1.1 10 heap1 1, by decide,
    (C38_mutations_locked sizes64 (by decide)).2.1.2.1 heap1 1088, by decide,
    (C38_mutations_locked sizes64 (by decide)).2.1.2.2.2 10 heap1 1088 7000,
    reach_heap1, rfl, by decide,
    (C38_mutations_locked sizes64 (by decide)).2.2.2.1 heap1 [1088] 10 2 8 1200 _
      reach_heap1 (by decide) (by decide) rfl (by decide)⟩

/-- The claim C38 fails for the policy selector and for `clear_alloc_storage`, and for
`calloc` in an arena of more than `2^31` bytes.  On the state after `malloc(1)`, with
the mutex free and never taken by the caller: the selector changes the policy from
first fit to best fit; `clear_alloc_storage` returns, having reset `first`, the
cursor and the break.  On `heapN1`, with the live blocks `1200` and `1073743120` of
size `2^30`, `calloc(1, 2^31 + 4000)` returns `1088`; its zero-fill is made after the
mutex was released and changes the recorded size in the head record `[1152, 1200)`
of the live block `1200` from `2^30` to `0`. -/
theorem C38_counterexample :
    (heap1.storage_lock = false ∧
      (set_alloc_function_ev heap1 Strat.BEST_FIT).1 = [Ev.policy] ∧
      guarded false (set_alloc_function_ev heap1 Strat.BEST_FIT).1 = false ∧
      heap1.g_alloc_function = Strat.FIRST_FIT ∧
      (set_alloc_function_ev heap1 Strat.BEST_FIT).2 =
        .ok (set_alloc_function heap1 Strat.BEST_FIT) ∧
      (set_alloc_function heap1 Strat.BEST_FIT).g_alloc_function = Strat.BEST_FIT) ∧
    ((clear_alloc_storage_ev sizes64 heap1).1 = [Ev.dir, Ev.dir] ∧
      guarded false (clear_alloc_storage_ev sizes64 heap1).1 = false ∧
      (clear_alloc_storage_ev sizes64 heap1).2 =
        .ok (afterFree heap1 (clear_alloc_storage sizes64 heap1)) ∧
      first_seg heap1.mem heap1.start = 1040 ∧ heap1.last_addr = 1104 ∧ heap1.brk = 5144 ∧
      first_seg (afterFree heap1 (clear_alloc_storage sizes64 heap1)).mem heap1.start = 0 ∧
      (afterFree heap1 (clear_alloc_storage sizes64 heap1)).last_addr = 0 ∧
      (afterFree heap1 (clear_alloc_storage sizes64 heap1)).brk = 1040) ∧
    (heapN1.storage_lock = false ∧
      malloc sizes64 10 heapN1 (1 * 2147487648 % 18446744073709551616) =
        .ok (1088, after heapN1 (malloc sizes64 10 heapN1 2147487648)) ∧
      (calloc_ev sizes64 10 heapN1 1 2147487648).1 =
        [Ev.lock, Ev.dir, Ev.dir, Ev.unlock, Ev.bytes 1088 2147487648] ∧
      (after heapN1 (malloc sizes64 10 heapN1 2147487648)).storage_lock = false ∧
      get_segment_size sizes64 (after heapN1 (malloc sizes64 10 heapN1 2147487648)).mem
        1200 = 1073741824 ∧
      calloc sizes64 10 heapN1 1 2147487648 =
        .ok (1088, { after heapN1 (malloc sizes64 10 heapN1 2147487648) with
          mem := zeroed (after heapN1 (malloc sizes64 10 heapN1 2147487648)).mem 1088
            2147487648 }) ∧
      1088 ≤ 1200 - sizes64.HS ∧ 1200 ≤ 1088 + 2147487648 ∧
      get_segment_size sizes64
        (zeroed (after heapN1 (malloc sizes64 10 heapN1 2147487648)).mem 1088 2147487648)
        1200 = 0) :=
  ⟨⟨by decide, by decide, by decide, by decide, rfl, by decide⟩,
    ⟨by decide, by decide, rfl, by decide, by decide, by decide, by decide, by decide,
      by decide⟩,
    ⟨by decide, run_heapN1_big,
      (calloc_events sizes64 10 heapN1 _ 1 2147487648 1088 (by decide) (by decide)
        run_heapN1_big).trans (by decide),
      by decide, by decide, run_calloc_big, by decide, by decide,
      zero_rd _ _ _ _ (by decide) (by decide)⟩⟩

/-! ## The state at a stop of `free` -/

theorem forget_bind {α β : Type} (x : Except (Stop × Heap) α)
    (f : α → Except (Stop × Heap) β) :
    forget (x >>= f) = forget x >>= fun a => forget (f a) := by
  cases x with
  | ok a => rfl
  | error e => rfl

theorem forget_ASSERT_at (st : Heap) (p : Prop) [Decidable p] :
    forget (ASSERT_at st p) = ASSERT p := by
  unfold ASSERT_at ASSERT
  split <;> rfl

theorem forget_sbrk_at (stop : Stop) (s : Heap) (incr : Int) :
    forget (sbrk_at stop s incr) = sbrk_or stop s incr := by
  unfold sbrk_at sbrk_or
  cases sbrk s incr <;> rfl

theorem forget_ite {α : Type} (p : Prop) [Decidable p] (a b : Except (Stop × Heap) α) :
    forget (if p then a else b) = if p then forget a else forget b := by
  split <;> rfl

theorem forget_remove_shrink_at (c : Sizes) (s : Heap) (pred : Nat) :
    forget (remove_shrink_at c s pred) = remove_shrink c s pred := by
  unfold remove_shrink_at remove_shrink
  rw [forget_ite]
  simp only [forget_bind, forget_ASSERT_at, forget_sbrk_at]
  rfl

theorem forget_init_tail_at (c : Sizes) (s : Heap) (list : Nat) :
    forget (init_tail_at c s list) =
      (init_tail c s.mem list >>= fun m => pure { s with mem := m }) := by
  unfold init_tail_at init_tail ASSERT_at ASSERT
  dsimp only
  split <;> rfl

theorem forget_reset_list_at (c : Sizes) (s : Heap) (list : Nat) :
    forget (reset_list_at c s list) = reset_list c s list := by
  unfold reset_list_at reset_list
  simp only [forget_bind, forget_init_tail_at]
  cases h : init_tail c (init_first s.mem list) list with
  | error e => rfl
  | ok m =>
    have hk : ∀ (f : Mem → Except Stop (Int × Heap)), (Except.ok m >>= f) = f m :=
      fun _ => rfl
    rw [hk]
    show forget (match brk { s with mem := m } (list + c.LS) with
      | none => _ | some s2 => _) = _
    cases hb : brk { s with mem := m } (list + c.LS) <;> rfl

theorem forget_find_last_tail_at (c : Sizes) (s : Heap) (list : Nat) :
    forget (find_last_tail_at c s list) = find_last_tail c s.mem list := by
  unfold find_last_tail_at find_last_tail
  rw [forget_ite, forget_ite]
  simp only [forget_bind, forget_ASSERT_at]
  rfl

theorem forget_ASSERT_bind {α : Type} (st : Heap) (p : Prop) [Decidable p]
    (k : Except (Stop × Heap) α) (k1 : Except Stop α) (h : forget k = k1) :
    forget (ASSERT_at st p >>= fun _ => k) = (ASSERT p >>= fun _ => k1) := by
  rw [forget_bind, forget_ASSERT_at, h]

theorem forget_ite_of {α : Type} (p : Prop) [Decidable p] (a b : Except (Stop × Heap) α)
    (a1 b1 : Except Stop α) (ha : forget a = a1) (hb : forget b = b1) :
    forget (if p then a else b) = if p then a1 else b1 := by
  rw [forget_ite, ha, hb]

theorem forget_bind_of {α β : Type} (x : Except (Stop × Heap) α) (x1 : Except Stop α)
    (f : α → Except (Stop × Heap) β) (f1 : α → Except Stop β)
    (hx : forget x = x1) (hf : ∀ a, forget (f a) = f1 a) :
    forget (x >>= f) = (x1 >>= f1) := by
  rw [forget_bind, hx]
  congr 1
  funext a
  exact hf a

theorem forget_remove_inner_at (c : Sizes) (s : Heap) (old : Nat) :
    forget (remove_inner_at c s old) = remove_inner c s old := by
  unfold remove_inner_at remove_inner
  exact forget_ASSERT_bind _ _ _ _ (forget_ASSERT_bind _ _ _ _
    (forget_ite_of _ _ _ _ _ (forget_remove_shrink_at _ _ _) rfl))

theorem forget_remove_only_at (c : Sizes) (s : Heap) (old : Nat) :
    forget (remove_only_at c s old) = remove_only c s old := by
  unfold remove_only_at remove_only
  refine forget_ASSERT_bind _ _ _ _ (forget_bind_of _ _ _ _ (forget_reset_list_at _ _ _) ?_)
  rintro ⟨r, s1⟩
  exact forget_ite_of _ _ _ _ _ rfl rfl

theorem forget_remove_first_at (c : Sizes) (s : Heap) (old : Nat) :
    forget (remove_first_at c s old) = remove_first c s old := by
  unfold remove_first_at remove_first
  refine forget_bind_of _ _ _ _ (forget_find_last_tail_at _ _ _) ?_
  intro last_tail
  exact forget_ASSERT_bind _ _ _ _ rfl

theorem forget_remove_segment_at (c : Sizes) (s : Heap) (addr : Nat) :
    forget (remove_segment_at c s addr) = remove_segment c s addr := by
  unfold remove_segment_at remove_segment
  exact forget_ASSERT_bind _ _ _ _ (forget_ASSERT_bind _ _ _ _ (forget_ASSERT_bind _ _ _ _
    (forget_ASSERT_bind _ _ _ _ (forget_ite_of _ _ _ _ _ (forget_remove_inner_at _ _ _)
      (forget_ite_of _ _ _ _ _ (forget_remove_only_at _ _ _)
        (forget_remove_first_at _ _ _))))))

theorem forget_lock_at (s : Heap) :
    forget (pthread_mutex_lock_at s) = pthread_mutex_lock s := by
  unfold pthread_mutex_lock_at pthread_mutex_lock
  split <;> rfl

/-- The second embedding of `free` agrees with the first one, which drops the state
at a stop. -/
theorem forget_free_at (c : Sizes) (s : Heap) (ptr : Nat) :
    forget (free_at c s ptr) = free c s ptr := by
  unfold free_at free
  refine forget_ite_of _ _ _ _ _ rfl (forget_bind_of _ _ _ _ (forget_lock_at s) ?_)
  intro s1
  exact forget_bind_of _ _ _ _ (forget_remove_segment_at _ _ _) (fun _ => rfl)

theorem ASSERT_at_bind {β : Type} (st : Heap) (p : Prop) [Decidable p]
    (f : Unit → Except (Stop × Heap) β) (hp : p) : (ASSERT_at st p >>= f) = f () := by
  unfold ASSERT_at
  rw [if_pos hp]
  rfl

theorem ASSERT_at_fail_bind {β : Type} (st : Heap) (p : Prop) [Decidable p]
    (f : Unit → Except (Stop × Heap) β) (hp : ¬ p) :
    (ASSERT_at st p >>= f) = .error (Stop.assertion, st) := by
  unfold ASSERT_at
  rw [if_neg hp]
  rfl

/-! ## `free` of an address that is no user address -/

/-- Claim C39: in every state in which the mutex is free, for a non-null `p` below
`base + sizeof(header) + sizeof(head)` or not below `end`, `free(p)` stops at a
failed `ASSERT`, and the state of the process at that stop is the state in which
`free` was called with the mutex taken: no byte of the memory, so no field of the
header or of a record, and neither the cursor nor the break differs.  The run that
keeps the state at the stop is the run of `free`. -/
theorem C39_free_invalid (c : Sizes) (hc : c.ok) (s : Heap) (p : Nat)
    (hl : s.storage_lock = false) (hp : p ≠ 0)
    (hbad : p < s.start + c.LS + c.HS ∨ end_addr s.mem s.start ≤ p) :
    free c s p = .error Stop.assertion ∧
    forget (free_at c s p) = free c s p ∧
    free_at c s p = .error (Stop.assertion, { s with storage_lock := true }) := by
  have hneg : ¬ (p ≥ s.start + c.LS ∧ p < end_addr s.mem s.start ∧
      p - c.HS < end_addr s.mem s.start ∧ p - c.HS ≥ s.start + c.LS) := by
    intro ⟨h1, h2, h3, h4⟩
    have c4 := hc.2.2.2.1
    omega
  have hrm : remove_segment_at c { s with storage_lock := true } p =
      .error (Stop.assertion, { s with storage_lock := true }) := by
    unfold remove_segment_at
    show (ASSERT_at _ (p ≥ s.start + c.LS) >>= fun _ =>
      ASSERT_at _ (p < end_addr s.mem s.start) >>= fun _ =>
      ASSERT_at _ (p - c.HS < end_addr s.mem s.start) >>= fun _ =>
      ASSERT_at _ (p - c.HS ≥ s.start + c.LS) >>= fun _ => _) = _
    by_cases h1 : p ≥ s.start + c.LS
    · rw [ASSERT_at_bind _ _ _ h1]
      by_cases h2 : p < end_addr s.mem s.start
      · rw [ASSERT_at_bind _ _ _ h2]
        by_cases h3 : p - c.HS < end_addr s.mem s.start
        · rw [ASSERT_at_bind _ _ _ h3]
          exact ASSERT_at_fail_bind _ _ _ (fun h4 => hneg ⟨h1, h2, h3, h4⟩)
        · exact ASSERT_at_fail_bind _ _ _ h3
      · exact ASSERT_at_fail_bind _ _ _ h2
    · exact ASSERT_at_fail_bind _ _ _ h1
  have hat : free_at c s p = .error (Stop.assertion, { s with storage_lock := true }) := by
    unfold free_at
    rw [if_neg hp]
    unfold pthread_mutex_lock_at
    rw [hl]
    show (remove_segment_at c { s with storage_lock := true } p >>= _) = _
    rw [hrm]
    rfl
  refine ⟨?_, forget_free_at c s p, hat⟩
  rw [← forget_free_at c s p, hat]
  rfl

/-- Claim C39 on the state after `malloc(1)`: `free((void *)1)` and `free` of the
address `end` stop at an assertion in the state `heap1` with the mutex taken. -/
theorem C39_free_invalid_witness :
    sizes64.ok ∧ heap1.storage_lock = false ∧ end_addr heap1.mem heap1.start = 5136 ∧
    free sizes64 heap1 1 = .error Stop.assertion ∧
    free_at sizes64 heap1 1 = .error (Stop.assertion, { heap1 with storage_lock := true }) ∧
    free sizes64 heap1 5136 = .error Stop.assertion ∧
    free_at sizes64 heap1 5136 =
      .error (Stop.assertion, { heap1 with storage_lock := true }) :=
  ⟨by decide, by decide, by decide,
    (C39_free_invalid sizes64 (by decide) heap1 1 (by decide) (by decide)
      (Or.inl (by decide))).1,
    (C39_free_invalid sizes64 (by decide) heap1 1 (by decide) (by decide)
      (Or.inl (by decide))).2.2,
    (C39_free_invalid sizes64 (by decide) heap1 5136 (by decide) (by decide)
      (Or.inr (by decide))).1,
    (C39_free_invalid sizes64 (by decide) heap1 5136 (by decide) (by decide)
      (Or.inr (by decide))).2.2⟩

/-! ## A failing program break -/

set_option maxHeartbeats 1000000 in
/-- On a directory in which no gap holds the request, `malloc` ends the process with
`exit` when the break cannot rise by the growth the request needs. -/
theorem malloc_grow_exit (c : Sizes) (s : Heap) (bs : List Blk) (size fuel : Nat)
    (hl : s.storage_lock = false) (hinv : Inv c s bs)
    (hemp : bs = [] → end_addr s.mem s.start = s.start + c.LS)
    (hsz : 0 < size) (hfp : footprint c size < 2147483648) (hsz2 : size < 2147483648)
    (hg : g_alloc c fuel s size = .ok 0)
    (hno : ¬ s.brk + growBy (footprint c size) (trailing c s.mem s.start) ≤ s.brk_max) :
    malloc c fuel s size = .error Stop.exit := by
  have hs0 : s.start ≠ 0 := hinv.2.1
  have hnz : size ≠ 0 := by omega
  have hgaps : ∀ g ∈ gapsOf c s.start (end_addr s.mem s.start) bs, g.2 < footprint c size := by
    rcases g_alloc_cand c s bs size fuel hinv hfp with ⟨r, hg1, hr⟩ | ⟨herr, -⟩
    · rw [hg] at hg1
      have e : 0 = r := Except.ok.inj hg1
      rcases hr with ⟨-, h1⟩ | ⟨hne, -⟩
      · exact h1
      · exact absurd e.symm hne
    · rw [hg] at herr
      cases herr
  have hfind := find_of_miss c fuel { s with storage_lock := true } size hs0 hg
  rcases snoc_cases bs with hnil | ⟨A, l, hAl⟩
  · subst hnil
    have hE := hemp rfl
    have hfirst : first_seg s.mem s.start = 0 := hinv.2.2.2.2.2.2.2.2.2.2.2.1
    have hT : trailing c s.mem s.start = 0 := by
      unfold trailing
      rw [if_pos hfirst, hE, Nat.sub_self]
    have hG : growBy (footprint c size) 0 = (footprint c size + 4095) / 4096 * 4096 := by
      unfold growBy
      rw [Nat.sub_zero]
    rw [hT, hG] at hno
    obtain ⟨hr1, -⟩ := alloc_empty c { s with storage_lock := true } size hinv hE hfp hsz hsz2
    dsimp only at hr1
    rw [← hfind] at hr1
    exact malloc_err c fuel s size _ hl hnz (hr1 hno)
  · subst hAl
    obtain ⟨-, e2, e3, e4⟩ := Inv_end c s A l hinv
    have hT : trailing c s.mem s.start = l.ff := by
      unfold trailing
      rw [if_neg e3, e2, e4]
    have hG : growBy (footprint c size) l.ff =
        (footprint c size - l.ff + 4095) / 4096 * 4096 := by
      unfold growBy
      rfl
    rw [hT, hG] at hno
    have hlt : l.ff < footprint c size := by
      apply hgaps (l.tl c + c.TS, l.ff)
      unfold gapsOf
      simp [Blk.gap]
    obtain ⟨hr1, -⟩ := alloc_grow c { s with storage_lock := true } A l size hinv hlt
      hfp hsz hsz2
    dsimp only at hr1
    rw [← hfind] at hr1
    exact malloc_err c fuel s size _ hl hnz (hr1 hno)

/-- Claim C17, as the code has it, for a request of size and footprint `T` below
`2^31` in a state reached by the public operations.  Before a directory exists: if
the break cannot be raised for the list header, `malloc` returns the null address
and leaves the state as it was; if the header can be created but the break cannot be
raised by the growth `4096 * ceil(T / 4096)` of the arena, `malloc` does not return,
the process ends with `exit(EXIT_FAILURE)`.  On a directory that exists: if the
policy finds no gap and the break cannot be raised by the growth
`G = 4096 * ceil((T - F) / 4096)`, with `F` the trailing free space, `malloc` does
not return, the process ends with `exit(EXIT_FAILURE)`. -/
theorem C17_break_failure (c : Sizes) (hc : c.ok) (s : Heap) (L : List Nat)
    (h : Reach c s L) (fuel size : Nat) (h0 : 0 < size) (h2 : size < I31)
    (hfp : footprint c size < I31) :
    (s.start = 0 → ¬ s.brk + (c.LS + 16) ≤ s.brk_max → malloc c fuel s size = .ok (0, s)) ∧
    (s.start = 0 → s.brk + (c.LS + 16) ≤ s.brk_max →
      ¬ s.brk + (c.LS + 16) + growBy (footprint c size) 0 ≤ s.brk_max →
      malloc c fuel s size = .error Stop.exit) ∧
    (s.start ≠ 0 → g_alloc c fuel s size = .ok 0 →
      ¬ s.brk + growBy (footprint c size) (trailing c s.mem s.start) ≤ s.brk_max →
      malloc c fuel s size = .error Stop.exit) := by
  obtain ⟨bs, hpub, hL⟩ := reach_pub c hc s L h
  obtain ⟨hl, hcase⟩ := hpub
  have hG : growBy (footprint c size) 0 = (footprint c size + 4095) / 4096 * 4096 := by
    unfold growBy
    rw [Nat.sub_zero]
  rw [hG]
  rcases hcase with ⟨e0, hbs, hla, -, hb1, hb2, hb3, hb4⟩ | ⟨hinv, hemp⟩
  · obtain ⟨f1, f2, -⟩ := malloc_fresh_case c s size fuel hl e0 hla hc hb1 hb3 hb4 h0 hfp h2
    exact ⟨fun _ => f1, fun _ => f2, fun hne => absurd e0 hne⟩
  · have hs0 := hinv.2.1
    refine ⟨fun e => absurd e hs0, fun e => absurd e hs0, fun _ hg hno => ?_⟩
    exact malloc_grow_exit c s bs size fuel hl hinv (fun e => (hemp e).1) h0 hfp h2 hg hno

/-- Claim C17 at the fresh process whose break may rise from `1000` to `1100` only,
where the header fits and one page for the arena does not, and at the state after
`malloc(1)` of a process whose break may rise to `1000000`, where no gap holds
`2000000` bytes and the arena cannot grow by them: `malloc` ends the process. -/
theorem C17_break_failure_witness :
    sizes64.ok ∧ Reach sizes64 (fresh (fun _ => 0) 1000 1100) [] ∧ 0 < 1 ∧ 1 < I31 ∧
    footprint sizes64 1 < I31 ∧
    malloc sizes64 10 (fresh (fun _ => 0) 1000 1100) 1 = .error Stop.exit ∧
    Reach sizes64 heap1 [1088] ∧ heap1.start ≠ 0 ∧ 0 < 2000000 ∧ 2000000 < I31 ∧
    footprint sizes64 2000000 < I31 ∧ g_alloc sizes64 10 heap1 2000000 = .ok 0 ∧
    malloc sizes64 10 heap1 2000000 = .error Stop.exit :=
  ⟨by decide, Reach.init _ 1000 1100 (by decide) (by decide) (by decide) (by decide),
    by decide, by decide, by decide,
    (C17_break_failure sizes64 (by decide) (fresh (fun _ => 0) 1000 1100) []
      (Reach.init _ 1000 1100 (by decide) (by decide) (by decide) (by decide)) 10 1
      (by decide) (by decide) (by decide)).2.1 rfl (by decide) (by decide),
    reach_heap1, by decide, by decide, by decide, by decide, rfl,
    (C17_break_failure sizes64 (by decide) heap1 [1088] reach_heap1 10 2000000
      (by decide) (by decide) (by decide)).2.2 (by decide) rfl (by decide)⟩

/-- The claim C17 fails when the break cannot be raised for the arena: on the fresh
process whose break may rise from `1000` to `1100` only, the list header is created
and `malloc(1)` does not return the null address, it ends the process with `exit`.
For a footprint that is not in the `int` range the growth is not tried: in the same
process, for the size `2147483551` with footprint `2^31`, `malloc` stops at an
assertion of `expand_list`. -/
theorem C17_counterexample :
    (fresh (fun _ => 0) 1000 1100).brk + (sizes64.LS + 16) ≤
      (fresh (fun _ => 0) 1000 1100).brk_max ∧
    ¬ (fresh (fun _ => 0) 1000 1100).brk + (sizes64.LS + 16) + 4096 ≤
      (fresh (fun _ => 0) 1000 1100).brk_max ∧
    malloc sizes64 10 (fresh (fun _ => 0) 1000 1100) 1 = .error Stop.exit ∧
    footprint sizes64 2147483551 = 2147483648 ∧
    malloc sizes64 10 (fresh (fun _ => 0) 1000 1100) 2147483551 = .error Stop.assertion :=
  ⟨by decide, by decide, rfl, by decide, rfl⟩

/-! ## The policies on an arena of `2^31` bytes -/

/-- The claim C16 fails on a directory whose arena holds `2^31` bytes.  On the
directory without blocks that `malloc(2^31 - 200)` leaves on a process whose break may
rise to `2^40`, the cursor is none, the only gap `[1040, 1040 + 2^31)` holds `2^31`
bytes, and for the size `1`, whose footprint is `112`, each of the four policies
returns none: the size of the gap is negative as an `int`. -/
theorem C16_counterexample :
    malloc sizes64 10 heapV 2147483448 = .ok (0, heapR) ∧
    heapR.start = 1008 ∧ first_seg heapR.mem heapR.start = 0 ∧ heapR.last_addr = 0 ∧
    end_addr heapR.mem heapR.start = 1040 + 2147483648 ∧
    gapList sizes64 heapR.mem heapR.start 0 = [(1040, 2147483648)] ∧
    footprint sizes64 1 = 112 ∧
    toInt32 ((2147483648 : Nat) : Int) = -2147483648 ∧
    g_alloc sizes64 10 (set_alloc_function heapR Strat.FIRST_FIT) 1 = .ok 0 ∧
    g_alloc sizes64 10 (set_alloc_function heapR Strat.BEST_FIT) 1 = .ok 0 ∧
    g_alloc sizes64 10 (set_alloc_function heapR Strat.WORST_FIT) 1 = .ok 0 ∧
    g_alloc sizes64 10 (set_alloc_function heapR Strat.NEXT_FIT) 1 = .ok 0 :=
  ⟨rfl, by decide, by decide, by decide, by decide, by decide, by decide, by decide,
    rfl, rfl, rfl, rfl⟩

end Julmalloc
